import Mathlib

/-!
# Limboole / Nenofex: a verification development

Shallow embedding of parts of `limboole.c` (the Tseitin encoder) and of
`nenofex-version-1.1/atpg.c` (global flow and ATPG redundancy removal),
followed by theorems about the embedded code.

Conventions.
* C `unsigned int` values are natural numbers; where the C code computes in
  32-bit arithmetic the embedding reduces modulo `2 ^ 32` explicitly.
* Pointers are natural-number indices into tables, the null pointer is `none`.
* Assertions are compiled out (`NDEBUG`): the embedding follows the release
  behaviour, and the assertions are quoted in comments where they matter.
-/

namespace Atpg

/-! ## Definitions -/

/-- Word size of C `unsigned int` on the supported platforms. -/
def UINT_MOD : Nat := 2 ^ 32

/-- Conversion of a C `int` to `unsigned int`. -/
def int_to_unsigned (i : Int) : Nat := (i % (UINT_MOD : Int)).toNat

/-- The two file-scope budgets `ATPG_PROPAGATION_LIMIT` and
`GLOBAL_FLOW_PROPAGATION_LIMIT` of `atpg.c`. -/
structure PropagationLimits where
  ATPG_PROPAGATION_LIMIT : Nat
  GLOBAL_FLOW_PROPAGATION_LIMIT : Nat
  deriving DecidableEq, Repr

/-- Initial values of the two static budgets (`atpg.c`, lines 37-38). -/
def default_limits : PropagationLimits := ⟨50000, 50000⟩

/-- Embedding of `set_propagation_limits` (`atpg.c`, lines 3527-3574): the
chain of `if / else if` on `size`, each branch storing one constant into both
budgets. -/
def set_propagation_limits (size : Nat) : PropagationLimits :=
  if size ≤ 800 then ⟨1500000, 1500000⟩
  else if size ≤ 1000 then ⟨1200000, 1200000⟩
  else if size ≤ 1500 then ⟨800000, 800000⟩
  else if size ≤ 2000 then ⟨700000, 700000⟩
  else if size ≤ 3000 then ⟨600000, 600000⟩
  else if size ≤ 4000 then ⟨500000, 500000⟩
  else if size ≤ 6000 then ⟨300000, 300000⟩
  else if size ≤ 8000 then ⟨200000, 200000⟩
  else if size ≤ 10000 then ⟨100000, 100000⟩
  else if size ≤ 12000 then ⟨50000, 50000⟩
  else ⟨10000, 10000⟩

/-- The fields of `nenofex->options` read by `atpg.c`. -/
structure Options where
  propagation_limit_specified : Int := 0
  propagation_limit : Int := 0
  no_atpg_specified : Int := 0
  no_global_flow_specified : Int := 0
  show_opt_info_specified : Int := 0
  deriving DecidableEq, Repr

/-- The loop `for (ch = children; *ch; ch++) size += (*ch)->size_subformula`
of `allocate_atpg_info_pointers` (lines 3586-3590), in 32-bit arithmetic,
starting from `size = 1` for the LCA. -/
def subgraph_size (child_sizes : List Nat) : Nat :=
  child_sizes.foldl (fun size c => (size + c) % UINT_MOD) 1

/-- The budget part of `allocate_atpg_info_pointers` (lines 3597-3603):
the table is used when `propagation_limit_specified` is zero, otherwise the
option value is stored (converted to `unsigned int`) into both budgets. -/
def allocate_atpg_info_pointers_limits (o : Options) (size : Nat) : PropagationLimits :=
  if o.propagation_limit_specified = 0 then set_propagation_limits size
  else ⟨int_to_unsigned o.propagation_limit, int_to_unsigned o.propagation_limit⟩

/-- Number of `ATPGInfo` entries allocated by `allocate_atpg_info_pointers`
(line 3605: `(size + size / 2) * sizeof (ATPGInfo)` bytes). -/
def atpg_info_array_entries (size : Nat) : Nat := (size + size / 2) % UINT_MOD

/-- The budget table of the specification, row by row. -/
def budget_table : List (Nat × Nat) :=
  [(800, 1500000), (1000, 1200000), (1500, 800000), (2000, 700000), (3000, 600000),
   (4000, 500000), (6000, 300000), (8000, 200000), (10000, 100000), (12000, 50000)]

/-- Lookup in the specification's table: the budget of the first row whose
bound is at least `S`, and `10000` when there is none. -/
def budget_of_table (S : Nat) : List (Nat × Nat) → Nat
  | [] => 10000
  | (bound, budget) :: rest => if S ≤ bound then budget else budget_of_table S rest


/-! ## Definitions: `nenofex_types.h` -/

/-- `enum NodeType`. -/
inductive NodeType where
  | LITERAL | OR | AND
  deriving DecidableEq, Repr

/-- `enum VarAssignment`. -/
inductive VarAssignment where
  | UNDEFINED | FALSE | TRUE
  deriving DecidableEq, Repr

/-- `enum ATPGAssignment`. -/
inductive ATPGAssignment where
  | UNDEFINED | FALSE | TRUE
  deriving DecidableEq, Repr

/-- `enum ATPGFaultType`. -/
inductive ATPGFaultType where
  | STUCK_AT_0 | STUCK_AT_1
  deriving DecidableEq, Repr

/-- `enum NenofexResult`. -/
inductive NenofexResult where
  | UNKNOWN | SAT | UNSAT
  deriving DecidableEq, Repr

/-- A `Lit *`: the variable it belongs to and its `negated` bit. -/
structure Lit where
  var : Nat
  negated : Bool
  deriving DecidableEq, Repr

/-- `struct Node`. Pointers are indices into the node table. The doubly
linked child list (`child_list.first/last`, `level_link.next/prev`) is the
list `child_list` in order from `first` to `last`. Of the multi-purpose marks
only `mark2` is used by `atpg.c` (as the mark `collect_faults_mark`). -/
structure Node where
  level : Nat
  type : NodeType
  parent : Option Nat
  child_list : List Nat := []
  lit : Option Lit := none
  num_children : Nat := 0
  size_subformula : Nat := 1
  atpg_info : Option Nat := none
  lca_child_list_occs : Option (List Nat) := none
  mark2 : Bool := false
  deriving DecidableEq, Repr

/-- `struct FaultNode`: the proxy `{node, deleted, skip}`. -/
structure FaultNode where
  node : Nat
  deleted : Bool := false
  skip : Bool := false
  deriving DecidableEq, Repr

/-- `struct ATPGInfo`. `atpg_ch` is the restricted watcher list in array order
(`elems[0]` first) and `watcher_pos` an index into it; lists of handles hold
indices of `FaultNode`s. -/
structure ATPGInfo where
  fault_node : Option Nat := none
  assignment : ATPGAssignment := ATPGAssignment.UNDEFINED
  watcher : Option Nat := none
  unassigned_ch_cnt : Nat := 0
  atpg_ch : Option (List Nat) := none
  watcher_pos : Option Nat := none
  clean_up_watcher_list : Bool := false
  justified : Bool := false
  path_mark : Bool := false
  collected : Bool := false
  fault_path_node_collected : Bool := false
  deriving DecidableEq, Repr

/-- The fields of `struct Var` used by `atpg.c`. The occurrence stacks are in
array order; `lca` is `exp_costs.lca_object.lca`. -/
structure Var where
  assignment : VarAssignment := VarAssignment.UNDEFINED
  atpg_mark : Bool := false
  subformula_pos_occs : Option (List Nat) := none
  subformula_neg_occs : Option (List Nat) := none
  lca_update_mark : Bool := false
  inc_score_update_mark : Bool := false
  dec_score_update_mark : Bool := false
  lca : Option Nat := none
  deriving DecidableEq, Repr

/-- The member `stats` of `struct ATPGRedundancyRemover`. -/
structure Stats where
  fwd_prop_cnt : Nat := 0
  bwd_prop_cnt : Nat := 0
  fault_cnt : Nat := 0
  red_fault_cnt : Nat := 0
  derived_implications_cnt : Nat := 0
  deriving DecidableEq, Repr

/-- Observable actions of the engine, recorded in the history `trace` (which
is not a field of the C structure and is never read by the embedded code).
Each entry stores the flags that were set when the action happened. -/
inductive Event where
  | node_assigned (node : Nat) (value : ATPGAssignment) (prop_cutoff : Bool)
  | var_assigned (var : Nat) (value : VarAssignment) (prop_cutoff : Bool)
  | var_dequeued (var : Nat) (conflict : Bool) (prop_cutoff : Bool)
  | fault_tested (fault_node : Nat) (deleted : Bool) (skip : Bool) (prop_cutoff : Bool)
  | implication_tried (fault_node : Nat) (deleted : Bool) (prop_cutoff : Bool)
  | prop_step (fwd_prop_cnt : Nat) (bwd_prop_cnt : Nat) (limit : Nat) (cutoff_raised : Bool)
  | conflict_set
  deriving DecidableEq, Repr

/-- `struct ATPGRedundancyRemover`. Queues are lists with the front first;
the LIFO stacks `touched_nodes`, `propagated_vars`, `bwd_prop_stack` and
`fault_path_nodes` are lists with the top first; `subformula_vars` is in array
order. `fault_nodes` is the heap of `FaultNode` objects created by
`create_fault_node`. The arena `atpg_info_array` is `none` when the pointer is
null; `end_atpg_info` is its length. -/
structure ATPGRedundancyRemover where
  fault_queue : List Nat := []
  propagation_queue : List Nat := []
  conflict : Bool := false
  prop_cutoff : Bool := false
  global_flow_prop_cutoff : Bool := false
  atpg_prop_cutoff : Bool := false
  restricted_clean_up : Bool := false
  global_flow_fwd_prop_cnt : Nat := 0
  global_flow_bwd_prop_cnt : Nat := 0
  atpg_fwd_prop_cnt : Nat := 0
  atpg_bwd_prop_cnt : Nat := 0
  touched_nodes : List Nat := []
  propagated_vars : List Nat := []
  bwd_prop_stack : List (Option Nat) := []
  fault_path_nodes : List Nat := []
  stats : Stats := {}
  atpg_info_array : Option (List ATPGInfo) := none
  byte_size_atpg_info_array : Nat := 0
  cur_atpg_info : Option Nat := none
  end_atpg_info : Option Nat := none
  fault_nodes : List FaultNode := []
  subformula_vars : List Nat := []
  global_flow_optimizing : Bool := false
  global_atpg_test_node_mark : Bool := false
  collect_faults_set : Bool := false
  trace : List Event := []
  deriving DecidableEq, Repr

/-- `struct LCAObject` as used for `changed_subformula`: the LCA and the
null-terminated array `children`. -/
structure LCAObject where
  lca : Option Nat := none
  children : List Nat := []
  deriving DecidableEq, Repr

/-- The fields of `struct Nenofex` used by `atpg.c`, together with the two
static budgets of `atpg.c`. A freed node is `none` in the node table. -/
structure Nenofex where
  nodes : List (Option Node) := []
  vars : List Var := []
  graph_root : Option Nat := none
  result : NenofexResult := NenofexResult.UNKNOWN
  atpg_rr_called : Bool := false
  atpg_rr_abort : Bool := false
  atpg_rr_reset_changed_subformula : Bool := false
  atpg_rr : ATPGRedundancyRemover := {}
  changed_subformula : LCAObject := {}
  options : Options := {}
  limits : PropagationLimits := default_limits
  deriving DecidableEq, Repr

/-- Ways in which a run of the embedding stops without a result: the fuel
that bounds loops and recursion ran out, the C code would dereference a
null or dangling pointer, or the C code calls `exit (1)`. -/
inductive Err where
  | fuel | undef | exit
  deriving DecidableEq, Repr

/-- Results of the embedded functions. -/
abbrev M := Except Err

/-- Dereference of a possibly null pointer. -/
def deref {α : Type} (o : Option α) : M α :=
  match o with
  | some a => pure a
  | none => throw Err.undef

/-- Access `*node`. -/
def get_node (s : Nenofex) (n : Nat) : M Node :=
  match s.nodes[n]? with
  | some (some nd) => pure nd
  | _ => throw Err.undef

/-- Access an arena entry. -/
def get_info (s : Nenofex) (i : Nat) : M ATPGInfo :=
  match s.atpg_rr.atpg_info_array with
  | some arr => deref arr[i]?
  | none => throw Err.undef

/-- The pointer `node->atpg_info`, dereferenced later. -/
def info_index (s : Nenofex) (n : Nat) : M Nat := do
  let nd ← get_node s n
  deref nd.atpg_info

/-- Access `node->atpg_info->...`. -/
def node_info (s : Nenofex) (n : Nat) : M ATPGInfo := do
  let i ← info_index s n
  get_info s i

/-- Store an arena entry. -/
def set_info (s : Nenofex) (i : Nat) (a : ATPGInfo) : Nenofex :=
  { s with atpg_rr.atpg_info_array := s.atpg_rr.atpg_info_array.map (fun arr => arr.set i a) }

/-- Update `node->atpg_info->...`. -/
def modify_node_info (s : Nenofex) (n : Nat) (f : ATPGInfo → ATPGInfo) : M Nenofex := do
  let i ← info_index s n
  let a ← get_info s i
  pure (set_info s i (f a))

/-- Access a `FaultNode`. -/
def get_fault_node (s : Nenofex) (f : Nat) : M FaultNode :=
  deref s.atpg_rr.fault_nodes[f]?

/-- Access a `Var`. -/
def get_var (s : Nenofex) (v : Nat) : M Var :=
  deref s.vars[v]?

/-- Store a `Var`. -/
def set_var (s : Nenofex) (v : Nat) (x : Var) : Nenofex :=
  { s with vars := s.vars.set v x }

/-- Append an entry to the history. -/
def log (s : Nenofex) (e : Event) : Nenofex :=
  { s with atpg_rr.trace := s.atpg_rr.trace ++ [e] }

/-- The statement `atpg_rr->conflict = 1`. -/
def set_conflict (s : Nenofex) : Nenofex :=
  log { s with atpg_rr.conflict := true } Event.conflict_set

/-- The macros `node_assign_true`, `node_assign_false` and `node_unassign`. -/
def node_assign (s : Nenofex) (n : Nat) (v : ATPGAssignment) : M Nenofex := do
  let i ← info_index s n
  let a ← get_info s i
  pure (log (set_info s i { a with assignment := v })
    (Event.node_assigned n v s.atpg_rr.prop_cutoff))

/-- The macros `var_assign_true` and `var_assign_false`. -/
def var_assign (s : Nenofex) (v : Nat) (x : VarAssignment) : M Nenofex := do
  let var ← get_var s v
  pure (log (set_var s v { var with assignment := x })
    (Event.var_assigned v x s.atpg_rr.prop_cutoff))

/-- The macro `var_unassign`. -/
def var_unassign (s : Nenofex) (v : Nat) : M Nenofex := do
  let var ← get_var s v
  pure (set_var s v { var with assignment := VarAssignment.UNDEFINED })

/-- `enqueue (mm, atpg_rr->propagation_queue, var)`. -/
def enqueue_propagation (s : Nenofex) (v : Nat) : Nenofex :=
  { s with atpg_rr.propagation_queue := s.atpg_rr.propagation_queue ++ [v] }

/-- Embedding of `mark_fault_node_as_deleted`. -/
def mark_fault_node_as_deleted (s : Nenofex) (f : Nat) : M Nenofex := do
  let fn ← get_fault_node s f
  pure { s with atpg_rr.fault_nodes := s.atpg_rr.fault_nodes.set f { fn with deleted := true } }

/-- Embedding of `collect_assigned_node` (lines 519-529). -/
def collect_assigned_node (s : Nenofex) (node : Nat) : M Nenofex := do
  let i ← info_index s node
  let a ← get_info s i
  if !a.collected then
    let s1 := set_info s i { a with collected := true }
    pure { s1 with atpg_rr.touched_nodes := i :: s1.atpg_rr.touched_nodes }
  else
    pure s

/-- The comparison of the step counters with the active budget that opens
every propagation step (for example lines 1556-1561), in `unsigned`
arithmetic. -/
def limit_exceeded (s : Nenofex) : Bool :=
  let sum := (s.atpg_rr.stats.bwd_prop_cnt + s.atpg_rr.stats.fwd_prop_cnt) % UINT_MOD
  (!s.atpg_rr.global_flow_optimizing && decide (sum > s.limits.ATPG_PROPAGATION_LIMIT))
  || (s.atpg_rr.global_flow_optimizing && decide (sum > s.limits.GLOBAL_FLOW_PROPAGATION_LIMIT))

/-- `atpg_rr->stats.fwd_prop_cnt++`. -/
def inc_fwd_prop_cnt (s : Nenofex) : Nenofex :=
  { s with atpg_rr.stats.fwd_prop_cnt := (s.atpg_rr.stats.fwd_prop_cnt + 1) % UINT_MOD }

/-- `atpg_rr->stats.bwd_prop_cnt++`. -/
def inc_bwd_prop_cnt (s : Nenofex) : Nenofex :=
  { s with atpg_rr.stats.bwd_prop_cnt := (s.atpg_rr.stats.bwd_prop_cnt + 1) % UINT_MOD }

/-- The budget that is active: `GLOBAL_FLOW_PROPAGATION_LIMIT` during global
flow, `ATPG_PROPAGATION_LIMIT` otherwise. -/
def active_limit (s : Nenofex) : Nat :=
  if s.atpg_rr.global_flow_optimizing then s.limits.GLOBAL_FLOW_PROPAGATION_LIMIT
  else s.limits.ATPG_PROPAGATION_LIMIT

/-- Record a propagation step in the history: the counters after the
increment, the active budget, and whether the step raised the cutoff. -/
def log_step (s : Nenofex) (cutoff_raised : Bool) : Nenofex :=
  log s (Event.prop_step s.atpg_rr.stats.fwd_prop_cnt s.atpg_rr.stats.bwd_prop_cnt
    (active_limit s) cutoff_raised)

/-- `node_assigned (node)` as a truth value. -/
def node_assigned (s : Nenofex) (n : Nat) : M Bool := do
  let a ← node_info s n
  pure (a.assignment != ATPGAssignment.UNDEFINED)

/-! ## Definitions: watchers (`atpg.c`, lines 532-1099) -/

/-- The loop of `clean_up_watcher_atpg_child_list` (lines 548-570): deleted
handles are overwritten by the last entry; `k` bounds the number of
iterations by the length of the list. Returns the array and the new `top`. -/
def clean_up_loop (s : Nenofex) : Nat → List Nat → Nat → Nat → M (List Nat × Nat)
  | 0, elems, _, end_ => pure (elems, end_)
  | k + 1, elems, cur, end_ =>
    if cur < end_ then do
      let f ← deref elems[cur]?
      let fn ← get_fault_node s f
      if fn.deleted then
        if cur = end_ - 1 then
          pure (elems, end_ - 1)
        else do
          let last ← deref elems[end_ - 1]?
          clean_up_loop s k (elems.set cur last) cur (end_ - 1)
      else
        clean_up_loop s k elems (cur + 1) end_
    else
      pure (elems, end_)

/-- Embedding of `clean_up_watcher_atpg_child_list` on the arena entry `i`. -/
def clean_up_watcher_atpg_child_list (s : Nenofex) (i : Nat) : M Nenofex := do
  let a ← get_info s i
  let ch ← deref a.atpg_ch
  let (elems, top) ← clean_up_loop s ch.length ch 0 ch.length
  pure (set_info s i { a with atpg_ch := some (elems.take top) })

/-- The `while` loop of `update_watcher_by_watcher_list` (lines 952-960) over
the entries from `cur` on: the first handle whose node is unassigned, and the
position reached. -/
def scan_watcher_list (s : Nenofex) : List Nat → Nat → M (Option Nat × Nat)
  | [], cur => pure (none, cur)
  | f :: rest, cur => do
    let fn ← get_fault_node s f
    if ← node_assigned s fn.node then
      scan_watcher_list s rest (cur + 1)
    else
      pure (some fn.node, cur)

/-- Embedding of `update_watcher_by_watcher_list` (lines 935-973). -/
def update_watcher_by_watcher_list (s : Nenofex) (parent : Nat) : M Nenofex := do
  let i ← info_index s parent
  let a ← get_info s i
  let watcher ← deref a.watcher
  if ← node_assigned s watcher then
    let ch ← deref a.atpg_ch
    let pos ← deref a.watcher_pos
    let (found, cur) ← scan_watcher_list s (ch.drop (pos + 1)) (pos + 1)
    if cur = ch.length then
      pure (set_info s i { a with watcher := none, watcher_pos := some ch.length })
    else
      pure (set_info s i { a with watcher := some (found.getD watcher), watcher_pos := some cur })
  else
    pure s

/-- The siblings that follow `n` through `level_link.next`. -/
def level_link_after (s : Nenofex) (n : Nat) : M (List Nat) := do
  let nd ← get_node s n
  match nd.parent with
  | none => pure []
  | some p => do
    let pnd ← get_node s p
    pure ((pnd.child_list.dropWhile (fun c => c != n)).drop 1)

/-- The `do ... while` loop of `update_watcher_by_child_list` (lines 991-995):
the first unassigned node of the list, or null. -/
def scan_child_list (s : Nenofex) : List Nat → M (Option Nat)
  | [] => pure none
  | c :: rest => do
    if ← node_assigned s c then scan_child_list s rest else pure (some c)

/-- Embedding of `update_watcher_by_child_list` (lines 980-999). -/
def update_watcher_by_child_list (s : Nenofex) (parent : Nat) : M Nenofex := do
  let i ← info_index s parent
  let a ← get_info s i
  let watcher ← deref a.watcher
  if ← node_assigned s watcher then
    let after ← level_link_after s watcher
    let w ← scan_child_list s after
    pure (set_info s i { a with watcher := w })
  else
    pure s

/-- The expression `((FaultNode *) *atpg_ch->elems)->node` (lines 357, 1023). -/
def first_watcher (s : Nenofex) (ch : List Nat) : M (Option Nat) :=
  match ch[0]? with
  | some f => do
    let fn ← get_fault_node s f
    pure (some fn.node)
  | none => pure none

/-- Embedding of `init_counter_and_watcher` (lines 1006-1035). With an empty
restricted list the C code reads the stale slot `elems[0]`; the embedding
stores a null watcher in that case. -/
def init_counter_and_watcher (s : Nenofex) (node : Nat) : M Nenofex := do
  let i ← info_index s node
  let a ← get_info s i
  match a.atpg_ch with
  | some _ => do
    let s1 ← (if a.clean_up_watcher_list then
        clean_up_watcher_atpg_child_list (set_info s i { a with clean_up_watcher_list := false }) i
      else pure s)
    let a1 ← get_info s1 i
    let ch ← deref a1.atpg_ch
    let w ← first_watcher s1 ch
    pure (set_info s1 i { a1 with watcher_pos := some 0, watcher := w,
                                   unassigned_ch_cnt := ch.length })
  | none => do
    let nd ← get_node s node
    pure (set_info s i { a with watcher := nd.child_list.head?,
                                 unassigned_ch_cnt := nd.num_children })

/-- Embedding of `update_counter_and_watcher` (lines 1041-1061); the
decrement is an `unsigned` decrement. -/
def update_counter_and_watcher (s : Nenofex) (parent : Nat) : M Nenofex := do
  let i ← info_index s parent
  let a ← get_info s i
  let s1 := set_info s i
    { a with unassigned_ch_cnt := (a.unassigned_ch_cnt + (UINT_MOD - 1)) % UINT_MOD }
  match a.atpg_ch with
  | some _ => update_watcher_by_watcher_list s1 parent
  | none => update_watcher_by_child_list s1 parent

/-! ## Definitions: propagation (`atpg.c`, lines 1203-2080) -/

/-- The literal case of backward propagation (lines 1241-1263 and
1461-1483): `want` is the value the literal node must take. -/
def backward_literal (s : Nenofex) (node : Nat) (want : Bool) : M Nenofex := do
  let nd ← get_node s node
  let lit ← deref nd.lit
  let var ← get_var s lit.var
  if var.assignment = VarAssignment.UNDEFINED then
    let s1 ← var_assign s lit.var
      (if lit.negated = want then VarAssignment.FALSE else VarAssignment.TRUE)
    pure (enqueue_propagation s1 lit.var)
  else if (lit.negated = want ∧ var.assignment = VarAssignment.TRUE)
      ∨ (lit.negated ≠ want ∧ var.assignment = VarAssignment.FALSE) then
    pure (set_conflict s)
  else
    pure s

/-- The loop `for (ch = last; ch; ch = prev) if (!node_assigned (ch)) push`
(lines 1275-1289, 1515-1529), applied to the children from last to first. -/
def push_unassigned_children (s : Nenofex) : List Nat → M Nenofex
  | [] => pure s
  | ch :: rest => do
    if ← node_assigned s ch then
      push_unassigned_children s rest
    else
      push_unassigned_children
        { s with atpg_rr.bwd_prop_stack := some ch :: s.atpg_rr.bwd_prop_stack } rest

/-- The `while` loop of the stack version of `backward_propagate_truth`
(lines 1221-1313). -/
def backward_propagate_truth_loop : Nat → Nenofex → M Nenofex
  | 0, _ => throw Err.fuel
  | fuel + 1, s =>
    if s.atpg_rr.conflict then pure s
    else
      match s.atpg_rr.bwd_prop_stack with
      | [] => pure s
      | none :: rest => pure { s with atpg_rr.bwd_prop_stack := rest }
      | some node :: rest => do
        let s := inc_bwd_prop_cnt { s with atpg_rr.bwd_prop_stack := rest }
        if limit_exceeded s then
          pure (log_step { s with atpg_rr.prop_cutoff := true } true)
        else
          let s := log_step s false
          let nd ← get_node s node
          if nd.type = NodeType.LITERAL then
            let s ← backward_literal s node true
            backward_propagate_truth_loop fuel s
          else if nd.type = NodeType.AND then
            let s ← node_assign s node ATPGAssignment.TRUE
            let s ← collect_assigned_node s node
            let s ← push_unassigned_children s nd.child_list.reverse
            let s ← modify_node_info s node (fun a => { a with justified := true })
            backward_propagate_truth_loop fuel s
          else
            let s ← node_assign s node ATPGAssignment.TRUE
            let s ← collect_assigned_node s node
            let a ← node_info s node
            if a.unassigned_ch_cnt = 1 then
              let s := { s with atpg_rr.bwd_prop_stack := a.watcher :: s.atpg_rr.bwd_prop_stack }
              let s ← modify_node_info s node (fun a => { a with justified := true })
              backward_propagate_truth_loop fuel s
            else
              backward_propagate_truth_loop fuel s

/-- Embedding of the stack version of `backward_propagate_truth`
(lines 1207-1316); `node` may be a null pointer. -/
def backward_propagate_truth (fuel : Nat) (s : Nenofex) (node : Option Nat) : M Nenofex := do
  let s1 ← backward_propagate_truth_loop fuel
    { s with atpg_rr.bwd_prop_stack := node :: s.atpg_rr.bwd_prop_stack }
  pure { s1 with atpg_rr.bwd_prop_stack := [] }

/-- The `while` loop of the stack version of `backward_propagate_falsity`
(lines 1442-1533). -/
def backward_propagate_falsity_loop : Nat → Nenofex → M Nenofex
  | 0, _ => throw Err.fuel
  | fuel + 1, s =>
    if s.atpg_rr.conflict then pure s
    else
      match s.atpg_rr.bwd_prop_stack with
      | [] => pure s
      | none :: rest => pure { s with atpg_rr.bwd_prop_stack := rest }
      | some node :: rest => do
        let s := inc_bwd_prop_cnt { s with atpg_rr.bwd_prop_stack := rest }
        if limit_exceeded s then
          pure (log_step { s with atpg_rr.prop_cutoff := true } true)
        else
          let s := log_step s false
          let nd ← get_node s node
          if nd.type = NodeType.LITERAL then
            let s ← backward_literal s node false
            backward_propagate_falsity_loop fuel s
          else if nd.type = NodeType.AND then
            let s ← node_assign s node ATPGAssignment.FALSE
            let s ← collect_assigned_node s node
            let a ← node_info s node
            if a.unassigned_ch_cnt = 1 then
              let s := { s with atpg_rr.bwd_prop_stack := a.watcher :: s.atpg_rr.bwd_prop_stack }
              let s ← modify_node_info s node (fun a => { a with justified := true })
              backward_propagate_falsity_loop fuel s
            else
              backward_propagate_falsity_loop fuel s
          else
            let s ← node_assign s node ATPGAssignment.FALSE
            let s ← collect_assigned_node s node
            let s ← push_unassigned_children s nd.child_list.reverse
            let s ← modify_node_info s node (fun a => { a with justified := true })
            backward_propagate_falsity_loop fuel s

/-- Embedding of the stack version of `backward_propagate_falsity`
(lines 1428-1536); `node` may be a null pointer. -/
def backward_propagate_falsity (fuel : Nat) (s : Nenofex) (node : Option Nat) : M Nenofex := do
  let s1 ← backward_propagate_falsity_loop fuel
    { s with atpg_rr.bwd_prop_stack := node :: s.atpg_rr.bwd_prop_stack }
  pure { s1 with atpg_rr.bwd_prop_stack := [] }

/-- The test `parent_parent && parent_parent->atpg_info &&
parent_parent->atpg_info->path_mark` (lines 1596-1597, 1722-1723). -/
def parent_parent_path_mark (s : Nenofex) (parent : Nat) : M Bool := do
  let pnd ← get_node s parent
  match pnd.parent with
  | none => pure false
  | some pp => do
    let ppnd ← get_node s pp
    match ppnd.atpg_info with
    | none => pure false
    | some i => do
      let a ← get_info s i
      pure a.path_mark

/-- The condition of lines 1594-1597 (`v` false) and 1720-1723 (`v` true):
the parent has the value `v` without being justified, or it is unassigned,
not on the path, and its own parent is on the path. -/
def off_path_input (s : Nenofex) (parent : Nat) (pa : ATPGInfo) (v : ATPGAssignment) : M Bool :=
  if pa.assignment = v ∧ pa.justified = false then pure true
  else if pa.assignment = ATPGAssignment.UNDEFINED ∧ pa.path_mark = false then
    parent_parent_path_mark s parent
  else pure false

/-- The prefix shared by `forward_propagate_truth` and
`forward_propagate_falsity` after the budget test (lines 1571-1588 and
1697-1714): assign `node`, mark it justified and collected, and, unless `node`
is the subformula LCA, update the counter and watcher of the parent. Returns
the parent, or `none` when the function returns at the LCA. -/
def forward_assign (s : Nenofex) (node : Nat) (v : ATPGAssignment) :
    M (Nenofex × Option Nat) := do
  let s ← node_assign s node v
  let s ← modify_node_info s node (fun a => { a with justified := true })
  let s ← collect_assigned_node s node
  let nd ← get_node s node
  if s.changed_subformula.lca = some node then
    pure (s, none)
  else
    let parent ← deref nd.parent
    let pa ← node_info s parent
    if pa.assignment = ATPGAssignment.UNDEFINED ∨ pa.justified = false then
      let s ← update_counter_and_watcher s parent
      let s ← collect_assigned_node s parent
      pure (s, some parent)
    else
      pure (s, some parent)

mutual

/-- Embedding of `forward_propagate_truth` (lines 1547-1666); the jump to
`TAIL_RECURSIVE_CALL` is a recursive call. -/
def forward_propagate_truth : Nat → Nenofex → Nat → M Nenofex
  | 0, _, _ => throw Err.fuel
  | fuel + 1, s, node => do
    let s := inc_fwd_prop_cnt s
    if limit_exceeded s then
      pure (log_step { s with atpg_rr.prop_cutoff := true } true)
    else
      let s := log_step s false
      let (s, parent?) ← forward_assign s node ATPGAssignment.TRUE
      match parent? with
      | none => pure s
      | some parent => do
        let pnd ← get_node s parent
        let pa ← node_info s parent
        if pnd.type = NodeType.AND then
          let off_path ← off_path_input s parent pa ATPGAssignment.FALSE
          if off_path then
            if pa.unassigned_ch_cnt = 1 then
              let s ← backward_propagate_falsity fuel s pa.watcher
              let pa1 ← node_info s parent
              if pa1.assignment = ATPGAssignment.UNDEFINED ∧ s.atpg_rr.conflict = false then
                forward_propagate_falsity fuel s parent
              else
                pure s
            else
              pure s
          else if pa.assignment = ATPGAssignment.UNDEFINED then
            if pa.unassigned_ch_cnt = 0 then
              forward_propagate_truth fuel s parent
            else
              pure s
          else
            pure s
        else
          let na ← node_info s node
          if na.path_mark = false ∧ pa.path_mark = true then
            pure (set_conflict s)
          else if pa.assignment = ATPGAssignment.UNDEFINED then
            forward_propagate_truth fuel s parent
          else
            modify_node_info s parent (fun a => { a with justified := true })

/-- Embedding of `forward_propagate_falsity` (lines 1673-1792). -/
def forward_propagate_falsity : Nat → Nenofex → Nat → M Nenofex
  | 0, _, _ => throw Err.fuel
  | fuel + 1, s, node => do
    let s := inc_fwd_prop_cnt s
    if limit_exceeded s then
      pure (log_step { s with atpg_rr.prop_cutoff := true } true)
    else
      let s := log_step s false
      let (s, parent?) ← forward_assign s node ATPGAssignment.FALSE
      match parent? with
      | none => pure s
      | some parent => do
        let pnd ← get_node s parent
        let pa ← node_info s parent
        if pnd.type = NodeType.OR then
          let off_path ← off_path_input s parent pa ATPGAssignment.TRUE
          if off_path then
            if pa.unassigned_ch_cnt = 1 then
              let s ← backward_propagate_truth fuel s pa.watcher
              let pa1 ← node_info s parent
              if pa1.assignment = ATPGAssignment.UNDEFINED ∧ s.atpg_rr.conflict = false then
                forward_propagate_truth fuel s parent
              else
                pure s
            else
              pure s
          else if pa.assignment = ATPGAssignment.UNDEFINED then
            if pa.unassigned_ch_cnt = 0 then
              forward_propagate_falsity fuel s parent
            else
              pure s
          else
            pure s
        else
          let na ← node_info s node
          if na.path_mark = false ∧ pa.path_mark = true then
            pure (set_conflict s)
          else if pa.assignment = ATPGAssignment.UNDEFINED then
            forward_propagate_falsity fuel s parent
          else
            modify_node_info s parent (fun a => { a with justified := true })

end

/-- One occurrence loop of `propagate_variable_assigned_true/false` (for
example lines 1833-1867) over the array `elems` with cursor `v_occ` and end
`v_occ_end`: deleted handles are replaced by the last entry (macro
`clean_up_invalid_occ`), live ones are propagated with `fwd`. `k` bounds the
iterations by the length of the array. Returns the state, the array, the end,
`occ_removed`, and whether the function returns early. -/
def propagate_occs (fwd : Nenofex → Nat → M Nenofex) :
    Nat → Nenofex → List Nat → Nat → Nat → Bool → M (Nenofex × List Nat × Nat × Bool × Bool)
  | 0, s, elems, _, v_occ_end, occ_removed => pure (s, elems, v_occ_end, occ_removed, false)
  | k + 1, s, elems, v_occ, v_occ_end, occ_removed =>
    if v_occ < v_occ_end then do
      let f ← deref elems[v_occ]?
      let occ ← get_fault_node s f
      if occ.deleted then
        if v_occ = v_occ_end - 1 then
          propagate_occs fwd k s elems v_occ (v_occ_end - 1) true
        else do
          let last ← deref elems[v_occ_end - 1]?
          propagate_occs fwd k s (elems.set v_occ last) v_occ (v_occ_end - 1) true
      else do
        let s ← fwd s occ.node
        if s.atpg_rr.conflict ∨ s.atpg_rr.prop_cutoff then
          pure (s, elems, v_occ_end, occ_removed, true)
        else
          propagate_occs fwd k s elems (v_occ + 1) v_occ_end occ_removed
    else
      pure (s, elems, v_occ_end, occ_removed, false)

/-- `clean_up_invalid_occ_set_top` for the negative occurrences. -/
def set_neg_occs (s : Nenofex) (v : Nat) (occs : List Nat) : M Nenofex := do
  let var ← get_var s v
  pure (set_var s v { var with subformula_neg_occs := some occs })

/-- `clean_up_invalid_occ_set_top` for the positive occurrences. -/
def set_pos_occs (s : Nenofex) (v : Nat) (occs : List Nat) : M Nenofex := do
  let var ← get_var s v
  pure (set_var s v { var with subformula_pos_occs := some occs })

/-- Both occurrence loops of `propagate_variable_assigned_true/false`:
`fneg` is applied to the negative occurrences, then `fpos` to the positive
ones. -/
def propagate_variable (fneg fpos : Nenofex → Nat → M Nenofex) (s : Nenofex) (v : Nat) :
    M Nenofex := do
  let var ← get_var s v
  let neg ← deref var.subformula_neg_occs
  let (s, elems, top, removed, early) ← propagate_occs fneg neg.length s neg 0 neg.length false
  if early then
    if removed then set_neg_occs s v (elems.take top) else pure s
  else
    let s ← (if removed then set_neg_occs s v (elems.take top) else pure s)
    let var ← get_var s v
    let pos ← deref var.subformula_pos_occs
    let (s, elems, top, removed, _) ← propagate_occs fpos pos.length s pos 0 pos.length false
    if removed then set_pos_occs s v (elems.take top) else pure s

/-- Embedding of `propagate_variable_assigned_true` (lines 1818-1933). -/
def propagate_variable_assigned_true (fuel : Nat) (s : Nenofex) (v : Nat) : M Nenofex :=
  propagate_variable (forward_propagate_falsity fuel) (forward_propagate_truth fuel) s v

/-- Embedding of `propagate_variable_assigned_false` (lines 1939-2054). -/
def propagate_variable_assigned_false (fuel : Nat) (s : Nenofex) (v : Nat) : M Nenofex :=
  propagate_variable (forward_propagate_truth fuel) (forward_propagate_falsity fuel) s v

/-- Embedding of `propagate_enqueued_variable_assignments` (lines 2057-2080). -/
def propagate_enqueued_variable_assignments : Nat → Nenofex → M Nenofex
  | 0, _ => throw Err.fuel
  | fuel + 1, s =>
    if s.atpg_rr.conflict ∨ s.atpg_rr.prop_cutoff then pure s
    else
      match s.atpg_rr.propagation_queue with
      | [] => pure s
      | v :: rest => do
        let s := log { s with atpg_rr.propagation_queue := rest }
          (Event.var_dequeued v s.atpg_rr.conflict s.atpg_rr.prop_cutoff)
        let s := { s with atpg_rr.propagated_vars := v :: s.atpg_rr.propagated_vars }
        let var ← get_var s v
        let s ← (if var.assignment = VarAssignment.TRUE then
            propagate_variable_assigned_true fuel s v
          else
            propagate_variable_assigned_false fuel s v)
        propagate_enqueued_variable_assignments fuel s

/-! ## Definitions: redundancy test (`atpg.c`, lines 632-738, 2083-2435) -/

/-- Assignment of one literal in `fault_sensitization`: the variable gets the
value that makes the literal `want`, and is enqueued. -/
def sensitize_literal (s : Nenofex) (node : Nat) (want : Bool) : M Nenofex := do
  let nd ← get_node s node
  let lit ← deref nd.lit
  let s1 ← var_assign s lit.var
    (if lit.negated = want then VarAssignment.FALSE else VarAssignment.TRUE)
  pure (enqueue_propagation s1 lit.var)

/-- The loop over the leading literal children in `fault_sensitization`
(lines 668-688 and 715-735); it stops at the first operator child and skips
children without `atpg_info`. -/
def sensitize_children (s : Nenofex) (want : Bool) : List Nat → M Nenofex
  | [] => pure s
  | ch :: rest => do
    let cnd ← get_node s ch
    if cnd.type = NodeType.LITERAL then
      match cnd.atpg_info with
      | none => sensitize_children s want rest
      | some _ => do
        let s1 ← sensitize_literal s ch want
        sensitize_children s1 want rest
    else
      pure s

/-- Embedding of `fault_sensitization` (lines 637-738). -/
def fault_sensitization (s : Nenofex) (fault_node : Nat) (fault_type : ATPGFaultType) :
    M Nenofex := do
  let nd ← get_node s fault_node
  if fault_type = ATPGFaultType.STUCK_AT_0 then
    if nd.type = NodeType.LITERAL then sensitize_literal s fault_node true
    else sensitize_children s true nd.child_list
  else
    if nd.type = NodeType.LITERAL then sensitize_literal s fault_node false
    else sensitize_children s false nd.child_list

/-- Embedding of `collect_fault_path_node` (lines 2402-2413). -/
def collect_fault_path_node (s : Nenofex) (fault_path_node : Nat) : M Nenofex := do
  let i ← info_index s fault_path_node
  let a ← get_info s i
  if a.fault_path_node_collected = false then
    pure { (set_info s i { a with fault_path_node_collected := true }) with
      atpg_rr.fault_path_nodes := i :: s.atpg_rr.fault_path_nodes }
  else
    pure s

/-- The `do ... while` loop of `mark_path_nodes` and `unmark_path_nodes`
(lines 2093-2100 and 2120-2131): `mark` is the value stored in `path_mark`,
`collect` is the parameter `collect_fault_path_nodes` (zero when marking). -/
def path_nodes_loop (mark collect : Bool) (atpg_root_level : Nat) :
    Nat → Nenofex → Nat → M Nenofex
  | 0, _, _ => throw Err.fuel
  | fuel + 1, s, fault_node => do
    let s ← (if collect then collect_fault_path_node s fault_node else pure s)
    let s ← modify_node_info s fault_node (fun a => { a with path_mark := mark })
    let nd ← get_node s fault_node
    match nd.parent with
    | none => pure s
    | some parent => do
      let pnd ← get_node s parent
      if pnd.level ≥ atpg_root_level then
        path_nodes_loop mark collect atpg_root_level fuel s parent
      else
        pure s

/-- Embedding of `mark_path_nodes` (lines 2087-2101). -/
def mark_path_nodes (fuel : Nat) (s : Nenofex) (fault_node : Nat) : M Nenofex := do
  let lca ← deref s.changed_subformula.lca
  let lnd ← get_node s lca
  path_nodes_loop true false lnd.level fuel s fault_node

/-- Embedding of `unmark_path_nodes` (lines 2113-2132). -/
def unmark_path_nodes (fuel : Nat) (s : Nenofex) (fault_node : Nat)
    (collect_fault_path_nodes : Bool) : M Nenofex := do
  let lca ← deref s.changed_subformula.lca
  let lnd ← get_node s lca
  path_nodes_loop false collect_fault_path_nodes lnd.level fuel s fault_node

/-- Embedding of `collect_necessary_off_path_literal_at_or` (`want = false`,
lines 2139-2172) and `collect_necessary_off_path_literal_at_and`
(`want = true`, lines 2179-2212): the literal `ch` must take the value `want`. -/
def collect_necessary_off_path_literal (s : Nenofex) (ch : Nat) (want : Bool) : M Nenofex := do
  let nd ← get_node s ch
  let lit ← deref nd.lit
  let var ← get_var s lit.var
  if (lit.negated = want ∧ var.assignment = VarAssignment.TRUE)
      ∨ (lit.negated ≠ want ∧ var.assignment = VarAssignment.FALSE) then
    pure (set_conflict s)
  else if var.assignment = VarAssignment.UNDEFINED then
    let s1 ← var_assign s lit.var
      (if lit.negated = want then VarAssignment.FALSE else VarAssignment.TRUE)
    pure (enqueue_propagation s1 lit.var)
  else
    pure s

/-- The loops over the leading literal children in
`collect_necessary_off_path_literals` (for example lines 2238-2245):
`skip` is the fault node, excluded at its parent only. -/
def collect_off_path_children (s : Nenofex) (want : Bool) (skip : Option Nat) :
    List Nat → M Nenofex
  | [] => pure s
  | ch :: rest => do
    let cnd ← get_node s ch
    if cnd.type = NodeType.LITERAL then
      if skip = some ch ∨ cnd.atpg_info = none then
        collect_off_path_children s want skip rest
      else do
        let s1 ← collect_necessary_off_path_literal s ch want
        collect_off_path_children s1 want skip rest
    else
      pure s

/-- The `while` loop of `collect_necessary_off_path_literals`
(lines 2268-2299) from the ancestor `cur` upwards. -/
def collect_off_path_loop (top_level : Nat) : Nat → Nenofex → Option Nat → M Nenofex
  | 0, _, _ => throw Err.fuel
  | fuel + 1, s, cur =>
    match cur with
    | none => pure s
    | some c => do
      let cnd ← get_node s c
      if cnd.level ≥ top_level ∧ s.atpg_rr.conflict = false then
        let s1 ← collect_off_path_children s (cnd.type != NodeType.OR) none cnd.child_list
        collect_off_path_loop top_level fuel s1 cnd.parent
      else
        pure s

/-- Embedding of `collect_necessary_off_path_literals` (lines 2219-2300). -/
def collect_necessary_off_path_literals (fuel : Nat) (s : Nenofex) (fault_node : Nat) :
    M Nenofex := do
  if s.changed_subformula.lca = some fault_node then
    pure s
  else
    let nd ← get_node s fault_node
    let cur ← deref nd.parent
    let cnd ← get_node s cur
    let s1 ← collect_off_path_children s (cnd.type != NodeType.OR) (some fault_node)
      cnd.child_list
    let lca ← deref s1.changed_subformula.lca
    let lnd ← get_node s1 lca
    collect_off_path_loop lnd.level fuel s1 cnd.parent

/-- The choice of the stuck-at type in `test_fault_is_redundant`
(lines 2317-2328). -/
def fault_type_of (s : Nenofex) (fault_node : Nat) : M ATPGFaultType := do
  let nd ← get_node s fault_node
  match nd.parent with
  | none => pure (if nd.type = NodeType.OR then ATPGFaultType.STUCK_AT_1
                  else ATPGFaultType.STUCK_AT_0)
  | some p => do
    let pnd ← get_node s p
    pure (if pnd.type = NodeType.OR then ATPGFaultType.STUCK_AT_0
          else ATPGFaultType.STUCK_AT_1)

/-- Embedding of `test_fault_is_redundant` (lines 2306-2364); the result is
the state and `redundant_fault`. -/
def test_fault_is_redundant (fuel : Nat) (s : Nenofex) (fault_node : Nat) :
    M (Nenofex × Bool) := do
  let fault_type ← fault_type_of s fault_node
  let s ← fault_sensitization s fault_node fault_type
  let s ← collect_necessary_off_path_literals fuel s fault_node
  let s ← mark_path_nodes fuel s fault_node
  if s.atpg_rr.conflict then
    pure (s, true)
  else if s.atpg_rr.propagation_queue.length ≠ 0 then
    let s ← propagate_enqueued_variable_assignments fuel s
    if s.atpg_rr.conflict then pure (s, true) else pure (s, false)
  else
    pure ({ s with atpg_rr.restricted_clean_up := true }, false)

/-- Embedding of `reset_touched_variables` (lines 2419-2435), first loop. -/
def unassign_all (s : Nenofex) : List Nat → M Nenofex
  | [] => pure s
  | v :: rest => do
    let s1 ← var_unassign s v
    unassign_all s1 rest

/-- Embedding of `reset_touched_variables` (lines 2419-2435). -/
def reset_touched_variables (s : Nenofex) : M Nenofex := do
  let s1 ← unassign_all s s.atpg_rr.propagation_queue
  let s2 := { s1 with atpg_rr.propagation_queue := [] }
  let s3 ← unassign_all s2 s2.atpg_rr.propagated_vars
  pure { s3 with atpg_rr.propagated_vars := [] }

/-- The `while` loop of `reset_touched_nodes` (lines 597-628) over the
popped entries. -/
def reset_touched_nodes_loop (s : Nenofex) : List Nat → M Nenofex
  | [] => pure s
  | i :: rest => do
    let a ← get_info s i
    let f ← deref a.fault_node
    let fn ← get_fault_node s f
    if fn.deleted then
      reset_touched_nodes_loop s rest
    else do
      let s := set_info s i { a with collected := false }
      let nd ← get_node s fn.node
      let na ← node_info s fn.node
      if na.assignment != ATPGAssignment.UNDEFINED then
        let s := set_info s i { (← get_info s i) with
          assignment := ATPGAssignment.UNDEFINED, justified := false }
        if nd.type != NodeType.LITERAL then
          let s ← init_counter_and_watcher s fn.node
          reset_touched_nodes_loop s rest
        else
          reset_touched_nodes_loop s rest
      else
        let s ← init_counter_and_watcher s fn.node
        reset_touched_nodes_loop s rest

/-- Embedding of `reset_touched_nodes` (lines 591-629). -/
def reset_touched_nodes (s : Nenofex) : M Nenofex := do
  let s1 ← reset_touched_nodes_loop { s with atpg_rr.touched_nodes := [] }
    s.atpg_rr.touched_nodes
  pure s1

/-! ## Definitions: the graph-mutation interface

`atpg.c` calls functions that are defined in `nenofex.c` and only declared in
`nenofex_types.h`. The embedding takes them as a parameter. -/

/-- The functions of `nenofex.c` called by `atpg.c`
(`nenofex_types.h`, lines 424-467). -/
structure GraphAPI where
  remove_and_free_subformula : Nenofex → Nat → M Nenofex
  unlink_node : Nenofex → Nat → M Nenofex
  update_size_subformula : Nenofex → Nat → Int → M Nenofex
  merge_parent : Nenofex → Nat → M Nenofex
  or_node : Nenofex → M (Nenofex × Nat)
  and_node : Nenofex → M (Nenofex × Nat)
  add_node_to_child_list : Nenofex → Nat → Nat → M Nenofex
  update_level : Nenofex → Nat → M Nenofex
  simplify_one_level : Nenofex → Nat → M Nenofex
  mark_affected_scope_variables_for_cost_update : Nenofex → Nat → M Nenofex
  reset_changed_lca_object : Nenofex → M Nenofex
  add_changed_lca_child : Nenofex → Nat → M Nenofex
  collect_variable_for_update : Nenofex → Nat → M Nenofex

/-! ## Definitions: redundancy removal (`atpg.c`, lines 2367-2657) -/

/-- The first statement of `delete_redundant_subformula` (lines 2383-2392):
the solver result is set when the graph root is deleted. -/
def set_result_for_root (s : Nenofex) (redundant_fault : Nat) : M Nenofex :=
  if s.graph_root = some redundant_fault then do
    let rnd ← get_node s redundant_fault
    pure (if rnd.type = NodeType.OR then { s with result := NenofexResult.SAT }
          else { s with result := NenofexResult.UNSAT })
  else pure s

/-- Embedding of `delete_redundant_subformula` (lines 2371-2395). -/
def delete_redundant_subformula (api : GraphAPI) (s : Nenofex) (redundant_fault : Nat) :
    M Nenofex := do
  let s1 ← set_result_for_root s redundant_fault
  api.remove_and_free_subformula s1 redundant_fault

/-- The test `!is_literal_node (node) && !is_literal_node (node->child_list.X)`
of the skipping heuristics (lines 2506-2507, 2515-2516, 3324-3325, 3333-3334)
for a child pointer `X`. -/
def skip_fault_node (s : Nenofex) (nd : Node) (child : Option Nat) : M Bool := do
  if nd.type != NodeType.LITERAL then
    let c ← deref child
    let cnd ← get_node s c
    pure (cnd.type != NodeType.LITERAL)
  else
    pure false

/-- Outcome of one iteration of a phase loop: go on with the next handle, or
leave both loops (`continue_testing = 0; break`). -/
inductive LoopCtl where
  | next | stop
  deriving DecidableEq, Repr

/-- Body of the inner `while` loop of `test_all_faults` (lines 2481-2580) for
the dequeued handle `f`; `nrf` is the queue `non_redundant_faults`. Returns
the state, `non_redundant_faults`, `continue_testing`, and whether the loop
is left by `break`. -/
def test_all_faults_body (api : GraphAPI) (fuel : Nat) (s : Nenofex) (nrf : List Nat)
    (continue_testing : Bool) (f : Nat) : M (Nenofex × List Nat × Bool × LoopCtl) := do
  let fault_node ← get_fault_node s f
  if fault_node.deleted ∨ fault_node.skip then
    pure (s, nrf, continue_testing, LoopCtl.next)
  else
    let nd ← get_node s fault_node.node
    if ← skip_fault_node s nd nd.child_list.head? then
      pure (s, nrf ++ [f], continue_testing, LoopCtl.next)
    else if ← skip_fault_node s nd nd.child_list.getLast? then
      pure (s, nrf ++ [f], continue_testing, LoopCtl.next)
    else
      let s := log s (Event.fault_tested f fault_node.deleted fault_node.skip
        s.atpg_rr.prop_cutoff)
      let s := { s with atpg_rr.stats.fault_cnt := (s.atpg_rr.stats.fault_cnt + 1) % UINT_MOD }
      let (s, redundant) ← test_fault_is_redundant fuel s fault_node.node
      if redundant then
        let s := { s with atpg_rr.stats.red_fault_cnt :=
          (s.atpg_rr.stats.red_fault_cnt + 1) % UINT_MOD }
        let s ← unmark_path_nodes fuel s fault_node.node true
        let s ← delete_redundant_subformula api s fault_node.node
        if s.atpg_rr_abort then
          pure (s, nrf, false, LoopCtl.stop)
        else
          let s ← reset_touched_variables s
          let s ← reset_touched_nodes s
          pure ({ s with atpg_rr.conflict := false }, nrf, true, LoopCtl.next)
      else
        let nrf := nrf ++ [f]
        let s ← unmark_path_nodes fuel s fault_node.node false
        if s.atpg_rr.restricted_clean_up = false then
          let s ← reset_touched_variables s
          let s ← reset_touched_nodes s
          pure (s, nrf, continue_testing, LoopCtl.next)
        else
          pure ({ s with atpg_rr.restricted_clean_up := false }, nrf, continue_testing,
            LoopCtl.next)

/-- The inner `while` loop of `test_all_faults` (lines 2478-2581). -/
def test_all_faults_inner (api : GraphAPI) :
    Nat → Nenofex → List Nat → Bool → M (Nenofex × List Nat × Bool)
  | 0, _, _, _ => throw Err.fuel
  | fuel + 1, s, nrf, continue_testing =>
    if s.atpg_rr.prop_cutoff then pure (s, nrf, continue_testing)
    else
      match s.atpg_rr.fault_queue with
      | [] => pure (s, nrf, continue_testing)
      | f :: rest => do
        let (s, nrf, ct, ctl) ← test_all_faults_body api fuel
          { s with atpg_rr.fault_queue := rest } nrf continue_testing f
        match ctl with
        | LoopCtl.stop => pure (s, nrf, ct)
        | LoopCtl.next => test_all_faults_inner api fuel s nrf ct

/-- The outer `while (continue_testing)` loop of `test_all_faults`
(lines 2470-2596). Returns the state and `non_redundant_faults`. -/
def test_all_faults_outer (api : GraphAPI) : Nat → Nenofex → List Nat → M (Nenofex × List Nat)
  | 0, _, _ => throw Err.fuel
  | fuel + 1, s, nrf => do
    let (s, nrf, continue_testing) ← test_all_faults_inner api fuel s nrf false
    if continue_testing then
      test_all_faults_outer api fuel { s with atpg_rr.fault_queue := nrf } s.atpg_rr.fault_queue
    else
      pure (s, nrf)

/-- The part of `test_all_faults` after the loops (lines 2602-2656): the
remaining handles are passed on, the counters are saved, the statistics
cleared and the flags reset. Returns the state and `redundancies_found`. -/
def test_all_faults_epilogue (s : Nenofex) (nrf : List Nat) : Nenofex × Nat :=
  let s := { s with atpg_rr.fault_queue := nrf ++ s.atpg_rr.fault_queue }
  let redundancies_found := s.atpg_rr.stats.red_fault_cnt
  let s := { s with atpg_rr.atpg_fwd_prop_cnt := s.atpg_rr.stats.fwd_prop_cnt,
                    atpg_rr.atpg_bwd_prop_cnt := s.atpg_rr.stats.bwd_prop_cnt }
  let s := { s with atpg_rr.stats := {} }
  let s := { s with atpg_rr.atpg_prop_cutoff := s.atpg_rr.prop_cutoff }
  ({ s with atpg_rr.prop_cutoff := false, atpg_rr.conflict := false,
            atpg_rr.restricted_clean_up := false, atpg_rr.bwd_prop_stack := [] },
   redundancies_found)

/-- The part of `test_all_faults` before the loops (lines 2465-2466). -/
def test_all_faults_prologue (s : Nenofex) : Nenofex :=
  { s with atpg_rr.stats.fwd_prop_cnt := s.atpg_rr.atpg_fwd_prop_cnt,
           atpg_rr.stats.bwd_prop_cnt := s.atpg_rr.atpg_bwd_prop_cnt }

/-- Embedding of `test_all_faults` (lines 2446-2657). -/
def test_all_faults (api : GraphAPI) (fuel : Nat) (s : Nenofex) : M (Nenofex × Nat) := do
  let (s1, nrf) ← test_all_faults_outer api fuel (test_all_faults_prologue s) []
  pure (test_all_faults_epilogue s1 nrf)

/-! ## Definitions: global flow (`atpg.c`, lines 2722-3516) -/

/-- Embedding of `create_fault_node` followed by the stores of
`assign_node_atpg_info` (lines 250-275): the next free arena entry is handed
to `new_node` together with a fresh `FaultNode`; the program exits when only
one entry is left. -/
def assign_node_atpg_info (s : Nenofex) (new_node : Nat) : M Nenofex := do
  let cur ← deref s.atpg_rr.cur_atpg_info
  let end_ ← deref s.atpg_rr.end_atpg_info
  if cur + 1 = end_ then throw Err.exit
  else
    let nd ← get_node s new_node
    let s := { s with nodes := s.nodes.set new_node (some { nd with atpg_info := some cur }),
                      atpg_rr.cur_atpg_info := some (cur + 1) }
    let f := s.atpg_rr.fault_nodes.length
    let s := { s with atpg_rr.fault_nodes := s.atpg_rr.fault_nodes ++ [{ node := new_node }] }
    let a ← get_info s cur
    let a := { a with fault_node := some f }
    if nd.type != NodeType.LITERAL then
      pure (set_info s cur { a with watcher := nd.child_list.head?,
                                     unassigned_ch_cnt := nd.num_children })
    else
      pure (set_info s cur a)

/-- Embedding of `all_children_atpg_relevant` (lines 2729-2741). -/
def all_children_atpg_relevant (s : Nenofex) : List Nat → M Bool
  | [] => pure true
  | ch :: rest => do
    let cnd ← get_node s ch
    match cnd.atpg_info with
    | none => pure false
    | some _ => all_children_atpg_relevant s rest

/-- The `do ... while` loop of `find_highest_implication_on_path`
(lines 2791-2797). -/
def highest_implication_loop (lca_level : Nat) (v : ATPGAssignment) :
    Nat → Nenofex → Nat → Option Nat → M (Option Nat)
  | 0, _, _, _ => throw Err.fuel
  | fuel + 1, s, cur, high_impl => do
    let ca ← node_info s cur
    let high_impl := if ca.assignment = v then some cur else high_impl
    let cnd ← get_node s cur
    match cnd.parent with
    | none => pure high_impl
    | some p => do
      let pnd ← get_node s p
      if pnd.level ≥ lca_level then
        highest_implication_loop lca_level v fuel s p high_impl
      else
        pure high_impl

/-- Embedding of `find_highest_implication_on_path` (lines 2749-2816). -/
def find_highest_implication_on_path (fuel : Nat) (s : Nenofex) (fault_node : Nat) :
    M (Option Nat) := do
  let lca ← deref s.changed_subformula.lca
  let lnd ← get_node s lca
  let fa ← node_info s fault_node
  let fnd ← get_node s fault_node
  if fa.assignment = ATPGAssignment.UNDEFINED then pure none
  else if fa.assignment = ATPGAssignment.TRUE ∧ fnd.type = NodeType.OR then pure none
  else if fa.assignment = ATPGAssignment.FALSE ∧ fnd.type = NodeType.AND then pure none
  else
    match fnd.parent with
    | none => pure none
    | some cur => do
      let cnd ← get_node s cur
      if cnd.level ≤ lnd.level then pure none
      else
        let cur ← deref cnd.parent
        let high_impl ← highest_implication_loop lnd.level fa.assignment fuel s cur none
        match high_impl with
        | none => pure none
        | some h => do
          let hnd ← get_node s h
          let ha ← node_info s h
          if (hnd.type = NodeType.AND ∧ ha.assignment = ATPGAssignment.TRUE)
              ∨ (hnd.type = NodeType.OR ∧ ha.assignment = ATPGAssignment.FALSE) then
            if ← all_children_atpg_relevant s hnd.child_list then pure (some h) else pure none
          else
            pure (some h)

/-- Embedding of `derive_implications_from_node` (lines 2822-2857). -/
def derive_implications_from_node (fuel : Nat) (s : Nenofex) (fault_node : Nat)
    (fault_type : ATPGFaultType) : M (Nenofex × Option Nat) := do
  let s ← fault_sensitization s fault_node fault_type
  if s.atpg_rr.propagation_queue.length ≠ 0 then
    let s ← propagate_enqueued_variable_assignments fuel s
    if s.atpg_rr.prop_cutoff = false then
      let h ← find_highest_implication_on_path fuel s fault_node
      pure (s, h)
    else
      pure (s, none)
  else
    pure ({ s with atpg_rr.restricted_clean_up := true }, none)

/-- The comparison `*cur != (void *) child` of
`remove_child_from_watcher_list` (line 1083): `*cur` is a `FaultNode *` taken
from the watcher list and `child` is a `Node *`; the two objects are distinct
allocations, so the pointers are never equal. -/
def watcher_entry_is_child (_fault_node : Nat) (_child : Nat) : Bool := false

/-- Embedding of `remove_child_from_watcher_list` (lines 1070-1099): the
search loop, then the removal of the entry at `cur` by overwriting it with
the last one. When the search reaches `end`, `top` is decremented and the
slot `elems[end]` beyond the list is written. -/
def remove_child_from_watcher_list (s : Nenofex) (parent child : Nat) : M Nenofex := do
  let i ← info_index s parent
  let a ← get_info s i
  let ch ← deref a.atpg_ch
  let end_ := ch.length
  let cur := ch.findIdx (fun f => watcher_entry_is_child f child)
  if end_ = 0 then throw Err.undef
  else if cur = end_ - 1 then
    pure (set_info s i { a with atpg_ch := some (ch.take (end_ - 1)) })
  else
    let last ← deref ch[end_ - 1]?
    pure (set_info s i { a with atpg_ch := some ((ch.set cur last).take (end_ - 1)) })

/-- Embedding of `unlink_and_add_implication` (lines 2863-2910). -/
def unlink_and_add_implication (api : GraphAPI) (s : Nenofex) (fault_node insert_at : Nat) :
    M Nenofex := do
  let fnd ← get_node s fault_node
  let p ← deref fnd.parent
  let pa ← node_info s p
  let fault_parent ← deref pa.fault_node
  let fp ← get_fault_node s fault_parent
  let fault_parent_node := fp.node
  let fpa ← node_info s fault_parent_node
  let s ← (match fpa.atpg_ch with
    | some _ => remove_child_from_watcher_list s fault_parent_node fault_node
    | none => pure s)
  let s ← api.unlink_node s fault_node
  let fnd ← get_node s fault_node
  let s ← api.update_size_subformula s fault_parent_node (-(fnd.size_subformula : Int))
  let s ← api.add_node_to_child_list s insert_at fault_node
  let fnd ← get_node s fault_node
  let newp ← deref fnd.parent
  let s ← api.update_size_subformula s newp (fnd.size_subformula : Int)
  let s ← api.update_level s fault_node
  let fnd ← get_node s fault_node
  let s ← (if fnd.type = NodeType.LITERAL then api.simplify_one_level s insert_at else pure s)
  let fp ← get_fault_node s fault_parent
  if fp.deleted = false then
    let fpn ← get_node s fault_parent_node
    if fpn.num_children = 1 then
      let first ← deref fpn.child_list.head?
      let first_nd ← get_node s first
      let s ← (if first_nd.type = NodeType.LITERAL then
          api.update_size_subformula s fault_parent_node (-1)
        else api.update_size_subformula s fault_parent_node (-2))
      api.merge_parent s fault_parent_node
    else pure s
  else pure s

/-- The statement `if (insert_at->atpg_info->atpg_ch) push_stack (...)` of the
macro `apply_transformation` (lines 2937-2940). -/
def push_watcher_entry (s : Nenofex) (i : Nat) (ia : ATPGInfo) (fault_node : Nat) : M Nenofex :=
  match ia.atpg_ch with
  | some ch => do
    let fa ← node_info s fault_node
    let ff ← deref fa.fault_node
    pure (set_info s i { ia with atpg_ch := some (ch ++ [ff]) })
  | none => pure s

/-- The macro `apply_transformation` (lines 2932-2942). -/
def apply_transformation (api : GraphAPI) (s : Nenofex) (fault_node insert_at : Nat) :
    M Nenofex := do
  let ia ← node_info s insert_at
  let insert_at_fault_node ← deref ia.fault_node
  let s ← unlink_and_add_implication api s fault_node insert_at
  let iafn ← get_fault_node s insert_at_fault_node
  if iafn.deleted = false then
    let i ← info_index s insert_at
    let ia ← get_info s i
    let s ← push_watcher_entry s i ia fault_node
    init_counter_and_watcher s insert_at
  else
    pure s

/-- `enqueue (mm, atpg_rr->fault_queue, fault_node)`. -/
def enqueue_fault (s : Nenofex) (f : Nat) : Nenofex :=
  { s with atpg_rr.fault_queue := s.atpg_rr.fault_queue ++ [f] }

/-- The set-up of the watcher list of the LCA's parent in CASE 2.1 of
`transform_subformula_by_global_flow_implication` (lines 3040-3062): the list
holds exactly the handle `hf` of the old LCA. -/
def set_up_parent_watcher_list (s : Nenofex) (insert_at : Nat) (ind : Node) (hf : Nat) :
    M Nenofex :=
  match ind.atpg_info with
  | none => do
    let s ← assign_node_atpg_info s insert_at
    let i ← info_index s insert_at
    let ia ← get_info s i
    pure (set_info s i { ia with atpg_ch := some [hf], watcher_pos := some 0 })
  | some i => do
    let ia ← get_info s i
    let _ ← deref ia.atpg_ch
    pure (set_info s i { ia with atpg_ch := some [hf], watcher_pos := some 0 })

/-- Embedding of `transform_subformula_by_global_flow_implication`
(lines 2944-3149). -/
def transform_subformula_by_global_flow_implication (api : GraphAPI) (s : Nenofex)
    (fault_node highest_implication : Nat) : M Nenofex := do
  let fa ← node_info s fault_node
  let true_implies_true := decide (fa.assignment = ATPGAssignment.TRUE)
  let hnd ← get_node s highest_implication
  let strong := (true_implies_true ∧ hnd.type = NodeType.AND)
    ∨ (¬ true_implies_true ∧ hnd.type = NodeType.OR)
  if s.graph_root = some highest_implication then
    -- CASE 1
    if strong then
      let s ← collect_fault_path_node s highest_implication
      let (s, insert_at) ← (if hnd.type = NodeType.AND then api.or_node s else api.and_node s)
      let root ← deref s.graph_root
      let s ← api.add_node_to_child_list s insert_at root
      let s ← api.update_level s root
      let rnd ← get_node s root
      let s ← api.update_size_subformula s insert_at ((rnd.size_subformula : Int) + 1)
      let s ← assign_node_atpg_info s insert_at
      let ia ← node_info s insert_at
      let iaf ← deref ia.fault_node
      let s := enqueue_fault s iaf
      let s := { s with graph_root := some insert_at }
      let s ← api.reset_changed_lca_object s
      let s := { s with changed_subformula.lca := some insert_at }
      let ind ← get_node s insert_at
      let first ← deref ind.child_list.head?
      let s ← api.add_changed_lca_child s first
      let s ← api.add_changed_lca_child s fault_node
      apply_transformation api s fault_node insert_at
    else
      let s ← api.add_changed_lca_child s fault_node
      apply_transformation api s fault_node highest_implication
  else if s.changed_subformula.lca = some highest_implication then
    -- CASE 2
    if strong then
      let insert_at ← deref hnd.parent
      let s ← collect_fault_path_node s highest_implication
      let ind ← get_node s insert_at
      let ha ← node_info s highest_implication
      let hf ← deref ha.fault_node
      let s ← set_up_parent_watcher_list s insert_at ind hf
      let ia ← node_info s insert_at
      let iaf ← deref ia.fault_node
      let s := enqueue_fault s iaf
      let tmp ← deref s.changed_subformula.lca
      let s ← api.reset_changed_lca_object s
      let s := { s with changed_subformula.lca := some insert_at }
      let s ← api.add_changed_lca_child s tmp
      let s ← api.add_changed_lca_child s fault_node
      apply_transformation api s fault_node insert_at
    else
      let s ← api.add_changed_lca_child s fault_node
      apply_transformation api s fault_node highest_implication
  else if hnd.parent = s.changed_subformula.lca then
    -- CASE 3
    if strong then
      let insert_at ← deref hnd.parent
      let s ← collect_fault_path_node s highest_implication
      let s ← api.add_changed_lca_child s fault_node
      apply_transformation api s fault_node insert_at
    else
      apply_transformation api s fault_node highest_implication
  else
    -- CASE 4
    if strong then
      let s ← collect_fault_path_node s highest_implication
      let insert_at ← deref hnd.parent
      apply_transformation api s fault_node insert_at
    else
      apply_transformation api s fault_node highest_implication

/-- The `do ... while` loop of `collect_implication_path_nodes`
(lines 3225-3230). -/
def collect_implication_path_loop (highest_implication_level : Nat) :
    Nat → Nenofex → Nat → M Nenofex
  | 0, _, _ => throw Err.fuel
  | fuel + 1, s, cur => do
    let s ← collect_fault_path_node s cur
    let cnd ← get_node s cur
    let p ← deref cnd.parent
    let pnd ← get_node s p
    if pnd.level > highest_implication_level then
      collect_implication_path_loop highest_implication_level fuel s p
    else
      pure s

/-- Embedding of `collect_implication_path_nodes` (lines 3215-3233). -/
def collect_implication_path_nodes (fuel : Nat) (s : Nenofex)
    (implicant highest_implication : Nat) : M Nenofex := do
  let ind ← get_node s implicant
  let cur ← deref ind.parent
  let hnd ← get_node s highest_implication
  collect_implication_path_loop hnd.level fuel s cur

/-- The traversal of `mark_implicant_variables_for_update` (lines 3250-3267)
with the explicit stack `stack` (top first). -/
def mark_implicant_loop (api : GraphAPI) : Nat → Nenofex → List Nat → M Nenofex
  | 0, _, _ => throw Err.fuel
  | fuel + 1, s, stack =>
    match stack with
    | [] => pure s
    | node :: rest => do
      let nd ← get_node s node
      if nd.type = NodeType.LITERAL then
        let lit ← deref nd.lit
        let var ← get_var s lit.var
        let var1 := { var with lca_update_mark := true, dec_score_update_mark := true }
        let s := set_var s lit.var { var1 with inc_score_update_mark := true }
        let s ← api.collect_variable_for_update s lit.var
        mark_implicant_loop api fuel s rest
      else
        mark_implicant_loop api fuel s (nd.child_list ++ rest)

/-- Embedding of `mark_implicant_variables_for_update` (lines 3241-3270). -/
def mark_implicant_variables_for_update (api : GraphAPI) (fuel : Nat) (s : Nenofex)
    (implicant : Nat) : M Nenofex :=
  mark_implicant_loop api fuel s [implicant]

/-- The choice of the trial value in `optimize_by_global_flow`
(lines 3355-3364); without a parent a literal keeps the previous value of
the local variable `fault_type`. -/
def trial_fault_type (s : Nenofex) (nd : Node) (fault_type : ATPGFaultType) :
    M ATPGFaultType :=
  if nd.type != NodeType.LITERAL then
    pure (if nd.type = NodeType.AND then ATPGFaultType.STUCK_AT_0
          else ATPGFaultType.STUCK_AT_1)
  else match nd.parent with
    | some p => do
      let pnd ← get_node s p
      pure (if pnd.type = NodeType.AND then ATPGFaultType.STUCK_AT_1
            else ATPGFaultType.STUCK_AT_0)
    | none => pure fault_type

/-- The clean-up after a trial without implication (lines 3433-3447). -/
def clean_up_after_trial (s : Nenofex) : M Nenofex :=
  if s.atpg_rr.restricted_clean_up = false then do
    let s ← reset_touched_variables s
    reset_touched_nodes s
  else pure { s with atpg_rr.restricted_clean_up := false }

/-- Body of the inner `while` loop of `optimize_by_global_flow`
(lines 3318-3458) for the dequeued handle `f`; `tested` is the queue
`tested_nodes`, `fault_type` the local variable that survives iterations. -/
def optimize_by_global_flow_body (api : GraphAPI) (fuel : Nat) (s : Nenofex)
    (tested : List Nat) (continue_optimizing : Bool) (fault_type : ATPGFaultType) (f : Nat) :
    M (Nenofex × List Nat × Bool × ATPGFaultType × LoopCtl) := do
  let fault_node ← get_fault_node s f
  if fault_node.deleted then
    pure (s, tested, continue_optimizing, fault_type, LoopCtl.next)
  else
    let node := fault_node.node
    let nd ← get_node s node
    if ← skip_fault_node s nd nd.child_list.head? then
      pure (s, tested ++ [f], continue_optimizing, fault_type, LoopCtl.next)
    else if ← skip_fault_node s nd nd.child_list.getLast? then
      pure (s, tested ++ [f], continue_optimizing, fault_type, LoopCtl.next)
    else
      let fault_type ← trial_fault_type s nd fault_type
      let s := log s (Event.implication_tried f fault_node.deleted s.atpg_rr.prop_cutoff)
      let s := { s with atpg_rr.stats.fault_cnt := (s.atpg_rr.stats.fault_cnt + 1) % UINT_MOD }
      let (s, highest_implication) ← derive_implications_from_node fuel s node fault_type
      match highest_implication with
      | some h => do
        let s ← collect_implication_path_nodes fuel s node h
        let s ← mark_implicant_variables_for_update api fuel s node
        let s := { s with atpg_rr.stats.derived_implications_cnt :=
          (s.atpg_rr.stats.derived_implications_cnt + 1) % UINT_MOD }
        let tested := tested ++ [f]
        let cur ← deref s.atpg_rr.cur_atpg_info
        let end_ ← deref s.atpg_rr.end_atpg_info
        if cur + 1 = end_ then
          let s ← reset_touched_variables s
          let s ← reset_touched_nodes s
          pure (s, tested, false, fault_type, LoopCtl.stop)
        else
          let s ← transform_subformula_by_global_flow_implication api s node h
          if s.atpg_rr_abort then
            pure (s, tested, false, fault_type, LoopCtl.stop)
          else
            let s ← reset_touched_variables s
            let s ← reset_touched_nodes s
            pure (s, tested, true, fault_type, LoopCtl.next)
      | none => do
        let s ← clean_up_after_trial s
        pure (s, tested ++ [f], continue_optimizing, fault_type, LoopCtl.next)

/-- The inner `while` loop of `optimize_by_global_flow` (lines 3315-3460). -/
def optimize_by_global_flow_inner (api : GraphAPI) :
    Nat → Nenofex → List Nat → Bool → ATPGFaultType →
      M (Nenofex × List Nat × Bool × ATPGFaultType)
  | 0, _, _, _, _ => throw Err.fuel
  | fuel + 1, s, tested, continue_optimizing, fault_type =>
    if s.atpg_rr.prop_cutoff then pure (s, tested, continue_optimizing, fault_type)
    else
      match s.atpg_rr.fault_queue with
      | [] => pure (s, tested, continue_optimizing, fault_type)
      | f :: rest => do
        let (s, tested, co, ft, ctl) ← optimize_by_global_flow_body api fuel
          { s with atpg_rr.fault_queue := rest } tested continue_optimizing fault_type f
        match ctl with
        | LoopCtl.stop => pure (s, tested, co, ft)
        | LoopCtl.next => optimize_by_global_flow_inner api fuel s tested co ft

/-- The outer `while (continue_optimizing)` loop of `optimize_by_global_flow`
(lines 3311-3469). -/
def optimize_by_global_flow_outer (api : GraphAPI) :
    Nat → Nenofex → List Nat → ATPGFaultType → M (Nenofex × List Nat)
  | 0, _, _, _ => throw Err.fuel
  | fuel + 1, s, tested, fault_type => do
    let (s, tested, continue_optimizing, ft) ←
      optimize_by_global_flow_inner api fuel s tested false fault_type
    if continue_optimizing then
      optimize_by_global_flow_outer api fuel { s with atpg_rr.fault_queue := tested }
        s.atpg_rr.fault_queue ft
    else
      pure (s, tested)

/-- The part of `optimize_by_global_flow` before the loops (lines 3305-3307). -/
def optimize_by_global_flow_prologue (s : Nenofex) : Nenofex :=
  { s with atpg_rr.stats.fwd_prop_cnt := s.atpg_rr.global_flow_fwd_prop_cnt,
           atpg_rr.stats.bwd_prop_cnt := s.atpg_rr.global_flow_bwd_prop_cnt,
           atpg_rr.global_flow_optimizing := true }

/-- The part of `optimize_by_global_flow` after the loops (lines 3473-3515).
Returns the state and `implications_found`. -/
def optimize_by_global_flow_epilogue (s : Nenofex) (tested : List Nat) : Nenofex × Nat :=
  let s := { s with atpg_rr.fault_queue := tested ++ s.atpg_rr.fault_queue }
  let implications_found := s.atpg_rr.stats.derived_implications_cnt
  let s := { s with atpg_rr.global_flow_fwd_prop_cnt := s.atpg_rr.stats.fwd_prop_cnt,
                    atpg_rr.global_flow_bwd_prop_cnt := s.atpg_rr.stats.bwd_prop_cnt }
  let s := { s with atpg_rr.stats := {} }
  let s := { s with atpg_rr.global_flow_prop_cutoff := s.atpg_rr.prop_cutoff }
  ({ s with atpg_rr.prop_cutoff := false, atpg_rr.restricted_clean_up := false,
            atpg_rr.global_flow_optimizing := false },
   implications_found)

/-- Embedding of `optimize_by_global_flow` (lines 3283-3516). -/
def optimize_by_global_flow (api : GraphAPI) (fuel : Nat) (s : Nenofex) : M (Nenofex × Nat) := do
  let (s1, tested) ← optimize_by_global_flow_outer api fuel
    (optimize_by_global_flow_prologue s) [] ATPGFaultType.STUCK_AT_0
  pure (optimize_by_global_flow_epilogue s1 tested)

/-! ## Definitions: the pass driver (`atpg.c`, lines 147-513, 3577-3881) -/

/-- `sizeof (ATPGInfo)` on an LP64 platform. -/
def sizeof_ATPGInfo : Nat := 56

/-- The loop of `allocate_atpg_info_pointers` (lines 3588-3590) reading
`size_subformula` of the participating children. -/
def changed_children_sizes (s : Nenofex) : List Nat → M (List Nat)
  | [] => pure []
  | ch :: rest => do
    let nd ← get_node s ch
    let sizes ← changed_children_sizes s rest
    pure (nd.size_subformula :: sizes)

/-- Embedding of `allocate_atpg_info_pointers` (lines 3581-3619). -/
def allocate_atpg_info_pointers (s : Nenofex) : M Nenofex := do
  let sizes ← changed_children_sizes s s.changed_subformula.children
  let size := subgraph_size sizes
  let entries := atpg_info_array_entries size
  pure { s with limits := allocate_atpg_info_pointers_limits s.options size,
                atpg_rr.byte_size_atpg_info_array := entries * sizeof_ATPGInfo,
                atpg_rr.atpg_info_array := some (List.replicate entries {}),
                atpg_rr.cur_atpg_info := some 0,
                atpg_rr.end_atpg_info := some entries }

/-- Push a handle on an occurrence stack of a variable. -/
def push_occ (s : Nenofex) (v : Nat) (negated : Bool) (f : Nat) : M Nenofex := do
  let var ← get_var s v
  if negated then
    let occs ← deref var.subformula_neg_occs
    pure (set_var s v { var with subformula_neg_occs := some (occs ++ [f]) })
  else
    let occs ← deref var.subformula_pos_occs
    pure (set_var s v { var with subformula_pos_occs := some (occs ++ [f]) })

/-- The `while` loop of `init_subformula_atpg_info` (lines 308-349) with the
explicit stack `stack` (top first); `root` is the LCA and `root_info` its
arena entry. -/
def init_subformula_loop (root root_info : Nat) : Nat → Nenofex → List Nat → M Nenofex
  | 0, _, _ => throw Err.fuel
  | fuel + 1, s, stack =>
    match stack with
    | [] => pure s
    | cur :: rest => do
      let s ← assign_node_atpg_info s cur
      let nd ← get_node s cur
      let ca ← node_info s cur
      let f ← deref ca.fault_node
      let ra ← get_info s root_info
      let s := match ra.atpg_ch with
        | some ch =>
          if nd.parent = some root then set_info s root_info { ra with atpg_ch := some (ch ++ [f]) }
          else s
        | none => s
      if nd.type != NodeType.LITERAL then
        init_subformula_loop root root_info fuel s (nd.child_list ++ rest)
      else
        let lit ← deref nd.lit
        let var ← get_var s lit.var
        let s :=
          if var.atpg_mark = false then
            let var1 := { var with atpg_mark := true, subformula_pos_occs := some [] }
            { (set_var s lit.var { var1 with subformula_neg_occs := some [] }) with
              atpg_rr.subformula_vars := s.atpg_rr.subformula_vars ++ [lit.var] }
          else s
        let s ← push_occ s lit.var lit.negated f
        init_subformula_loop root root_info fuel s rest

/-- Embedding of `init_subformula_atpg_info` (lines 283-368). The children of
`changed_subformula` are pushed in array order, so the last one is on top. -/
def init_subformula_atpg_info (fuel : Nat) (s : Nenofex) : M Nenofex := do
  let root ← deref s.changed_subformula.lca
  let s ← assign_node_atpg_info s root
  let root_info ← info_index s root
  let rnd ← get_node s root
  let stack := s.changed_subformula.children.reverse
  let s ← (if stack.length < rnd.num_children then do
      let ra ← get_info s root_info
      pure (set_info s root_info { ra with atpg_ch := some [] })
    else pure s)
  let s ← init_subformula_loop root root_info fuel s stack
  let ra ← get_info s root_info
  match ra.atpg_ch with
  | some ch => do
    let f ← deref ch[0]?
    let fn ← get_fault_node s f
    pure (set_info s root_info { ra with watcher_pos := some 0, watcher := some fn.node,
                                          unassigned_ch_cnt := ch.length })
  | none => pure s

/-- The first `while` loop of `collect_fault_nodes_bottom_up`
(lines 489-506) with the explicit queue `queue` (front first) and the stack
`fault_stack` (top first). -/
def collect_bottom_up_loop : Nat → Nenofex → List Nat → List Nat → M (Nenofex × List Nat)
  | 0, _, _, _ => throw Err.fuel
  | fuel + 1, s, queue, fault_stack =>
    match queue with
    | [] => pure (s, fault_stack)
    | cur :: rest => do
      let nd ← get_node s cur
      let ca ← node_info s cur
      let f ← deref ca.fault_node
      if nd.type != NodeType.LITERAL then
        collect_bottom_up_loop fuel s (rest ++ nd.child_list) (f :: fault_stack)
      else
        collect_bottom_up_loop fuel (enqueue_fault s f) rest fault_stack

/-- Embedding of `collect_fault_nodes_bottom_up` (lines 468-513). -/
def collect_fault_nodes_bottom_up (fuel : Nat) (s : Nenofex) : M Nenofex := do
  let root ← deref s.changed_subformula.lca
  let ra ← node_info s root
  let rf ← deref ra.fault_node
  let (s, fault_stack) ← collect_bottom_up_loop fuel s s.changed_subformula.children [rf]
  pure { s with atpg_rr.fault_queue := s.atpg_rr.fault_queue ++ fault_stack }

/-- The loop over the leading literal children in
`mark_affected_variables_by_fault_path_nodes` (lines 3650-3659). -/
def mark_dec_score_children (api : GraphAPI) (s : Nenofex) : List Nat → M Nenofex
  | [] => pure s
  | ch :: rest => do
    let cnd ← get_node s ch
    if cnd.type = NodeType.LITERAL then
      let lit ← deref cnd.lit
      let var ← get_var s lit.var
      match var.lca with
      | some _ => do
        let s := set_var s lit.var { var with dec_score_update_mark := true }
        let s ← api.collect_variable_for_update s lit.var
        mark_dec_score_children api s rest
      | none => mark_dec_score_children api s rest
    else
      pure s

/-- The loop over `lca_child_list_occs` in
`mark_affected_variables_by_fault_path_nodes` (lines 3682-3687). -/
def mark_inc_score_vars (api : GraphAPI) (s : Nenofex) : List Nat → M Nenofex
  | [] => pure s
  | v :: rest => do
    let var ← get_var s v
    let s := set_var s v { var with inc_score_update_mark := true }
    let s ← api.collect_variable_for_update s v
    mark_inc_score_vars api s rest

/-- The second half of the loop body of
`mark_affected_variables_by_fault_path_nodes` (lines 3663-3689). -/
def mark_inc_score_of_node (api : GraphAPI) (atpg_root_level : Nat) (s : Nenofex) (nd : Node) :
    M Nenofex :=
  match nd.lca_child_list_occs, nd.parent with
  | some occs, some p => do
    let pnd ← get_node s p
    if pnd.level ≥ atpg_root_level then mark_inc_score_vars api s occs else pure s
  | _, _ => pure s

/-- The `while` loop of `mark_affected_variables_by_fault_path_nodes`
(lines 3638-3691) over the popped entries. -/
def mark_fault_path_loop (api : GraphAPI) (atpg_root_level : Nat) (s : Nenofex) :
    List Nat → M Nenofex
  | [] => pure s
  | i :: rest => do
    let a ← get_info s i
    let f ← deref a.fault_node
    let fn ← get_fault_node s f
    if fn.deleted then
      mark_fault_path_loop api atpg_root_level s rest
    else do
      let nd ← get_node s fn.node
      let s ← mark_dec_score_children api s nd.child_list
      let nd ← get_node s fn.node
      let s ← mark_inc_score_of_node api atpg_root_level s nd
      mark_fault_path_loop api atpg_root_level s rest

/-- Embedding of `mark_affected_variables_for_update` (lines 3714-3726) with
`mark_affected_variables_by_fault_path_nodes` (lines 3628-3692) and
`mark_affected_variables_by_subformula_parents` (lines 3699-3708). -/
def mark_affected_variables_for_update (api : GraphAPI) (s : Nenofex)
    (redundancies_found : Bool) : M Nenofex := do
  match s.atpg_rr.fault_path_nodes, s.graph_root, s.changed_subformula.lca with
  | _ :: _, some _, some lca => do
    let lnd ← get_node s lca
    let s ← mark_fault_path_loop api lnd.level { s with atpg_rr.fault_path_nodes := [] }
      s.atpg_rr.fault_path_nodes
    if redundancies_found then
      let lca ← deref s.changed_subformula.lca
      api.mark_affected_scope_variables_for_cost_update s lca
    else pure s
  | _, _, _ => pure s

/-- The statement `if (!fault_node->deleted) node->atpg_info = 0` of
`reset_atpg_redundancy_remover` (lines 187-191). -/
def clear_node_atpg_info (s : Nenofex) (fn : FaultNode) : M Nenofex :=
  if fn.deleted = false then do
    let nd ← get_node s fn.node
    pure { s with nodes := s.nodes.set fn.node (some { nd with atpg_info := none }) }
  else pure s

/-- The first loop of `reset_atpg_redundancy_remover` (lines 179-197) from the
arena entry `i` on, until an entry without `fault_node`; `k` bounds the
iterations by the number of entries plus one: reading an entry beyond the
arena is undefined. -/
def reset_info_loop : Nat → Nenofex → Nat → M Nenofex
  | 0, s, _ => pure s
  | k + 1, s, i => do
    let a ← get_info s i
    match a.fault_node with
    | none => pure s
    | some f => do
      let fn ← get_fault_node s f
      let s ← clear_node_atpg_info s fn
      reset_info_loop k s (i + 1)

/-- The second loop of `reset_atpg_redundancy_remover` (lines 208-220). -/
def reset_vars_loop (s : Nenofex) : List Nat → M Nenofex
  | [] => pure s
  | v :: rest => do
    let var ← get_var s v
    let _ ← deref var.subformula_pos_occs
    let _ ← deref var.subformula_neg_occs
    let var1 := { var with assignment := VarAssignment.UNDEFINED, atpg_mark := false }
    let var2 := { var1 with subformula_pos_occs := none, subformula_neg_occs := none }
    reset_vars_loop (set_var s v var2) rest

/-- Embedding of `reset_atpg_redundancy_remover` (lines 147-224). The
`FaultNode`s and the arena are freed. -/
def reset_atpg_redundancy_remover (s : Nenofex) : M Nenofex := do
  let s := { s with atpg_rr.fault_queue := [], atpg_rr.propagation_queue := [] }
  let s := { s with atpg_rr.conflict := false, atpg_rr.prop_cutoff := false,
                    atpg_rr.global_flow_prop_cutoff := false }
  let s := { s with atpg_rr.atpg_prop_cutoff := false, atpg_rr.restricted_clean_up := false,
                    atpg_rr.collect_faults_set := false, atpg_rr.stats := {} }
  let s := { s with atpg_rr.global_flow_fwd_prop_cnt := 0,
                    atpg_rr.global_flow_bwd_prop_cnt := 0 }
  let s := { s with atpg_rr.atpg_fwd_prop_cnt := 0, atpg_rr.atpg_bwd_prop_cnt := 0 }
  let s := { s with atpg_rr.touched_nodes := [], atpg_rr.fault_path_nodes := [] }
  let s := { s with atpg_rr.bwd_prop_stack := [], atpg_rr.propagated_vars := [] }
  let arr ← deref s.atpg_rr.atpg_info_array
  let s ← reset_info_loop (arr.length + 1) s 0
  let s := { s with atpg_rr.fault_nodes := [], atpg_rr.atpg_info_array := none }
  let s := { s with atpg_rr.cur_atpg_info := none, atpg_rr.end_atpg_info := none,
                    atpg_rr.byte_size_atpg_info_array := 0 }
  let s ← reset_vars_loop s s.atpg_rr.subformula_vars
  pure { s with atpg_rr.subformula_vars := [], atpg_rr.global_atpg_test_node_mark := false }

/-- The part of `simplify_by_global_flow_and_atpg_main` between the labels
`GLOBAL_FLOW` and `SKIP_ATPG` (lines 3781-3856), with the jumps back to
`GLOBAL_FLOW` as recursive calls. Returns the state, `implications_found_all`
and `redundancies_found_all`. -/
def global_flow_atpg_rounds (api : GraphAPI) :
    Nat → Nenofex → Bool → Nat → Nat → Bool → Bool → M (Nenofex × Bool × Bool)
  | 0, _, _, _, _, _, _ => throw Err.fuel
  | fuel + 1, s, called_again, implications_found, redundancies_found,
      implications_found_all, redundancies_found_all => do
    let (s, implications_found) ←
      (if s.options.no_global_flow_specified = 0 ∧ s.atpg_rr.global_flow_prop_cutoff = false then
        optimize_by_global_flow api fuel s
      else pure (s, implications_found))
    let implications_found_all := implications_found_all || decide (implications_found ≠ 0)
    if s.atpg_rr_abort then
      pure (s, implications_found_all, redundancies_found_all)
    else
      let (s, redundancies_found) ←
        (if s.options.no_atpg_specified = 0 ∧ s.atpg_rr.atpg_prop_cutoff = false
            ∧ (called_again = false ∨ implications_found ≠ 0) then
          test_all_faults api fuel s
        else pure (s, redundancies_found))
      let redundancies_found_all := redundancies_found_all || decide (redundancies_found ≠ 0)
      if s.atpg_rr_abort = false then
        if redundancies_found ≠ 0 ∧ s.atpg_rr.global_flow_prop_cutoff = false then
          global_flow_atpg_rounds api fuel s true 0 0 implications_found_all
            redundancies_found_all
        else
          pure ({ s with atpg_rr_abort := true, atpg_rr_reset_changed_subformula := true },
            implications_found_all, redundancies_found_all)
      else
        pure (s, implications_found_all, redundancies_found_all)

/-- Embedding of `simplify_by_global_flow_and_atpg_main` (lines 3736-3881).
Returns the state and the `int` result as a truth value. -/
def simplify_by_global_flow_and_atpg_main (api : GraphAPI) (fuel : Nat) (s : Nenofex) :
    M (Nenofex × Bool) := do
  let s := { s with atpg_rr_called := true }
  let s ← allocate_atpg_info_pointers s
  let s ← init_subformula_atpg_info fuel s
  let s := { s with atpg_rr.collect_faults_set := true }
  let s ← collect_fault_nodes_bottom_up fuel s
  let (s, implications_found_all, redundancies_found_all) ←
    global_flow_atpg_rounds api fuel s false 0 0 false false
  let s ← mark_affected_variables_for_update api s redundancies_found_all
  let s ← (if s.atpg_rr_reset_changed_subformula then
      api.reset_changed_lca_object { s with atpg_rr_reset_changed_subformula := false }
    else pure s)
  let s ← reset_atpg_redundancy_remover s
  pure ({ s with atpg_rr_called := false, atpg_rr_abort := false,
                 atpg_rr_reset_changed_subformula := false },
    implications_found_all || redundancies_found_all)

/-! ## Definitions: `queue.c` -/

/-- `struct Queue`: the array `elems` (its length is `end - elems`) and the
positions of `first` and `last` in it. Elements are pointers, the null
pointer is `0`. -/
structure Queue where
  elems : List Nat
  first : Nat
  last : Nat
  deriving DecidableEq, Repr

/-- Embedding of `create_queue` (`queue.c`, lines 26-43): a size of zero is
replaced by one and the array is cleared. -/
def create_queue (size : Nat) : Queue :=
  let size := if size = 0 then 1 else size
  { elems := List.replicate size 0, first := 0, last := 0 }

/-- Embedding of `size_queue` (lines 54-58). -/
def size_queue (queue : Queue) : Nat := queue.elems.length % UINT_MOD

/-- Embedding of `count_queue` (lines 61-68). -/
def count_queue (queue : Queue) : Nat :=
  if queue.first ≤ queue.last then (queue.last - queue.first) % UINT_MOD
  else (queue.elems.length - queue.first + queue.last) % UINT_MOD

/-- The `do ... while` loop of `enlarge_queue` (lines 83-89): the slots from
`first` on are copied, wrapping around at the end of the array, until `first`
meets `last`. Returns the copied slots in order. -/
def enlarge_loop (elems : List Nat) (last : Nat) : Nat → Nat → List Nat → M (List Nat)
  | 0, _, _ => throw Err.fuel
  | k + 1, first, copied => do
    let x ← deref elems[first]?
    let copied := copied ++ [x]
    let first := first + 1
    let first := if first = elems.length ∧ last ≠ elems.length then 0 else first
    if first ≠ last then enlarge_loop elems last k first copied else pure copied

/-- Embedding of `enlarge_queue` (lines 71-100). The new array comes from
`malloc` and is not cleared: `junk i` is the value found in slot `i` of a new
block. Writing beyond the new block is undefined. -/
def enlarge_queue (junk : Nat → Nat) (queue : Queue) : M Queue := do
  let new_size := (size_queue queue * 2) % UINT_MOD
  let copied ← enlarge_loop queue.elems queue.last (queue.elems.length + 1) queue.first []
  if copied.length > new_size then throw Err.undef
  else
    pure { elems := copied ++ (List.range (new_size - copied.length)).map
                      (fun i => junk (copied.length + i)),
           first := 0, last := copied.length }

/-- Embedding of `enqueue` (lines 103-127). -/
def enqueue (junk : Nat → Nat) (queue : Queue) (elem : Nat) : M Queue :=
  if queue.last < queue.elems.length then
    let last := queue.last + 1
    let q1 : Queue := { queue with elems := queue.elems.set queue.last elem, last := last }
    if last = q1.first then enlarge_queue junk q1
    else if last = q1.elems.length then
      if q1.first = 0 then enlarge_queue junk q1
      else pure { q1 with last := 0 }
    else pure q1
  else throw Err.undef

/-- Embedding of `dequeue` (lines 130-154): the queue and the returned
pointer. -/
def dequeue (queue : Queue) : M (Queue × Nat) :=
  if queue.first = queue.last then pure (queue, 0)
  else do
    let result ← deref queue.elems[queue.first]?
    let first := queue.first + 1
    pure ({ queue with first := if first = queue.elems.length then 0 else first }, result)

/-- A call of `enqueue` with an element, or a call of `dequeue`. -/
inductive QueueOp where
  | enq (elem : Nat)
  | deq
  deriving DecidableEq, Repr

/-- A sequence of calls on a queue: the final queue and the pointers returned
by the calls of `dequeue`, in order. -/
def run_queue (junk : Nat → Nat) : Queue → List QueueOp → M (Queue × List Nat)
  | q, [] => pure (q, [])
  | q, QueueOp.enq x :: ops => do
    let q1 ← enqueue junk q x
    run_queue junk q1 ops
  | q, QueueOp.deq :: ops => do
    let (q1, r) ← dequeue q
    let (q2, rs) ← run_queue junk q1 ops
    pure (q2, r :: rs)

/-- The first-in first-out queue of the specification on the list `l` of
waiting elements: an enqueue appends, a dequeue removes and returns the head,
or returns null when nothing waits. Returns the waiting elements at the end
and the returned pointers. -/
def fifo_run : List Nat → List QueueOp → List Nat × List Nat
  | l, [] => (l, [])
  | l, QueueOp.enq x :: ops => fifo_run (l ++ [x]) ops
  | l, QueueOp.deq :: ops => ((fifo_run l.tail ops).1, l.headD 0 :: (fifo_run l.tail ops).2)

/-- The elements passed to `enqueue` in a sequence of calls, in order. -/
def enqueued : List QueueOp → List Nat
  | [] => []
  | QueueOp.enq x :: ops => x :: enqueued ops
  | QueueOp.deq :: ops => enqueued ops

/-- A sequence of calls used as an example: the queue is filled beyond its
initial size, emptied, and used again. -/
def sample_queue_ops : List QueueOp :=
  [QueueOp.enq 1, QueueOp.enq 2, QueueOp.deq, QueueOp.enq 3, QueueOp.enq 4, QueueOp.enq 5,
   QueueOp.deq, QueueOp.deq, QueueOp.deq, QueueOp.deq, QueueOp.deq, QueueOp.enq 6, QueueOp.deq]

/-- Number of calls of `enqueue` in a sequence. -/
def count_enq : List QueueOp → Nat
  | [] => 0
  | QueueOp.enq _ :: ops => count_enq ops + 1
  | QueueOp.deq :: ops => count_enq ops

/-- The slots of a queue from `first` up to `last`, wrapping around at the end
of the array. -/
def queue_contents (queue : Queue) : List Nat :=
  if queue.first ≤ queue.last then
    (queue.elems.drop queue.first).take (queue.last - queue.first)
  else
    queue.elems.drop queue.first ++ queue.elems.take queue.last

/-- The queue is well formed and holds exactly the non-null elements `l`, the
oldest first. -/
structure QueueRep (queue : Queue) (l : List Nat) : Prop where
  size_pos : 0 < queue.elems.length
  size_lt : queue.elems.length < UINT_MOD
  first_lt : queue.first < queue.elems.length
  last_lt : queue.last < queue.elems.length
  contents : queue_contents queue = l
  non_null : ∀ x ∈ l, x ≠ 0

/-! ## Definitions: a model of the graph-mutation interface

`nenofex.c` is not part of the sources at hand. The functions below follow
section 6 of the specification and are used to run the embedding on concrete
graphs. -/

/-- Store `*node`. -/
def set_node (s : Nenofex) (n : Nat) (nd : Node) : Nenofex :=
  { s with nodes := s.nodes.set n (some nd) }

/-- Modelled from the spec: `update_size_subformula(node, delta)` of
`nenofex.c` ("maintain invariants": `size_subformula` is the node count of the
subtree): adds `delta` to `size_subformula` of `node` and of its ancestors.
`k` bounds the walk by the size of the node table. -/
def spec_update_size_loop : Nat → Nenofex → Option Nat → Int → M Nenofex
  | 0, s, _, _ => pure s
  | _ + 1, s, none, _ => pure s
  | k + 1, s, some n, delta => do
    let nd ← get_node s n
    let s1 := set_node s n { nd with size_subformula := ((nd.size_subformula : Int) + delta).toNat }
    spec_update_size_loop k s1 nd.parent delta

/-- Modelled from the spec: `update_size_subformula` of `nenofex.c`, see
`spec_update_size_loop`. -/
def spec_update_size_subformula (s : Nenofex) (n : Nat) (delta : Int) : M Nenofex :=
  spec_update_size_loop (s.nodes.length + 1) s (some n) delta

/-- The nodes of the subtrees rooted at the nodes of `stack`, parents before
children; `k` bounds the walk. -/
def subtree_nodes (s : Nenofex) : Nat → List Nat → M (List Nat)
  | 0, _ => pure []
  | k + 1, stack =>
    match stack with
    | [] => pure []
    | n :: rest => do
      let nd ← get_node s n
      let below ← subtree_nodes s k (nd.child_list ++ rest)
      pure (n :: below)

/-- Modelled from the spec: the deletion of one node inside
`remove_and_free_subformula` of `nenofex.c` ("delete a subtree and all its
FaultHandles via `mark_fault_node_as_deleted`"): the handle of the node, if
any, is marked, and the node is freed. -/
def spec_free_node (s : Nenofex) (n : Nat) : M Nenofex := do
  let nd ← get_node s n
  let s1 ← (match nd.atpg_info with
    | some i => do
      let a ← get_info s i
      match a.fault_node with
      | some f => mark_fault_node_as_deleted s f
      | none => pure s
    | none => pure s)
  pure { s1 with nodes := s1.nodes.set n none }

/-- Apply `spec_free_node` to a list of nodes. -/
def spec_free_nodes (s : Nenofex) : List Nat → M Nenofex
  | [] => pure s
  | n :: rest => do
    let s1 ← spec_free_node s n
    spec_free_nodes s1 rest

/-- Modelled from the spec: `unlink_node(node)` of `nenofex.c` ("detach
`node` from its parent"). The size update named in the same sentence is done
by the callers in `atpg.c` through `update_size_subformula` (lines 2875-2876)
and is not repeated here. A parent with a restricted watcher list is marked
for cleanup when the flag `mark_cleanup` is set. -/
def spec_detach (s : Nenofex) (n : Nat) (mark_cleanup : Bool) : M Nenofex := do
  let nd ← get_node s n
  match nd.parent with
  | none => pure s
  | some p => do
    let pnd ← get_node s p
    let s1 := set_node s p { pnd with child_list := pnd.child_list.erase n,
                                       num_children := pnd.num_children - 1 }
    let s2 := set_node s1 n { nd with parent := none }
    match pnd.atpg_info with
    | some i => do
      let a ← get_info s2 i
      if mark_cleanup ∧ a.atpg_ch.isSome then
        pure (set_info s2 i { a with clean_up_watcher_list := true })
      else pure s2
    | none => pure s2

/-- Modelled from the spec: `unlink_node` of `nenofex.c`, see `spec_detach`. -/
def spec_unlink_node (s : Nenofex) (n : Nat) : M Nenofex :=
  spec_detach s n false

/-- Modelled from the spec: `remove_and_free_subformula(root)` of `nenofex.c`
("delete a subtree and all its FaultHandles via `mark_fault_node_as_deleted`").
The subtree is detached from its parent, the sizes of the ancestors are
updated, every node of the subtree is freed and its handle marked. When the
subtree contains the subformula LCA the selector is reset and the pass is
aborted (section 4.6: "the subformula disappears, the driver signals abort");
a deleted participating child is removed from the selector. -/
def spec_remove_and_free_subformula (s : Nenofex) (root : Nat) : M Nenofex := do
  let nd ← get_node s root
  let sub ← subtree_nodes s (s.nodes.length + 1) [root]
  let s1 ← (match nd.parent with
    | some p => do
      let s1 ← spec_detach s root true
      spec_update_size_subformula s1 p (-(nd.size_subformula : Int))
    | none => pure s)
  let s2 ← spec_free_nodes s1 sub
  let s3 := if s2.graph_root = some root then { s2 with graph_root := none } else s2
  match s3.changed_subformula.lca with
  | some lca =>
    if lca ∈ sub then
      pure { s3 with changed_subformula := {}, atpg_rr_abort := true }
    else
      pure { s3 with changed_subformula.children := s3.changed_subformula.children.erase root }
  | none => pure s3

/-- Modelled from the spec: `or_node()` / `and_node()` of `nenofex.c`
("construct fresh operator nodes"): a node without parent and children is
appended to the node table. -/
def spec_new_node (t : NodeType) (s : Nenofex) : M (Nenofex × Nat) :=
  pure ({ s with nodes := s.nodes ++ [some { level := 0, type := t, parent := none,
                                             size_subformula := 0 }] },
        s.nodes.length)

/-- Modelled from the spec: `add_node_to_child_list(parent, node)` of
`nenofex.c` ("append"), keeping literal children before operator children
(section 3). Sizes and levels are updated by the callers in `atpg.c`
(lines 2877-2880, 2988-2991). -/
def spec_add_node_to_child_list (s : Nenofex) (parent new_child : Nat) : M Nenofex := do
  let pnd ← get_node s parent
  let cnd ← get_node s new_child
  let lits ← pnd.child_list.filterM (fun c => do
    let nd ← get_node s c
    pure (nd.type == NodeType.LITERAL))
  let ops ← pnd.child_list.filterM (fun c => do
    let nd ← get_node s c
    pure (nd.type != NodeType.LITERAL))
  let children := if cnd.type = NodeType.LITERAL then lits ++ [new_child] ++ ops
    else lits ++ ops ++ [new_child]
  let s1 := set_node s parent { pnd with child_list := children,
                                          num_children := pnd.num_children + 1 }
  pure (set_node s1 new_child { cnd with parent := some parent })

/-- Set the level of each listed node to one more than its parent's level
(zero without parent); the list has parents before children. -/
def spec_set_levels (s : Nenofex) : List Nat → M Nenofex
  | [] => pure s
  | n :: rest => do
    let nd ← get_node s n
    let level ← (match nd.parent with
      | some p => do
        let pnd ← get_node s p
        pure (pnd.level + 1)
      | none => pure 0)
    spec_set_levels (set_node s n { nd with level := level }) rest

/-- Modelled from the spec: `update_level(subtree_root)` of `nenofex.c`
("maintain invariants": `level` reflects depth from root). -/
def spec_update_level (s : Nenofex) (root : Nat) : M Nenofex := do
  let sub ← subtree_nodes s (s.nodes.length + 1) [root]
  spec_set_levels s sub

/-- Modelled from the spec: `merge_parent(node)` of `nenofex.c` ("collapse a
single-child operator with its parent"): the only child of `parent` takes the
place of `parent`, which is freed and whose handle is marked deleted. -/
def spec_merge_parent (s : Nenofex) (parent : Nat) : M Nenofex := do
  let pnd ← get_node s parent
  match pnd.child_list with
  | [c] => do
    let cnd ← get_node s c
    let s1 := set_node s c { cnd with parent := pnd.parent }
    let s2 ← (match pnd.parent with
      | some g => do
        let gnd ← get_node s1 g
        pure (set_node s1 g { gnd with
          child_list := gnd.child_list.map (fun x => if x = parent then c else x) })
      | none => pure (if s1.graph_root = some parent then { s1 with graph_root := some c } else s1))
    let s3 := if s2.changed_subformula.lca = some parent then
        { s2 with changed_subformula := {}, atpg_rr_abort := true }
      else s2
    let s4 ← spec_free_node (set_node s3 parent { pnd with child_list := [] }) parent
    spec_update_level s4 c
  | _ => pure s

/-- Modelled from the spec: `simplify_one_level(node)` of `nenofex.c` ("local
AND-of-AND / OR-of-OR flatten, single-child collapse"): the single-child
collapse is `spec_merge_parent`; a graph whose operator children have the
other operator type needs no flattening. -/
def spec_simplify_one_level (s : Nenofex) (n : Nat) : M Nenofex := do
  let nd ← get_node s n
  if nd.num_children = 1 then spec_merge_parent s n else pure s

/-- Modelled from the spec: the functions of `nenofex.c` behind `GraphAPI`.
`collect_variable_for_update` and
`mark_affected_scope_variables_for_cost_update` record variables for the
expansion driver in fields that are not part of the embedded state. -/
def spec_api : GraphAPI where
  remove_and_free_subformula := spec_remove_and_free_subformula
  unlink_node := spec_unlink_node
  update_size_subformula := spec_update_size_subformula
  merge_parent := spec_merge_parent
  or_node := spec_new_node NodeType.OR
  and_node := spec_new_node NodeType.AND
  add_node_to_child_list := spec_add_node_to_child_list
  update_level := spec_update_level
  simplify_one_level := spec_simplify_one_level
  mark_affected_scope_variables_for_cost_update := fun s _ => pure s
  reset_changed_lca_object := fun s => pure { s with changed_subformula := {} }
  add_changed_lca_child := fun s n =>
    pure { s with changed_subformula.children := s.changed_subformula.children ++ [n] }
  collect_variable_for_update := fun s _ => pure s

/-! ## Definitions: sample graphs -/

/-- A literal node. -/
def mk_lit (level : Nat) (parent : Nat) (var : Nat) (negated : Bool) : Option Node :=
  some { level := level, type := NodeType.LITERAL, parent := some parent,
         lit := some ⟨var, negated⟩ }

/-- An operator node. -/
def mk_op (t : NodeType) (level : Nat) (parent : Option Nat) (children : List Nat)
    (size : Nat) : Option Node :=
  some { level := level, type := t, parent := parent, child_list := children,
         num_children := children.length, size_subformula := size }

/-- The graph of `(a & !a) | b` (scenario 1 of the specification): node 0 is
the root `OR` with children `b` (node 1) and the `AND` (node 2) over `a`
(node 3) and `!a` (node 4); variable 0 is `a`, variable 1 is `b`. The whole
graph is the changed subformula. -/
def sample_graph : Nenofex :=
  { nodes := [mk_op NodeType.OR 0 none [1, 2] 5, mk_lit 1 0 1 false,
              mk_op NodeType.AND 1 (some 0) [3, 4] 3, mk_lit 2 2 0 false, mk_lit 2 2 0 true]
    vars := [{}, {}]
    graph_root := some 0
    changed_subformula := { lca := some 0, children := [1, 2] } }

/-- `sample_graph` after the set-up steps of
`simplify_by_global_flow_and_atpg_main`: arena allocated, `ATPGInfo`
assigned, fault queue filled bottom-up. -/
def sample_ready : M Nenofex := do
  let s ← allocate_atpg_info_pointers { sample_graph with atpg_rr_called := true }
  let s ← init_subformula_atpg_info 20 s
  collect_fault_nodes_bottom_up 20 s

/-- The state computed by `sample_ready`. -/
def sample_ready_state : Nenofex :=
  match sample_ready with
  | Except.ok s => s
  | Except.error _ => sample_graph

/-- `sample_ready_state` after the sensitisation of the fault at the literal
`b` (node 1): the variable `b` is assigned and waits in the propagation
queue. -/
def sample_sensitized : Nenofex :=
  match fault_sensitization sample_ready_state 1 ATPGFaultType.STUCK_AT_0 with
  | Except.ok s => s
  | Except.error _ => sample_ready_state

/-- Some candidate is tested after the entry `conflict_set` of a history. -/
def tested_after_conflict : List Event → Bool
  | [] => false
  | Event.conflict_set :: rest =>
    rest.any (fun e => match e with
      | Event.fault_tested _ _ _ _ => true
      | Event.implication_tried _ _ _ => true
      | _ => false)
  | _ :: rest => tested_after_conflict rest

/-! ## Definitions: invariants of the propagation budget -/

/-- The part of the state the budget claims talk about: the two step
counters, the cutoff flag, the phase flag, the budgets and the history. -/
structure Core where
  fwd : Nat
  bwd : Nat
  prop_cutoff : Bool
  gfo : Bool
  limits : PropagationLimits
  trace : List Event

/-- Projection of a state to its `Core`. -/
def core (s : Nenofex) : Core :=
  ⟨s.atpg_rr.stats.fwd_prop_cnt, s.atpg_rr.stats.bwd_prop_cnt, s.atpg_rr.prop_cutoff,
   s.atpg_rr.global_flow_optimizing, s.limits, s.atpg_rr.trace⟩

/-- Sum of the forward and backward step counters. -/
def step_sum (s : Nenofex) : Nat :=
  s.atpg_rr.stats.fwd_prop_cnt + s.atpg_rr.stats.bwd_prop_cnt

/-- The cutoff flag agrees with the counters: no cutoff while the budget `L`
is not exceeded, or cutoff with the budget exceeded by one or two steps. -/
def stABC (L : Nat) (s : Nenofex) : Prop :=
  (s.atpg_rr.prop_cutoff = false ∧ step_sum s ≤ L)
  ∨ (s.atpg_rr.prop_cutoff = true ∧ L < step_sum s ∧ step_sum s ≤ L + 2)

/-- The history entry records a propagation step that raised the cutoff. -/
def Event.raises : Event → Bool
  | Event.prop_step _ _ _ r => r
  | _ => false

/-- The history entry records the dequeuing of a variable or the test of a
candidate. -/
def Event.gated : Event → Bool
  | Event.var_dequeued _ _ _ => true
  | Event.fault_tested _ _ _ _ => true
  | Event.implication_tried _ _ _ => true
  | _ => false

/-- The history entry records the assignment of a node or of a variable. -/
def Event.assigns : Event → Bool
  | Event.node_assigned _ _ _ => true
  | Event.var_assigned _ _ _ => true
  | _ => false

/-- Properties of history entries that hold in every run: a variable is
dequeued only while neither conflict nor cutoff is set, a candidate is tested
only while the cutoff is not set and only if its handle is neither deleted
nor (in the ATPG phase) marked to be skipped, and a propagation step raises
the cutoff iff the sum of the counters, in `unsigned` arithmetic, then exceeds
the active budget. -/
def EvU : Event → Prop
  | Event.var_dequeued _ cf c => cf = false ∧ c = false
  | Event.fault_tested _ d sk c => d = false ∧ sk = false ∧ c = false
  | Event.implication_tried _ d c => d = false ∧ c = false
  | Event.prop_step f b l r => (r = true ↔ l < (f + b) % UINT_MOD)
  | _ => True

/-- Properties of history entries that hold in a phase with budget `L` that
starts within budget: assignments happen only while the cutoff is not set,
and the counters never exceed the budget by more than two. -/
def EvC (L : Nat) : Event → Prop
  | Event.node_assigned _ _ c => c = false
  | Event.var_assigned _ _ c => c = false
  | Event.prop_step f b l _ => l = L ∧ f + b ≤ L + 2
  | _ => True

/-- Order property of a history: an entry that raises the cutoff is followed
neither by the dequeuing of a variable nor by the test of a candidate, and
(when `b` holds) by no assignment. -/
def Sticky (b : Prop) (new : List Event) : Prop :=
  new.Pairwise (fun x y => x.raises = true → y.gated = false ∧ (b → y.assigns = false))

/-- The properties of the history entries `new` added since the start of a
phase, `cut` being the current value of the cutoff flag. -/
structure Good (b : Prop) (L : Nat) (cut : Bool) (new : List Event) : Prop where
  evu : ∀ e ∈ new, EvU e
  sticky : Sticky b new
  unraised : cut = false → ∀ e ∈ new, e.raises = false
  evc : b → ∀ e ∈ new, EvC L e

/-- Invariant of a phase with budget `L` whose history was `T` at the start.
The part guarded by `b` holds in phases that start within budget, with a
budget that leaves room for two more steps below `2 ^ 32`. -/
structure Inv (b : Prop) (L : Nat) (T : List Event) (s : Nenofex) : Prop where
  lim : active_limit s = L
  ext : ∃ new, s.atpg_rr.trace = T ++ new ∧ Good b L s.atpg_rr.prop_cutoff new
  bud : b → L + 2 < UINT_MOD ∧ stABC L s

/-- The invariant in a state where (if `b` holds) the cutoff is not set. -/
def InvA (b : Prop) (L : Nat) (T : List Event) (s : Nenofex) : Prop :=
  Inv b L T s ∧ (b → s.atpg_rr.prop_cutoff = false)

/-- The invariant in a state where (if `b` holds) the budget is exceeded by
at most one step. -/
def InvB (b : Prop) (L : Nat) (T : List Event) (s : Nenofex) : Prop :=
  Inv b L T s ∧ (b → step_sum s ≤ L + 1)

/-- Partial correctness of a computation: if it returns a value, the value
satisfies `Q`. -/
def Tri {α : Type} (x : M α) (Q : α → Prop) : Prop :=
  ∀ a, x = Except.ok a → Q a

/-- A computation does not run out of fuel, and its result, if any, satisfies
`Q`. Running out of fuel is the only way in which the embedding of a loop
fails to terminate; the other outcomes are a result, the dereference of a
null or dangling pointer, and `exit (1)`. -/
def Fin {α : Type} (x : M α) (Q : α → Prop) : Prop :=
  x ≠ Except.error Err.fuel ∧ Tri x Q

/-- Progress between two states of a propagation: the step counters did not
decrease, and the propagation queue grew by at most the number of steps. -/
def Adv (s s' : Nenofex) : Prop :=
  step_sum s ≤ step_sum s'
  ∧ s'.atpg_rr.propagation_queue.length + step_sum s
      ≤ s.atpg_rr.propagation_queue.length + step_sum s'

/-- The counters and the propagation queue are the same in both states. -/
def SameCount (s s' : Nenofex) : Prop :=
  s'.atpg_rr.stats.fwd_prop_cnt = s.atpg_rr.stats.fwd_prop_cnt
  ∧ s'.atpg_rr.stats.bwd_prop_cnt = s.atpg_rr.stats.bwd_prop_cnt
  ∧ s'.atpg_rr.propagation_queue = s.atpg_rr.propagation_queue

/-- Assumption on the functions of `nenofex.c`: they change neither the step
counters, the cutoff flag, the phase flag, the budgets nor the history. -/
structure APIFrame (api : GraphAPI) : Prop where
  remove_and_free_subformula : ∀ s n,
    Tri (api.remove_and_free_subformula s n) (fun s' => core s' = core s)
  unlink_node : ∀ s n, Tri (api.unlink_node s n) (fun s' => core s' = core s)
  update_size_subformula : ∀ s n d,
    Tri (api.update_size_subformula s n d) (fun s' => core s' = core s)
  merge_parent : ∀ s n, Tri (api.merge_parent s n) (fun s' => core s' = core s)
  or_node : ∀ s, Tri (api.or_node s) (fun r => core r.1 = core s)
  and_node : ∀ s, Tri (api.and_node s) (fun r => core r.1 = core s)
  add_node_to_child_list : ∀ s p c,
    Tri (api.add_node_to_child_list s p c) (fun s' => core s' = core s)
  update_level : ∀ s n, Tri (api.update_level s n) (fun s' => core s' = core s)
  simplify_one_level : ∀ s n, Tri (api.simplify_one_level s n) (fun s' => core s' = core s)
  mark_affected_scope_variables_for_cost_update : ∀ s n,
    Tri (api.mark_affected_scope_variables_for_cost_update s n) (fun s' => core s' = core s)
  reset_changed_lca_object : ∀ s,
    Tri (api.reset_changed_lca_object s) (fun s' => core s' = core s)
  add_changed_lca_child : ∀ s n,
    Tri (api.add_changed_lca_child s n) (fun s' => core s' = core s)
  collect_variable_for_update : ∀ s n,
    Tri (api.collect_variable_for_update s n) (fun s' => core s' = core s)

/-! ## Definitions: sample graphs for the set-up of a pass -/

/-- The graph of `a | b | (c & d)` whose `AND` child (node 3) carries the stale
`size_subformula = 1` instead of 3: node 0 is the root `OR` with children
`a` (node 1), `b` (node 2) and the `AND` (node 3) over `c` (node 4) and `d`
(node 5). The size computed by `allocate_atpg_info_pointers` is then 4, the
arena gets 6 entries, and the region has 6 nodes. -/
def sample_stale_size : Nenofex :=
  { nodes := [mk_op NodeType.OR 0 none [1, 2, 3] 6, mk_lit 1 0 0 false, mk_lit 1 0 1 false,
              mk_op NodeType.AND 1 (some 0) [4, 5] 1, mk_lit 2 3 2 false, mk_lit 2 3 3 false]
    vars := [{}, {}, {}, {}]
    graph_root := some 0
    changed_subformula := { lca := some 0, children := [1, 2, 3] } }

/-! ## Definitions: the two guarded phase calls of the pass driver -/

/-- The guarded call of `optimize_by_global_flow` in
`simplify_by_global_flow_and_atpg_main` (lines 3783-3787); without the call
`implications_found` keeps its value. -/
def global_flow_phase (api : GraphAPI) (fuel : Nat) (s : Nenofex) (implications_found : Nat) :
    M (Nenofex × Nat) :=
  if s.options.no_global_flow_specified = 0 ∧ s.atpg_rr.global_flow_prop_cutoff = false then
    optimize_by_global_flow api fuel s
  else pure (s, implications_found)

/-- The guarded call of `test_all_faults` in
`simplify_by_global_flow_and_atpg_main` (lines 3796-3803); without the call
`redundancies_found` keeps its value. -/
def atpg_phase (api : GraphAPI) (fuel : Nat) (s : Nenofex) (called_again : Bool)
    (implications_found redundancies_found : Nat) : M (Nenofex × Nat) :=
  if s.options.no_atpg_specified = 0 ∧ s.atpg_rr.atpg_prop_cutoff = false
      ∧ (called_again = false ∨ implications_found ≠ 0) then
    test_all_faults api fuel s
  else pure (s, redundancies_found)

/-- The graph of `(c & (b | a)) | (b & a)`: node 0 is the root `OR` over the
`AND` nodes 1 and 6; node 1 has the children `c` (node 2) and the `OR`
(node 3) over `b` (node 4) and `a` (node 5); node 6 has the children `b`
(node 7) and `a` (node 8). Variables 0, 1, 2 are `a`, `b`, `c`. The whole
graph is the changed subformula. -/
def majority_graph : Nenofex :=
  { nodes := [mk_op NodeType.OR 0 none [1, 6] 9,
              mk_op NodeType.AND 1 (some 0) [2, 3] 5, mk_lit 2 1 2 false,
              mk_op NodeType.OR 2 (some 1) [4, 5] 3, mk_lit 3 3 1 false, mk_lit 3 3 0 false,
              mk_op NodeType.AND 1 (some 0) [7, 8] 3, mk_lit 2 6 1 false, mk_lit 2 6 0 false]
    vars := [{}, {}, {}]
    graph_root := some 0
    changed_subformula := { lca := some 0, children := [1, 6] } }

/-- The set-up steps of `simplify_by_global_flow_and_atpg_main` on
`majority_graph`. -/
def majority_ready : M Nenofex := do
  let s ← allocate_atpg_info_pointers { majority_graph with atpg_rr_called := true }
  let s ← init_subformula_atpg_info 100 s
  collect_fault_nodes_bottom_up 100 { s with atpg_rr.collect_faults_set := true }

/-- The state computed by `majority_ready`. -/
def majority_ready_state : Nenofex :=
  match majority_ready with
  | Except.ok s => s
  | Except.error _ => majority_graph

/-- The result of the global-flow phase on `majority_ready_state`. -/
def majority_after_global_flow : Nenofex × Nat :=
  match global_flow_phase spec_api 100 majority_ready_state 0 with
  | Except.ok r => r
  | Except.error _ => (majority_ready_state, 0)

/-- The result of the redundancy-removal phase that follows. -/
def majority_after_atpg : Nenofex × Nat :=
  match atpg_phase spec_api 100 majority_after_global_flow.1 false
      majority_after_global_flow.2 0 with
  | Except.ok r => r
  | Except.error _ => (majority_after_global_flow.1, 0)

/-- The result of the global-flow phase on `sample_ready_state`. -/
def sample_after_global_flow : Nenofex × Nat :=
  match global_flow_phase spec_api 20 sample_ready_state 0 with
  | Except.ok r => r
  | Except.error _ => (sample_ready_state, 0)

/-- The result of the redundancy-removal phase that follows. -/
def sample_after_atpg : Nenofex × Nat :=
  match atpg_phase spec_api 20 sample_after_global_flow.1 false sample_after_global_flow.2 0 with
  | Except.ok r => r
  | Except.error _ => (sample_after_global_flow.1, 0)

/-! ## Definitions: the preparation steps of the global-flow rewrite -/

/-- The test that selects the first subcase of each case of
`transform_subformula_by_global_flow_implication` (lines 2966-2967, 3027-3028,
3095-3096, 3121-3122), for the assignment of the implicant and the type of
the witness. -/
def strong_implication (assignment : ATPGAssignment) (type : NodeType) : Prop :=
  (decide (assignment = ATPGAssignment.TRUE) = true ∧ type = NodeType.AND)
    ∨ (¬ decide (assignment = ATPGAssignment.TRUE) = true ∧ type = NodeType.OR)

instance (assignment : ATPGAssignment) (type : NodeType) :
    Decidable (strong_implication assignment type) := by
  unfold strong_implication
  exact inferInstance

/-- The statements of CASE 1.1 of
`transform_subformula_by_global_flow_implication` between the creation of the
node `insert_at` and the macro `apply_transformation` (lines 2979-2998): the
old graph root becomes the child of `insert_at`, which gets an `ATPGInfo`,
is put on the fault queue and becomes graph root and subformula LCA. -/
def new_root_set_up (api : GraphAPI) (s : Nenofex) (fault_node insert_at : Nat) :
    M Nenofex := do
  let root ← deref s.graph_root
  let s ← api.add_node_to_child_list s insert_at root
  let s ← api.update_level s root
  let rnd ← get_node s root
  let s ← api.update_size_subformula s insert_at ((rnd.size_subformula : Int) + 1)
  let s ← assign_node_atpg_info s insert_at
  let ia ← node_info s insert_at
  let iaf ← deref ia.fault_node
  let s := enqueue_fault s iaf
  let s := { s with graph_root := some insert_at }
  let s ← api.reset_changed_lca_object s
  let s := { s with changed_subformula.lca := some insert_at }
  let ind ← get_node s insert_at
  let first ← deref ind.child_list.head?
  let s ← api.add_changed_lca_child s first
  api.add_changed_lca_child s fault_node

/-- The statements of CASE 2.1 of
`transform_subformula_by_global_flow_implication` before the macro
`apply_transformation` (lines 3030-3074): the parent `insert_at` of the old
LCA gets a watcher list with the old LCA, is put on the fault queue and
becomes the subformula LCA. -/
def lca_parent_set_up (api : GraphAPI) (s : Nenofex)
    (fault_node highest_implication insert_at : Nat) : M Nenofex := do
  let s ← collect_fault_path_node s highest_implication
  let ind ← get_node s insert_at
  let ha ← node_info s highest_implication
  let hf ← deref ha.fault_node
  let s ← set_up_parent_watcher_list s insert_at ind hf
  let ia ← node_info s insert_at
  let iaf ← deref ia.fault_node
  let s := enqueue_fault s iaf
  let tmp ← deref s.changed_subformula.lca
  let s ← api.reset_changed_lca_object s
  let s := { s with changed_subformula.lca := some insert_at }
  let s ← api.add_changed_lca_child s tmp
  api.add_changed_lca_child s fault_node

/-! ## Definitions: the collectors `collect_fault_nodes_by_dfs` and
`collect_fault_nodes_by_bfs` (`atpg.c`, lines 374-461) -/

/-- The `while` loop of `collect_fault_nodes_by_dfs` (lines 393-417) with
the explicit stack `stack` (top first). The mark `collect_faults_mark` is the
bit `mark2` of the node. -/
def collect_dfs_loop : Nat → Nenofex → List Nat → M Nenofex
  | 0, _, _ => throw Err.fuel
  | fuel + 1, s, stack =>
    match stack with
    | [] => pure s
    | cur :: rest => do
      let nd ← get_node s cur
      if nd.type = NodeType.LITERAL then
        let ca ← node_info s cur
        let f ← deref ca.fault_node
        collect_dfs_loop fuel (enqueue_fault s f) rest
      else if nd.mark2 then
        let s := set_node s cur { nd with mark2 := false }
        let ca ← node_info s cur
        let f ← deref ca.fault_node
        collect_dfs_loop fuel (enqueue_fault s f) rest
      else
        collect_dfs_loop fuel (set_node s cur { nd with mark2 := true })
          (nd.child_list ++ cur :: rest)

/-- Embedding of `collect_fault_nodes_by_dfs` (lines 374-420). The root is
marked and pushed first, then the participating children in array order, so
the last one is on top. -/
def collect_fault_nodes_by_dfs (fuel : Nat) (s : Nenofex) : M Nenofex := do
  let root ← deref s.changed_subformula.lca
  let rnd ← get_node s root
  let s := set_node s root { rnd with mark2 := true }
  collect_dfs_loop fuel s (s.changed_subformula.children.reverse ++ [root])

/-- The `while` loop of `collect_fault_nodes_by_bfs` (lines 444-458) with the
explicit queue `queue` (front first). -/
def collect_bfs_loop : Nat → Nenofex → List Nat → M Nenofex
  | 0, _, _ => throw Err.fuel
  | fuel + 1, s, queue =>
    match queue with
    | [] => pure s
    | cur :: rest => do
      let nd ← get_node s cur
      let ca ← node_info s cur
      let f ← deref ca.fault_node
      let s := enqueue_fault s f
      if nd.type != NodeType.LITERAL then
        collect_bfs_loop fuel s (rest ++ nd.child_list)
      else
        collect_bfs_loop fuel s rest

/-- Embedding of `collect_fault_nodes_by_bfs` (lines 426-461). -/
def collect_fault_nodes_by_bfs (fuel : Nat) (s : Nenofex) : M Nenofex := do
  let root ← deref s.changed_subformula.lca
  let ra ← node_info s root
  let rf ← deref ra.fault_node
  collect_bfs_loop fuel (enqueue_fault s rf) s.changed_subformula.children

/-! ## Definitions: the region of a pass -/

/-- The nodes that the traversals of `atpg.c` visit below a node: the child
list of an operator node, nothing below a literal; `none` for a freed node. -/
def node_children (s : Nenofex) (n : Nat) : Option (List Nat) :=
  match s.nodes[n]? with
  | some (some nd) => some (if nd.type != NodeType.LITERAL then nd.child_list else [])
  | _ => none

/-- Concatenation of the lists `f c` for the members `c` of a list, if all
of them exist. -/
def concat_map (f : Nat → Option (List Nat)) : List Nat → Option (List Nat)
  | [] => some []
  | c :: rest =>
    match f c, concat_map f rest with
    | some l, some r => some (l ++ r)
    | _, _ => none

/-- The nodes of the subtree rooted at a node, parents before children and
children in list order, for the child function `ch`; `none` when the subtree
is deeper than the bound or contains a freed node. -/
def subtree_of (ch : Nat → Option (List Nat)) : Nat → Nat → Option (List Nat)
  | 0, _ => none
  | d + 1, n =>
    match ch n with
    | some cs => (concat_map (subtree_of ch d) cs).map (fun l => n :: l)
    | none => none

/-- The nodes of the subtrees rooted at the members of `roots`, one subtree
after the other. -/
def forest_of (ch : Nat → Option (List Nat)) (d : Nat) (roots : List Nat) : Option (List Nat) :=
  concat_map (subtree_of ch d) roots

/-- The node `m` is a child of the operator node `p`. -/
def child_of (ch : Nat → Option (List Nat)) (p m : Nat) : Prop :=
  ∃ cs, ch p = some cs ∧ m ∈ cs

/-- The node `n` lies in the subtree rooted at `c`: it is reached from `c`
by following child lists. -/
def in_subtree (s : Nenofex) (c n : Nat) : Prop :=
  Relation.ReflTransGen (child_of (node_children s)) c n

/-- The node `n` belongs to the region of the pass: it is the subformula LCA
or lies in the subtree of a participating child. -/
def in_region (s : Nenofex) (n : Nat) : Prop :=
  s.changed_subformula.lca = some n ∨ ∃ c ∈ s.changed_subformula.children, in_subtree s c n

/-- Breadth-first order of the nodes below the members of a queue: the front
node is visited and its children are appended at the back; `k` bounds the
number of visits. -/
def bfs_order (ch : Nat → Option (List Nat)) : Nat → List Nat → Option (List Nat)
  | _, [] => some []
  | 0, _ :: _ => none
  | k + 1, n :: rest =>
    match ch n with
    | some cs => (bfs_order ch k (rest ++ cs)).map (fun l => n :: l)
    | none => none

/-- The handle `node->atpg_info->fault_node` of a node, if it has one. -/
def fault_handle (s : Nenofex) (n : Nat) : Option Nat :=
  match node_info s n with
  | Except.ok a => a.fault_node
  | Except.error _ => none

/-- The node is a literal node. -/
def is_literal_node (s : Nenofex) (n : Nat) : Bool :=
  match s.nodes[n]? with
  | some (some nd) => nd.type == NodeType.LITERAL
  | _ => false

/-- The body of the `while` loop of `init_subformula_atpg_info`
(lines 310-348) for the popped node `cur`, without the pushes of the
children on the stack. -/
def init_visit (root root_info : Nat) (s : Nenofex) (cur : Nat) : M Nenofex := do
  let s ← assign_node_atpg_info s cur
  let nd ← get_node s cur
  let ca ← node_info s cur
  let f ← deref ca.fault_node
  let ra ← get_info s root_info
  let s := match ra.atpg_ch with
    | some ch =>
      if nd.parent = some root then set_info s root_info { ra with atpg_ch := some (ch ++ [f]) }
      else s
    | none => s
  if nd.type != NodeType.LITERAL then
    pure s
  else
    let lit ← deref nd.lit
    let var ← get_var s lit.var
    let s :=
      if var.atpg_mark = false then
        let var1 := { var with atpg_mark := true, subformula_pos_occs := some [] }
        { (set_var s lit.var { var1 with subformula_neg_occs := some [] }) with
          atpg_rr.subformula_vars := s.atpg_rr.subformula_vars ++ [lit.var] }
      else s
    push_occ s lit.var lit.negated f

/-- The handles `f, f + 1, ...` are given to the nodes of a list in order;
the result lists the handles of those nodes that satisfy `p`. -/
def handles_where (p : Nat → Bool) : Nat → List Nat → List Nat
  | _, [] => []
  | f, n :: rest =>
    if p n then f :: handles_where p (f + 1) rest else handles_where p (f + 1) rest

/-- The field `parent` of a node. -/
def parent_of (s : Nenofex) (n : Nat) : Option Nat :=
  match s.nodes[n]? with
  | some (some nd) => nd.parent
  | _ => none

/-- The literal of a literal node. -/
def lit_of (s : Nenofex) (n : Nat) : Option Lit :=
  match s.nodes[n]? with
  | some (some nd) => if nd.type = NodeType.LITERAL then nd.lit else none
  | _ => none

/-- The handles of the literal nodes of the variable `v` with the given
`negated` bit among the nodes of `l`, which get the handles `f, f + 1, ...`. -/
def occ_handles (s : Nenofex) (v : Nat) (negated : Bool) (f : Nat) (l : List Nat) : List Nat :=
  handles_where (fun n => decide (lit_of s n = some ⟨v, negated⟩)) f l

/-- The handles of the nodes of `l` whose parent is `root`. -/
def child_handles (s : Nenofex) (root : Nat) (f : Nat) (l : List Nat) : List Nat :=
  handles_where (fun n => decide (parent_of s n = some root)) f l

/-- A variable after the initialisation of a region in which its literals
have the handles `pos` (not negated) and `neg` (negated). -/
def var_after_init (x : Var) (pos neg : List Nat) : Var :=
  if pos = [] ∧ neg = [] then x
  else { x with atpg_mark := true, subformula_pos_occs := some pos,
                subformula_neg_occs := some neg }

/-- The state `s` of the loop of `init_subformula_atpg_info` after the nodes
`done` have been popped, in terms of the state `s0` at the entry of the loop,
where `c1` is the next free arena entry, `f1` the next handle, and `ri` the
arena entry of the LCA `root`. -/
structure InitMid (s0 : Nenofex) (root ri c1 f1 : Nat) (done : List Nat) (s : Nenofex) :
    Prop where
  visited : ∀ k n, done[k]? = some n → ∃ nd0 : Node, s0.nodes[n]? = some (some nd0)
    ∧ s.nodes[n]? = some (some { nd0 with atpg_info := some (c1 + k) })
  others : ∀ n, n ∉ done → s.nodes[n]? = s0.nodes[n]?
  cur : s.atpg_rr.cur_atpg_info = some (c1 + done.length)
  end_ : s.atpg_rr.end_atpg_info = s0.atpg_rr.end_atpg_info
  fault_nodes : s.atpg_rr.fault_nodes
    = s0.atpg_rr.fault_nodes ++ done.map (fun n => { node := n })
  arena : ∃ (arr0 arr : List ATPGInfo) (ra0 : ATPGInfo), s0.atpg_rr.atpg_info_array = some arr0
    ∧ s.atpg_rr.atpg_info_array = some arr ∧ arr.length = arr0.length
    ∧ arr0[ri]? = some ra0
    ∧ arr[ri]? = some { ra0 with
        atpg_ch := ra0.atpg_ch.map (fun ch => ch ++ child_handles s0 root f1 done) }
    ∧ (∀ k n, done[k]? = some n → ∃ a, arr[c1 + k]? = some a ∧ a.fault_node = some (f1 + k))
    ∧ (∀ i, c1 + done.length ≤ i → arr[i]? = arr0[i]?)
  vars : ∀ v x, s0.vars[v]? = some x → s.vars[v]?
    = some (var_after_init x (occ_handles s0 v false f1 done) (occ_handles s0 v true f1 done))
  vars_length : s.vars.length = s0.vars.length
  subformula_vars : ∃ vs, s.atpg_rr.subformula_vars = s0.atpg_rr.subformula_vars ++ vs
    ∧ vs.Nodup ∧ ∀ v, v ∈ vs ↔ ∃ n ∈ done, ∃ lit, lit_of s0 n = some lit ∧ lit.var = v
  fault_queue : s.atpg_rr.fault_queue = s0.atpg_rr.fault_queue
  changed_subformula : s.changed_subformula = s0.changed_subformula
  graph_root : s.graph_root = s0.graph_root

/-- The state before `init_subformula_atpg_info`: the region below the LCA
`root` is a tree whose nodes, listed in the order of the visits, are `l`; the
arena has the free entries `c0 .. e - 1`, which are zero as after the `memset`
of `allocate_atpg_info_pointers`, and more of them than the region has nodes;
no variable is marked; among the nodes of the region exactly the
participating children have the LCA as parent. -/
structure RegionReady (s : Nenofex) (root : Nat) (rnd : Node) (c0 e d : Nat)
    (arr : List ATPGInfo) (l : List Nat) : Prop where
  lca : s.changed_subformula.lca = some root
  root_node : s.nodes[root]? = some (some rnd)
  root_op : rnd.type ≠ NodeType.LITERAL
  forest : forest_of (node_children s) d s.changed_subformula.children.reverse = some l
  nodup : (root :: l).Nodup
  cur : s.atpg_rr.cur_atpg_info = some c0
  end_ : s.atpg_rr.end_atpg_info = some e
  arena : s.atpg_rr.atpg_info_array = some arr
  end_le : e ≤ arr.length
  zeroed : ∀ i, c0 ≤ i → i < arr.length → arr[i]? = some {}
  room : c0 + l.length + 1 < e
  literals : ∀ n ∈ l, ∀ nd : Node, s.nodes[n]? = some (some nd) → nd.type = NodeType.LITERAL →
    ∃ (lit : Lit) (x : Var), nd.lit = some lit ∧ s.vars[lit.var]? = some x
  unmarked : ∀ (v : Nat) (x : Var), s.vars[v]? = some x → x.atpg_mark = false
  children_parent : ∀ c ∈ s.changed_subformula.children, parent_of s c = some root
  below_parent : ∀ n ∈ l, n ∉ s.changed_subformula.children → parent_of s n ≠ some root
  children_ne : s.changed_subformula.children ≠ []

/-- The state `s1` after `init_subformula_atpg_info` in terms of the state
`s` before it: the nodes `root :: l` have the arena entries `c0, c0 + 1, ...`
and the fresh handles `f0, f0 + 1, ...`; the variables hold the handles of
their literals; the entry of the root holds the watcher list. -/
structure RegionDone (s : Nenofex) (root : Nat) (rnd : Node) (c0 : Nat) (l : List Nat)
    (s1 : Nenofex) : Prop where
  visited : ∀ k n, (root :: l)[k]? = some n → ∃ (nd0 : Node) (a : ATPGInfo) (arr1 : List ATPGInfo),
    s.nodes[n]? = some (some nd0)
    ∧ s1.nodes[n]? = some (some { nd0 with atpg_info := some (c0 + k) })
    ∧ s1.atpg_rr.atpg_info_array = some arr1 ∧ arr1[c0 + k]? = some a
    ∧ a.fault_node = some (s.atpg_rr.fault_nodes.length + k)
  others : ∀ n, n ∉ root :: l → s1.nodes[n]? = s.nodes[n]?
  fault_nodes : s1.atpg_rr.fault_nodes
    = s.atpg_rr.fault_nodes ++ (root :: l).map (fun n => { node := n })
  cur : s1.atpg_rr.cur_atpg_info = some (c0 + l.length + 1)
  vars : ∀ v x, s.vars[v]? = some x → s1.vars[v]?
    = some (var_after_init x (occ_handles s v false (s.atpg_rr.fault_nodes.length + 1) l)
        (occ_handles s v true (s.atpg_rr.fault_nodes.length + 1) l))
  subformula_vars : ∃ vs, s1.atpg_rr.subformula_vars = s.atpg_rr.subformula_vars ++ vs
    ∧ vs.Nodup ∧ ∀ v, v ∈ vs ↔ ∃ n ∈ l, ∃ lit, lit_of s n = some lit ∧ lit.var = v
  root_entry : ∃ (arr1 : List ATPGInfo) (ra : ATPGInfo),
    s1.atpg_rr.atpg_info_array = some arr1 ∧ arr1[c0]? = some ra
    ∧ (if s.changed_subformula.children.length < rnd.num_children then
        ra.atpg_ch = some (child_handles s root (s.atpg_rr.fault_nodes.length + 1) l)
        ∧ ra.watcher_pos = some 0
        ∧ ra.watcher = s.changed_subformula.children.getLast?
        ∧ ra.unassigned_ch_cnt
            = (child_handles s root (s.atpg_rr.fault_nodes.length + 1) l).length
      else
        ra.atpg_ch = none ∧ ra.watcher_pos = none ∧ ra.watcher = rnd.child_list.head?
        ∧ ra.unassigned_ch_cnt = rnd.num_children)
  fault_queue : s1.atpg_rr.fault_queue = s.atpg_rr.fault_queue
  changed_subformula : s1.changed_subformula = s.changed_subformula
  graph_root : s1.graph_root = s.graph_root

/-! ## Definitions: a sample region with a non-participating child -/

/-- The graph of `a | x | (b & !a)`: node 0 is the root `OR` with the
children `a` (node 1), `x` (node 2) and the `AND` (node 3) over `b` (node 4)
and `!a` (node 5); variables 0, 1, 2 are `a`, `x`, `b`. Only the children
`a` and the `AND` participate in the pass. -/
def partial_graph : Nenofex :=
  { nodes := [mk_op NodeType.OR 0 none [1, 2, 3] 6, mk_lit 1 0 0 false, mk_lit 1 0 1 false,
              mk_op NodeType.AND 1 (some 0) [4, 5] 3, mk_lit 2 3 2 false, mk_lit 2 3 0 true]
    vars := [{}, {}, {}]
    graph_root := some 0
    changed_subformula := { lca := some 0, children := [1, 3] } }

/-- `partial_graph` after `allocate_atpg_info_pointers`: the arena has 7
zero entries. -/
def partial_allocated : Nenofex :=
  match allocate_atpg_info_pointers { partial_graph with atpg_rr_called := true } with
  | Except.ok s => s
  | Except.error _ => partial_graph

/-- The state after `init_subformula_atpg_info` on `partial_allocated`. -/
def partial_initialised : Nenofex :=
  match init_subformula_atpg_info 5 partial_allocated with
  | Except.ok s => s
  | Except.error _ => partial_allocated

/-! ## Definitions: the orders of the collectors -/

/-- The state with the fault queue replaced by `q`. -/
def with_fault_queue (s : Nenofex) (q : List Nat) : Nenofex :=
  { s with atpg_rr.fault_queue := q }

/-- The order of the specification for the bottom-up collector, for the
breadth-first order `lb` of the nodes below the LCA `root`: the literal nodes
in breadth-first order, then the operator nodes in the reverse of their
breadth-first order, which ends with the LCA. -/
def bottom_up_order (s : Nenofex) (root : Nat) (lb : List Nat) : List Nat :=
  lb.filter (is_literal_node s)
    ++ ((lb.filter (fun n => !is_literal_node s n)).reverse ++ [root])

/-- The node `m` lies in the subtree of `p` and is not `p`. -/
def below (s : Nenofex) (p m : Nat) : Prop :=
  in_subtree s p m ∧ p ≠ m

/-- The nodes of the subtree rooted at a node, children before parents. -/
def postorder_of (ch : Nat → Option (List Nat)) : Nat → Nat → Option (List Nat)
  | 0, _ => none
  | d + 1, n =>
    match ch n with
    | some cs => (concat_map (postorder_of ch d) cs).map (fun l => l ++ [n])
    | none => none

/-- The bit `mark2` of a node. -/
def mark2_of (s : Nenofex) (n : Nat) : Bool :=
  match s.nodes[n]? with
  | some (some nd) => nd.mark2
  | _ => false

/-! ## Definitions: notions used in the statements about propagation and
sensitisation -/

/-- The value a variable must take so that its literal `lit` evaluates to
`want`. -/
def required_value (lit : Lit) (want : Bool) : VarAssignment :=
  if lit.negated = want then VarAssignment.FALSE else VarAssignment.TRUE

/-- The assignment of a node, if the node has an `ATPGInfo`. -/
def assignment_of (s : Nenofex) (n : Nat) : Option ATPGAssignment :=
  match node_info s n with
  | Except.ok a => some a.assignment
  | Except.error _ => none

/-- The variable of a literal node. -/
def var_of (s : Nenofex) (n : Nat) : Option Nat :=
  (lit_of s n).map (fun l => l.var)

/-- The node has an `ATPGInfo`: it participates in the pass. -/
def has_info (s : Nenofex) (n : Nat) : Bool :=
  match s.nodes[n]? with
  | some (some nd) => nd.atpg_info.isSome
  | _ => false

/-- The assignment of the variable `v`. -/
def var_value (s : Nenofex) (v : Nat) : Option VarAssignment :=
  s.vars[v]?.map (fun x => x.assignment)

/-- The effect of forcing a literal to the value `want`, in the words of the
specification: `lit` is the literal and `x` the record of its variable. An
unassigned variable is assigned the required value and enqueued; a variable
that has the required value is left alone; a variable with the opposite
value raises the conflict flag. -/
def spec_force_literal (s : Nenofex) (lit : Lit) (x : Var) (want : Bool) : Nenofex :=
  if x.assignment = VarAssignment.UNDEFINED then
    enqueue_propagation
      (log (set_var s lit.var { x with assignment := required_value lit want })
        (Event.var_assigned lit.var (required_value lit want) s.atpg_rr.prop_cutoff))
      lit.var
  else if x.assignment = required_value lit want then s
  else set_conflict s

/-- The value of a literal under an assignment of its variable. -/
def lit_value (lit : Lit) (a : VarAssignment) : Option Bool :=
  match a with
  | VarAssignment.UNDEFINED => none
  | VarAssignment.TRUE => some (!lit.negated)
  | VarAssignment.FALSE => some lit.negated

/-- The children that the loops over the literal children visit (for example
lines 668-688): the leading literal nodes of the list that have an
`ATPGInfo`. -/
def leading_literals (s : Nenofex) : List Nat → List Nat
  | [] => []
  | c :: rest =>
    if is_literal_node s c then
      if has_info s c then c :: leading_literals s rest else leading_literals s rest
    else []

/-- The participating literal children among the nodes of a list. -/
def participating_literals (s : Nenofex) (l : List Nat) : List Nat :=
  l.filter (fun c => is_literal_node s c && has_info s c)

/-- The literals of a candidate that fault sensitisation assigns: the
candidate itself if it is a literal, else its participating literal
children. -/
def sensitisation_targets (s : Nenofex) (n : Nat) : List Nat :=
  match s.nodes[n]? with
  | some (some nd) =>
    if nd.type = NodeType.LITERAL then [n] else participating_literals s nd.child_list
  | _ => []

/-- In a list of nodes the literal nodes precede the operator nodes. -/
def literals_first (s : Nenofex) (l : List Nat) : Prop :=
  ∃ lits ops, l = lits ++ ops ∧ (∀ c ∈ lits, is_literal_node s c = true)
    ∧ (∀ c ∈ ops, is_literal_node s c = false)

/-- The flags `conflict` and `prop_cutoff` are not both set. -/
def not_both (s : Nenofex) : Prop :=
  ¬ (s.atpg_rr.conflict = true ∧ s.atpg_rr.prop_cutoff = true)

/-- The nodes of both states have the same `ATPGInfo` pointers and the same
assignments. -/
def same_assignments (s s1 : Nenofex) : Prop :=
  s1.nodes = s.nodes ∧ ∀ n, assignment_of s1 n = assignment_of s n

/-- Both states have the same nodes and the same arena of `ATPGInfo`. -/
def same_graph (s s1 : Nenofex) : Prop :=
  s1.nodes = s.nodes ∧ s1.atpg_rr.atpg_info_array = s.atpg_rr.atpg_info_array

/-- The statements of `test_fault_is_redundant` that precede the propagation
(lines 2317-2342): choice of the stuck-at type, sensitisation, off-path
collection and path marking. -/
def test_fault_setup (fuel : Nat) (s : Nenofex) (fault_node : Nat) : M Nenofex := do
  let fault_type ← fault_type_of s fault_node
  let s ← fault_sensitization s fault_node fault_type
  let s ← collect_necessary_off_path_literals fuel s fault_node
  mark_path_nodes fuel s fault_node

/-- The level of a node (0 for a freed node). -/
def level_of (s : Nenofex) (n : Nat) : Nat :=
  match s.nodes[n]? with
  | some (some nd) => nd.level
  | _ => 0

/-- The level of a parent is strictly less than the level of its child. -/
def levels_decrease (s : Nenofex) : Prop :=
  ∀ (n : Nat) (nd : Node) (p : Nat) (pnd : Node), s.nodes[n]? = some (some nd) →
    nd.parent = some p → s.nodes[p]? = some (some pnd) → pnd.level < nd.level

/-- The list `l` is the chain of ancestors that the loops towards the
subformula LCA walk along: each member is the parent of its predecessor and
has a level of at least `top`, and the last member has no parent or a parent
whose level is below `top`. The first member is the starting point of the
walk. -/
def upward_chain (s : Nenofex) (top : Nat) : List Nat → Prop
  | [] => False
  | [c] => ∃ nd : Node, s.nodes[c]? = some (some nd)
      ∧ (nd.parent = none
        ∨ ∃ (p : Nat) (pnd : Node), nd.parent = some p ∧ s.nodes[p]? = some (some pnd)
            ∧ pnd.level < top)
  | c :: p :: rest => (∃ nd pnd : Node, s.nodes[c]? = some (some nd) ∧ nd.parent = some p
      ∧ s.nodes[p]? = some (some pnd) ∧ top ≤ pnd.level) ∧ upward_chain s top (p :: rest)

/-- The last node of a list that has the assignment `v`; `hi` if there is
none. -/
def highest_match (s : Nenofex) (v : ATPGAssignment) (hi : Option Nat) : List Nat → Option Nat
  | [] => hi
  | n :: rest => highest_match s v (if assignment_of s n = some v then some n else hi) rest

/-- The filter applied to the highest matching ancestor `h` at the end of
`find_highest_implication_on_path` (lines 2806-2813), in the words of the
specification: an `AND` forced true or an `OR` forced false is rejected
unless all its children participate in the pass. -/
def spec_accept_implication (s : Nenofex) (h : Nat) : Option Nat :=
  match s.nodes[h]? with
  | some (some hnd) =>
    if (hnd.type = NodeType.AND ∧ assignment_of s h = some ATPGAssignment.TRUE)
        ∨ (hnd.type = NodeType.OR ∧ assignment_of s h = some ATPGAssignment.FALSE) then
      if hnd.child_list.all (has_info s) then some h else none
    else some h
  | _ => none

/-- The state after `derive_implications_from_node` for the `OR` node 3 of
`majority_graph` with the fault type s-a-1, in the global-flow phase. -/
def majority_implied : Nenofex :=
  match derive_implications_from_node 100
      { majority_ready_state with atpg_rr.global_flow_optimizing := true } 3
      ATPGFaultType.STUCK_AT_1 with
  | Except.ok r => r.1
  | Except.error _ => majority_ready_state

/-- The child list of a node (empty for a freed node). -/
def children_of (s : Nenofex) (n : Nat) : List Nat :=
  match s.nodes[n]? with
  | some (some nd) => nd.child_list
  | _ => []

/-- The literal nodes that the off-path collection for the candidate `N`
forces at the ancestor `anc`: the participating literal children of `anc`
other than `N`. -/
def off_path_literals (s : Nenofex) (N anc : Nat) : List Nat :=
  (participating_literals s (children_of s anc)).filter (fun c => c != N)

/-- The literals of a list are forced to the value `want`, one after the
other, with `collect_necessary_off_path_literal`. -/
def spec_force_all (want : Bool) : Nenofex → List Nat → M Nenofex
  | s, [] => pure s
  | s, c :: rest => do
    let s1 ← collect_necessary_off_path_literal s c want
    spec_force_all want s1 rest

/-- The visit of one ancestor in the off-path collection, in the words of
the specification: every participating literal child other than the
candidate is forced to the value that does not dominate the ancestor (false
under an `OR`, true under an `AND`). -/
def spec_off_path_visit (s : Nenofex) (N anc : Nat) : M Nenofex := do
  let nd ← get_node s anc
  spec_force_all (nd.type != NodeType.OR) s (off_path_literals s N anc)

/-- The walk of the off-path collection along a list of ancestors, in the
words of the specification: the ancestors are visited in order until the
conflict flag is set. -/
def spec_off_path_walk (N : Nat) : Nenofex → List Nat → M Nenofex
  | s, [] => pure s
  | s, a :: rest =>
    if s.atpg_rr.conflict then pure s
    else do
      let s1 ← spec_off_path_visit s N a
      spec_off_path_walk N s1 rest

/-- The state `s1` differs from `s` at most in the variables of the list
`vs`, in the propagation queue, in the conflict flag and in the history:
nodes, arena, subformula and all other variables are the same. -/
def only_vars_changed (s s1 : Nenofex) (vs : List Nat) : Prop :=
  s1.nodes = s.nodes ∧ s1.atpg_rr.atpg_info_array = s.atpg_rr.atpg_info_array
  ∧ s1.changed_subformula = s.changed_subformula
  ∧ ∀ v, v ∉ vs → s1.vars[v]? = s.vars[v]?

/-- `partial_initialised` in the global-flow phase with a budget of one
propagation step. -/
def budget_one_state : Nenofex :=
  { partial_initialised with
    atpg_rr.global_flow_optimizing := true
    limits := ⟨1, 1⟩ }

/-- `partial_initialised` with an exhausted budget. -/
def budget_zero_state : Nenofex :=
  { partial_initialised with limits := ⟨0, 0⟩ }

/-- The participating children of an operator node: the nodes of the
handles of its restricted watcher list if it has one, else its children. -/
def participating_children (s : Nenofex) (p : Nat) : List Nat :=
  match s.nodes[p]?, node_info s p with
  | some (some nd), Except.ok a =>
    match a.atpg_ch with
    | some ch => ch.filterMap (fun f => (s.atpg_rr.fault_nodes[f]?).map (fun fn => fn.node))
    | none => nd.child_list
  | _, _ => []

/-- The node has an `ATPGInfo` and is unassigned. -/
def is_unassigned (s : Nenofex) (n : Nat) : Bool :=
  decide (assignment_of s n = some ATPGAssignment.UNDEFINED)

/-- The number of participating children of a node that are unassigned. -/
def unassigned_count (s : Nenofex) (p : Nat) : Nat :=
  ((participating_children s p).filter (is_unassigned s)).length

/-- The counter and watcher of the node `p` agree with the assignments of
its participating children: the counter is the number of unassigned
participating children, and the watcher is null or an unassigned
participating child. -/
def counter_ok (s : Nenofex) (p : Nat) : Prop :=
  ∃ a, node_info s p = Except.ok a ∧ a.unassigned_ch_cnt = unassigned_count s p
    ∧ (a.watcher = none
      ∨ ∃ w, a.watcher = some w ∧ w ∈ participating_children s p ∧ is_unassigned s w = true)

/-- Outcome of the forward step `x` for the node `P`, started in the state
`t` in which `P` has the record `pa`, with the value `v`. If the step
exceeds the budget, it only raises the cutoff (the record of `P` is
untouched). Otherwise its first two assignments succeed and give `P` the
value `v` and the mark `justified`, and the history of every result of the
step extends the history at that point, which ends with the entry for the
assignment of `P`. -/
def forward_step_outcome (x : M Nenofex) (t : Nenofex) (P : Nat) (v : ATPGAssignment)
    (pa : ATPGInfo) : Prop :=
  (limit_exceeded (inc_fwd_prop_cnt t) = true →
      x = Except.ok (log_step { inc_fwd_prop_cnt t with atpg_rr.prop_cutoff := true } true)
      ∧ node_info (log_step { inc_fwd_prop_cnt t with atpg_rr.prop_cutoff := true } true) P
          = Except.ok pa)
  ∧ (limit_exceeded (inc_fwd_prop_cnt t) = false →
      ∃ t2, (node_assign (log_step (inc_fwd_prop_cnt t) false) P v >>= fun u =>
            modify_node_info u P (fun a => { a with justified := true })) = Except.ok t2
        ∧ node_info t2 P = Except.ok { pa with assignment := v, justified := true }
        ∧ Tri x (fun t1 => ∃ post, t1.atpg_rr.trace
            = (log_step (inc_fwd_prop_cnt t) false).atpg_rr.trace
              ++ [Event.node_assigned P v t.atpg_rr.prop_cutoff] ++ post))

/-- The state after the literal `b` (node 4) of `partial_initialised` has
been forward-assigned false. -/
def and_child_false : Nenofex :=
  match forward_assign (log_step (inc_fwd_prop_cnt partial_initialised) false) 4
      ATPGAssignment.FALSE with
  | Except.ok r => r.1
  | Except.error _ => partial_initialised

/-- The state after the literal `b` (node 4) of `partial_initialised` has
been forward-assigned true. -/
def and_child_true : Nenofex :=
  match forward_assign (log_step (inc_fwd_prop_cnt partial_initialised) false) 4
      ATPGAssignment.TRUE with
  | Except.ok r => r.1
  | Except.error _ => partial_initialised

/-- The state after the literal `a` (node 1) of `partial_initialised` has
been forward-assigned true. -/
def or_child_true : Nenofex :=
  match forward_assign (log_step (inc_fwd_prop_cnt partial_initialised) false) 1
      ATPGAssignment.TRUE with
  | Except.ok r => r.1
  | Except.error _ => partial_initialised

/-- The state after the literal `a` (node 1) of `partial_initialised` has
been forward-assigned false. -/
def or_child_false : Nenofex :=
  match forward_assign (log_step (inc_fwd_prop_cnt partial_initialised) false) 1
      ATPGAssignment.FALSE with
  | Except.ok r => r.1
  | Except.error _ => partial_initialised

/-! ## Definitions: outcomes of a backward step -/

/-- Outcome of the backward step `x` within budget for a node that implies
at most one child (truth into an `OR`, falsity into an `AND`; lines
1298-1311 and 1498-1511), started in the state `s` in which the node has the
record `a`. The node gets the value `v` and is collected; the records of the
other nodes and the variables are untouched. If the counter of the node is
1, the node is marked justified and the step continues with
`continue_with` on the watcher; otherwise the result is the state in which
only the node is assigned. -/
def backward_implication_outcome (x : M Nenofex)
    (continue_with : Nenofex → Option Nat → M Nenofex)
    (s : Nenofex) (node : Nat) (a : ATPGInfo) (v : ATPGAssignment) : Prop :=
  ∃ t, (node_assign (log_step (inc_bwd_prop_cnt s) false) node v >>= fun u =>
          collect_assigned_node u node) = Except.ok t
    ∧ node_info t node = Except.ok { a with assignment := v, collected := true }
    ∧ (∀ m, info_index s m ≠ info_index s node → node_info t m = node_info s m)
    ∧ t.vars = s.vars
    ∧ (a.unassigned_ch_cnt = 1 →
        ∃ t2, modify_node_info t node (fun a => { a with justified := true }) = Except.ok t2
          ∧ node_info t2 node
              = Except.ok { a with assignment := v, collected := true, justified := true }
          ∧ x = continue_with t2 a.watcher)
    ∧ (a.unassigned_ch_cnt ≠ 1 → x = Except.ok t)

/-- Outcome of the backward step `x` within budget for a node that implies
all its children (truth into an `AND`, falsity into an `OR`; lines 1264-1290
and 1512-1531), started in the state `s` in which the node has the record
`a`. The node gets the value `v` and is collected; if every child has a
record, the node is marked justified and the loop `loop` goes on with a
stack that holds exactly the unassigned children, the first child on top. -/
def backward_push_outcome (x : M Nenofex) (loop : Nenofex → M Nenofex)
    (s : Nenofex) (node : Nat) (nd : Node) (a : ATPGInfo) (v : ATPGAssignment) : Prop :=
  ∃ t, (node_assign (log_step (inc_bwd_prop_cnt s) false) node v >>= fun u =>
          collect_assigned_node u node) = Except.ok t
    ∧ node_info t node = Except.ok { a with assignment := v, collected := true }
    ∧ ((∀ c ∈ nd.child_list, ∃ b, node_info t c = Except.ok b) →
        ∃ t2, modify_node_info t node (fun a => { a with justified := true }) = Except.ok t2
          ∧ node_info t2 node
              = Except.ok { a with assignment := v, collected := true, justified := true }
          ∧ x = (loop { t2 with atpg_rr.bwd_prop_stack :=
                    (nd.child_list.filter (is_unassigned t)).map some } >>= fun s1 =>
                  pure { s1 with atpg_rr.bwd_prop_stack := [] }))

/-- Outcome of the backward step `x` that exceeds the budget, started in the
state `s` in which the node has the record `a`: only the counter, the
history and the cutoff flag change, and the node keeps its record. -/
def backward_cutoff_outcome (x : M Nenofex) (s : Nenofex) (node : Nat) (a : ATPGInfo) : Prop :=
  x = Except.ok (log_step { inc_bwd_prop_cnt s with atpg_rr.prop_cutoff := true } true)
  ∧ node_info (log_step { inc_bwd_prop_cnt s with atpg_rr.prop_cutoff := true } true) node
      = Except.ok a

/-! ## Definitions: the counter and the watcher of an operator node -/

/-- The field `unassigned_ch_cnt` of a node, if the node has a record. -/
def counter_of (s : Nenofex) (p : Nat) : Option Nat :=
  match node_info s p with
  | Except.ok a => some a.unassigned_ch_cnt
  | Except.error _ => none

/-- The field `watcher` of a node, if the node has a record. -/
def watcher_of (s : Nenofex) (p : Nat) : Option (Option Nat) :=
  match node_info s p with
  | Except.ok a => some a.watcher
  | Except.error _ => none

/-- The counter and watcher of the node `p` are exact: the counter is the
number of unassigned participating children, the watcher is the first
unassigned participating child (null if there is none), and for a node with
a restricted watcher list `watcher_pos` is the position of the watcher (the
end of the list if there is none). -/
def watcher_first (s : Nenofex) (p : Nat) : Prop :=
  ∃ a, node_info s p = Except.ok a
    ∧ a.unassigned_ch_cnt = unassigned_count s p
    ∧ a.watcher = (participating_children s p).find? (is_unassigned s)
    ∧ (∀ ch, a.atpg_ch = some ch →
        a.watcher_pos
          = some ((participating_children s p).takeWhile (fun c => !is_unassigned s c)).length)

/-- The family of the node `p` is well formed: its participating children
are pairwise different, fewer than `2^32`, and have records; without a
restricted watcher list they are nodes with the parent `p`, and with a
restricted list every handle of the list refers to a `FaultNode`. -/
def family_ok (s : Nenofex) (p : Nat) : Prop :=
  (participating_children s p).Nodup
  ∧ (participating_children s p).length < UINT_MOD
  ∧ (∀ c ∈ participating_children s p, ∃ b, node_info s c = Except.ok b)
  ∧ (∀ a, node_info s p = Except.ok a →
      (a.atpg_ch = none → ∀ c ∈ participating_children s p,
        ∃ cnd, get_node s c = Except.ok cnd ∧ cnd.parent = some p)
      ∧ (∀ ch, a.atpg_ch = some ch → ∀ f ∈ ch, ∃ fn, s.atpg_rr.fault_nodes[f]? = some fn))

/-- The state `s` is the state `s0` after one participating child `c` of `p`
has been assigned: the nodes, the `FaultNode`s and the record of `p` are the
same, `c` was unassigned and is assigned now, and the other participating
children have the same assignment as before. -/
def child_assigned (s0 s : Nenofex) (p c : Nat) : Prop :=
  s.nodes = s0.nodes ∧ s.atpg_rr.fault_nodes = s0.atpg_rr.fault_nodes
  ∧ node_info s p = node_info s0 p
  ∧ c ∈ participating_children s0 p
  ∧ assignment_of s0 c = some ATPGAssignment.UNDEFINED
  ∧ (∃ v, assignment_of s c = some v ∧ v ≠ ATPGAssignment.UNDEFINED)
  ∧ (∀ m ∈ participating_children s0 p, m ≠ c → assignment_of s m = assignment_of s0 m)

/-- The state after the literal `b` (node 4) of `partial_initialised` has
been assigned false, marked justified and collected (the first three
statements of a forward step), before the counter of its parent is
updated. -/
def and_child_assigned : Nenofex :=
  match (node_assign partial_initialised 4 ATPGAssignment.FALSE >>= fun s =>
      modify_node_info s 4 (fun a => { a with justified := true }) >>= fun s =>
      collect_assigned_node s 4) with
  | Except.ok s => s
  | Except.error _ => partial_initialised

/-! ## Definitions: the clean-up after a test that found no redundancy -/

/-- The clean-up of `test_all_faults` after `test_fault_is_redundant` has
returned 0 (lines 2566-2578): the path is unmarked, and the touched variables
and nodes are reset unless the test asked for the restricted clean-up. -/
def non_redundant_clean_up (fuel : Nat) (s : Nenofex) (node : Nat) : M Nenofex := do
  let s ← unmark_path_nodes fuel s node false
  if s.atpg_rr.restricted_clean_up = false then
    let s ← reset_touched_variables s
    let s ← reset_touched_nodes s
    pure s
  else
    pure { s with atpg_rr.restricted_clean_up := false }

/-- The state in which `test_all_faults` calls `test_fault_is_redundant` for
the handle `f` (lines 2521-2536): the test is recorded in the history and
`fault_cnt` is incremented. -/
def test_entry (s : Nenofex) (f : Nat) (fn : FaultNode) : Nenofex :=
  let s := log s (Event.fault_tested f fn.deleted fn.skip s.atpg_rr.prop_cutoff)
  { s with atpg_rr.stats.fault_cnt := (s.atpg_rr.stats.fault_cnt + 1) % UINT_MOD }

/-- Total correctness: `x` returns a value, and the value satisfies `Q`. -/
def Tot {α : Type} (x : M α) (Q : α → Prop) : Prop :=
  ∃ a, x = Except.ok a ∧ Q a

/-- The test `fault_node->deleted` on a handle, false for a handle that does
not resolve. -/
def handle_deleted (s : Nenofex) (f : Nat) : Bool :=
  match s.atpg_rr.fault_nodes[f]? with
  | some fn => fn.deleted
  | none => false

/-- `partial_initialised` after the handle 4 (of the literal `a`, node 1) has
been marked as deleted and the root has been told to clean up its watcher
list. -/
def partial_with_deleted : Nenofex :=
  match (do
    let s ← mark_fault_node_as_deleted partial_initialised 4
    modify_node_info s 0 (fun a => { a with clean_up_watcher_list := true })) with
  | Except.ok s => s
  | Except.error _ => partial_initialised

/-! ## Definitions: the calls made by the pass driver -/

/-- A call of a phase function by `simplify_by_global_flow_and_atpg_main`
that has returned: which function was called, in which round of the loop,
the state at the call and the value returned. A record of the history, not a
structure of the C code. -/
structure PhaseCall where
  atpg : Bool
  round : Nat
  entry : Nenofex
  result : Nat

/-- The function `global_flow_atpg_rounds` (lines 3781-3856) with a history:
every call of `optimize_by_global_flow` and of `test_all_faults` that returns
is appended to `calls`; `round` counts the jumps back to `GLOBAL_FLOW`. -/
def global_flow_atpg_rounds_logged (api : GraphAPI) :
    Nat → Nenofex → Bool → Nat → Nat → Bool → Bool → Nat → List PhaseCall →
      M (Nenofex × Bool × Bool × List PhaseCall)
  | 0, _, _, _, _, _, _, _, _ => throw Err.fuel
  | fuel + 1, s, called_again, implications_found, redundancies_found,
      implications_found_all, redundancies_found_all, round, calls => do
    let (s, implications_found, calls) ←
      (if s.options.no_global_flow_specified = 0 ∧ s.atpg_rr.global_flow_prop_cutoff = false then do
        let r ← optimize_by_global_flow api fuel s
        pure (r.1, r.2, calls ++ [PhaseCall.mk false round s r.2])
      else pure (s, implications_found, calls))
    let implications_found_all := implications_found_all || decide (implications_found ≠ 0)
    if s.atpg_rr_abort then
      pure (s, implications_found_all, redundancies_found_all, calls)
    else
      let (s, redundancies_found, calls) ←
        (if s.options.no_atpg_specified = 0 ∧ s.atpg_rr.atpg_prop_cutoff = false
            ∧ (called_again = false ∨ implications_found ≠ 0) then do
          let r ← test_all_faults api fuel s
          pure (r.1, r.2, calls ++ [PhaseCall.mk true round s r.2])
        else pure (s, redundancies_found, calls))
      let redundancies_found_all := redundancies_found_all || decide (redundancies_found ≠ 0)
      if s.atpg_rr_abort = false then
        if redundancies_found ≠ 0 ∧ s.atpg_rr.global_flow_prop_cutoff = false then
          global_flow_atpg_rounds_logged api fuel s true 0 0 implications_found_all
            redundancies_found_all (round + 1) calls
        else
          pure ({ s with atpg_rr_abort := true, atpg_rr_reset_changed_subformula := true },
            implications_found_all, redundancies_found_all, calls)
      else
        pure (s, implications_found_all, redundancies_found_all, calls)

/-- The condition under which the driver calls `optimize_by_global_flow`
(lines 3783-3785). -/
def global_flow_allowed (s : Nenofex) : Prop :=
  s.options.no_global_flow_specified = 0 ∧ s.atpg_rr.global_flow_prop_cutoff = false

instance global_flow_allowed_decidable (s : Nenofex) : Decidable (global_flow_allowed s) :=
  inferInstanceAs (Decidable (s.options.no_global_flow_specified = 0
    ∧ s.atpg_rr.global_flow_prop_cutoff = false))

/-- The part of the condition under which the driver calls `test_all_faults`
that concerns the option and the cutoff (lines 3796, 3800). -/
def atpg_allowed (s : Nenofex) : Prop :=
  s.options.no_atpg_specified = 0 ∧ s.atpg_rr.atpg_prop_cutoff = false

instance atpg_allowed_decidable (s : Nenofex) : Decidable (atpg_allowed s) :=
  inferInstanceAs (Decidable (s.options.no_atpg_specified = 0
    ∧ s.atpg_rr.atpg_prop_cutoff = false))

/-- The history of the guarded call of `optimize_by_global_flow` in one
round: the call, if the guard holds. -/
def global_flow_call (s : Nenofex) (round result : Nat) : List PhaseCall :=
  if global_flow_allowed s then [PhaseCall.mk false round s result] else []

/-- The history of the guarded call of `test_all_faults` in one round: the
call, if the guard holds. -/
def atpg_call (s : Nenofex) (called_again : Bool) (implications_found round result : Nat) :
    List PhaseCall :=
  if atpg_allowed s ∧ (called_again = false ∨ implications_found ≠ 0) then
    [PhaseCall.mk true round s result]
  else []

/-- The properties of the calls `new` made by the loop of the driver when it
is entered in round `round` with the flag `called_again`: each call of
`optimize_by_global_flow` is made with global flow enabled and not cut off,
each call of `test_all_faults` with ATPG enabled and not cut off, and a call
of `test_all_faults` in a repeated round follows a call of
`optimize_by_global_flow` of the same round that returned non-zero. -/
structure PhaseGating (called_again : Bool) (round : Nat) (new : List PhaseCall) : Prop where
  global_flow : ∀ c ∈ new, c.atpg = false → global_flow_allowed c.entry
  atpg : ∀ c ∈ new, c.atpg = true → atpg_allowed c.entry
  rounds : ∀ c ∈ new, round ≤ c.round
  repeated : ∀ c ∈ new, c.atpg = true → (round < c.round ∨ called_again = true) →
    ∃ g ∈ new, g.atpg = false ∧ g.round = c.round ∧ g.result ≠ 0

/-- The statements of `simplify_by_global_flow_and_atpg_main` before the
label `GLOBAL_FLOW` (lines 3761-3774). -/
def driver_set_up (fuel : Nat) (s : Nenofex) : M Nenofex := do
  let s := { s with atpg_rr_called := true }
  let s ← allocate_atpg_info_pointers s
  let s ← init_subformula_atpg_info fuel s
  let s := { s with atpg_rr.collect_faults_set := true }
  collect_fault_nodes_bottom_up fuel s

/-- The statements of `simplify_by_global_flow_and_atpg_main` after the label
`SKIP_ATPG` (lines 3858-3880). -/
def driver_wrap_up (api : GraphAPI) (s : Nenofex) (implications_found_all
    redundancies_found_all : Bool) : M (Nenofex × Bool) := do
  let s ← mark_affected_variables_for_update api s redundancies_found_all
  let s ← (if s.atpg_rr_reset_changed_subformula then
      api.reset_changed_lca_object { s with atpg_rr_reset_changed_subformula := false }
    else pure s)
  let s ← reset_atpg_redundancy_remover s
  pure ({ s with atpg_rr_called := false, atpg_rr_abort := false,
                 atpg_rr_reset_changed_subformula := false },
    implications_found_all || redundancies_found_all)

/-! ## Definitions: `stack.c` -/

/-- `struct Stack`: the array `elems` (its length is `end - elems`) and the
position of `top` in it. Elements are pointers, the null pointer is `0`. -/
structure Stack where
  elems : List Nat
  top : Nat
  deriving DecidableEq, Repr

/-- Embedding of `create_stack` (`stack.c`, lines 26-37): a size of zero is
replaced by one; the array comes from `malloc` and is not cleared, `junk i`
is the value found in slot `i` of a new block. -/
def create_stack (junk : Nat → Nat) (size : Nat) : Stack :=
  let size := if size = 0 then 1 else size
  { elems := (List.range size).map junk, top := 0 }

/-- Embedding of `count_stack` (lines 48-52). -/
def count_stack (stack : Stack) : Nat := stack.top % UINT_MOD

/-- Embedding of `size_stack` (lines 55-59). -/
def size_stack (stack : Stack) : Nat := stack.elems.length % UINT_MOD

/-- Embedding of `enlarge_stack` (lines 62-77): `realloc` keeps the slots
that fit into the new block of `new_size` slots, the other slots of the new
block are not initialised. -/
def enlarge_stack (junk : Nat → Nat) (stack : Stack) : Stack :=
  let new_size := (size_stack stack * 2) % UINT_MOD
  let old_count := count_stack stack
  { elems := stack.elems.take new_size
      ++ (List.range (new_size - stack.elems.length)).map
          (fun i => junk (stack.elems.length + i)),
    top := old_count }

/-- Embedding of `push_stack` (lines 80-89). Writing beyond the array is
undefined. -/
def push_stack (junk : Nat → Nat) (stack : Stack) (elem : Nat) : M Stack :=
  if stack.top < stack.elems.length then
    let s1 : Stack := { elems := stack.elems.set stack.top elem, top := stack.top + 1 }
    if s1.top = s1.elems.length then pure (enlarge_stack junk s1) else pure s1
  else throw Err.undef

/-- Embedding of `pop_stack` (lines 92-105): the stack and the returned
pointer. -/
def pop_stack (stack : Stack) : M (Stack × Nat) :=
  if stack.top = 0 then pure (stack, 0)
  else do
    let result ← deref stack.elems[stack.top - 1]?
    pure ({ stack with top := stack.top - 1 }, result)

/-- A call of `push_stack` with an element, or a call of `pop_stack`. -/
inductive StackOp where
  | push (elem : Nat)
  | pop
  deriving DecidableEq, Repr

/-- A sequence of calls on a stack: the final stack and the pointers returned
by the calls of `pop_stack`, in order. -/
def run_stack (junk : Nat → Nat) : Stack → List StackOp → M (Stack × List Nat)
  | st, [] => pure (st, [])
  | st, StackOp.push x :: ops => do
    let s1 ← push_stack junk st x
    run_stack junk s1 ops
  | st, StackOp.pop :: ops => do
    let r ← pop_stack st
    let r2 ← run_stack junk r.1 ops
    pure (r2.1, r.2 :: r2.2)

/-- The last-in first-out stack on the list `l` of stored elements, the most
recently pushed first: a push puts an element in front, a pop removes and
returns the head, or returns null when nothing is stored. Returns the stored
elements at the end and the returned pointers. -/
def lifo_run : List Nat → List StackOp → List Nat × List Nat
  | l, [] => (l, [])
  | l, StackOp.push x :: ops => lifo_run (x :: l) ops
  | l, StackOp.pop :: ops => ((lifo_run l.tail ops).1, l.headD 0 :: (lifo_run l.tail ops).2)

/-- Number of calls of `push_stack` in a sequence. -/
def count_push : List StackOp → Nat
  | [] => 0
  | StackOp.push _ :: ops => count_push ops + 1
  | StackOp.pop :: ops => count_push ops

/-- The slots of a stack below `top`, the topmost first. -/
def stack_contents (stack : Stack) : List Nat := (stack.elems.take stack.top).reverse

/-- The stack is well formed, `top` is below `end`, and it holds exactly the
non-null elements `l`, the most recently pushed first. -/
structure StackRep (stack : Stack) (l : List Nat) : Prop where
  top_lt : stack.top < stack.elems.length
  size_lt : stack.elems.length < UINT_MOD
  contents : stack_contents stack = l
  non_null : ∀ x ∈ l, x ≠ 0

/-- A sequence of calls used as an example: the stack is filled beyond its
initial size, emptied, and used again. -/
def sample_stack_ops : List StackOp :=
  [StackOp.push 1, StackOp.push 2, StackOp.pop, StackOp.push 3, StackOp.push 4, StackOp.push 5,
   StackOp.pop, StackOp.pop, StackOp.pop, StackOp.pop, StackOp.pop, StackOp.push 6, StackOp.pop]

/-! ## Definitions: the relinking made by the global-flow rewrite -/

/-- The links of the node `k`: its type, its parent and its child list;
`none` for a freed node and for an index beyond the node table. -/
def links (s : Nenofex) (k : Nat) : Option (NodeType × Option Nat × List Nat) :=
  match s.nodes[k]? with
  | some (some nd) => some (nd.type, nd.parent, nd.child_list)
  | _ => none

/-- The word "strong" of the insertion-point table: the witness is an `AND`
assigned true or an `OR` assigned false. -/
def strong_witness (type : NodeType) (assignment : ATPGAssignment) : Prop :=
  (type = NodeType.AND ∧ assignment = ATPGAssignment.TRUE)
    ∨ (type = NodeType.OR ∧ assignment = ATPGAssignment.FALSE)

/-- The word "weak" of the insertion-point table: the witness is an `OR`
assigned true or an `AND` assigned false. -/
def weak_witness (type : NodeType) (assignment : ATPGAssignment) : Prop :=
  (type = NodeType.OR ∧ assignment = ATPGAssignment.TRUE)
    ∨ (type = NodeType.AND ∧ assignment = ATPGAssignment.FALSE)

/-- The type of the node created in CASE 1.1 (lines 2976-2977):
`is_and_node (highest_implication) ? or_node (nenofex) : and_node (nenofex)`. -/
def opposite_kind (type : NodeType) : NodeType :=
  if type = NodeType.AND then NodeType.OR else NodeType.AND

/-- What is assumed of the functions of `nenofex.c` that are called before
the implicant is attached (section 6 of the specification: "construct fresh
operator nodes", "append", "detach `node` from its parent", "maintain
invariants"): `or_node` and `and_node` return a node that did not exist, of
their type, without parent and children; `add_node_to_child_list (p, c)`
makes `p` the parent of `c` and adds `c` to the children of `p`;
`unlink_node (c)` clears the parent of `c`; these functions leave the links
of the other nodes alone (for `unlink_node`: other than the old parent), and
`update_size_subformula`, `update_level`, `reset_changed_lca_object` and
`add_changed_lca_child` leave all links alone; none of them changes the
graph root. -/
structure GraphContract (api : GraphAPI) : Prop where
  or_node : ∀ (s s1 : Nenofex) (f : Nat), api.or_node s = Except.ok (s1, f) →
    links s f = none ∧ links s1 f = some (NodeType.OR, none, [])
    ∧ s1.graph_root = s.graph_root ∧ ∀ k, k ≠ f → links s1 k = links s k
  and_node : ∀ (s s1 : Nenofex) (f : Nat), api.and_node s = Except.ok (s1, f) →
    links s f = none ∧ links s1 f = some (NodeType.AND, none, [])
    ∧ s1.graph_root = s.graph_root ∧ ∀ k, k ≠ f → links s1 k = links s k
  add_node_to_child_list : ∀ (s s1 : Nenofex) (p c : Nat),
    api.add_node_to_child_list s p c = Except.ok s1 → p ≠ c →
    s1.graph_root = s.graph_root ∧ (∀ k, k ≠ p → k ≠ c → links s1 k = links s k)
    ∧ ∃ (tp : NodeType) (pp : Option Nat) (pc pc1 : List Nat) (tc : NodeType) (oc : Option Nat)
        (cc : List Nat),
        links s p = some (tp, pp, pc) ∧ links s c = some (tc, oc, cc)
        ∧ links s1 p = some (tp, pp, pc1) ∧ (∀ x, x ∈ pc1 ↔ x = c ∨ x ∈ pc)
        ∧ links s1 c = some (tc, some p, cc)
  unlink_node : ∀ (s s1 : Nenofex) (c : Nat), api.unlink_node s c = Except.ok s1 →
    s1.graph_root = s.graph_root
    ∧ (∃ (tc : NodeType) (oc : Option Nat) (cc : List Nat),
        links s c = some (tc, oc, cc) ∧ links s1 c = some (tc, none, cc)
        ∧ ∀ k, k ≠ c → oc ≠ some k → links s1 k = links s k)
  update_size_subformula : ∀ (s s1 : Nenofex) (k : Nat) (delta : Int),
    api.update_size_subformula s k delta = Except.ok s1 →
    s1.graph_root = s.graph_root ∧ ∀ j, links s1 j = links s j
  update_level : ∀ (s s1 : Nenofex) (k : Nat), api.update_level s k = Except.ok s1 →
    s1.graph_root = s.graph_root ∧ ∀ j, links s1 j = links s j
  reset_changed_lca_object : ∀ (s s1 : Nenofex), api.reset_changed_lca_object s = Except.ok s1 →
    s1.graph_root = s.graph_root ∧ ∀ j, links s1 j = links s j
  add_changed_lca_child : ∀ (s s1 : Nenofex) (k : Nat),
    api.add_changed_lca_child s k = Except.ok s1 →
    s1.graph_root = s.graph_root ∧ ∀ j, links s1 j = links s j

/-- The statements of the four cases of
`transform_subformula_by_global_flow_implication` that precede the macro
`apply_transformation` (lines 2955-3134): returns the state and the local
variable `insert_at`. -/
def transform_preparation (api : GraphAPI) (s : Nenofex)
    (fault_node highest_implication : Nat) : M (Nenofex × Nat) := do
  let fa ← node_info s fault_node
  let hnd ← get_node s highest_implication
  if s.graph_root = some highest_implication then
    if strong_implication fa.assignment hnd.type then do
      let s1 ← collect_fault_path_node s highest_implication
      let r ← (if hnd.type = NodeType.AND then api.or_node s1 else api.and_node s1)
      let s2 ← new_root_set_up api r.1 fault_node r.2
      pure (s2, r.2)
    else do
      let s1 ← api.add_changed_lca_child s fault_node
      pure (s1, highest_implication)
  else if s.changed_subformula.lca = some highest_implication then
    if strong_implication fa.assignment hnd.type then do
      let p ← deref hnd.parent
      let s1 ← lca_parent_set_up api s fault_node highest_implication p
      pure (s1, p)
    else do
      let s1 ← api.add_changed_lca_child s fault_node
      pure (s1, highest_implication)
  else if hnd.parent = s.changed_subformula.lca then
    if strong_implication fa.assignment hnd.type then do
      let p ← deref hnd.parent
      let s1 ← collect_fault_path_node s highest_implication
      let s2 ← api.add_changed_lca_child s1 fault_node
      pure (s2, p)
    else
      pure (s, highest_implication)
  else
    if strong_implication fa.assignment hnd.type then do
      let s1 ← collect_fault_path_node s highest_implication
      let p ← deref hnd.parent
      pure (s1, p)
    else
      pure (s, highest_implication)

/-- The local variables of the macro `apply_transformation` and of
`unlink_and_add_implication` that are read after the implicant has been
attached. -/
structure RelinkContext where
  insert_at_fault_node : Nat
  fault_parent : Nat
  fault_parent_node : Nat
  deriving DecidableEq, Repr

/-- The first statement of the macro `apply_transformation` (line 2933) and
the statements of `unlink_and_add_implication` up to the negative size
update (lines 2866-2876): the implicant is removed from the watcher list of
its parent and unlinked. -/
def detach_implicant (api : GraphAPI) (s : Nenofex) (fault_node insert_at : Nat) :
    M (Nenofex × RelinkContext) := do
  let ia ← node_info s insert_at
  let insert_at_fault_node ← deref ia.fault_node
  let fnd ← get_node s fault_node
  let p ← deref fnd.parent
  let pa ← node_info s p
  let fault_parent ← deref pa.fault_node
  let fp ← get_fault_node s fault_parent
  let fault_parent_node := fp.node
  let fpa ← node_info s fault_parent_node
  let s ← (match fpa.atpg_ch with
    | some _ => remove_child_from_watcher_list s fault_parent_node fault_node
    | none => pure s)
  let s ← api.unlink_node s fault_node
  let fnd ← get_node s fault_node
  let s ← api.update_size_subformula s fault_parent_node (-(fnd.size_subformula : Int))
  pure (s, ⟨insert_at_fault_node, fault_parent, fault_parent_node⟩)

/-- The statements of `unlink_and_add_implication` after the call
`add_node_to_child_list (nenofex, insert_at, fault_node)` (lines 2878-2910)
and the rest of the macro `apply_transformation` (lines 2935-2942). -/
def finish_transformation (api : GraphAPI) (s : Nenofex) (fault_node insert_at : Nat)
    (ctx : RelinkContext) : M Nenofex := do
  let fnd ← get_node s fault_node
  let newp ← deref fnd.parent
  let s ← api.update_size_subformula s newp (fnd.size_subformula : Int)
  let s ← api.update_level s fault_node
  let fnd ← get_node s fault_node
  let s ← (if fnd.type = NodeType.LITERAL then api.simplify_one_level s insert_at else pure s)
  let fp ← get_fault_node s ctx.fault_parent
  let s ← (if fp.deleted = false then do
      let fpn ← get_node s ctx.fault_parent_node
      if fpn.num_children = 1 then do
        let first ← deref fpn.child_list.head?
        let first_nd ← get_node s first
        let s ← (if first_nd.type = NodeType.LITERAL then
            api.update_size_subformula s ctx.fault_parent_node (-1)
          else api.update_size_subformula s ctx.fault_parent_node (-2))
        api.merge_parent s ctx.fault_parent_node
      else pure s
    else pure s)
  let iafn ← get_fault_node s ctx.insert_at_fault_node
  if iafn.deleted = false then do
    let i ← info_index s insert_at
    let ia ← get_info s i
    let s ← push_watcher_entry s i ia fault_node
    init_counter_and_watcher s insert_at
  else
    pure s

/-! ## Definitions: a sample run of the global-flow rewrite -/

/-- The graph of `(b | (a & c)) & (a | d)`: node 0 is the root `AND` over the
`OR` nodes 1 and 5; node 1 has the children `b` (node 2) and the `AND`
(node 3) over `a` (node 4) and `c` (node 8); node 5 has the children `a`
(node 6) and `d` (node 7). Variables 0, 1, 2, 3 are `a`, `b`, `c`, `d`. The
whole graph is the changed subformula. -/
def distributive_graph : Nenofex :=
  { nodes := [mk_op NodeType.AND 0 none [1, 5] 10,
              mk_op NodeType.OR 1 (some 0) [2, 3] 5, mk_lit 2 1 1 false,
              mk_op NodeType.AND 2 (some 1) [4, 8] 3, mk_lit 3 3 0 false,
              mk_op NodeType.OR 1 (some 0) [6, 7] 3, mk_lit 2 5 0 false, mk_lit 2 5 3 false,
              mk_lit 3 3 2 false]
    vars := [{}, {}, {}, {}]
    graph_root := some 0
    changed_subformula := { lca := some 0, children := [1, 5] } }

/-- The first `k` iterations of the inner loop of `optimize_by_global_flow`
(lines 3315-3460). -/
def global_flow_iterations (api : GraphAPI) (fuel : Nat) :
    Nat → Nenofex → List Nat → Bool → ATPGFaultType →
      M (Nenofex × List Nat × Bool × ATPGFaultType)
  | 0, s, tested, continue_optimizing, fault_type =>
    pure (s, tested, continue_optimizing, fault_type)
  | k + 1, s, tested, continue_optimizing, fault_type =>
    match s.atpg_rr.fault_queue with
    | [] => pure (s, tested, continue_optimizing, fault_type)
    | f :: rest => do
      let (s, tested, co, ft, _) ← optimize_by_global_flow_body api fuel
        { s with atpg_rr.fault_queue := rest } tested continue_optimizing fault_type f
      global_flow_iterations api fuel k s tested co ft

/-- The statements of the body of the inner loop of `optimize_by_global_flow`
from the choice of the trial value to the call of
`transform_subformula_by_global_flow_implication` (lines 3355-3417), for a
dequeued handle `f` whose trial yields an implication: returns the state, the
implicant and the witness with which the rewrite is called. -/
def global_flow_trial (api : GraphAPI) (fuel : Nat) (s : Nenofex) (fault_type : ATPGFaultType)
    (f : Nat) : M (Nenofex × Nat × Nat) := do
  let fault_node ← get_fault_node s f
  let node := fault_node.node
  let nd ← get_node s node
  let fault_type ← trial_fault_type s nd fault_type
  let s := log s (Event.implication_tried f fault_node.deleted s.atpg_rr.prop_cutoff)
  let s := { s with atpg_rr.stats.fault_cnt := (s.atpg_rr.stats.fault_cnt + 1) % UINT_MOD }
  let (s, highest_implication) ← derive_implications_from_node fuel s node fault_type
  let h ← deref highest_implication
  let s ← collect_implication_path_nodes fuel s node h
  let s ← mark_implicant_variables_for_update api fuel s node
  let s := { s with atpg_rr.stats.derived_implications_cnt :=
    (s.atpg_rr.stats.derived_implications_cnt + 1) % UINT_MOD }
  pure (s, node, h)

/-- The global-flow phase on `distributive_graph` up to its first call of
`transform_subformula_by_global_flow_implication`: the set-up of the pass,
the five trials of literals that yield no implication, and the trial of the
`AND` node 3, which yields the implication "node 3 true implies the root
true". -/
def distributive_call : M (Nenofex × Nat × Nat) := do
  let s ← allocate_atpg_info_pointers { distributive_graph with atpg_rr_called := true }
  let s ← init_subformula_atpg_info 100 s
  let s ← collect_fault_nodes_bottom_up 100 { s with atpg_rr.collect_faults_set := true }
  let (s, _, _, fault_type) ← global_flow_iterations spec_api 100 5
    (optimize_by_global_flow_prologue s) [] false ATPGFaultType.STUCK_AT_0
  match s.atpg_rr.fault_queue with
  | [] => throw Err.undef
  | f :: rest => global_flow_trial spec_api 100 { s with atpg_rr.fault_queue := rest } fault_type f

/-- The state in which `distributive_call` calls the rewrite. -/
def distributive_call_state : Nenofex :=
  match distributive_call with
  | Except.ok r => r.1
  | Except.error _ => distributive_graph

/-- The state after the rewrite of `distributive_call_state` with the
implicant 3 and the witness 0. -/
def distributive_rewritten : Nenofex :=
  match transform_subformula_by_global_flow_implication spec_api distributive_call_state 3 0 with
  | Except.ok s => s
  | Except.error _ => distributive_graph

end Atpg

namespace Limboole

/-! ## Definitions: `limboole.c` -/

/-- The enumeration `Type` of `limboole.c` (lines 69-84); node types and
token types share it. -/
inductive LType where
  | VAR | LP | RP | NOT | AND | OR | IMPLIES | SEILPMI | IFF | DONE | ERROR | ALL | EX
  deriving DecidableEq, Repr

/-- A `struct Node` of `limboole.c`: `type`, the Tseitin index `idx` and the
union `data` (a name for variables, two child pointers for operators).
Pointers to nodes are positions in the chronological list of the manager,
the null pointer is `none`. -/
structure Node where
  type : LType
  idx : Int
  as_name : String
  as_child0 : Option Nat
  as_child1 : Option Nat
  deriving DecidableEq, Repr

/-- The fields of `struct Mgr` used by `var`, `op` and `tseitin`. The list
`nodes` is the chain `first -> next_inserted -> ... -> last`; the hash table
holds exactly the same nodes. -/
structure Mgr where
  nodes : List Node := []
  idx : Int := 0
  root : Option Nat := none
  check_satisfiability : Int := 0
  use_depqbf : Int := 0
  deriving Repr

/-- Embedding of `init`: an empty manager. -/
def init : Mgr := {}

/-- Embedding of `eq_var`. -/
def eq_var (n : Node) (str : String) : Bool :=
  n.type == LType.VAR && n.as_name == str

/-- Embedding of `eq_op`. -/
def eq_op (n : Node) (type : LType) (c0 c1 : Option Nat) : Bool :=
  n.type == type && n.as_child0 == c0 && n.as_child1 == c1

/-- Search used by `find` for the variable `str`: position of the first stored
node that `eq_var` accepts. In C the search walks one collision chain of the
hash table; nodes that are equal under `eq` hash to the same chain, so the
result is the same. -/
def find_var (nodes : List Node) (str : String) : Option Nat :=
  let i := nodes.findIdx (fun n => eq_var n str)
  if i < nodes.length then some i else none

/-- Search used by `find` for an operator node, see `find_var`. -/
def find_op (nodes : List Node) (type : LType) (c0 c1 : Option Nat) : Option Nat :=
  let i := nodes.findIdx (fun n => eq_op n type c0 c1)
  if i < nodes.length then some i else none

/-- Embedding of `var`: returns the stored node, or inserts a fresh zeroed
node of type `VAR` at the end of the chronological list. -/
def var (mgr : Mgr) (str : String) : Mgr × Nat :=
  match find_var mgr.nodes str with
  | some n => (mgr, n)
  | none =>
    ({ mgr with nodes := mgr.nodes ++ [⟨LType.VAR, 0, str, none, none⟩] }, mgr.nodes.length)

/-- Embedding of `op`: returns the stored node, or inserts a fresh zeroed
node with the given type and children. -/
def op (mgr : Mgr) (type : LType) (c0 c1 : Option Nat) : Mgr × Nat :=
  match find_op mgr.nodes type c0 c1 with
  | some n => (mgr, n)
  | none =>
    ({ mgr with nodes := mgr.nodes ++ [⟨type, 0, "", c0, c1⟩] }, mgr.nodes.length)

/-- First loop of `tseitin` (lines 1040-1075): nodes without an index get
`++mgr->idx`; `num_clauses` is counted by node type. Returns the updated
nodes, the new `mgr->idx` and `num_clauses`. -/
def tseitin_assign : List Node → Int → Nat → List Node × Int × Nat
  | [], idx, num_clauses => ([], idx, num_clauses)
  | p :: rest, idx, num_clauses =>
    let (p1, idx1) := if p.idx = 0 then ({ p with idx := idx + 1 }, idx + 1) else (p, idx)
    let num1 := match p1.type with
      | LType.IFF => num_clauses + 4
      | LType.OR | LType.AND | LType.IMPLIES | LType.SEILPMI => num_clauses + 3
      | LType.NOT => num_clauses + 2
      | _ => num_clauses
    let (rest1, idx2, num2) := tseitin_assign rest idx1 num1
    (p1 :: rest1, idx2, num2)

/-- The expression `p->data.as_child[k]->idx`. -/
def child_idx (nodes : List Node) (c : Option Nat) : Int :=
  match c with
  | some i => match nodes[i]? with
    | some n => n.idx
    | none => 0
  | none => 0

/-- The clauses emitted for one node by the `switch` of the third loop of
`tseitin` (lines 1086-1133), in emission order; each clause is the argument
list of `binary_clause` / `ternary_clause`. -/
def node_clauses (nodes : List Node) (p : Node) : List (List Int) :=
  let c0 := child_idx nodes p.as_child0
  let c1 := child_idx nodes p.as_child1
  match p.type with
  | LType.IFF => [[p.idx, -c0, -c1], [p.idx, c0, c1], [-p.idx, -c0, c1], [-p.idx, c0, -c1]]
  | LType.IMPLIES => [[p.idx, c0], [p.idx, -c1], [-p.idx, -c0, c1]]
  | LType.SEILPMI => [[p.idx, -c0], [p.idx, c1], [-p.idx, c0, -c1]]
  | LType.OR => [[p.idx, -c0], [p.idx, -c1], [-p.idx, c0, c1]]
  | LType.AND => [[-p.idx, c0], [-p.idx, c1], [p.idx, -c0, -c1]]
  | LType.NOT => [[p.idx, c0], [-p.idx, -c0]]
  | _ => []

/-- Result of `tseitin`: the manager with indices assigned, the clauses handed
to `add_clause` in order, and the two numbers of the DIMACS header
`p cnf <idx> <num_clauses + 1>`. -/
structure TseitinOut where
  mgr : Mgr
  clauses : List (List Int)
  header_vars : Int
  header_clauses : Nat
  deriving Repr

/-- Embedding of `tseitin` (lines 1031-1141). -/
def tseitin (mgr : Mgr) : TseitinOut :=
  let (nodes1, idx1, num_clauses) := tseitin_assign mgr.nodes mgr.idx 0
  let defs := nodes1.flatMap (node_clauses nodes1)
  let sign0 : Int := if mgr.check_satisfiability ≠ 0 then 1 else -1
  let sign : Int := if mgr.use_depqbf ≠ 0 then 1 else sign0
  let root_idx := child_idx nodes1 mgr.root
  { mgr := { mgr with nodes := nodes1, idx := idx1 }
    clauses := defs ++ [[sign * root_idx]]
    header_vars := idx1
    header_clauses := num_clauses + 1 }

/-- The line printed by `limboole_extended` for the solver result `res`
(lines 1583-1607), for a SAT back-end (`mgr->qdpll` is null). -/
def report (check_satisfiability : Int) (res : Int) : String :=
  if res = 10 then
    if check_satisfiability ≠ 0 then "% SATISFIABLE formula (satisfying assignment follows)"
    else "% INVALID formula (falsifying assignment follows)"
  else if res = 20 then
    if check_satisfiability ≠ 0 then "% UNSATISFIABLE formula" else "% VALID formula"
  else "% UNKNOWN result"

/-! ### Semantics used to state correctness -/

/-- Truth value of a DIMACS literal under an assignment of the variables
`1, 2, ...`. -/
def lit_true (a : Nat → Bool) (l : Int) : Bool :=
  if 0 < l then a l.toNat else !a (-l).toNat

/-- A clause holds when one of its literals is true. -/
def clause_true (a : Nat → Bool) (c : List Int) : Bool := c.any (lit_true a)

/-- A clause set holds when all its clauses hold. -/
def cnf_true (a : Nat → Bool) (cs : List (List Int)) : Bool := cs.all (clause_true a)

/-- Truth value of the formula rooted at node `i` under the valuation `v` of
variable names; `fuel` bounds the depth. Operators are read as in the parser:
`IMPLIES` is `c0 -> c1`, `SEILPMI` is `c0 <- c1`. -/
def eval (nodes : List Node) (v : String → Bool) : Nat → Nat → Bool
  | 0, _ => false
  | fuel + 1, i =>
    match nodes[i]? with
    | none => false
    | some n =>
      let e (c : Option Nat) : Bool := match c with
        | some j => eval nodes v fuel j
        | none => false
      match n.type with
      | LType.VAR => v n.as_name
      | LType.NOT => !e n.as_child0
      | LType.AND => e n.as_child0 && e n.as_child1
      | LType.OR => e n.as_child0 || e n.as_child1
      | LType.IMPLIES => !e n.as_child0 || e n.as_child1
      | LType.SEILPMI => e n.as_child0 || !e n.as_child1
      | LType.IFF => e n.as_child0 == e n.as_child1
      | _ => false

/-- Value of the formula at node `i`, with enough fuel for any well-formed
manager (children precede parents). -/
def eval_node (nodes : List Node) (v : String → Bool) (i : Nat) : Bool :=
  eval nodes v (i + 1) i

/-- Managers the parser can build: `init`, then calls of `var` and of `op`
with children that are stored nodes (`parse_not` passes a null second child). -/
inductive Reachable : Mgr → Prop where
  | init : Reachable init
  | var (m : Mgr) (str : String) : Reachable m → Reachable (var m str).1
  | not (m : Mgr) (c0 : Nat) : Reachable m → c0 < m.nodes.length →
      Reachable (op m LType.NOT (some c0) none).1
  | bin (m : Mgr) (t : LType) (c0 c1 : Nat) : Reachable m →
      (t = LType.AND ∨ t = LType.OR ∨ t = LType.IMPLIES ∨ t = LType.SEILPMI ∨ t = LType.IFF) →
      c0 < m.nodes.length → c1 < m.nodes.length →
      Reachable (op m t (some c0) (some c1)).1
  | set_root (m : Mgr) (r : Nat) : Reachable m → r < m.nodes.length →
      Reachable { m with root := some r }
  | set_check (m : Mgr) (c : Int) : Reachable m →
      Reachable { m with check_satisfiability := c }

/-- Shape of a stored node at position `len`: children that fit its type and
precede it. -/
def NodeShape (len : Nat) (n : Node) : Prop :=
  match n.type with
  | LType.VAR => n.as_child0 = none ∧ n.as_child1 = none
  | LType.NOT => ∃ j, n.as_child0 = some j ∧ j < len ∧ n.as_child1 = none
  | LType.AND | LType.OR | LType.IMPLIES | LType.SEILPMI | LType.IFF =>
      ∃ j k, n.as_child0 = some j ∧ n.as_child1 = some k ∧ j < len ∧ k < len
  | _ => False

/-- A stored node before `tseitin`: no index yet (`memset` to zero in `var`
and `op`) and the shape `NodeShape`. -/
def NodeOk (len : Nat) (n : Node) : Prop :=
  n.idx = 0 ∧ NodeShape len n

/-- Well-formed node tables: every node has the shape `NodeOk` and variable
nodes have pairwise different names. -/
def WF (nodes : List Node) : Prop :=
  (∀ (i : Nat) (n : Node), nodes[i]? = some n → NodeOk i n) ∧
  (∀ (i j : Nat) (ni nj : Node), nodes[i]? = some ni → nodes[j]? = some nj →
      ni.type = LType.VAR → nj.type = LType.VAR → ni.as_name = nj.as_name → i = j)

/-- The Boolean function of an operator type. -/
def op_sem (t : LType) (x y : Bool) : Bool :=
  match t with
  | LType.NOT => !x
  | LType.AND => x && y
  | LType.OR => x || y
  | LType.IMPLIES => !x || y
  | LType.SEILPMI => x || !y
  | LType.IFF => x == y
  | _ => false

/-- The valuation of names read off an assignment of Tseitin indices: the
value of the index of the `VAR` node with that name. -/
def valuation_of (nodes : List Node) (a : Nat → Bool) (name : String) : Bool :=
  match find_var nodes name with
  | some i => a (child_idx nodes (some i)).toNat
  | none => false

/-- Node tables after the first loop of `tseitin` on a parsed formula: node
`i` carries index `i + 1`, has the shape `NodeShape`, and variable nodes have
pairwise different names. -/
def Numbered (ns : List Node) : Prop :=
  (∀ (i : Nat) (n : Node), ns[i]? = some n → n.idx = (i : Int) + 1 ∧ NodeShape i n) ∧
  (∀ (i j : Nat) (ni nj : Node), ns[i]? = some ni → ns[j]? = some nj →
      ni.type = LType.VAR → nj.type = LType.VAR → ni.as_name = nj.as_name → i = j)

/-- Value of a child pointer under `eval_node`. -/
def eval_child (ns : List Node) (v : String → Bool) (c : Option Nat) : Bool :=
  match c with
  | some j => eval_node ns v j
  | none => false

/-- One-step semantics of a node from the values of its children. -/
def node_sem (ns : List Node) (v : String → Bool) (n : Node) : Bool :=
  if n.type = LType.VAR then v n.as_name
  else op_sem n.type (eval_child ns v n.as_child0) (eval_child ns v n.as_child1)

/-- The manager after parsing `a | !b` with option `-s`. -/
def sample_sat_mgr : Mgr :=
  let m1 := (var init "a").1
  let m2 := (var m1 "b").1
  let m3 := (op m2 LType.NOT (some 1) none).1
  let m4 := (op m3 LType.OR (some 0) (some 2)).1
  { { m4 with root := some 3 } with check_satisfiability := 1 }

/-- The manager after parsing `a -> a` in the default (validity) mode. -/
def sample_valid_mgr : Mgr :=
  let m1 := (var init "a").1
  let m2 := (op m1 LType.IMPLIES (some 0) (some 0)).1
  { m2 with root := some 1 }

/-! ## Definitions: scanner of `limboole.c`

The input is a list of characters: the remaining part of the file `in` or of
the string `input`. The result `EOF` of `next_char` is `none`. Characters are
tested as in the "C" locale. The positions `x`, `y` of a token are only
printed in messages and are left out. -/

/-- The numeric value of a `Type` (lines 69-84), compared by `pp_aux`. -/
def LType.code : LType → Nat
  | LType.VAR => 0
  | LType.LP => 1
  | LType.RP => 2
  | LType.NOT => 3
  | LType.AND => 4
  | LType.OR => 5
  | LType.IMPLIES => 6
  | LType.SEILPMI => 7
  | LType.IFF => 8
  | LType.DONE => 9
  | LType.ERROR => 10
  | LType.ALL => 11
  | LType.EX => 12

/-- The part of `struct Mgr` read and written by the scanner: the input not
yet read, `saved_char` (`none` when `saved_char_is_valid` is zero), `token`
and the characters of `buffer`. -/
structure Scanner where
  input : List Char
  saved_char : Option (Option Char) := none
  token : LType := LType.ERROR
  buffer : List Char := []
  deriving DecidableEq, Repr

/-- A message written by `parse_error` (lines 514-535): the token at which it
is reported (`ERROR` for a scan error) and the formatted text. -/
structure Message where
  token : LType
  text : String
  deriving DecidableEq, Repr

/-- The function `isspace` of the "C" locale. -/
def isspace (c : Char) : Bool :=
  c = ' ' || c = '\t' || c = '\n' || c = '\x0b' || c = '\x0c' || c = '\r'

/-- Embedding of `is_var_letter` (lines 539-559). -/
def is_var_letter (c : Char) : Bool :=
  c.isAlphanum || c = '-' || c = '_' || c = '.' || c = '[' || c = ']' || c = '$' || c = '@'

/-- Embedding of `next_char` (lines 572-596). -/
def next_char (sc : Scanner) : Scanner × Option Char :=
  match sc.saved_char with
  | some ch => ({ sc with saved_char := none }, ch)
  | none =>
    match sc.input with
    | [] => (sc, none)
    | c :: rest => ({ sc with input := rest }, some c)

/-- Embedding of `unget_char` (lines 600-616). -/
def unget_char (sc : Scanner) (ch : Option Char) : Scanner :=
  { sc with saved_char := some ch }

/-- The two loops at the label `RESTART_NEXT_TOKEN` of `next_token`
(lines 630-639) on the character `ch` just read and the input that follows:
white space is skipped, and a comment from `%` to the end of the line
(`comment` is true inside the comment). Returns the input left and the first
character that is neither, or `EOF`. -/
def skip_blanks : Bool → List Char → Char → List Char × Option Char
  | false, [], ch =>
    if isspace ch || ch = '%' then ([], none)
    else ([], some ch)
  | true, [], _ => ([], none)
  | false, d :: rest, ch =>
    if isspace ch then skip_blanks false rest d
    else if ch = '%' then skip_blanks true rest d
    else (d :: rest, some ch)
  | true, d :: rest, ch =>
    if ch = '\n' then skip_blanks false rest d
    else skip_blanks true rest d

/-- The loop of `next_token` that reads a name (lines 703-710) on the
character `ch` just read and the input that follows: returns the input left,
the character that ended the name, and the buffer. -/
def scan_name : List Char → Char → List Char → List Char × Option Char × List Char
  | [], ch, buffer =>
    if is_var_letter ch then ([], none, buffer ++ [ch]) else ([], some ch, buffer)
  | d :: rest, ch, buffer =>
    if is_var_letter ch then scan_name rest d (buffer ++ [ch])
    else (d :: rest, some ch, buffer)

/-- Embedding of `next_token` (lines 620-725) with `mgr->use_depqbf` as
`depqbf`: the scanner, and the message of `parse_error` if there is one. -/
def scan_token (depqbf : Bool) (sc : Scanner) : Scanner × Option Message :=
  let sc := { sc with token := LType.ERROR }
  let (sc, ch) := next_char sc
  let (sc, ch) := (match ch with
    | none => (sc, none)
    | some c => ({ sc with input := (skip_blanks false sc.input c).1 },
        (skip_blanks false sc.input c).2))
  match ch with
  | none => ({ sc with token := LType.DONE }, none)
  | some c =>
    if c = '<' then
      let (sc, ch) := next_char sc
      if ch = some '-' then
        let (sc, ch) := next_char sc
        if ch = some '>' then ({ sc with token := LType.IFF }, none)
        else ({ unget_char sc ch with token := LType.SEILPMI }, none)
      else (sc, some ⟨LType.ERROR, "expected '-' after '<'"⟩)
    else if c = '-' then
      let (sc, ch) := next_char sc
      if ch = some '>' then ({ sc with token := LType.IMPLIES }, none)
      else ({ unget_char sc ch with token := LType.NOT }, none)
    else if c = '&' then ({ sc with token := LType.AND }, none)
    else if c = '?' ∧ depqbf = true then ({ sc with token := LType.EX }, none)
    else if c = '#' ∧ depqbf = true then ({ sc with token := LType.ALL }, none)
    else if c = '|' ∨ c = '/' then ({ sc with token := LType.OR }, none)
    else if c = '!' ∨ c = '~' then ({ sc with token := LType.NOT }, none)
    else if c = '(' then ({ sc with token := LType.LP }, none)
    else if c = ')' then ({ sc with token := LType.RP }, none)
    else if is_var_letter c then
      let r := scan_name sc.input c []
      let sc := unget_char { sc with input := r.1, buffer := r.2.2 } r.2.1
      if sc.buffer.getLast? = some '-' then
        (sc, some ⟨LType.ERROR,
          "variable '" ++ String.mk sc.buffer ++ "' ends with '-'"⟩)
      else ({ sc with token := LType.VAR }, none)
    else (sc, some ⟨LType.ERROR, "invalid character '" ++ String.mk [c] ++ "'"⟩)

/-! ## Definitions: parser of `limboole.c` -/

/-- A `struct PNode` (lines 108-113): an entry of the quantifier prefix. -/
structure PNode where
  type : LType
  node : Nat
  deriving DecidableEq, Repr

/-- A call of the library of DepQBF made by `parse_prefix`. -/
inductive QCall where
  | new_scope (universal : Bool)
  | add (lit : Int)
  deriving DecidableEq, Repr

/-- The state of the front end: the node table `mgr`, the scanner, the
list from `first_prefix` on, the flags `dump` and `qdump`, the messages
written to `log`, and the calls made to DepQBF. -/
structure Front where
  mgr : Mgr
  sc : Scanner
  first_prefix : List PNode := []
  dump : Int := 0
  qdump : Int := 0
  log : List Message := []
  qdpll : List QCall := []
  deriving Repr

/-- The function `next_token` on the state of the front end. -/
def next_token (fr : Front) : Front :=
  { fr with sc := (scan_token (decide (fr.mgr.use_depqbf ≠ 0)) fr.sc).1
            log := fr.log ++ (scan_token (decide (fr.mgr.use_depqbf ≠ 0)) fr.sc).2.toList }

/-- The function `parse_error` called by the parser, where the token is not
`ERROR`. -/
def parse_error (fr : Front) (text : String) : Front :=
  { fr with log := fr.log ++ [⟨fr.sc.token, text⟩] }

/-- Result of a parsing function: the state and the returned `Node *`;
`none` when the bound on the recursion depth is used up. -/
abbrev Parsed := Option (Front × Option Nat)

/-- Embedding of `parse_basic` (lines 734-763); `expr` is `parse_expr`. -/
def parse_basic (expr : Front → Parsed) (fr : Front) : Parsed :=
  if fr.sc.token = LType.LP then
    match expr (next_token fr) with
    | none => none
    | some (fr1, child) =>
      if fr1.sc.token ≠ LType.RP then
        some (next_token (if fr1.sc.token ≠ LType.ERROR then parse_error fr1 "expected ')'"
          else fr1), none)
      else some (next_token fr1, child)
  else if fr.sc.token = LType.VAR then
    some (next_token { fr with mgr := (var fr.mgr (String.mk fr.sc.buffer)).1 },
      some (var fr.mgr (String.mk fr.sc.buffer)).2)
  else if fr.sc.token ≠ LType.ERROR then
    some (parse_error fr "expected variable or '('", none)
  else some (fr, none)

/-- Embedding of `parse_not` (lines 767-785); the first argument bounds the
recursion. -/
def parse_not (expr : Front → Parsed) : Nat → Front → Parsed
  | 0, _ => none
  | k + 1, fr =>
    if fr.sc.token = LType.NOT then
      match parse_not expr k (next_token fr) with
      | none => none
      | some (fr1, none) => some (fr1, none)
      | some (fr1, some child) =>
        some ({ fr1 with mgr := (op fr1.mgr LType.NOT (some child) none).1 },
          some (op fr1.mgr LType.NOT (some child) none).2)
    else parse_basic expr fr

/-- The `do ... while` loop of `parse_associative_op` (lines 798-812) with
the value `res` at the start of an iteration; the first argument bounds the
number of iterations. -/
def associative_loop (type : LType) (lower : Front → Parsed) : Nat → Front → Option Nat → Parsed
  | 0, _, _ => none
  | k + 1, fr, res =>
    match lower fr with
    | none => none
    | some (fr1, none) => some (fr1, none)
    | some (fr1, some child) =>
      let fr2 : Front := (match res with
        | some r => { fr1 with mgr := (op fr1.mgr type (some r) (some child)).1 }
        | none => fr1)
      let res2 : Nat := (match res with
        | some r => (op fr1.mgr type (some r) (some child)).2
        | none => child)
      if fr2.sc.token = type then associative_loop type lower k (next_token fr2) (some res2)
      else some (fr2, some res2)

/-- Embedding of `parse_associative_op` (lines 789-815). -/
def parse_associative_op (type : LType) (lower : Front → Parsed) (fuel : Nat) (fr : Front) :
    Parsed :=
  associative_loop type lower fuel fr none

/-- Embedding of `parse_and` (lines 820-824). -/
def parse_and (expr : Front → Parsed) (fuel : Nat) (fr : Front) : Parsed :=
  parse_associative_op LType.AND (parse_not expr fuel) fuel fr

/-- Embedding of `parse_or` (lines 828-832). -/
def parse_or (expr : Front → Parsed) (fuel : Nat) (fr : Front) : Parsed :=
  parse_associative_op LType.OR (parse_and expr fuel) fuel fr

/-- Embedding of `parse_implies` (lines 836-852). -/
def parse_implies (expr : Front → Parsed) (fuel : Nat) (fr : Front) : Parsed :=
  match parse_or expr fuel fr with
  | none => none
  | some (fr1, none) => some (fr1, none)
  | some (fr1, some l) =>
    if fr1.sc.token ≠ LType.IMPLIES ∧ fr1.sc.token ≠ LType.SEILPMI then some (fr1, some l)
    else
      match parse_or expr fuel (next_token fr1) with
      | none => none
      | some (fr2, none) => some (fr2, none)
      | some (fr2, some r) =>
        some ({ fr2 with mgr := (op fr2.mgr fr1.sc.token (some l) (some r)).1 },
          some (op fr2.mgr fr1.sc.token (some l) (some r)).2)

/-- Embedding of `parse_iff` (lines 856-860). -/
def parse_iff (expr : Front → Parsed) (fuel : Nat) (fr : Front) : Parsed :=
  parse_associative_op LType.IFF (parse_implies expr fuel) fuel fr

/-- Embedding of `parse_expr` (lines 924-928); `fuel` bounds the nesting of
parentheses and the length of the loops inside one pair of parentheses. -/
def parse_expr : Nat → Front → Parsed
  | 0, _ => none
  | fuel + 1, fr => parse_iff (parse_expr fuel) (fuel + 1) fr

/-- Embedding of `parse` (lines 932-949): the state and the returned `int`
as a truth value. -/
def parse (fuel : Nat) (fr : Front) : Option (Front × Bool) :=
  if fr.sc.token = LType.ERROR then some (fr, false)
  else
    match parse_expr fuel fr with
    | none => none
    | some (fr1, root) =>
      let fr2 : Front := { fr1 with mgr := { fr1.mgr with root := root } }
      if root = none then some (fr2, false)
      else if fr2.sc.token = LType.DONE then some (fr2, true)
      else if fr2.sc.token ≠ LType.ERROR then
        some (parse_error fr2 "expected operator or EOF", false)
      else some (fr2, false)

/-- The assignment `v->idx = ++mgr->idx` of `parse_prefix` (line 884). -/
def set_next_idx (mgr : Mgr) (v : Nat) : Mgr :=
  match mgr.nodes[v]? with
  | some n => { mgr with idx := mgr.idx + 1, nodes := mgr.nodes.set v { n with idx := mgr.idx + 1 } }
  | none => { mgr with idx := mgr.idx + 1 }

/-- The loop of `parse_prefix` (lines 878-905) with the local variable
`scope`; returns the state, `scope`, and false if the function returns 0
inside the loop. The first argument bounds the number of iterations. -/
def prefix_loop : Nat → Front → LType → Option (Front × LType × Bool)
  | 0, _, _ => none
  | k + 1, fr, scope =>
    if fr.sc.token = LType.ALL ∨ fr.sc.token = LType.EX then
      let token := fr.sc.token
      let fr1 := next_token fr
      if fr1.sc.token ≠ LType.VAR then some (fr1, scope, false)
      else
        let v := (var fr1.mgr (String.mk fr1.sc.buffer)).2
        let mgr2 := set_next_idx (var fr1.mgr (String.mk fr1.sc.buffer)).1 v
        let p : PNode := { node := v, type := fr1.sc.token }
        let calls : List QCall :=
          (if scope ≠ token then
            [QCall.add 0, QCall.new_scope (decide (token = LType.ALL))]
          else [])
          ++ [QCall.add mgr2.idx]
        prefix_loop k
          (next_token { fr1 with mgr := mgr2, first_prefix := fr1.first_prefix ++ [p]
                                 qdpll := fr1.qdpll ++ calls })
          token
    else some (fr, scope, true)

/-- Embedding of `parse_prefix` (lines 864-919): the state and the returned
`int` as a truth value. -/
def parse_prefix (fuel : Nat) (fr : Front) : Option (Front × Bool) :=
  if fr.sc.token = LType.ERROR then some (fr, false)
  else
    match prefix_loop fuel
        { fr with qdpll := fr.qdpll
            ++ [QCall.new_scope (decide (fr.mgr.check_satisfiability ≠ 1))] }
        LType.EX with
    | none => none
    | some (fr1, _, false) => some (fr1, false)
    | some (fr1, scope, true) =>
      some ({ fr1 with qdpll := fr1.qdpll ++ [QCall.add 0]
                ++ (if scope = LType.ALL then [QCall.new_scope false, QCall.add 0] else []) },
        true)

/-! ## Definitions: pretty printer of `limboole.c`

The output is the text written to `mgr->out`. The first argument of each
function bounds the recursion; a null or dangling child pointer gives
`none`. -/

/-- The `switch` of `pp_aux` (lines 1153-1191) on the node `n`; `sub` is the
recursive call. -/
def pp_aux_node (sub : Option Nat → LType → Option String) (n : Node) (outer : LType) :
    Option String :=
  let le : Bool := decide (outer.code ≤ n.type.code)
  let lt : Bool := decide (outer.code < n.type.code)
  match n.type with
  | LType.NOT =>
    match sub n.as_child0 n.type with
    | some a => some ("!" ++ a)
    | none => none
  | LType.IMPLIES | LType.SEILPMI =>
    match sub n.as_child0 n.type, sub n.as_child1 n.type with
    | some a, some b =>
      some ((if le then "(" else "") ++ a
        ++ (if n.type = LType.IMPLIES then " -> " else " <- ") ++ b
        ++ (if le then ")" else ""))
    | _, _ => none
  | LType.OR | LType.AND | LType.IFF =>
    match sub n.as_child0 n.type, sub n.as_child1 n.type with
    | some a, some b =>
      some ((if lt then "(" else "") ++ a
        ++ (if n.type = LType.OR then " | "
            else if n.type = LType.AND then " & " else " <-> ") ++ b
        ++ (if lt then ")" else ""))
    | _, _ => none
  | LType.VAR => some n.as_name
  | _ => none

/-- Embedding of `pp_aux` (lines 1145-1192). -/
def pp_aux (nodes : List Node) : Nat → Option Nat → LType → Option String
  | 0, _, _ => none
  | fuel + 1, node, outer =>
    match node with
    | none => none
    | some i =>
      match nodes[i]? with
      | none => none
      | some n => pp_aux_node (pp_aux nodes fuel) n outer

/-- Embedding of `pp_and` (lines 1196-1208). -/
def pp_and (nodes : List Node) : Nat → Option Nat → Option String
  | 0, _ => none
  | fuel + 1, node =>
    match node with
    | none => none
    | some i =>
      match nodes[i]? with
      | none => none
      | some n =>
        if n.type = LType.AND then
          match pp_and nodes fuel n.as_child0, pp_and nodes fuel n.as_child1 with
          | some a, some b => some (a ++ "\n&\n" ++ b)
          | _, _ => none
        else pp_aux nodes (fuel + 1) node LType.AND

/-- Embedding of `pp_or` (lines 1212-1224). -/
def pp_or (nodes : List Node) : Nat → Option Nat → Option String
  | 0, _ => none
  | fuel + 1, node =>
    match node with
    | none => none
    | some i =>
      match nodes[i]? with
      | none => none
      | some n =>
        if n.type = LType.OR then
          match pp_or nodes fuel n.as_child0, pp_or nodes fuel n.as_child1 with
          | some a, some b => some (a ++ "\n|\n" ++ b)
          | _, _ => none
        else pp_aux nodes (fuel + 1) node LType.OR

/-- Embedding of `pp_and_or` (lines 1228-1240). -/
def pp_and_or (nodes : List Node) (fuel : Nat) (node : Option Nat) (outer : LType) :
    Option String :=
  match node with
  | none => none
  | some i =>
    match nodes[i]? with
    | none => none
    | some n =>
      if n.type = LType.AND then pp_and nodes fuel node
      else if n.type = LType.OR then pp_or nodes fuel node
      else pp_aux nodes fuel node outer

/-- Embedding of `pp_iff_implies` (lines 1244-1255). -/
def pp_iff_implies (nodes : List Node) (fuel : Nat) (node : Option Nat) (outer : LType) :
    Option String :=
  match node with
  | none => none
  | some i =>
    match nodes[i]? with
    | none => none
    | some n =>
      if n.type = LType.IFF ∨ n.type = LType.IMPLIES then
        match pp_and_or nodes fuel n.as_child0 n.type, pp_and_or nodes fuel n.as_child1 n.type with
        | some a, some b =>
          some (a ++ "\n" ++ (if n.type = LType.IFF then "<->" else "->") ++ "\n" ++ b)
        | _, _ => none
      else pp_and_or nodes fuel node outer

/-- Embedding of `pp_prefix` (lines 1259-1270); the names, which the C code
writes to `stdout`, and the quantifier symbols, which it writes to
`mgr->out`, are one text. -/
def pp_prefix (nodes : List Node) : List PNode → Option String
  | [] => some ""
  | n :: rest =>
    match nodes[n.node]?, pp_prefix nodes rest with
    | some v, some s =>
      some ((if n.type = LType.ALL then "#" else "?") ++ v.as_name ++ " " ++ s)
    | _, _ => none

/-- Embedding of `pp` (lines 1274-1281). -/
def pp (fuel : Nat) (fr : Front) : Option String :=
  match pp_prefix fr.mgr.nodes fr.first_prefix,
      pp_iff_implies fr.mgr.nodes fuel fr.mgr.root LType.DONE with
  | some a, some b => some (a ++ b ++ "\n")
  | _, _ => none

/-! ## Definitions: the driver `limboole_extended`

All three back-ends are compiled in. Arguments that name files (`-o`, `-l`,
an input file) are not modelled; the input is the parameter `input`. -/

/-- The local variables `done`, `error`, `pretty_print` of
`limboole_extended` and the fields of `struct Mgr` set from the command
line. -/
structure Options where
  done : Bool := false
  error : Bool := false
  pretty_print : Bool := false
  verbose : Nat := 0
  dump : Int := 0
  qdump : Int := 0
  check_satisfiability : Int := 0
  use_lingeling : Bool := true
  use_picosat : Bool := false
  use_depqbf : Bool := false
  deriving DecidableEq, Repr

/-- The initial settings made from the parameter `op` (lines 1425-1444). -/
def initial_options (op : Nat) : Options :=
  { check_satisfiability := if op = 1 ∨ op = 3 then 1 else 0
    use_depqbf := decide (op = 2 ∨ op = 3)
    use_lingeling := decide (¬ (op = 2 ∨ op = 3))
    use_picosat := decide (¬ (op = 2 ∨ op = 3)) }

/-- The loop over `argv` (lines 1446-1531); `none` for an argument that
names a file. -/
def read_args : List String → Options → Option Options
  | [], o => some o
  | arg :: rest, o =>
    if o.done ∨ o.error then some o
    else if arg = "-h" then read_args rest { o with done := true }
    else if arg = "--version" then read_args rest { o with done := true }
    else if arg = "-v" then read_args rest { o with verbose := o.verbose + 1 }
    else if arg = "-p" then read_args rest { o with pretty_print := true }
    else if arg = "-d" then
      read_args rest (if o.use_depqbf then { o with dump := 0, qdump := 1 }
        else { o with dump := 1, qdump := 0 })
    else if arg = "-s" then read_args rest { o with check_satisfiability := 1 }
    else if arg = "-o" ∨ arg = "-l" then
      (if rest = [] then read_args rest { o with error := true } else none)
    else if arg = "--picosat" then
      read_args rest { o with use_lingeling := false, use_picosat := true, use_depqbf := false }
    else if arg = "--lingeling" then
      read_args rest { o with use_lingeling := true, use_picosat := false, use_depqbf := false }
    else if arg = "--depqbf" then
      read_args rest { o with use_lingeling := false, use_picosat := false, use_depqbf := true }
    else if arg.data.head? = some '-' then read_args rest { o with error := true }
    else none

/-- What `limboole_extended` has done: the value returned, the text written
by `pp`, the result of `tseitin` if it was called, and whether a solver was
called on the clauses. -/
structure Outcome where
  result : Int
  printed : Option String := none
  qdump_printed : Bool := false
  cnf : Option TseitinOut := none
  solved : Bool := false
  prefixes : List PNode := []
  log : List Message := []
  deriving Repr

/-- The manager made by `init` with the settings of the command line and the
input, after the first call of `next_token` (lines 1420-1423, 1537). -/
def initial_front (o : Options) (input : List Char) : Front :=
  next_token
    { mgr := { init with check_satisfiability := o.check_satisfiability
                         use_depqbf := if o.use_depqbf then 1 else 0 }
      sc := { input := input }
      dump := o.dump
      qdump := o.qdump }

/-- The call of `parse_prefix` in `limboole_extended` (lines 1538-1541),
made with DepQBF only. -/
def prefix_phase (fuel : Nat) (o : Options) (fr : Front) : Option (Front × Bool) :=
  if o.use_depqbf then parse_prefix fuel fr else some (fr, true)

/-- The part of `limboole_extended` after the loop over `argv`
(lines 1536-1624) on the characters `input`; `fuel` bounds the recursion of
parser and printer. The value of `error` set from `parse_prefix` is
overwritten by the one set from `parse`. -/
def run_front (fuel : Nat) (o : Options) (input : List Char) : Option Outcome :=
  if o.error ∨ o.done then some { result := if o.error then 1 else 0 }
  else
    match prefix_phase fuel o (initial_front o input) with
    | none => none
    | some (fr2, _) =>
      match parse fuel fr2 with
      | none => none
      | some (fr3, ok) =>
        if ¬ ok then some { result := 1, prefixes := fr3.first_prefix, log := fr3.log }
        else if o.pretty_print ∨ fr3.qdump ≠ 0 then
          match (if o.pretty_print then (pp fuel fr3).map some else some none) with
          | none => none
          | some printed =>
            some { result := 0, printed := printed, qdump_printed := decide (fr3.qdump ≠ 0)
                   prefixes := fr3.first_prefix, log := fr3.log }
        else
          some { result := 0, cnf := some (tseitin fr3.mgr), solved := decide (fr3.dump = 0)
                 prefixes := fr3.first_prefix, log := fr3.log }

/-- The front end on a text with a SAT back-end: `init`, the first
`next_token` and `parse`, as in `limboole_extended` (lines 1420, 1537,
1543). -/
def parse_text (fuel : Nat) (input : List Char) : Option (Front × Bool) :=
  parse fuel (next_token { mgr := init, sc := { input := input } })

/-- Embedding of `limboole_extended` (lines 1405-1624); `argv` holds the
arguments after the program name. -/
def limboole_extended (fuel : Nat) (argv : List String) (op : Nat) (input : List Char) :
    Option Outcome :=
  match read_args argv (initial_options op) with
  | none => none
  | some o => run_front fuel o input

/-! ## Definitions: formulas, token sequences and the grammar of the parser -/

/-- A formula as a tree. -/
inductive Form where
  | var (name : String)
  | not (f : Form)
  | and (f g : Form)
  | or (f g : Form)
  | implies (f g : Form)
  | seilpmi (f g : Form)
  | iff (f g : Form)
  deriving DecidableEq, Repr

/-- Number of nodes of a formula. -/
def Form.size : Form → Nat
  | Form.var _ => 1
  | Form.not f => f.size + 1
  | Form.and f g => f.size + g.size + 1
  | Form.or f g => f.size + g.size + 1
  | Form.implies f g => f.size + g.size + 1
  | Form.seilpmi f g => f.size + g.size + 1
  | Form.iff f g => f.size + g.size + 1

/-- The binding strength of the top operator of a formula: 0 for `<->`,
1 for `->` and `<-`, 2 for `|`, 3 for `&`, 4 for `!`, 5 for a variable. -/
def Form.level : Form → Nat
  | Form.var _ => 5
  | Form.not _ => 4
  | Form.and _ _ => 3
  | Form.or _ _ => 2
  | Form.implies _ _ => 1
  | Form.seilpmi _ _ => 1
  | Form.iff _ _ => 0

/-- A token: its type and, for `VAR`, the name in the buffer. -/
structure Tok where
  type : LType
  name : String := ""
  deriving DecidableEq, Repr

/-- A token sequence in parentheses if `b` holds. -/
def paren (b : Bool) (ts : List Tok) : List Tok :=
  if b then [⟨LType.LP, ""⟩] ++ ts ++ [⟨LType.RP, ""⟩] else ts

/-- The token sequence of a formula where an operand of strength `lvl` is
expected, with parentheses only where the operator of the formula binds less
tightly than `lvl`: the operands of `!` have strength 4; the left operand of
`&` has strength 3 and the right one 4; the left operand of `|` has strength
2 and the right one 3; both operands of `->` and `<-` have strength 2; the
left operand of `<->` has strength 0 and the right one 1. So `&`, `|` and
`<->` are written without parentheses exactly when they are nested to the
left, and an implication inside an implication is always in parentheses. -/
def render : Nat → Form → List Tok
  | _, Form.var name => [⟨LType.VAR, name⟩]
  | lvl, Form.not f => paren (decide (4 < lvl)) (⟨LType.NOT, ""⟩ :: render 4 f)
  | lvl, Form.and f g =>
    paren (decide (3 < lvl)) (render 3 f ++ ⟨LType.AND, ""⟩ :: render 4 g)
  | lvl, Form.or f g =>
    paren (decide (2 < lvl)) (render 2 f ++ ⟨LType.OR, ""⟩ :: render 3 g)
  | lvl, Form.implies f g =>
    paren (decide (1 < lvl)) (render 2 f ++ ⟨LType.IMPLIES, ""⟩ :: render 2 g)
  | lvl, Form.seilpmi f g =>
    paren (decide (1 < lvl)) (render 2 f ++ ⟨LType.SEILPMI, ""⟩ :: render 2 g)
  | lvl, Form.iff f g =>
    paren (decide (0 < lvl)) (render 0 f ++ ⟨LType.IFF, ""⟩ :: render 1 g)

/-- The scanner delivers the tokens `ts`: the current token is the first one,
and each call of `next_token` moves to the next one without a message. -/
def Scans (q : Bool) : Scanner → List Tok → Prop
  | _, [] => True
  | sc, t :: ts =>
    sc.token = t.type ∧ (t.type = LType.VAR → String.mk sc.buffer = t.name)
      ∧ (ts ≠ [] → (scan_token q sc).2 = none) ∧ Scans q (scan_token q sc).1 ts

/-- The node `i` of the table is the root of the formula `t`. -/
inductive Den (nodes : List Node) : Nat → Form → Prop where
  | var (i : Nat) (n : Node) : nodes[i]? = some n → n.type = LType.VAR →
      Den nodes i (Form.var n.as_name)
  | not (i j : Nat) (n : Node) (f : Form) : nodes[i]? = some n → n.type = LType.NOT →
      n.as_child0 = some j → n.as_child1 = none → Den nodes j f → Den nodes i (Form.not f)
  | and (i j k : Nat) (n : Node) (f g : Form) : nodes[i]? = some n → n.type = LType.AND →
      n.as_child0 = some j → n.as_child1 = some k → Den nodes j f → Den nodes k g →
      Den nodes i (Form.and f g)
  | or (i j k : Nat) (n : Node) (f g : Form) : nodes[i]? = some n → n.type = LType.OR →
      n.as_child0 = some j → n.as_child1 = some k → Den nodes j f → Den nodes k g →
      Den nodes i (Form.or f g)
  | implies (i j k : Nat) (n : Node) (f g : Form) : nodes[i]? = some n →
      n.type = LType.IMPLIES →
      n.as_child0 = some j → n.as_child1 = some k → Den nodes j f → Den nodes k g →
      Den nodes i (Form.implies f g)
  | seilpmi (i j k : Nat) (n : Node) (f g : Form) : nodes[i]? = some n →
      n.type = LType.SEILPMI →
      n.as_child0 = some j → n.as_child1 = some k → Den nodes j f → Den nodes k g →
      Den nodes i (Form.seilpmi f g)
  | iff (i j k : Nat) (n : Node) (f g : Form) : nodes[i]? = some n → n.type = LType.IFF →
      n.as_child0 = some j → n.as_child1 = some k → Den nodes j f → Den nodes k g →
      Den nodes i (Form.iff f g)

/-- The token after a complete operand of strength `lvl` is not an operator
that the parser would take as a continuation of the operand. -/
def stop_ok (lvl : Nat) (t : LType) : Prop :=
  (lvl ≤ 3 → t ≠ LType.AND) ∧ (lvl ≤ 2 → t ≠ LType.OR)
    ∧ (lvl ≤ 1 → t ≠ LType.IMPLIES ∧ t ≠ LType.SEILPMI) ∧ (lvl ≤ 0 → t ≠ LType.IFF)

/-- The result of parsing the formula `t` in the state `fr`: the state
`fr1` and the node `n`. The scanner delivers the tokens `rest`, the node
table has grown, `n` is the root of `t`, and no message was written. -/
structure Parses (q : Bool) (fr fr1 : Front) (n : Nat) (t : Form) (rest : List Tok) : Prop where
  scans : Scans q fr1.sc rest
  nodes : ∃ ext, fr1.mgr.nodes = fr.mgr.nodes ++ ext
  den : Den fr1.mgr.nodes n t
  log : fr1.log = fr.log
  depqbf : fr1.mgr.use_depqbf = fr.mgr.use_depqbf

/-- The test at the end of an iteration of `parse_associative_op`
(lines 806-809) with the value `res`. -/
def loop_check (type : LType) (lower : Front → Parsed) (k : Nat) (fr : Front) (res : Nat) :
    Parsed :=
  if fr.sc.token = type then associative_loop type lower k (next_token fr) (some res)
  else some (fr, some res)

/-- The function `p` parses every operand of strength `lvl`: on the tokens
`render lvl t` followed by a token `tk` that does not continue the operand
it returns the root of `t`. `n` bounds the size of the formulas in
parentheses, `n + 1` the size of `t`. -/
def LevelOk (q : Bool) (n lvl : Nat) (p : Front → Parsed) : Prop :=
  ∀ (t : Form) (fr : Front) (tk : Tok) (rest : List Tok), t.size ≤ n + 1 →
    (t.level < lvl → t.size ≤ n) → decide (fr.mgr.use_depqbf ≠ 0) = q →
    Scans q fr.sc (render lvl t ++ tk :: rest) → stop_ok lvl tk.type →
    ∃ fr1 r, p fr = some (fr1, some r) ∧ Parses q fr fr1 r t (tk :: rest)

/-- The function `expr` parses every formula of size at most `n`. -/
def ExprOk (q : Bool) (n : Nat) (expr : Front → Parsed) : Prop :=
  ∀ (t : Form) (fr : Front) (tk : Tok) (rest : List Tok), t.size ≤ n →
    decide (fr.mgr.use_depqbf ≠ 0) = q →
    Scans q fr.sc (render 0 t ++ tk :: rest) → stop_ok 0 tk.type →
    ∃ fr1 r, expr fr = some (fr1, some r) ∧ Parses q fr fr1 r t (tk :: rest)

/-- The operator `type` of strength `lvl` with the constructor `mk` is
written between a left operand of strength `lvl` and a right operand of
strength `lvl + 1`. -/
structure LoopLevel (type : LType) (lvl : Nat) (mk : Form → Form → Form) : Prop where
  render_mk : ∀ f g, render lvl (mk f g) = render lvl f ++ ⟨type, ""⟩ :: render (lvl + 1) g
  render_other : ∀ t, (∀ f g, t ≠ mk f g) → render lvl t = render (lvl + 1) t
  level_other : ∀ t, (∀ f g, t ≠ mk f g) → t.level ≠ lvl
  den_mk : ∀ (nodes : List Node) (i j k : Nat) (n : Node) (f g : Form),
    nodes[i]? = some n → n.type = type → n.as_child0 = some j → n.as_child1 = some k →
    Den nodes j f → Den nodes k g → Den nodes i (mk f g)
  size_mk : ∀ f g, (mk f g).size = f.size + g.size + 1
  stop_type : stop_ok (lvl + 1) type
  stop_self : ∀ t, stop_ok lvl t → t ≠ type
  stop_mono : ∀ t, stop_ok lvl t → stop_ok (lvl + 1) t

/-! ## Definitions: the nodes made by the parser -/

/-- The node `i` is reached from the node `r` by following child pointers. -/
inductive Reach (nodes : List Node) : Nat → Nat → Prop where
  | refl (r : Nat) : Reach nodes r r
  | child0 (r j i : Nat) (n : Node) : nodes[r]? = some n → n.as_child0 = some j →
      Reach nodes j i → Reach nodes r i
  | child1 (r j i : Nat) (n : Node) : nodes[r]? = some n → n.as_child1 = some j →
      Reach nodes j i → Reach nodes r i

/-- Every node of the table from position `lo` on is reached from `r`. -/
def Cover (nodes : List Node) (r lo : Nat) : Prop :=
  ∀ i, lo ≤ i → i < nodes.length → Reach nodes r i

/-- A parsing function keeps the manager among those built by `var` and
`op`, only adds nodes, and every node it has added is part of the formula
it returns. -/
def Sound (p : Front → Parsed) : Prop :=
  ∀ (fr fr1 : Front) (res : Option Nat), Reachable fr.mgr → p fr = some (fr1, res) →
    Reachable fr1.mgr ∧ (∃ ext, fr1.mgr.nodes = fr.mgr.nodes ++ ext)
    ∧ ∀ r, res = some r →
        r < fr1.mgr.nodes.length ∧ Cover fr1.mgr.nodes r fr.mgr.nodes.length

/-- The number of clauses that `tseitin` counts and emits for a node of the
given type (lines 1057-1073 and 1086-1133). -/
def clause_count (t : LType) : Nat :=
  match t with
  | LType.IFF => 4
  | LType.OR | LType.AND | LType.IMPLIES | LType.SEILPMI => 3
  | LType.NOT => 2
  | _ => 0

namespace Hashed

/-! ## Definitions: the hash table of `limboole.c` (lines 172-363)

The list model `Limboole.var` / `Limboole.op` searches all stored nodes; the
definitions of this section embed the hash table itself: the array
`mgr->nodes` of collision chains, `hash_var`, `hash_op`, `find`,
`enlarge_nodes`, `insert`, `var` and `op`. -/

/-- The modulus of the type `unsigned`. -/
def UINT_MOD : Nat := 4294967296

/-- The fields of `struct Mgr` used by the hash table: `nodes_size`,
`nodes_count`, the array `nodes` (each collision chain
`nodes[h], ->next, ->next, ...` is the list of its nodes in this order) and
the allocated nodes `inserted` in the order of the chain
`first -> next_inserted -> ... -> last`. A pointer to a node is its position
in `inserted`. -/
structure Mgr where
  nodes_size : Nat
  nodes_count : Nat
  nodes : List (List Nat)
  inserted : List Node
  deriving Repr

/-- Embedding of `init` (lines 367-385), the hash table part: two empty
chains. -/
def init : Mgr := { nodes_size := 2, nodes_count := 0, nodes := [[], []], inserted := [] }

/-- The value `(unsigned) (long) c` of a node pointer: 0 for the null
pointer, else the address `addr p` of the node, cut to 32 bits. -/
def ptr_value (addr : Nat → Nat) : Option Nat → Nat
  | none => 0
  | some p => addr p % UINT_MOD

/-- The expression `mgr->nodes_size - 1` in `unsigned`. -/
def size_mask (nodes_size : Nat) : Nat := (nodes_size + UINT_MOD - 1) % UINT_MOD

/-- The loop of `hash_var` (lines 180-187) over the characters of the name
(7-bit characters, as the scanner produces them). -/
def hash_var_loop : List Char → Nat → Nat
  | [], res => res
  | c :: rest, res =>
    let tmp := res &&& 0xf0000000
    let res1 := (res <<< 4) % UINT_MOD
    let res2 := (res1 + c.toNat) % UINT_MOD
    hash_var_loop rest (if tmp ≠ 0 then res2 ^^^ (tmp >>> 28) else res2)

/-- Embedding of `hash_var` (lines 172-193) for the table size `nodes_size`. -/
def hash_var (nodes_size : Nat) (name : String) : Nat :=
  hash_var_loop name.data 0 &&& size_mask nodes_size

/-- Embedding of `hash_op` (lines 197-210) for the table size `nodes_size`;
`addr` gives the addresses of the allocated nodes. -/
def hash_op (addr : Nat → Nat) (nodes_size : Nat) (type : LType) (c0 c1 : Option Nat) : Nat :=
  ((type.code + 4017271 * ptr_value addr c0 + 70200511 * ptr_value addr c1) % UINT_MOD)
    &&& size_mask nodes_size

/-- Embedding of `hash` (lines 214-221). The argument `void *c0` of C is the
name `str` for the type `VAR` and the node `c0` otherwise. -/
def hash (addr : Nat → Nat) (nodes_size : Nat) (type : LType) (str : String)
    (c0 c1 : Option Nat) : Nat :=
  if type = LType.VAR then hash_var nodes_size str else hash_op addr nodes_size type c0 c1

/-- Embedding of `eq` (lines 242-249), with the arguments of `hash`. -/
def eq (n : Node) (type : LType) (str : String) (c0 c1 : Option Nat) : Bool :=
  if type = LType.VAR then eq_var n str else eq_op n type c0 c1

/-- The loop of `find` (lines 259-261) along one collision chain: the node at
which the loop breaks (`*p` of the returned link), or null when the loop
reaches the end of the chain. The outer `none` stands for a chain entry that
is no allocated node. -/
def find_chain (inserted : List Node) (type : LType) (str : String) (c0 c1 : Option Nat) :
    List Nat → Option (Option Nat)
  | [] => some none
  | p :: rest =>
    match inserted[p]? with
    | none => none
    | some n =>
      if eq n type str c0 c1 then some (some p)
      else find_chain inserted type str c0 c1 rest

/-- Embedding of `find` (lines 253-265): the number `h` of the chain that is
searched and the node `*p` at the returned link (null: the link is the end of
the chain `h`). -/
def find (addr : Nat → Nat) (mgr : Mgr) (type : LType) (str : String) (c0 c1 : Option Nat) :
    Option (Nat × Option Nat) :=
  let h := hash addr mgr.nodes_size type str c0 c1
  match mgr.nodes[h]? with
  | none => none
  | some chain => (find_chain mgr.inserted type str c0 c1 chain).map (fun r => (h, r))

/-- The hash computed for a stored node by `enlarge_nodes` (lines 285-290). -/
def node_hash (addr : Nat → Nat) (nodes_size : Nat) (n : Node) : Nat :=
  if n.type = LType.VAR then hash_var nodes_size n.as_name
  else hash_op addr nodes_size n.type n.as_child0 n.as_child1

/-- The inner loop of `enlarge_nodes` (lines 282-293) over one old chain:
each node is put at the head of its chain in the new array `tab`. -/
def rehash_chain (addr : Nat → Nat) (inserted : List Node) (nodes_size : Nat) :
    List Nat → List (List Nat) → Option (List (List Nat))
  | [], tab => some tab
  | p :: rest, tab =>
    match inserted[p]? with
    | none => none
    | some n =>
      match tab[node_hash addr nodes_size n]? with
      | none => none
      | some chain =>
        rehash_chain addr inserted nodes_size rest
          (tab.set (node_hash addr nodes_size n) (p :: chain))

/-- The outer loop of `enlarge_nodes` (lines 280-294) over the old chains. -/
def rehash_all (addr : Nat → Nat) (inserted : List Node) (nodes_size : Nat) :
    List (List Nat) → List (List Nat) → Option (List (List Nat))
  | [], tab => some tab
  | chain :: rest, tab =>
    match rehash_chain addr inserted nodes_size chain tab with
    | none => none
    | some tab1 => rehash_all addr inserted nodes_size rest tab1

/-- Embedding of `enlarge_nodes` (lines 269-297). -/
def enlarge_nodes (addr : Nat → Nat) (mgr : Mgr) : Option Mgr :=
  let old_nodes := mgr.nodes
  let old_nodes_size := mgr.nodes_size
  let nodes_size := (mgr.nodes_size * 2) % UINT_MOD
  match rehash_all addr mgr.inserted nodes_size (old_nodes.take old_nodes_size)
      (List.replicate nodes_size []) with
  | none => none
  | some tab => some { mgr with nodes_size := nodes_size, nodes := tab }

/-- Embedding of `insert` (lines 301-310). -/
def insert (mgr : Mgr) (node : Node) : Mgr :=
  { mgr with inserted := mgr.inserted ++ [node]
             nodes_count := (mgr.nodes_count + 1) % UINT_MOD }

/-- The common part of `var` and `op` after the computation of the key
(lines 319-335 and 345-362): `enlarge_nodes` if the table is full, `find`,
and for a null result the allocation of the zeroed node `fresh`, the
assignment `*p = n` at the end of the chain and `insert`. -/
def find_or_insert (addr : Nat → Nat) (mgr : Mgr) (type : LType) (str : String)
    (c0 c1 : Option Nat) (fresh : Node) : Option (Mgr × Nat) :=
  match (if mgr.nodes_size ≤ mgr.nodes_count then enlarge_nodes addr mgr else some mgr) with
  | none => none
  | some mgr1 =>
    match find addr mgr1 type str c0 c1 with
    | none => none
    | some (_, some n) => some (mgr1, n)
    | some (h, none) =>
      match mgr1.nodes[h]? with
      | none => none
      | some chain =>
        some (insert { mgr1 with nodes := mgr1.nodes.set h (chain ++ [mgr1.inserted.length]) }
                fresh, mgr1.inserted.length)

/-- Embedding of `var` (lines 314-336) on the hash table. -/
def var (addr : Nat → Nat) (mgr : Mgr) (str : String) : Option (Mgr × Nat) :=
  find_or_insert addr mgr LType.VAR str none none ⟨LType.VAR, 0, str, none, none⟩

/-- Embedding of `op` (lines 340-363) on the hash table. -/
def op (addr : Nat → Nat) (mgr : Mgr) (type : LType) (c0 c1 : Option Nat) :
    Option (Mgr × Nat) :=
  find_or_insert addr mgr type "" c0 c1 ⟨type, 0, "", c0, c1⟩

/-- Two nodes are equal under `eq`: `n` is accepted for the key of `m`. -/
def node_eq (n m : Node) : Bool := eq n m.type m.as_name m.as_child0 m.as_child1

/-- One request to the table: `var (str)`, or `op (type, c0, c1)` with an
operator type. -/
inductive Request where
  | var (str : String)
  | op (type : LType) (c0 c1 : Option Nat)
  deriving DecidableEq, Repr

/-- The call made for a request. -/
def request (addr : Nat → Nat) (mgr : Mgr) : Request → Option (Mgr × Nat)
  | Request.var str => var addr mgr str
  | Request.op type c0 c1 => op addr mgr type c0 c1

/-- A request as the parser makes it: the type of an `op` is not `VAR`. -/
def Request.proper : Request → Prop
  | Request.var _ => True
  | Request.op type _ _ => type ≠ LType.VAR

/-- A stored node answers a request. -/
def Request.accepts (n : Node) : Request → Bool
  | Request.var str => eq n LType.VAR str none none
  | Request.op type c0 c1 => eq n type "" c0 c1

/-- The zeroed node allocated for a request that finds no node (lines
326-329 and 352-356). -/
def Request.node : Request → Node
  | Request.var str => ⟨LType.VAR, 0, str, none, none⟩
  | Request.op type c0 c1 => ⟨type, 0, "", c0, c1⟩

/-- A sequence of requests, with the nodes returned. -/
def run (addr : Nat → Nat) : Mgr → List Request → Option (Mgr × List Nat)
  | mgr, [] => some (mgr, [])
  | mgr, r :: rest =>
    match request addr mgr r with
    | none => none
    | some (mgr1, n) =>
      match run addr mgr1 rest with
      | none => none
      | some (mgr2, ns) => some (mgr2, n :: ns)

/-- The state of the table is consistent: the array has `nodes_size` chains,
`nodes_count` counts the allocated nodes and does not exceed `nodes_size`,
every chain entry is an allocated node whose hash is the number of the chain,
every allocated node is in the chains exactly once, and no two distinct
allocated nodes are equal under `eq`. -/
structure Inv (addr : Nat → Nat) (mgr : Mgr) : Prop where
  size_pos : 0 < mgr.nodes_size
  size_lt : mgr.nodes_size < UINT_MOD
  length_nodes : mgr.nodes.length = mgr.nodes_size
  count_eq : mgr.nodes_count = mgr.inserted.length
  count_le : mgr.nodes_count ≤ mgr.nodes_size
  bucket : ∀ (h : Nat) (chain : List Nat), mgr.nodes[h]? = some chain →
    ∀ p ∈ chain, ∃ n, mgr.inserted[p]? = some n ∧ node_hash addr mgr.nodes_size n = h
  once : List.Perm mgr.nodes.flatten (List.range mgr.inserted.length)
  unique : ∀ (i j : Nat) (n m : Node), mgr.inserted[i]? = some n → mgr.inserted[j]? = some m →
    node_eq n m = true → i = j

/-- States reached from `init` by proper requests, made while fewer than
2^31 nodes are allocated (so that `nodes_size * 2` fits into `unsigned`). -/
inductive Reach (addr : Nat → Nat) : Mgr → Prop where
  | init : Reach addr init
  | step (mgr mgr1 : Mgr) (r : Request) (n : Nat) : Reach addr mgr → r.proper →
      2 * mgr.inserted.length < UINT_MOD → request addr mgr r = some (mgr1, n) →
      Reach addr mgr1

/-- A sample sequence of requests: `a`, `b`, `a & b`, `c` and `a` again. -/
def sample_requests : List Request :=
  [Request.var "a", Request.var "b", Request.op LType.AND (some 0) (some 1), Request.var "c",
   Request.var "a"]

end Hashed

end Limboole

namespace Atpg

/-! ## Theorems -/

theorem budget_of_table_cases (S : Nat) :
    (S ≤ 800 ∧ budget_of_table S budget_table = 1500000)
    ∨ (800 < S ∧ S ≤ 1000 ∧ budget_of_table S budget_table = 1200000)
    ∨ (1000 < S ∧ S ≤ 1500 ∧ budget_of_table S budget_table = 800000)
    ∨ (1500 < S ∧ S ≤ 2000 ∧ budget_of_table S budget_table = 700000)
    ∨ (2000 < S ∧ S ≤ 3000 ∧ budget_of_table S budget_table = 600000)
    ∨ (3000 < S ∧ S ≤ 4000 ∧ budget_of_table S budget_table = 500000)
    ∨ (4000 < S ∧ S ≤ 6000 ∧ budget_of_table S budget_table = 300000)
    ∨ (6000 < S ∧ S ≤ 8000 ∧ budget_of_table S budget_table = 200000)
    ∨ (8000 < S ∧ S ≤ 10000 ∧ budget_of_table S budget_table = 100000)
    ∨ (10000 < S ∧ S ≤ 12000 ∧ budget_of_table S budget_table = 50000)
    ∨ (12000 < S ∧ budget_of_table S budget_table = 10000) := by
  simp only [budget_of_table, budget_table]
  split_ifs <;> simp <;> omega

theorem set_propagation_limits_eq_table (S : Nat) :
    set_propagation_limits S = ⟨budget_of_table S budget_table, budget_of_table S budget_table⟩ := by
  simp only [set_propagation_limits, budget_of_table, budget_table]
  by_cases h0 : S ≤ 800
  · simp only [if_pos h0]
  · simp only [if_neg h0]
    by_cases h1 : S ≤ 1000
    · simp only [if_pos h1]
    · simp only [if_neg h1]
      by_cases h2 : S ≤ 1500
      · simp only [if_pos h2]
      · simp only [if_neg h2]
        by_cases h3 : S ≤ 2000
        · simp only [if_pos h3]
        · simp only [if_neg h3]
          by_cases h4 : S ≤ 3000
          · simp only [if_pos h4]
          · simp only [if_neg h4]
            by_cases h5 : S ≤ 4000
            · simp only [if_pos h5]
            · simp only [if_neg h5]
              by_cases h6 : S ≤ 6000
              · simp only [if_pos h6]
              · simp only [if_neg h6]
                by_cases h7 : S ≤ 8000
                · simp only [if_pos h7]
                · simp only [if_neg h7]
                  by_cases h8 : S ≤ 10000
                  · simp only [if_pos h8]
                  · simp only [if_neg h8]
                    by_cases h9 : S ≤ 12000
                    · simp only [if_pos h9]
                    · simp only [if_neg h9]

theorem budget_of_table_antitone {S T : Nat} (h : S ≤ T) :
    budget_of_table T budget_table ≤ budget_of_table S budget_table := by
  have hS := budget_of_table_cases S
  have hT := budget_of_table_cases T
  omega

/-- C5: `set_propagation_limits S` stores in both budgets the value of the
specification's table (1,500,000 for `S ≤ 800`, ..., 50,000 for `S ≤ 12000`,
10,000 otherwise), the budget is non-increasing in `S`, and
`allocate_atpg_info_pointers` uses the table exactly when
`propagation_limit_specified` is zero and stores `options.propagation_limit`
(as an `unsigned int`, hence unchanged when it is a non-negative `int`) into
both budgets otherwise. -/
theorem C5_default_budget_table (o : Options) (S T : Nat) :
    (set_propagation_limits S).ATPG_PROPAGATION_LIMIT = budget_of_table S budget_table
    ∧ (set_propagation_limits S).GLOBAL_FLOW_PROPAGATION_LIMIT = budget_of_table S budget_table
    ∧ (S ≤ 800 → budget_of_table S budget_table = 1500000)
    ∧ (800 < S → S ≤ 1000 → budget_of_table S budget_table = 1200000)
    ∧ (1000 < S → S ≤ 1500 → budget_of_table S budget_table = 800000)
    ∧ (1500 < S → S ≤ 2000 → budget_of_table S budget_table = 700000)
    ∧ (2000 < S → S ≤ 3000 → budget_of_table S budget_table = 600000)
    ∧ (3000 < S → S ≤ 4000 → budget_of_table S budget_table = 500000)
    ∧ (4000 < S → S ≤ 6000 → budget_of_table S budget_table = 300000)
    ∧ (6000 < S → S ≤ 8000 → budget_of_table S budget_table = 200000)
    ∧ (8000 < S → S ≤ 10000 → budget_of_table S budget_table = 100000)
    ∧ (10000 < S → S ≤ 12000 → budget_of_table S budget_table = 50000)
    ∧ (12000 < S → budget_of_table S budget_table = 10000)
    ∧ (S ≤ T → (set_propagation_limits T).ATPG_PROPAGATION_LIMIT
          ≤ (set_propagation_limits S).ATPG_PROPAGATION_LIMIT)
    ∧ (o.propagation_limit_specified = 0 →
          allocate_atpg_info_pointers_limits o S = set_propagation_limits S)
    ∧ (o.propagation_limit_specified ≠ 0 →
          allocate_atpg_info_pointers_limits o S
            = ⟨int_to_unsigned o.propagation_limit, int_to_unsigned o.propagation_limit⟩)
    ∧ (0 ≤ o.propagation_limit → o.propagation_limit < 2 ^ 31 →
          (int_to_unsigned o.propagation_limit : Int) = o.propagation_limit) := by
  have htab := set_propagation_limits_eq_table S
  have hS := budget_of_table_cases S
  refine ⟨by rw [htab], by rw [htab], ?_, ?_, ?_, ?_, ?_, ?_, ?_, ?_, ?_, ?_, ?_, ?_, ?_, ?_, ?_⟩
  · intro h; omega
  · intro h1 h2; omega
  · intro h1 h2; omega
  · intro h1 h2; omega
  · intro h1 h2; omega
  · intro h1 h2; omega
  · intro h1 h2; omega
  · intro h1 h2; omega
  · intro h1 h2; omega
  · intro h1 h2; omega
  · intro h; omega
  · intro h
    rw [set_propagation_limits_eq_table S, set_propagation_limits_eq_table T]
    exact budget_of_table_antitone h
  · intro h; simp [allocate_atpg_info_pointers_limits, h]
  · intro h; simp [allocate_atpg_info_pointers_limits, h]
  · intro h0 h1
    unfold int_to_unsigned UINT_MOD
    have h2 : o.propagation_limit % ((2 ^ 32 : Nat) : Int) = o.propagation_limit := by
      apply Int.emod_eq_of_lt h0
      norm_num
      omega
    rw [h2]
    exact Int.toNat_of_nonneg h0

/-! ## Theorems: partial correctness rules -/

theorem bind_ok {α β : Type} {x : M α} {f : α → M β} {b : β} :
    (x >>= f) = Except.ok b ↔ ∃ a, x = Except.ok a ∧ f a = Except.ok b := by
  cases x with
  | error e => simp [bind, Except.bind]
  | ok a => simp [bind, Except.bind]

theorem pure_ok {α : Type} {a b : α} : (pure a : M α) = Except.ok b ↔ a = b := by
  simp [pure, Except.pure]

theorem throw_ok {α : Type} {e : Err} {b : α} : (throw e : M α) = Except.ok b ↔ False := by
  simp [throw, throwThe, MonadExceptOf.throw]

theorem isOk_exists {α : Type} {x : M α} (h : x.toBool = true) : ∃ a, x = Except.ok a := by
  cases x with
  | error e => simp [Except.toBool] at h
  | ok a => exact ⟨a, rfl⟩

theorem Tri_pure {α : Type} {a : α} {Q : α → Prop} (h : Q a) : Tri (pure a) Q := by
  intro b hb
  rw [pure_ok] at hb
  exact hb ▸ h

theorem Tri_ok {α : Type} {a : α} {Q : α → Prop} (h : Q a) : Tri (Except.ok a) Q := by
  intro b hb
  cases hb
  exact h

theorem Tri_throw {α : Type} {e : Err} {Q : α → Prop} : Tri (throw e) Q := by
  intro b hb
  exact (throw_ok.mp hb).elim

theorem Tri_bind {α β : Type} {x : M α} {f : α → M β} {P : α → Prop} {Q : β → Prop}
    (hx : Tri x P) (hf : ∀ a, P a → Tri (f a) Q) : Tri (x >>= f) Q := by
  intro b hb
  obtain ⟨a, ha, hfa⟩ := bind_ok.mp hb
  exact hf a (hx a ha) b hfa

theorem Tri_seq {α β : Type} {x : M α} {f : α → M β} (P : α → Prop) {Q : β → Prop}
    (hx : Tri x P) (hf : ∀ a, P a → Tri (f a) Q) : Tri (x >>= f) Q :=
  Tri_bind hx hf

theorem Tri_read {α β : Type} {x : M α} {f : α → M β} {Q : β → Prop}
    (hf : ∀ a, Tri (f a) Q) : Tri (x >>= f) Q :=
  Tri_bind (fun _ _ => trivial) (fun a _ => hf a)

theorem Tri_mono {α : Type} {x : M α} {P Q : α → Prop} (hx : Tri x P) (h : ∀ a, P a → Q a) :
    Tri x Q :=
  fun a ha => h a (hx a ha)

theorem Tri_ite {α : Type} {c : Prop} [Decidable c] {x y : M α} {Q : α → Prop}
    (hx : c → Tri x Q) (hy : ¬ c → Tri y Q) : Tri (if c then x else y) Q := by
  by_cases h : c
  · rw [if_pos h]; exact hx h
  · rw [if_neg h]; exact hy h

theorem Tri_and {α : Type} {x : M α} {P Q : α → Prop} (h1 : Tri x P) (h2 : Tri x Q) :
    Tri x (fun a => P a ∧ Q a) :=
  fun a ha => ⟨h1 a ha, h2 a ha⟩

/-! ## Theorems: functions that leave the counters, the flags and the history alone -/

theorem modify_node_info_core (s : Nenofex) (n : Nat) (f : ATPGInfo → ATPGInfo) :
    Tri (modify_node_info s n f) (fun s' => core s' = core s) := by
  unfold modify_node_info
  exact Tri_read fun i => Tri_read fun a => Tri_pure rfl

theorem mark_fault_node_as_deleted_core (s : Nenofex) (f : Nat) :
    Tri (mark_fault_node_as_deleted s f) (fun s' => core s' = core s) := by
  unfold mark_fault_node_as_deleted
  exact Tri_read fun fn => Tri_pure rfl

theorem var_unassign_core (s : Nenofex) (v : Nat) :
    Tri (var_unassign s v) (fun s' => core s' = core s) := by
  unfold var_unassign
  exact Tri_read fun x => Tri_pure rfl

theorem collect_assigned_node_core (s : Nenofex) (n : Nat) :
    Tri (collect_assigned_node s n) (fun s' => core s' = core s) := by
  unfold collect_assigned_node
  exact Tri_read fun i => Tri_read fun a => Tri_ite (fun _ => Tri_pure rfl) (fun _ => Tri_pure rfl)

theorem collect_fault_path_node_core (s : Nenofex) (n : Nat) :
    Tri (collect_fault_path_node s n) (fun s' => core s' = core s) := by
  unfold collect_fault_path_node
  exact Tri_read fun i => Tri_read fun a => Tri_ite (fun _ => Tri_pure rfl) (fun _ => Tri_pure rfl)

theorem clean_up_watcher_atpg_child_list_core (s : Nenofex) (i : Nat) :
    Tri (clean_up_watcher_atpg_child_list s i) (fun s' => core s' = core s) := by
  unfold clean_up_watcher_atpg_child_list
  exact Tri_read fun a => Tri_read fun ch => Tri_read fun r => Tri_pure rfl

theorem update_watcher_by_watcher_list_core (s : Nenofex) (n : Nat) :
    Tri (update_watcher_by_watcher_list s n) (fun s' => core s' = core s) := by
  unfold update_watcher_by_watcher_list
  refine Tri_read fun i => Tri_read fun a => Tri_read fun w => Tri_read fun b => ?_
  refine Tri_ite (fun _ => ?_) (fun _ => Tri_pure rfl)
  exact Tri_read fun ch => Tri_read fun pos => Tri_read fun r =>
    Tri_ite (fun _ => Tri_pure rfl) (fun _ => Tri_pure rfl)

theorem update_watcher_by_child_list_core (s : Nenofex) (n : Nat) :
    Tri (update_watcher_by_child_list s n) (fun s' => core s' = core s) := by
  unfold update_watcher_by_child_list
  refine Tri_read fun i => Tri_read fun a => Tri_read fun w => Tri_read fun b => ?_
  exact Tri_ite (fun _ => Tri_read fun after => Tri_read fun w2 => Tri_pure rfl)
    (fun _ => Tri_pure rfl)

theorem init_counter_and_watcher_core (s : Nenofex) (n : Nat) :
    Tri (init_counter_and_watcher s n) (fun s' => core s' = core s) := by
  unfold init_counter_and_watcher
  refine Tri_read fun i => Tri_read fun a => ?_
  split
  · refine Tri_seq (fun s1 => core s1 = core s) ?_ (fun s1 h1 => ?_)
    · exact Tri_ite (fun _ => clean_up_watcher_atpg_child_list_core _ _) (fun _ => Tri_pure rfl)
    · exact Tri_read fun a1 => Tri_read fun ch => Tri_read fun w => Tri_pure h1
  · exact Tri_read fun nd => Tri_pure rfl

theorem update_counter_and_watcher_core (s : Nenofex) (n : Nat) :
    Tri (update_counter_and_watcher s n) (fun s' => core s' = core s) := by
  unfold update_counter_and_watcher
  refine Tri_read fun i => Tri_read fun a => ?_
  split
  · exact update_watcher_by_watcher_list_core _ _
  · exact update_watcher_by_child_list_core _ _

theorem Tri_core_trans {x : M Nenofex} {s1 s : Nenofex}
    (hx : Tri x (fun s' => core s' = core s1)) (h1 : core s1 = core s) :
    Tri x (fun s' => core s' = core s) :=
  Tri_mono hx (fun _ h => h.trans h1)

theorem push_unassigned_children_core (l : List Nat) :
    ∀ s, Tri (push_unassigned_children s l) (fun s' => core s' = core s) := by
  induction l with
  | nil => intro s; exact Tri_pure rfl
  | cons ch rest ih =>
    intro s
    unfold push_unassigned_children
    refine Tri_read fun b => ?_
    split
    · exact ih s
    · exact Tri_core_trans (ih _) rfl

theorem path_nodes_loop_core (mark collect : Bool) (lvl : Nat) (fuel : Nat) :
    ∀ s n, Tri (path_nodes_loop mark collect lvl fuel s n) (fun s' => core s' = core s) := by
  induction fuel with
  | zero => intro s n; unfold path_nodes_loop; exact Tri_throw
  | succ fuel ih =>
    intro s n
    unfold path_nodes_loop
    refine Tri_seq (fun s1 => core s1 = core s) ?_ (fun s1 h1 => ?_)
    · exact Tri_ite (fun _ => collect_fault_path_node_core _ _) (fun _ => Tri_pure rfl)
    refine Tri_bind (modify_node_info_core _ _ _) (fun s2 h2 => ?_)
    refine Tri_read fun nd => ?_
    split
    · exact Tri_pure (h2.trans h1)
    · refine Tri_read fun pnd => Tri_ite (fun _ => ?_) (fun _ => Tri_pure (h2.trans h1))
      exact Tri_core_trans (ih _ _) (h2.trans h1)

theorem mark_path_nodes_core (fuel : Nat) (s : Nenofex) (n : Nat) :
    Tri (mark_path_nodes fuel s n) (fun s' => core s' = core s) := by
  unfold mark_path_nodes
  exact Tri_read fun lca => Tri_read fun lnd => path_nodes_loop_core _ _ _ _ _ _

theorem unmark_path_nodes_core (fuel : Nat) (s : Nenofex) (n : Nat) (c : Bool) :
    Tri (unmark_path_nodes fuel s n c) (fun s' => core s' = core s) := by
  unfold unmark_path_nodes
  exact Tri_read fun lca => Tri_read fun lnd => path_nodes_loop_core _ _ _ _ _ _

theorem unassign_all_core (l : List Nat) :
    ∀ s, Tri (unassign_all s l) (fun s' => core s' = core s) := by
  induction l with
  | nil => intro s; exact Tri_pure rfl
  | cons v rest ih =>
    intro s
    unfold unassign_all
    exact Tri_bind (var_unassign_core _ _) (fun s1 h1 => Tri_core_trans (ih _) h1)

theorem reset_touched_variables_core (s : Nenofex) :
    Tri (reset_touched_variables s) (fun s' => core s' = core s) := by
  unfold reset_touched_variables
  refine Tri_bind (unassign_all_core _ _) (fun s1 h1 => ?_)
  refine Tri_bind (unassign_all_core _ _) (fun s3 h3 => ?_)
  exact Tri_pure (h3.trans h1)

theorem reset_touched_nodes_loop_core (l : List Nat) :
    ∀ s, Tri (reset_touched_nodes_loop s l) (fun s' => core s' = core s) := by
  induction l with
  | nil => intro s; exact Tri_pure rfl
  | cons i rest ih =>
    intro s
    unfold reset_touched_nodes_loop
    refine Tri_read fun a => Tri_read fun f => Tri_read fun fn => ?_
    refine Tri_ite (fun _ => ih s) (fun _ => ?_)
    refine Tri_read fun nd => Tri_read fun na => ?_
    refine Tri_ite (fun _ => ?_) (fun _ => ?_)
    · refine Tri_read fun a2 => ?_
      refine Tri_ite (fun _ => ?_) (fun _ => ?_)
      · exact Tri_bind (init_counter_and_watcher_core _ _) (fun s1 h1 => Tri_core_trans (ih _) h1)
      · exact Tri_core_trans (ih _) rfl
    · exact Tri_bind (init_counter_and_watcher_core _ _) (fun s1 h1 => Tri_core_trans (ih _) h1)

theorem reset_touched_nodes_core (s : Nenofex) :
    Tri (reset_touched_nodes s) (fun s' => core s' = core s) := by
  unfold reset_touched_nodes
  exact Tri_bind (reset_touched_nodes_loop_core _ _) (fun s1 h1 => Tri_pure h1)

theorem set_neg_occs_core (s : Nenofex) (v : Nat) (o : List Nat) :
    Tri (set_neg_occs s v o) (fun s' => core s' = core s) := by
  unfold set_neg_occs
  exact Tri_read fun x => Tri_pure rfl

theorem set_pos_occs_core (s : Nenofex) (v : Nat) (o : List Nat) :
    Tri (set_pos_occs s v o) (fun s' => core s' = core s) := by
  unfold set_pos_occs
  exact Tri_read fun x => Tri_pure rfl

theorem set_result_for_root_core (s : Nenofex) (n : Nat) :
    Tri (set_result_for_root s n) (fun s' => core s' = core s) := by
  unfold set_result_for_root
  refine Tri_ite (fun _ => Tri_read fun rnd => ?_) (fun _ => Tri_pure rfl)
  by_cases h : rnd.type = NodeType.OR
  · rw [if_pos h]; exact Tri_pure rfl
  · rw [if_neg h]; exact Tri_pure rfl

theorem delete_redundant_subformula_core {api : GraphAPI} (hapi : APIFrame api)
    (s : Nenofex) (n : Nat) :
    Tri (delete_redundant_subformula api s n) (fun s' => core s' = core s) := by
  unfold delete_redundant_subformula
  exact Tri_bind (set_result_for_root_core _ _)
    (fun s1 h1 => Tri_core_trans (hapi.remove_and_free_subformula _ _) h1)

theorem remove_child_from_watcher_list_core (s : Nenofex) (p c : Nat) :
    Tri (remove_child_from_watcher_list s p c) (fun s' => core s' = core s) := by
  unfold remove_child_from_watcher_list
  refine Tri_read fun i => Tri_read fun a => Tri_read fun ch => ?_
  refine Tri_ite (fun _ => Tri_throw) (fun _ => ?_)
  exact Tri_ite (fun _ => Tri_pure rfl) (fun _ => Tri_read fun last => Tri_pure rfl)

theorem assign_node_atpg_info_core (s : Nenofex) (n : Nat) :
    Tri (assign_node_atpg_info s n) (fun s' => core s' = core s) := by
  unfold assign_node_atpg_info
  refine Tri_read fun cur => Tri_read fun e => ?_
  refine Tri_ite (fun _ => Tri_throw) (fun _ => ?_)
  refine Tri_read fun nd => Tri_read fun a => ?_
  exact Tri_ite (fun _ => Tri_pure rfl) (fun _ => Tri_pure rfl)

theorem push_watcher_entry_core (s : Nenofex) (i : Nat) (ia : ATPGInfo) (n : Nat) :
    Tri (push_watcher_entry s i ia n) (fun s' => core s' = core s) := by
  unfold push_watcher_entry
  split
  · exact Tri_read fun fa => Tri_read fun ff => Tri_pure rfl
  · exact Tri_pure rfl

theorem unlink_and_add_implication_core {api : GraphAPI} (hapi : APIFrame api)
    (s : Nenofex) (n at_ : Nat) :
    Tri (unlink_and_add_implication api s n at_) (fun s' => core s' = core s) := by
  unfold unlink_and_add_implication
  refine Tri_read fun fnd => Tri_read fun p => Tri_read fun pa => Tri_read fun fault_parent =>
    Tri_read fun fp => Tri_read fun fpa => ?_
  refine Tri_seq (fun s1 => core s1 = core s) ?_ (fun s1 h1 => ?_)
  · split
    · exact remove_child_from_watcher_list_core _ _ _
    · exact Tri_pure rfl
  refine Tri_bind (hapi.unlink_node _ _) (fun s2 h2 => ?_)
  refine Tri_read fun fnd2 => ?_
  refine Tri_bind (hapi.update_size_subformula _ _ _) (fun s3 h3 => ?_)
  refine Tri_bind (hapi.add_node_to_child_list _ _ _) (fun s4 h4 => ?_)
  refine Tri_read fun fnd3 => Tri_read fun newp => ?_
  refine Tri_bind (hapi.update_size_subformula _ _ _) (fun s5 h5 => ?_)
  refine Tri_bind (hapi.update_level _ _) (fun s6 h6 => ?_)
  refine Tri_read fun fnd4 => ?_
  have e6 : core s6 = core s := h6.trans (h5.trans (h4.trans (h3.trans (h2.trans h1))))
  refine Tri_seq (fun s7 => core s7 = core s) ?_ (fun s7 h7 => ?_)
  · exact Tri_ite (fun _ => Tri_core_trans (hapi.simplify_one_level _ _) e6)
      (fun _ => Tri_pure e6)
  refine Tri_read fun fp2 => ?_
  refine Tri_ite (fun _ => ?_) (fun _ => Tri_pure h7)
  refine Tri_read fun fpn => ?_
  refine Tri_ite (fun _ => ?_) (fun _ => Tri_pure h7)
  refine Tri_read fun first => Tri_read fun first_nd => ?_
  refine Tri_seq (fun s8 => core s8 = core s) ?_
    (fun s8 h8 => Tri_core_trans (hapi.merge_parent _ _) h8)
  exact Tri_ite (fun _ => Tri_core_trans (hapi.update_size_subformula _ _ _) h7)
    (fun _ => Tri_core_trans (hapi.update_size_subformula _ _ _) h7)

theorem apply_transformation_core {api : GraphAPI} (hapi : APIFrame api)
    (s : Nenofex) (n at_ : Nat) :
    Tri (apply_transformation api s n at_) (fun s' => core s' = core s) := by
  unfold apply_transformation
  refine Tri_read fun ia => Tri_read fun iaf => ?_
  refine Tri_bind (unlink_and_add_implication_core hapi _ _ _) (fun s1 h1 => ?_)
  refine Tri_read fun iafn => ?_
  refine Tri_ite (fun _ => ?_) (fun _ => Tri_pure h1)
  refine Tri_read fun i => Tri_read fun ia2 => ?_
  refine Tri_bind (push_watcher_entry_core _ _ _ _) (fun s2 h2 => ?_)
  exact Tri_core_trans (init_counter_and_watcher_core _ _) (h2.trans h1)

theorem set_up_parent_watcher_list_core (s : Nenofex) (at_ : Nat) (ind : Node) (hf : Nat) :
    Tri (set_up_parent_watcher_list s at_ ind hf) (fun s' => core s' = core s) := by
  unfold set_up_parent_watcher_list
  split
  · refine Tri_bind (assign_node_atpg_info_core _ _) (fun s1 h1 => ?_)
    exact Tri_read fun i => Tri_read fun ia => Tri_pure h1
  · exact Tri_read fun ia => Tri_read fun _ => Tri_pure rfl

theorem new_node_core {api : GraphAPI} (hapi : APIFrame api) (s : Nenofex) (c : Prop)
    [Decidable c] :
    Tri (if c then api.or_node s else api.and_node s) (fun r => core r.1 = core s) :=
  Tri_ite (fun _ => hapi.or_node s) (fun _ => hapi.and_node s)

theorem transform_core {api : GraphAPI} (hapi : APIFrame api) (s : Nenofex) (n h : Nat) :
    Tri (transform_subformula_by_global_flow_implication api s n h)
      (fun s' => core s' = core s) := by
  unfold transform_subformula_by_global_flow_implication
  refine Tri_read fun fa => Tri_read fun hnd => ?_
  refine Tri_ite (fun _ => ?_) (fun _ => Tri_ite (fun _ => ?_) (fun _ => Tri_ite (fun _ => ?_)
    (fun _ => ?_)))
  · -- CASE 1
    refine Tri_ite (fun _ => ?_) (fun _ => ?_)
    · refine Tri_bind (collect_fault_path_node_core _ _) (fun s1 h1 => ?_)
      refine Tri_bind (new_node_core hapi _ _) (fun r h2 => ?_)
      obtain ⟨s2, at_⟩ := r
      refine Tri_read fun root => ?_
      refine Tri_bind (hapi.add_node_to_child_list _ _ _) (fun s3 h3 => ?_)
      refine Tri_bind (hapi.update_level _ _) (fun s4 h4 => ?_)
      refine Tri_read fun rnd => ?_
      refine Tri_bind (hapi.update_size_subformula _ _ _) (fun s5 h5 => ?_)
      refine Tri_bind (assign_node_atpg_info_core _ _) (fun s6 h6 => ?_)
      refine Tri_read fun ia => Tri_read fun iaf => ?_
      refine Tri_bind (hapi.reset_changed_lca_object _) (fun s7 h7 => ?_)
      refine Tri_read fun ind => Tri_read fun first => ?_
      refine Tri_bind (hapi.add_changed_lca_child _ _) (fun s8 h8 => ?_)
      refine Tri_bind (hapi.add_changed_lca_child _ _) (fun s9 h9 => ?_)
      have e7 : core s7 = core s :=
        h7.trans (h6.trans (h5.trans (h4.trans (h3.trans (h2.trans h1)))))
      exact Tri_core_trans (apply_transformation_core hapi _ _ _) (h9.trans (h8.trans e7))
    · refine Tri_bind (hapi.add_changed_lca_child _ _) (fun s1 h1 => ?_)
      exact Tri_core_trans (apply_transformation_core hapi _ _ _) h1
  · -- CASE 2
    refine Tri_ite (fun _ => ?_) (fun _ => ?_)
    · refine Tri_read fun at_ => ?_
      refine Tri_bind (collect_fault_path_node_core _ _) (fun s1 h1 => ?_)
      refine Tri_read fun ind => Tri_read fun ha => Tri_read fun hf => ?_
      refine Tri_bind (set_up_parent_watcher_list_core _ _ _ _) (fun s2 h2 => ?_)
      refine Tri_read fun ia => Tri_read fun iaf => Tri_read fun tmp => ?_
      refine Tri_bind (hapi.reset_changed_lca_object _) (fun s3 h3 => ?_)
      refine Tri_bind (hapi.add_changed_lca_child _ _) (fun s4 h4 => ?_)
      refine Tri_bind (hapi.add_changed_lca_child _ _) (fun s5 h5 => ?_)
      have e3 : core s3 = core s := h3.trans (h2.trans h1)
      exact Tri_core_trans (apply_transformation_core hapi _ _ _) (h5.trans (h4.trans e3))
    · refine Tri_bind (hapi.add_changed_lca_child _ _) (fun s1 h1 => ?_)
      exact Tri_core_trans (apply_transformation_core hapi _ _ _) h1
  · -- CASE 3
    refine Tri_ite (fun _ => ?_) (fun _ => apply_transformation_core hapi _ _ _)
    refine Tri_read fun at_ => ?_
    refine Tri_bind (collect_fault_path_node_core _ _) (fun s1 h1 => ?_)
    refine Tri_bind (hapi.add_changed_lca_child _ _) (fun s2 h2 => ?_)
    exact Tri_core_trans (apply_transformation_core hapi _ _ _) (h2.trans h1)
  · -- CASE 4
    refine Tri_ite (fun _ => ?_) (fun _ => apply_transformation_core hapi _ _ _)
    refine Tri_bind (collect_fault_path_node_core _ _) (fun s1 h1 => ?_)
    refine Tri_read fun at_ => ?_
    exact Tri_core_trans (apply_transformation_core hapi _ _ _) h1

theorem collect_implication_path_loop_core (lvl : Nat) (fuel : Nat) :
    ∀ s n, Tri (collect_implication_path_loop lvl fuel s n) (fun s' => core s' = core s) := by
  induction fuel with
  | zero => intro s n; unfold collect_implication_path_loop; exact Tri_throw
  | succ fuel ih =>
    intro s n
    unfold collect_implication_path_loop
    refine Tri_bind (collect_fault_path_node_core _ _) (fun s1 h1 => ?_)
    refine Tri_read fun cnd => Tri_read fun p => Tri_read fun pnd => ?_
    exact Tri_ite (fun _ => Tri_core_trans (ih _ _) h1) (fun _ => Tri_pure h1)

theorem collect_implication_path_nodes_core (fuel : Nat) (s : Nenofex) (n h : Nat) :
    Tri (collect_implication_path_nodes fuel s n h) (fun s' => core s' = core s) := by
  unfold collect_implication_path_nodes
  exact Tri_read fun ind => Tri_read fun cur => Tri_read fun hnd =>
    collect_implication_path_loop_core _ _ _ _

theorem mark_implicant_loop_core {api : GraphAPI} (hapi : APIFrame api) (fuel : Nat) :
    ∀ s l, Tri (mark_implicant_loop api fuel s l) (fun s' => core s' = core s) := by
  induction fuel with
  | zero => intro s l; unfold mark_implicant_loop; exact Tri_throw
  | succ fuel ih =>
    intro s l
    unfold mark_implicant_loop
    split
    · exact Tri_pure rfl
    · refine Tri_read fun nd => Tri_ite (fun _ => ?_) (fun _ => ih _ _)
      refine Tri_read fun lit => Tri_read fun var => ?_
      refine Tri_bind (hapi.collect_variable_for_update _ _) (fun s1 h1 => ?_)
      exact Tri_core_trans (ih _ _) h1

theorem mark_implicant_variables_for_update_core {api : GraphAPI} (hapi : APIFrame api)
    (fuel : Nat) (s : Nenofex) (n : Nat) :
    Tri (mark_implicant_variables_for_update api fuel s n) (fun s' => core s' = core s) :=
  mark_implicant_loop_core hapi _ _ _

theorem clean_up_after_trial_core (s : Nenofex) :
    Tri (clean_up_after_trial s) (fun s' => core s' = core s) := by
  unfold clean_up_after_trial
  refine Tri_ite (fun _ => ?_) (fun _ => Tri_pure rfl)
  exact Tri_bind (reset_touched_variables_core _)
    (fun s1 h1 => Tri_core_trans (reset_touched_nodes_core _) h1)

/-! ## Theorems: the phase invariant -/

theorem core_cutoff {s s' : Nenofex} (h : core s' = core s) :
    s'.atpg_rr.prop_cutoff = s.atpg_rr.prop_cutoff :=
  congrArg Core.prop_cutoff h

theorem core_trace {s s' : Nenofex} (h : core s' = core s) :
    s'.atpg_rr.trace = s.atpg_rr.trace :=
  congrArg Core.trace h

theorem core_step_sum {s s' : Nenofex} (h : core s' = core s) : step_sum s' = step_sum s := by
  have h1 := congrArg Core.fwd h
  have h2 := congrArg Core.bwd h
  simp only [core] at h1 h2
  simp only [step_sum, h1, h2]

theorem core_active_limit {s s' : Nenofex} (h : core s' = core s) :
    active_limit s' = active_limit s := by
  have h1 := congrArg Core.gfo h
  have h2 := congrArg Core.limits h
  simp only [core] at h1 h2
  simp only [active_limit, h1, h2]

theorem Inv_of_core {b : Prop} {L : Nat} {T : List Event} {s s' : Nenofex}
    (hI : Inv b L T s) (h : core s' = core s) : Inv b L T s' := by
  refine ⟨(core_active_limit h).trans hI.lim, ?_, fun hb => ⟨(hI.bud hb).1, ?_⟩⟩
  · rw [core_trace h, core_cutoff h]; exact hI.ext
  · have := (hI.bud hb).2
    unfold stABC at this ⊢
    rw [core_cutoff h, core_step_sum h]; exact this

theorem InvA_of_core {b : Prop} {L : Nat} {T : List Event} {s s' : Nenofex}
    (hI : InvA b L T s) (h : core s' = core s) : InvA b L T s' :=
  ⟨Inv_of_core hI.1 h, fun hb => (core_cutoff h).trans (hI.2 hb)⟩

theorem InvB_of_core {b : Prop} {L : Nat} {T : List Event} {s s' : Nenofex}
    (hI : InvB b L T s) (h : core s' = core s) : InvB b L T s' :=
  ⟨Inv_of_core hI.1 h, fun hb => (core_step_sum h).le.trans (hI.2 hb)⟩

theorem InvA_toB {b : Prop} {L : Nat} {T : List Event} {s : Nenofex}
    (hI : InvA b L T s) : InvB b L T s := by
  refine ⟨hI.1, fun hb => ?_⟩
  have h1 := (hI.1.bud hb).2
  have h2 := hI.2 hb
  unfold stABC at h1
  rcases h1 with h1 | h1
  · omega
  · rw [h2] at h1; exact absurd h1.1 (by simp)

theorem Tri_quiet_InvA {b : Prop} {L : Nat} {T : List Event} {s : Nenofex} {x : M Nenofex}
    (hx : Tri x (fun s' => core s' = core s)) (hI : InvA b L T s) : Tri x (InvA b L T) :=
  Tri_mono hx (fun _ h => InvA_of_core hI h)

theorem Tri_quiet_Inv {b : Prop} {L : Nat} {T : List Event} {s : Nenofex} {x : M Nenofex}
    (hx : Tri x (fun s' => core s' = core s)) (hI : Inv b L T s) : Tri x (Inv b L T) :=
  Tri_mono hx (fun _ h => Inv_of_core hI h)

theorem Good_snoc {b : Prop} {L : Nat} {cut : Bool} {new : List Event} (e : Event)
    (h : Good b L cut new) (hu : EvU e) (hg : e.gated = true → cut = false)
    (ha : b → e.assigns = true → cut = false) (hr : e.raises = false)
    (hc : b → EvC L e) : Good b L cut (new ++ [e]) := by
  refine ⟨?_, ?_, ?_, ?_⟩
  · intro x hx
    rcases List.mem_append.mp hx with hx | hx
    · exact h.evu x hx
    · rw [List.mem_singleton.mp hx]; exact hu
  · unfold Sticky
    rw [List.pairwise_append]
    refine ⟨h.sticky, List.pairwise_singleton _ _, ?_⟩
    intro x hx y hy hxr
    rw [List.mem_singleton.mp hy]
    constructor
    · cases hge : e.gated with
      | false => rfl
      | true =>
        have := h.unraised (hg hge) x hx
        rw [this] at hxr; exact absurd hxr (by simp)
    · intro hb
      cases hae : e.assigns with
      | false => rfl
      | true =>
        have := h.unraised (ha hb hae) x hx
        rw [this] at hxr; exact absurd hxr (by simp)
  · intro hcut x hx
    rcases List.mem_append.mp hx with hx | hx
    · exact h.unraised hcut x hx
    · rw [List.mem_singleton.mp hx]; exact hr
  · intro hb x hx
    rcases List.mem_append.mp hx with hx | hx
    · exact h.evc hb x hx
    · rw [List.mem_singleton.mp hx]; exact hc hb

theorem Good_raise {b : Prop} {L : Nat} {cut : Bool} {new : List Event} (e : Event)
    (h : Good b L cut new) (hu : EvU e) (hg : e.gated = false) (ha : e.assigns = false)
    (hc : b → EvC L e) : Good b L true (new ++ [e]) := by
  refine ⟨?_, ?_, ?_, ?_⟩
  · intro x hx
    rcases List.mem_append.mp hx with hx | hx
    · exact h.evu x hx
    · rw [List.mem_singleton.mp hx]; exact hu
  · unfold Sticky
    rw [List.pairwise_append]
    refine ⟨h.sticky, List.pairwise_singleton _ _, ?_⟩
    intro x _ y hy _
    rw [List.mem_singleton.mp hy]
    exact ⟨hg, fun _ => ha⟩
  · intro hcut; exact absurd hcut (by simp)
  · intro hb x hx
    rcases List.mem_append.mp hx with hx | hx
    · exact h.evc hb x hx
    · rw [List.mem_singleton.mp hx]; exact hc hb

theorem Inv_log {b : Prop} {L : Nat} {T : List Event} {s : Nenofex} (e : Event)
    (hI : Inv b L T s) (hu : EvU e) (hg : e.gated = true → s.atpg_rr.prop_cutoff = false)
    (ha : b → e.assigns = true → s.atpg_rr.prop_cutoff = false) (hr : e.raises = false)
    (hc : b → EvC L e) : Inv b L T (log s e) := by
  obtain ⟨new, hnew, hgood⟩ := hI.ext
  refine ⟨hI.lim, ⟨new ++ [e], ?_, Good_snoc e hgood hu hg ha hr hc⟩, hI.bud⟩
  show s.atpg_rr.trace ++ [e] = T ++ (new ++ [e])
  rw [hnew, List.append_assoc]

theorem InvA_log {b : Prop} {L : Nat} {T : List Event} {s : Nenofex} (e : Event)
    (hI : InvA b L T s) (hu : EvU e) (hg : e.gated = true → s.atpg_rr.prop_cutoff = false)
    (hr : e.raises = false) (hc : b → EvC L e) : InvA b L T (log s e) :=
  ⟨Inv_log e hI.1 hu hg (fun hb _ => hI.2 hb) hr hc, hI.2⟩

theorem limit_exceeded_iff (s : Nenofex) :
    limit_exceeded s = true ↔
      active_limit s < (s.atpg_rr.stats.fwd_prop_cnt + s.atpg_rr.stats.bwd_prop_cnt) % UINT_MOD := by
  unfold limit_exceeded active_limit
  rw [Nat.add_comm s.atpg_rr.stats.bwd_prop_cnt]
  cases s.atpg_rr.global_flow_optimizing <;> simp

/-- One propagation step: the state `s1` is `s` with one of the two counters
incremented. -/
theorem Inv_step {b : Prop} {L : Nat} {T : List Event} {s s1 : Nenofex}
    (hI : InvB b L T s)
    (ht : s1.atpg_rr.trace = s.atpg_rr.trace)
    (hc : s1.atpg_rr.prop_cutoff = s.atpg_rr.prop_cutoff)
    (hl : active_limit s1 = active_limit s)
    (hsum : (s1.atpg_rr.stats.fwd_prop_cnt = (s.atpg_rr.stats.fwd_prop_cnt + 1) % UINT_MOD
              ∧ s1.atpg_rr.stats.bwd_prop_cnt = s.atpg_rr.stats.bwd_prop_cnt)
          ∨ (s1.atpg_rr.stats.bwd_prop_cnt = (s.atpg_rr.stats.bwd_prop_cnt + 1) % UINT_MOD
              ∧ s1.atpg_rr.stats.fwd_prop_cnt = s.atpg_rr.stats.fwd_prop_cnt)) :
    (limit_exceeded s1 = true →
        Inv b L T (log_step { s1 with atpg_rr.prop_cutoff := true } true))
    ∧ (limit_exceeded s1 = false → InvA b L T (log_step s1 false))
    ∧ (b → step_sum s1 = step_sum s + 1) := by
  obtain ⟨⟨hlim, ⟨new, hnew, hgood⟩, hbud⟩, hB⟩ := hI
  have hsum1 : b → step_sum s1 = step_sum s + 1 := by
    intro hb
    have h1 := (hbud hb).1
    have h2 := hB hb
    unfold step_sum at h2 ⊢
    unfold UINT_MOD at h1 hsum
    rcases hsum with ⟨h3, h4⟩ | ⟨h3, h4⟩
    · rw [h3, h4, Nat.mod_eq_of_lt (by omega)]; omega
    · rw [h3, h4, Nat.mod_eq_of_lt (by omega)]; omega
  have hmod : b → (s1.atpg_rr.stats.fwd_prop_cnt + s1.atpg_rr.stats.bwd_prop_cnt) % UINT_MOD
      = step_sum s + 1 := by
    intro hb
    have h1 := (hbud hb).1
    have h2 := hB hb
    have h3 : s1.atpg_rr.stats.fwd_prop_cnt + s1.atpg_rr.stats.bwd_prop_cnt = step_sum s + 1 :=
      hsum1 hb
    rw [h3]
    unfold UINT_MOD at h1 ⊢
    exact Nat.mod_eq_of_lt (by omega)
  refine ⟨?_, ?_, hsum1⟩
  · intro hex
    rw [limit_exceeded_iff] at hex
    refine ⟨hl.trans hlim, ⟨new ++ [Event.prop_step s1.atpg_rr.stats.fwd_prop_cnt
      s1.atpg_rr.stats.bwd_prop_cnt (active_limit s1) true], ?_,
      Good_raise _ hgood ?_ rfl rfl ?_⟩, ?_⟩
    · show s1.atpg_rr.trace ++ [_] = T ++ (new ++ [_])
      rw [ht, hnew, List.append_assoc]
      rfl
    · show (true = true ↔ _)
      simp only [true_iff]
      exact hex
    · intro hb
      show active_limit s1 = L ∧ _ ≤ L + 2
      have := hsum1 hb
      have h2 := hB hb
      unfold step_sum at this h2
      exact ⟨hl.trans hlim, by omega⟩
    · intro hb
      refine ⟨(hbud hb).1, Or.inr ⟨rfl, ?_⟩⟩
      have h3 := hsum1 hb
      have h4 := hmod hb
      have h2 := hB hb
      rw [h4, hl, hlim] at hex
      show L < step_sum s1 ∧ step_sum s1 ≤ L + 2
      omega
  · intro hex
    have hex2 : ¬ active_limit s1 <
        (s1.atpg_rr.stats.fwd_prop_cnt + s1.atpg_rr.stats.bwd_prop_cnt) % UINT_MOD := by
      rw [← limit_exceeded_iff, hex]; simp
    have hcut : b → s.atpg_rr.prop_cutoff = false := by
      intro hb
      have h4 := hmod hb
      rw [h4, hl, hlim] at hex2
      rcases (hbud hb).2 with h5 | h5
      · exact h5.1
      · omega
    refine ⟨⟨hl.trans hlim, ⟨new ++ [Event.prop_step s1.atpg_rr.stats.fwd_prop_cnt
      s1.atpg_rr.stats.bwd_prop_cnt (active_limit s1) false], ?_, ?_⟩, ?_⟩,
      fun hb => hc.trans (hcut hb)⟩
    · show s1.atpg_rr.trace ++ [_] = T ++ (new ++ [_])
      rw [ht, hnew, List.append_assoc]
    · show Good b L s1.atpg_rr.prop_cutoff _
      rw [hc]
      refine Good_snoc _ hgood ?_ (fun h => by cases h) (fun _ h => by cases h) rfl ?_
      · show (false = true ↔ _)
        simp only [Bool.false_eq_true, false_iff]
        exact hex2
      · intro hb
        show active_limit s1 = L ∧ _ ≤ L + 2
        have := hsum1 hb
        have h2 := hB hb
        unfold step_sum at this h2
        exact ⟨hl.trans hlim, by omega⟩
    · intro hb
      refine ⟨(hbud hb).1, Or.inl ⟨hc.trans (hcut hb), ?_⟩⟩
      have h4 := hmod hb
      have h3 := hsum1 hb
      rw [h4, hl, hlim] at hex2
      show step_sum s1 ≤ L
      omega

/-! ## Theorems: the invariant along assignments -/

theorem node_assign_inv {b : Prop} {L : Nat} {T : List Event} {s : Nenofex} (n : Nat)
    (v : ATPGAssignment) (hI : InvA b L T s) : Tri (node_assign s n v) (InvA b L T) := by
  unfold node_assign
  refine Tri_read fun i => Tri_read fun a => Tri_pure ?_
  have h1 : InvA b L T (set_info s i { a with assignment := v }) := InvA_of_core hI rfl
  exact InvA_log _ h1 trivial (fun h => by cases h) rfl (fun hb => hI.2 hb)

theorem var_assign_inv {b : Prop} {L : Nat} {T : List Event} {s : Nenofex} (v : Nat)
    (x : VarAssignment) (hI : InvA b L T s) : Tri (var_assign s v x) (InvA b L T) := by
  unfold var_assign
  refine Tri_read fun var => Tri_pure ?_
  have h1 : InvA b L T (set_var s v { var with assignment := x }) := InvA_of_core hI rfl
  exact InvA_log _ h1 trivial (fun h => by cases h) rfl (fun hb => hI.2 hb)

theorem set_conflict_inv {b : Prop} {L : Nat} {T : List Event} {s : Nenofex}
    (hI : InvA b L T s) : InvA b L T (set_conflict s) := by
  have h1 : InvA b L T { s with atpg_rr.conflict := true } := InvA_of_core hI rfl
  exact InvA_log _ h1 trivial (fun h => by cases h) rfl (fun _ => trivial)

theorem backward_literal_inv {b : Prop} {L : Nat} {T : List Event} {s : Nenofex} (n : Nat)
    (want : Bool) (hI : InvA b L T s) : Tri (backward_literal s n want) (InvA b L T) := by
  unfold backward_literal
  refine Tri_read fun nd => Tri_read fun lit => Tri_read fun var => ?_
  refine Tri_ite (fun _ => ?_) (fun _ => Tri_ite (fun _ => Tri_pure (set_conflict_inv hI))
    (fun _ => Tri_pure hI))
  exact Tri_bind (var_assign_inv _ _ hI) (fun s1 h1 => Tri_pure (InvA_of_core h1 rfl))

theorem sensitize_literal_inv {b : Prop} {L : Nat} {T : List Event} {s : Nenofex} (n : Nat)
    (want : Bool) (hI : InvA b L T s) : Tri (sensitize_literal s n want) (InvA b L T) := by
  unfold sensitize_literal
  refine Tri_read fun nd => Tri_read fun lit => ?_
  exact Tri_bind (var_assign_inv _ _ hI) (fun s1 h1 => Tri_pure (InvA_of_core h1 rfl))

theorem sensitize_children_inv {b : Prop} {L : Nat} {T : List Event} (want : Bool)
    (l : List Nat) : ∀ s, InvA b L T s → Tri (sensitize_children s want l) (InvA b L T) := by
  induction l with
  | nil => intro s hI; exact Tri_pure hI
  | cons ch rest ih =>
    intro s hI
    unfold sensitize_children
    refine Tri_read fun cnd => Tri_ite (fun _ => ?_) (fun _ => Tri_pure hI)
    split
    · exact ih s hI
    · exact Tri_bind (sensitize_literal_inv _ _ hI) (fun s1 h1 => ih s1 h1)

theorem fault_sensitization_inv {b : Prop} {L : Nat} {T : List Event} {s : Nenofex} (n : Nat)
    (ft : ATPGFaultType) (hI : InvA b L T s) :
    Tri (fault_sensitization s n ft) (InvA b L T) := by
  unfold fault_sensitization
  refine Tri_read fun nd => ?_
  refine Tri_ite (fun _ => Tri_ite (fun _ => sensitize_literal_inv _ _ hI)
      (fun _ => sensitize_children_inv _ _ _ hI))
    (fun _ => Tri_ite (fun _ => sensitize_literal_inv _ _ hI)
      (fun _ => sensitize_children_inv _ _ _ hI))

theorem collect_necessary_off_path_literal_inv {b : Prop} {L : Nat} {T : List Event}
    {s : Nenofex} (n : Nat) (want : Bool) (hI : InvA b L T s) :
    Tri (collect_necessary_off_path_literal s n want) (InvA b L T) := by
  unfold collect_necessary_off_path_literal
  refine Tri_read fun nd => Tri_read fun lit => Tri_read fun var => ?_
  refine Tri_ite (fun _ => Tri_pure (set_conflict_inv hI))
    (fun _ => Tri_ite (fun _ => ?_) (fun _ => Tri_pure hI))
  exact Tri_bind (var_assign_inv _ _ hI) (fun s1 h1 => Tri_pure (InvA_of_core h1 rfl))

theorem collect_off_path_children_inv {b : Prop} {L : Nat} {T : List Event} (want : Bool)
    (skip : Option Nat) (l : List Nat) :
    ∀ s, InvA b L T s → Tri (collect_off_path_children s want skip l) (InvA b L T) := by
  induction l with
  | nil => intro s hI; exact Tri_pure hI
  | cons ch rest ih =>
    intro s hI
    unfold collect_off_path_children
    refine Tri_read fun cnd => Tri_ite (fun _ => ?_) (fun _ => Tri_pure hI)
    refine Tri_ite (fun _ => ih s hI) (fun _ => ?_)
    exact Tri_bind (collect_necessary_off_path_literal_inv _ _ hI) (fun s1 h1 => ih s1 h1)

theorem collect_off_path_loop_inv {b : Prop} {L : Nat} {T : List Event} (top : Nat)
    (fuel : Nat) :
    ∀ s cur, InvA b L T s → Tri (collect_off_path_loop top fuel s cur) (InvA b L T) := by
  induction fuel with
  | zero => intro s cur _; unfold collect_off_path_loop; exact Tri_throw
  | succ fuel ih =>
    intro s cur hI
    unfold collect_off_path_loop
    split
    · exact Tri_pure hI
    · refine Tri_read fun cnd => Tri_ite (fun _ => ?_) (fun _ => Tri_pure hI)
      exact Tri_bind (collect_off_path_children_inv _ _ _ _ hI) (fun s1 h1 => ih s1 _ h1)

theorem collect_necessary_off_path_literals_inv {b : Prop} {L : Nat} {T : List Event}
    {s : Nenofex} (fuel n : Nat) (hI : InvA b L T s) :
    Tri (collect_necessary_off_path_literals fuel s n) (InvA b L T) := by
  unfold collect_necessary_off_path_literals
  refine Tri_ite (fun _ => Tri_pure hI) (fun _ => ?_)
  refine Tri_read fun nd => Tri_read fun cur => Tri_read fun cnd => ?_
  refine Tri_bind (collect_off_path_children_inv _ _ _ _ hI) (fun s1 h1 => ?_)
  exact Tri_read fun lca => Tri_read fun lnd => collect_off_path_loop_inv _ _ _ _ h1

theorem forward_assign_inv {b : Prop} {L : Nat} {T : List Event} {s : Nenofex} (n : Nat)
    (v : ATPGAssignment) (hI : InvA b L T s) :
    Tri (forward_assign s n v) (fun r => InvA b L T r.1) := by
  unfold forward_assign
  refine Tri_bind (node_assign_inv _ _ hI) (fun s1 h1 => ?_)
  refine Tri_bind (Tri_quiet_InvA (modify_node_info_core _ _ _) h1) (fun s2 h2 => ?_)
  refine Tri_bind (Tri_quiet_InvA (collect_assigned_node_core _ _) h2) (fun s3 h3 => ?_)
  refine Tri_read fun nd => Tri_ite (fun _ => Tri_pure h3) (fun _ => ?_)
  refine Tri_read fun parent => Tri_read fun pa => ?_
  refine Tri_ite (fun _ => ?_) (fun _ => Tri_pure h3)
  refine Tri_bind (Tri_quiet_InvA (update_counter_and_watcher_core _ _) h3) (fun s4 h4 => ?_)
  exact Tri_bind (Tri_quiet_InvA (collect_assigned_node_core _ _) h4) (fun s5 h5 => Tri_pure h5)

/-! ## Theorems: the invariant along propagation -/

theorem InvB_exceeded {b : Prop} {L : Nat} {T : List Event} {s s1 : Nenofex}
    (hI : InvA b L T s) (hsum : b → step_sum s1 = step_sum s + 1)
    (h : Inv b L T (log_step { s1 with atpg_rr.prop_cutoff := true } true)) :
    InvB b L T (log_step { s1 with atpg_rr.prop_cutoff := true } true) := by
  refine ⟨h, fun hb => ?_⟩
  have h2 := hsum hb
  have h3 := (hI.1.bud hb).2
  have h4 := hI.2 hb
  show step_sum s1 ≤ L + 1
  rcases h3 with h3 | h3
  · omega
  · rw [h4] at h3; exact absurd h3.1 (by simp)

theorem backward_propagate_truth_loop_inv {b : Prop} {L : Nat} {T : List Event} (fuel : Nat) :
    ∀ s, InvA b L T s → Tri (backward_propagate_truth_loop fuel s) (InvB b L T) := by
  induction fuel with
  | zero => intro s _; unfold backward_propagate_truth_loop; exact Tri_throw
  | succ fuel ih =>
    intro s hI
    unfold backward_propagate_truth_loop
    refine Tri_ite (fun _ => Tri_pure (InvA_toB hI)) (fun _ => ?_)
    split
    · exact Tri_pure (InvA_toB hI)
    · exact Tri_pure (InvA_toB (InvA_of_core hI rfl))
    · rename_i node rest _
      have h0 : InvA b L T { s with atpg_rr.bwd_prop_stack := rest } := InvA_of_core hI rfl
      obtain ⟨hex, hok, hsum⟩ := @Inv_step b L T _
        (inc_bwd_prop_cnt { s with atpg_rr.bwd_prop_stack := rest })
        (InvA_toB h0) rfl rfl rfl (Or.inr ⟨rfl, rfl⟩)
      refine Tri_ite (fun hx => Tri_pure (InvB_exceeded h0 hsum (hex hx))) (fun hx => ?_)
      have h1 := hok (by simpa using hx)
      refine Tri_read fun nd => ?_
      refine Tri_ite (fun _ => ?_) (fun _ => Tri_ite (fun _ => ?_) (fun _ => ?_))
      · exact Tri_bind (backward_literal_inv _ _ h1) (fun s2 h2 => ih s2 h2)
      · refine Tri_bind (node_assign_inv _ _ h1) (fun s2 h2 => ?_)
        refine Tri_bind (Tri_quiet_InvA (collect_assigned_node_core _ _) h2) (fun s3 h3 => ?_)
        refine Tri_bind (Tri_quiet_InvA (push_unassigned_children_core _ _) h3) (fun s4 h4 => ?_)
        refine Tri_bind (Tri_quiet_InvA (modify_node_info_core _ _ _) h4) (fun s5 h5 => ?_)
        exact ih s5 h5
      · refine Tri_bind (node_assign_inv _ _ h1) (fun s2 h2 => ?_)
        refine Tri_bind (Tri_quiet_InvA (collect_assigned_node_core _ _) h2) (fun s3 h3 => ?_)
        refine Tri_read fun a => Tri_ite (fun _ => ?_) (fun _ => ih s3 h3)
        have h4 : InvA b L T
            { s3 with atpg_rr.bwd_prop_stack := a.watcher :: s3.atpg_rr.bwd_prop_stack } :=
          InvA_of_core h3 rfl
        exact Tri_bind (Tri_quiet_InvA (modify_node_info_core _ _ _) h4) (fun s5 h5 => ih s5 h5)

theorem backward_propagate_falsity_loop_inv {b : Prop} {L : Nat} {T : List Event}
    (fuel : Nat) :
    ∀ s, InvA b L T s → Tri (backward_propagate_falsity_loop fuel s) (InvB b L T) := by
  induction fuel with
  | zero => intro s _; unfold backward_propagate_falsity_loop; exact Tri_throw
  | succ fuel ih =>
    intro s hI
    unfold backward_propagate_falsity_loop
    refine Tri_ite (fun _ => Tri_pure (InvA_toB hI)) (fun _ => ?_)
    split
    · exact Tri_pure (InvA_toB hI)
    · exact Tri_pure (InvA_toB (InvA_of_core hI rfl))
    · rename_i node rest _
      have h0 : InvA b L T { s with atpg_rr.bwd_prop_stack := rest } := InvA_of_core hI rfl
      obtain ⟨hex, hok, hsum⟩ := @Inv_step b L T _
        (inc_bwd_prop_cnt { s with atpg_rr.bwd_prop_stack := rest })
        (InvA_toB h0) rfl rfl rfl (Or.inr ⟨rfl, rfl⟩)
      refine Tri_ite (fun hx => Tri_pure (InvB_exceeded h0 hsum (hex hx))) (fun hx => ?_)
      have h1 := hok (by simpa using hx)
      refine Tri_read fun nd => ?_
      refine Tri_ite (fun _ => ?_) (fun _ => Tri_ite (fun _ => ?_) (fun _ => ?_))
      · exact Tri_bind (backward_literal_inv _ _ h1) (fun s2 h2 => ih s2 h2)
      · refine Tri_bind (node_assign_inv _ _ h1) (fun s2 h2 => ?_)
        refine Tri_bind (Tri_quiet_InvA (collect_assigned_node_core _ _) h2) (fun s3 h3 => ?_)
        refine Tri_read fun a => Tri_ite (fun _ => ?_) (fun _ => ih s3 h3)
        have h4 : InvA b L T
            { s3 with atpg_rr.bwd_prop_stack := a.watcher :: s3.atpg_rr.bwd_prop_stack } :=
          InvA_of_core h3 rfl
        exact Tri_bind (Tri_quiet_InvA (modify_node_info_core _ _ _) h4) (fun s5 h5 => ih s5 h5)
      · refine Tri_bind (node_assign_inv _ _ h1) (fun s2 h2 => ?_)
        refine Tri_bind (Tri_quiet_InvA (collect_assigned_node_core _ _) h2) (fun s3 h3 => ?_)
        refine Tri_bind (Tri_quiet_InvA (push_unassigned_children_core _ _) h3) (fun s4 h4 => ?_)
        refine Tri_bind (Tri_quiet_InvA (modify_node_info_core _ _ _) h4) (fun s5 h5 => ?_)
        exact ih s5 h5

theorem backward_propagate_truth_inv {b : Prop} {L : Nat} {T : List Event} {s : Nenofex}
    (fuel : Nat) (node : Option Nat) (hI : InvA b L T s) :
    Tri (backward_propagate_truth fuel s node) (InvB b L T) := by
  unfold backward_propagate_truth
  exact Tri_bind (backward_propagate_truth_loop_inv fuel _ (InvA_of_core hI rfl))
    (fun s1 h1 => Tri_pure (InvB_of_core h1 rfl))

theorem backward_propagate_falsity_inv {b : Prop} {L : Nat} {T : List Event} {s : Nenofex}
    (fuel : Nat) (node : Option Nat) (hI : InvA b L T s) :
    Tri (backward_propagate_falsity fuel s node) (InvB b L T) := by
  unfold backward_propagate_falsity
  exact Tri_bind (backward_propagate_falsity_loop_inv fuel _ (InvA_of_core hI rfl))
    (fun s1 h1 => Tri_pure (InvB_of_core h1 rfl))

theorem forward_propagate_inv {b : Prop} {L : Nat} {T : List Event} (fuel : Nat) :
    (∀ s node, InvB b L T s → Tri (forward_propagate_truth fuel s node) (Inv b L T))
    ∧ (∀ s node, InvB b L T s → Tri (forward_propagate_falsity fuel s node) (Inv b L T)) := by
  induction fuel with
  | zero =>
    constructor
    · intro s node _; unfold forward_propagate_truth; exact Tri_throw
    · intro s node _; unfold forward_propagate_falsity; exact Tri_throw
  | succ fuel ih =>
    obtain ⟨iht, ihf⟩ := ih
    constructor
    · intro s node hI
      unfold forward_propagate_truth
      obtain ⟨hex, hok, _⟩ := @Inv_step b L T _ (inc_fwd_prop_cnt s) hI rfl rfl rfl
        (Or.inl ⟨rfl, rfl⟩)
      refine Tri_ite (fun hx => Tri_pure (hex hx)) (fun hx => ?_)
      have h1 := hok (by simpa using hx)
      refine Tri_bind (forward_assign_inv _ _ h1) (fun r h2 => ?_)
      obtain ⟨s2, parent?⟩ := r
      cases parent? with
      | none => exact Tri_pure h2.1
      | some parent =>
        refine Tri_read fun pnd => Tri_read fun pa => ?_
        refine Tri_ite (fun _ => ?_) (fun _ => ?_)
        · refine Tri_read fun off_path => ?_
          refine Tri_ite (fun _ => ?_) (fun _ => ?_)
          · refine Tri_ite (fun _ => ?_) (fun _ => Tri_pure h2.1)
            refine Tri_bind (backward_propagate_falsity_inv _ _ h2) (fun s3 h3 => ?_)
            refine Tri_read fun pa1 => ?_
            exact Tri_ite (fun _ => ihf s3 parent h3) (fun _ => Tri_pure h3.1)
          · refine Tri_ite (fun _ => ?_) (fun _ => Tri_pure h2.1)
            exact Tri_ite (fun _ => iht s2 parent (InvA_toB h2)) (fun _ => Tri_pure h2.1)
        · refine Tri_read fun na => ?_
          refine Tri_ite (fun _ => Tri_pure (set_conflict_inv h2).1) (fun _ => ?_)
          refine Tri_ite (fun _ => iht s2 parent (InvA_toB h2)) (fun _ => ?_)
          exact Tri_quiet_Inv (modify_node_info_core _ _ _) h2.1
    · intro s node hI
      unfold forward_propagate_falsity
      obtain ⟨hex, hok, _⟩ := @Inv_step b L T _ (inc_fwd_prop_cnt s) hI rfl rfl rfl
        (Or.inl ⟨rfl, rfl⟩)
      refine Tri_ite (fun hx => Tri_pure (hex hx)) (fun hx => ?_)
      have h1 := hok (by simpa using hx)
      refine Tri_bind (forward_assign_inv _ _ h1) (fun r h2 => ?_)
      obtain ⟨s2, parent?⟩ := r
      cases parent? with
      | none => exact Tri_pure h2.1
      | some parent =>
        refine Tri_read fun pnd => Tri_read fun pa => ?_
        refine Tri_ite (fun _ => ?_) (fun _ => ?_)
        · refine Tri_read fun off_path => ?_
          refine Tri_ite (fun _ => ?_) (fun _ => ?_)
          · refine Tri_ite (fun _ => ?_) (fun _ => Tri_pure h2.1)
            refine Tri_bind (backward_propagate_truth_inv _ _ h2) (fun s3 h3 => ?_)
            refine Tri_read fun pa1 => ?_
            exact Tri_ite (fun _ => iht s3 parent h3) (fun _ => Tri_pure h3.1)
          · refine Tri_ite (fun _ => ?_) (fun _ => Tri_pure h2.1)
            exact Tri_ite (fun _ => ihf s2 parent (InvA_toB h2)) (fun _ => Tri_pure h2.1)
        · refine Tri_read fun na => ?_
          refine Tri_ite (fun _ => Tri_pure (set_conflict_inv h2).1) (fun _ => ?_)
          refine Tri_ite (fun _ => ihf s2 parent (InvA_toB h2)) (fun _ => ?_)
          exact Tri_quiet_Inv (modify_node_info_core _ _ _) h2.1

theorem propagate_occs_inv {b : Prop} {L : Nat} {T : List Event}
    {fwd : Nenofex → Nat → M Nenofex}
    (hf : ∀ s n, InvB b L T s → Tri (fwd s n) (Inv b L T)) (k : Nat) :
    ∀ s elems v_occ v_end removed, InvA b L T s →
      Tri (propagate_occs fwd k s elems v_occ v_end removed)
        (fun r => Inv b L T r.1 ∧ (r.2.2.2.2 = false → InvA b L T r.1)) := by
  induction k with
  | zero =>
    intro s elems v_occ v_end removed hI
    unfold propagate_occs
    exact Tri_pure ⟨hI.1, fun _ => hI⟩
  | succ k ih =>
    intro s elems v_occ v_end removed hI
    unfold propagate_occs
    refine Tri_ite (fun _ => ?_) (fun _ => Tri_pure ⟨hI.1, fun _ => hI⟩)
    refine Tri_read fun f => Tri_read fun occ => ?_
    refine Tri_ite (fun _ => ?_) (fun _ => ?_)
    · refine Tri_ite (fun _ => ih _ _ _ _ _ hI) (fun _ => ?_)
      exact Tri_read fun last => ih _ _ _ _ _ hI
    · refine Tri_bind (hf s occ.node (InvA_toB hI)) (fun s1 h1 => ?_)
      refine Tri_ite (fun _ => Tri_pure ⟨h1, fun h => by cases h⟩) (fun hc => ?_)
      refine ih _ _ _ _ _ ⟨h1, fun _ => ?_⟩
      cases hcut : s1.atpg_rr.prop_cutoff with
      | false => rfl
      | true => exact absurd (Or.inr hcut) hc

theorem propagate_variable_inv {b : Prop} {L : Nat} {T : List Event}
    {fneg fpos : Nenofex → Nat → M Nenofex}
    (hn : ∀ s n, InvB b L T s → Tri (fneg s n) (Inv b L T))
    (hp : ∀ s n, InvB b L T s → Tri (fpos s n) (Inv b L T))
    {s : Nenofex} (v : Nat) (hI : InvA b L T s) :
    Tri (propagate_variable fneg fpos s v) (Inv b L T) := by
  unfold propagate_variable
  refine Tri_read fun var => Tri_read fun neg => ?_
  refine Tri_bind (propagate_occs_inv hn _ _ _ _ _ _ hI) (fun r h1 => ?_)
  obtain ⟨s1, elems, top, removed, early⟩ := r
  refine Tri_ite (fun _ => ?_) (fun he => ?_)
  · exact Tri_ite (fun _ => Tri_quiet_Inv (set_neg_occs_core _ _ _) h1.1) (fun _ => Tri_pure h1.1)
  · have hA : InvA b L T s1 := h1.2 (by simpa using he)
    refine Tri_seq (InvA b L T) ?_ (fun s2 h2 => ?_)
    · exact Tri_ite (fun _ => Tri_quiet_InvA (set_neg_occs_core _ _ _) hA) (fun _ => Tri_pure hA)
    refine Tri_read fun var2 => Tri_read fun pos => ?_
    refine Tri_bind (propagate_occs_inv hp _ _ _ _ _ _ h2) (fun r h3 => ?_)
    obtain ⟨s3, elems3, top3, removed3, early3⟩ := r
    exact Tri_ite (fun _ => Tri_quiet_Inv (set_pos_occs_core _ _ _) h3.1) (fun _ => Tri_pure h3.1)

theorem propagate_enqueued_inv {b : Prop} {L : Nat} {T : List Event} (fuel : Nat) :
    ∀ s, Inv b L T s → Tri (propagate_enqueued_variable_assignments fuel s) (Inv b L T) := by
  induction fuel with
  | zero => intro s _; unfold propagate_enqueued_variable_assignments; exact Tri_throw
  | succ fuel ih =>
    intro s hI
    unfold propagate_enqueued_variable_assignments
    refine Tri_ite (fun _ => Tri_pure hI) (fun hc => ?_)
    have hcf : s.atpg_rr.conflict = false := by
      cases h : s.atpg_rr.conflict with
      | false => rfl
      | true => exact absurd (Or.inl h) hc
    have hcut : s.atpg_rr.prop_cutoff = false := by
      cases h : s.atpg_rr.prop_cutoff with
      | false => rfl
      | true => exact absurd (Or.inr h) hc
    split
    · exact Tri_pure hI
    · rename_i v rest _
      have h0 : Inv b L T { s with atpg_rr.propagation_queue := rest } := Inv_of_core hI rfl
      have h1 : Inv b L T (log { s with atpg_rr.propagation_queue := rest }
          (Event.var_dequeued v s.atpg_rr.conflict s.atpg_rr.prop_cutoff)) :=
        Inv_log _ h0 ⟨hcf, hcut⟩ (fun _ => hcut) (fun _ _ => hcut) rfl (fun _ => trivial)
      have h2 : InvA b L T (log { s with atpg_rr.propagation_queue := rest }
          (Event.var_dequeued v s.atpg_rr.conflict s.atpg_rr.prop_cutoff)) :=
        ⟨h1, fun _ => hcut⟩
      refine Tri_read fun var => ?_
      refine Tri_seq (Inv b L T) ?_ (fun s2 h3 => ih s2 h3)
      refine Tri_ite (fun _ => ?_) (fun _ => ?_)
      · exact propagate_variable_inv (forward_propagate_inv fuel).2 (forward_propagate_inv fuel).1
          v (InvA_of_core h2 rfl)
      · exact propagate_variable_inv (forward_propagate_inv fuel).1 (forward_propagate_inv fuel).2
          v (InvA_of_core h2 rfl)

/-! ## Theorems: the invariant along the phases -/

theorem test_fault_is_redundant_inv {b : Prop} {L : Nat} {T : List Event} {s : Nenofex}
    (fuel n : Nat) (hI : InvA b L T s) :
    Tri (test_fault_is_redundant fuel s n) (fun r => Inv b L T r.1) := by
  unfold test_fault_is_redundant
  refine Tri_read fun ft => ?_
  refine Tri_bind (fault_sensitization_inv _ _ hI) (fun s1 h1 => ?_)
  refine Tri_bind (collect_necessary_off_path_literals_inv _ _ h1) (fun s2 h2 => ?_)
  refine Tri_bind (Tri_quiet_InvA (mark_path_nodes_core _ _ _) h2) (fun s3 h3 => ?_)
  refine Tri_ite (fun _ => Tri_pure h3.1) (fun _ => Tri_ite (fun _ => ?_) (fun _ => ?_))
  · refine Tri_bind (propagate_enqueued_inv _ _ h3.1) (fun s4 h4 => ?_)
    exact Tri_ite (fun _ => Tri_pure h4) (fun _ => Tri_pure h4)
  · exact Tri_pure (Inv_of_core h3.1 rfl)

theorem derive_implications_from_node_inv {b : Prop} {L : Nat} {T : List Event} {s : Nenofex}
    (fuel n : Nat) (ft : ATPGFaultType) (hI : InvA b L T s) :
    Tri (derive_implications_from_node fuel s n ft) (fun r => Inv b L T r.1) := by
  unfold derive_implications_from_node
  refine Tri_bind (fault_sensitization_inv _ _ hI) (fun s1 h1 => ?_)
  refine Tri_ite (fun _ => ?_) (fun _ => Tri_pure (Inv_of_core h1.1 rfl))
  refine Tri_bind (propagate_enqueued_inv _ _ h1.1) (fun s2 h2 => ?_)
  exact Tri_ite (fun _ => Tri_read fun h => Tri_pure h2) (fun _ => Tri_pure h2)

theorem test_all_faults_body_inv {api : GraphAPI} (hapi : APIFrame api) {b : Prop} {L : Nat}
    {T : List Event} {s : Nenofex} (fuel : Nat) (nrf : List Nat) (ct : Bool) (f : Nat)
    (hI : Inv b L T s) (hcut : s.atpg_rr.prop_cutoff = false) :
    Tri (test_all_faults_body api fuel s nrf ct f) (fun r => Inv b L T r.1) := by
  unfold test_all_faults_body
  refine Tri_read fun fn => ?_
  refine Tri_ite (fun _ => Tri_pure hI) (fun hds => ?_)
  have hd : fn.deleted = false := by
    cases h : fn.deleted with
    | false => rfl
    | true => exact absurd (Or.inl h) hds
  have hsk : fn.skip = false := by
    cases h : fn.skip with
    | false => rfl
    | true => exact absurd (Or.inr h) hds
  refine Tri_read fun nd => Tri_read fun c1 => ?_
  refine Tri_ite (fun _ => Tri_pure hI) (fun _ => ?_)
  refine Tri_read fun c2 => ?_
  refine Tri_ite (fun _ => Tri_pure hI) (fun _ => ?_)
  have h1 : Inv b L T (log s (Event.fault_tested f fn.deleted fn.skip s.atpg_rr.prop_cutoff)) :=
    Inv_log _ hI ⟨hd, hsk, hcut⟩ (fun _ => hcut) (fun _ _ => hcut) rfl (fun _ => trivial)
  have h2 : InvA b L T
      (log s (Event.fault_tested f fn.deleted fn.skip s.atpg_rr.prop_cutoff)) :=
    ⟨h1, fun _ => hcut⟩
  refine Tri_bind (test_fault_is_redundant_inv _ _ (InvA_of_core h2 rfl)) (fun r h3 => ?_)
  obtain ⟨s3, red⟩ := r
  refine Tri_ite (fun _ => ?_) (fun _ => ?_)
  · have h4 : Inv b L T { s3 with atpg_rr.stats.red_fault_cnt :=
        (s3.atpg_rr.stats.red_fault_cnt + 1) % UINT_MOD } := Inv_of_core h3 rfl
    refine Tri_bind (Tri_quiet_Inv (unmark_path_nodes_core _ _ _ _) h4) (fun s5 h5 => ?_)
    refine Tri_bind (Tri_quiet_Inv (delete_redundant_subformula_core hapi _ _) h5)
      (fun s6 h6 => ?_)
    refine Tri_ite (fun _ => Tri_pure h6) (fun _ => ?_)
    refine Tri_bind (Tri_quiet_Inv (reset_touched_variables_core _) h6) (fun s7 h7 => ?_)
    refine Tri_bind (Tri_quiet_Inv (reset_touched_nodes_core _) h7) (fun s8 h8 => ?_)
    exact Tri_pure (Inv_of_core h8 rfl)
  · refine Tri_bind (Tri_quiet_Inv (unmark_path_nodes_core _ _ _ _) h3) (fun s5 h5 => ?_)
    refine Tri_ite (fun _ => ?_) (fun _ => Tri_pure (Inv_of_core h5 rfl))
    refine Tri_bind (Tri_quiet_Inv (reset_touched_variables_core _) h5) (fun s7 h7 => ?_)
    refine Tri_bind (Tri_quiet_Inv (reset_touched_nodes_core _) h7) (fun s8 h8 => ?_)
    exact Tri_pure h8

theorem test_all_faults_inner_inv {api : GraphAPI} (hapi : APIFrame api) {b : Prop} {L : Nat}
    {T : List Event} (fuel : Nat) :
    ∀ s nrf ct, Inv b L T s →
      Tri (test_all_faults_inner api fuel s nrf ct) (fun r => Inv b L T r.1) := by
  induction fuel with
  | zero => intro s nrf ct _; unfold test_all_faults_inner; exact Tri_throw
  | succ fuel ih =>
    intro s nrf ct hI
    unfold test_all_faults_inner
    refine Tri_ite (fun _ => Tri_pure hI) (fun hc => ?_)
    have hcut : s.atpg_rr.prop_cutoff = false := by simpa using hc
    split
    · exact Tri_pure hI
    · rename_i f rest _
      refine Tri_bind (test_all_faults_body_inv hapi fuel nrf ct f
        (Inv_of_core hI rfl) hcut) (fun r h1 => ?_)
      obtain ⟨s1, nrf1, ct1, ctl⟩ := r
      cases ctl with
      | stop => exact Tri_pure h1
      | next => exact ih s1 nrf1 ct1 h1

theorem test_all_faults_outer_inv {api : GraphAPI} (hapi : APIFrame api) {b : Prop} {L : Nat}
    {T : List Event} (fuel : Nat) :
    ∀ s nrf, Inv b L T s →
      Tri (test_all_faults_outer api fuel s nrf) (fun r => Inv b L T r.1) := by
  induction fuel with
  | zero => intro s nrf _; unfold test_all_faults_outer; exact Tri_throw
  | succ fuel ih =>
    intro s nrf hI
    unfold test_all_faults_outer
    refine Tri_bind (test_all_faults_inner_inv hapi fuel s nrf false hI) (fun r h1 => ?_)
    obtain ⟨s1, nrf1, ct1⟩ := r
    exact Tri_ite (fun _ => ih _ _ (Inv_of_core h1 rfl)) (fun _ => Tri_pure h1)

theorem optimize_by_global_flow_body_inv {api : GraphAPI} (hapi : APIFrame api) {b : Prop}
    {L : Nat} {T : List Event} {s : Nenofex} (fuel : Nat) (tested : List Nat) (co : Bool)
    (ft : ATPGFaultType) (f : Nat)
    (hI : Inv b L T s) (hcut : s.atpg_rr.prop_cutoff = false) :
    Tri (optimize_by_global_flow_body api fuel s tested co ft f) (fun r => Inv b L T r.1) := by
  unfold optimize_by_global_flow_body
  refine Tri_read fun fn => ?_
  refine Tri_ite (fun _ => Tri_pure hI) (fun hds => ?_)
  have hd : fn.deleted = false := by simpa using hds
  refine Tri_read fun nd => Tri_read fun c1 => ?_
  refine Tri_ite (fun _ => Tri_pure hI) (fun _ => ?_)
  refine Tri_read fun c2 => ?_
  refine Tri_ite (fun _ => Tri_pure hI) (fun _ => ?_)
  refine Tri_read fun ft2 => ?_
  have h1 : Inv b L T (log s (Event.implication_tried f fn.deleted s.atpg_rr.prop_cutoff)) :=
    Inv_log _ hI ⟨hd, hcut⟩ (fun _ => hcut) (fun _ _ => hcut) rfl (fun _ => trivial)
  have h2 : InvA b L T (log s (Event.implication_tried f fn.deleted s.atpg_rr.prop_cutoff)) :=
    ⟨h1, fun _ => hcut⟩
  refine Tri_bind (derive_implications_from_node_inv _ _ _ (InvA_of_core h2 rfl))
    (fun r h3 => ?_)
  obtain ⟨s3, hi⟩ := r
  cases hi with
  | some h =>
    refine Tri_bind (Tri_quiet_Inv (collect_implication_path_nodes_core _ _ _ _) h3)
      (fun s4 h4 => ?_)
    refine Tri_bind (Tri_quiet_Inv (mark_implicant_variables_for_update_core hapi _ _ _) h4)
      (fun s5 h5 => ?_)
    have h6 : Inv b L T { s5 with atpg_rr.stats.derived_implications_cnt :=
        (s5.atpg_rr.stats.derived_implications_cnt + 1) % UINT_MOD } := Inv_of_core h5 rfl
    refine Tri_read fun cur => Tri_read fun e => ?_
    refine Tri_ite (fun _ => ?_) (fun _ => ?_)
    · refine Tri_bind (Tri_quiet_Inv (reset_touched_variables_core _) h6) (fun s7 h7 => ?_)
      refine Tri_bind (Tri_quiet_Inv (reset_touched_nodes_core _) h7) (fun s8 h8 => ?_)
      exact Tri_pure h8
    · refine Tri_bind (Tri_quiet_Inv (transform_core hapi _ _ _) h6) (fun s7 h7 => ?_)
      refine Tri_ite (fun _ => Tri_pure h7) (fun _ => ?_)
      refine Tri_bind (Tri_quiet_Inv (reset_touched_variables_core _) h7) (fun s8 h8 => ?_)
      refine Tri_bind (Tri_quiet_Inv (reset_touched_nodes_core _) h8) (fun s9 h9 => ?_)
      exact Tri_pure h9
  | none =>
    exact Tri_bind (Tri_quiet_Inv (clean_up_after_trial_core _) h3) (fun s4 h4 => Tri_pure h4)

theorem optimize_by_global_flow_inner_inv {api : GraphAPI} (hapi : APIFrame api) {b : Prop}
    {L : Nat} {T : List Event} (fuel : Nat) :
    ∀ s tested co ft, Inv b L T s →
      Tri (optimize_by_global_flow_inner api fuel s tested co ft) (fun r => Inv b L T r.1) := by
  induction fuel with
  | zero => intro s tested co ft _; unfold optimize_by_global_flow_inner; exact Tri_throw
  | succ fuel ih =>
    intro s tested co ft hI
    unfold optimize_by_global_flow_inner
    refine Tri_ite (fun _ => Tri_pure hI) (fun hc => ?_)
    have hcut : s.atpg_rr.prop_cutoff = false := by simpa using hc
    split
    · exact Tri_pure hI
    · rename_i f rest _
      refine Tri_bind (optimize_by_global_flow_body_inv hapi fuel tested co ft f
        (Inv_of_core hI rfl) hcut) (fun r h1 => ?_)
      obtain ⟨s1, tested1, co1, ft1, ctl⟩ := r
      cases ctl with
      | stop => exact Tri_pure h1
      | next => exact ih s1 tested1 co1 ft1 h1

theorem optimize_by_global_flow_outer_inv {api : GraphAPI} (hapi : APIFrame api) {b : Prop}
    {L : Nat} {T : List Event} (fuel : Nat) :
    ∀ s tested ft, Inv b L T s →
      Tri (optimize_by_global_flow_outer api fuel s tested ft) (fun r => Inv b L T r.1) := by
  induction fuel with
  | zero => intro s tested ft _; unfold optimize_by_global_flow_outer; exact Tri_throw
  | succ fuel ih =>
    intro s tested ft hI
    unfold optimize_by_global_flow_outer
    refine Tri_bind (optimize_by_global_flow_inner_inv hapi fuel s tested false ft hI)
      (fun r h1 => ?_)
    obtain ⟨s1, tested1, co1, ft1⟩ := r
    exact Tri_ite (fun _ => ih _ _ _ (Inv_of_core h1 rfl)) (fun _ => Tri_pure h1)

/-! ## Theorems: the model of the graph-mutation interface satisfies `APIFrame` -/

theorem spec_update_size_loop_core (k : Nat) :
    ∀ s n d, Tri (spec_update_size_loop k s n d) (fun s' => core s' = core s) := by
  induction k with
  | zero => intro s n d; unfold spec_update_size_loop; exact Tri_pure rfl
  | succ k ih =>
    intro s n d
    cases n with
    | none => unfold spec_update_size_loop; exact Tri_pure rfl
    | some n =>
      unfold spec_update_size_loop
      exact Tri_read fun nd => Tri_core_trans (ih _ _ _) rfl

theorem spec_free_node_core (s : Nenofex) (n : Nat) :
    Tri (spec_free_node s n) (fun s' => core s' = core s) := by
  unfold spec_free_node
  refine Tri_read fun nd => ?_
  refine Tri_seq (fun s1 => core s1 = core s) ?_ (fun s1 h1 => Tri_pure h1)
  split
  · refine Tri_read fun a => ?_
    split
    · exact mark_fault_node_as_deleted_core _ _
    · exact Tri_pure rfl
  · exact Tri_pure rfl

theorem spec_free_nodes_core (l : List Nat) :
    ∀ s, Tri (spec_free_nodes s l) (fun s' => core s' = core s) := by
  induction l with
  | nil => intro s; exact Tri_pure rfl
  | cons n rest ih =>
    intro s
    unfold spec_free_nodes
    exact Tri_bind (spec_free_node_core _ _) (fun s1 h1 => Tri_core_trans (ih _) h1)

theorem spec_detach_core (s : Nenofex) (n : Nat) (m : Bool) :
    Tri (spec_detach s n m) (fun s' => core s' = core s) := by
  unfold spec_detach
  refine Tri_read fun nd => ?_
  split
  · exact Tri_pure rfl
  · refine Tri_read fun pnd => ?_
    split
    · exact Tri_read fun a => Tri_ite (fun _ => Tri_pure rfl) (fun _ => Tri_pure rfl)
    · exact Tri_pure rfl

theorem spec_remove_and_free_subformula_core (s : Nenofex) (n : Nat) :
    Tri (spec_remove_and_free_subformula s n) (fun s' => core s' = core s) := by
  unfold spec_remove_and_free_subformula
  refine Tri_read fun nd => Tri_read fun sub => ?_
  refine Tri_seq (fun s1 => core s1 = core s) ?_ (fun s1 h1 => ?_)
  · split
    · exact Tri_bind (spec_detach_core _ _ _)
        (fun s1 h1 => Tri_core_trans (spec_update_size_loop_core _ _ _ _) h1)
    · exact Tri_pure rfl
  refine Tri_bind (spec_free_nodes_core _ _) (fun s2 h2 => ?_)
  have h3 : core s2 = core s := h2.trans h1
  by_cases hg : s2.graph_root = some n
  · simp only [if_pos hg]
    split
    · exact Tri_ite (fun _ => Tri_pure h3) (fun _ => Tri_pure h3)
    · exact Tri_pure h3
  · simp only [if_neg hg]
    split
    · exact Tri_ite (fun _ => Tri_pure h3) (fun _ => Tri_pure h3)
    · exact Tri_pure h3

theorem spec_set_levels_core (l : List Nat) :
    ∀ s, Tri (spec_set_levels s l) (fun s' => core s' = core s) := by
  induction l with
  | nil => intro s; exact Tri_pure rfl
  | cons n rest ih =>
    intro s
    unfold spec_set_levels
    exact Tri_read fun nd => Tri_read fun level => Tri_core_trans (ih _) rfl

theorem spec_update_level_core (s : Nenofex) (n : Nat) :
    Tri (spec_update_level s n) (fun s' => core s' = core s) := by
  unfold spec_update_level
  exact Tri_read fun sub => spec_set_levels_core _ _

theorem spec_merge_parent_core (s : Nenofex) (n : Nat) :
    Tri (spec_merge_parent s n) (fun s' => core s' = core s) := by
  unfold spec_merge_parent
  refine Tri_read fun pnd => ?_
  split
  · refine Tri_read fun cnd => ?_
    refine Tri_seq (fun s2 => core s2 = core s) ?_ (fun s2 h2 => ?_)
    · split
      · exact Tri_read fun gnd => Tri_pure rfl
      · refine Tri_pure ?_
        split <;> rfl
    by_cases hg : s2.changed_subformula.lca = some n
    · simp only [if_pos hg]
      refine Tri_bind (Tri_core_trans (spec_free_node_core _ _) h2) (fun s4 h4 => ?_)
      exact Tri_core_trans (spec_update_level_core _ _) h4
    · simp only [if_neg hg]
      refine Tri_bind (Tri_core_trans (spec_free_node_core _ _) h2) (fun s4 h4 => ?_)
      exact Tri_core_trans (spec_update_level_core _ _) h4
  · exact Tri_pure rfl

theorem spec_add_node_to_child_list_core (s : Nenofex) (p c : Nat) :
    Tri (spec_add_node_to_child_list s p c) (fun s' => core s' = core s) := by
  unfold spec_add_node_to_child_list
  exact Tri_read fun pnd => Tri_read fun cnd => Tri_read fun lits => Tri_read fun ops =>
    Tri_pure rfl

theorem spec_api_frame : APIFrame spec_api where
  remove_and_free_subformula := spec_remove_and_free_subformula_core
  unlink_node := fun s n => spec_detach_core s n false
  update_size_subformula := fun s n d => spec_update_size_loop_core _ s (some n) d
  merge_parent := spec_merge_parent_core
  or_node := fun _ => Tri_pure rfl
  and_node := fun _ => Tri_pure rfl
  add_node_to_child_list := spec_add_node_to_child_list_core
  update_level := spec_update_level_core
  simplify_one_level := fun s n => by
    show Tri (spec_simplify_one_level s n) _
    unfold spec_simplify_one_level
    exact Tri_read fun nd => Tri_ite (fun _ => spec_merge_parent_core _ _) (fun _ => Tri_pure rfl)
  mark_affected_scope_variables_for_cost_update := fun _ _ => Tri_pure rfl
  reset_changed_lca_object := fun _ => Tri_pure rfl
  add_changed_lca_child := fun _ _ => Tri_pure rfl
  collect_variable_for_update := fun _ _ => Tri_pure rfl

/-! ## Theorems: cutoff, budget and handle safety (claims C6, C7, C10) -/

set_option maxRecDepth 100000 in
theorem sample_atpg_run_ok :
    ∃ r, test_all_faults spec_api 20 sample_ready_state = Except.ok r :=
  isOk_exists rfl

set_option maxRecDepth 100000 in
theorem sample_global_flow_run_ok :
    ∃ r, optimize_by_global_flow spec_api 20 sample_ready_state = Except.ok r :=
  isOk_exists rfl

theorem Good_nil (b : Prop) (L : Nat) (cut : Bool) : Good b L cut [] :=
  ⟨fun _ h => (nomatch h), List.Pairwise.nil, fun _ _ h => (nomatch h),
    fun _ _ h => (nomatch h)⟩

theorem test_all_faults_run {api : GraphAPI} (hapi : APIFrame api) {b : Prop} (fuel : Nat)
    (s : Nenofex)
    (hb : b → active_limit s + 2 < UINT_MOD ∧ s.atpg_rr.prop_cutoff = false ∧
      s.atpg_rr.atpg_fwd_prop_cnt + s.atpg_rr.atpg_bwd_prop_cnt ≤ active_limit s) :
    Tri (test_all_faults api fuel s) (fun r =>
      ∃ new, r.1.atpg_rr.trace = s.atpg_rr.trace ++ new
        ∧ Good b (active_limit s) r.1.atpg_rr.atpg_prop_cutoff new
        ∧ (b → r.1.atpg_rr.atpg_fwd_prop_cnt + r.1.atpg_rr.atpg_bwd_prop_cnt
                ≤ active_limit s + 2)) := by
  unfold test_all_faults
  have h0 : Inv b (active_limit s) s.atpg_rr.trace (test_all_faults_prologue s) := by
    refine ⟨rfl, ⟨[], (List.append_nil _).symm, Good_nil _ _ _⟩, fun h => ⟨(hb h).1, ?_⟩⟩
    exact Or.inl ⟨(hb h).2.1, (hb h).2.2⟩
  refine Tri_bind (test_all_faults_outer_inv hapi fuel _ [] h0) (fun r h1 => ?_)
  obtain ⟨s1, nrf⟩ := r
  refine Tri_pure ?_
  obtain ⟨new, hnew, hgood⟩ := h1.ext
  refine ⟨new, hnew, hgood, fun h => ?_⟩
  have h2 : stABC _ s1 := (h1.bud h).2
  show step_sum s1 ≤ _
  rcases h2 with h2 | h2 <;> omega

theorem optimize_by_global_flow_run {api : GraphAPI} (hapi : APIFrame api) {b : Prop}
    (fuel : Nat) (s : Nenofex)
    (hb : b → s.limits.GLOBAL_FLOW_PROPAGATION_LIMIT + 2 < UINT_MOD
      ∧ s.atpg_rr.prop_cutoff = false
      ∧ s.atpg_rr.global_flow_fwd_prop_cnt + s.atpg_rr.global_flow_bwd_prop_cnt
          ≤ s.limits.GLOBAL_FLOW_PROPAGATION_LIMIT) :
    Tri (optimize_by_global_flow api fuel s) (fun r =>
      ∃ new, r.1.atpg_rr.trace = s.atpg_rr.trace ++ new
        ∧ Good b s.limits.GLOBAL_FLOW_PROPAGATION_LIMIT r.1.atpg_rr.global_flow_prop_cutoff new
        ∧ (b → r.1.atpg_rr.global_flow_fwd_prop_cnt + r.1.atpg_rr.global_flow_bwd_prop_cnt
                ≤ s.limits.GLOBAL_FLOW_PROPAGATION_LIMIT + 2)) := by
  unfold optimize_by_global_flow
  have h0 : Inv b s.limits.GLOBAL_FLOW_PROPAGATION_LIMIT s.atpg_rr.trace
      (optimize_by_global_flow_prologue s) := by
    refine ⟨rfl, ⟨[], (List.append_nil _).symm, Good_nil _ _ _⟩, fun h => ⟨(hb h).1, ?_⟩⟩
    exact Or.inl ⟨(hb h).2.1, (hb h).2.2⟩
  refine Tri_bind (optimize_by_global_flow_outer_inv hapi fuel _ [] _ h0) (fun r h1 => ?_)
  obtain ⟨s1, tested⟩ := r
  refine Tri_pure ?_
  obtain ⟨new, hnew, hgood⟩ := h1.ext
  refine ⟨new, hnew, hgood, fun h => ?_⟩
  have h2 : stABC _ s1 := (h1.bud h).2
  show step_sum s1 ≤ _
  rcases h2 with h2 | h2 <;> omega

theorem forward_propagate_truth_exceeded (fuel : Nat) (s : Nenofex) (node : Nat)
    (h : limit_exceeded (inc_fwd_prop_cnt s) = true) :
    forward_propagate_truth (fuel + 1) s node
      = Except.ok (log_step { inc_fwd_prop_cnt s with atpg_rr.prop_cutoff := true } true) := by
  unfold forward_propagate_truth
  simp only [h, if_true]
  rfl

theorem forward_propagate_falsity_exceeded (fuel : Nat) (s : Nenofex) (node : Nat)
    (h : limit_exceeded (inc_fwd_prop_cnt s) = true) :
    forward_propagate_falsity (fuel + 1) s node
      = Except.ok (log_step { inc_fwd_prop_cnt s with atpg_rr.prop_cutoff := true } true) := by
  unfold forward_propagate_falsity
  simp only [h, if_true]
  rfl

theorem backward_propagate_truth_loop_exceeded (fuel : Nat) (s : Nenofex) (node : Nat)
    (rest : List (Option Nat)) (hc : s.atpg_rr.conflict = false)
    (hs : s.atpg_rr.bwd_prop_stack = some node :: rest)
    (h : limit_exceeded (inc_bwd_prop_cnt { s with atpg_rr.bwd_prop_stack := rest }) = true) :
    backward_propagate_truth_loop (fuel + 1) s
      = Except.ok (log_step { inc_bwd_prop_cnt { s with atpg_rr.bwd_prop_stack := rest } with
          atpg_rr.prop_cutoff := true } true) := by
  unfold backward_propagate_truth_loop
  rw [if_neg (by simp [hc])]
  split
  · rename_i h1; rw [hs] at h1; cases h1
  · rename_i h1; rw [hs] at h1; cases h1
  · rename_i node1 rest1 h1
    rw [hs] at h1
    cases h1
    show (if limit_exceeded _ = true then _ else _) = _
    rw [if_pos h]
    rfl

theorem backward_propagate_falsity_loop_exceeded (fuel : Nat) (s : Nenofex) (node : Nat)
    (rest : List (Option Nat)) (hc : s.atpg_rr.conflict = false)
    (hs : s.atpg_rr.bwd_prop_stack = some node :: rest)
    (h : limit_exceeded (inc_bwd_prop_cnt { s with atpg_rr.bwd_prop_stack := rest }) = true) :
    backward_propagate_falsity_loop (fuel + 1) s
      = Except.ok (log_step { inc_bwd_prop_cnt { s with atpg_rr.bwd_prop_stack := rest } with
          atpg_rr.prop_cutoff := true } true) := by
  unfold backward_propagate_falsity_loop
  rw [if_neg (by simp [hc])]
  split
  · rename_i h1; rw [hs] at h1; cases h1
  · rename_i h1; rw [hs] at h1; cases h1
  · rename_i node1 rest1 h1
    rw [hs] at h1
    cases h1
    show (if limit_exceeded _ = true then _ else _) = _
    rw [if_pos h]
    rfl

theorem propagate_enqueued_stops (fuel : Nat) (s : Nenofex)
    (h : s.atpg_rr.conflict = true ∨ s.atpg_rr.prop_cutoff = true) :
    propagate_enqueued_variable_assignments (fuel + 1) s = Except.ok s := by
  unfold propagate_enqueued_variable_assignments
  rw [if_pos h]
  rfl

theorem test_all_faults_inner_stops (api : GraphAPI) (fuel : Nat) (s : Nenofex)
    (nrf : List Nat) (ct : Bool) (h : s.atpg_rr.prop_cutoff = true) :
    test_all_faults_inner api (fuel + 1) s nrf ct = Except.ok (s, nrf, ct) := by
  unfold test_all_faults_inner
  rw [if_pos h]
  rfl

theorem optimize_by_global_flow_inner_stops (api : GraphAPI) (fuel : Nat) (s : Nenofex)
    (tested : List Nat) (co : Bool) (ft : ATPGFaultType) (h : s.atpg_rr.prop_cutoff = true) :
    optimize_by_global_flow_inner api (fuel + 1) s tested co ft
      = Except.ok (s, tested, co, ft) := by
  unfold optimize_by_global_flow_inner
  rw [if_pos h]
  rfl

theorem test_all_faults_body_drops (api : GraphAPI) (fuel : Nat) (s : Nenofex)
    (nrf : List Nat) (ct : Bool) (f : Nat) (fn : FaultNode)
    (hf : get_fault_node s f = Except.ok fn) (h : fn.deleted = true ∨ fn.skip = true) :
    test_all_faults_body api fuel s nrf ct f = Except.ok (s, nrf, ct, LoopCtl.next) := by
  unfold test_all_faults_body
  rw [hf]
  show (if fn.deleted = true ∨ fn.skip = true then _ else _) = _
  rw [if_pos h]
  rfl

theorem optimize_by_global_flow_body_drops (api : GraphAPI) (fuel : Nat) (s : Nenofex)
    (tested : List Nat) (co : Bool) (ft : ATPGFaultType) (f : Nat) (fn : FaultNode)
    (hf : get_fault_node s f = Except.ok fn) (h : fn.deleted = true) :
    optimize_by_global_flow_body api fuel s tested co ft f
      = Except.ok (s, tested, co, ft, LoopCtl.next) := by
  unfold optimize_by_global_flow_body
  rw [hf]
  show (if fn.deleted = true then _ else _) = _
  rw [if_pos h]
  rfl

theorem test_all_faults_inner_drops (api : GraphAPI) (fuel : Nat) (s : Nenofex)
    (nrf : List Nat) (ct : Bool) (f : Nat) (rest : List Nat) (fn : FaultNode)
    (hc : s.atpg_rr.prop_cutoff = false) (hq : s.atpg_rr.fault_queue = f :: rest)
    (hf : get_fault_node s f = Except.ok fn) (h : fn.deleted = true ∨ fn.skip = true) :
    test_all_faults_inner api (fuel + 1) s nrf ct
      = test_all_faults_inner api fuel { s with atpg_rr.fault_queue := rest } nrf ct := by
  conv => lhs; unfold test_all_faults_inner
  rw [if_neg (by simp [hc])]
  split
  · rename_i h1; rw [hq] at h1; cases h1
  · rename_i f1 rest1 h1
    rw [hq] at h1
    cases h1
    have hf1 : get_fault_node { s with atpg_rr.fault_queue := rest } f = Except.ok fn := hf
    rw [test_all_faults_body_drops api fuel _ nrf ct f fn hf1 h]
    rfl

theorem optimize_by_global_flow_inner_drops (api : GraphAPI) (fuel : Nat) (s : Nenofex)
    (tested : List Nat) (co : Bool) (ft : ATPGFaultType) (f : Nat) (rest : List Nat)
    (fn : FaultNode)
    (hc : s.atpg_rr.prop_cutoff = false) (hq : s.atpg_rr.fault_queue = f :: rest)
    (hf : get_fault_node s f = Except.ok fn) (h : fn.deleted = true) :
    optimize_by_global_flow_inner api (fuel + 1) s tested co ft
      = optimize_by_global_flow_inner api fuel { s with atpg_rr.fault_queue := rest }
          tested co ft := by
  conv => lhs; unfold optimize_by_global_flow_inner
  rw [if_neg (by simp [hc])]
  split
  · rename_i h1; rw [hq] at h1; cases h1
  · rename_i f1 rest1 h1
    rw [hq] at h1
    cases h1
    have hf1 : get_fault_node { s with atpg_rr.fault_queue := rest } f = Except.ok fn := hf
    rw [optimize_by_global_flow_body_drops api fuel _ tested co ft f fn hf1 h]
    rfl

/-- C6, counterexample to "once conflict is set the phase loops test no further
candidate": in the run of `test_all_faults` on the graph of `(a & !a) | b` a
conflict is raised while the `AND` is tested, the `AND` is deleted, the flag
is cleared (line 2559) and further candidates are tested afterwards. -/
theorem C6_conflict_not_sticky :
    (test_all_faults spec_api 20 sample_ready_state).toOption.map
      (fun r => tested_after_conflict r.1.atpg_rr.trace) = some true := by
  set_option maxRecDepth 100000 in rfl

/-- C6 (amended). The budget test is `limit_exceeded`: the sum of the two
counters, in `unsigned` arithmetic, is greater than the active limit. Every
forward or backward step whose incremented counter exceeds the limit sets
`prop_cutoff` and returns at once, without assigning the node. With `conflict`
or `prop_cutoff` set, `propagate_enqueued_variable_assignments` dequeues no
variable; with `prop_cutoff` set, the inner loops of both phases test no
candidate. In every run of `test_all_faults` and `optimize_by_global_flow` a
step raises the cutoff iff the sum then exceeds the limit, variables are
dequeued only with both flags clear, candidates are tested only with
`prop_cutoff` clear, and a step that raised the cutoff is followed neither by
a dequeue nor by a test. -/
theorem C6_cutoff_on_budget_excess (api : GraphAPI) (hapi : APIFrame api) :
    (∀ s, limit_exceeded s = true ↔
        active_limit s
          < (s.atpg_rr.stats.fwd_prop_cnt + s.atpg_rr.stats.bwd_prop_cnt) % UINT_MOD)
    ∧ (∀ fuel s node, limit_exceeded (inc_fwd_prop_cnt s) = true →
        forward_propagate_truth (fuel + 1) s node
          = Except.ok (log_step { inc_fwd_prop_cnt s with atpg_rr.prop_cutoff := true } true)
        ∧ forward_propagate_falsity (fuel + 1) s node
          = Except.ok (log_step { inc_fwd_prop_cnt s with atpg_rr.prop_cutoff := true } true))
    ∧ (∀ fuel s node rest, s.atpg_rr.conflict = false →
        s.atpg_rr.bwd_prop_stack = some node :: rest →
        limit_exceeded (inc_bwd_prop_cnt { s with atpg_rr.bwd_prop_stack := rest }) = true →
        backward_propagate_truth_loop (fuel + 1) s
          = Except.ok (log_step { inc_bwd_prop_cnt { s with atpg_rr.bwd_prop_stack := rest } with
              atpg_rr.prop_cutoff := true } true)
        ∧ backward_propagate_falsity_loop (fuel + 1) s
          = Except.ok (log_step { inc_bwd_prop_cnt { s with atpg_rr.bwd_prop_stack := rest } with
              atpg_rr.prop_cutoff := true } true))
    ∧ (∀ fuel s, s.atpg_rr.conflict = true ∨ s.atpg_rr.prop_cutoff = true →
        propagate_enqueued_variable_assignments (fuel + 1) s = Except.ok s)
    ∧ (∀ fuel s nrf ct, s.atpg_rr.prop_cutoff = true →
        test_all_faults_inner api (fuel + 1) s nrf ct = Except.ok (s, nrf, ct))
    ∧ (∀ fuel s tested co ft, s.atpg_rr.prop_cutoff = true →
        optimize_by_global_flow_inner api (fuel + 1) s tested co ft
          = Except.ok (s, tested, co, ft))
    ∧ (∀ fuel s r, test_all_faults api fuel s = Except.ok r
          ∨ optimize_by_global_flow api fuel s = Except.ok r →
        ∃ new, r.1.atpg_rr.trace = s.atpg_rr.trace ++ new
          ∧ (∀ f b l c, Event.prop_step f b l c ∈ new → (c = true ↔ l < (f + b) % UINT_MOD))
          ∧ (∀ v cf c, Event.var_dequeued v cf c ∈ new → cf = false ∧ c = false)
          ∧ (∀ f d sk c, Event.fault_tested f d sk c ∈ new → c = false)
          ∧ (∀ f d c, Event.implication_tried f d c ∈ new → c = false)
          ∧ new.Pairwise (fun x y => x.raises = true → y.gated = false)) := by
  refine ⟨limit_exceeded_iff, ?_, ?_, propagate_enqueued_stops, test_all_faults_inner_stops api,
    optimize_by_global_flow_inner_stops api, ?_⟩
  · intro fuel s node h
    exact ⟨forward_propagate_truth_exceeded fuel s node h,
      forward_propagate_falsity_exceeded fuel s node h⟩
  · intro fuel s node rest hc hs h
    exact ⟨backward_propagate_truth_loop_exceeded fuel s node rest hc hs h,
      backward_propagate_falsity_loop_exceeded fuel s node rest hc hs h⟩
  · intro fuel s r hr
    have key : ∃ L cut new, r.1.atpg_rr.trace = s.atpg_rr.trace ++ new ∧ Good False L cut new := by
      rcases hr with hr | hr
      · obtain ⟨new, h1, h2, _⟩ := @test_all_faults_run api hapi False fuel s
          (fun h => h.elim) r hr
        exact ⟨_, _, new, h1, h2⟩
      · obtain ⟨new, h1, h2, _⟩ := @optimize_by_global_flow_run api hapi False fuel s
          (fun h => h.elim) r hr
        exact ⟨_, _, new, h1, h2⟩
    obtain ⟨L, cut, new, h1, h2⟩ := key
    refine ⟨new, h1, ?_, ?_, ?_, ?_, ?_⟩
    · intro f b l c hm; exact h2.evu _ hm
    · intro v cf c hm; exact h2.evu _ hm
    · intro f d sk c hm; exact (h2.evu _ hm).2.2
    · intro f d c hm; exact (h2.evu _ hm).2
    · exact h2.sticky.imp (fun hxy hx => (hxy hx).1)

/-- C6, witness: the amended claim for the model of the graph-mutation
interface, on the run of both phases on the graph of `(a & !a) | b`. -/
theorem C6_cutoff_on_budget_excess_witness :
    (∃ r new, test_all_faults spec_api 20 sample_ready_state = Except.ok r
      ∧ r.1.atpg_rr.trace = sample_ready_state.atpg_rr.trace ++ new
      ∧ (∀ f b l c, Event.prop_step f b l c ∈ new → (c = true ↔ l < (f + b) % UINT_MOD))
      ∧ (∀ v cf c, Event.var_dequeued v cf c ∈ new → cf = false ∧ c = false)
      ∧ new.Pairwise (fun x y => x.raises = true → y.gated = false))
    ∧ (∃ r new, optimize_by_global_flow spec_api 20 sample_ready_state = Except.ok r
      ∧ r.1.atpg_rr.trace = sample_ready_state.atpg_rr.trace ++ new
      ∧ (∀ f d c, Event.implication_tried f d c ∈ new → c = false)) := by
  have h := (C6_cutoff_on_budget_excess spec_api spec_api_frame).2.2.2.2.2.2
  obtain ⟨r1, hr1⟩ := sample_atpg_run_ok
  obtain ⟨r2, hr2⟩ := sample_global_flow_run_ok
  obtain ⟨new1, a1, a2, a3, _, _, a6⟩ := h 20 _ r1 (Or.inl hr1)
  obtain ⟨new2, b1, _, _, _, b5, _⟩ := h 20 _ r2 (Or.inr hr2)
  exact ⟨⟨r1, new1, hr1, a1, a2, a3, a6⟩, ⟨r2, new2, hr2, b1, b5⟩⟩

/-- C7 (budget obedience). In a run of `test_all_faults` resp.
`optimize_by_global_flow` that starts without cutoff, with saved counters
within the active budget `L`, and with `L + 2 < 2 ^ 32` (no wrap-around of
the `unsigned` counters): at every propagation step the sum of the counters
is at most `L + 2` (the step that crosses the limit, and the one forward step
that follows a backward cutoff), every node and every variable is assigned
while `prop_cutoff` is clear, a step that raised the cutoff is followed by no
assignment, and the counters saved at the end are at most `L + 2`. -/
theorem C7_budget_obedience (api : GraphAPI) (hapi : APIFrame api) (fuel : Nat) (s : Nenofex)
    (hcut : s.atpg_rr.prop_cutoff = false) :
    (active_limit s + 2 < UINT_MOD →
      s.atpg_rr.atpg_fwd_prop_cnt + s.atpg_rr.atpg_bwd_prop_cnt ≤ active_limit s →
      ∀ r, test_all_faults api fuel s = Except.ok r →
        ∃ new, r.1.atpg_rr.trace = s.atpg_rr.trace ++ new
          ∧ (∀ f b l c, Event.prop_step f b l c ∈ new →
                l = active_limit s ∧ f + b ≤ active_limit s + 2)
          ∧ (∀ n v c, Event.node_assigned n v c ∈ new → c = false)
          ∧ (∀ x v c, Event.var_assigned x v c ∈ new → c = false)
          ∧ new.Pairwise (fun x y => x.raises = true → y.assigns = false)
          ∧ r.1.atpg_rr.atpg_fwd_prop_cnt + r.1.atpg_rr.atpg_bwd_prop_cnt
              ≤ active_limit s + 2)
    ∧ (s.limits.GLOBAL_FLOW_PROPAGATION_LIMIT + 2 < UINT_MOD →
      s.atpg_rr.global_flow_fwd_prop_cnt + s.atpg_rr.global_flow_bwd_prop_cnt
        ≤ s.limits.GLOBAL_FLOW_PROPAGATION_LIMIT →
      ∀ r, optimize_by_global_flow api fuel s = Except.ok r →
        ∃ new, r.1.atpg_rr.trace = s.atpg_rr.trace ++ new
          ∧ (∀ f b l c, Event.prop_step f b l c ∈ new →
                l = s.limits.GLOBAL_FLOW_PROPAGATION_LIMIT
                ∧ f + b ≤ s.limits.GLOBAL_FLOW_PROPAGATION_LIMIT + 2)
          ∧ (∀ n v c, Event.node_assigned n v c ∈ new → c = false)
          ∧ (∀ x v c, Event.var_assigned x v c ∈ new → c = false)
          ∧ new.Pairwise (fun x y => x.raises = true → y.assigns = false)
          ∧ r.1.atpg_rr.global_flow_fwd_prop_cnt + r.1.atpg_rr.global_flow_bwd_prop_cnt
              ≤ s.limits.GLOBAL_FLOW_PROPAGATION_LIMIT + 2) := by
  constructor
  · intro hw hs r hr
    obtain ⟨new, h1, h2, h3⟩ := @test_all_faults_run api hapi True fuel s
      (fun _ => ⟨hw, hcut, hs⟩) r hr
    refine ⟨new, h1, ?_, ?_, ?_, ?_, h3 trivial⟩
    · intro f b l c hm; exact h2.evc trivial _ hm
    · intro n v c hm; exact h2.evc trivial _ hm
    · intro x v c hm; exact h2.evc trivial _ hm
    · exact h2.sticky.imp (fun hxy hx => (hxy hx).2 trivial)
  · intro hw hs r hr
    obtain ⟨new, h1, h2, h3⟩ := @optimize_by_global_flow_run api hapi True fuel s
      (fun _ => ⟨hw, hcut, hs⟩) r hr
    refine ⟨new, h1, ?_, ?_, ?_, ?_, h3 trivial⟩
    · intro f b l c hm; exact h2.evc trivial _ hm
    · intro n v c hm; exact h2.evc trivial _ hm
    · intro x v c hm; exact h2.evc trivial _ hm
    · exact h2.sticky.imp (fun hxy hx => (hxy hx).2 trivial)

set_option maxRecDepth 100000 in
/-- C7, witness: the run of `test_all_faults` on the graph of `(a & !a) | b`
with the table budget 1500000. -/
theorem C7_budget_obedience_witness :
    sample_ready_state.atpg_rr.prop_cutoff = false
    ∧ active_limit sample_ready_state = 1500000
    ∧ ∃ r new, test_all_faults spec_api 20 sample_ready_state = Except.ok r
      ∧ r.1.atpg_rr.trace = sample_ready_state.atpg_rr.trace ++ new
      ∧ (∀ f b l c, Event.prop_step f b l c ∈ new → l = 1500000 ∧ f + b ≤ 1500000 + 2)
      ∧ (∀ n v c, Event.node_assigned n v c ∈ new → c = false)
      ∧ (∀ x v c, Event.var_assigned x v c ∈ new → c = false) := by
  have hl : active_limit sample_ready_state = 1500000 := rfl
  obtain ⟨r, hr⟩ := sample_atpg_run_ok
  have h := (C7_budget_obedience spec_api spec_api_frame 20 sample_ready_state rfl).1
  rw [hl] at h
  obtain ⟨new, h1, h2, h3, h4, _, _⟩ := h (by unfold UINT_MOD; omega) (Nat.zero_le _) r hr
  exact ⟨rfl, hl, r, new, hr, h1, h2, h3, h4⟩

/-- C10 (handle safety). A handle whose `deleted` flag (in the ATPG phase: or
whose `skip` flag) is set is dropped when it is dequeued: the loop goes on
with the rest of the queue in the same state, so the handle's node pointer is
not read and the handle is put on neither `non_redundant_faults` nor
`tested_nodes`. In every run of `test_all_faults` every handle handed to
`test_fault_is_redundant` had `deleted = 0` and `skip = 0`, and in every run
of `optimize_by_global_flow` every handle handed to
`derive_implications_from_node` had `deleted = 0`. -/
theorem C10_handle_safety (api : GraphAPI) (hapi : APIFrame api) :
    (∀ fuel s nrf ct f rest fn, s.atpg_rr.prop_cutoff = false →
        s.atpg_rr.fault_queue = f :: rest → get_fault_node s f = Except.ok fn →
        fn.deleted = true ∨ fn.skip = true →
        test_all_faults_inner api (fuel + 1) s nrf ct
          = test_all_faults_inner api fuel { s with atpg_rr.fault_queue := rest } nrf ct)
    ∧ (∀ fuel s tested co ft f rest fn, s.atpg_rr.prop_cutoff = false →
        s.atpg_rr.fault_queue = f :: rest → get_fault_node s f = Except.ok fn →
        fn.deleted = true →
        optimize_by_global_flow_inner api (fuel + 1) s tested co ft
          = optimize_by_global_flow_inner api fuel { s with atpg_rr.fault_queue := rest }
              tested co ft)
    ∧ (∀ fuel s r, test_all_faults api fuel s = Except.ok r →
        ∃ new, r.1.atpg_rr.trace = s.atpg_rr.trace ++ new
          ∧ ∀ f d sk c, Event.fault_tested f d sk c ∈ new → d = false ∧ sk = false)
    ∧ (∀ fuel s r, optimize_by_global_flow api fuel s = Except.ok r →
        ∃ new, r.1.atpg_rr.trace = s.atpg_rr.trace ++ new
          ∧ ∀ f d c, Event.implication_tried f d c ∈ new → d = false) := by
  refine ⟨?_, ?_, ?_, ?_⟩
  · intro fuel s nrf ct f rest fn hc hq hf h
    exact test_all_faults_inner_drops api fuel s nrf ct f rest fn hc hq hf h
  · intro fuel s tested co ft f rest fn hc hq hf h
    exact optimize_by_global_flow_inner_drops api fuel s tested co ft f rest fn hc hq hf h
  · intro fuel s r hr
    obtain ⟨new, h1, h2, _⟩ := @test_all_faults_run api hapi False fuel s (fun h => h.elim) r hr
    exact ⟨new, h1, fun f d sk c hm => ⟨(h2.evu _ hm).1, (h2.evu _ hm).2.1⟩⟩
  · intro fuel s r hr
    obtain ⟨new, h1, h2, _⟩ := @optimize_by_global_flow_run api hapi False fuel s
      (fun h => h.elim) r hr
    exact ⟨new, h1, fun f d c hm => (h2.evu _ hm).1⟩

/-- C10, witness: the runs of both phases on the graph of `(a & !a) | b`, in
which the `AND` and its literals are deleted during the ATPG phase. -/
theorem C10_handle_safety_witness :
    (∃ r new, test_all_faults spec_api 20 sample_ready_state = Except.ok r
      ∧ r.1.atpg_rr.trace = sample_ready_state.atpg_rr.trace ++ new
      ∧ ∀ f d sk c, Event.fault_tested f d sk c ∈ new → d = false ∧ sk = false)
    ∧ (∃ r new, optimize_by_global_flow spec_api 20 sample_ready_state = Except.ok r
      ∧ r.1.atpg_rr.trace = sample_ready_state.atpg_rr.trace ++ new
      ∧ ∀ f d c, Event.implication_tried f d c ∈ new → d = false) := by
  have h := C10_handle_safety spec_api spec_api_frame
  obtain ⟨r1, hr1⟩ := sample_atpg_run_ok
  obtain ⟨r2, hr2⟩ := sample_global_flow_run_ok
  obtain ⟨new1, a1, a2⟩ := h.2.2.1 20 _ r1 hr1
  obtain ⟨new2, b1, b2⟩ := h.2.2.2 20 _ r2 hr2
  exact ⟨⟨r1, new1, hr1, a1, a2⟩, ⟨r2, new2, hr2, b1, b2⟩⟩

/-! ## Theorems: the reset after a pass (claim C9) -/

theorem get_node_ok {s : Nenofex} {n : Nat} {nd : Node} (h : get_node s n = Except.ok nd) :
    s.nodes[n]? = some (some nd) := by
  unfold get_node at h
  split at h
  · rename_i nd1 h1
    rw [pure_ok] at h
    rw [h1, h]
  · exact (throw_ok.mp h).elim

theorem deref_ok {α : Type} {o : Option α} {a : α} (h : deref o = Except.ok a) : o = some a := by
  unfold deref at h
  cases o with
  | none => exact (throw_ok.mp h).elim
  | some b => rw [pure_ok] at h; rw [h]

theorem getElem?_lt {α : Type} {l : List α} {i : Nat} {a : α} (h : l[i]? = some a) :
    i < l.length := by
  by_contra hc
  rw [List.getElem?_eq_none (Nat.le_of_not_lt hc)] at h
  cases h

set_option maxRecDepth 100000 in
theorem sample_main_run_ok :
    ∃ r, simplify_by_global_flow_and_atpg_main spec_api 20 sample_graph = Except.ok r :=
  isOk_exists rfl

theorem Fin_pure {α : Type} {a : α} {Q : α → Prop} (h : Q a) : Fin (pure a) Q :=
  ⟨(fun h1 => by simp [pure, Except.pure] at h1), Tri_pure h⟩

theorem Fin_undef {α : Type} {Q : α → Prop} : Fin (throw Err.undef : M α) Q :=
  ⟨(fun h1 => by simp [throw, throwThe, MonadExceptOf.throw] at h1), Tri_throw⟩

theorem Fin_bind {α β : Type} {x : M α} {f : α → M β} {P : α → Prop} {Q : β → Prop}
    (hx : Fin x P) (hf : ∀ a, P a → Fin (f a) Q) : Fin (x >>= f) Q := by
  refine ⟨?_, Tri_bind hx.2 (fun a ha => (hf a ha).2)⟩
  cases hxx : x with
  | error e =>
    intro h
    have : e = Err.fuel := by
      simp only [bind, Except.bind] at h
      cases h; rfl
    exact hx.1 (by rw [hxx, this])
  | ok a =>
    exact (hf a (hx.2 a hxx)).1

theorem Fin_seq {α β : Type} {x : M α} {f : α → M β} (P : α → Prop) {Q : β → Prop}
    (hx : Fin x P) (hf : ∀ a, P a → Fin (f a) Q) : Fin (x >>= f) Q :=
  Fin_bind hx hf

theorem Fin_mono {α : Type} {x : M α} {P Q : α → Prop} (hx : Fin x P) (h : ∀ a, P a → Q a) :
    Fin x Q :=
  ⟨hx.1, Tri_mono hx.2 h⟩

theorem Fin_tri {α : Type} {x : M α} {P Q : α → Prop} (hx : Fin x P) (ht : Tri x Q) :
    Fin x Q :=
  ⟨hx.1, ht⟩

theorem Fin_and {α : Type} {x : M α} {P Q : α → Prop} (hx : Fin x P) (ht : Tri x Q) :
    Fin x (fun a => P a ∧ Q a) :=
  ⟨hx.1, Tri_and hx.2 ht⟩

theorem Fin_ite {α : Type} {c : Prop} [Decidable c] {x y : M α} {Q : α → Prop}
    (hx : c → Fin x Q) (hy : ¬ c → Fin y Q) : Fin (if c then x else y) Q := by
  by_cases h : c
  · rw [if_pos h]; exact hx h
  · rw [if_neg h]; exact hy h

theorem Fin_read {α β : Type} {x : M α} {f : α → M β} {Q : β → Prop}
    (hx : Fin x (fun _ => True)) (hf : ∀ a, Fin (f a) Q) : Fin (x >>= f) Q :=
  Fin_bind hx (fun a _ => hf a)

theorem deref_fin {α : Type} (o : Option α) : Fin (deref o) (fun _ => True) := by
  unfold deref
  cases o with
  | none => exact Fin_undef
  | some a => exact Fin_pure trivial

theorem get_node_fin (s : Nenofex) (n : Nat) : Fin (get_node s n) (fun _ => True) := by
  unfold get_node
  split
  · exact Fin_pure trivial
  · exact Fin_undef

theorem get_info_fin (s : Nenofex) (i : Nat) : Fin (get_info s i) (fun _ => True) := by
  unfold get_info
  split
  · exact deref_fin _
  · exact Fin_undef

theorem info_index_fin (s : Nenofex) (n : Nat) : Fin (info_index s n) (fun _ => True) := by
  unfold info_index
  exact Fin_read (get_node_fin _ _) fun nd => deref_fin _

theorem node_info_fin (s : Nenofex) (n : Nat) : Fin (node_info s n) (fun _ => True) := by
  unfold node_info
  exact Fin_read (info_index_fin _ _) fun i => get_info_fin _ _

theorem get_fault_node_fin (s : Nenofex) (f : Nat) :
    Fin (get_fault_node s f) (fun _ => True) :=
  deref_fin _

theorem get_var_fin (s : Nenofex) (v : Nat) : Fin (get_var s v) (fun _ => True) :=
  deref_fin _

theorem node_assigned_fin (s : Nenofex) (n : Nat) : Fin (node_assigned s n) (fun _ => True) := by
  unfold node_assigned
  exact Fin_read (node_info_fin _ _) fun a => Fin_pure trivial

theorem SameCount_refl (s : Nenofex) : SameCount s s := ⟨rfl, rfl, rfl⟩

theorem SameCount_trans {s s1 s2 : Nenofex} (h1 : SameCount s s1) (h2 : SameCount s1 s2) :
    SameCount s s2 :=
  ⟨h2.1.trans h1.1, h2.2.1.trans h1.2.1, h2.2.2.trans h1.2.2⟩

theorem modify_node_info_same (s : Nenofex) (n : Nat) (f : ATPGInfo → ATPGInfo) :
    Fin (modify_node_info s n f) (SameCount s) := by
  unfold modify_node_info
  exact Fin_read (info_index_fin _ _) fun i => Fin_read (get_info_fin _ _) fun a =>
    Fin_pure (SameCount_refl s)

theorem node_assign_same (s : Nenofex) (n : Nat) (v : ATPGAssignment) :
    Fin (node_assign s n v) (SameCount s) := by
  unfold node_assign
  exact Fin_read (info_index_fin _ _) fun i => Fin_read (get_info_fin _ _) fun a =>
    Fin_pure (SameCount_refl s)

theorem var_assign_same (s : Nenofex) (v : Nat) (x : VarAssignment) :
    Fin (var_assign s v x) (SameCount s) := by
  unfold var_assign
  exact Fin_read (get_var_fin _ _) fun var => Fin_pure (SameCount_refl s)

theorem collect_assigned_node_same (s : Nenofex) (n : Nat) :
    Fin (collect_assigned_node s n) (SameCount s) := by
  unfold collect_assigned_node
  exact Fin_read (info_index_fin _ _) fun i => Fin_read (get_info_fin _ _) fun a =>
    Fin_ite (fun _ => Fin_pure (SameCount_refl s)) (fun _ => Fin_pure (SameCount_refl s))

theorem push_unassigned_children_same (l : List Nat) :
    ∀ s, Fin (push_unassigned_children s l) (SameCount s) := by
  induction l with
  | nil => intro s; exact Fin_pure (SameCount_refl s)
  | cons ch rest ih =>
    intro s
    unfold push_unassigned_children
    refine Fin_read (node_assigned_fin _ _) fun b => ?_
    split
    · exact ih s
    · exact Fin_mono (ih _) (fun _ h => h)

theorem scan_watcher_list_fin (s : Nenofex) (l : List Nat) :
    ∀ cur, Fin (scan_watcher_list s l cur) (fun _ => True) := by
  induction l with
  | nil => intro cur; exact Fin_pure trivial
  | cons f rest ih =>
    intro cur
    unfold scan_watcher_list
    refine Fin_read (get_fault_node_fin _ _) fun fn => ?_
    refine Fin_read (node_assigned_fin _ _) fun b => ?_
    split
    · exact ih _
    · exact Fin_pure trivial

theorem scan_child_list_fin (s : Nenofex) (l : List Nat) :
    Fin (scan_child_list s l) (fun _ => True) := by
  induction l with
  | nil => exact Fin_pure trivial
  | cons c rest ih =>
    unfold scan_child_list
    refine Fin_read (node_assigned_fin _ _) fun b => ?_
    split
    · exact ih
    · exact Fin_pure trivial

theorem level_link_after_fin (s : Nenofex) (n : Nat) :
    Fin (level_link_after s n) (fun _ => True) := by
  unfold level_link_after
  refine Fin_read (get_node_fin _ _) fun nd => ?_
  split
  · exact Fin_pure trivial
  · exact Fin_read (get_node_fin _ _) fun pnd => Fin_pure trivial

theorem update_watcher_by_watcher_list_same (s : Nenofex) (n : Nat) :
    Fin (update_watcher_by_watcher_list s n) (SameCount s) := by
  unfold update_watcher_by_watcher_list
  refine Fin_read (info_index_fin _ _) fun i => Fin_read (get_info_fin _ _) fun a =>
    Fin_read (deref_fin _) fun w => Fin_read (node_assigned_fin _ _) fun b => ?_
  refine Fin_ite (fun _ => ?_) (fun _ => Fin_pure (SameCount_refl s))
  refine Fin_read (deref_fin _) fun ch => Fin_read (deref_fin _) fun pos =>
    Fin_read (scan_watcher_list_fin _ _ _) fun r => ?_
  exact Fin_ite (fun _ => Fin_pure (SameCount_refl s)) (fun _ => Fin_pure (SameCount_refl s))

theorem update_watcher_by_child_list_same (s : Nenofex) (n : Nat) :
    Fin (update_watcher_by_child_list s n) (SameCount s) := by
  unfold update_watcher_by_child_list
  refine Fin_read (info_index_fin _ _) fun i => Fin_read (get_info_fin _ _) fun a =>
    Fin_read (deref_fin _) fun w => Fin_read (node_assigned_fin _ _) fun b => ?_
  refine Fin_ite (fun _ => ?_) (fun _ => Fin_pure (SameCount_refl s))
  exact Fin_read (level_link_after_fin _ _) fun after =>
    Fin_read (scan_child_list_fin _ _) fun w2 => Fin_pure (SameCount_refl s)

theorem update_counter_and_watcher_same (s : Nenofex) (n : Nat) :
    Fin (update_counter_and_watcher s n) (SameCount s) := by
  unfold update_counter_and_watcher
  refine Fin_read (info_index_fin _ _) fun i => Fin_read (get_info_fin _ _) fun a => ?_
  split
  · exact Fin_mono (update_watcher_by_watcher_list_same _ _) (fun _ h => h)
  · exact Fin_mono (update_watcher_by_child_list_same _ _) (fun _ h => h)

theorem set_neg_occs_same (s : Nenofex) (v : Nat) (o : List Nat) :
    Fin (set_neg_occs s v o) (SameCount s) := by
  unfold set_neg_occs
  exact Fin_read (get_var_fin _ _) fun x => Fin_pure (SameCount_refl s)

theorem set_pos_occs_same (s : Nenofex) (v : Nat) (o : List Nat) :
    Fin (set_pos_occs s v o) (SameCount s) := by
  unfold set_pos_occs
  exact Fin_read (get_var_fin _ _) fun x => Fin_pure (SameCount_refl s)

theorem parent_parent_path_mark_fin (s : Nenofex) (p : Nat) :
    Fin (parent_parent_path_mark s p) (fun _ => True) := by
  unfold parent_parent_path_mark
  refine Fin_read (get_node_fin _ _) fun pnd => ?_
  split
  · exact Fin_pure trivial
  · refine Fin_read (get_node_fin _ _) fun ppnd => ?_
    split
    · exact Fin_pure trivial
    · exact Fin_read (get_info_fin _ _) fun a => Fin_pure trivial

theorem off_path_input_fin (s : Nenofex) (p : Nat) (pa : ATPGInfo) (v : ATPGAssignment) :
    Fin (off_path_input s p pa v) (fun _ => True) := by
  unfold off_path_input
  exact Fin_ite (fun _ => Fin_pure trivial)
    (fun _ => Fin_ite (fun _ => parent_parent_path_mark_fin _ _) (fun _ => Fin_pure trivial))

theorem forward_assign_same (s : Nenofex) (n : Nat) (v : ATPGAssignment) :
    Fin (forward_assign s n v) (fun r => SameCount s r.1) := by
  unfold forward_assign
  refine Fin_bind (node_assign_same _ _ _) (fun s1 h1 => ?_)
  refine Fin_bind (modify_node_info_same _ _ _) (fun s2 h2 => ?_)
  refine Fin_bind (collect_assigned_node_same _ _) (fun s3 h3 => ?_)
  have e3 := SameCount_trans (SameCount_trans h1 h2) h3
  refine Fin_read (get_node_fin _ _) fun nd => Fin_ite (fun _ => Fin_pure e3) (fun _ => ?_)
  refine Fin_read (deref_fin _) fun parent => Fin_read (node_info_fin _ _) fun pa => ?_
  refine Fin_ite (fun _ => ?_) (fun _ => Fin_pure e3)
  refine Fin_bind (update_counter_and_watcher_same _ _) (fun s4 h4 => ?_)
  refine Fin_bind (collect_assigned_node_same _ _) (fun s5 h5 => ?_)
  exact Fin_pure (SameCount_trans (SameCount_trans e3 h4) h5)

/-- The literal case of a backward step: the counters are unchanged and at
most one variable is enqueued. -/
theorem backward_literal_grow (s : Nenofex) (n : Nat) (want : Bool) :
    Fin (backward_literal s n want) (fun s1 =>
      s1.atpg_rr.stats.fwd_prop_cnt = s.atpg_rr.stats.fwd_prop_cnt
      ∧ s1.atpg_rr.stats.bwd_prop_cnt = s.atpg_rr.stats.bwd_prop_cnt
      ∧ s1.atpg_rr.propagation_queue.length ≤ s.atpg_rr.propagation_queue.length + 1) := by
  unfold backward_literal
  refine Fin_read (get_node_fin _ _) fun nd => Fin_read (deref_fin _) fun lit =>
    Fin_read (get_var_fin _ _) fun var => ?_
  refine Fin_ite (fun _ => ?_) (fun _ => Fin_ite (fun _ => Fin_pure ⟨rfl, rfl, Nat.le_succ _⟩)
    (fun _ => Fin_pure ⟨rfl, rfl, Nat.le_succ _⟩))
  refine Fin_bind (var_assign_same _ _ _) (fun s1 h1 => Fin_pure ⟨h1.1, h1.2.1, ?_⟩)
  show (s1.atpg_rr.propagation_queue ++ [lit.var]).length ≤ _
  rw [h1.2.2, List.length_append]
  exact Nat.le_refl _

theorem SameCount_sum {s s1 : Nenofex} (h : SameCount s s1) : step_sum s1 = step_sum s := by
  unfold step_sum
  rw [h.1, h.2.1]

theorem SameCount_queue {s s1 : Nenofex} (h : SameCount s s1) :
    s1.atpg_rr.propagation_queue.length = s.atpg_rr.propagation_queue.length := by
  rw [h.2.2]

theorem Adv_refl (s : Nenofex) : Adv s s := ⟨Nat.le_refl _, Nat.le_refl _⟩

theorem Adv_trans {s s1 s2 : Nenofex} (h1 : Adv s s1) (h2 : Adv s1 s2) : Adv s s2 := by
  unfold Adv at *
  omega

theorem Adv_of {s s1 : Nenofex} (h1 : step_sum s ≤ step_sum s1)
    (h2 : s1.atpg_rr.propagation_queue.length + step_sum s
      ≤ s.atpg_rr.propagation_queue.length + step_sum s1) : Adv s s1 :=
  ⟨h1, h2⟩

theorem Adv_same {s s1 : Nenofex} (h : SameCount s s1) : Adv s s1 := by
  have h1 := SameCount_sum h
  have h2 := SameCount_queue h
  unfold Adv
  omega

theorem InvA_sum_le {L : Nat} {T : List Event} {s : Nenofex} (h : InvA True L T s) :
    step_sum s ≤ L := by
  have h1 := (h.1.bud trivial).2
  have h2 := h.2 trivial
  rcases h1 with h1 | h1
  · exact h1.2
  · rw [h2] at h1; exact absurd h1.1 (by simp)

theorem Inv_sum_le {L : Nat} {T : List Event} {s : Nenofex} (h : Inv True L T s) :
    step_sum s ≤ L + 2 := by
  have h1 := (h.bud trivial).2
  rcases h1 with h1 | h1
  · exact Nat.le_trans h1.2 (Nat.le_add_right _ _)
  · exact h1.2.2

theorem backward_propagate_truth_loop_fin {L : Nat} {T : List Event} (fuel : Nat) :
    ∀ s, InvA True L T s → L + 1 - step_sum s ≤ fuel →
      Fin (backward_propagate_truth_loop fuel s) (Adv s) := by
  induction fuel with
  | zero =>
    intro s hI hf
    have := InvA_sum_le hI
    omega
  | succ fuel ih =>
    intro s hI hf
    have hle := InvA_sum_le hI
    unfold backward_propagate_truth_loop
    refine Fin_ite (fun _ => Fin_pure (Adv_refl s)) (fun _ => ?_)
    split
    · exact Fin_pure (Adv_refl s)
    · exact Fin_pure (Adv_refl s)
    · rename_i node rest _
      have h0 : InvA True L T { s with atpg_rr.bwd_prop_stack := rest } := InvA_of_core hI rfl
      obtain ⟨hex, hok, hsum⟩ := @Inv_step True L T _
        (inc_bwd_prop_cnt { s with atpg_rr.bwd_prop_stack := rest })
        (InvA_toB h0) rfl rfl rfl (Or.inr ⟨rfl, rfl⟩)
      have hs1 : step_sum (inc_bwd_prop_cnt { s with atpg_rr.bwd_prop_stack := rest })
          = step_sum s + 1 := hsum trivial
      refine Fin_ite (fun hx => Fin_pure ?_) (fun hx => ?_)
      · exact Adv_of (by show step_sum s ≤ step_sum (inc_bwd_prop_cnt _); omega)
          (by show _ + step_sum s ≤ _ + step_sum (inc_bwd_prop_cnt _); rw [hs1]
              show s.atpg_rr.propagation_queue.length + _ ≤ _; omega)
      have h1 := hok (by simpa using hx)
      have hs2 : step_sum (log_step (inc_bwd_prop_cnt
          { s with atpg_rr.bwd_prop_stack := rest }) false) = step_sum s + 1 := hs1
      have key : ∀ s3 : Nenofex, InvA True L T s3 → step_sum s3 = step_sum s + 1 →
          s3.atpg_rr.propagation_queue.length ≤ s.atpg_rr.propagation_queue.length + 1 →
          Fin (backward_propagate_truth_loop fuel s3) (Adv s) := by
        intro s3 hI3 hsum3 hq3
        refine Fin_mono (ih s3 hI3 (by omega)) (fun s4 h4 => ?_)
        unfold Adv at h4 ⊢
        omega
      refine Fin_read (get_node_fin _ _) fun nd => ?_
      refine Fin_ite (fun _ => ?_) (fun _ => Fin_ite (fun _ => ?_) (fun _ => ?_))
      · refine Fin_bind (Fin_and (backward_literal_grow _ _ _) (backward_literal_inv _ _ h1))
          (fun s3 h3 => ?_)
        obtain ⟨⟨e1, e2, e3⟩, hI3⟩ := h3
        exact key s3 hI3 (by unfold step_sum at hs2 ⊢; rw [e1, e2]; exact hs2) e3
      · refine Fin_bind (Fin_and (node_assign_same _ _ _) (node_assign_inv _ _ h1))
          (fun s3 h3 => ?_)
        refine Fin_bind (Fin_and (collect_assigned_node_same _ _)
          (Tri_quiet_InvA (collect_assigned_node_core _ _) h3.2)) (fun s4 h4 => ?_)
        refine Fin_bind (Fin_and (push_unassigned_children_same _ _)
          (Tri_quiet_InvA (push_unassigned_children_core _ _) h4.2)) (fun s5 h5 => ?_)
        refine Fin_bind (Fin_and (modify_node_info_same _ _ _)
          (Tri_quiet_InvA (modify_node_info_core _ _ _) h5.2)) (fun s6 h6 => ?_)
        have e := SameCount_trans (SameCount_trans (SameCount_trans h3.1 h4.1) h5.1) h6.1
        exact key s6 h6.2 ((SameCount_sum e).trans hs2) (by rw [SameCount_queue e]; exact Nat.le_succ _)
      · refine Fin_bind (Fin_and (node_assign_same _ _ _) (node_assign_inv _ _ h1))
          (fun s3 h3 => ?_)
        refine Fin_bind (Fin_and (collect_assigned_node_same _ _)
          (Tri_quiet_InvA (collect_assigned_node_core _ _) h3.2)) (fun s4 h4 => ?_)
        have e4 := SameCount_trans h3.1 h4.1
        refine Fin_read (node_info_fin _ _) fun a => Fin_ite (fun _ => ?_) (fun _ => ?_)
        · have h5 : InvA True L T
              { s4 with atpg_rr.bwd_prop_stack := a.watcher :: s4.atpg_rr.bwd_prop_stack } :=
            InvA_of_core h4.2 rfl
          refine Fin_bind (Fin_and (modify_node_info_same _ _ _)
            (Tri_quiet_InvA (modify_node_info_core _ _ _) h5)) (fun s6 h6 => ?_)
          have e6 : SameCount _ s6 := SameCount_trans e4 (SameCount_trans ⟨rfl, rfl, rfl⟩ h6.1)
          exact key s6 h6.2 ((SameCount_sum e6).trans hs2)
            (by rw [SameCount_queue e6]; exact Nat.le_succ _)
        · exact key s4 h4.2 ((SameCount_sum e4).trans hs2)
            (by rw [SameCount_queue e4]; exact Nat.le_succ _)

theorem backward_propagate_falsity_loop_fin {L : Nat} {T : List Event} (fuel : Nat) :
    ∀ s, InvA True L T s → L + 1 - step_sum s ≤ fuel →
      Fin (backward_propagate_falsity_loop fuel s) (Adv s) := by
  induction fuel with
  | zero =>
    intro s hI hf
    have := InvA_sum_le hI
    omega
  | succ fuel ih =>
    intro s hI hf
    have hle := InvA_sum_le hI
    unfold backward_propagate_falsity_loop
    refine Fin_ite (fun _ => Fin_pure (Adv_refl s)) (fun _ => ?_)
    split
    · exact Fin_pure (Adv_refl s)
    · exact Fin_pure (Adv_refl s)
    · rename_i node rest _
      have h0 : InvA True L T { s with atpg_rr.bwd_prop_stack := rest } := InvA_of_core hI rfl
      obtain ⟨hex, hok, hsum⟩ := @Inv_step True L T _
        (inc_bwd_prop_cnt { s with atpg_rr.bwd_prop_stack := rest })
        (InvA_toB h0) rfl rfl rfl (Or.inr ⟨rfl, rfl⟩)
      have hs1 : step_sum (inc_bwd_prop_cnt { s with atpg_rr.bwd_prop_stack := rest })
          = step_sum s + 1 := hsum trivial
      refine Fin_ite (fun hx => Fin_pure ?_) (fun hx => ?_)
      · exact Adv_of (by show step_sum s ≤ step_sum (inc_bwd_prop_cnt _); omega)
          (by show _ + step_sum s ≤ _ + step_sum (inc_bwd_prop_cnt _); rw [hs1]
              show s.atpg_rr.propagation_queue.length + _ ≤ _; omega)
      have h1 := hok (by simpa using hx)
      have hs2 : step_sum (log_step (inc_bwd_prop_cnt
          { s with atpg_rr.bwd_prop_stack := rest }) false) = step_sum s + 1 := hs1
      have key : ∀ s3 : Nenofex, InvA True L T s3 → step_sum s3 = step_sum s + 1 →
          s3.atpg_rr.propagation_queue.length ≤ s.atpg_rr.propagation_queue.length + 1 →
          Fin (backward_propagate_falsity_loop fuel s3) (Adv s) := by
        intro s3 hI3 hsum3 hq3
        refine Fin_mono (ih s3 hI3 (by omega)) (fun s4 h4 => ?_)
        unfold Adv at h4 ⊢
        omega
      refine Fin_read (get_node_fin _ _) fun nd => ?_
      refine Fin_ite (fun _ => ?_) (fun _ => Fin_ite (fun _ => ?_) (fun _ => ?_))
      · refine Fin_bind (Fin_and (backward_literal_grow _ _ _) (backward_literal_inv _ _ h1))
          (fun s3 h3 => ?_)
        obtain ⟨⟨e1, e2, e3⟩, hI3⟩ := h3
        exact key s3 hI3 (by unfold step_sum at hs2 ⊢; rw [e1, e2]; exact hs2) e3
      · refine Fin_bind (Fin_and (node_assign_same _ _ _) (node_assign_inv _ _ h1))
          (fun s3 h3 => ?_)
        refine Fin_bind (Fin_and (collect_assigned_node_same _ _)
          (Tri_quiet_InvA (collect_assigned_node_core _ _) h3.2)) (fun s4 h4 => ?_)
        have e4 := SameCount_trans h3.1 h4.1
        refine Fin_read (node_info_fin _ _) fun a => Fin_ite (fun _ => ?_) (fun _ => ?_)
        · have h5 : InvA True L T
              { s4 with atpg_rr.bwd_prop_stack := a.watcher :: s4.atpg_rr.bwd_prop_stack } :=
            InvA_of_core h4.2 rfl
          refine Fin_bind (Fin_and (modify_node_info_same _ _ _)
            (Tri_quiet_InvA (modify_node_info_core _ _ _) h5)) (fun s6 h6 => ?_)
          have e6 : SameCount _ s6 := SameCount_trans e4 (SameCount_trans ⟨rfl, rfl, rfl⟩ h6.1)
          exact key s6 h6.2 ((SameCount_sum e6).trans hs2)
            (by rw [SameCount_queue e6]; exact Nat.le_succ _)
        · exact key s4 h4.2 ((SameCount_sum e4).trans hs2)
            (by rw [SameCount_queue e4]; exact Nat.le_succ _)
      · refine Fin_bind (Fin_and (node_assign_same _ _ _) (node_assign_inv _ _ h1))
          (fun s3 h3 => ?_)
        refine Fin_bind (Fin_and (collect_assigned_node_same _ _)
          (Tri_quiet_InvA (collect_assigned_node_core _ _) h3.2)) (fun s4 h4 => ?_)
        refine Fin_bind (Fin_and (push_unassigned_children_same _ _)
          (Tri_quiet_InvA (push_unassigned_children_core _ _) h4.2)) (fun s5 h5 => ?_)
        refine Fin_bind (Fin_and (modify_node_info_same _ _ _)
          (Tri_quiet_InvA (modify_node_info_core _ _ _) h5.2)) (fun s6 h6 => ?_)
        have e := SameCount_trans (SameCount_trans (SameCount_trans h3.1 h4.1) h5.1) h6.1
        exact key s6 h6.2 ((SameCount_sum e).trans hs2) (by rw [SameCount_queue e]; exact Nat.le_succ _)

theorem backward_propagate_truth_fin {L : Nat} {T : List Event} {s : Nenofex} (fuel : Nat)
    (node : Option Nat) (hI : InvA True L T s) (hf : L + 1 - step_sum s ≤ fuel) :
    Fin (backward_propagate_truth fuel s node) (Adv s) := by
  unfold backward_propagate_truth
  refine Fin_bind (backward_propagate_truth_loop_fin fuel _ (InvA_of_core hI rfl) hf)
    (fun s1 h1 => Fin_pure ?_)
  exact Adv_trans h1 (Adv_same ⟨rfl, rfl, rfl⟩)

theorem backward_propagate_falsity_fin {L : Nat} {T : List Event} {s : Nenofex} (fuel : Nat)
    (node : Option Nat) (hI : InvA True L T s) (hf : L + 1 - step_sum s ≤ fuel) :
    Fin (backward_propagate_falsity fuel s node) (Adv s) := by
  unfold backward_propagate_falsity
  refine Fin_bind (backward_propagate_falsity_loop_fin fuel _ (InvA_of_core hI rfl) hf)
    (fun s1 h1 => Fin_pure ?_)
  exact Adv_trans h1 (Adv_same ⟨rfl, rfl, rfl⟩)

theorem InvB_sum_le {L : Nat} {T : List Event} {s : Nenofex} (h : InvB True L T s) :
    step_sum s ≤ L + 1 := h.2 trivial

theorem forward_propagate_fin {L : Nat} {T : List Event} (fuel : Nat) :
    (∀ s node, InvB True L T s → L + 2 - step_sum s ≤ fuel →
        Fin (forward_propagate_truth fuel s node) (Adv s))
    ∧ (∀ s node, InvB True L T s → L + 2 - step_sum s ≤ fuel →
        Fin (forward_propagate_falsity fuel s node) (Adv s)) := by
  induction fuel with
  | zero =>
    constructor
    · intro s node hI hf
      have := InvB_sum_le hI
      omega
    · intro s node hI hf
      have := InvB_sum_le hI
      omega
  | succ fuel ih =>
    obtain ⟨iht, ihf⟩ := ih
    constructor
    · intro s node hI hf
      have hle := InvB_sum_le hI
      unfold forward_propagate_truth
      obtain ⟨hex, hok, hsum⟩ := @Inv_step True L T _ (inc_fwd_prop_cnt s) hI rfl rfl rfl
        (Or.inl ⟨rfl, rfl⟩)
      have hs1 : step_sum (inc_fwd_prop_cnt s) = step_sum s + 1 := hsum trivial
      refine Fin_ite (fun hx => Fin_pure ?_) (fun hx => ?_)
      · exact Adv_of (by show step_sum s ≤ step_sum (inc_fwd_prop_cnt _); omega)
          (by show _ + step_sum s ≤ _ + step_sum (inc_fwd_prop_cnt _); rw [hs1]
              show s.atpg_rr.propagation_queue.length + _ ≤ _; omega)
      have h1 := hok (by simpa using hx)
      have hs2 : step_sum (log_step (inc_fwd_prop_cnt s) false) = step_sum s + 1 := hs1
      refine Fin_bind (Fin_and (forward_assign_same _ _ _) (forward_assign_inv _ _ h1))
        (fun r h2 => ?_)
      obtain ⟨s2, parent?⟩ := r
      obtain ⟨e2, hI2⟩ := h2
      have hsum2 : step_sum s2 = step_sum s + 1 := (SameCount_sum e2).trans hs2
      have hq2 : s2.atpg_rr.propagation_queue.length = s.atpg_rr.propagation_queue.length :=
        congrArg List.length e2.2.2
      have adv2 : Adv s s2 := by unfold Adv; omega
      have hle2 := InvA_sum_le hI2
      cases parent? with
      | none => exact Fin_pure adv2
      | some parent =>
        refine Fin_read (get_node_fin _ _) fun pnd => Fin_read (node_info_fin _ _) fun pa => ?_
        refine Fin_ite (fun _ => ?_) (fun _ => ?_)
        · refine Fin_read (off_path_input_fin _ _ _ _) fun off_path => ?_
          refine Fin_ite (fun _ => ?_) (fun _ => ?_)
          · refine Fin_ite (fun _ => ?_) (fun _ => Fin_pure adv2)
            refine Fin_bind (Fin_and (backward_propagate_falsity_fin fuel pa.watcher hI2
              (by omega)) (backward_propagate_falsity_inv fuel pa.watcher hI2)) (fun s3 h3 => ?_)
            have adv3 : Adv s s3 := Adv_trans adv2 h3.1
            refine Fin_read (node_info_fin _ _) fun pa1 => ?_
            refine Fin_ite (fun _ => ?_) (fun _ => Fin_pure adv3)
            refine Fin_mono (ihf s3 parent h3.2 ?_) (fun s4 h4 => Adv_trans adv3 h4)
            have := h3.1.1
            omega
          · refine Fin_ite (fun _ => ?_) (fun _ => Fin_pure adv2)
            refine Fin_ite (fun _ => ?_) (fun _ => Fin_pure adv2)
            exact Fin_mono (iht s2 parent (InvA_toB hI2) (by omega))
              (fun s4 h4 => Adv_trans adv2 h4)
        · refine Fin_read (node_info_fin _ _) fun na => ?_
          refine Fin_ite (fun _ => Fin_pure (Adv_trans adv2 (Adv_same ⟨rfl, rfl, rfl⟩)))
            (fun _ => ?_)
          refine Fin_ite (fun _ => ?_) (fun _ => ?_)
          · exact Fin_mono (iht s2 parent (InvA_toB hI2) (by omega))
              (fun s4 h4 => Adv_trans adv2 h4)
          · exact Fin_mono (modify_node_info_same _ _ _)
              (fun s4 h4 => Adv_trans adv2 (Adv_same h4))
    · intro s node hI hf
      have hle := InvB_sum_le hI
      unfold forward_propagate_falsity
      obtain ⟨hex, hok, hsum⟩ := @Inv_step True L T _ (inc_fwd_prop_cnt s) hI rfl rfl rfl
        (Or.inl ⟨rfl, rfl⟩)
      have hs1 : step_sum (inc_fwd_prop_cnt s) = step_sum s + 1 := hsum trivial
      refine Fin_ite (fun hx => Fin_pure ?_) (fun hx => ?_)
      · exact Adv_of (by show step_sum s ≤ step_sum (inc_fwd_prop_cnt _); omega)
          (by show _ + step_sum s ≤ _ + step_sum (inc_fwd_prop_cnt _); rw [hs1]
              show s.atpg_rr.propagation_queue.length + _ ≤ _; omega)
      have h1 := hok (by simpa using hx)
      have hs2 : step_sum (log_step (inc_fwd_prop_cnt s) false) = step_sum s + 1 := hs1
      refine Fin_bind (Fin_and (forward_assign_same _ _ _) (forward_assign_inv _ _ h1))
        (fun r h2 => ?_)
      obtain ⟨s2, parent?⟩ := r
      obtain ⟨e2, hI2⟩ := h2
      have hsum2 : step_sum s2 = step_sum s + 1 := (SameCount_sum e2).trans hs2
      have hq2 : s2.atpg_rr.propagation_queue.length = s.atpg_rr.propagation_queue.length :=
        congrArg List.length e2.2.2
      have adv2 : Adv s s2 := by unfold Adv; omega
      have hle2 := InvA_sum_le hI2
      cases parent? with
      | none => exact Fin_pure adv2
      | some parent =>
        refine Fin_read (get_node_fin _ _) fun pnd => Fin_read (node_info_fin _ _) fun pa => ?_
        refine Fin_ite (fun _ => ?_) (fun _ => ?_)
        · refine Fin_read (off_path_input_fin _ _ _ _) fun off_path => ?_
          refine Fin_ite (fun _ => ?_) (fun _ => ?_)
          · refine Fin_ite (fun _ => ?_) (fun _ => Fin_pure adv2)
            refine Fin_bind (Fin_and (backward_propagate_truth_fin fuel pa.watcher hI2
              (by omega)) (backward_propagate_truth_inv fuel pa.watcher hI2)) (fun s3 h3 => ?_)
            have adv3 : Adv s s3 := Adv_trans adv2 h3.1
            refine Fin_read (node_info_fin _ _) fun pa1 => ?_
            refine Fin_ite (fun _ => ?_) (fun _ => Fin_pure adv3)
            refine Fin_mono (iht s3 parent h3.2 ?_) (fun s4 h4 => Adv_trans adv3 h4)
            have := h3.1.1
            omega
          · refine Fin_ite (fun _ => ?_) (fun _ => Fin_pure adv2)
            refine Fin_ite (fun _ => ?_) (fun _ => Fin_pure adv2)
            exact Fin_mono (ihf s2 parent (InvA_toB hI2) (by omega))
              (fun s4 h4 => Adv_trans adv2 h4)
        · refine Fin_read (node_info_fin _ _) fun na => ?_
          refine Fin_ite (fun _ => Fin_pure (Adv_trans adv2 (Adv_same ⟨rfl, rfl, rfl⟩)))
            (fun _ => ?_)
          refine Fin_ite (fun _ => ?_) (fun _ => ?_)
          · exact Fin_mono (ihf s2 parent (InvA_toB hI2) (by omega))
              (fun s4 h4 => Adv_trans adv2 h4)
          · exact Fin_mono (modify_node_info_same _ _ _)
              (fun s4 h4 => Adv_trans adv2 (Adv_same h4))

theorem propagate_occs_fin {L : Nat} {T : List Event} {fwd : Nenofex → Nat → M Nenofex}
    (fuel : Nat)
    (hf : ∀ s n, InvB True L T s → L + 2 - step_sum s ≤ fuel → Fin (fwd s n) (Adv s))
    (hi : ∀ s n, InvB True L T s → Tri (fwd s n) (Inv True L T)) (k : Nat) :
    ∀ s elems v_occ v_end removed, InvA True L T s → L + 2 - step_sum s ≤ fuel →
      Fin (propagate_occs fwd k s elems v_occ v_end removed) (fun r => Adv s r.1) := by
  induction k with
  | zero =>
    intro s elems v_occ v_end removed _ _
    unfold propagate_occs
    exact Fin_pure (Adv_refl s)
  | succ k ih =>
    intro s elems v_occ v_end removed hI hfuel
    unfold propagate_occs
    refine Fin_ite (fun _ => ?_) (fun _ => Fin_pure (Adv_refl s))
    refine Fin_read (deref_fin _) fun f => Fin_read (get_fault_node_fin _ _) fun occ => ?_
    refine Fin_ite (fun _ => ?_) (fun _ => ?_)
    · refine Fin_ite (fun _ => ih _ _ _ _ _ hI hfuel) (fun _ => ?_)
      exact Fin_read (deref_fin _) fun last => ih _ _ _ _ _ hI hfuel
    · refine Fin_bind (Fin_and (hf s occ.node (InvA_toB hI) hfuel) (hi s occ.node (InvA_toB hI)))
        (fun s1 h1 => ?_)
      refine Fin_ite (fun _ => Fin_pure h1.1) (fun hc => ?_)
      have hcut : s1.atpg_rr.prop_cutoff = false := by
        cases h : s1.atpg_rr.prop_cutoff with
        | false => rfl
        | true => exact absurd (Or.inr h) hc
      have := h1.1.1
      exact Fin_mono (ih s1 _ _ _ _ ⟨h1.2, fun _ => hcut⟩ (by omega))
        (fun r hr => Adv_trans h1.1 hr)

theorem propagate_variable_fin {L : Nat} {T : List Event}
    {fneg fpos : Nenofex → Nat → M Nenofex} (fuel : Nat)
    (hn : ∀ s n, InvB True L T s → L + 2 - step_sum s ≤ fuel → Fin (fneg s n) (Adv s))
    (hni : ∀ s n, InvB True L T s → Tri (fneg s n) (Inv True L T))
    (hp : ∀ s n, InvB True L T s → L + 2 - step_sum s ≤ fuel → Fin (fpos s n) (Adv s))
    (hpi : ∀ s n, InvB True L T s → Tri (fpos s n) (Inv True L T))
    {s : Nenofex} (v : Nat) (hI : InvA True L T s) (hfuel : L + 2 - step_sum s ≤ fuel) :
    Fin (propagate_variable fneg fpos s v) (Adv s) := by
  unfold propagate_variable
  refine Fin_read (get_var_fin _ _) fun var => Fin_read (deref_fin _) fun neg => ?_
  refine Fin_bind (Fin_and (propagate_occs_fin fuel hn hni _ _ _ _ _ _ hI hfuel)
    (propagate_occs_inv hni _ _ _ _ _ _ hI)) (fun r h1 => ?_)
  obtain ⟨s1, elems, top, removed, early⟩ := r
  obtain ⟨adv1, hI1, hA1⟩ := h1
  have adv1 : Adv s s1 := adv1
  refine Fin_ite (fun _ => ?_) (fun he => ?_)
  · exact Fin_ite (fun _ => Fin_mono (set_neg_occs_same _ _ _)
      (fun s2 h2 => Adv_trans adv1 (Adv_same h2))) (fun _ => Fin_pure adv1)
  · have hA : InvA True L T s1 := hA1 (by simpa using he)
    refine Fin_seq (fun s2 => InvA True L T s2 ∧ SameCount s1 s2) ?_ (fun s2 h2 => ?_)
    · exact Fin_ite (fun _ => Fin_mono (Fin_and (set_neg_occs_same _ _ _)
        (Tri_quiet_InvA (set_neg_occs_core _ _ _) hA)) (fun s2 h => ⟨h.2, h.1⟩))
        (fun _ => Fin_pure ⟨hA, SameCount_refl s1⟩)
    have adv2 : Adv s s2 := Adv_trans adv1 (Adv_same h2.2)
    have hb2 : L + 2 - step_sum s2 ≤ fuel := by
      have := adv2.1
      omega
    refine Fin_read (get_var_fin _ _) fun var2 => Fin_read (deref_fin _) fun pos => ?_
    refine Fin_bind (propagate_occs_fin fuel hp hpi _ _ _ _ _ _ h2.1 hb2) (fun r h3 => ?_)
    obtain ⟨s3, elems3, top3, removed3, early3⟩ := r
    have adv3 : Adv s s3 := Adv_trans adv2 h3
    exact Fin_ite (fun _ => Fin_mono (set_pos_occs_same _ _ _)
      (fun s4 h4 => Adv_trans adv3 (Adv_same h4))) (fun _ => Fin_pure adv3)

theorem propagate_enqueued_fin {L : Nat} {T : List Event} (fuel : Nat) :
    ∀ s, Inv True L T s →
      s.atpg_rr.propagation_queue.length + (L + 3 - step_sum s) ≤ fuel →
      Fin (propagate_enqueued_variable_assignments fuel s) (fun s1 => step_sum s ≤ step_sum s1) := by
  induction fuel with
  | zero =>
    intro s hI hf
    have := Inv_sum_le hI
    omega
  | succ fuel ih =>
    intro s hI hf
    have hle := Inv_sum_le hI
    unfold propagate_enqueued_variable_assignments
    refine Fin_ite (fun _ => Fin_pure (Nat.le_refl _)) (fun hc => ?_)
    have hcf : s.atpg_rr.conflict = false := by
      cases h : s.atpg_rr.conflict with
      | false => rfl
      | true => exact absurd (Or.inl h) hc
    have hcut : s.atpg_rr.prop_cutoff = false := by
      cases h : s.atpg_rr.prop_cutoff with
      | false => rfl
      | true => exact absurd (Or.inr h) hc
    split
    · exact Fin_pure (Nat.le_refl _)
    · rename_i v rest hq
      have hql : s.atpg_rr.propagation_queue.length = rest.length + 1 := by
        rw [hq]; rfl
      have h0 : Inv True L T { s with atpg_rr.propagation_queue := rest } := Inv_of_core hI rfl
      have h1 : Inv True L T (log { s with atpg_rr.propagation_queue := rest }
          (Event.var_dequeued v s.atpg_rr.conflict s.atpg_rr.prop_cutoff)) :=
        Inv_log _ h0 ⟨hcf, hcut⟩ (fun _ => hcut) (fun _ _ => hcut) rfl (fun _ => trivial)
      have h2 : InvA True L T (log { s with atpg_rr.propagation_queue := rest }
          (Event.var_dequeued v s.atpg_rr.conflict s.atpg_rr.prop_cutoff)) :=
        ⟨h1, fun _ => hcut⟩
      have h3 : InvA True L T
          { (log { s with atpg_rr.propagation_queue := rest }
              (Event.var_dequeued v s.atpg_rr.conflict s.atpg_rr.prop_cutoff)) with
            atpg_rr.propagated_vars := v :: s.atpg_rr.propagated_vars } := InvA_of_core h2 rfl
      have hb : L + 2 - step_sum s ≤ fuel := by omega
      refine Fin_read (get_var_fin _ _) fun var => ?_
      refine Fin_seq (fun s2 => Inv True L T s2 ∧ step_sum s ≤ step_sum s2
          ∧ s2.atpg_rr.propagation_queue.length + step_sum s ≤ rest.length + step_sum s2) ?_
        (fun s2 h4 => ?_)
      · refine Fin_ite (fun _ => ?_) (fun _ => ?_)
        · exact Fin_mono (Fin_and (propagate_variable_fin fuel (forward_propagate_fin fuel).2
            (forward_propagate_inv fuel).2 (forward_propagate_fin fuel).1
            (forward_propagate_inv fuel).1 v h3 hb)
            (propagate_variable_inv (forward_propagate_inv fuel).2
              (forward_propagate_inv fuel).1 v h3)) (fun s2 h => ⟨h.2, h.1.1, h.1.2⟩)
        · exact Fin_mono (Fin_and (propagate_variable_fin fuel (forward_propagate_fin fuel).1
            (forward_propagate_inv fuel).1 (forward_propagate_fin fuel).2
            (forward_propagate_inv fuel).2 v h3 hb)
            (propagate_variable_inv (forward_propagate_inv fuel).1
              (forward_propagate_inv fuel).2 v h3)) (fun s2 h => ⟨h.2, h.1.1, h.1.2⟩)
      · obtain ⟨hI2, hm, hq2⟩ := h4
        have hle2 := Inv_sum_le hI2
        exact Fin_mono (ih s2 hI2 (by omega)) (fun s3 h5 => Nat.le_trans hm h5)

/-- C8 (termination of propagation). For every state whose counters agree with
the cutoff flag for the active budget `L` (`stABC`), with `L + 2 < 2 ^ 32`:
`propagate_enqueued_variable_assignments`, together with the forward and the
stack-based backward propagation it calls, does not run out of fuel once the
fuel is at least the length of the propagation queue plus `L + 3` minus the
steps already counted; the steps it adds are bounded by the budget: the sum
of the counters only grows and stays at most `L + 2`. -/
theorem C8_propagation_terminates (s : Nenofex) (fuel : Nat)
    (hw : active_limit s + 2 < UINT_MOD) (hs : stABC (active_limit s) s)
    (hf : s.atpg_rr.propagation_queue.length + (active_limit s + 3 - step_sum s) ≤ fuel) :
    propagate_enqueued_variable_assignments fuel s ≠ Except.error Err.fuel
    ∧ ∀ s1, propagate_enqueued_variable_assignments fuel s = Except.ok s1 →
        step_sum s ≤ step_sum s1 ∧ step_sum s1 ≤ active_limit s + 2 := by
  have hI : Inv True (active_limit s) s.atpg_rr.trace s :=
    ⟨rfl, ⟨[], (List.append_nil _).symm, ⟨fun _ h => (nomatch h), List.Pairwise.nil,
      fun _ _ h => (nomatch h), fun _ _ h => (nomatch h)⟩⟩, fun _ => ⟨hw, hs⟩⟩
  have h1 := propagate_enqueued_fin fuel s hI hf
  refine ⟨h1.1, fun s1 hs1 => ⟨h1.2 s1 hs1, ?_⟩⟩
  exact Inv_sum_le (propagate_enqueued_inv fuel s hI s1 hs1)

set_option maxRecDepth 100000 in
/-- C8, witness: the propagation of the assignment `b = 1` in the graph of
`(a & !a) | b` with the table budget 1500000 and fuel 1500004. -/
theorem C8_propagation_terminates_witness :
    active_limit sample_sensitized = 1500000
    ∧ sample_sensitized.atpg_rr.propagation_queue = [1]
    ∧ step_sum sample_sensitized = 0
    ∧ propagate_enqueued_variable_assignments 1500004 sample_sensitized
        ≠ Except.error Err.fuel
    ∧ ∀ s1, propagate_enqueued_variable_assignments 1500004 sample_sensitized = Except.ok s1 →
        step_sum sample_sensitized ≤ step_sum s1
        ∧ step_sum s1 ≤ active_limit sample_sensitized + 2 := by
  have hl : active_limit sample_sensitized = 1500000 := rfl
  have hq : sample_sensitized.atpg_rr.propagation_queue = [1] := rfl
  have h0 : step_sum sample_sensitized = 0 := rfl
  have hc : sample_sensitized.atpg_rr.prop_cutoff = false := rfl
  have h := C8_propagation_terminates sample_sensitized 1500004
    (by rw [hl]; unfold UINT_MOD; omega) (Or.inl ⟨hc, by rw [h0]; exact Nat.zero_le _⟩)
    (by rw [hl, hq, h0]; decide)
  exact ⟨hl, hq, h0, h.1, h.2⟩

/-! ## Theorems: the FIFO queue of `queue.c` (claim C11) -/

theorem ok_bind {α β : Type} (a : α) (f : α → M β) : (Except.ok a >>= f) = f a := rfl

theorem pure_eq_ok {α : Type} (a : α) : (pure a : M α) = Except.ok a := rfl

theorem deref_some {α : Type} (a : α) : deref (some a) = Except.ok a := rfl

theorem enlarge_loop_linear (elems : List Nat) (last : Nat) (k : Nat) :
    ∀ first copied, first < last → last ≤ elems.length → last - first ≤ k →
      enlarge_loop elems last k first copied
        = Except.ok (copied ++ (elems.drop first).take (last - first)) := by
  induction k with
  | zero => intro first copied h1 h2 h3; omega
  | succ k ih =>
    intro first copied h1 h2 h3
    have hlt : first < elems.length := by omega
    unfold enlarge_loop
    rw [List.getElem?_eq_getElem hlt, deref_some, ok_bind]
    have hw : ¬ (first + 1 = elems.length ∧ last ≠ elems.length) := by omega
    simp only [if_neg hw]
    have hd : (elems.drop first).take (last - first)
        = elems[first] :: (elems.drop (first + 1)).take (last - (first + 1)) := by
      rw [List.drop_eq_getElem_cons hlt]
      have : last - first = (last - (first + 1)) + 1 := by omega
      rw [this, List.take_succ_cons]
    by_cases hl : first + 1 = last
    · rw [if_neg (by simpa using hl), hd, ← hl]
      simp [pure_eq_ok]
    · rw [if_pos hl, ih (first + 1) _ (by omega) h2 (by omega), hd]
      simp

theorem enlarge_loop_wrap (elems : List Nat) (last : Nat) (k : Nat) :
    ∀ first copied, last ≤ first → first < elems.length →
      (elems.length - first) + last ≤ k →
      enlarge_loop elems last k first copied
        = Except.ok (copied ++ (elems.drop first ++ elems.take last)) := by
  induction k with
  | zero => intro first copied h1 h2 h3; omega
  | succ k ih =>
    intro first copied h1 h2 h3
    unfold enlarge_loop
    rw [List.getElem?_eq_getElem h2, deref_some, ok_bind]
    by_cases he : first + 1 = elems.length
    · have hw : first + 1 = elems.length ∧ last ≠ elems.length := ⟨he, by omega⟩
      simp only [if_pos hw]
      have hd : elems.drop first = [elems[first]] := by
        rw [List.drop_eq_getElem_cons h2, he, List.drop_length]
      by_cases hl : 0 = last
      · rw [if_neg (by simpa using hl), hd, ← hl]
        simp [pure_eq_ok]
      · rw [if_pos hl, enlarge_loop_linear elems last k 0 _ (by omega) (by omega) (by omega), hd]
        simp
    · have hw : ¬ (first + 1 = elems.length ∧ last ≠ elems.length) := fun h => he h.1
      simp only [if_neg hw]
      have hl : first + 1 ≠ last := by omega
      rw [if_pos hl, ih (first + 1) _ (by omega) (by omega) (by omega),
        List.drop_eq_getElem_cons h2]
      simp only [List.append_assoc, List.cons_append, List.singleton_append, List.nil_append]

theorem take_set_succ {α : Type} (l : List α) (n : Nat) (x : α) (h : n < l.length) :
    (l.set n x).take (n + 1) = l.take n ++ [x] := by
  induction l generalizing n with
  | nil => simp at h
  | cons a l ih =>
    cases n with
    | zero => simp
    | succ n =>
      simp only [List.set_cons_succ, List.take_succ_cons, List.cons_append, List.cons.injEq,
        true_and]
      exact ih n (by simpa using h)

theorem drop_set_of_lt {α : Type} (l : List α) (n m : Nat) (x : α) (h : n < m) :
    (l.set n x).drop m = l.drop m := by
  induction l generalizing n m with
  | nil => simp
  | cons a l ih =>
    cases m with
    | zero => omega
    | succ m =>
      cases n with
      | zero => simp
      | succ n =>
        simp only [List.set_cons_succ, List.drop_succ_cons]
        exact ih n m (by omega)

theorem take_set_of_le {α : Type} (l : List α) (n m : Nat) (x : α) (h : m ≤ n) :
    (l.set n x).take m = l.take m := by
  induction l generalizing n m with
  | nil => simp
  | cons a l ih =>
    cases m with
    | zero => simp
    | succ m =>
      cases n with
      | zero => omega
      | succ n =>
        simp only [List.set_cons_succ, List.take_succ_cons, List.cons.injEq, true_and]
        exact ih n m (by omega)

theorem drop_take_set {α : Type} (l : List α) (m n : Nat) (x : α) (h1 : m ≤ n)
    (h2 : n < l.length) :
    ((l.set n x).drop m).take (n + 1 - m) = (l.drop m).take (n - m) ++ [x] := by
  induction l generalizing m n with
  | nil => simp at h2
  | cons a l ih =>
    cases m with
    | zero =>
      simp only [List.drop_zero, Nat.sub_zero]
      exact take_set_succ _ _ _ h2
    | succ m =>
      cases n with
      | zero => omega
      | succ n =>
        simp only [List.set_cons_succ, List.drop_succ_cons]
        have e1 : n + 1 + 1 - (m + 1) = n + 1 - m := by omega
        have e2 : n + 1 - (m + 1) = n - m := by omega
        rw [e1, e2]
        exact ih m n (by omega) (by simpa using h2)

theorem QueueRep_length_lt {q : Queue} {l : List Nat} (h : QueueRep q l) :
    l.length < q.elems.length := by
  have h1 := h.contents
  have h2 := h.first_lt
  have h3 := h.last_lt
  unfold queue_contents at h1
  by_cases hc : q.first ≤ q.last
  · rw [if_pos hc] at h1
    rw [← h1, List.length_take, List.length_drop]
    omega
  · rw [if_neg hc] at h1
    rw [← h1, List.length_append, List.length_drop, List.length_take]
    omega

theorem count_queue_spec {q : Queue} {l : List Nat} (h : QueueRep q l) :
    count_queue q = l.length := by
  have h1 := h.contents
  have h2 := h.first_lt
  have h3 := h.last_lt
  have h4 := h.size_lt
  unfold queue_contents at h1
  unfold count_queue
  by_cases hc : q.first ≤ q.last
  · rw [if_pos hc] at h1 ⊢
    rw [← h1, List.length_take, List.length_drop, Nat.mod_eq_of_lt (by omega)]
    omega
  · rw [if_neg hc] at h1 ⊢
    rw [← h1, List.length_append, List.length_drop, List.length_take,
      Nat.mod_eq_of_lt (by omega)]
    omega

theorem create_queue_spec (size : Nat) (h : size < UINT_MOD) :
    QueueRep (create_queue size) [] := by
  unfold create_queue
  by_cases h0 : size = 0
  · subst h0
    exact ⟨by simp, by simp [UINT_MOD], by simp, by simp, by simp [queue_contents],
      fun _ hx => (nomatch hx)⟩
  · simp only [if_neg h0]
    exact ⟨by simp; omega, by simpa using h, by simp; omega, by simp; omega,
      by simp [queue_contents], fun _ hx => (nomatch hx)⟩

theorem enlarge_queue_spec (junk : Nat → Nat) (q : Queue) (l : List Nat)
    (hpos : 0 < q.elems.length) (h2 : q.elems.length * 2 < UINT_MOD)
    (hc : (q.first = q.last ∧ q.first < q.elems.length
            ∧ l = q.elems.drop q.first ++ q.elems.take q.last)
          ∨ (q.first = 0 ∧ q.last = q.elems.length ∧ l = q.elems))
    (hn : ∀ x ∈ l, x ≠ 0) :
    ∃ q1, enlarge_queue junk q = Except.ok q1 ∧ QueueRep q1 l := by
  have hloop : enlarge_loop q.elems q.last (q.elems.length + 1) q.first [] = Except.ok l := by
    rcases hc with ⟨e1, e2, e3⟩ | ⟨e1, e2, e3⟩
    · rw [enlarge_loop_wrap q.elems q.last _ q.first [] (by omega) e2 (by omega), e3]
      rfl
    · rw [e1, e2, enlarge_loop_linear q.elems q.elems.length _ 0 [] hpos (Nat.le_refl _)
        (by omega), e3]
      simp
  have hlen : l.length = q.elems.length := by
    rcases hc with ⟨e1, e2, e3⟩ | ⟨e1, e2, e3⟩
    · rw [e3, List.length_append, List.length_drop, List.length_take]
      omega
    · rw [e3]
  have hsz : size_queue q * 2 % UINT_MOD = q.elems.length * 2 := by
    have h3 : q.elems.length % UINT_MOD = q.elems.length := Nat.mod_eq_of_lt (by omega)
    unfold size_queue
    rw [h3, Nat.mod_eq_of_lt h2]
  unfold enlarge_queue
  rw [hloop, ok_bind, hsz, if_neg (by omega)]
  refine ⟨_, rfl, ?_⟩
  refine ⟨?_, ?_, ?_, ?_, ?_, hn⟩
  · simp; omega
  · simp; omega
  · simp; omega
  · simp; omega
  · unfold queue_contents
    simp

theorem enqueue_spec (junk : Nat → Nat) {q : Queue} {l : List Nat} (x : Nat)
    (h : QueueRep q l) (hx : x ≠ 0) (hb : 2 * (l.length + 1) < UINT_MOD) :
    ∃ q1, enqueue junk q x = Except.ok q1 ∧ QueueRep q1 (l ++ [x]) := by
  have hlen := QueueRep_length_lt h
  have hc := h.contents
  have hf := h.first_lt
  have hl := h.last_lt
  have hnn : ∀ y ∈ l ++ [x], y ≠ 0 := by
    intro y hy
    rcases List.mem_append.mp hy with hy | hy
    · exact h.non_null y hy
    · rw [List.mem_singleton.mp hy]; exact hx
  have hsl : (q.elems.set q.last x).length = q.elems.length := List.length_set _ _ _
  unfold queue_contents at hc
  unfold enqueue
  rw [if_pos hl]
  simp only []
  by_cases hord : q.first ≤ q.last
  · rw [if_pos hord] at hc
    have hlen2 : l.length = q.last - q.first := by
      rw [← hc, List.length_take, List.length_drop]; omega
    rw [if_neg (by omega)]
    by_cases hend : q.last + 1 = q.elems.length
    · rw [if_pos (by rw [hsl]; exact hend)]
      by_cases hz : q.first = 0
      · rw [if_pos hz]
        apply enlarge_queue_spec junk _ _ (by rw [hsl]; omega) (by rw [hsl]; omega) _ hnn
        right
        refine ⟨hz, by rw [hsl]; exact hend, ?_⟩
        show l ++ [x] = q.elems.set q.last x
        rw [← hc, hz]
        have := drop_take_set q.elems 0 q.last x (Nat.zero_le _) hl
        simp only [List.drop_zero, Nat.sub_zero] at this ⊢
        rw [← this, List.take_of_length_le (by rw [hsl]; omega)]
      · rw [if_neg hz]
        refine ⟨_, rfl, ⟨by rw [hsl]; omega, by rw [hsl]; exact h.size_lt, by rw [hsl]; exact hf,
          by rw [hsl]; show 0 < _; omega, ?_, hnn⟩⟩
        unfold queue_contents
        show (if q.first ≤ 0 then _ else _) = _
        rw [if_neg (by omega)]
        show List.drop q.first (q.elems.set q.last x) ++ List.take 0 (q.elems.set q.last x) = _
        rw [List.take_zero, List.append_nil, ← hc]
        have := drop_take_set q.elems q.first q.last x hord hl
        rw [← this, List.take_of_length_le (by rw [List.length_drop, hsl]; omega)]
    · rw [if_neg (by rw [hsl]; exact hend)]
      refine ⟨_, rfl, ⟨by rw [hsl]; omega, by rw [hsl]; exact h.size_lt, by rw [hsl]; exact hf,
        by rw [hsl]; show q.last + 1 < _; omega, ?_, hnn⟩⟩
      unfold queue_contents
      show (if q.first ≤ q.last + 1 then _ else _) = _
      rw [if_pos (by omega)]
      show List.take (q.last + 1 - q.first) (List.drop q.first (q.elems.set q.last x)) = _
      rw [← hc]
      exact drop_take_set q.elems q.first q.last x hord hl
  · rw [if_neg hord] at hc
    have hlen2 : l.length = q.elems.length - q.first + q.last := by
      rw [← hc, List.length_append, List.length_drop, List.length_take]; omega
    have hdrop : (q.elems.set q.last x).drop q.first = q.elems.drop q.first :=
      drop_set_of_lt _ _ _ _ (by omega)
    by_cases hfull : q.last + 1 = q.first
    · rw [if_pos hfull]
      apply enlarge_queue_spec junk _ _ (by rw [hsl]; omega) (by rw [hsl]; omega) _ hnn
      left
      refine ⟨hfull.symm, by rw [hsl]; exact hf, ?_⟩
      show l ++ [x] = List.drop q.first (q.elems.set q.last x)
        ++ List.take (q.last + 1) (q.elems.set q.last x)
      rw [hdrop, take_set_succ _ _ _ hl, ← hc, List.append_assoc]
    · rw [if_neg hfull, if_neg (by rw [hsl]; omega)]
      refine ⟨_, rfl, ⟨by rw [hsl]; omega, by rw [hsl]; exact h.size_lt, by rw [hsl]; exact hf,
        by rw [hsl]; show q.last + 1 < _; omega, ?_, hnn⟩⟩
      unfold queue_contents
      show (if q.first ≤ q.last + 1 then _ else _) = _
      rw [if_neg (by omega)]
      show List.drop q.first (q.elems.set q.last x)
        ++ List.take (q.last + 1) (q.elems.set q.last x) = _
      rw [hdrop, take_set_succ _ _ _ hl, ← hc, List.append_assoc]

theorem dequeue_spec {q : Queue} {l : List Nat} (h : QueueRep q l) :
    ∃ q1, dequeue q = Except.ok (q1, l.headD 0) ∧ QueueRep q1 l.tail := by
  have hc := h.contents
  have hf := h.first_lt
  have hl := h.last_lt
  have hnn : ∀ y ∈ l.tail, y ≠ 0 := fun y hy => h.non_null y (List.mem_of_mem_tail hy)
  unfold queue_contents at hc
  unfold dequeue
  by_cases he : q.first = q.last
  · rw [if_pos he]
    rw [if_pos (by omega), he, Nat.sub_self, List.take_zero] at hc
    subst hc
    exact ⟨q, rfl, h⟩
  · rw [if_neg he, List.getElem?_eq_getElem hf, deref_some, ok_bind]
    by_cases hord : q.first ≤ q.last
    · rw [if_pos hord, List.drop_eq_getElem_cons hf] at hc
      have e : q.last - q.first = (q.last - (q.first + 1)) + 1 := by omega
      rw [e, List.take_succ_cons] at hc
      subst hc
      refine ⟨_, rfl, ⟨h.size_pos, h.size_lt, ?_, hl, ?_, hnn⟩⟩
      · show (if q.first + 1 = q.elems.length then 0 else q.first + 1) < q.elems.length
        rw [if_neg (by omega)]; omega
      · unfold queue_contents
        show (if (if q.first + 1 = q.elems.length then 0 else q.first + 1) ≤ q.last then _
          else _) = _
        rw [if_neg (by omega : ¬ q.first + 1 = q.elems.length), if_pos (by omega)]
        rfl
    · rw [if_neg hord, List.drop_eq_getElem_cons hf] at hc
      subst hc
      by_cases hend : q.first + 1 = q.elems.length
      · refine ⟨_, rfl, ⟨h.size_pos, h.size_lt, ?_, hl, ?_, hnn⟩⟩
        · show (if q.first + 1 = q.elems.length then 0 else q.first + 1) < _
          rw [if_pos hend]; exact h.size_pos
        · unfold queue_contents
          show (if (if q.first + 1 = q.elems.length then 0 else q.first + 1) ≤ q.last then _
            else _) = _
          rw [if_pos hend, if_pos (Nat.zero_le _)]
          show List.take (q.last - 0) (List.drop 0 q.elems) = _
          rw [hend, List.drop_length]
          simp
      · refine ⟨_, rfl, ⟨h.size_pos, h.size_lt, ?_, hl, ?_, hnn⟩⟩
        · show (if q.first + 1 = q.elems.length then 0 else q.first + 1) < q.elems.length
          rw [if_neg hend]; omega
        · unfold queue_contents
          show (if (if q.first + 1 = q.elems.length then 0 else q.first + 1) ≤ q.last then _
            else _) = _
          rw [if_neg hend, if_neg (by omega)]
          rfl

theorem run_queue_spec (junk : Nat → Nat) (ops : List QueueOp) :
    ∀ q l, QueueRep q l → (∀ x, QueueOp.enq x ∈ ops → x ≠ 0) →
      2 * (l.length + count_enq ops) < UINT_MOD →
      ∃ q1, run_queue junk q ops = Except.ok (q1, (fifo_run l ops).2)
        ∧ QueueRep q1 (fifo_run l ops).1 := by
  induction ops with
  | nil => intro q l h _ _; exact ⟨q, rfl, h⟩
  | cons op ops ih =>
    intro q l h hnn hcap
    cases op with
    | enq x =>
      have hx : x ≠ 0 := hnn x (List.mem_cons_self _ _)
      have hc : count_enq (QueueOp.enq x :: ops) = count_enq ops + 1 := rfl
      rw [hc] at hcap
      obtain ⟨q1, h1, h2⟩ := enqueue_spec junk x h hx (by omega)
      obtain ⟨q2, h3, h4⟩ := ih q1 (l ++ [x]) h2
        (fun y hy => hnn y (List.mem_cons_of_mem _ hy))
        (by rw [List.length_append]; simp only [List.length_singleton]; omega)
      refine ⟨q2, ?_, h4⟩
      show (enqueue junk q x >>= fun q1 => run_queue junk q1 ops) = _
      rw [h1, ok_bind, h3]
      rfl
    | deq =>
      have hc : count_enq (QueueOp.deq :: ops) = count_enq ops := rfl
      rw [hc] at hcap
      obtain ⟨q1, h1, h2⟩ := dequeue_spec h
      obtain ⟨q2, h3, h4⟩ := ih q1 l.tail h2
        (fun y hy => hnn y (List.mem_cons_of_mem _ hy))
        (by rw [List.length_tail]; omega)
      refine ⟨q2, ?_, h4⟩
      show (dequeue q >>= fun r => run_queue junk r.1 ops >>= fun r2 =>
        pure (r2.1, r.2 :: r2.2)) = _
      rw [h1, ok_bind, h3]
      rfl

theorem fifo_run_order (ops : List QueueOp) :
    ∀ l, (∀ x ∈ l, x ≠ 0) → (∀ x, QueueOp.enq x ∈ ops → x ≠ 0) →
      (fifo_run l ops).2.filter (fun x => decide (x ≠ 0)) ++ (fifo_run l ops).1
        = l ++ enqueued ops := by
  induction ops with
  | nil => intro l _ _; simp [fifo_run, enqueued]
  | cons op ops ih =>
    intro l hl hnn
    cases op with
    | enq x =>
      have hx : x ≠ 0 := hnn x (List.mem_cons_self _ _)
      show (fifo_run (l ++ [x]) ops).2.filter _ ++ (fifo_run (l ++ [x]) ops).1 = l ++ (x :: enqueued ops)
      rw [ih (l ++ [x]) (by
        intro y hy
        rcases List.mem_append.mp hy with hy | hy
        · exact hl y hy
        · rw [List.mem_singleton.mp hy]; exact hx)
        (fun y hy => hnn y (List.mem_cons_of_mem _ hy))]
      simp
    | deq =>
      show (l.headD 0 :: (fifo_run l.tail ops).2).filter _ ++ (fifo_run l.tail ops).1
        = l ++ enqueued ops
      have ih1 := ih l.tail (fun y hy => hl y (List.mem_of_mem_tail hy))
        (fun y hy => hnn y (List.mem_cons_of_mem _ hy))
      cases l with
      | nil =>
        simp only [List.headD_nil, List.tail_nil, List.nil_append] at ih1 ⊢
        rw [List.filter_cons_of_neg (by simp)]
        exact ih1
      | cons a t =>
        have ha : a ≠ 0 := hl a (List.mem_cons_self _ _)
        simp only [List.headD_cons, List.tail_cons] at ih1 ⊢
        rw [List.filter_cons_of_pos (by simpa using ha), List.cons_append, ih1]
        rfl

/-- C11 (FIFO queue). For a queue created with any `unsigned` size (zero is
treated as one) and any sequence of `enqueue` calls with non-null elements
and `dequeue` calls, as long as twice the number of enqueued elements fits in
an `unsigned int` (the new size computed by `enlarge_queue`): all calls
succeed, the pointers returned by `dequeue` are those of the first-in
first-out queue of the specification (null when nothing waits), the non-null
pointers returned followed by the waiting elements are the enqueued elements
in the order of their enqueuing, and `count_queue` is the number of waiting
elements. For every well-formed queue, `dequeue` returns null exactly when
the queue holds no element. -/
theorem C11_fifo_queue (junk : Nat → Nat) (size : Nat) (ops : List QueueOp)
    (hsize : size < UINT_MOD) (hnn : ∀ x, QueueOp.enq x ∈ ops → x ≠ 0)
    (hcap : 2 * count_enq ops < UINT_MOD) :
    (∃ q, run_queue junk (create_queue size) ops = Except.ok (q, (fifo_run [] ops).2)
      ∧ queue_contents q = (fifo_run [] ops).1
      ∧ count_queue q = (fifo_run [] ops).1.length)
    ∧ (fifo_run [] ops).2.filter (fun x => decide (x ≠ 0)) ++ (fifo_run [] ops).1
        = enqueued ops
    ∧ (∀ q l, QueueRep q l →
        (∃ q1, dequeue q = Except.ok (q1, l.headD 0) ∧ QueueRep q1 l.tail)
        ∧ (l.headD 0 = 0 ↔ l = []) ∧ count_queue q = l.length) := by
  refine ⟨?_, ?_, ?_⟩
  · obtain ⟨q, h1, h2⟩ := run_queue_spec junk ops (create_queue size) []
      (create_queue_spec size hsize) hnn (by simpa using hcap)
    exact ⟨q, h1, h2.contents, count_queue_spec h2⟩
  · have := fifo_run_order ops [] (fun _ h => (nomatch h)) hnn
    simpa using this
  · intro q l h
    refine ⟨dequeue_spec h, ?_, count_queue_spec h⟩
    cases l with
    | nil => simp
    | cons a t =>
      have ha : a ≠ 0 := h.non_null a (List.mem_cons_self _ _)
      simp [ha]

/-- C11, witness: a queue created with size 0 that is filled beyond its size
twice, emptied (one `dequeue` more than elements) and used again. -/
theorem C11_fifo_queue_witness :
    ∃ q, run_queue (fun _ => 7) (create_queue 0) sample_queue_ops
        = Except.ok (q, [1, 2, 3, 4, 5, 0, 6])
      ∧ queue_contents q = [] ∧ count_queue q = 0 := by
  obtain ⟨⟨q, h1, h2, h3⟩, _, _⟩ := C11_fifo_queue (fun _ => 7) 0 sample_queue_ops
    (by unfold UINT_MOD; omega)
    (by
      intro x hx
      simp only [sample_queue_ops, List.mem_cons, QueueOp.enq.injEq, List.mem_singleton,
        reduceCtorEq, or_false, false_or, List.not_mem_nil] at hx
      rcases hx with h | h | h | h | h | h <;> omega)
    (by
      have : count_enq sample_queue_ops = 6 := rfl
      rw [this]; unfold UINT_MOD; omega)
  have e1 : (fifo_run [] sample_queue_ops).2 = [1, 2, 3, 4, 5, 0, 6] := rfl
  have e2 : (fifo_run [] sample_queue_ops).1 = [] := rfl
  rw [e1] at h1
  rw [e2] at h2 h3
  exact ⟨q, h1, h2, h3⟩

/-! ## Theorems: arena exhaustion (claim C13) -/

theorem assign_node_atpg_info_exits (s : Nenofex) (n cur : Nat)
    (hc : s.atpg_rr.cur_atpg_info = some cur) (he : s.atpg_rr.end_atpg_info = some (cur + 1)) :
    assign_node_atpg_info s n = Except.error Err.exit := by
  unfold assign_node_atpg_info
  rw [hc, he]
  simp only [deref]
  show (if cur + 1 = cur + 1 then (throw Err.exit : M Nenofex) else _) = _
  rw [if_pos rfl]
  rfl

theorem C13_stale_size_exits :
    simplify_by_global_flow_and_atpg_main spec_api 20 sample_stale_size
      = Except.error Err.exit := by
  rfl

/-- Claim C13, amended: when only one arena entry is left,
`assign_node_atpg_info` calls `exit (1)`; the exit goes through the loop of
`init_subformula_atpg_info` and through
`simplify_by_global_flow_and_atpg_main`, which therefore returns no value. -/
theorem C13_arena_exhaustion_exits :
    (∀ (s : Nenofex) (n cur : Nat), s.atpg_rr.cur_atpg_info = some cur →
        s.atpg_rr.end_atpg_info = some (cur + 1) →
        assign_node_atpg_info s n = Except.error Err.exit)
    ∧ (∀ (root root_info fuel : Nat) (s : Nenofex) (node cur : Nat) (rest : List Nat),
        s.atpg_rr.cur_atpg_info = some cur → s.atpg_rr.end_atpg_info = some (cur + 1) →
        init_subformula_loop root root_info (fuel + 1) s (node :: rest)
          = Except.error Err.exit)
    ∧ (∀ (fuel : Nat) (s : Nenofex) (root cur : Nat), s.changed_subformula.lca = some root →
        s.atpg_rr.cur_atpg_info = some cur → s.atpg_rr.end_atpg_info = some (cur + 1) →
        init_subformula_atpg_info fuel s = Except.error Err.exit)
    ∧ (∀ (api : GraphAPI) (fuel : Nat) (s s1 : Nenofex),
        allocate_atpg_info_pointers { s with atpg_rr_called := true } = Except.ok s1 →
        init_subformula_atpg_info fuel s1 = Except.error Err.exit →
        simplify_by_global_flow_and_atpg_main api fuel s = Except.error Err.exit) := by
  refine ⟨assign_node_atpg_info_exits, ?_, ?_, ?_⟩
  · intro root root_info fuel s node cur rest hc he
    unfold init_subformula_loop
    simp only [assign_node_atpg_info_exits s node cur hc he]
    rfl
  · intro fuel s root cur hl hc he
    unfold init_subformula_atpg_info
    rw [hl]
    simp only [deref]
    show (assign_node_atpg_info s root >>= _) = _
    rw [assign_node_atpg_info_exits s root cur hc he]
    rfl
  · intro api fuel s s1 h1 h2
    unfold simplify_by_global_flow_and_atpg_main
    simp only [h1]
    show (init_subformula_atpg_info fuel s1 >>= _) = _
    rw [h2]
    rfl

/-! ## Theorems: the iteration policy of the pass driver (claim C14) -/

theorem global_flow_atpg_rounds_eq (api : GraphAPI) (fuel : Nat) (s : Nenofex)
    (called_again : Bool) (implications_found redundancies_found : Nat)
    (implications_found_all redundancies_found_all : Bool) :
    global_flow_atpg_rounds api (fuel + 1) s called_again implications_found redundancies_found
        implications_found_all redundancies_found_all
      = (global_flow_phase api fuel s implications_found >>= fun r1 =>
          if r1.1.atpg_rr_abort then
            pure (r1.1, implications_found_all || decide (r1.2 ≠ 0), redundancies_found_all)
          else
            atpg_phase api fuel r1.1 called_again r1.2 redundancies_found >>= fun r2 =>
              if r2.1.atpg_rr_abort = false then
                if r2.2 ≠ 0 ∧ r2.1.atpg_rr.global_flow_prop_cutoff = false then
                  global_flow_atpg_rounds api fuel r2.1 true 0 0
                    (implications_found_all || decide (r1.2 ≠ 0))
                    (redundancies_found_all || decide (r2.2 ≠ 0))
                else
                  pure ({ r2.1 with atpg_rr_abort := true,
                                    atpg_rr_reset_changed_subformula := true },
                    implications_found_all || decide (r1.2 ≠ 0),
                    redundancies_found_all || decide (r2.2 ≠ 0))
              else
                pure (r2.1, implications_found_all || decide (r1.2 ≠ 0),
                  redundancies_found_all || decide (r2.2 ≠ 0))) := by
  rfl

theorem rounds_step (api : GraphAPI) (fuel : Nat) (t : Nenofex) (r1 : Nenofex × Nat)
    (c : Bool) (i r : Nat) (a b : Bool)
    (h1 : global_flow_phase api fuel t i = Except.ok r1) (h2 : r1.1.atpg_rr_abort = false) :
    global_flow_atpg_rounds api (fuel + 1) t c i r a b
      = (atpg_phase api fuel r1.1 c r1.2 r >>= fun r2 =>
          if r2.1.atpg_rr_abort = false then
            if r2.2 ≠ 0 ∧ r2.1.atpg_rr.global_flow_prop_cutoff = false then
              global_flow_atpg_rounds api fuel r2.1 true 0 0 (a || decide (r1.2 ≠ 0))
                (b || decide (r2.2 ≠ 0))
            else
              pure ({ r2.1 with atpg_rr_abort := true,
                                atpg_rr_reset_changed_subformula := true },
                a || decide (r1.2 ≠ 0), b || decide (r2.2 ≠ 0))
          else
            pure (r2.1, a || decide (r1.2 ≠ 0), b || decide (r2.2 ≠ 0))) := by
  rw [global_flow_atpg_rounds_eq, h1]
  show (if r1.1.atpg_rr_abort = true then _ else _) = _
  rw [if_neg (by rw [h2]; exact Bool.false_ne_true)]

theorem rounds_stop (api : GraphAPI) (fuel : Nat) (t : Nenofex) (r1 r2 : Nenofex × Nat)
    (c : Bool) (i r : Nat) (a b : Bool)
    (h1 : global_flow_phase api fuel t i = Except.ok r1) (h2 : r1.1.atpg_rr_abort = false)
    (h3 : atpg_phase api fuel r1.1 c r1.2 r = Except.ok r2) (h4 : r2.1.atpg_rr_abort = false)
    (h : r2.2 = 0 ∨ r2.1.atpg_rr.global_flow_prop_cutoff = true) :
    global_flow_atpg_rounds api (fuel + 1) t c i r a b
      = Except.ok ({ r2.1 with atpg_rr_abort := true, atpg_rr_reset_changed_subformula := true },
          a || decide (r1.2 ≠ 0), b || decide (r2.2 ≠ 0)) := by
  rw [rounds_step api fuel t r1 c i r a b h1 h2, h3]
  show (if r2.1.atpg_rr_abort = false then _ else _) = _
  rw [if_pos h4, if_neg]
  · rfl
  · rintro ⟨e1, e2⟩
    rcases h with h | h
    · exact e1 h
    · rw [h] at e2
      cases e2

theorem rounds_again (api : GraphAPI) (fuel : Nat) (t : Nenofex) (r1 r2 : Nenofex × Nat)
    (c : Bool) (i r : Nat) (a b : Bool)
    (h1 : global_flow_phase api fuel t i = Except.ok r1) (h2 : r1.1.atpg_rr_abort = false)
    (h3 : atpg_phase api fuel r1.1 c r1.2 r = Except.ok r2) (h4 : r2.1.atpg_rr_abort = false)
    (h : r2.2 ≠ 0 ∧ r2.1.atpg_rr.global_flow_prop_cutoff = false) :
    global_flow_atpg_rounds api (fuel + 1) t c i r a b
      = global_flow_atpg_rounds api fuel r2.1 true 0 0 (a || decide (r1.2 ≠ 0)) true := by
  rw [rounds_step api fuel t r1 c i r a b h1 h2, h3]
  show (if r2.1.atpg_rr_abort = false then _ else _) = _
  rw [if_pos h4, if_pos h]
  have : decide (r2.2 ≠ 0) = true := decide_eq_true h.1
  rw [this, Bool.or_true]

theorem ok_pair {α β : Type} {x : M (α × β)} {r : α × β} {a : α} {b : β} (h : x = Except.ok r)
    (ha : r.1 = a) (hb : r.2 = b) : x = Except.ok (a, b) := by
  subst ha
  subst hb
  exact h

theorem ok_triple {x : M (Nenofex × Bool × Bool)} {s : Nenofex} {a a1 b b1 : Bool}
    (h : x = Except.ok (s, a, b)) (ha : a = a1) (hb : b = b1) : x = Except.ok (s, a1, b1) := by
  subst ha
  subst hb
  exact h

theorem or_decide_ne {a : Bool} {n m : Nat} (h : n = m) :
    (a || decide (n ≠ 0)) = (a || decide (m ≠ 0)) := by
  rw [h]

set_option maxRecDepth 100000 in
theorem majority_round_run :
    global_flow_phase spec_api 100 majority_ready_state 0 = Except.ok majority_after_global_flow
    ∧ atpg_phase spec_api 100 majority_after_global_flow.1 false majority_after_global_flow.2 0
        = Except.ok majority_after_atpg
    ∧ majority_after_global_flow.2 = 4 ∧ majority_after_atpg.2 = 0
    ∧ majority_after_global_flow.1.atpg_rr.global_flow_prop_cutoff = false
    ∧ majority_after_global_flow.1.atpg_rr_abort = false
    ∧ majority_after_atpg.1.atpg_rr.atpg_prop_cutoff = false
    ∧ majority_after_atpg.1.atpg_rr.global_flow_prop_cutoff = false
    ∧ majority_after_atpg.1.atpg_rr_abort = false := by
  refine ⟨rfl, rfl, rfl, rfl, rfl, rfl, rfl, rfl, rfl⟩

/-- Claim C14, counterexample: on `(c & (b | a)) | (b & a)` the global-flow
phase finds four implications and is not cut off, the redundancy-removal
phase finds nothing and is not cut off, nothing is aborted, and the driver
leaves the loop after this one round. -/
theorem C14_implications_do_not_iterate :
    global_flow_phase spec_api 100 majority_ready_state 0
      = Except.ok (majority_after_global_flow.1, 4)
    ∧ majority_after_global_flow.1.atpg_rr.global_flow_prop_cutoff = false
    ∧ majority_after_global_flow.1.atpg_rr_abort = false
    ∧ atpg_phase spec_api 100 majority_after_global_flow.1 false 4 0
      = Except.ok (majority_after_atpg.1, 0)
    ∧ majority_after_atpg.1.atpg_rr.atpg_prop_cutoff = false
    ∧ majority_after_atpg.1.atpg_rr.global_flow_prop_cutoff = false
    ∧ majority_after_atpg.1.atpg_rr_abort = false
    ∧ global_flow_atpg_rounds spec_api 101 majority_ready_state false 0 0 false false
      = Except.ok ({ majority_after_atpg.1 with atpg_rr_abort := true,
                                                atpg_rr_reset_changed_subformula := true },
          true, false) := by
  obtain ⟨h1, h2, h3, h4, h5, h6, h7, h8, h9⟩ := majority_round_run
  have e := rounds_stop spec_api 100 majority_ready_state majority_after_global_flow
    majority_after_atpg false 0 0 false false h1 h6 h2 h9 (Or.inl h4)
  refine ⟨ok_pair h1 rfl h3, h5, h6, ?_, h7, h8, h9, ?_⟩
  · have e2 : atpg_phase spec_api 100 majority_after_global_flow.1 false 4 0
        = Except.ok majority_after_atpg :=
      (congrArg (fun n => atpg_phase spec_api 100 majority_after_global_flow.1 false n 0)
        h3).symm.trans h2
    exact ok_pair e2 rfl h4
  · have ha : (false || decide (majority_after_global_flow.2 ≠ 0)) = true :=
      (or_decide_ne h3).trans (by decide)
    have hb : (false || decide (majority_after_atpg.2 ≠ 0)) = false :=
      (or_decide_ne h4).trans (by decide)
    exact ok_triple e ha hb

/-- Claim C14, amended: one round of the loop of
`simplify_by_global_flow_and_atpg_main`. After the two guarded phase calls,
a further round is started exactly when the redundancy-removal phase reported
redundancies and the global-flow phase is not cut off; implications found by
the global-flow phase alone do not start a round. In a further round the
redundancy-removal phase is called only if the global-flow phase of that
round reported implications; a phase that is cut off is not called again; an
abort set by a phase ends the loop. -/
theorem C14_iteration_policy (api : GraphAPI) (fuel : Nat) (s s1 s2 : Nenofex)
    (called_again : Bool) (i0 r0 i1 r1 : Nat) (ia ra : Bool)
    (hgf : global_flow_phase api fuel s i0 = Except.ok (s1, i1))
    (hab : s1.atpg_rr_abort = false)
    (hatpg : atpg_phase api fuel s1 called_again i1 r0 = Except.ok (s2, r1))
    (hab2 : s2.atpg_rr_abort = false) :
    (r1 ≠ 0 ∧ s2.atpg_rr.global_flow_prop_cutoff = false →
      global_flow_atpg_rounds api (fuel + 1) s called_again i0 r0 ia ra
        = global_flow_atpg_rounds api fuel s2 true 0 0 (ia || decide (i1 ≠ 0)) true)
    ∧ (r1 = 0 ∨ s2.atpg_rr.global_flow_prop_cutoff = true →
      global_flow_atpg_rounds api (fuel + 1) s called_again i0 r0 ia ra
        = Except.ok ({ s2 with atpg_rr_abort := true, atpg_rr_reset_changed_subformula := true },
            ia || decide (i1 ≠ 0), ra || decide (r1 ≠ 0)))
    ∧ (∀ (t : Nenofex) (r : Nat), atpg_phase api fuel t true 0 r = Except.ok (t, r))
    ∧ (∀ (t : Nenofex) (c : Bool) (i r : Nat), t.atpg_rr.atpg_prop_cutoff = true →
        atpg_phase api fuel t c i r = Except.ok (t, r))
    ∧ (∀ (t : Nenofex) (i : Nat), t.atpg_rr.global_flow_prop_cutoff = true →
        global_flow_phase api fuel t i = Except.ok (t, i))
    ∧ (∀ (t t1 : Nenofex) (c : Bool) (i r j : Nat) (a b : Bool),
        global_flow_phase api fuel t i = Except.ok (t1, j) → t1.atpg_rr_abort = true →
        global_flow_atpg_rounds api (fuel + 1) t c i r a b
          = Except.ok (t1, a || decide (j ≠ 0), b))
    ∧ (∀ (t t1 t2 : Nenofex) (c : Bool) (i r j k : Nat) (a b : Bool),
        global_flow_phase api fuel t i = Except.ok (t1, j) → t1.atpg_rr_abort = false →
        atpg_phase api fuel t1 c j r = Except.ok (t2, k) → t2.atpg_rr_abort = true →
        global_flow_atpg_rounds api (fuel + 1) t c i r a b
          = Except.ok (t2, a || decide (j ≠ 0), b || decide (k ≠ 0))) := by
  refine ⟨?_, ?_, ?_, ?_, ?_, ?_, ?_⟩
  · intro h
    exact rounds_again api fuel s (s1, i1) (s2, r1) called_again i0 r0 ia ra hgf hab hatpg hab2 h
  · intro h
    exact rounds_stop api fuel s (s1, i1) (s2, r1) called_again i0 r0 ia ra hgf hab hatpg hab2 h
  · intro t r
    unfold atpg_phase
    rw [if_neg]
    · rfl
    · rintro ⟨_, _, h | h⟩
      · cases h
      · exact h rfl
  · intro t c i r h
    unfold atpg_phase
    rw [if_neg]
    · rfl
    · rintro ⟨_, h2, _⟩
      rw [h] at h2
      cases h2
  · intro t i h
    unfold global_flow_phase
    rw [if_neg]
    · rfl
    · rintro ⟨_, h2⟩
      rw [h] at h2
      cases h2
  · intro t t1 c i r j a b h1 h2
    rw [global_flow_atpg_rounds_eq, h1]
    show (if t1.atpg_rr_abort = true then _ else _) = _
    rw [if_pos h2]
    rfl
  · intro t t1 t2 c i r j k a b h1 h2 h3 h4
    rw [rounds_step api fuel t (t1, j) c i r a b h1 h2, h3]
    show (if t2.atpg_rr_abort = false then _ else _) = _
    rw [if_neg (by rw [h4]; exact Bool.noConfusion)]
    rfl

set_option maxRecDepth 100000 in
theorem sample_round_run :
    global_flow_phase spec_api 20 sample_ready_state 0 = Except.ok sample_after_global_flow
    ∧ atpg_phase spec_api 20 sample_after_global_flow.1 false sample_after_global_flow.2 0
        = Except.ok sample_after_atpg
    ∧ sample_after_global_flow.2 = 0 ∧ sample_after_atpg.2 = 1
    ∧ sample_after_global_flow.1.atpg_rr_abort = false
    ∧ sample_after_atpg.1.atpg_rr_abort = false
    ∧ sample_after_atpg.1.atpg_rr.global_flow_prop_cutoff = false := by
  refine ⟨rfl, rfl, rfl, rfl, rfl, rfl, rfl⟩

theorem ne_zero_of_eq_one {n : Nat} (h : n = 1) : n ≠ 0 := by
  omega

/-- C14, witness: on `(a & !a) | b` the redundancy-removal phase of the first
round reports a redundancy, and a second round is started. -/
theorem C14_iteration_policy_witness :
    global_flow_atpg_rounds spec_api 21 sample_ready_state false 0 0 false false
      = global_flow_atpg_rounds spec_api 20 sample_after_atpg.1 true 0 0
          (false || decide (sample_after_global_flow.2 ≠ 0)) true :=
  (C14_iteration_policy spec_api 20 sample_ready_state sample_after_global_flow.1
    sample_after_atpg.1 false 0 0 sample_after_global_flow.2 sample_after_atpg.2 false false
    (ok_pair sample_round_run.1 rfl rfl) sample_round_run.2.2.2.2.1
    (ok_pair sample_round_run.2.1 rfl rfl) sample_round_run.2.2.2.2.2.1).1
    ⟨ne_zero_of_eq_one sample_round_run.2.2.2.1, sample_round_run.2.2.2.2.2.2⟩

/-! ## Theorems: the insertion point of the global-flow rewrite (claim C15) -/

theorem transform_eq (api : GraphAPI) (s : Nenofex) (n h : Nat) (fa : ATPGInfo) (hnd : Node)
    (hfa : node_info s n = Except.ok fa) (hh : get_node s h = Except.ok hnd) :
    transform_subformula_by_global_flow_implication api s n h
      = (if s.graph_root = some h then
          if strong_implication fa.assignment hnd.type then
            collect_fault_path_node s h >>= fun s1 =>
              (if hnd.type = NodeType.AND then api.or_node s1 else api.and_node s1) >>= fun r =>
                new_root_set_up api r.1 n r.2 >>= fun s2 => apply_transformation api s2 n r.2
          else
            api.add_changed_lca_child s n >>= fun s1 => apply_transformation api s1 n h
        else if s.changed_subformula.lca = some h then
          if strong_implication fa.assignment hnd.type then
            deref hnd.parent >>= fun p =>
              lca_parent_set_up api s n h p >>= fun s1 => apply_transformation api s1 n p
          else
            api.add_changed_lca_child s n >>= fun s1 => apply_transformation api s1 n h
        else if hnd.parent = s.changed_subformula.lca then
          if strong_implication fa.assignment hnd.type then
            deref hnd.parent >>= fun p =>
              collect_fault_path_node s h >>= fun s1 =>
                api.add_changed_lca_child s1 n >>= fun s2 => apply_transformation api s2 n p
          else
            apply_transformation api s n h
        else
          if strong_implication fa.assignment hnd.type then
            collect_fault_path_node s h >>= fun s1 =>
              deref hnd.parent >>= fun p => apply_transformation api s1 n p
          else
            apply_transformation api s n h) := by
  unfold transform_subformula_by_global_flow_implication
  rw [hfa, ok_bind, hh, ok_bind]
  show (if s.graph_root = some h then
      if strong_implication fa.assignment hnd.type then _ else _
    else if s.changed_subformula.lca = some h then
      if strong_implication fa.assignment hnd.type then _ else _
    else if hnd.parent = s.changed_subformula.lca then
      if strong_implication fa.assignment hnd.type then _ else _
    else
      if strong_implication fa.assignment hnd.type then _ else _) = _
  by_cases hst : strong_implication fa.assignment hnd.type
  · simp only [if_pos hst]
    unfold new_root_set_up lca_parent_set_up
    simp only [bind_assoc]
  · simp only [if_neg hst]

theorem strong_implication_iff (a b : ATPGAssignment) (t : NodeType) (hab : b = a)
    (hne : a ≠ ATPGAssignment.UNDEFINED) :
    strong_implication a t ↔ (t = NodeType.AND ∧ b = ATPGAssignment.TRUE)
      ∨ (t = NodeType.OR ∧ b = ATPGAssignment.FALSE) := by
  subst hab
  unfold strong_implication
  cases b <;> cases t <;> simp at hne ⊢

/-! ## Theorems: subtrees, forests and breadth-first order -/

theorem concat_map_cons_some {f : Nat → Option (List Nat)} {c : Nat} {rest l : List Nat} :
    concat_map f (c :: rest) = some l
      ↔ ∃ l1 l2, f c = some l1 ∧ concat_map f rest = some l2 ∧ l = l1 ++ l2 := by
  rw [concat_map]
  constructor
  · intro h
    split at h
    · rename_i l1 l2 h1 h2
      exact ⟨l1, l2, h1, h2, (Option.some.inj h).symm⟩
    · cases h
  · rintro ⟨l1, l2, h1, h2, rfl⟩
    rw [h1, h2]

theorem concat_map_append_some {f : Nat → Option (List Nat)} {a b l : List Nat} :
    concat_map f (a ++ b) = some l
      ↔ ∃ l1 l2, concat_map f a = some l1 ∧ concat_map f b = some l2 ∧ l = l1 ++ l2 := by
  induction a generalizing l with
  | nil =>
    constructor
    · intro h
      exact ⟨[], l, rfl, h, rfl⟩
    · rintro ⟨l1, l2, h1, h2, rfl⟩
      cases h1
      exact h2
  | cons c a ih =>
    rw [List.cons_append, concat_map_cons_some]
    constructor
    · rintro ⟨x, y, h1, h2, rfl⟩
      obtain ⟨y1, y2, h3, h4, rfl⟩ := ih.mp h2
      exact ⟨x ++ y1, y2, concat_map_cons_some.mpr ⟨x, y1, h1, h3, rfl⟩, h4,
        (List.append_assoc _ _ _).symm⟩
    · rintro ⟨l1, l2, h1, h2, rfl⟩
      obtain ⟨x, y1, h3, h4, rfl⟩ := concat_map_cons_some.mp h1
      exact ⟨x, y1 ++ l2, h3, ih.mpr ⟨y1, l2, h4, h2, rfl⟩, List.append_assoc _ _ _⟩

theorem concat_map_mono {f g : Nat → Option (List Nat)}
    (h : ∀ n l, f n = some l → g n = some l) {W l : List Nat} (hW : concat_map f W = some l) :
    concat_map g W = some l := by
  induction W generalizing l with
  | nil => exact hW
  | cons c W ih =>
    obtain ⟨l1, l2, h1, h2, rfl⟩ := concat_map_cons_some.mp hW
    exact concat_map_cons_some.mpr ⟨l1, l2, h c l1 h1, ih h2, rfl⟩

theorem subtree_of_succ_some {ch : Nat → Option (List Nat)} {d n : Nat} {l : List Nat} :
    subtree_of ch (d + 1) n = some l
      ↔ ∃ cs l1, ch n = some cs ∧ forest_of ch d cs = some l1 ∧ l = n :: l1 := by
  rw [subtree_of]
  constructor
  · intro h
    split at h
    · rename_i cs hcs
      cases hc : concat_map (subtree_of ch d) cs with
      | none => rw [hc] at h; cases h
      | some l1 =>
        rw [hc] at h
        exact ⟨cs, l1, hcs, hc, (Option.some.inj h).symm⟩
    · cases h
  · rintro ⟨cs, l1, h1, h2, rfl⟩
    rw [h1]
    show Option.map _ (forest_of ch d cs) = _
    rw [h2]
    rfl

theorem subtree_of_mono {ch : Nat → Option (List Nat)} {d : Nat} :
    ∀ {n : Nat} {l : List Nat}, subtree_of ch d n = some l → subtree_of ch (d + 1) n = some l := by
  induction d with
  | zero => intro n l h; cases h
  | succ d ih =>
    intro n l h
    obtain ⟨cs, l1, h1, h2, rfl⟩ := subtree_of_succ_some.mp h
    exact subtree_of_succ_some.mpr ⟨cs, l1, h1, concat_map_mono (fun _ _ h => ih h) h2, rfl⟩

theorem forest_of_mono {ch : Nat → Option (List Nat)} {d : Nat} {W l : List Nat}
    (h : forest_of ch d W = some l) : forest_of ch (d + 1) W = some l :=
  concat_map_mono (fun _ _ h => subtree_of_mono h) h

theorem forest_of_mono_le {ch : Nat → Option (List Nat)} {d e : Nat} {W l : List Nat}
    (h : forest_of ch d W = some l) (hle : d ≤ e) : forest_of ch e W = some l := by
  induction hle with
  | refl => exact h
  | step _ ih => exact forest_of_mono ih

theorem forest_of_nil {ch : Nat → Option (List Nat)} {d : Nat} : forest_of ch d [] = some [] :=
  rfl

theorem forest_of_nil_some {ch : Nat → Option (List Nat)} {d : Nat} {l : List Nat}
    (h : forest_of ch d [] = some l) : l = [] :=
  (Option.some.inj h).symm

/-- Unfolding of a forest at its first root: the first root is listed first,
followed by the forest of its children and of the other roots. -/
theorem forest_of_cons_some {ch : Nat → Option (List Nat)} {d n : Nat} {rest l : List Nat}
    (h : forest_of ch d (n :: rest) = some l) :
    ∃ cs lc lr, ch n = some cs ∧ forest_of ch d cs = some lc ∧ forest_of ch d rest = some lr
      ∧ l = n :: (lc ++ lr) := by
  obtain ⟨l1, l2, h1, h2, rfl⟩ := concat_map_cons_some.mp h
  cases d with
  | zero => cases h1
  | succ d =>
    obtain ⟨cs, lc, h3, h4, rfl⟩ := subtree_of_succ_some.mp h1
    exact ⟨cs, lc, l2, h3, forest_of_mono h4, h2, rfl⟩

theorem forest_of_append {ch : Nat → Option (List Nat)} {d : Nat} {a b la lb : List Nat}
    (ha : forest_of ch d a = some la) (hb : forest_of ch d b = some lb) :
    forest_of ch d (a ++ b) = some (la ++ lb) :=
  concat_map_append_some.mpr ⟨la, lb, ha, hb, rfl⟩

theorem forest_of_roots_subset {ch : Nat → Option (List Nat)} {d : Nat} :
    ∀ {W l : List Nat}, forest_of ch d W = some l → ∀ r ∈ W, r ∈ l := by
  intro W
  induction W with
  | nil => intro l _ r hr; cases hr
  | cons n W ih =>
    intro l h r hr
    obtain ⟨l1, l2, h1, h2, rfl⟩ := concat_map_cons_some.mp h
    rcases List.mem_cons.mp hr with rfl | hr
    · cases d with
      | zero => cases h1
      | succ d =>
        obtain ⟨cs, lc, _, _, rfl⟩ := subtree_of_succ_some.mp h1
        exact List.mem_append_left _ (List.mem_cons_self _ _)
    · exact List.mem_append_right _ (ih h2 r hr)

/-- The members of a forest are the nodes reached from its roots by following
child lists. -/
theorem mem_forest_of {ch : Nat → Option (List Nat)} :
    ∀ (k d : Nat) (W l : List Nat), l.length ≤ k → forest_of ch d W = some l →
      ∀ x, x ∈ l ↔ ∃ r ∈ W, Relation.ReflTransGen (child_of ch) r x := by
  intro k
  induction k with
  | zero =>
    intro d W l hk h x
    have hl : l = [] := List.eq_nil_of_length_eq_zero (Nat.le_zero.mp hk)
    subst hl
    cases W with
    | nil => simp
    | cons n W =>
      obtain ⟨_, _, _, _, _, _, h5⟩ := forest_of_cons_some h
      cases h5
  | succ k ih =>
    intro d W l hk h x
    cases W with
    | nil =>
      rw [forest_of_nil_some h]
      simp
    | cons n W =>
      obtain ⟨cs, lc, lr, h1, h2, h3, rfl⟩ := forest_of_cons_some h
      have h4 := forest_of_append h2 h3
      have hlen : (lc ++ lr).length ≤ k := by
        simp only [List.length_cons] at hk
        omega
      have ih1 := ih d (cs ++ W) (lc ++ lr) hlen h4 x
      constructor
      · intro hx
        rcases List.mem_cons.mp hx with rfl | hx
        · exact ⟨x, List.mem_cons_self _ _, Relation.ReflTransGen.refl⟩
        · obtain ⟨r, hr, hrx⟩ := ih1.mp hx
          rcases List.mem_append.mp hr with hr | hr
          · exact ⟨n, List.mem_cons_self _ _,
              Relation.ReflTransGen.head ⟨cs, h1, hr⟩ hrx⟩
          · exact ⟨r, List.mem_cons_of_mem _ hr, hrx⟩
      · rintro ⟨r, hr, hrx⟩
        rcases List.mem_cons.mp hr with rfl | hr
        · rcases Relation.ReflTransGen.cases_head hrx with rfl | ⟨m, ⟨cs1, hc1, hm⟩, hmx⟩
          · exact List.mem_cons_self _ _
          · rw [h1] at hc1
            cases hc1
            exact List.mem_cons_of_mem _
              (ih1.mpr ⟨m, List.mem_append_left _ hm, hmx⟩)
        · exact List.mem_cons_of_mem _ (ih1.mpr ⟨r, List.mem_append_right _ hr, hrx⟩)

/-! ## Theorems: `assign_node_atpg_info` and the loop body of
`init_subformula_atpg_info` -/

theorem get_node_of_getElem {s : Nenofex} {n : Nat} {nd : Node}
    (h : s.nodes[n]? = some (some nd)) : get_node s n = Except.ok nd := by
  unfold get_node
  rw [h]
  rfl

theorem get_info_of_getElem {s : Nenofex} {arr : List ATPGInfo} {i : Nat} {a : ATPGInfo}
    (harr : s.atpg_rr.atpg_info_array = some arr) (h : arr[i]? = some a) :
    get_info s i = Except.ok a := by
  unfold get_info
  rw [harr]
  show deref arr[i]? = _
  rw [h]
  rfl

/-- The effect of `assign_node_atpg_info` when more than one arena entry is
free. -/
theorem assign_node_atpg_info_spec (s : Nenofex) (n c e : Nat) (nd : Node)
    (arr : List ATPGInfo) (a : ATPGInfo)
    (hc : s.atpg_rr.cur_atpg_info = some c) (he : s.atpg_rr.end_atpg_info = some e)
    (hce : c + 1 ≠ e) (hn : s.nodes[n]? = some (some nd))
    (harr : s.atpg_rr.atpg_info_array = some arr) (ha : arr[c]? = some a) :
    ∃ s1 a1, assign_node_atpg_info s n = Except.ok s1
      ∧ s1.nodes = s.nodes.set n (some { nd with atpg_info := some c })
      ∧ s1.vars = s.vars
      ∧ s1.atpg_rr.cur_atpg_info = some (c + 1)
      ∧ s1.atpg_rr.end_atpg_info = some e
      ∧ s1.atpg_rr.fault_nodes = s.atpg_rr.fault_nodes ++ [{ node := n }]
      ∧ s1.atpg_rr.atpg_info_array = some (arr.set c a1)
      ∧ a1.fault_node = some s.atpg_rr.fault_nodes.length
      ∧ a1.atpg_ch = a.atpg_ch ∧ a1.watcher_pos = a.watcher_pos
      ∧ a1.assignment = a.assignment ∧ a1.justified = a.justified
      ∧ a1.path_mark = a.path_mark ∧ a1.collected = a.collected
      ∧ (nd.type ≠ NodeType.LITERAL → a1.watcher = nd.child_list.head?
          ∧ a1.unassigned_ch_cnt = nd.num_children)
      ∧ (nd.type = NodeType.LITERAL → a1.watcher = a.watcher
          ∧ a1.unassigned_ch_cnt = a.unassigned_ch_cnt)
      ∧ s1.atpg_rr.subformula_vars = s.atpg_rr.subformula_vars
      ∧ s1.atpg_rr.fault_queue = s.atpg_rr.fault_queue
      ∧ s1.changed_subformula = s.changed_subformula
      ∧ s1.graph_root = s.graph_root := by
  have hrun : ∀ a1 : ATPGInfo,
      a1 = (if (nd.type != NodeType.LITERAL) = true then
          { a with fault_node := some s.atpg_rr.fault_nodes.length,
                   watcher := nd.child_list.head?, unassigned_ch_cnt := nd.num_children }
        else { a with fault_node := some s.atpg_rr.fault_nodes.length }) →
      assign_node_atpg_info s n = Except.ok (set_info
        { s with nodes := s.nodes.set n (some { nd with atpg_info := some c }),
                 atpg_rr.cur_atpg_info := some (c + 1),
                 atpg_rr.fault_nodes := s.atpg_rr.fault_nodes ++ [{ node := n }] } c a1) := by
    intro a1 ha1
    unfold assign_node_atpg_info
    rw [hc, he]
    simp only [deref, ok_bind, pure_eq_ok]
    rw [if_neg hce, get_node_of_getElem hn, ok_bind]
    simp only [get_info, harr, deref, ha, ok_bind, pure_eq_ok]
    rw [ha1]
    split <;> rfl
  have harr1 : ∀ a1 : ATPGInfo, (set_info
        { s with nodes := s.nodes.set n (some { nd with atpg_info := some c }),
                 atpg_rr.cur_atpg_info := some (c + 1),
                 atpg_rr.fault_nodes := s.atpg_rr.fault_nodes ++ [{ node := n }] } c
        a1).atpg_rr.atpg_info_array = some (arr.set c a1) := by
    intro a1
    show (s.atpg_rr.atpg_info_array).map _ = _
    rw [harr]
    rfl
  by_cases ht : nd.type = NodeType.LITERAL
  · have hb : (nd.type != NodeType.LITERAL) = false := by simp [ht]
    refine ⟨_, _, hrun _ rfl, rfl, rfl, rfl, he, rfl, harr1 _, ?_⟩
    rw [hb]
    exact ⟨rfl, rfl, rfl, rfl, rfl, rfl, rfl, fun h => absurd ht h,
      fun _ => ⟨rfl, rfl⟩, rfl, rfl, rfl, rfl⟩
  · have hb : (nd.type != NodeType.LITERAL) = true := by simpa using ht
    refine ⟨_, _, hrun _ rfl, rfl, rfl, rfl, he, rfl, harr1 _, ?_⟩
    rw [hb]
    exact ⟨rfl, rfl, rfl, rfl, rfl, rfl, rfl, fun _ => ⟨rfl, rfl⟩,
      fun h => absurd h ht, rfl, rfl, rfl, rfl⟩

theorem set_info_self (s : Nenofex) (arr : List ATPGInfo) (i : Nat) (a : ATPGInfo)
    (harr : s.atpg_rr.atpg_info_array = some arr) (ha : arr[i]? = some a) :
    set_info s i a = s := by
  have hlt : i < arr.length := getElem?_lt ha
  have h1 : arr.set i a = arr := by
    have h2 : arr[i] = a := by
      rw [List.getElem?_eq_getElem hlt] at ha
      exact Option.some.inj ha
    rw [← h2]
    exact List.ext_getElem? (fun j => by
      by_cases hj : i = j
      · subst hj
        rw [List.getElem?_set_self hlt, List.getElem?_eq_getElem hlt]
      · rw [List.getElem?_set_ne hj])
  unfold set_info
  rw [harr]
  show { s with atpg_rr.atpg_info_array := some (arr.set i a) } = s
  rw [h1, ← harr]

theorem var_mark_true_eta (x : Var) (h : x.atpg_mark = true) :
    ({ x with atpg_mark := true } : Var) = x := by
  cases x
  simp only at h
  subst h
  rfl

theorem push_occ_spec (s : Nenofex) (v : Nat) (negated : Bool) (f : Nat) (x : Var)
    (p q : List Nat) (hx : s.vars[v]? = some x) (hp : x.subformula_pos_occs = some p)
    (hq : x.subformula_neg_occs = some q) :
    push_occ s v negated f = Except.ok (set_var s v
      { x with subformula_pos_occs := some (if negated then p else p ++ [f]),
               subformula_neg_occs := some (if negated then q ++ [f] else q) }) := by
  unfold push_occ get_var
  rw [hx]
  simp only [deref, ok_bind, pure_eq_ok]
  cases negated with
  | true =>
    simp only [if_true, hq, hp, ok_bind, pure_eq_ok]
  | false =>
    simp only [hq, hp, ok_bind, pure_eq_ok]
    rw [if_neg Bool.false_ne_true, if_neg Bool.false_ne_true, if_neg Bool.false_ne_true]

/-- The effect of one iteration of the loop of `init_subformula_atpg_info` on
the popped node `n`: the next arena entry `c` and a fresh handle are given to
`n`, the handle is appended to the watcher list of the root entry `ri` if
there is one and `n` is a child of `root`, and a literal is recorded at its
variable. -/
theorem init_visit_spec (root ri : Nat) (s : Nenofex) (n c e : Nat) (nd : Node)
    (arr : List ATPGInfo) (a ra : ATPGInfo)
    (hc : s.atpg_rr.cur_atpg_info = some c) (he : s.atpg_rr.end_atpg_info = some e)
    (hce : c + 1 ≠ e) (hn : s.nodes[n]? = some (some nd))
    (harr : s.atpg_rr.atpg_info_array = some arr) (ha : arr[c]? = some a)
    (hri : ri ≠ c) (hra : arr[ri]? = some ra)
    (hlit : nd.type = NodeType.LITERAL → ∃ lit x, nd.lit = some lit ∧ s.vars[lit.var]? = some x
      ∧ (x.atpg_mark = true → ∃ p q, x.subformula_pos_occs = some p
          ∧ x.subformula_neg_occs = some q)) :
    ∃ s1 a1, init_visit root ri s n = Except.ok s1
      ∧ s1.nodes = s.nodes.set n (some { nd with atpg_info := some c })
      ∧ s1.atpg_rr.cur_atpg_info = some (c + 1)
      ∧ s1.atpg_rr.end_atpg_info = some e
      ∧ s1.atpg_rr.fault_nodes = s.atpg_rr.fault_nodes ++ [{ node := n }]
      ∧ s1.atpg_rr.atpg_info_array = some ((arr.set c a1).set ri
          { ra with atpg_ch := ra.atpg_ch.map (fun ch =>
              if nd.parent = some root then ch ++ [s.atpg_rr.fault_nodes.length] else ch) })
      ∧ a1.fault_node = some s.atpg_rr.fault_nodes.length
      ∧ a1.atpg_ch = a.atpg_ch ∧ a1.watcher_pos = a.watcher_pos
      ∧ (nd.type ≠ NodeType.LITERAL → a1.watcher = nd.child_list.head?
          ∧ a1.unassigned_ch_cnt = nd.num_children)
      ∧ (nd.type ≠ NodeType.LITERAL → s1.vars = s.vars
          ∧ s1.atpg_rr.subformula_vars = s.atpg_rr.subformula_vars)
      ∧ (nd.type = NodeType.LITERAL → ∃ lit x p q, nd.lit = some lit
          ∧ s.vars[lit.var]? = some x
          ∧ (if x.atpg_mark = false then p = [] ∧ q = []
              else x.subformula_pos_occs = some p ∧ x.subformula_neg_occs = some q)
          ∧ s1.vars = s.vars.set lit.var
              { x with atpg_mark := true,
                       subformula_pos_occs := some (if lit.negated then p
                         else p ++ [s.atpg_rr.fault_nodes.length]),
                       subformula_neg_occs := some (if lit.negated then
                         q ++ [s.atpg_rr.fault_nodes.length] else q) }
          ∧ s1.atpg_rr.subformula_vars = (if x.atpg_mark = false then
              s.atpg_rr.subformula_vars ++ [lit.var] else s.atpg_rr.subformula_vars))
      ∧ s1.atpg_rr.fault_queue = s.atpg_rr.fault_queue
      ∧ s1.changed_subformula = s.changed_subformula
      ∧ s1.graph_root = s.graph_root := by
  obtain ⟨s1, a1, hass, hnodes, hvars, hcur, hend, hfn, harr1, hf, hch, hwp, _, _, _, _, hop, _,
    hsv, hfq, hcs, hgr⟩ := assign_node_atpg_info_spec s n c e nd arr a hc he hce hn harr ha
  have hclt : c < arr.length := getElem?_lt ha
  have hnlt : n < s.nodes.length := getElem?_lt hn
  have hn1 : s1.nodes[n]? = some (some { nd with atpg_info := some c }) := by
    rw [hnodes]
    exact List.getElem?_set_self hnlt
  have ha1 : (arr.set c a1)[c]? = some a1 := List.getElem?_set_self hclt
  have hra1 : (arr.set c a1)[ri]? = some ra := by
    rw [List.getElem?_set_ne (Ne.symm hri)]
    exact hra
  have hbody : init_visit root ri s n
      = (fun sA : Nenofex =>
          if (nd.type != NodeType.LITERAL) = true then pure sA
          else deref nd.lit >>= fun lit => get_var sA lit.var >>= fun var =>
            push_occ
              (if var.atpg_mark = false then
                { (set_var sA lit.var { var with atpg_mark := true,
                                                 subformula_pos_occs := some [],
                                                 subformula_neg_occs := some [] }) with
                  atpg_rr.subformula_vars := sA.atpg_rr.subformula_vars ++ [lit.var] }
              else sA) lit.var lit.negated s.atpg_rr.fault_nodes.length)
        (set_info s1 ri
          { ra with atpg_ch := ra.atpg_ch.map (fun ch =>
              if nd.parent = some root then ch ++ [s.atpg_rr.fault_nodes.length] else ch) }) := by
    unfold init_visit
    rw [hass, ok_bind, get_node_of_getElem hn1, ok_bind]
    unfold node_info info_index
    rw [get_node_of_getElem hn1]
    simp only [deref, ok_bind, pure_eq_ok]
    rw [get_info_of_getElem harr1 ha1, ok_bind, hf]
    simp only [ok_bind]
    rw [get_info_of_getElem harr1 hra1, ok_bind]
    cases hrc : ra.atpg_ch with
    | none =>
      simp only [Option.map_none']
      have : set_info s1 ri { ra with atpg_ch := none } = s1 := by
        have h2 : ({ ra with atpg_ch := none } : ATPGInfo) = ra := by
          cases ra
          simp only at hrc
          subst hrc
          rfl
        rw [h2]
        exact set_info_self s1 _ ri ra harr1 hra1
      rw [this]
    | some ch =>
      simp only [Option.map_some']
      by_cases hp : nd.parent = some root
      · simp only [if_pos hp]
      · simp only [if_neg hp]
        have : set_info s1 ri { ra with atpg_ch := some ch } = s1 := by
          have h2 : ({ ra with atpg_ch := some ch } : ATPGInfo) = ra := by
            cases ra
            simp only at hrc
            subst hrc
            rfl
          rw [h2]
          exact set_info_self s1 _ ri ra harr1 hra1
        rw [this]
  have harrA : ∀ ra1 : ATPGInfo, (set_info s1 ri ra1).atpg_rr.atpg_info_array
      = some ((arr.set c a1).set ri ra1) := by
    intro ra1
    show (s1.atpg_rr.atpg_info_array).map _ = _
    rw [harr1]
    rfl
  by_cases ht : nd.type = NodeType.LITERAL
  · have hb : (nd.type != NodeType.LITERAL) = false := by simp [ht]
    obtain ⟨lit, x, hl, hx, hocc⟩ := hlit ht
    rw [hb] at hbody
    simp only [Bool.false_eq_true, if_false, hl, deref, ok_bind, pure_eq_ok] at hbody
    have hxA : ∀ ra1 : ATPGInfo, (set_info s1 ri ra1).vars[lit.var]? = some x := by
      intro ra1
      show s1.vars[lit.var]? = _
      rw [hvars]
      exact hx
    have hvlt : lit.var < s.vars.length := getElem?_lt hx
    unfold get_var at hbody
    rw [hxA] at hbody
    simp only [deref, ok_bind, pure_eq_ok] at hbody
    by_cases hm : x.atpg_mark = false
    · rw [if_pos hm] at hbody
      have hx2 : ∀ sA : Nenofex, sA.vars = s.vars →
          ({ (set_var sA lit.var { x with atpg_mark := true, subformula_pos_occs := some [],
                                          subformula_neg_occs := some [] }) with
              atpg_rr.subformula_vars := sA.atpg_rr.subformula_vars ++ [lit.var] }
            : Nenofex).vars[lit.var]?
            = some { x with atpg_mark := true, subformula_pos_occs := some [],
                            subformula_neg_occs := some [] } := by
        intro sA hsA
        show (sA.vars.set lit.var _)[lit.var]? = _
        rw [hsA]
        exact List.getElem?_set_self hvlt
      refine ⟨_, a1, hbody.trans (push_occ_spec _ _ _ _ _ [] [] (hx2 _ hvars) rfl rfl),
        hnodes, hcur, hend, hfn, harrA _, hf, hch, hwp, hop,
        fun h => absurd ht h, fun _ => ⟨lit, x, [], [], hl, hx, ?_, ?_, ?_⟩, hfq, hcs, hgr⟩
      · rw [if_pos hm]
        exact ⟨rfl, rfl⟩
      · show ((s1.vars.set lit.var _).set lit.var _) = _
        rw [hvars, List.set_set]
      · rw [if_pos hm]
        show s1.atpg_rr.subformula_vars ++ [lit.var] = _
        rw [hsv]
    · rw [if_neg hm] at hbody
      have hm1 : x.atpg_mark = true := by
        cases h : x.atpg_mark with
        | true => rfl
        | false => exact absurd h hm
      obtain ⟨p, q, hp, hq⟩ := hocc hm1
      refine ⟨_, a1, hbody.trans (push_occ_spec _ _ _ _ x p q (hxA _) hp hq),
        hnodes, hcur, hend, hfn, harrA _, hf, hch, hwp, hop,
        fun h => absurd ht h, fun _ => ⟨lit, x, p, q, hl, hx, ?_, ?_, ?_⟩, hfq, hcs, hgr⟩
      · rw [if_neg hm]
        exact ⟨hp, hq⟩
      · show (s1.vars.set lit.var _) = _
        rw [hvars]
        congr 2
      · rw [if_neg hm]
        exact hsv
  · have hb : (nd.type != NodeType.LITERAL) = true := by simpa using ht
    rw [hb] at hbody
    simp only [if_true] at hbody
    exact ⟨_, a1, hbody, hnodes, hcur, hend, hfn, harrA _, hf, hch, hwp, hop,
      fun _ => ⟨hvars, hsv⟩, fun h => absurd h ht, hfq, hcs, hgr⟩

/-! ## Theorems: handles given in visiting order -/

theorem handles_where_append (p : Nat → Bool) (f : Nat) (a b : List Nat) :
    handles_where p f (a ++ b) = handles_where p f a ++ handles_where p (f + a.length) b := by
  induction a generalizing f with
  | nil => rfl
  | cons n a ih =>
    have e : f + (n :: a).length = f + 1 + a.length := by
      simp only [List.length_cons]
      omega
    rw [List.cons_append, handles_where, handles_where, ih, e]
    split
    · rfl
    · rfl

theorem handles_where_snoc (p : Nat → Bool) (f : Nat) (a : List Nat) (n : Nat) :
    handles_where p f (a ++ [n])
      = handles_where p f a ++ (if p n then [f + a.length] else []) := by
  rw [handles_where_append]
  rfl

theorem mem_handles_where (p : Nat → Bool) (f : Nat) (l : List Nat) (h : Nat) :
    h ∈ handles_where p f l ↔ ∃ k n, l[k]? = some n ∧ p n = true ∧ h = f + k := by
  induction l generalizing f with
  | nil => simp [handles_where]
  | cons m l ih =>
    rw [handles_where]
    constructor
    · intro hm
      split at hm
      · rename_i hp
        rcases List.mem_cons.mp hm with rfl | hm
        · exact ⟨0, m, List.getElem?_cons_zero, hp, rfl⟩
        · obtain ⟨k, n, h1, h2, h3⟩ := (ih (f + 1)).mp hm
          exact ⟨k + 1, n, List.getElem?_cons_succ.trans h1, h2, by omega⟩
      · obtain ⟨k, n, h1, h2, h3⟩ := (ih (f + 1)).mp hm
        exact ⟨k + 1, n, List.getElem?_cons_succ.trans h1, h2, by omega⟩
    · rintro ⟨k, n, h1, h2, h3⟩
      cases k with
      | zero =>
        simp only [List.getElem?_cons_zero, Option.some.injEq] at h1
        subst h1
        rw [if_pos h2, h3]
        exact List.mem_cons_self _ _
      | succ k =>
        simp only [List.getElem?_cons_succ] at h1
        have : h ∈ handles_where p (f + 1) l := (ih (f + 1)).mpr ⟨k, n, h1, h2, by omega⟩
        split
        · exact List.mem_cons_of_mem _ this
        · exact this

theorem handles_where_ge (p : Nat → Bool) (f : Nat) (l : List Nat) (h : Nat)
    (hm : h ∈ handles_where p f l) : f ≤ h := by
  obtain ⟨k, _, _, _, h3⟩ := (mem_handles_where p f l h).mp hm
  omega

theorem handles_where_nodup (p : Nat → Bool) (f : Nat) (l : List Nat) :
    (handles_where p f l).Nodup := by
  induction l generalizing f with
  | nil => exact List.nodup_nil
  | cons m l ih =>
    rw [handles_where]
    split
    · refine List.nodup_cons.mpr ⟨fun hm => ?_, ih (f + 1)⟩
      have := handles_where_ge p (f + 1) l f hm
      omega
    · exact ih (f + 1)

theorem handles_where_eq_nil (p : Nat → Bool) (f : Nat) (l : List Nat) :
    handles_where p f l = [] ↔ ∀ n ∈ l, p n = false := by
  induction l generalizing f with
  | nil => simp [handles_where]
  | cons m l ih =>
    rw [handles_where]
    constructor
    · intro h n hn
      split at h
      · cases h
      · rename_i hp
        rcases List.mem_cons.mp hn with rfl | hn
        · simpa using hp
        · exact (ih (f + 1)).mp h n hn
    · intro h
      have hm : p m = false := h m (List.mem_cons_self _ _)
      rw [hm]
      simp only [Bool.false_eq_true, if_false]
      exact (ih (f + 1)).mpr (fun n hn => h n (List.mem_cons_of_mem _ hn))

theorem getElem?_snoc {α : Type} (l : List α) (a b : α) (k : Nat)
    (h : (l ++ [a])[k]? = some b) :
    (k < l.length ∧ l[k]? = some b) ∨ (k = l.length ∧ b = a) := by
  by_cases hk : k < l.length
  · rw [List.getElem?_append_left hk] at h
    exact Or.inl ⟨hk, h⟩
  · have hge : l.length ≤ k := Nat.le_of_not_lt hk
    rw [List.getElem?_append_right hge] at h
    have hlt := getElem?_lt h
    simp only [List.length_singleton] at hlt
    have hk0 : k - l.length = 0 := by omega
    rw [hk0] at h
    simp only [List.getElem?_cons_zero, Option.some.injEq] at h
    exact Or.inr ⟨by omega, h.symm⟩

/-! ## Theorems: the invariant of the loop of `init_subformula_atpg_info` -/

theorem option_map_append_nil (o : Option (List Nat)) :
    o.map (fun ch => ch ++ ([] : List Nat)) = o := by
  cases o with
  | none => rfl
  | some ch => simp

theorem info_atpg_ch_eta (ra : ATPGInfo) : ({ ra with atpg_ch := ra.atpg_ch } : ATPGInfo) = ra :=
  rfl

theorem var_after_init_nil (x : Var) : var_after_init x [] [] = x := by
  unfold var_after_init
  rw [if_pos ⟨rfl, rfl⟩]

theorem InitMid_nil (s0 : Nenofex) (root ri c1 f1 : Nat) (arr0 : List ATPGInfo) (ra0 : ATPGInfo)
    (hc : s0.atpg_rr.cur_atpg_info = some c1)
    (harr : s0.atpg_rr.atpg_info_array = some arr0) (hra : arr0[ri]? = some ra0) :
    InitMid s0 root ri c1 f1 [] s0 where
  visited := fun k n h => by simp at h
  others := fun _ _ => rfl
  cur := hc
  end_ := rfl
  fault_nodes := by simp
  arena := ⟨arr0, arr0, ra0, harr, harr, rfl, hra, by
    rw [hra]
    show some _ = some ({ ra0 with atpg_ch := ra0.atpg_ch.map (fun ch => ch ++ []) } : ATPGInfo)
    rw [option_map_append_nil], fun k n h => by simp at h, fun _ _ => rfl⟩
  vars := fun v x hx => by
    rw [hx]
    show some x = some (var_after_init x [] [])
    rw [var_after_init_nil]
  vars_length := rfl
  subformula_vars := ⟨[], by simp, List.nodup_nil, fun v => by simp⟩
  fault_queue := rfl
  changed_subformula := rfl
  graph_root := rfl

theorem var_after_init_mark (x : Var) (P Q : List Nat) (hx : x.atpg_mark = false) :
    (var_after_init x P Q).atpg_mark = false ↔ P = [] ∧ Q = [] := by
  unfold var_after_init
  by_cases h : P = [] ∧ Q = []
  · rw [if_pos h]
    exact ⟨fun _ => h, fun _ => hx⟩
  · rw [if_neg h]
    exact ⟨fun h1 => (by cases h1), fun h1 => absurd h1 h⟩

theorem var_after_init_occs (x : Var) (P Q : List Nat) (hx : x.atpg_mark = false) :
    if (var_after_init x P Q).atpg_mark = false then P = [] ∧ Q = []
    else (var_after_init x P Q).subformula_pos_occs = some P
      ∧ (var_after_init x P Q).subformula_neg_occs = some Q := by
  by_cases h : P = [] ∧ Q = []
  · rw [if_pos ((var_after_init_mark x P Q hx).mpr h)]
    exact h
  · rw [if_neg (fun h1 => h ((var_after_init_mark x P Q hx).mp h1))]
    unfold var_after_init
    rw [if_neg h]
    exact ⟨rfl, rfl⟩

theorem var_after_init_push (x : Var) (P Q : List Nat) (b : Bool) (f : Nat) :
    ({ var_after_init x P Q with
        atpg_mark := true,
        subformula_pos_occs := some (if b then P else P ++ [f]),
        subformula_neg_occs := some (if b then Q ++ [f] else Q) } : Var)
      = var_after_init x (P ++ (if (false == b) then [f] else []))
          (Q ++ (if (true == b) then [f] else [])) := by
  unfold var_after_init
  cases b with
  | true =>
    have h1 : ¬ (P ++ (if (false == true) = true then [f] else []) = []
        ∧ Q ++ (if (true == true) = true then [f] else []) = []) := by
      simp
    rw [if_neg h1]
    by_cases h : P = [] ∧ Q = []
    · rw [if_pos h]
      simp
    · rw [if_neg h]
      simp
  | false =>
    have h1 : ¬ (P ++ (if (false == false) = true then [f] else []) = []
        ∧ Q ++ (if (true == false) = true then [f] else []) = []) := by
      simp
    rw [if_neg h1]
    by_cases h : P = [] ∧ Q = []
    · rw [if_pos h]
      simp
    · rw [if_neg h]
      simp

theorem lit_of_eq {s : Nenofex} {n : Nat} {nd : Node} (h : s.nodes[n]? = some (some nd)) :
    lit_of s n = if nd.type = NodeType.LITERAL then nd.lit else none := by
  unfold lit_of
  rw [h]

theorem parent_of_eq {s : Nenofex} {n : Nat} {nd : Node} (h : s.nodes[n]? = some (some nd)) :
    parent_of s n = nd.parent := by
  unfold parent_of
  rw [h]

theorem occ_handles_snoc (s : Nenofex) (v : Nat) (b : Bool) (f : Nat) (l : List Nat) (n : Nat) :
    occ_handles s v b f (l ++ [n]) = occ_handles s v b f l
      ++ (if lit_of s n = some ⟨v, b⟩ then [f + l.length] else []) := by
  unfold occ_handles
  rw [handles_where_snoc]
  congr 1
  by_cases h : lit_of s n = some ⟨v, b⟩
  · rw [if_pos h, if_pos (by simpa using h)]
  · rw [if_neg h, if_neg (by simpa using h)]

theorem child_handles_snoc (s : Nenofex) (root f : Nat) (l : List Nat) (n : Nat) :
    child_handles s root f (l ++ [n]) = child_handles s root f l
      ++ (if parent_of s n = some root then [f + l.length] else []) := by
  unfold child_handles
  rw [handles_where_snoc]
  congr 1
  by_cases h : parent_of s n = some root
  · rw [if_pos h, if_pos (by simpa using h)]
  · rw [if_neg h, if_neg (by simpa using h)]

theorem occ_handles_eq_nil (s : Nenofex) (v : Nat) (f : Nat) (l : List Nat) :
    (occ_handles s v false f l = [] ∧ occ_handles s v true f l = [])
      ↔ ¬ ∃ n ∈ l, ∃ lit, lit_of s n = some lit ∧ lit.var = v := by
  unfold occ_handles
  rw [handles_where_eq_nil, handles_where_eq_nil]
  constructor
  · rintro ⟨h1, h2⟩ ⟨n, hn, lit, hl, hv⟩
    have e1 := h1 n hn
    have e2 := h2 n hn
    rw [hl] at e1 e2
    cases lit with
    | mk w b =>
      simp only at hv
      subst hv
      cases b
      · simp at e1
      · simp at e2
  · intro h
    constructor
    · intro n hn
      by_contra hc
      exact h ⟨n, hn, ⟨v, false⟩, by simpa using hc, rfl⟩
    · intro n hn
      by_contra hc
      exact h ⟨n, hn, ⟨v, true⟩, by simpa using hc, rfl⟩

/-- One iteration of the loop of `init_subformula_atpg_info` extends the
invariant by the popped node. -/
theorem InitMid_step (s0 : Nenofex) (root ri c1 f1 e : Nat) (done : List Nat) (s : Nenofex)
    (n : Nat) (nd0 : Node) (hI : InitMid s0 root ri c1 f1 done s)
    (hf1 : f1 = s0.atpg_rr.fault_nodes.length) (hri : ri < c1)
    (he : s0.atpg_rr.end_atpg_info = some e) (hce : c1 + done.length + 1 < e)
    (hlen : ∀ arr0, s0.atpg_rr.atpg_info_array = some arr0 → e ≤ arr0.length)
    (hn : n ∉ done) (hn0 : s0.nodes[n]? = some (some nd0))
    (hlit : nd0.type = NodeType.LITERAL →
      ∃ (lit : Lit) (x : Var), nd0.lit = some lit ∧ s0.vars[lit.var]? = some x)
    (hmark : ∀ (v : Nat) (x : Var), s0.vars[v]? = some x → x.atpg_mark = false) :
    ∃ s1, init_visit root ri s n = Except.ok s1
      ∧ InitMid s0 root ri c1 f1 (done ++ [n]) s1 := by
  obtain ⟨arr0, arr, ra0, harr0, harr, hal, hra0, hra, hent, hrest⟩ := hI.arena
  have hclt : c1 + done.length < arr.length := by
    rw [hal]
    have := hlen arr0 harr0
    omega
  have hac : arr[c1 + done.length]? = some arr[c1 + done.length] :=
    List.getElem?_eq_getElem hclt
  have hns : s.nodes[n]? = some (some nd0) := (hI.others n hn).trans hn0
  have hnlt : n < s.nodes.length := getElem?_lt hns
  have hfl : s.atpg_rr.fault_nodes.length = f1 + done.length := by
    rw [hI.fault_nodes, List.length_append, List.length_map, hf1]
  have hlit1 : nd0.type = NodeType.LITERAL → ∃ lit x, nd0.lit = some lit
      ∧ s.vars[lit.var]? = some x
      ∧ (x.atpg_mark = true → ∃ p q, x.subformula_pos_occs = some p
          ∧ x.subformula_neg_occs = some q) := by
    intro ht
    obtain ⟨lit, x0, hl, hx0⟩ := hlit ht
    refine ⟨lit, _, hl, hI.vars lit.var x0 hx0, fun hm => ?_⟩
    have h := var_after_init_occs x0 (occ_handles s0 lit.var false f1 done)
      (occ_handles s0 lit.var true f1 done) (hmark _ _ hx0)
    rw [if_neg (by rw [hm]; exact Bool.noConfusion)] at h
    exact ⟨_, _, h.1, h.2⟩
  obtain ⟨s1, a1, hrun, hnodes1, hcur1, hend1, hfn1, harr1, hfa1, _, _, _, hnonlit, hlitc,
    hfq1, hcs1, hgr1⟩ := init_visit_spec root ri s n (c1 + done.length) e nd0 arr
      arr[c1 + done.length] _ hI.cur (hI.end_.trans he) (by omega) hns harr hac
      (by omega) hra hlit1
  have hlitn : lit_of s0 n = if nd0.type = NodeType.LITERAL then nd0.lit else none :=
    lit_of_eq hn0
  refine ⟨s1, hrun, ?_⟩
  refine
    { visited := ?_, others := ?_, cur := ?_, end_ := ?_, fault_nodes := ?_, arena := ?_,
      vars := ?_, vars_length := ?_, subformula_vars := ?_, fault_queue := hfq1.trans hI.fault_queue,
      changed_subformula := hcs1.trans hI.changed_subformula,
      graph_root := hgr1.trans hI.graph_root }
  · -- visited
    intro k m hk
    rcases getElem?_snoc done n m k hk with ⟨_, hk1⟩ | ⟨hk1, rfl⟩
    · obtain ⟨ndm, h1, h2⟩ := hI.visited k m hk1
      refine ⟨ndm, h1, ?_⟩
      have hne : n ≠ m := fun h => hn (h ▸ List.getElem?_mem hk1)
      rw [hnodes1, List.getElem?_set_ne hne]
      exact h2
    · refine ⟨nd0, hn0, ?_⟩
      rw [hnodes1, hk1]
      exact List.getElem?_set_self hnlt
  · -- others
    intro m hm
    have hne : n ≠ m := fun h => hm (h ▸ List.mem_append_right _ (List.mem_singleton_self _))
    rw [hnodes1, List.getElem?_set_ne hne]
    exact hI.others m (fun h => hm (List.mem_append_left _ h))
  · rw [hcur1, List.length_append, List.length_singleton, Nat.add_assoc]
  · rw [hend1, he]
  · rw [hfn1, hI.fault_nodes, List.map_append, List.append_assoc]
    rfl
  · -- arena
    have hlen1 : (arr.set (c1 + done.length) a1).length = arr0.length := by
      rw [List.length_set]
      exact hal
    have hrlt : ri < (arr.set (c1 + done.length) a1).length := by
      rw [hlen1, ← hal]
      exact getElem?_lt hra
    refine ⟨arr0, _, ra0, harr0, harr1, ?_, hra0, ?_, ?_, ?_⟩
    · rw [List.length_set]
      exact hlen1
    · rw [List.getElem?_set_self hrlt, child_handles_snoc, parent_of_eq hn0, hfl]
      congr 1
      show ({ ra0 with atpg_ch := Option.map _ (Option.map _ ra0.atpg_ch) } : ATPGInfo) = _
      congr 1
      cases ra0.atpg_ch with
      | none => rfl
      | some ch =>
        simp only [Option.map_some']
        by_cases hp : nd0.parent = some root
        · rw [if_pos hp, if_pos hp, List.append_assoc]
        · rw [if_neg hp, if_neg hp, List.append_nil]
    · intro k m hk
      rcases getElem?_snoc done n m k hk with ⟨hk0, hk1⟩ | ⟨hk1, rfl⟩
      · obtain ⟨a, h1, h2⟩ := hent k m hk1
        refine ⟨a, ?_, h2⟩
        rw [List.getElem?_set_ne (by omega), List.getElem?_set_ne (by omega)]
        exact h1
      · refine ⟨a1, ?_, ?_⟩
        · rw [List.getElem?_set_ne (by omega), hk1]
          exact List.getElem?_set_self hclt
        · rw [hfa1, hfl, hk1]
    · intro i hi
      rw [List.length_append, List.length_singleton] at hi
      rw [List.getElem?_set_ne (by omega), List.getElem?_set_ne (by omega)]
      exact hrest i (by omega)
  · -- vars
    intro v x0 hx0
    by_cases ht : nd0.type = NodeType.LITERAL
    · obtain ⟨lit, x, p, q, hl, hx, hpq, hv1, _⟩ := hlitc ht
      have hlv : lit_of s0 n = some lit := by rw [hlitn, if_pos ht, hl]
      rw [occ_handles_snoc, occ_handles_snoc, hlv, hv1]
      by_cases hv : lit.var = v
      · subst hv
        have hxe := hI.vars lit.var x0 hx0
        rw [hx] at hxe
        have hxe1 : x = var_after_init x0 (occ_handles s0 lit.var false f1 done)
            (occ_handles s0 lit.var true f1 done) := Option.some.inj hxe
        rw [List.getElem?_set_self (getElem?_lt hx)]
        congr 1
        have hocc := var_after_init_occs x0 (occ_handles s0 lit.var false f1 done)
          (occ_handles s0 lit.var true f1 done) (hmark _ _ hx0)
        rw [← hxe1] at hocc
        have hp : p = occ_handles s0 lit.var false f1 done
            ∧ q = occ_handles s0 lit.var true f1 done := by
          by_cases hm : x.atpg_mark = false
          · rw [if_pos hm] at hpq hocc
            exact ⟨hpq.1.trans hocc.1.symm, hpq.2.trans hocc.2.symm⟩
          · rw [if_neg hm] at hpq hocc
            exact ⟨Option.some.inj (hpq.1.symm.trans hocc.1),
              Option.some.inj (hpq.2.symm.trans hocc.2)⟩
        rw [hp.1, hp.2, hxe1, hfl]
        have e := var_after_init_push x0 (occ_handles s0 lit.var false f1 done)
          (occ_handles s0 lit.var true f1 done) lit.negated (f1 + done.length)
        rw [e]
        cases lit with
        | mk w b => cases b <;> simp
      · rw [List.getElem?_set_ne hv, hI.vars v x0 hx0]
        have h1 : ∀ b, ¬ some lit = some (⟨v, b⟩ : Lit) := by
          intro b h
          exact hv (congrArg Lit.var (Option.some.inj h))
        rw [if_neg (h1 false), if_neg (h1 true), List.append_nil, List.append_nil]
    · have hlv : lit_of s0 n = none := by rw [hlitn, if_neg ht]
      rw [(hnonlit ht).1, hI.vars v x0 hx0, occ_handles_snoc, occ_handles_snoc, hlv]
      simp only [reduceCtorEq, if_false, List.append_nil]
  · -- vars_length
    by_cases ht : nd0.type = NodeType.LITERAL
    · obtain ⟨lit, x, p, q, _, _, _, hv1, _⟩ := hlitc ht
      rw [hv1, List.length_set]
      exact hI.vars_length
    · rw [(hnonlit ht).1]
      exact hI.vars_length
  · -- subformula_vars
    obtain ⟨vs, hvs, hnd, hmem⟩ := hI.subformula_vars
    by_cases ht : nd0.type = NodeType.LITERAL
    · obtain ⟨lit, x, p, q, hl, hx, hpq, _, hsv1⟩ := hlitc ht
      obtain ⟨lit0, x0, hl0, hx0⟩ := hlit ht
      have hll : lit0 = lit := Option.some.inj (hl0.symm.trans hl)
      subst hll
      have hlv : lit_of s0 n = some lit0 := by rw [hlitn, if_pos ht, hl]
      have hxe := hI.vars lit0.var x0 hx0
      rw [hx] at hxe
      have hxe1 : x = var_after_init x0 (occ_handles s0 lit0.var false f1 done)
          (occ_handles s0 lit0.var true f1 done) := Option.some.inj hxe
      have hmk : x.atpg_mark = false ↔ lit0.var ∉ vs := by
        rw [hxe1, var_after_init_mark _ _ _ (hmark _ _ hx0), occ_handles_eq_nil, hmem]
      by_cases hm : x.atpg_mark = false
      · refine ⟨vs ++ [lit0.var], ?_, ?_, ?_⟩
        · rw [hsv1, if_pos hm, hvs, List.append_assoc]
        · rw [List.nodup_append]
          refine ⟨hnd, List.nodup_singleton _, ?_⟩
          intro a ha hb
          rw [List.mem_singleton] at hb
          subst hb
          exact hmk.mp hm ha
        · intro v
          rw [List.mem_append, hmem, List.mem_singleton]
          constructor
          · rintro (⟨m, hm1, l1, hl1, hv1⟩ | rfl)
            · exact ⟨m, List.mem_append_left _ hm1, l1, hl1, hv1⟩
            · exact ⟨n, List.mem_append_right _ (List.mem_singleton_self _), lit0, hlv, rfl⟩
          · rintro ⟨m, hm1, l1, hl1, hv1⟩
            rcases List.mem_append.mp hm1 with hm2 | hm2
            · exact Or.inl ⟨m, hm2, l1, hl1, hv1⟩
            · rw [List.mem_singleton] at hm2
              subst hm2
              rw [hlv] at hl1
              cases hl1
              exact Or.inr hv1.symm
      · refine ⟨vs, ?_, hnd, ?_⟩
        · rw [hsv1, if_neg hm, hvs]
        · intro v
          rw [hmem]
          constructor
          · rintro ⟨m, hm1, l1, hl1, hv1⟩
            exact ⟨m, List.mem_append_left _ hm1, l1, hl1, hv1⟩
          · rintro ⟨m, hm1, l1, hl1, hv1⟩
            rcases List.mem_append.mp hm1 with hm2 | hm2
            · exact ⟨m, hm2, l1, hl1, hv1⟩
            · rw [List.mem_singleton] at hm2
              subst hm2
              rw [hlv] at hl1
              cases hl1
              subst hv1
              have : lit0.var ∈ vs := by
                by_contra hc
                exact hm (hmk.mpr hc)
              exact (hmem lit0.var).mp this
    · have hlv : lit_of s0 n = none := by rw [hlitn, if_neg ht]
      refine ⟨vs, ?_, hnd, ?_⟩
      · rw [(hnonlit ht).2, hvs]
      · intro v
        rw [hmem]
        constructor
        · rintro ⟨m, hm1, l1, hl1, hv1⟩
          exact ⟨m, List.mem_append_left _ hm1, l1, hl1, hv1⟩
        · rintro ⟨m, hm1, l1, hl1, hv1⟩
          rcases List.mem_append.mp hm1 with hm2 | hm2
          · exact ⟨m, hm2, l1, hl1, hv1⟩
          · rw [List.mem_singleton] at hm2
            subst hm2
            rw [hlv] at hl1
            cases hl1

/-! ## Theorems: the loop of `init_subformula_atpg_info` -/

theorem init_subformula_loop_step (root ri fuel : Nat) (s : Nenofex) (cur : Nat)
    (rest : List Nat) (nd : Node) (s1 : Nenofex) (c : Nat)
    (hass : assign_node_atpg_info s cur = Except.ok s1)
    (hn1 : s1.nodes[cur]? = some (some { nd with atpg_info := some c })) :
    init_subformula_loop root ri (fuel + 1) s (cur :: rest)
      = init_visit root ri s cur >>= fun s2 =>
          init_subformula_loop root ri fuel s2
            ((if nd.type != NodeType.LITERAL then nd.child_list else []) ++ rest) := by
  unfold init_visit
  rw [init_subformula_loop]
  simp only [hass, ok_bind, get_node_of_getElem hn1, bind_assoc]
  by_cases ht : nd.type = NodeType.LITERAL
  · have hb : (nd.type != NodeType.LITERAL) = false := by simp [ht]
    simp only [hb, Bool.false_eq_true, if_false, List.nil_append, bind_assoc]
    try rfl
  · have hb : (nd.type != NodeType.LITERAL) = true := by simpa using ht
    simp only [hb, if_true, pure_bind]
    try rfl

theorem node_children_some {s : Nenofex} {n : Nat} {cs : List Nat}
    (h : node_children s n = some cs) :
    ∃ nd, s.nodes[n]? = some (some nd)
      ∧ cs = if nd.type != NodeType.LITERAL then nd.child_list else [] := by
  unfold node_children at h
  split at h
  · rename_i nd hnd
    exact ⟨nd, hnd, (Option.some.inj h).symm⟩
  · cases h

/-- The loop of `init_subformula_atpg_info` visits the forest below the
nodes of its stack in order and keeps the invariant `InitMid`; it needs one
unit of fuel per node and one for the final test. -/
theorem init_subformula_loop_spec (s0 : Nenofex) (root ri c1 f1 e d : Nat)
    (hf1 : f1 = s0.atpg_rr.fault_nodes.length) (hri : ri < c1)
    (he : s0.atpg_rr.end_atpg_info = some e)
    (hlen : ∀ arr0, s0.atpg_rr.atpg_info_array = some arr0 → e ≤ arr0.length)
    (hmark : ∀ (v : Nat) (x : Var), s0.vars[v]? = some x → x.atpg_mark = false) :
    ∀ (k : Nat) (stack l done : List Nat) (s : Nenofex),
      InitMid s0 root ri c1 f1 done s →
      forest_of (node_children s0) d stack = some l → l.length ≤ k →
      (done ++ l).Nodup → c1 + (done ++ l).length < e →
      (∀ n ∈ l, ∀ nd : Node, s0.nodes[n]? = some (some nd) → nd.type = NodeType.LITERAL →
        ∃ (lit : Lit) (x : Var), nd.lit = some lit ∧ s0.vars[lit.var]? = some x) →
      ∃ s1, init_subformula_loop root ri (k + 1) s stack = Except.ok s1
        ∧ InitMid s0 root ri c1 f1 (done ++ l) s1 := by
  intro k
  induction k with
  | zero =>
    intro stack l done s hI hfor hk _ _ _
    have hl : l = [] := List.eq_nil_of_length_eq_zero (Nat.le_zero.mp hk)
    subst hl
    cases stack with
    | nil =>
      refine ⟨s, rfl, ?_⟩
      rw [List.append_nil]
      exact hI
    | cons cur rest =>
      obtain ⟨_, _, _, _, _, _, h5⟩ := forest_of_cons_some hfor
      cases h5
  | succ k ih =>
    intro stack l done s hI hfor hk hnd hbound hlitall
    cases stack with
    | nil =>
      rw [forest_of_nil_some hfor, List.append_nil]
      exact ⟨s, rfl, hI⟩
    | cons cur rest =>
      obtain ⟨cs, lc, lr, hch, hfc, hfr, rfl⟩ := forest_of_cons_some hfor
      obtain ⟨nd0, hn0, hcs⟩ := node_children_some hch
      have hcur : cur ∉ done := by
        intro hm
        have := List.disjoint_of_nodup_append hnd hm
        exact this (List.mem_cons_self _ _)
      have hlen1 : (done ++ cur :: (lc ++ lr)).length = done.length + 1 + (lc ++ lr).length := by
        simp only [List.length_append, List.length_cons]
        omega
      obtain ⟨s1, hvis, hI1⟩ := InitMid_step s0 root ri c1 f1 e done s cur nd0 hI hf1 hri he
        (by rw [hlen1] at hbound; omega) hlen hcur hn0
        (hlitall cur (List.mem_cons_self _ _) nd0 hn0) hmark
      -- the assignment inside the visit
      obtain ⟨arr0, arr, ra0, harr0, harr, hal, _, _, _, _⟩ := hI.arena
      have hclt : c1 + done.length < arr.length := by
        rw [hal]
        have := hlen arr0 harr0
        rw [hlen1] at hbound
        omega
      have hns : s.nodes[cur]? = some (some nd0) := (hI.others cur hcur).trans hn0
      obtain ⟨sa, _, hass, hnodes, _⟩ := assign_node_atpg_info_spec s cur (c1 + done.length) e
        nd0 arr arr[c1 + done.length] hI.cur (hI.end_.trans he)
        (by rw [hlen1] at hbound; omega) hns harr (List.getElem?_eq_getElem hclt)
      have hn1 : sa.nodes[cur]? = some (some { nd0 with atpg_info := some (c1 + done.length) }) := by
        rw [hnodes]
        exact List.getElem?_set_self (getElem?_lt hns)
      rw [init_subformula_loop_step root ri (k + 1) s cur rest nd0 sa _ hass hn1, hvis, ok_bind,
        ← hcs]
      have hdl : done ++ cur :: (lc ++ lr) = (done ++ [cur]) ++ (lc ++ lr) := by
        simp
      rw [hdl] at hnd hbound ⊢
      refine ih (cs ++ rest) (lc ++ lr) (done ++ [cur]) s1 hI1 (forest_of_append hfc hfr) ?_ hnd
        hbound (fun n hn => hlitall n (List.mem_cons_of_mem _ hn))
      simp only [List.length_cons] at hk
      omega

/-! ## Theorems: `init_subformula_atpg_info` -/

theorem getElem?_set_info {nodes : List (Option Node)} {r : Nat} {nd : Node} {c : Option Nat}
    (hn : nodes[r]? = some (some nd)) (n : Nat) :
    (nodes.set r (some { nd with atpg_info := c }))[n]?
      = (nodes[n]?).map (Option.map (fun x => if n = r then { x with atpg_info := c } else x)) := by
  by_cases h : r = n
  · subst h
    rw [List.getElem?_set_self (getElem?_lt hn), hn]
    simp
  · rw [List.getElem?_set_ne h]
    have h1 : ¬ n = r := fun e => h e.symm
    cases nodes[n]? with
    | none => rfl
    | some o =>
      cases o with
      | none => rfl
      | some x => simp [h1]

theorem node_children_set_info {s s1 : Nenofex} {r : Nat} {nd : Node} {c : Option Nat}
    (hn : s.nodes[r]? = some (some nd))
    (h1 : s1.nodes = s.nodes.set r (some { nd with atpg_info := c })) :
    node_children s1 = node_children s := by
  funext n
  unfold node_children
  rw [h1, getElem?_set_info hn]
  cases s.nodes[n]? with
  | none => rfl
  | some o =>
    cases o with
    | none => rfl
    | some x =>
      simp only [Option.map_some']
      split <;> rfl

theorem lit_of_set_info {s s1 : Nenofex} {r : Nat} {nd : Node} {c : Option Nat}
    (hn : s.nodes[r]? = some (some nd))
    (h1 : s1.nodes = s.nodes.set r (some { nd with atpg_info := c })) :
    lit_of s1 = lit_of s := by
  funext n
  unfold lit_of
  rw [h1, getElem?_set_info hn]
  cases s.nodes[n]? with
  | none => rfl
  | some o =>
    cases o with
    | none => rfl
    | some x =>
      simp only [Option.map_some']
      split <;> rfl

theorem parent_of_set_info {s s1 : Nenofex} {r : Nat} {nd : Node} {c : Option Nat}
    (hn : s.nodes[r]? = some (some nd))
    (h1 : s1.nodes = s.nodes.set r (some { nd with atpg_info := c })) :
    parent_of s1 = parent_of s := by
  funext n
  unfold parent_of
  rw [h1, getElem?_set_info hn]
  cases s.nodes[n]? with
  | none => rfl
  | some o =>
    cases o with
    | none => rfl
    | some x =>
      simp only [Option.map_some']
      split <;> rfl

theorem occ_handles_congr {s s1 : Nenofex} (h : lit_of s1 = lit_of s) (v : Nat) (b : Bool)
    (f : Nat) (l : List Nat) : occ_handles s1 v b f l = occ_handles s v b f l := by
  unfold occ_handles
  rw [h]

theorem child_handles_congr {s s1 : Nenofex} (h : parent_of s1 = parent_of s) (root f : Nat)
    (l : List Nat) : child_handles s1 root f l = child_handles s root f l := by
  unfold child_handles
  rw [h]

theorem info_atpg_ch_none_eta (a : ATPGInfo) (h : a.atpg_ch = none) :
    ({ a with atpg_ch := none } : ATPGInfo) = a := by
  cases a
  simp only at h
  subst h
  rfl

/-- The statements of `init_subformula_atpg_info` before its loop: the LCA
gets the arena entry `c0` and the handle `f0`; its entry gets an empty
watcher list when not all children participate. -/
theorem init_prologue (s : Nenofex) (root : Nat) (rnd : Node) (c0 e : Nat)
    (arr : List ATPGInfo) (hlca : s.changed_subformula.lca = some root)
    (hroot : s.nodes[root]? = some (some rnd)) (hop : rnd.type ≠ NodeType.LITERAL)
    (hc : s.atpg_rr.cur_atpg_info = some c0) (he : s.atpg_rr.end_atpg_info = some e)
    (hce : c0 + 1 ≠ e) (harr : s.atpg_rr.atpg_info_array = some arr)
    (hz : arr[c0]? = some {}) :
    ∃ (s0 : Nenofex) (ra0 : ATPGInfo),
      (∀ fuel, init_subformula_atpg_info fuel s
        = init_subformula_loop root c0 fuel s0 s.changed_subformula.children.reverse
            >>= fun s1 => get_info s1 c0 >>= fun ra =>
              match ra.atpg_ch with
              | some ch => deref ch[0]? >>= fun f => get_fault_node s1 f >>= fun fn =>
                  pure (set_info s1 c0 { ra with watcher_pos := some 0, watcher := some fn.node,
                                                 unassigned_ch_cnt := ch.length })
              | none => pure s1)
      ∧ s0.nodes = s.nodes.set root (some { rnd with atpg_info := some c0 })
      ∧ s0.vars = s.vars
      ∧ s0.atpg_rr.cur_atpg_info = some (c0 + 1)
      ∧ s0.atpg_rr.end_atpg_info = some e
      ∧ s0.atpg_rr.fault_nodes = s.atpg_rr.fault_nodes ++ [{ node := root }]
      ∧ s0.atpg_rr.atpg_info_array = some (arr.set c0 ra0)
      ∧ ra0.fault_node = some s.atpg_rr.fault_nodes.length
      ∧ ra0.atpg_ch = (if s.changed_subformula.children.length < rnd.num_children
          then some [] else none)
      ∧ ra0.watcher_pos = none
      ∧ ra0.watcher = rnd.child_list.head?
      ∧ ra0.unassigned_ch_cnt = rnd.num_children
      ∧ s0.atpg_rr.subformula_vars = s.atpg_rr.subformula_vars
      ∧ s0.atpg_rr.fault_queue = s.atpg_rr.fault_queue
      ∧ s0.changed_subformula = s.changed_subformula
      ∧ s0.graph_root = s.graph_root := by
  obtain ⟨sa, a1, hass, hnodes, hvars, hcur, hend, hfn, harr1, hf, hch, hwp, _, _, _, _, hopa, _,
    hsv, hfq, hcs, hgr⟩ := assign_node_atpg_info_spec s root c0 e rnd arr {} hc he hce hroot
      harr hz
  have hclt : c0 < arr.length := getElem?_lt hz
  have hra : sa.nodes[root]? = some (some { rnd with atpg_info := some c0 }) := by
    rw [hnodes]
    exact List.getElem?_set_self (getElem?_lt hroot)
  have ha1 : (arr.set c0 a1)[c0]? = some a1 := List.getElem?_set_self hclt
  have hpre : ∀ fuel, init_subformula_atpg_info fuel s
      = (if sa.changed_subformula.children.reverse.length < rnd.num_children then
            pure (set_info sa c0 { a1 with atpg_ch := some [] })
          else pure sa) >>= fun s0 =>
        init_subformula_loop root c0 fuel s0 sa.changed_subformula.children.reverse
            >>= fun s1 => get_info s1 c0 >>= fun ra =>
              match ra.atpg_ch with
              | some ch => deref ch[0]? >>= fun f => get_fault_node s1 f >>= fun fn =>
                  pure (set_info s1 c0 { ra with watcher_pos := some 0, watcher := some fn.node,
                                                 unassigned_ch_cnt := ch.length })
              | none => pure s1 := by
    intro fuel
    unfold init_subformula_atpg_info
    rw [hlca]
    simp only [deref, ok_bind, pure_eq_ok]
    rw [hass, ok_bind]
    unfold info_index
    rw [get_node_of_getElem hra]
    simp only [deref, ok_bind, pure_eq_ok]
    rw [get_info_of_getElem harr1 ha1]
    simp only [ok_bind]
    try rfl
  have hlenr : sa.changed_subformula.children.reverse.length
      = s.changed_subformula.children.length := by
    rw [hcs, List.length_reverse]
  by_cases hr : s.changed_subformula.children.length < rnd.num_children
  · refine ⟨set_info sa c0 { a1 with atpg_ch := some [] }, { a1 with atpg_ch := some [] },
      ?_, hnodes, hvars, hcur, hend, hfn, ?_, hf, ?_, hwp, (hopa hop).1, (hopa hop).2,
      hsv, hfq, hcs, hgr⟩
    · intro fuel
      rw [hpre fuel, hlenr, if_pos hr, hcs]
      rfl
    · show (sa.atpg_rr.atpg_info_array).map _ = _
      rw [harr1]
      show some ((arr.set c0 a1).set c0 _) = _
      rw [List.set_set]
    · rw [if_pos hr]
  · refine ⟨sa, a1, ?_, hnodes, hvars, hcur, hend, hfn, harr1, hf, ?_, hwp, (hopa hop).1,
      (hopa hop).2, hsv, hfq, hcs, hgr⟩
    · intro fuel
      rw [hpre fuel, hlenr, if_neg hr, hcs]
      rfl
    · rw [if_neg hr, hch]

/-- `init_subformula_atpg_info` returns on a prepared region, with any fuel
above the number of nodes below the LCA, and the state it returns is
described by `RegionDone`. -/
theorem init_subformula_atpg_info_spec (s : Nenofex) (root : Nat) (rnd : Node) (c0 e d : Nat)
    (arr : List ATPGInfo) (l : List Nat) (h : RegionReady s root rnd c0 e d arr l)
    (fuel : Nat) (hfuel : l.length < fuel) :
    ∃ s1, init_subformula_atpg_info fuel s = Except.ok s1
      ∧ RegionDone s root rnd c0 l s1 := by
  have hroom := h.room
  have hele := h.end_le
  have hclt : c0 < arr.length := by omega
  obtain ⟨s0, ra0, hrun, hnodes0, hvars0, hcur0, hend0, hfn0, harr0, hf0, hch0, hwp0, hw0,
    hcnt0, hsv0, hfq0, hcs0, hgr0⟩ := init_prologue s root rnd c0 e arr h.lca h.root_node
      h.root_op h.cur h.end_ (by omega) h.arena (h.zeroed c0 (Nat.le_refl _) hclt)
  have hnc : node_children s0 = node_children s := node_children_set_info h.root_node hnodes0
  have hlo : lit_of s0 = lit_of s := lit_of_set_info h.root_node hnodes0
  have hpo : parent_of s0 = parent_of s := parent_of_set_info h.root_node hnodes0
  have hrl : root ∉ l := (List.nodup_cons.mp h.nodup).1
  have hndl : l.Nodup := (List.nodup_cons.mp h.nodup).2
  have hnode0 : ∀ n, n ≠ root → s0.nodes[n]? = s.nodes[n]? := by
    intro n hn
    rw [hnodes0, List.getElem?_set_ne (Ne.symm hn)]
  have hra0 : (arr.set c0 ra0)[c0]? = some ra0 := List.getElem?_set_self hclt
  have hI0 := InitMid_nil s0 root c0 (c0 + 1) (s.atpg_rr.fault_nodes.length + 1)
    (arr.set c0 ra0) ra0 hcur0 harr0 hra0
  have hfl0 : s.atpg_rr.fault_nodes.length + 1 = s0.atpg_rr.fault_nodes.length := by
    rw [hfn0, List.length_append, List.length_singleton]
  obtain ⟨fuel1, rfl⟩ : ∃ k, fuel = k + 1 := ⟨fuel - 1, by omega⟩
  obtain ⟨s1, hloop, hI1⟩ := init_subformula_loop_spec s0 root c0 (c0 + 1)
    (s.atpg_rr.fault_nodes.length + 1) e d hfl0 (Nat.lt_succ_self _) hend0
    (fun arr0 ha => by
      rw [harr0] at ha
      rw [← Option.some.inj ha, List.length_set]
      exact hele)
    (fun v x hx => h.unmarked v x (by rw [← hvars0]; exact hx))
    fuel1 s.changed_subformula.children.reverse l [] s0 hI0 (by rw [hnc]; exact h.forest)
    (by omega) (by rw [List.nil_append]; exact hndl)
    (by rw [List.nil_append]; omega)
    (fun n hn nd hnd ht => by
      have hne : n ≠ root := fun e => hrl (e ▸ hn)
      rw [hnode0 n hne] at hnd
      obtain ⟨lit, x, h1, h2⟩ := h.literals n hn nd hnd ht
      exact ⟨lit, x, h1, by rw [hvars0]; exact h2⟩)
  rw [List.nil_append] at hI1
  obtain ⟨arr0, arr1, rb, harr0b, harr1, hal1, hrb, hra1, hent1, hrest1⟩ := hI1.arena
  have harr0e : arr0 = arr.set c0 ra0 := by
    rw [harr0] at harr0b
    exact (Option.some.inj harr0b).symm
  have hrbe : ra0 = rb := by
    rw [harr0e, hra0] at hrb
    exact Option.some.inj hrb
  subst hrbe
  rw [child_handles_congr hpo] at hra1
  have hc1lt : c0 < arr1.length := getElem?_lt hra1
  -- facts that hold for the state after the loop and are kept by the last step
  have hvis : ∀ (s2 : Nenofex) (arr2 : List ATPGInfo) (ra2 : ATPGInfo),
      s2.nodes = s1.nodes → s2.atpg_rr.atpg_info_array = some arr2 →
      arr2[c0]? = some ra2 → ra2.fault_node = some s.atpg_rr.fault_nodes.length →
      (∀ i, i ≠ c0 → arr2[i]? = arr1[i]?) →
      ∀ k n, (root :: l)[k]? = some n → ∃ (nd0 : Node) (a : ATPGInfo) (arr3 : List ATPGInfo),
        s.nodes[n]? = some (some nd0)
        ∧ s2.nodes[n]? = some (some { nd0 with atpg_info := some (c0 + k) })
        ∧ s2.atpg_rr.atpg_info_array = some arr3 ∧ arr3[c0 + k]? = some a
        ∧ a.fault_node = some (s.atpg_rr.fault_nodes.length + k) := by
    intro s2 arr2 ra2 hn2 ha2 hr2 hf2 ho2 k n hk
    cases k with
    | zero =>
      simp only [List.getElem?_cons_zero, Option.some.injEq] at hk
      subst hk
      refine ⟨rnd, ra2, arr2, h.root_node, ?_, ha2, hr2, hf2⟩
      rw [hn2, hI1.others root hrl, hnodes0]
      exact List.getElem?_set_self (getElem?_lt h.root_node)
    | succ k =>
      simp only [List.getElem?_cons_succ] at hk
      obtain ⟨nd0, h1, h2⟩ := hI1.visited k n hk
      obtain ⟨a, h3, h4⟩ := hent1 k n hk
      have hne : n ≠ root := fun e => hrl (e ▸ List.getElem?_mem hk)
      refine ⟨nd0, a, arr2, (hnode0 n hne).symm.trans h1, ?_, ha2, ?_, ?_⟩
      · have e1 : c0 + 1 + k = c0 + (k + 1) := by omega
        rw [hn2, h2, e1]
      · rw [ho2 _ (by omega)]
        have e1 : c0 + (k + 1) = c0 + 1 + k := by omega
        rw [e1]
        exact h3
      · rw [h4]
        congr 1
        omega
  have hoth : ∀ n, n ∉ root :: l → s1.nodes[n]? = s.nodes[n]? := by
    intro n hn
    have h1 : n ≠ root := fun e => hn (e ▸ List.mem_cons_self _ _)
    have h2 : n ∉ l := fun e => hn (List.mem_cons_of_mem _ e)
    rw [hI1.others n h2]
    exact hnode0 n h1
  have hfn1 : s1.atpg_rr.fault_nodes
      = s.atpg_rr.fault_nodes ++ (root :: l).map (fun n => { node := n }) := by
    rw [hI1.fault_nodes, hfn0, List.append_assoc]
    rfl
  have hcur1 : s1.atpg_rr.cur_atpg_info = some (c0 + l.length + 1) := by
    rw [hI1.cur]
    congr 1
    omega
  have hvars1 : ∀ v x, s.vars[v]? = some x → s1.vars[v]?
      = some (var_after_init x (occ_handles s v false (s.atpg_rr.fault_nodes.length + 1) l)
          (occ_handles s v true (s.atpg_rr.fault_nodes.length + 1) l)) := by
    intro v x hx
    rw [hI1.vars v x (by rw [hvars0]; exact hx), occ_handles_congr hlo, occ_handles_congr hlo]
  have hsv1 : ∃ vs, s1.atpg_rr.subformula_vars = s.atpg_rr.subformula_vars ++ vs
      ∧ vs.Nodup ∧ ∀ v, v ∈ vs ↔ ∃ n ∈ l, ∃ lit, lit_of s n = some lit ∧ lit.var = v := by
    obtain ⟨vs, h1, h2, h3⟩ := hI1.subformula_vars
    refine ⟨vs, by rw [h1, hsv0], h2, fun v => ?_⟩
    rw [h3 v, hlo]
  have hgi : get_info s1 c0 = Except.ok _ := get_info_of_getElem harr1 hra1
  by_cases hr : s.changed_subformula.children.length < rnd.num_children
  · -- restricted watcher list
    rw [if_pos hr] at hch0
    obtain ⟨cl, W, hrev⟩ : ∃ cl W, s.changed_subformula.children.reverse = cl :: W := by
      cases hc : s.changed_subformula.children.reverse with
      | nil =>
        exact absurd (List.reverse_eq_nil_iff.mp hc) h.children_ne
      | cons cl W => exact ⟨cl, W, rfl⟩
    have hfor := h.forest
    rw [hrev] at hfor
    obtain ⟨cs, lc, lr, _, _, _, hl⟩ := forest_of_cons_some hfor
    have hclm : cl ∈ s.changed_subformula.children := by
      rw [← List.mem_reverse, hrev]
      exact List.mem_cons_self _ _
    have hpcl : parent_of s cl = some root := h.children_parent cl hclm
    have hlast : s.changed_subformula.children.getLast? = some cl := by
      rw [List.getLast?_eq_head?_reverse, hrev]
      rfl
    have hCH : child_handles s root (s.atpg_rr.fault_nodes.length + 1) l
        = (s.atpg_rr.fault_nodes.length + 1)
          :: handles_where (fun n => decide (parent_of s n = some root))
              (s.atpg_rr.fault_nodes.length + 1 + 1) (lc ++ lr) := by
      rw [hl]
      unfold child_handles
      rw [handles_where, if_pos (by simpa using hpcl)]
    have hfn : get_fault_node s1 (s.atpg_rr.fault_nodes.length + 1)
        = Except.ok { node := cl } := by
      unfold get_fault_node
      rw [hfn1, hl]
      have : (s.atpg_rr.fault_nodes
          ++ List.map (fun n => ({ node := n } : FaultNode)) (root :: cl :: (lc ++ lr)))[
            s.atpg_rr.fault_nodes.length + 1]? = some { node := cl } := by
        rw [List.getElem?_append_right (by omega)]
        have e : s.atpg_rr.fault_nodes.length + 1 - s.atpg_rr.fault_nodes.length = 1 := by omega
        rw [e]
        simp only [List.map_cons, List.getElem?_cons_succ, List.getElem?_cons_zero]
      rw [this]
      rfl
    obtain ⟨raF, hraF⟩ : ∃ raF : ATPGInfo, raF =
        { ra0 with atpg_ch := some (child_handles s root (s.atpg_rr.fault_nodes.length + 1) l),
                   watcher_pos := some 0, watcher := some cl,
                   unassigned_ch_cnt :=
                     (child_handles s root (s.atpg_rr.fault_nodes.length + 1) l).length } :=
      ⟨_, rfl⟩
    have hrun1 : init_subformula_atpg_info (fuel1 + 1) s = Except.ok (set_info s1 c0 raF) := by
      rw [hrun, hloop, ok_bind, hgi, ok_bind, hraF]
      simp only [hch0, Option.map_some', List.nil_append]
      rw [hCH]
      simp only [List.getElem?_cons_zero, deref, ok_bind, pure_eq_ok, hfn]
    refine ⟨_, hrun1, ?_⟩
    have harr2 : (set_info s1 c0 raF).atpg_rr.atpg_info_array = some (arr1.set c0 raF) := by
      show (s1.atpg_rr.atpg_info_array).map _ = _
      rw [harr1]
      rfl
    exact
      { visited := hvis _ _ _ rfl harr2 (List.getElem?_set_self hc1lt) (by rw [hraF]; exact hf0)
          (fun i hi => List.getElem?_set_ne (Ne.symm hi))
        others := hoth
        fault_nodes := hfn1
        cur := hcur1
        vars := hvars1
        subformula_vars := hsv1
        root_entry := ⟨_, _, harr2, List.getElem?_set_self hc1lt, by
          rw [if_pos hr, hraF]
          exact ⟨rfl, rfl, hlast.symm, rfl⟩⟩
        fault_queue := hI1.fault_queue.trans hfq0
        changed_subformula := hI1.changed_subformula.trans hcs0
        graph_root := hI1.graph_root.trans hgr0 }
  · -- all children participate
    rw [if_neg hr] at hch0
    have hrun1 : init_subformula_atpg_info (fuel1 + 1) s = Except.ok s1 := by
      rw [hrun, hloop, ok_bind, hgi, ok_bind]
      simp only [hch0, Option.map_none']
      rfl
    refine ⟨_, hrun1, ?_⟩
    have hra1b : arr1[c0]? = some ra0 := by
      rw [hra1]
      congr 1
      rw [hch0]
      exact info_atpg_ch_none_eta ra0 hch0
    exact
      { visited := hvis s1 arr1 ra0 rfl harr1 hra1b hf0 (fun _ _ => rfl)
        others := hoth
        fault_nodes := hfn1
        cur := hcur1
        vars := hvars1
        subformula_vars := hsv1
        root_entry := ⟨arr1, ra0, harr1, hra1b, by
          rw [if_neg hr]
          exact ⟨hch0, hwp0, hw0, hcnt0⟩⟩
        fault_queue := hI1.fault_queue.trans hfq0
        changed_subformula := hI1.changed_subformula.trans hcs0
        graph_root := hI1.graph_root.trans hgr0 }

/-! ## Theorems: the region and its handles after the initialisation -/

theorem handles_where_map (p : Nat → Bool) (hf : Nat → Option Nat) :
    ∀ (l : List Nat) (f : Nat), (∀ k n, l[k]? = some n → hf n = some (f + k)) →
      (handles_where p f l).map some = (l.filter p).map hf := by
  intro l
  induction l with
  | nil => intro f _; rfl
  | cons m l ih =>
    intro f h
    have h0 : hf m = some f := h 0 m List.getElem?_cons_zero
    have ht : ∀ k n, l[k]? = some n → hf n = some (f + 1 + k) := by
      intro k n hk
      have := h (k + 1) n (List.getElem?_cons_succ.trans hk)
      rw [this]
      congr 1
      omega
    rw [handles_where, List.filter_cons]
    by_cases hp : p m = true
    · rw [if_pos hp, if_pos hp, List.map_cons, List.map_cons, ih (f + 1) ht, h0]
    · rw [if_neg hp, if_neg hp, ih (f + 1) ht]

theorem forest_filter_roots {ch : Nat → Option (List Nat)} {d : Nat} (p : Nat → Bool) :
    ∀ (W l : List Nat), forest_of ch d W = some l → l.Nodup →
      (∀ n ∈ l, p n = true ↔ n ∈ W) → l.filter p = W := by
  intro W
  induction W with
  | nil =>
    intro l h _ _
    rw [forest_of_nil_some h]
    rfl
  | cons c W ih =>
    intro l h hnd hp
    obtain ⟨l1, l2, h1, h2, rfl⟩ := concat_map_cons_some.mp h
    cases d with
    | zero => cases h1
    | succ d =>
      obtain ⟨cs, t, _, _, rfl⟩ := subtree_of_succ_some.mp h1
      have hnd1 : (c :: (t ++ l2)).Nodup := hnd
      obtain ⟨hc, hnd2⟩ := List.nodup_cons.mp hnd1
      have hdis := List.disjoint_of_nodup_append hnd2
      have hct : c ∉ t := fun e => hc (List.mem_append_left _ e)
      have hcl2 : c ∉ l2 := fun e => hc (List.mem_append_right _ e)
      have hpc : p c = true :=
        (hp c (List.mem_cons_self _ _)).mpr (List.mem_cons_self _ _)
      have hsub : ∀ r ∈ W, r ∈ l2 := forest_of_roots_subset h2
      have hft : t.filter p = [] := by
        rw [List.filter_eq_nil_iff]
        intro n hn hpn
        have hm := (hp n (List.mem_cons_of_mem _ (List.mem_append_left _ hn))).mp hpn
        rcases List.mem_cons.mp hm with rfl | hm
        · exact hct hn
        · exact hdis hn (hsub n hm)
      have hfl2 : l2.filter p = W := by
        refine ih l2 h2 (List.nodup_append.mp hnd2).2.1 (fun n hn => ?_)
        rw [hp n (List.mem_cons_of_mem _ (List.mem_append_right _ hn))]
        constructor
        · intro hm
          rcases List.mem_cons.mp hm with rfl | hm
          · exact absurd hn hcl2
          · exact hm
        · exact List.mem_cons_of_mem _
      show List.filter p (c :: (t ++ l2)) = c :: W
      rw [List.filter_cons, if_pos hpc, List.filter_append, hft, hfl2]
      rfl

theorem fault_handle_of_entry {s : Nenofex} {n c f : Nat} {nd : Node} {arr : List ATPGInfo}
    {a : ATPGInfo} (hn : s.nodes[n]? = some (some nd)) (hi : nd.atpg_info = some c)
    (harr : s.atpg_rr.atpg_info_array = some arr) (ha : arr[c]? = some a)
    (hf : a.fault_node = some f) : fault_handle s n = some f := by
  unfold fault_handle node_info info_index
  rw [get_node_of_getElem hn]
  simp only [ok_bind, hi, deref, pure_eq_ok]
  rw [get_info_of_getElem harr ha]
  exact hf

theorem RegionDone.handle {s : Nenofex} {root : Nat} {rnd : Node} {c0 : Nat} {l : List Nat}
    {s1 : Nenofex} (hD : RegionDone s root rnd c0 l s1) (k n : Nat)
    (hk : (root :: l)[k]? = some n) :
    fault_handle s1 n = some (s.atpg_rr.fault_nodes.length + k) := by
  obtain ⟨nd0, a, arr1, _, h2, h3, h4, h5⟩ := hD.visited k n hk
  exact fault_handle_of_entry h2 rfl h3 h4 h5

theorem RegionDone.fault_node {s : Nenofex} {root : Nat} {rnd : Node} {c0 : Nat} {l : List Nat}
    {s1 : Nenofex} (hD : RegionDone s root rnd c0 l s1) (k n : Nat)
    (hk : (root :: l)[k]? = some n) :
    s1.atpg_rr.fault_nodes[s.atpg_rr.fault_nodes.length + k]? = some { node := n } := by
  rw [hD.fault_nodes, List.getElem?_append_right (by omega)]
  have e : s.atpg_rr.fault_nodes.length + k - s.atpg_rr.fault_nodes.length = k := by omega
  rw [e, List.getElem?_map, hk]
  rfl

theorem RegionReady.mem_region {s : Nenofex} {root : Nat} {rnd : Node} {c0 e d : Nat}
    {arr : List ATPGInfo} {l : List Nat} (h : RegionReady s root rnd c0 e d arr l) (n : Nat) :
    n ∈ root :: l ↔ in_region s n := by
  unfold in_region in_subtree
  rw [List.mem_cons, mem_forest_of l.length d _ l (Nat.le_refl _) h.forest n, h.lca]
  constructor
  · rintro (rfl | ⟨r, hr, hx⟩)
    · exact Or.inl rfl
    · exact Or.inr ⟨r, List.mem_reverse.mp hr, hx⟩
  · rintro (hl | ⟨r, hr, hx⟩)
    · exact Or.inl (Option.some.inj hl).symm
    · exact Or.inr ⟨r, List.mem_reverse.mpr hr, hx⟩

theorem RegionReady.child_handles_eq {s : Nenofex} {root : Nat} {rnd : Node} {c0 e d : Nat}
    {arr : List ATPGInfo} {l : List Nat} (h : RegionReady s root rnd c0 e d arr l)
    {s1 : Nenofex} (hD : RegionDone s root rnd c0 l s1) :
    (child_handles s root (s.atpg_rr.fault_nodes.length + 1) l).map some
      = s.changed_subformula.children.reverse.map (fault_handle s1) := by
  have hndl : l.Nodup := (List.nodup_cons.mp h.nodup).2
  unfold child_handles
  rw [handles_where_map _ (fault_handle s1) l _ (fun k n hk => by
    rw [hD.handle (k + 1) n (List.getElem?_cons_succ.trans hk)]
    congr 1
    omega)]
  congr 1
  refine forest_filter_roots _ _ l h.forest hndl (fun n hn => ?_)
  rw [List.mem_reverse]
  constructor
  · intro hp
    by_contra hc
    exact h.below_parent n hn hc (by simpa using hp)
  · intro hm
    simpa using h.children_parent n hm

/-! ## Theorems: the initialisation of a region (claims C18, C19, C20) -/

theorem partial_region_ready :
    RegionReady partial_allocated 0
      { level := 0, type := NodeType.OR, parent := none, child_list := [1, 2, 3],
        num_children := 3, size_subformula := 6 }
      0 7 3 (List.replicate 7 {}) [3, 4, 5, 1] where
  lca := rfl
  root_node := rfl
  root_op := by decide
  forest := rfl
  nodup := by decide
  cur := rfl
  end_ := rfl
  arena := rfl
  end_le := by decide
  zeroed := by
    intro i _ hi
    have hi7 : i < 7 := hi
    interval_cases i <;> rfl
  room := by decide
  literals := by
    intro n hn nd hnd ht
    simp only [List.mem_cons, List.mem_singleton, List.not_mem_nil, or_false] at hn
    rcases hn with rfl | rfl | rfl | rfl
    · cases hnd
      cases ht
    · cases hnd
      exact ⟨_, _, rfl, rfl⟩
    · cases hnd
      exact ⟨_, _, rfl, rfl⟩
    · cases hnd
      exact ⟨_, _, rfl, rfl⟩
  unmarked := by
    intro v x hx
    match v, hx with
    | 0, hx => cases hx; rfl
    | 1, hx => cases hx; rfl
    | 2, hx => cases hx; rfl
    | _ + 3, hx => cases hx
  children_parent := by
    intro c hc
    simp only [partial_allocated] at hc
    have hc1 : c ∈ [1, 3] := hc
    simp only [List.mem_cons, List.mem_singleton, List.not_mem_nil, or_false] at hc1
    rcases hc1 with rfl | rfl <;> rfl
  below_parent := by
    intro n hn hc
    have hc1 : n ∉ [1, 3] := hc
    simp only [List.mem_cons, List.mem_singleton, List.not_mem_nil, or_false] at hn hc1
    rcases hn with rfl | rfl | rfl | rfl
    · exact absurd (Or.inr rfl) hc1
    · intro h; cases h
    · intro h; cases h
    · exact absurd (Or.inl rfl) hc1
  children_ne := by
    intro h
    cases h

theorem RegionReady.root_not_lit {s : Nenofex} {root : Nat} {rnd : Node} {c0 e d : Nat}
    {arr : List ATPGInfo} {l : List Nat} (h : RegionReady s root rnd c0 e d arr l) :
    lit_of s root = none := by
  rw [lit_of_eq h.root_node, if_neg h.root_op]

theorem RegionReady.lit_in_list {s : Nenofex} {root : Nat} {rnd : Node} {c0 e d : Nat}
    {arr : List ATPGInfo} {l : List Nat} (h : RegionReady s root rnd c0 e d arr l) (n : Nat)
    (lit : Lit) (hn : in_region s n) (hl : lit_of s n = some lit) : n ∈ l := by
  rcases List.mem_cons.mp ((h.mem_region n).mpr hn) with rfl | hm
  · rw [h.root_not_lit] at hl
    cases hl
  · exact hm

theorem RegionDone.occs {s : Nenofex} {root : Nat} {rnd : Node} {c0 e d : Nat}
    {arr : List ATPGInfo} {l : List Nat} (h : RegionReady s root rnd c0 e d arr l)
    {s1 : Nenofex} (hD : RegionDone s root rnd c0 l s1) (v : Nat) (b : Bool) (f : Nat) :
    f ∈ occ_handles s v b (s.atpg_rr.fault_nodes.length + 1) l
      ↔ ∃ n, in_region s n ∧ lit_of s n = some ⟨v, b⟩ ∧ fault_handle s1 n = some f := by
  unfold occ_handles
  rw [mem_handles_where]
  constructor
  · rintro ⟨k, n, hk, hp, rfl⟩
    refine ⟨n, (h.mem_region n).mp (List.mem_cons_of_mem _ (List.getElem?_mem hk)),
      by simpa using hp, ?_⟩
    rw [hD.handle (k + 1) n (List.getElem?_cons_succ.trans hk)]
    congr 1
    omega
  · rintro ⟨n, hn, hl, hf⟩
    obtain ⟨k, hk⟩ := List.mem_iff_getElem?.mp (h.lit_in_list n _ hn hl)
    refine ⟨k, n, hk, by simpa using hl, ?_⟩
    rw [hD.handle (k + 1) n (List.getElem?_cons_succ.trans hk)] at hf
    have := Option.some.inj hf
    omega

/-- Claim C18: on a prepared region (`RegionReady`: the nodes below the LCA
`root` form a tree listed by `l` in visiting order, the arena has enough
zeroed entries from `c0` on, no variable is marked) `init_subformula_atpg_info`
returns for every fuel above the number of nodes, and afterwards: the visited
nodes `root :: l` are exactly the region; the `k`-th of them has the arena
entry `c0 + k` and the fresh handle `f0 + k`, whose `FaultNode` names it;
every other node is unchanged, so that exactly the region has a non-null
`atpg_info` if no node had one before; the variables with a literal in the
region are appended once each to `subformula_vars`; and the occurrence stacks
of such a variable hold exactly the handles of its non-negated (resp. negated)
literal nodes in the region, each once. -/
theorem C18_node_info_covers_region (s : Nenofex) (root : Nat) (rnd : Node) (c0 e d : Nat)
    (arr : List ATPGInfo) (l : List Nat) (h : RegionReady s root rnd c0 e d arr l)
    (fuel : Nat) (hfuel : l.length < fuel) :
    ∃ s1, init_subformula_atpg_info fuel s = Except.ok s1
      ∧ (∀ n, n ∈ root :: l ↔ in_region s n)
      ∧ (∀ k n, (root :: l)[k]? = some n →
          ∃ (nd0 : Node) (a : ATPGInfo) (arr1 : List ATPGInfo),
            s.nodes[n]? = some (some nd0)
            ∧ s1.nodes[n]? = some (some { nd0 with atpg_info := some (c0 + k) })
            ∧ s1.atpg_rr.atpg_info_array = some arr1 ∧ arr1[c0 + k]? = some a
            ∧ a.fault_node = some (s.atpg_rr.fault_nodes.length + k)
            ∧ s1.atpg_rr.fault_nodes[s.atpg_rr.fault_nodes.length + k]? = some { node := n }
            ∧ fault_handle s1 n = some (s.atpg_rr.fault_nodes.length + k))
      ∧ (∀ n, ¬ in_region s n → s1.nodes[n]? = s.nodes[n]?)
      ∧ ((∀ (n : Nat) (nd : Node), s.nodes[n]? = some (some nd) → nd.atpg_info = none) →
          ∀ (n : Nat) (nd : Node), s1.nodes[n]? = some (some nd) →
            (nd.atpg_info ≠ none ↔ in_region s n))
      ∧ (∃ vs, s1.atpg_rr.subformula_vars = s.atpg_rr.subformula_vars ++ vs ∧ vs.Nodup
          ∧ ∀ v, v ∈ vs ↔ ∃ n, in_region s n ∧ ∃ lit, lit_of s n = some lit ∧ lit.var = v)
      ∧ (∀ (v : Nat) (x : Var), s.vars[v]? = some x →
          (∃ n, in_region s n ∧ ∃ lit, lit_of s n = some lit ∧ lit.var = v) →
          ∃ (x1 : Var) (pos neg : List Nat), s1.vars[v]? = some x1
            ∧ x1.atpg_mark = true
            ∧ x1.subformula_pos_occs = some pos ∧ x1.subformula_neg_occs = some neg
            ∧ pos.Nodup ∧ neg.Nodup
            ∧ (∀ f, f ∈ pos ↔ ∃ n, in_region s n ∧ lit_of s n = some ⟨v, false⟩
                ∧ fault_handle s1 n = some f)
            ∧ (∀ f, f ∈ neg ↔ ∃ n, in_region s n ∧ lit_of s n = some ⟨v, true⟩
                ∧ fault_handle s1 n = some f)) := by
  obtain ⟨s1, hrun, hD⟩ := init_subformula_atpg_info_spec s root rnd c0 e d arr l h fuel hfuel
  refine ⟨s1, hrun, h.mem_region, ?_, ?_, ?_, ?_, ?_⟩
  · intro k n hk
    obtain ⟨nd0, a, arr1, h1, h2, h3, h4, h5⟩ := hD.visited k n hk
    exact ⟨nd0, a, arr1, h1, h2, h3, h4, h5, hD.fault_node k n hk, hD.handle k n hk⟩
  · intro n hn
    exact hD.others n (fun hm => hn ((h.mem_region n).mp hm))
  · intro hnone n nd hnd
    by_cases hm : n ∈ root :: l
    · obtain ⟨k, hk⟩ := List.mem_iff_getElem?.mp hm
      obtain ⟨nd0, _, _, _, h2, _⟩ := hD.visited k n hk
      rw [hnd] at h2
      have e1 : nd = { nd0 with atpg_info := some (c0 + k) } := Option.some.inj (Option.some.inj h2)
      rw [e1]
      exact ⟨fun _ => (h.mem_region n).mp hm, fun _ => (by simp)⟩
    · have h2 := hD.others n hm
      rw [hnd] at h2
      have h3 := hnone n nd h2.symm
      exact ⟨fun hc => absurd h3 hc, fun hr => absurd ((h.mem_region n).mpr hr) hm⟩
  · obtain ⟨vs, h1, h2, h3⟩ := hD.subformula_vars
    refine ⟨vs, h1, h2, fun v => ?_⟩
    rw [h3 v]
    constructor
    · rintro ⟨n, hn, lit, hl, hv⟩
      exact ⟨n, (h.mem_region n).mp (List.mem_cons_of_mem _ hn), lit, hl, hv⟩
    · rintro ⟨n, hn, lit, hl, hv⟩
      exact ⟨n, h.lit_in_list n lit hn hl, lit, hl, hv⟩
  · rintro v x hx ⟨n, hn, lit, hl, hv⟩
    have hne : ¬ (occ_handles s v false (s.atpg_rr.fault_nodes.length + 1) l = []
        ∧ occ_handles s v true (s.atpg_rr.fault_nodes.length + 1) l = []) := by
      rw [occ_handles_eq_nil]
      exact fun hc => hc ⟨n, h.lit_in_list n lit hn hl, lit, hl, hv⟩
    refine ⟨_, _, _, hD.vars v x hx, ?_, ?_, ?_, handles_where_nodup _ _ _,
      handles_where_nodup _ _ _, hD.occs h v false, hD.occs h v true⟩
    · unfold var_after_init
      rw [if_neg hne]
    · unfold var_after_init
      rw [if_neg hne]
      rfl
    · unfold var_after_init
      rw [if_neg hne]
      rfl

/-- C18, witness: the region of `a | x | (b & !a)` with the participating
children `a` and `b & !a` is prepared, and five units of fuel suffice. -/
theorem C18_node_info_covers_region_witness :
    ∃ s1, init_subformula_atpg_info 5 partial_allocated = Except.ok s1
      ∧ (∀ n, n ∈ [0, 3, 4, 5, 1] ↔ in_region partial_allocated n)
      ∧ (∀ n, ¬ in_region partial_allocated n → s1.nodes[n]? = partial_allocated.nodes[n]?) := by
  obtain ⟨s1, h1, h2, _, h4, _⟩ := C18_node_info_covers_region partial_allocated 0 _ 0 7 3 _
    [3, 4, 5, 1] partial_region_ready 5 (by decide)
  exact ⟨s1, h1, h2, h4⟩

theorem mem_of_map_some_eq {ch : List Nat} {W : List Nat} {hf : Nat → Option Nat}
    (h : ch.map some = W.map hf) (f : Nat) : f ∈ ch ↔ ∃ c ∈ W, hf c = some f := by
  have h1 : f ∈ ch ↔ some f ∈ ch.map some := by
    rw [List.mem_map]
    constructor
    · intro hm
      exact ⟨f, hm, rfl⟩
    · rintro ⟨g, hg, he⟩
      cases he
      exact hg
  rw [h1, h, List.mem_map]

/-- Claim C19: after `init_subformula_atpg_info` on a prepared region the
arena entry `c0` of the LCA has a restricted watcher list iff fewer children
participate than the LCA has; the list then holds the handles of the
participating children, each once (in the reverse of their order in
`changed_subformula.children`), and the counter is their number; otherwise
`atpg_ch` and `watcher_pos` are null and the counter is `num_children`. -/
theorem C19_restricted_watcher_list (s : Nenofex) (root : Nat) (rnd : Node) (c0 e d : Nat)
    (arr : List ATPGInfo) (l : List Nat) (h : RegionReady s root rnd c0 e d arr l)
    (fuel : Nat) (hfuel : l.length < fuel) :
    ∃ (s1 : Nenofex) (arr1 : List ATPGInfo) (ra : ATPGInfo),
      init_subformula_atpg_info fuel s = Except.ok s1
      ∧ s1.nodes[root]? = some (some { rnd with atpg_info := some c0 })
      ∧ s1.atpg_rr.atpg_info_array = some arr1 ∧ arr1[c0]? = some ra
      ∧ (ra.atpg_ch ≠ none ↔ s.changed_subformula.children.length < rnd.num_children)
      ∧ (s.changed_subformula.children.length < rnd.num_children →
          ∃ ch, ra.atpg_ch = some ch
            ∧ ch.map some = s.changed_subformula.children.reverse.map (fault_handle s1)
            ∧ ch.Nodup
            ∧ (∀ f, f ∈ ch ↔ ∃ c ∈ s.changed_subformula.children, fault_handle s1 c = some f)
            ∧ ch.length = s.changed_subformula.children.length
            ∧ ra.unassigned_ch_cnt = s.changed_subformula.children.length)
      ∧ (¬ s.changed_subformula.children.length < rnd.num_children →
          ra.atpg_ch = none ∧ ra.watcher_pos = none
            ∧ ra.unassigned_ch_cnt = rnd.num_children) := by
  obtain ⟨s1, hrun, hD⟩ := init_subformula_atpg_info_spec s root rnd c0 e d arr l h fuel hfuel
  obtain ⟨arr1, ra, harr1, hra, hent⟩ := hD.root_entry
  obtain ⟨nd0, _, _, hn0, hn1, _⟩ := hD.visited 0 root List.getElem?_cons_zero
  have hnd0 : nd0 = rnd := by
    rw [h.root_node] at hn0
    exact (Option.some.inj (Option.some.inj hn0)).symm
  subst hnd0
  have hmap := h.child_handles_eq hD
  have hlen : (child_handles s root (s.atpg_rr.fault_nodes.length + 1) l).length
      = s.changed_subformula.children.length := by
    have := congrArg List.length hmap
    rw [List.length_map, List.length_map, List.length_reverse] at this
    exact this
  refine ⟨s1, arr1, ra, hrun, hn1, harr1, hra, ?_, ?_, ?_⟩
  · by_cases hr : s.changed_subformula.children.length < nd0.num_children
    · rw [if_pos hr] at hent
      rw [hent.1]
      exact ⟨fun _ => hr, fun _ => (by simp)⟩
    · rw [if_neg hr] at hent
      rw [hent.1]
      exact ⟨fun hc => absurd rfl hc, fun hc => absurd hc hr⟩
  · intro hr
    rw [if_pos hr] at hent
    refine ⟨_, hent.1, hmap, handles_where_nodup _ _ _, fun f => ?_, hlen, ?_⟩
    · rw [mem_of_map_some_eq hmap f]
      constructor
      · rintro ⟨c, hc, hf⟩
        exact ⟨c, List.mem_reverse.mp hc, hf⟩
      · rintro ⟨c, hc, hf⟩
        exact ⟨c, List.mem_reverse.mpr hc, hf⟩
    · rw [hent.2.2.2, hlen]
  · intro hr
    rw [if_neg hr] at hent
    exact ⟨hent.1, hent.2.1, hent.2.2.2⟩

/-- C19, witness: in the region of `a | x | (b & !a)` two of the three
children of the LCA participate. -/
theorem C19_restricted_watcher_list_witness :
    ∃ (s1 : Nenofex) (arr1 : List ATPGInfo) (ra : ATPGInfo),
      init_subformula_atpg_info 5 partial_allocated = Except.ok s1
      ∧ s1.atpg_rr.atpg_info_array = some arr1 ∧ arr1[0]? = some ra
      ∧ ∃ ch, ra.atpg_ch = some ch
        ∧ ch.map some = [fault_handle s1 3, fault_handle s1 1]
        ∧ ra.unassigned_ch_cnt = 2 := by
  obtain ⟨s1, arr1, ra, h1, _, h3, h4, _, h6, _⟩ := C19_restricted_watcher_list
    partial_allocated 0 _ 0 7 3 _ [3, 4, 5, 1] partial_region_ready 5 (by decide)
  obtain ⟨ch, h7, h8, _, _, _, h9⟩ := h6 (by decide)
  exact ⟨s1, arr1, ra, h1, h3, h4, ch, h7, h8, h9⟩

/-- Claim C20, counterexample: in the region of `a | x | (b & !a)` with the
participating children `[a, b & !a]` (nodes 1 and 3) the restricted watcher
list is used, and the watcher of the LCA is node 3, the last participating
child, not `changed_subformula.children[0]`, which is node 1. -/
theorem C20_watcher_is_last_child :
    init_subformula_atpg_info 5 partial_allocated = Except.ok partial_initialised
    ∧ partial_allocated.changed_subformula.children = [1, 3]
    ∧ ((partial_initialised.nodes[0]?).join.map (fun nd => nd.atpg_info)) = some (some 0)
    ∧ ((partial_initialised.atpg_rr.atpg_info_array.bind (fun arr1 => arr1[0]?)).map
        (fun ra => (ra.atpg_ch, ra.watcher, ra.watcher_pos)))
      = some (some [1, 4], some 3, some 0)
    ∧ partial_initialised.atpg_rr.fault_nodes[1]? = some { node := 3 } :=
  ⟨rfl, rfl, rfl, rfl, rfl⟩

/-- Claim C20, amended: after `init_subformula_atpg_info` on a prepared
region, when the restricted watcher list is used the watcher of the LCA is
the last participating child (the last entry of `changed_subformula.children`),
`watcher_pos` addresses the first list entry, and that entry is the handle of
the watcher; when all children participate the watcher is `child_list.first`
and `watcher_pos` is null. -/
theorem C20_initial_watcher (s : Nenofex) (root : Nat) (rnd : Node) (c0 e d : Nat)
    (arr : List ATPGInfo) (l : List Nat) (h : RegionReady s root rnd c0 e d arr l)
    (fuel : Nat) (hfuel : l.length < fuel) :
    ∃ (s1 : Nenofex) (arr1 : List ATPGInfo) (ra : ATPGInfo),
      init_subformula_atpg_info fuel s = Except.ok s1
      ∧ s1.nodes[root]? = some (some { rnd with atpg_info := some c0 })
      ∧ s1.atpg_rr.atpg_info_array = some arr1 ∧ arr1[c0]? = some ra
      ∧ (s.changed_subformula.children.length < rnd.num_children →
          ∃ (w f : Nat) (ch : List Nat), s.changed_subformula.children.getLast? = some w
            ∧ ra.watcher = some w ∧ ra.watcher_pos = some 0
            ∧ ra.atpg_ch = some ch ∧ ch[0]? = some f
            ∧ fault_handle s1 w = some f
            ∧ s1.atpg_rr.fault_nodes[f]? = some { node := w })
      ∧ (¬ s.changed_subformula.children.length < rnd.num_children →
          ra.watcher = rnd.child_list.head? ∧ ra.watcher_pos = none) := by
  obtain ⟨s1, hrun, hD⟩ := init_subformula_atpg_info_spec s root rnd c0 e d arr l h fuel hfuel
  obtain ⟨arr1, ra, harr1, hra, hent⟩ := hD.root_entry
  obtain ⟨nd0, _, _, hn0, hn1, _⟩ := hD.visited 0 root List.getElem?_cons_zero
  have hnd0 : nd0 = rnd := by
    rw [h.root_node] at hn0
    exact (Option.some.inj (Option.some.inj hn0)).symm
  subst hnd0
  refine ⟨s1, arr1, ra, hrun, hn1, harr1, hra, ?_, ?_⟩
  · intro hr
    rw [if_pos hr] at hent
    obtain ⟨cl, W, hrev⟩ : ∃ cl W, s.changed_subformula.children.reverse = cl :: W := by
      cases hc : s.changed_subformula.children.reverse with
      | nil => exact absurd (List.reverse_eq_nil_iff.mp hc) h.children_ne
      | cons cl W => exact ⟨cl, W, rfl⟩
    have hlast : s.changed_subformula.children.getLast? = some cl := by
      rw [List.getLast?_eq_head?_reverse, hrev]
      rfl
    have hclm : cl ∈ root :: l := by
      refine List.mem_cons_of_mem _ (forest_of_roots_subset h.forest cl ?_)
      rw [hrev]
      exact List.mem_cons_self _ _
    obtain ⟨k, hk⟩ := List.mem_iff_getElem?.mp hclm
    have hmap := h.child_handles_eq hD
    rw [hrev, List.map_cons, hD.handle k cl hk] at hmap
    have h0 : (child_handles s root (s.atpg_rr.fault_nodes.length + 1) l)[0]?
        = some (s.atpg_rr.fault_nodes.length + k) := by
      cases hch : child_handles s root (s.atpg_rr.fault_nodes.length + 1) l with
      | nil =>
        rw [hch] at hmap
        cases hmap
      | cons f0 rest =>
        rw [hch, List.map_cons] at hmap
        have := (List.cons.inj hmap).1
        rw [List.getElem?_cons_zero]
        exact this
    exact ⟨cl, _, _, hlast, hent.2.2.1.trans hlast, hent.2.1, hent.1, h0, hD.handle k cl hk,
      hD.fault_node k cl hk⟩
  · intro hr
    rw [if_neg hr] at hent
    exact ⟨hent.2.2.1, hent.2.1⟩

/-- C20, witness: in the region of `a | x | (b & !a)` the restricted watcher
list is used and the watcher is the last participating child. -/
theorem C20_initial_watcher_witness :
    ∃ (s1 : Nenofex) (arr1 : List ATPGInfo) (ra : ATPGInfo),
      init_subformula_atpg_info 5 partial_allocated = Except.ok s1
      ∧ s1.atpg_rr.atpg_info_array = some arr1 ∧ arr1[0]? = some ra
      ∧ ∃ (w : Nat), partial_allocated.changed_subformula.children.getLast? = some w
        ∧ ra.watcher = some w ∧ ra.watcher_pos = some 0 := by
  obtain ⟨s1, arr1, ra, h1, _, h3, h4, h5, _⟩ := C20_initial_watcher
    partial_allocated 0 _ 0 7 3 _ [3, 4, 5, 1] partial_region_ready 5 (by decide)
  obtain ⟨w, _, _, h6, h7, h8, _⟩ := h5 (by decide)
  exact ⟨s1, arr1, ra, h1, h3, h4, w, h6, h7, h8⟩

/-! ## Theorems: breadth-first order -/

theorem bfs_order_nil {ch : Nat → Option (List Nat)} (k : Nat) : bfs_order ch k [] = some [] := by
  cases k <;> rfl

theorem bfs_order_cons_some {ch : Nat → Option (List Nat)} {k n : Nat} {rest l : List Nat} :
    bfs_order ch (k + 1) (n :: rest) = some l
      ↔ ∃ cs l1, ch n = some cs ∧ bfs_order ch k (rest ++ cs) = some l1 ∧ l = n :: l1 := by
  rw [bfs_order]
  constructor
  · intro h
    split at h
    · rename_i cs hcs
      cases hb : bfs_order ch k (rest ++ cs) with
      | none => rw [hb] at h; cases h
      | some l1 =>
        rw [hb] at h
        exact ⟨cs, l1, hcs, hb, (Option.some.inj h).symm⟩
    · cases h
  · rintro ⟨cs, l1, h1, h2, rfl⟩
    rw [h1]
    show Option.map _ (bfs_order ch k (rest ++ cs)) = _
    rw [h2]
    rfl

theorem bfs_order_zero_some {ch : Nat → Option (List Nat)} {W l : List Nat}
    (h : bfs_order ch 0 W = some l) : W = [] ∧ l = [] := by
  cases W with
  | nil => exact ⟨rfl, (Option.some.inj h).symm⟩
  | cons n W => cases h

theorem bfs_order_mono {ch : Nat → Option (List Nat)} :
    ∀ (k : Nat) (W l : List Nat), bfs_order ch k W = some l → bfs_order ch (k + 1) W = some l := by
  intro k
  induction k with
  | zero =>
    intro W l h
    obtain ⟨rfl, rfl⟩ := bfs_order_zero_some h
    rfl
  | succ k ih =>
    intro W l h
    cases W with
    | nil =>
      rw [bfs_order_nil] at h
      rw [bfs_order_nil]
      exact h
    | cons n W =>
      obtain ⟨cs, l1, h1, h2, rfl⟩ := bfs_order_cons_some.mp h
      exact bfs_order_cons_some.mpr ⟨cs, l1, h1, ih _ _ h2, rfl⟩

theorem bfs_order_mono_le {ch : Nat → Option (List Nat)} {k m : Nat} {W l : List Nat}
    (h : bfs_order ch k W = some l) (hle : k ≤ m) : bfs_order ch m W = some l := by
  induction hle with
  | refl => exact h
  | step _ ih => exact bfs_order_mono _ _ _ ih

theorem mem_bfs_order {ch : Nat → Option (List Nat)} :
    ∀ (k : Nat) (W l : List Nat), bfs_order ch k W = some l →
      ∀ x, x ∈ l ↔ ∃ r ∈ W, Relation.ReflTransGen (child_of ch) r x := by
  intro k
  induction k with
  | zero =>
    intro W l h x
    obtain ⟨rfl, rfl⟩ := bfs_order_zero_some h
    simp
  | succ k ih =>
    intro W l h x
    cases W with
    | nil =>
      rw [bfs_order_nil] at h
      cases h
      simp
    | cons n W =>
      obtain ⟨cs, l1, h1, h2, rfl⟩ := bfs_order_cons_some.mp h
      have ih1 := ih (W ++ cs) l1 h2 x
      constructor
      · intro hx
        rcases List.mem_cons.mp hx with rfl | hx
        · exact ⟨x, List.mem_cons_self _ _, Relation.ReflTransGen.refl⟩
        · obtain ⟨r, hr, hrx⟩ := ih1.mp hx
          rcases List.mem_append.mp hr with hr | hr
          · exact ⟨r, List.mem_cons_of_mem _ hr, hrx⟩
          · exact ⟨n, List.mem_cons_self _ _,
              Relation.ReflTransGen.head ⟨cs, h1, hr⟩ hrx⟩
      · rintro ⟨r, hr, hrx⟩
        rcases List.mem_cons.mp hr with rfl | hr
        · rcases Relation.ReflTransGen.cases_head hrx with rfl | ⟨m, ⟨cs1, hc1, hm⟩, hmx⟩
          · exact List.mem_cons_self _ _
          · rw [h1] at hc1
            cases hc1
            exact List.mem_cons_of_mem _ (ih1.mpr ⟨m, List.mem_append_right _ hm, hmx⟩)
        · exact List.mem_cons_of_mem _ (ih1.mpr ⟨r, List.mem_append_left _ hr, hrx⟩)

/-- The breadth-first order of a forest is a permutation of its list in depth-
first order, and is reached with as much fuel as the forest has nodes. -/
theorem bfs_order_perm_forest {ch : Nat → Option (List Nat)} {d : Nat} :
    ∀ (k : Nat) (W lt : List Nat), lt.length = k → forest_of ch d W = some lt →
      ∃ lb, bfs_order ch k W = some lb ∧ lb.Perm lt := by
  intro k
  induction k with
  | zero =>
    intro W lt hk h
    have hl : lt = [] := List.eq_nil_of_length_eq_zero hk
    subst hl
    cases W with
    | nil => exact ⟨[], rfl, List.Perm.refl _⟩
    | cons n W =>
      obtain ⟨_, _, _, _, _, _, h5⟩ := forest_of_cons_some h
      cases h5
  | succ k ih =>
    intro W lt hk h
    cases W with
    | nil =>
      rw [forest_of_nil_some h] at hk
      cases hk
    | cons n W =>
      obtain ⟨cs, lc, lr, h1, h2, h3, rfl⟩ := forest_of_cons_some h
      have hlen : (lr ++ lc).length = k := by
        simp only [List.length_cons, List.length_append] at hk ⊢
        omega
      obtain ⟨lb, hb, hp⟩ := ih (W ++ cs) (lr ++ lc) hlen (forest_of_append h3 h2)
      exact ⟨n :: lb, bfs_order_cons_some.mpr ⟨cs, lb, h1, hb, rfl⟩,
        List.Perm.cons _ (hp.trans List.perm_append_comm)⟩

/-- In breadth-first order of a tree no node comes before one of its proper
ancestors. -/
theorem bfs_order_ancestors_first {ch : Nat → Option (List Nat)} :
    ∀ (k : Nat) (W l : List Nat), bfs_order ch k W = some l → l.Nodup →
      l.Pairwise (fun x y => ¬ (Relation.ReflTransGen (child_of ch) y x ∧ y ≠ x)) := by
  intro k
  induction k with
  | zero =>
    intro W l h _
    obtain ⟨_, rfl⟩ := bfs_order_zero_some h
    exact List.Pairwise.nil
  | succ k ih =>
    intro W l h hnd
    cases W with
    | nil =>
      rw [bfs_order_nil] at h
      cases h
      exact List.Pairwise.nil
    | cons n W =>
      obtain ⟨cs, l1, h1, h2, rfl⟩ := bfs_order_cons_some.mp h
      obtain ⟨hn, hnd1⟩ := List.nodup_cons.mp hnd
      refine List.Pairwise.cons (fun y hy hc => ?_) (ih _ _ h2 hnd1)
      obtain ⟨r, hr, hry⟩ := (mem_bfs_order k _ _ h2 y).mp hy
      exact hn ((mem_bfs_order k _ _ h2 n).mpr ⟨r, hr, hry.trans hc.1⟩)

/-! ## Theorems: the loops of the collectors `collect_fault_nodes_bottom_up`
and `collect_fault_nodes_by_bfs` -/

theorem fault_handle_some {s : Nenofex} {n f : Nat} (h : fault_handle s n = some f) :
    ∃ a, node_info s n = Except.ok a ∧ a.fault_node = some f := by
  unfold fault_handle at h
  split at h
  · rename_i a ha
    exact ⟨a, ha, h⟩
  · cases h

theorem is_literal_node_eq {s : Nenofex} {n : Nat} {nd : Node}
    (h : s.nodes[n]? = some (some nd)) : is_literal_node s n = (nd.type == NodeType.LITERAL) := by
  unfold is_literal_node
  rw [h]

theorem with_fault_queue_self (s : Nenofex) : with_fault_queue s s.atpg_rr.fault_queue = s :=
  rfl

/-- The first loop of `collect_fault_nodes_bottom_up` on the queue `queue`:
it visits the nodes in breadth-first order `lb`, appends the handles of the
literals to the fault queue and pushes the handles of the operators on the
stack. -/
theorem collect_bottom_up_loop_spec (s : Nenofex) :
    ∀ (k : Nat) (queue lb : List Nat), bfs_order (node_children s) k queue = some lb →
      (∀ n ∈ lb, ∃ f, fault_handle s n = some f) →
      ∀ (stack q : List Nat), ∃ hl ho : List Nat,
        hl.map some = (lb.filter (is_literal_node s)).map (fault_handle s)
        ∧ ho.map some = (lb.filter (fun n => !is_literal_node s n)).map (fault_handle s)
        ∧ collect_bottom_up_loop (k + 1) (with_fault_queue s q) queue stack
            = Except.ok (with_fault_queue s (q ++ hl), ho.reverse ++ stack) := by
  intro k
  induction k with
  | zero =>
    intro queue lb h _ stack q
    obtain ⟨rfl, rfl⟩ := bfs_order_zero_some h
    exact ⟨[], [], rfl, rfl, by rw [List.append_nil]; rfl⟩
  | succ k ih =>
    intro queue lb h hh stack q
    cases queue with
    | nil =>
      rw [bfs_order_nil] at h
      cases h
      exact ⟨[], [], rfl, rfl, by rw [List.append_nil]; rfl⟩
    | cons n rest =>
      obtain ⟨cs, l1, h1, h2, rfl⟩ := bfs_order_cons_some.mp h
      obtain ⟨nd, hn, hcs⟩ := node_children_some h1
      obtain ⟨f, hf⟩ := hh n (List.mem_cons_self _ _)
      obtain ⟨a, ha, haf⟩ := fault_handle_some hf
      have hlit := is_literal_node_eq hn
      have hstep : collect_bottom_up_loop (k + 1 + 1) (with_fault_queue s q) (n :: rest) stack
          = if (nd.type != NodeType.LITERAL) = true then
              collect_bottom_up_loop (k + 1) (with_fault_queue s q) (rest ++ nd.child_list)
                (f :: stack)
            else
              collect_bottom_up_loop (k + 1) (with_fault_queue s (q ++ [f])) rest stack := by
        rw [collect_bottom_up_loop]
        have e1 : get_node (with_fault_queue s q) n = Except.ok nd := get_node_of_getElem hn
        have e2 : node_info (with_fault_queue s q) n = Except.ok a := ha
        simp only [e1, e2, ok_bind, haf, deref, pure_eq_ok]
        rfl
      rw [hstep]
      by_cases ht : nd.type = NodeType.LITERAL
      · have hb : (nd.type != NodeType.LITERAL) = false := by simp [ht]
        have hl1 : is_literal_node s n = true := by rw [hlit]; simp [ht]
        rw [hb] at hcs ⊢
        simp only [Bool.false_eq_true, if_false] at hcs ⊢
        rw [hcs, List.append_nil] at h2
        obtain ⟨hl, ho, e1, e2, e3⟩ := ih rest l1 h2
          (fun m hm => hh m (List.mem_cons_of_mem _ hm)) stack (q ++ [f])
        refine ⟨f :: hl, ho, ?_, ?_, ?_⟩
        · rw [List.filter_cons, if_pos hl1, List.map_cons, List.map_cons, e1, hf]
        · rw [List.filter_cons, if_neg (by simp [hl1])]
          exact e2
        · rw [e3, List.append_assoc]
          rfl
      · have hb : (nd.type != NodeType.LITERAL) = true := by simpa using ht
        have hl1 : is_literal_node s n = false := by rw [hlit]; simp [ht]
        rw [hb] at hcs ⊢
        simp only [if_true] at hcs ⊢
        rw [hcs] at h2
        obtain ⟨hl, ho, e1, e2, e3⟩ := ih (rest ++ nd.child_list) l1 h2
          (fun m hm => hh m (List.mem_cons_of_mem _ hm)) (f :: stack) q
        refine ⟨hl, f :: ho, ?_, ?_, ?_⟩
        · rw [List.filter_cons, if_neg (by simp [hl1])]
          exact e1
        · rw [List.filter_cons, if_pos (by simp [hl1]), List.map_cons, List.map_cons, e2, hf]
        · rw [e3, List.reverse_cons, List.append_assoc]
          rfl

/-- The loop of `collect_fault_nodes_by_bfs`: it appends the handles of the
visited nodes to the fault queue in breadth-first order. -/
theorem collect_bfs_loop_spec (s : Nenofex) :
    ∀ (k : Nat) (queue lb : List Nat), bfs_order (node_children s) k queue = some lb →
      (∀ n ∈ lb, ∃ f, fault_handle s n = some f) →
      ∀ (q : List Nat), ∃ hl : List Nat, hl.map some = lb.map (fault_handle s)
        ∧ collect_bfs_loop (k + 1) (with_fault_queue s q) queue
            = Except.ok (with_fault_queue s (q ++ hl)) := by
  intro k
  induction k with
  | zero =>
    intro queue lb h _ q
    obtain ⟨rfl, rfl⟩ := bfs_order_zero_some h
    exact ⟨[], rfl, by rw [List.append_nil]; rfl⟩
  | succ k ih =>
    intro queue lb h hh q
    cases queue with
    | nil =>
      rw [bfs_order_nil] at h
      cases h
      exact ⟨[], rfl, by rw [List.append_nil]; rfl⟩
    | cons n rest =>
      obtain ⟨cs, l1, h1, h2, rfl⟩ := bfs_order_cons_some.mp h
      obtain ⟨nd, hn, hcs⟩ := node_children_some h1
      obtain ⟨f, hf⟩ := hh n (List.mem_cons_self _ _)
      obtain ⟨a, ha, haf⟩ := fault_handle_some hf
      have hstep : collect_bfs_loop (k + 1 + 1) (with_fault_queue s q) (n :: rest)
          = if (nd.type != NodeType.LITERAL) = true then
              collect_bfs_loop (k + 1) (with_fault_queue s (q ++ [f])) (rest ++ nd.child_list)
            else
              collect_bfs_loop (k + 1) (with_fault_queue s (q ++ [f])) rest := by
        rw [collect_bfs_loop]
        have e1 : get_node (with_fault_queue s q) n = Except.ok nd := get_node_of_getElem hn
        have e2 : node_info (with_fault_queue s q) n = Except.ok a := ha
        simp only [e1, e2, ok_bind, haf, deref, pure_eq_ok]
        rfl
      have hq : rest ++ cs = if (nd.type != NodeType.LITERAL) = true then rest ++ nd.child_list
          else rest := by
        rw [hcs]
        split
        · rfl
        · exact List.append_nil _
      rw [hq] at h2
      obtain ⟨hl, e1, e3⟩ := ih _ l1 h2 (fun m hm => hh m (List.mem_cons_of_mem _ hm)) (q ++ [f])
      refine ⟨f :: hl, ?_, ?_⟩
      · rw [List.map_cons, List.map_cons, e1, hf]
      · rw [hstep]
        split at e3
        · rename_i hb
          rw [if_pos hb, e3, List.append_assoc]
          rfl
        · rename_i hb
          rw [if_neg hb, e3, List.append_assoc]
          rfl

/-! ## Theorems: assignment of a literal in backward propagation and in the
off-path collection -/

theorem get_var_of_getElem {s : Nenofex} {v : Nat} {x : Var} (h : s.vars[v]? = some x) :
    get_var s v = Except.ok x := by
  unfold get_var
  rw [h]
  rfl

theorem backward_literal_spec (s : Nenofex) (node : Nat) (want : Bool) (nd : Node) (lit : Lit)
    (x : Var) (hn : get_node s node = Except.ok nd) (hl : nd.lit = some lit)
    (hx : get_var s lit.var = Except.ok x) :
    backward_literal s node want
      = if x.assignment = VarAssignment.UNDEFINED then
          Except.ok (enqueue_propagation
            (log (set_var s lit.var { x with assignment := required_value lit want })
              (Event.var_assigned lit.var (required_value lit want) s.atpg_rr.prop_cutoff))
            lit.var)
        else if x.assignment = required_value lit want then Except.ok s
        else Except.ok (set_conflict s) := by
  unfold backward_literal
  simp only [hn, hl, hx, ok_bind, deref, pure_eq_ok, var_assign, required_value]
  by_cases hu : x.assignment = VarAssignment.UNDEFINED
  · simp only [hu, if_true]
    try simp
  · simp only [hu, if_false]
    by_cases hnw : lit.negated = want
    · simp only [hnw, if_true, true_and, ne_eq, not_true_eq_false, false_and, or_false]
      cases hxa : x.assignment <;> simp_all
    · simp only [hnw, if_false, false_and, ne_eq, not_false_eq_true, true_and, false_or]
      cases hxa : x.assignment <;> simp_all

theorem collect_necessary_off_path_literal_spec (s : Nenofex) (node : Nat) (want : Bool)
    (nd : Node) (lit : Lit) (x : Var) (hn : get_node s node = Except.ok nd)
    (hl : nd.lit = some lit) (hx : get_var s lit.var = Except.ok x) :
    collect_necessary_off_path_literal s node want
      = if x.assignment = VarAssignment.UNDEFINED then
          Except.ok (enqueue_propagation
            (log (set_var s lit.var { x with assignment := required_value lit want })
              (Event.var_assigned lit.var (required_value lit want) s.atpg_rr.prop_cutoff))
            lit.var)
        else if x.assignment = required_value lit want then Except.ok s
        else Except.ok (set_conflict s) := by
  unfold collect_necessary_off_path_literal
  simp only [hn, hl, hx, ok_bind, deref, pure_eq_ok, var_assign, required_value]
  by_cases hu : x.assignment = VarAssignment.UNDEFINED
  · simp only [hu, if_true]
    try simp
  · simp only [hu, if_false]
    by_cases hnw : lit.negated = want
    · simp only [hnw, if_true, true_and, ne_eq, not_true_eq_false, false_and, or_false]
      cases hxa : x.assignment <;> simp_all
    · simp only [hnw, if_false, false_and, ne_eq, not_false_eq_true, true_and, false_or]
      cases hxa : x.assignment <;> simp_all

/-- One iteration of the loop of `backward_propagate_truth` within budget:
the popped node `node` is processed in the state `s1` in which the counter
is incremented. -/
theorem backward_truth_loop_step (fuel : Nat) (s : Nenofex) (node : Nat)
    (rest : List (Option Nat)) (hc : s.atpg_rr.conflict = false)
    (hs : s.atpg_rr.bwd_prop_stack = some node :: rest)
    (h : limit_exceeded (inc_bwd_prop_cnt { s with atpg_rr.bwd_prop_stack := rest }) = false) :
    backward_propagate_truth_loop (fuel + 1) s
      = (do
          let s := log_step (inc_bwd_prop_cnt { s with atpg_rr.bwd_prop_stack := rest }) false
          let nd ← get_node s node
          if nd.type = NodeType.LITERAL then
            let s ← backward_literal s node true
            backward_propagate_truth_loop fuel s
          else if nd.type = NodeType.AND then
            let s ← node_assign s node ATPGAssignment.TRUE
            let s ← collect_assigned_node s node
            let s ← push_unassigned_children s nd.child_list.reverse
            let s ← modify_node_info s node (fun a => { a with justified := true })
            backward_propagate_truth_loop fuel s
          else
            let s ← node_assign s node ATPGAssignment.TRUE
            let s ← collect_assigned_node s node
            let a ← node_info s node
            if a.unassigned_ch_cnt = 1 then
              let s := { s with atpg_rr.bwd_prop_stack := a.watcher :: s.atpg_rr.bwd_prop_stack }
              let s ← modify_node_info s node (fun a => { a with justified := true })
              backward_propagate_truth_loop fuel s
            else
              backward_propagate_truth_loop fuel s) := by
  rw [backward_propagate_truth_loop]
  rw [if_neg (by simp [hc])]
  split
  · rename_i h1; rw [hs] at h1; cases h1
  · rename_i h1; rw [hs] at h1; cases h1
  · rename_i node1 rest1 h1
    rw [hs] at h1
    cases h1
    show (if limit_exceeded _ = true then _ else _) = _
    rw [if_neg (by rw [h]; decide)]
    try rfl

/-- One iteration of the loop of `backward_propagate_falsity` within
budget. -/
theorem backward_falsity_loop_step (fuel : Nat) (s : Nenofex) (node : Nat)
    (rest : List (Option Nat)) (hc : s.atpg_rr.conflict = false)
    (hs : s.atpg_rr.bwd_prop_stack = some node :: rest)
    (h : limit_exceeded (inc_bwd_prop_cnt { s with atpg_rr.bwd_prop_stack := rest }) = false) :
    backward_propagate_falsity_loop (fuel + 1) s
      = (do
          let s := log_step (inc_bwd_prop_cnt { s with atpg_rr.bwd_prop_stack := rest }) false
          let nd ← get_node s node
          if nd.type = NodeType.LITERAL then
            let s ← backward_literal s node false
            backward_propagate_falsity_loop fuel s
          else if nd.type = NodeType.AND then
            let s ← node_assign s node ATPGAssignment.FALSE
            let s ← collect_assigned_node s node
            let a ← node_info s node
            if a.unassigned_ch_cnt = 1 then
              let s := { s with atpg_rr.bwd_prop_stack := a.watcher :: s.atpg_rr.bwd_prop_stack }
              let s ← modify_node_info s node (fun a => { a with justified := true })
              backward_propagate_falsity_loop fuel s
            else
              backward_propagate_falsity_loop fuel s
          else
            let s ← node_assign s node ATPGAssignment.FALSE
            let s ← collect_assigned_node s node
            let s ← push_unassigned_children s nd.child_list.reverse
            let s ← modify_node_info s node (fun a => { a with justified := true })
            backward_propagate_falsity_loop fuel s) := by
  rw [backward_propagate_falsity_loop]
  rw [if_neg (by simp [hc])]
  split
  · rename_i h1; rw [hs] at h1; cases h1
  · rename_i h1; rw [hs] at h1; cases h1
  · rename_i node1 rest1 h1
    rw [hs] at h1
    cases h1
    show (if limit_exceeded _ = true then _ else _) = _
    rw [if_neg (by rw [h]; decide)]
    try rfl

theorem backward_truth_loop_literal (fuel : Nat) (s : Nenofex) (node : Nat) (rest : List (Option Nat))
    (nd : Node) (hc : s.atpg_rr.conflict = false)
    (hst : s.atpg_rr.bwd_prop_stack = some node :: rest)
    (hlim : limit_exceeded (inc_bwd_prop_cnt { s with atpg_rr.bwd_prop_stack := rest }) = false)
    (hn : get_node s node = Except.ok nd) (ht : nd.type = NodeType.LITERAL) :
    backward_propagate_truth_loop (fuel + 1) s
      = backward_literal (log_step (inc_bwd_prop_cnt { s with atpg_rr.bwd_prop_stack := rest })
          false) node true >>= backward_propagate_truth_loop fuel := by
  have hn1 : get_node (log_step (inc_bwd_prop_cnt { s with atpg_rr.bwd_prop_stack := rest })
      false) node = Except.ok nd := hn
  rw [backward_truth_loop_step fuel s node rest hc hst hlim]
  simp only [hn1, ht, ok_bind, if_true]

theorem backward_falsity_loop_literal (fuel : Nat) (s : Nenofex) (node : Nat)
    (rest : List (Option Nat)) (nd : Node) (hc : s.atpg_rr.conflict = false)
    (hst : s.atpg_rr.bwd_prop_stack = some node :: rest)
    (hlim : limit_exceeded (inc_bwd_prop_cnt { s with atpg_rr.bwd_prop_stack := rest }) = false)
    (hn : get_node s node = Except.ok nd) (ht : nd.type = NodeType.LITERAL) :
    backward_propagate_falsity_loop (fuel + 1) s
      = backward_literal (log_step (inc_bwd_prop_cnt { s with atpg_rr.bwd_prop_stack := rest })
          false) node false >>= backward_propagate_falsity_loop fuel := by
  have hn1 : get_node (log_step (inc_bwd_prop_cnt { s with atpg_rr.bwd_prop_stack := rest })
      false) node = Except.ok nd := hn
  rw [backward_falsity_loop_step fuel s node rest hc hst hlim]
  simp only [hn1, ht, ok_bind, if_true]

/-- C25 (conflict on a contradicting variable). Let `node` be a literal node
with the literal `lit` whose variable has the record `x`, and let `want` be
the value the literal is required to take. The literal case of backward
propagation (`backward_literal`, run with `want = true` by the loop of
`backward_propagate_truth` and with `want = false` by the loop of
`backward_propagate_falsity` whenever they pop a literal node within budget)
and the off-path collection (`collect_necessary_off_path_literal`) both
return the state `spec_force_literal s lit x want`. In that state: if the
variable was assigned, the queue and the variables are unchanged and (when no
conflict was set before) the conflict flag is set iff the existing value
differs from the required one; if the variable was unassigned, it has the
required value, it is appended to the propagation queue exactly once, and
the conflict flag is unchanged. -/
theorem C25_conflict_on_contrary_variable (s : Nenofex) (node : Nat) (want : Bool) (nd : Node)
    (lit : Lit) (x : Var) (hn : get_node s node = Except.ok nd) (hl : nd.lit = some lit)
    (hx : get_var s lit.var = Except.ok x) :
    backward_literal s node want = Except.ok (spec_force_literal s lit x want)
    ∧ collect_necessary_off_path_literal s node want
        = Except.ok (spec_force_literal s lit x want)
    ∧ (x.assignment ≠ VarAssignment.UNDEFINED →
        (spec_force_literal s lit x want).atpg_rr.propagation_queue
            = s.atpg_rr.propagation_queue
        ∧ (spec_force_literal s lit x want).vars = s.vars
        ∧ (x.assignment = required_value lit want → spec_force_literal s lit x want = s)
        ∧ (x.assignment ≠ required_value lit want →
            spec_force_literal s lit x want = set_conflict s)
        ∧ (s.atpg_rr.conflict = false →
            ((spec_force_literal s lit x want).atpg_rr.conflict = true
              ↔ x.assignment ≠ required_value lit want)))
    ∧ (x.assignment = VarAssignment.UNDEFINED →
        (spec_force_literal s lit x want).atpg_rr.propagation_queue
            = s.atpg_rr.propagation_queue ++ [lit.var]
        ∧ (spec_force_literal s lit x want).vars
            = s.vars.set lit.var { x with assignment := required_value lit want }
        ∧ (spec_force_literal s lit x want).atpg_rr.conflict = s.atpg_rr.conflict)
    ∧ (∀ (fuel : Nat) (t : Nenofex) (rest : List (Option Nat)),
        t.atpg_rr.conflict = false → t.atpg_rr.bwd_prop_stack = some node :: rest →
        limit_exceeded (inc_bwd_prop_cnt { t with atpg_rr.bwd_prop_stack := rest }) = false →
        get_node t node = Except.ok nd → nd.type = NodeType.LITERAL →
        backward_propagate_truth_loop (fuel + 1) t
            = backward_literal
                (log_step (inc_bwd_prop_cnt { t with atpg_rr.bwd_prop_stack := rest }) false)
                node true >>= backward_propagate_truth_loop fuel
        ∧ backward_propagate_falsity_loop (fuel + 1) t
            = backward_literal
                (log_step (inc_bwd_prop_cnt { t with atpg_rr.bwd_prop_stack := rest }) false)
                node false >>= backward_propagate_falsity_loop fuel) := by
  refine ⟨?_, ?_, ?_, ?_, ?_⟩
  · rw [backward_literal_spec s node want nd lit x hn hl hx]
    unfold spec_force_literal
    split
    · rfl
    · split <;> rfl
  · rw [collect_necessary_off_path_literal_spec s node want nd lit x hn hl hx]
    unfold spec_force_literal
    split
    · rfl
    · split <;> rfl
  · intro hu
    unfold spec_force_literal
    rw [if_neg hu]
    by_cases hr : x.assignment = required_value lit want
    · rw [if_pos hr]
      exact ⟨rfl, rfl, fun _ => rfl, fun h => absurd hr h,
        fun hc => ⟨fun h => (by rw [hc] at h; cases h), fun h => absurd hr h⟩⟩
    · rw [if_neg hr]
      exact ⟨rfl, rfl, fun h => absurd h hr, fun _ => rfl, fun _ => ⟨fun _ => hr, fun _ => rfl⟩⟩
  · intro hu
    unfold spec_force_literal
    rw [if_pos hu]
    exact ⟨rfl, rfl, rfl⟩
  · intro fuel t rest hc hst hlim hnt ht
    exact ⟨backward_truth_loop_literal fuel t node rest nd hc hst hlim hnt ht,
      backward_falsity_loop_literal fuel t node rest nd hc hst hlim hnt ht⟩

/-- C25, witness: in `sample_sensitized` the variable `b` is assigned true;
forcing its literal (node 1) to false raises the conflict. -/
theorem C25_conflict_on_contrary_variable_witness :
    backward_literal sample_sensitized 1 false = Except.ok (set_conflict sample_sensitized)
    ∧ collect_necessary_off_path_literal sample_sensitized 1 false
        = Except.ok (set_conflict sample_sensitized) := by
  have h := C25_conflict_on_contrary_variable sample_sensitized 1 false
    { level := 1, type := NodeType.LITERAL, parent := some 0, lit := some ⟨1, false⟩,
      atpg_info := some 4 }
    ⟨1, false⟩
    { assignment := VarAssignment.TRUE, atpg_mark := true, subformula_pos_occs := some [4],
      subformula_neg_occs := some [] } rfl rfl rfl
  have h3 := (h.2.2.1 (by decide)).2.2.2.1 (by decide)
  exact ⟨h.1.trans (congrArg Except.ok h3), h.2.1.trans (congrArg Except.ok h3)⟩

/-! ## Theorems: `fault_sensitization` -/

theorem lit_value_required (lit : Lit) (want : Bool) :
    lit_value lit (required_value lit want) = some want := by
  unfold required_value lit_value
  cases hn : lit.negated <;> cases want <;> simp

theorem lit_of_some {s : Nenofex} {n : Nat} {lit : Lit} (h : lit_of s n = some lit) :
    ∃ nd, s.nodes[n]? = some (some nd) ∧ nd.type = NodeType.LITERAL ∧ nd.lit = some lit := by
  unfold lit_of at h
  split at h
  · rename_i nd hnd
    split at h
    · rename_i ht
      exact ⟨nd, hnd, ht, h⟩
    · cases h
  · cases h

theorem sensitize_literal_spec (s : Nenofex) (node : Nat) (want : Bool) (nd : Node) (lit : Lit)
    (x : Var) (hn : s.nodes[node]? = some (some nd)) (hl : nd.lit = some lit)
    (hx : s.vars[lit.var]? = some x) :
    sensitize_literal s node want
      = Except.ok (enqueue_propagation
          (log (set_var s lit.var { x with assignment := required_value lit want })
            (Event.var_assigned lit.var (required_value lit want) s.atpg_rr.prop_cutoff))
          lit.var) := by
  unfold sensitize_literal
  simp only [get_node_of_getElem hn, hl, get_var_of_getElem hx, ok_bind, deref, pure_eq_ok,
    var_assign]
  rfl

theorem getElem?_set_var (s : Nenofex) (v : Nat) (x : Var) (w : Nat) :
    (set_var s v x).vars[w]? = if v = w then (s.vars[w]?).map (fun _ => x) else s.vars[w]? := by
  unfold set_var
  show (s.vars.set v x)[w]? = _
  rw [List.getElem?_set]
  by_cases h : v = w
  · subst h
    simp only [if_true]
    by_cases hlt : v < s.vars.length
    · simp [hlt]
    · simp [hlt, List.getElem?_eq_none (Nat.le_of_not_lt hlt)]
  · simp [h]

/-- The loop of `fault_sensitization` over the children `l`: the variables
of the visited literals are appended to the queue; if these variables are
pairwise distinct, each has the required value afterwards; nothing else
changes. -/
theorem sensitize_children_spec (s0 : Nenofex) (want : Bool) :
    ∀ (l : List Nat) (s : Nenofex), s.nodes = s0.nodes →
      (∀ c ∈ l, ∃ cnd, s0.nodes[c]? = some (some cnd)) →
      (∀ c ∈ leading_literals s0 l, ∃ lit, lit_of s0 c = some lit ∧ lit.var < s.vars.length) →
      ∃ s', sensitize_children s want l = Except.ok s'
        ∧ s'.nodes = s.nodes
        ∧ s'.atpg_rr.propagation_queue
            = s.atpg_rr.propagation_queue ++ (leading_literals s0 l).filterMap (var_of s0)
        ∧ s'.vars.length = s.vars.length
        ∧ (∀ v, v ∉ (leading_literals s0 l).filterMap (var_of s0) → s'.vars[v]? = s.vars[v]?)
        ∧ (((leading_literals s0 l).filterMap (var_of s0)).Nodup →
            ∀ c ∈ leading_literals s0 l, ∀ lit, lit_of s0 c = some lit →
              var_value s' lit.var = some (required_value lit want))
        ∧ s'.atpg_rr.conflict = s.atpg_rr.conflict
        ∧ s'.atpg_rr.atpg_info_array = s.atpg_rr.atpg_info_array
        ∧ s'.atpg_rr.fault_nodes = s.atpg_rr.fault_nodes := by
  intro l
  induction l with
  | nil =>
    intro s _ _ _
    refine ⟨s, rfl, rfl, ?_, rfl, fun _ _ => rfl, ?_, rfl, rfl, rfl⟩
    · simp [leading_literals]
    · intro _ c hc
      simp [leading_literals] at hc
  | cons c rest ih =>
    intro s hs hex hlit
    obtain ⟨cnd, hc⟩ := hex c (List.mem_cons_self _ _)
    have hcs : s.nodes[c]? = some (some cnd) := by rw [hs]; exact hc
    have hlitn : is_literal_node s0 c = (cnd.type == NodeType.LITERAL) := is_literal_node_eq hc
    have hinfo : has_info s0 c = cnd.atpg_info.isSome := by
      unfold has_info
      rw [hc]
    by_cases ht : cnd.type = NodeType.LITERAL
    · have hl1 : is_literal_node s0 c = true := by rw [hlitn]; simp [ht]
      cases hai : cnd.atpg_info with
      | none =>
        have hi1 : has_info s0 c = false := by rw [hinfo, hai]; rfl
        have hll : leading_literals s0 (c :: rest) = leading_literals s0 rest := by
          rw [leading_literals, if_pos hl1, if_neg (by simp [hi1])]
        rw [hll] at hlit ⊢
        have hstep : sensitize_children s want (c :: rest) = sensitize_children s want rest := by
          rw [sensitize_children]
          simp only [get_node_of_getElem hcs, ok_bind, ht, if_true, hai]
        rw [hstep]
        exact ih s hs (fun d hd => hex d (List.mem_cons_of_mem _ hd)) hlit
      | some i =>
        have hi1 : has_info s0 c = true := by rw [hinfo, hai]; rfl
        have hll : leading_literals s0 (c :: rest) = c :: leading_literals s0 rest := by
          rw [leading_literals, if_pos hl1, if_pos hi1]
        rw [hll] at hlit ⊢
        obtain ⟨lit, hlo, hlt⟩ := hlit c (List.mem_cons_self _ _)
        obtain ⟨nd1, hnd1, _, hndl⟩ := lit_of_some hlo
        rw [hc] at hnd1
        cases hnd1
        have hxs : s.vars[lit.var]? = some (s.vars.get ⟨lit.var, hlt⟩) :=
          List.getElem?_eq_getElem hlt
        have hvo : var_of s0 c = some lit.var := by
          unfold var_of
          rw [hlo]
          rfl
        have h1 := sensitize_literal_spec s c want cnd lit _ hcs hndl hxs
        have hstep : sensitize_children s want (c :: rest)
            = sensitize_literal s c want >>= fun s1 => sensitize_children s1 want rest := by
          rw [sensitize_children]
          simp only [get_node_of_getElem hcs, ok_bind, ht, if_true, hai]
          try rfl
        rw [hstep, h1, ok_bind]
        obtain ⟨s', e1, e2, e3, e4, e5, e6, e7, e8, e9⟩ := ih
          (enqueue_propagation
            (log (set_var s lit.var
              { s.vars.get ⟨lit.var, hlt⟩ with assignment := required_value lit want })
              (Event.var_assigned lit.var (required_value lit want) s.atpg_rr.prop_cutoff))
            lit.var) hs (fun d hd => hex d (List.mem_cons_of_mem _ hd))
          (fun d hd => by
            obtain ⟨l2, h2, h3⟩ := hlit d (List.mem_cons_of_mem _ hd)
            refine ⟨l2, h2, ?_⟩
            show l2.var < (s.vars.set lit.var _).length
            rw [List.length_set]
            exact h3)
        have hlen : s'.vars.length = s.vars.length := by
          rw [e4]
          show (s.vars.set lit.var _).length = _
          rw [List.length_set]
        refine ⟨s', e1, e2, ?_, hlen, ?_, ?_, e7, e8, e9⟩
        · rw [e3, List.filterMap_cons, hvo]
          show (s.atpg_rr.propagation_queue ++ [lit.var]) ++ _ = _
          rw [List.append_assoc]
          rfl
        · intro v hv
          rw [List.filterMap_cons, hvo] at hv
          have hv1 : v ≠ lit.var := fun h => hv (h ▸ List.mem_cons_self _ _)
          have hv2 : v ∉ (leading_literals s0 rest).filterMap (var_of s0) :=
            fun h => hv (List.mem_cons_of_mem _ h)
          rw [e5 v hv2]
          show (set_var s lit.var _).vars[v]? = _
          rw [getElem?_set_var, if_neg (fun h => hv1 h.symm)]
        · intro hnd d hd l2 hl2
          rw [List.filterMap_cons, hvo] at hnd
          have hnd' := List.nodup_cons.mp hnd
          rcases List.mem_cons.mp hd with rfl | hd
          · rw [hlo] at hl2
            cases hl2
            unfold var_value
            rw [e5 _ hnd'.1]
            show ((set_var s lit.var _).vars[lit.var]?).map _ = _
            rw [getElem?_set_var, if_pos rfl, hxs]
            rfl
          · exact e6 hnd'.2 d hd l2 hl2
    · have hl1 : is_literal_node s0 c = false := by rw [hlitn]; simp [ht]
      have hll : leading_literals s0 (c :: rest) = [] := by
        rw [leading_literals, if_neg (by simp [hl1])]
      rw [hll]
      have hstep : sensitize_children s want (c :: rest) = Except.ok s := by
        rw [sensitize_children]
        simp only [get_node_of_getElem hcs, ok_bind, ht, if_false]
        try rfl
      rw [hstep]
      refine ⟨s, rfl, rfl, ?_, rfl, fun _ _ => rfl, ?_, rfl, rfl, rfl⟩
      · simp
      · intro _ d hd
        cases hd

theorem leading_literals_ops (s : Nenofex) :
    ∀ ops : List Nat, (∀ c ∈ ops, is_literal_node s c = false) →
      leading_literals s ops = [] ∧ participating_literals s ops = [] := by
  intro ops h
  cases ops with
  | nil => exact ⟨rfl, rfl⟩
  | cons c rest =>
    refine ⟨?_, ?_⟩
    · rw [leading_literals, if_neg (by simp [h c (List.mem_cons_self _ _)])]
    · unfold participating_literals
      rw [List.filter_eq_nil_iff]
      intro d hd
      simp [h d hd]

theorem leading_literals_eq (s : Nenofex) (l : List Nat) (h : literals_first s l) :
    leading_literals s l = participating_literals s l := by
  obtain ⟨lits, ops, rfl, h1, h2⟩ := h
  induction lits with
  | nil =>
    rw [List.nil_append, (leading_literals_ops s ops h2).1, (leading_literals_ops s ops h2).2]
  | cons c rest ih =>
    have hc := h1 c (List.mem_cons_self _ _)
    have ih1 := ih (fun d hd => h1 d (List.mem_cons_of_mem _ hd))
    rw [List.cons_append, leading_literals, if_pos hc]
    unfold participating_literals at ih1 ⊢
    rw [List.filter_cons]
    by_cases hi : has_info s c = true
    · rw [if_pos hi, if_pos (by simp [hc, hi]), ih1]
    · rw [if_neg hi, if_neg (by simp [hi]), ih1]

theorem sensitize_literal_conflict (s : Nenofex) (n : Nat) (want : Bool) :
    Tri (sensitize_literal s n want)
      (fun s1 => s1.atpg_rr.conflict = s.atpg_rr.conflict) := by
  unfold sensitize_literal
  refine Tri_read fun nd => Tri_read fun lit => ?_
  have h : Tri (var_assign s lit.var
      (if lit.negated = want then VarAssignment.FALSE else VarAssignment.TRUE))
      (fun s1 => s1.atpg_rr.conflict = s.atpg_rr.conflict) := by
    unfold var_assign
    exact Tri_read fun x => Tri_pure rfl
  exact Tri_bind h (fun s1 h1 => Tri_pure h1)

theorem sensitize_children_conflict (want : Bool) :
    ∀ (l : List Nat) (s : Nenofex), Tri (sensitize_children s want l)
      (fun s1 => s1.atpg_rr.conflict = s.atpg_rr.conflict) := by
  intro l
  induction l with
  | nil =>
    intro s
    unfold sensitize_children
    exact Tri_pure rfl
  | cons c rest ih =>
    intro s
    unfold sensitize_children
    refine Tri_read fun cnd => Tri_ite (fun _ => ?_) (fun _ => Tri_pure rfl)
    split
    · exact ih s
    · exact Tri_bind (sensitize_literal_conflict s c want)
        (fun s1 h1 => Tri_mono (ih s1) (fun s2 h2 => h2.trans h1))

theorem fault_sensitization_conflict (s : Nenofex) (n : Nat) (ft : ATPGFaultType) :
    Tri (fault_sensitization s n ft) (fun s1 => s1.atpg_rr.conflict = s.atpg_rr.conflict) := by
  unfold fault_sensitization
  refine Tri_read fun nd => Tri_ite (fun _ => ?_) (fun _ => ?_)
  · exact Tri_ite (fun _ => sensitize_literal_conflict _ _ _)
      (fun _ => sensitize_children_conflict _ _ _)
  · exact Tri_ite (fun _ => sensitize_literal_conflict _ _ _)
      (fun _ => sensitize_children_conflict _ _ _)

/-- C26 (fault sensitisation). Let `N` be a candidate and `want` the value
opposite to the stuck-at value (`true` for s-a-0, `false` for s-a-1). The
targets of the sensitisation are `N` itself if it is a literal, else its
participating literal children. If the children of an operator candidate
exist and its literal children precede its operator children, every target
has a variable, and the variables of the targets are pairwise distinct,
then `fault_sensitization` returns a state in which the variables of the
targets are appended to the propagation queue, each exactly once and in the
order of the targets; every target's variable has the value under which the
target evaluates to `want`; no other variable, no node, no `ATPGInfo` and not
the conflict flag is changed. -/
theorem C26_fault_sensitisation (s : Nenofex) (N : Nat) (nd : Node) (want : Bool)
    (hn : s.nodes[N]? = some (some nd))
    (hchildren : nd.type ≠ NodeType.LITERAL →
      ∀ c ∈ nd.child_list, ∃ cnd, s.nodes[c]? = some (some cnd))
    (hfirst : nd.type ≠ NodeType.LITERAL → literals_first s nd.child_list)
    (hvars : ∀ c ∈ sensitisation_targets s N,
      ∃ lit, lit_of s c = some lit ∧ lit.var < s.vars.length)
    (hnodup : ((sensitisation_targets s N).filterMap (var_of s)).Nodup) :
    ∃ s', fault_sensitization s N
          (if want = true then ATPGFaultType.STUCK_AT_0 else ATPGFaultType.STUCK_AT_1)
        = Except.ok s'
      ∧ s'.atpg_rr.propagation_queue
          = s.atpg_rr.propagation_queue ++ (sensitisation_targets s N).filterMap (var_of s)
      ∧ (∀ c ∈ sensitisation_targets s N, ∀ lit, lit_of s c = some lit →
          var_value s' lit.var = some (required_value lit want)
          ∧ lit_value lit (required_value lit want) = some want)
      ∧ (∀ v, v ∉ (sensitisation_targets s N).filterMap (var_of s) → s'.vars[v]? = s.vars[v]?)
      ∧ s'.vars.length = s.vars.length
      ∧ s'.nodes = s.nodes
      ∧ s'.atpg_rr.atpg_info_array = s.atpg_rr.atpg_info_array
      ∧ s'.atpg_rr.conflict = s.atpg_rr.conflict := by
  have htg : sensitisation_targets s N
      = if nd.type = NodeType.LITERAL then [N] else participating_literals s nd.child_list := by
    unfold sensitisation_targets
    rw [hn]
  have hfs : fault_sensitization s N
        (if want = true then ATPGFaultType.STUCK_AT_0 else ATPGFaultType.STUCK_AT_1)
      = if nd.type = NodeType.LITERAL then sensitize_literal s N want
        else sensitize_children s want nd.child_list := by
    unfold fault_sensitization
    simp only [get_node_of_getElem hn, ok_bind]
    cases want
    · simp
    · simp
  rw [hfs]
  by_cases ht : nd.type = NodeType.LITERAL
  · rw [if_pos ht] at htg ⊢
    rw [htg] at hvars hnodup ⊢
    obtain ⟨lit, hlo, hlt⟩ := hvars N (List.mem_singleton_self _)
    obtain ⟨nd1, hnd1, _, hndl⟩ := lit_of_some hlo
    rw [hn] at hnd1
    cases hnd1
    have hxs : s.vars[lit.var]? = some (s.vars.get ⟨lit.var, hlt⟩) :=
      List.getElem?_eq_getElem hlt
    have hvo : var_of s N = some lit.var := by
      unfold var_of
      rw [hlo]
      rfl
    rw [sensitize_literal_spec s N want nd lit _ hn hndl hxs]
    refine ⟨_, rfl, ?_, ?_, ?_, ?_, rfl, rfl, rfl⟩
    · rw [List.filterMap_cons, hvo]
      rfl
    · intro c hc l2 hl2
      rw [List.mem_singleton.mp hc, hlo] at hl2
      cases hl2
      refine ⟨?_, lit_value_required _ _⟩
      unfold var_value
      show ((set_var s lit.var _).vars[lit.var]?).map _ = _
      rw [getElem?_set_var, if_pos rfl, hxs]
      rfl
    · intro v hv
      rw [List.filterMap_cons, hvo] at hv
      have hv1 : v ≠ lit.var := fun h => hv (h ▸ List.mem_cons_self _ _)
      show (set_var s lit.var _).vars[v]? = _
      rw [getElem?_set_var, if_neg (fun h => hv1 h.symm)]
    · show (s.vars.set lit.var _).length = _
      rw [List.length_set]
  · rw [if_neg ht] at htg ⊢
    rw [htg, ← leading_literals_eq s _ (hfirst ht)] at hvars hnodup ⊢
    obtain ⟨s', e1, e2, e3, e4, e5, e6, e7, e8, _⟩ :=
      sensitize_children_spec s want nd.child_list s rfl (hchildren ht) hvars
    exact ⟨s', e1, e3, fun c hc lit hl => ⟨e6 hnodup c hc lit hl, lit_value_required _ _⟩,
      e5, e4, e2, e8, e7⟩

/-- C26, witness: the root `OR` of `partial_initialised` (the graph of
`a | x | (b & !a)` in which `x` does not participate) under s-a-1. The only
target is the literal `a` (node 1). -/
theorem C26_fault_sensitisation_witness :
    ∃ s', fault_sensitization partial_initialised 0
          (if false = true then ATPGFaultType.STUCK_AT_0 else ATPGFaultType.STUCK_AT_1)
        = Except.ok s'
      ∧ s'.atpg_rr.propagation_queue
          = partial_initialised.atpg_rr.propagation_queue
            ++ (sensitisation_targets partial_initialised 0).filterMap
                (var_of partial_initialised)
      ∧ (∀ c ∈ sensitisation_targets partial_initialised 0, ∀ lit,
          lit_of partial_initialised c = some lit →
          var_value s' lit.var = some (required_value lit false)
          ∧ lit_value lit (required_value lit false) = some false)
      ∧ (∀ v, v ∉ (sensitisation_targets partial_initialised 0).filterMap
            (var_of partial_initialised) → s'.vars[v]? = partial_initialised.vars[v]?)
      ∧ s'.vars.length = partial_initialised.vars.length
      ∧ s'.nodes = partial_initialised.nodes
      ∧ s'.atpg_rr.atpg_info_array = partial_initialised.atpg_rr.atpg_info_array
      ∧ s'.atpg_rr.conflict = partial_initialised.atpg_rr.conflict := by
  have htg : sensitisation_targets partial_initialised 0 = [1] := rfl
  refine C26_fault_sensitisation partial_initialised 0
    { level := 0, type := NodeType.OR, parent := none, child_list := [1, 2, 3],
      num_children := 3, size_subformula := 6, atpg_info := some 0 } false rfl ?_ ?_ ?_ ?_
  · intro _ c hc
    simp only [List.mem_cons, List.mem_singleton, List.not_mem_nil, or_false] at hc
    rcases hc with rfl | rfl | rfl
    · exact ⟨_, rfl⟩
    · exact ⟨_, rfl⟩
    · exact ⟨_, rfl⟩
  · intro _
    refine ⟨[1, 2], [3], rfl, ?_, ?_⟩
    · intro c hc
      simp only [List.mem_cons, List.mem_singleton, List.not_mem_nil, or_false] at hc
      rcases hc with rfl | rfl
      · rfl
      · rfl
    · intro c hc
      rw [List.mem_singleton.mp hc]
      rfl
  · rw [htg]
    intro c hc
    rw [List.mem_singleton.mp hc]
    exact ⟨⟨0, false⟩, rfl, by decide⟩
  · rw [htg]
    exact List.nodup_singleton _

/-- Claim C27, failing input: the `AND` node 2 of `sample_ready_state` (the
graph of `(a & !a) | b`) has the literal children `a` and `!a`. Its
sensitisation under s-a-0 first assigns `a` true and then, for `!a`,
overwrites it with false: afterwards the conflict flag is not set, the
variable has lost its first value, and it stands twice in the propagation
queue. -/
theorem C27_no_conflict_on_contrary_children :
    (fault_sensitization sample_ready_state 2 ATPGFaultType.STUCK_AT_0).map
        (fun s1 => (s1.atpg_rr.conflict, var_value s1 0, s1.atpg_rr.propagation_queue))
      = Except.ok (false, some VarAssignment.FALSE, [0, 0]) := by
  rfl

/-- Claim C27, what the code does when the assertion
`assert (!var_assigned (var))` (lines 680 and 727) is compiled out:
`fault_sensitization` does not look at the current value of a variable. For
a literal `c` with the literal `lit` whose variable has the record `x`
(assigned or not), the assignment step `sensitize_literal` stores the value
required by `want`, overwriting the old one, and appends the variable to the
propagation queue; and `fault_sensitization` never changes the conflict
flag. -/
theorem C27_sensitisation_overwrites (s : Nenofex) (c : Nat) (want : Bool) (nd : Node)
    (lit : Lit) (x : Var) (hn : s.nodes[c]? = some (some nd)) (hl : nd.lit = some lit)
    (hx : s.vars[lit.var]? = some x) :
    sensitize_literal s c want
        = Except.ok (enqueue_propagation
            (log (set_var s lit.var { x with assignment := required_value lit want })
              (Event.var_assigned lit.var (required_value lit want) s.atpg_rr.prop_cutoff))
            lit.var)
    ∧ ∀ (t : Nenofex) (N : Nat) (ft : ATPGFaultType) (t1 : Nenofex),
        fault_sensitization t N ft = Except.ok t1 → t1.atpg_rr.conflict = t.atpg_rr.conflict :=
  ⟨sensitize_literal_spec s c want nd lit x hn hl hx,
    fun t N ft t1 h => fault_sensitization_conflict t N ft t1 h⟩

/-- C27, witness: the literal `b` (node 1) of `sample_sensitized`, whose
variable is already assigned true, is given the value false. -/
theorem C27_sensitisation_overwrites_witness :
    sensitize_literal sample_sensitized 1 false
        = Except.ok (enqueue_propagation
            (log (set_var sample_sensitized 1
              { assignment := VarAssignment.FALSE, atpg_mark := true,
                subformula_pos_occs := some [4], subformula_neg_occs := some [] })
              (Event.var_assigned 1 VarAssignment.FALSE false))
            1) :=
  (C27_sensitisation_overwrites sample_sensitized 1 false
    { level := 1, type := NodeType.LITERAL, parent := some 0, lit := some ⟨1, false⟩,
      atpg_info := some 4 }
    ⟨1, false⟩
    { assignment := VarAssignment.TRUE, atpg_mark := true, subformula_pos_occs := some [4],
      subformula_neg_occs := some [] } rfl rfl rfl).1

/-! ## Theorems: conflict and cutoff exclude each other -/

theorem not_both_of_cutoff {s : Nenofex} (h : s.atpg_rr.prop_cutoff = false) : not_both s := by
  intro h1
  rw [h] at h1
  exact absurd h1.2 (by decide)

theorem not_both_of_conflict {s : Nenofex} (h : s.atpg_rr.conflict = false) : not_both s := by
  intro h1
  rw [h] at h1
  exact absurd h1.1 (by decide)

theorem eq_false_of_not_true {b : Bool} (h : ¬ b = true) : b = false := by
  cases b with
  | false => rfl
  | true => exact absurd rfl h

theorem node_assign_cf (s : Nenofex) (n : Nat) (v : ATPGAssignment) :
    Tri (node_assign s n v) (fun s1 => s1.atpg_rr.conflict = s.atpg_rr.conflict) := by
  unfold node_assign
  exact Tri_read fun i => Tri_read fun a => Tri_pure rfl

theorem modify_node_info_cf (s : Nenofex) (n : Nat) (f : ATPGInfo → ATPGInfo) :
    Tri (modify_node_info s n f) (fun s1 => s1.atpg_rr.conflict = s.atpg_rr.conflict) := by
  unfold modify_node_info
  exact Tri_read fun i => Tri_read fun a => Tri_pure rfl

theorem collect_assigned_node_cf (s : Nenofex) (n : Nat) :
    Tri (collect_assigned_node s n) (fun s1 => s1.atpg_rr.conflict = s.atpg_rr.conflict) := by
  unfold collect_assigned_node
  exact Tri_read fun i => Tri_read fun a => Tri_ite (fun _ => Tri_pure rfl) (fun _ => Tri_pure rfl)

theorem update_watcher_by_watcher_list_cf (s : Nenofex) (n : Nat) :
    Tri (update_watcher_by_watcher_list s n)
      (fun s1 => s1.atpg_rr.conflict = s.atpg_rr.conflict) := by
  unfold update_watcher_by_watcher_list
  refine Tri_read fun i => Tri_read fun a => Tri_read fun w => Tri_read fun b => ?_
  refine Tri_ite (fun _ => ?_) (fun _ => Tri_pure rfl)
  exact Tri_read fun ch => Tri_read fun pos => Tri_read fun r =>
    Tri_ite (fun _ => Tri_pure rfl) (fun _ => Tri_pure rfl)

theorem update_watcher_by_child_list_cf (s : Nenofex) (n : Nat) :
    Tri (update_watcher_by_child_list s n)
      (fun s1 => s1.atpg_rr.conflict = s.atpg_rr.conflict) := by
  unfold update_watcher_by_child_list
  refine Tri_read fun i => Tri_read fun a => Tri_read fun w => Tri_read fun b => ?_
  exact Tri_ite (fun _ => Tri_read fun after => Tri_read fun w2 => Tri_pure rfl)
    (fun _ => Tri_pure rfl)

theorem update_counter_and_watcher_cf (s : Nenofex) (n : Nat) :
    Tri (update_counter_and_watcher s n)
      (fun s1 => s1.atpg_rr.conflict = s.atpg_rr.conflict) := by
  unfold update_counter_and_watcher
  refine Tri_read fun i => Tri_read fun a => ?_
  split
  · exact update_watcher_by_watcher_list_cf _ _
  · exact update_watcher_by_child_list_cf _ _

theorem forward_assign_cf (s : Nenofex) (n : Nat) (v : ATPGAssignment) :
    Tri (forward_assign s n v) (fun r => r.1.atpg_rr.conflict = s.atpg_rr.conflict) := by
  unfold forward_assign
  refine Tri_bind (node_assign_cf _ _ _) (fun s1 h1 => ?_)
  refine Tri_bind (modify_node_info_cf _ _ _) (fun s2 h2 => ?_)
  refine Tri_bind (collect_assigned_node_cf _ _) (fun s3 h3 => ?_)
  have e3 : s3.atpg_rr.conflict = s.atpg_rr.conflict := h3.trans (h2.trans h1)
  refine Tri_read fun nd => Tri_ite (fun _ => Tri_pure e3) (fun _ => ?_)
  refine Tri_read fun parent => Tri_read fun pa => ?_
  refine Tri_ite (fun _ => ?_) (fun _ => Tri_pure e3)
  refine Tri_bind (update_counter_and_watcher_cf _ _) (fun s4 h4 => ?_)
  exact Tri_bind (collect_assigned_node_cf _ _) (fun s5 h5 => Tri_pure (h5.trans (h4.trans e3)))

theorem set_neg_occs_cf (s : Nenofex) (v : Nat) (o : List Nat) :
    Tri (set_neg_occs s v o) (fun s1 => s1.atpg_rr.conflict = s.atpg_rr.conflict) := by
  unfold set_neg_occs
  exact Tri_read fun x => Tri_pure rfl

theorem set_pos_occs_cf (s : Nenofex) (v : Nat) (o : List Nat) :
    Tri (set_pos_occs s v o) (fun s1 => s1.atpg_rr.conflict = s.atpg_rr.conflict) := by
  unfold set_pos_occs
  exact Tri_read fun x => Tri_pure rfl

theorem backward_propagate_truth_loop_excl {L : Nat} {T : List Event} (fuel : Nat) :
    ∀ s, InvA True L T s → Tri (backward_propagate_truth_loop fuel s) not_both := by
  induction fuel with
  | zero => intro s _; unfold backward_propagate_truth_loop; exact Tri_throw
  | succ fuel ih =>
    intro s hI
    have hE : not_both s := not_both_of_cutoff (hI.2 trivial)
    unfold backward_propagate_truth_loop
    refine Tri_ite (fun _ => Tri_pure hE) (fun hc => ?_)
    have hcf : s.atpg_rr.conflict = false := eq_false_of_not_true hc
    split
    · exact Tri_pure hE
    · exact Tri_pure (not_both_of_conflict hcf)
    · rename_i node rest _
      have h0 : InvA True L T { s with atpg_rr.bwd_prop_stack := rest } := InvA_of_core hI rfl
      obtain ⟨hex, hok, hsum⟩ := @Inv_step True L T _
        (inc_bwd_prop_cnt { s with atpg_rr.bwd_prop_stack := rest })
        (InvA_toB h0) rfl rfl rfl (Or.inr ⟨rfl, rfl⟩)
      refine Tri_ite (fun hx => Tri_pure (not_both_of_conflict hcf)) (fun hx => ?_)
      have h1 := hok (by simpa using hx)
      refine Tri_read fun nd => ?_
      refine Tri_ite (fun _ => ?_) (fun _ => Tri_ite (fun _ => ?_) (fun _ => ?_))
      · exact Tri_bind (backward_literal_inv _ _ h1) (fun s2 h2 => ih s2 h2)
      · refine Tri_bind (node_assign_inv _ _ h1) (fun s2 h2 => ?_)
        refine Tri_bind (Tri_quiet_InvA (collect_assigned_node_core _ _) h2) (fun s3 h3 => ?_)
        refine Tri_bind (Tri_quiet_InvA (push_unassigned_children_core _ _) h3) (fun s4 h4 => ?_)
        refine Tri_bind (Tri_quiet_InvA (modify_node_info_core _ _ _) h4) (fun s5 h5 => ?_)
        exact ih s5 h5
      · refine Tri_bind (node_assign_inv _ _ h1) (fun s2 h2 => ?_)
        refine Tri_bind (Tri_quiet_InvA (collect_assigned_node_core _ _) h2) (fun s3 h3 => ?_)
        refine Tri_read fun a => Tri_ite (fun _ => ?_) (fun _ => ih s3 h3)
        have h4 : InvA True L T
            { s3 with atpg_rr.bwd_prop_stack := a.watcher :: s3.atpg_rr.bwd_prop_stack } :=
          InvA_of_core h3 rfl
        exact Tri_bind (Tri_quiet_InvA (modify_node_info_core _ _ _) h4) (fun s5 h5 => ih s5 h5)

theorem backward_propagate_falsity_loop_excl {L : Nat} {T : List Event} (fuel : Nat) :
    ∀ s, InvA True L T s → Tri (backward_propagate_falsity_loop fuel s) not_both := by
  induction fuel with
  | zero => intro s _; unfold backward_propagate_falsity_loop; exact Tri_throw
  | succ fuel ih =>
    intro s hI
    have hE : not_both s := not_both_of_cutoff (hI.2 trivial)
    unfold backward_propagate_falsity_loop
    refine Tri_ite (fun _ => Tri_pure hE) (fun hc => ?_)
    have hcf : s.atpg_rr.conflict = false := eq_false_of_not_true hc
    split
    · exact Tri_pure hE
    · exact Tri_pure (not_both_of_conflict hcf)
    · rename_i node rest _
      have h0 : InvA True L T { s with atpg_rr.bwd_prop_stack := rest } := InvA_of_core hI rfl
      obtain ⟨hex, hok, hsum⟩ := @Inv_step True L T _
        (inc_bwd_prop_cnt { s with atpg_rr.bwd_prop_stack := rest })
        (InvA_toB h0) rfl rfl rfl (Or.inr ⟨rfl, rfl⟩)
      refine Tri_ite (fun hx => Tri_pure (not_both_of_conflict hcf)) (fun hx => ?_)
      have h1 := hok (by simpa using hx)
      refine Tri_read fun nd => ?_
      refine Tri_ite (fun _ => ?_) (fun _ => Tri_ite (fun _ => ?_) (fun _ => ?_))
      · exact Tri_bind (backward_literal_inv _ _ h1) (fun s2 h2 => ih s2 h2)
      · refine Tri_bind (node_assign_inv _ _ h1) (fun s2 h2 => ?_)
        refine Tri_bind (Tri_quiet_InvA (collect_assigned_node_core _ _) h2) (fun s3 h3 => ?_)
        refine Tri_read fun a => Tri_ite (fun _ => ?_) (fun _ => ih s3 h3)
        have h4 : InvA True L T
            { s3 with atpg_rr.bwd_prop_stack := a.watcher :: s3.atpg_rr.bwd_prop_stack } :=
          InvA_of_core h3 rfl
        exact Tri_bind (Tri_quiet_InvA (modify_node_info_core _ _ _) h4) (fun s5 h5 => ih s5 h5)
      · refine Tri_bind (node_assign_inv _ _ h1) (fun s2 h2 => ?_)
        refine Tri_bind (Tri_quiet_InvA (collect_assigned_node_core _ _) h2) (fun s3 h3 => ?_)
        refine Tri_bind (Tri_quiet_InvA (push_unassigned_children_core _ _) h3) (fun s4 h4 => ?_)
        refine Tri_bind (Tri_quiet_InvA (modify_node_info_core _ _ _) h4) (fun s5 h5 => ?_)
        exact ih s5 h5

theorem backward_propagate_truth_excl {L : Nat} {T : List Event} {s : Nenofex} (fuel : Nat)
    (node : Option Nat) (hI : InvA True L T s) :
    Tri (backward_propagate_truth fuel s node) not_both := by
  unfold backward_propagate_truth
  have h0 : InvA True L T { s with atpg_rr.bwd_prop_stack := node :: s.atpg_rr.bwd_prop_stack } :=
    InvA_of_core hI rfl
  exact Tri_bind (backward_propagate_truth_loop_excl fuel _ h0) (fun s1 h1 => Tri_pure h1)

theorem backward_propagate_falsity_excl {L : Nat} {T : List Event} {s : Nenofex} (fuel : Nat)
    (node : Option Nat) (hI : InvA True L T s) :
    Tri (backward_propagate_falsity fuel s node) not_both := by
  unfold backward_propagate_falsity
  have h0 : InvA True L T { s with atpg_rr.bwd_prop_stack := node :: s.atpg_rr.bwd_prop_stack } :=
    InvA_of_core hI rfl
  exact Tri_bind (backward_propagate_falsity_loop_excl fuel _ h0) (fun s1 h1 => Tri_pure h1)

theorem forward_propagate_excl {L : Nat} {T : List Event} (fuel : Nat) :
    (∀ s node, InvB True L T s → s.atpg_rr.conflict = false →
        Tri (forward_propagate_truth fuel s node) not_both)
    ∧ (∀ s node, InvB True L T s → s.atpg_rr.conflict = false →
        Tri (forward_propagate_falsity fuel s node) not_both) := by
  induction fuel with
  | zero =>
    constructor
    · intro s node _ _; unfold forward_propagate_truth; exact Tri_throw
    · intro s node _ _; unfold forward_propagate_falsity; exact Tri_throw
  | succ fuel ih =>
    obtain ⟨iht, ihf⟩ := ih
    constructor
    · intro s node hI hcf
      unfold forward_propagate_truth
      obtain ⟨hex, hok, _⟩ := @Inv_step True L T _ (inc_fwd_prop_cnt s) hI rfl rfl rfl
        (Or.inl ⟨rfl, rfl⟩)
      refine Tri_ite (fun hx => Tri_pure (not_both_of_conflict hcf)) (fun hx => ?_)
      have h1 := hok (by simpa using hx)
      refine Tri_bind (Tri_and (forward_assign_inv _ _ h1) (forward_assign_cf _ _ _))
        (fun r h2 => ?_)
      obtain ⟨s2, parent?⟩ := r
      obtain ⟨h2, h2c⟩ := h2
      have hc2 : s2.atpg_rr.conflict = false := h2c.trans hcf
      have hE2 : not_both s2 := not_both_of_conflict hc2
      cases parent? with
      | none => exact Tri_pure hE2
      | some parent =>
        refine Tri_read fun pnd => Tri_read fun pa => ?_
        refine Tri_ite (fun _ => ?_) (fun _ => ?_)
        · refine Tri_read fun off_path => ?_
          refine Tri_ite (fun _ => ?_) (fun _ => ?_)
          · refine Tri_ite (fun _ => ?_) (fun _ => Tri_pure hE2)
            refine Tri_bind (Tri_and (backward_propagate_falsity_inv _ _ h2)
              (backward_propagate_falsity_excl _ _ h2)) (fun s3 h3 => ?_)
            refine Tri_read fun pa1 => ?_
            exact Tri_ite (fun hc => ihf s3 parent h3.1 hc.2) (fun _ => Tri_pure h3.2)
          · refine Tri_ite (fun _ => ?_) (fun _ => Tri_pure hE2)
            exact Tri_ite (fun _ => iht s2 parent (InvA_toB h2) hc2) (fun _ => Tri_pure hE2)
        · refine Tri_read fun na => ?_
          refine Tri_ite (fun _ => Tri_pure (not_both_of_cutoff ((set_conflict_inv h2).2 trivial)))
            (fun _ => ?_)
          refine Tri_ite (fun _ => iht s2 parent (InvA_toB h2) hc2) (fun _ => ?_)
          exact Tri_mono (modify_node_info_cf _ _ _) (fun s3 h3 => not_both_of_conflict (h3.trans hc2))
    · intro s node hI hcf
      unfold forward_propagate_falsity
      obtain ⟨hex, hok, _⟩ := @Inv_step True L T _ (inc_fwd_prop_cnt s) hI rfl rfl rfl
        (Or.inl ⟨rfl, rfl⟩)
      refine Tri_ite (fun hx => Tri_pure (not_both_of_conflict hcf)) (fun hx => ?_)
      have h1 := hok (by simpa using hx)
      refine Tri_bind (Tri_and (forward_assign_inv _ _ h1) (forward_assign_cf _ _ _))
        (fun r h2 => ?_)
      obtain ⟨s2, parent?⟩ := r
      obtain ⟨h2, h2c⟩ := h2
      have hc2 : s2.atpg_rr.conflict = false := h2c.trans hcf
      have hE2 : not_both s2 := not_both_of_conflict hc2
      cases parent? with
      | none => exact Tri_pure hE2
      | some parent =>
        refine Tri_read fun pnd => Tri_read fun pa => ?_
        refine Tri_ite (fun _ => ?_) (fun _ => ?_)
        · refine Tri_read fun off_path => ?_
          refine Tri_ite (fun _ => ?_) (fun _ => ?_)
          · refine Tri_ite (fun _ => ?_) (fun _ => Tri_pure hE2)
            refine Tri_bind (Tri_and (backward_propagate_truth_inv _ _ h2)
              (backward_propagate_truth_excl _ _ h2)) (fun s3 h3 => ?_)
            refine Tri_read fun pa1 => ?_
            exact Tri_ite (fun hc => iht s3 parent h3.1 hc.2) (fun _ => Tri_pure h3.2)
          · refine Tri_ite (fun _ => ?_) (fun _ => Tri_pure hE2)
            exact Tri_ite (fun _ => ihf s2 parent (InvA_toB h2) hc2) (fun _ => Tri_pure hE2)
        · refine Tri_read fun na => ?_
          refine Tri_ite (fun _ => Tri_pure (not_both_of_cutoff ((set_conflict_inv h2).2 trivial)))
            (fun _ => ?_)
          refine Tri_ite (fun _ => ihf s2 parent (InvA_toB h2) hc2) (fun _ => ?_)
          exact Tri_mono (modify_node_info_cf _ _ _) (fun s3 h3 => not_both_of_conflict (h3.trans hc2))

theorem propagate_occs_excl {L : Nat} {T : List Event} {fwd : Nenofex → Nat → M Nenofex}
    (hf : ∀ s n, InvB True L T s → Tri (fwd s n) (Inv True L T))
    (he : ∀ s n, InvB True L T s → s.atpg_rr.conflict = false → Tri (fwd s n) not_both)
    (k : Nat) :
    ∀ s elems v_occ v_end removed, InvA True L T s → s.atpg_rr.conflict = false →
      Tri (propagate_occs fwd k s elems v_occ v_end removed)
        (fun r => not_both r.1 ∧ (r.2.2.2.2 = false → r.1.atpg_rr.conflict = false)) := by
  induction k with
  | zero =>
    intro s elems v_occ v_end removed hI hc
    unfold propagate_occs
    exact Tri_pure ⟨not_both_of_conflict hc, fun _ => hc⟩
  | succ k ih =>
    intro s elems v_occ v_end removed hI hc
    unfold propagate_occs
    refine Tri_ite (fun _ => ?_) (fun _ => Tri_pure ⟨not_both_of_conflict hc, fun _ => hc⟩)
    refine Tri_read fun f => Tri_read fun occ => ?_
    refine Tri_ite (fun _ => ?_) (fun _ => ?_)
    · refine Tri_ite (fun _ => ih _ _ _ _ _ hI hc) (fun _ => ?_)
      exact Tri_read fun last => ih _ _ _ _ _ hI hc
    · refine Tri_bind (Tri_and (hf s occ.node (InvA_toB hI)) (he s occ.node (InvA_toB hI) hc))
        (fun s1 h1 => ?_)
      refine Tri_ite (fun _ => Tri_pure ⟨h1.2, fun h => by cases h⟩) (fun hcc => ?_)
      have hc1 : s1.atpg_rr.conflict = false :=
        eq_false_of_not_true (fun h => hcc (Or.inl h))
      have hcut1 : s1.atpg_rr.prop_cutoff = false :=
        eq_false_of_not_true (fun h => hcc (Or.inr h))
      exact ih _ _ _ _ _ ⟨h1.1, fun _ => hcut1⟩ hc1

theorem propagate_variable_excl {L : Nat} {T : List Event}
    {fneg fpos : Nenofex → Nat → M Nenofex}
    (hn : ∀ s n, InvB True L T s → Tri (fneg s n) (Inv True L T))
    (hne : ∀ s n, InvB True L T s → s.atpg_rr.conflict = false → Tri (fneg s n) not_both)
    (hp : ∀ s n, InvB True L T s → Tri (fpos s n) (Inv True L T))
    (hpe : ∀ s n, InvB True L T s → s.atpg_rr.conflict = false → Tri (fpos s n) not_both)
    {s : Nenofex} (v : Nat) (hI : InvA True L T s) (hc : s.atpg_rr.conflict = false) :
    Tri (propagate_variable fneg fpos s v) not_both := by
  unfold propagate_variable
  refine Tri_read fun var => Tri_read fun neg => ?_
  refine Tri_bind (Tri_and (propagate_occs_inv hn _ _ _ _ _ _ hI)
    (propagate_occs_excl hn hne _ _ _ _ _ _ hI hc)) (fun r h1 => ?_)
  obtain ⟨s1, elems, top, removed, early⟩ := r
  obtain ⟨⟨h1i, h1a⟩, h1e, h1c⟩ := h1
  refine Tri_ite (fun _ => ?_) (fun he => ?_)
  · refine Tri_ite (fun _ => ?_) (fun _ => Tri_pure h1e)
    refine Tri_mono (Tri_and (set_neg_occs_core _ _ _) (set_neg_occs_cf _ _ _)) (fun s2 h2 => ?_)
    intro hb
    exact h1e ⟨h2.2 ▸ hb.1, (core_cutoff h2.1) ▸ hb.2⟩
  · have hA : InvA True L T s1 := h1a (by simpa using he)
    have hc1 : s1.atpg_rr.conflict = false := h1c (by simpa using he)
    refine Tri_seq (fun s2 => InvA True L T s2 ∧ s2.atpg_rr.conflict = false) ?_
      (fun s2 h2 => ?_)
    · refine Tri_ite (fun _ => ?_) (fun _ => Tri_pure ⟨hA, hc1⟩)
      exact Tri_mono (Tri_and (set_neg_occs_core _ _ _) (set_neg_occs_cf _ _ _))
        (fun s2 h2 => ⟨InvA_of_core hA h2.1, h2.2.trans hc1⟩)
    refine Tri_read fun var2 => Tri_read fun pos => ?_
    refine Tri_bind (propagate_occs_excl hp hpe _ _ _ _ _ _ h2.1 h2.2) (fun r h3 => ?_)
    obtain ⟨s3, elems3, top3, removed3, early3⟩ := r
    refine Tri_ite (fun _ => ?_) (fun _ => Tri_pure h3.1)
    refine Tri_mono (Tri_and (set_pos_occs_core _ _ _) (set_pos_occs_cf _ _ _)) (fun s4 h4 => ?_)
    intro hb
    exact h3.1 ⟨h4.2 ▸ hb.1, (core_cutoff h4.1) ▸ hb.2⟩

theorem propagate_enqueued_excl {L : Nat} {T : List Event} (fuel : Nat) :
    ∀ s, Inv True L T s → not_both s →
      Tri (propagate_enqueued_variable_assignments fuel s) not_both := by
  induction fuel with
  | zero => intro s _ _; unfold propagate_enqueued_variable_assignments; exact Tri_throw
  | succ fuel ih =>
    intro s hI hE
    unfold propagate_enqueued_variable_assignments
    refine Tri_ite (fun _ => Tri_pure hE) (fun hc => ?_)
    have hcf : s.atpg_rr.conflict = false := eq_false_of_not_true (fun h => hc (Or.inl h))
    have hcut : s.atpg_rr.prop_cutoff = false := eq_false_of_not_true (fun h => hc (Or.inr h))
    split
    · exact Tri_pure hE
    · rename_i v rest _
      have h0 : Inv True L T { s with atpg_rr.propagation_queue := rest } := Inv_of_core hI rfl
      have h1 : Inv True L T (log { s with atpg_rr.propagation_queue := rest }
          (Event.var_dequeued v s.atpg_rr.conflict s.atpg_rr.prop_cutoff)) :=
        Inv_log _ h0 ⟨hcf, hcut⟩ (fun _ => hcut) (fun _ _ => hcut) rfl (fun _ => trivial)
      have h2 : InvA True L T (log { s with atpg_rr.propagation_queue := rest }
          (Event.var_dequeued v s.atpg_rr.conflict s.atpg_rr.prop_cutoff)) :=
        ⟨h1, fun _ => hcut⟩
      have h3 : InvA True L T
          { (log { s with atpg_rr.propagation_queue := rest }
              (Event.var_dequeued v s.atpg_rr.conflict s.atpg_rr.prop_cutoff)) with
            atpg_rr.propagated_vars := v :: s.atpg_rr.propagated_vars } := InvA_of_core h2 rfl
      refine Tri_read fun var => ?_
      refine Tri_seq (fun s2 => Inv True L T s2 ∧ not_both s2) ?_ (fun s2 h4 => ih s2 h4.1 h4.2)
      refine Tri_ite (fun _ => ?_) (fun _ => ?_)
      · exact Tri_and (propagate_variable_inv (forward_propagate_inv fuel).2
            (forward_propagate_inv fuel).1 v h3)
          (propagate_variable_excl (forward_propagate_inv fuel).2 (forward_propagate_excl fuel).2
            (forward_propagate_inv fuel).1 (forward_propagate_excl fuel).1 v h3 hcf)
      · exact Tri_and (propagate_variable_inv (forward_propagate_inv fuel).1
            (forward_propagate_inv fuel).2 v h3)
          (propagate_variable_excl (forward_propagate_inv fuel).1 (forward_propagate_excl fuel).1
            (forward_propagate_inv fuel).2 (forward_propagate_excl fuel).2 v h3 hcf)

theorem test_fault_is_redundant_excl {L : Nat} {T : List Event} {s : Nenofex}
    (fuel n : Nat) (hI : InvA True L T s) :
    Tri (test_fault_is_redundant fuel s n) (fun r => not_both r.1) := by
  unfold test_fault_is_redundant
  refine Tri_read fun ft => ?_
  refine Tri_bind (fault_sensitization_inv _ _ hI) (fun s1 h1 => ?_)
  refine Tri_bind (collect_necessary_off_path_literals_inv _ _ h1) (fun s2 h2 => ?_)
  refine Tri_bind (Tri_quiet_InvA (mark_path_nodes_core _ _ _) h2) (fun s3 h3 => ?_)
  have hE3 : not_both s3 := not_both_of_cutoff (h3.2 trivial)
  refine Tri_ite (fun _ => Tri_pure hE3) (fun _ => Tri_ite (fun _ => ?_) (fun _ => ?_))
  · refine Tri_bind (propagate_enqueued_excl _ _ h3.1 hE3) (fun s4 h4 => ?_)
    exact Tri_ite (fun _ => Tri_pure h4) (fun _ => Tri_pure h4)
  · exact Tri_pure (not_both_of_cutoff (h3.2 trivial))

theorem test_fault_is_redundant_result (fuel : Nat) (s : Nenofex) (n : Nat) :
    Tri (test_fault_is_redundant fuel s n) (fun r => r.2 = r.1.atpg_rr.conflict) := by
  unfold test_fault_is_redundant
  refine Tri_read fun ft => Tri_read fun s1 => Tri_read fun s2 => Tri_read fun s3 => ?_
  refine Tri_ite (fun h => Tri_pure h.symm) (fun h => Tri_ite (fun _ => ?_) (fun _ => ?_))
  · refine Tri_read fun s4 => ?_
    exact Tri_ite (fun h4 => Tri_pure h4.symm) (fun h4 => Tri_pure (eq_false_of_not_true h4).symm)
  · exact Tri_pure (eq_false_of_not_true h).symm

/-! ## Theorems: the outcome of `test_fault_is_redundant` -/

theorem get_info_ok {s : Nenofex} {i : Nat} {a : ATPGInfo} (h : get_info s i = Except.ok a) :
    ∃ arr, s.atpg_rr.atpg_info_array = some arr ∧ arr[i]? = some a := by
  unfold get_info at h
  split at h
  · rename_i arr harr
    exact ⟨arr, harr, deref_ok h⟩
  · cases h

theorem same_assignments_refl (s : Nenofex) : same_assignments s s := ⟨rfl, fun _ => rfl⟩

theorem same_assignments_trans {s s1 s2 : Nenofex} (h1 : same_assignments s s1)
    (h2 : same_assignments s1 s2) : same_assignments s s2 :=
  ⟨h2.1.trans h1.1, fun n => (h2.2 n).trans (h1.2 n)⟩

theorem same_assignments_of_graph {s s1 : Nenofex} (h : same_graph s s1) :
    same_assignments s s1 := by
  refine ⟨h.1, fun n => ?_⟩
  unfold assignment_of node_info info_index get_node get_info
  rw [h.1, h.2]

theorem same_graph_refl (s : Nenofex) : same_graph s s := ⟨rfl, rfl⟩

theorem same_graph_trans {s s1 s2 : Nenofex} (h1 : same_graph s s1) (h2 : same_graph s1 s2) :
    same_graph s s2 := ⟨h2.1.trans h1.1, h2.2.trans h1.2⟩

theorem set_info_same_assignments (s : Nenofex) (i : Nat) (a a1 : ATPGInfo)
    (h : get_info s i = Except.ok a) (ha : a1.assignment = a.assignment) :
    same_assignments s (set_info s i a1) := by
  obtain ⟨arr, harr, hi⟩ := get_info_ok h
  refine ⟨rfl, fun n => ?_⟩
  unfold assignment_of node_info
  have e1 : info_index (set_info s i a1) n = info_index s n := rfl
  rw [e1]
  cases hj : info_index s n with
  | error e => rfl
  | ok j =>
    simp only [ok_bind]
    have e2 : get_info (set_info s i a1) j = deref (arr.set i a1)[j]? := by
      unfold get_info set_info
      simp only [harr, Option.map_some']
    have e3 : get_info s j = deref arr[j]? := by
      unfold get_info
      simp only [harr]
    rw [e2, e3]
    by_cases hji : i = j
    · subst hji
      rw [List.getElem?_set_self (getElem?_lt hi), hi]
      show some a1.assignment = some a.assignment
      rw [ha]
    · rw [List.getElem?_set_ne hji]

theorem modify_node_info_same_assignments (s : Nenofex) (n : Nat) (f : ATPGInfo → ATPGInfo)
    (hf : ∀ a, (f a).assignment = a.assignment) :
    Tri (modify_node_info s n f) (same_assignments s) := by
  unfold modify_node_info
  refine Tri_read fun i => ?_
  intro s1 h1
  obtain ⟨a, ha, h2⟩ := bind_ok.mp h1
  cases h2
  exact set_info_same_assignments s i a (f a) ha (hf a)

theorem collect_fault_path_node_same_assignments (s : Nenofex) (n : Nat) :
    Tri (collect_fault_path_node s n) (same_assignments s) := by
  unfold collect_fault_path_node
  refine Tri_read fun i => ?_
  intro s1 h1
  obtain ⟨a, ha, h2⟩ := bind_ok.mp h1
  split at h2
  · cases h2
    have h3 := set_info_same_assignments s i a { a with fault_path_node_collected := true } ha rfl
    exact ⟨h3.1, h3.2⟩
  · cases h2
    exact same_assignments_refl s

theorem path_nodes_loop_same_assignments (mark collect : Bool) (lvl : Nat) (fuel : Nat) :
    ∀ s n, Tri (path_nodes_loop mark collect lvl fuel s n) (same_assignments s) := by
  induction fuel with
  | zero => intro s n; unfold path_nodes_loop; exact Tri_throw
  | succ fuel ih =>
    intro s n
    unfold path_nodes_loop
    refine Tri_seq (same_assignments s) ?_ (fun s1 h1 => ?_)
    · exact Tri_ite (fun _ => collect_fault_path_node_same_assignments _ _)
        (fun _ => Tri_pure (same_assignments_refl s))
    refine Tri_bind (modify_node_info_same_assignments s1 n _ (fun _ => rfl)) (fun s2 h2 => ?_)
    have h12 := same_assignments_trans h1 h2
    refine Tri_read fun nd => ?_
    split
    · exact Tri_pure h12
    · refine Tri_read fun pnd => Tri_ite (fun _ => ?_) (fun _ => Tri_pure h12)
      exact Tri_mono (ih s2 _) (fun s3 h3 => same_assignments_trans h12 h3)

theorem mark_path_nodes_same_assignments (fuel : Nat) (s : Nenofex) (n : Nat) :
    Tri (mark_path_nodes fuel s n) (same_assignments s) := by
  unfold mark_path_nodes
  exact Tri_read fun lca => Tri_read fun lnd => path_nodes_loop_same_assignments _ _ _ _ _ _

theorem var_assign_graph (s : Nenofex) (v : Nat) (x : VarAssignment) :
    Tri (var_assign s v x) (same_graph s) := by
  unfold var_assign
  exact Tri_read fun var => Tri_pure ⟨rfl, rfl⟩

theorem sensitize_literal_graph (s : Nenofex) (n : Nat) (want : Bool) :
    Tri (sensitize_literal s n want) (same_graph s) := by
  unfold sensitize_literal
  refine Tri_read fun nd => Tri_read fun lit => ?_
  exact Tri_bind (var_assign_graph _ _ _) (fun s1 h1 => Tri_pure ⟨h1.1, h1.2⟩)

theorem sensitize_children_graph (want : Bool) :
    ∀ (l : List Nat) (s : Nenofex), Tri (sensitize_children s want l) (same_graph s) := by
  intro l
  induction l with
  | nil =>
    intro s
    unfold sensitize_children
    exact Tri_pure (same_graph_refl s)
  | cons c rest ih =>
    intro s
    unfold sensitize_children
    refine Tri_read fun cnd => Tri_ite (fun _ => ?_) (fun _ => Tri_pure (same_graph_refl s))
    split
    · exact ih s
    · exact Tri_bind (sensitize_literal_graph s c want)
        (fun s1 h1 => Tri_mono (ih s1) (fun s2 h2 => same_graph_trans h1 h2))

theorem fault_sensitization_graph (s : Nenofex) (n : Nat) (ft : ATPGFaultType) :
    Tri (fault_sensitization s n ft) (same_graph s) := by
  unfold fault_sensitization
  refine Tri_read fun nd => Tri_ite (fun _ => ?_) (fun _ => ?_)
  · exact Tri_ite (fun _ => sensitize_literal_graph _ _ _)
      (fun _ => sensitize_children_graph _ _ _)
  · exact Tri_ite (fun _ => sensitize_literal_graph _ _ _)
      (fun _ => sensitize_children_graph _ _ _)

theorem collect_necessary_off_path_literal_graph (s : Nenofex) (n : Nat) (want : Bool) :
    Tri (collect_necessary_off_path_literal s n want) (same_graph s) := by
  unfold collect_necessary_off_path_literal
  refine Tri_read fun nd => Tri_read fun lit => Tri_read fun var => ?_
  refine Tri_ite (fun _ => Tri_pure ⟨rfl, rfl⟩) (fun _ => Tri_ite (fun _ => ?_)
    (fun _ => Tri_pure (same_graph_refl s)))
  exact Tri_bind (var_assign_graph _ _ _) (fun s1 h1 => Tri_pure ⟨h1.1, h1.2⟩)

theorem collect_off_path_children_graph (want : Bool) (skip : Option Nat) :
    ∀ (l : List Nat) (s : Nenofex),
      Tri (collect_off_path_children s want skip l) (same_graph s) := by
  intro l
  induction l with
  | nil =>
    intro s
    unfold collect_off_path_children
    exact Tri_pure (same_graph_refl s)
  | cons c rest ih =>
    intro s
    unfold collect_off_path_children
    refine Tri_read fun cnd => Tri_ite (fun _ => ?_) (fun _ => Tri_pure (same_graph_refl s))
    refine Tri_ite (fun _ => ih s) (fun _ => ?_)
    exact Tri_bind (collect_necessary_off_path_literal_graph s c want)
      (fun s1 h1 => Tri_mono (ih s1) (fun s2 h2 => same_graph_trans h1 h2))

theorem collect_off_path_loop_graph (top : Nat) (fuel : Nat) :
    ∀ (s : Nenofex) (cur : Option Nat),
      Tri (collect_off_path_loop top fuel s cur) (same_graph s) := by
  induction fuel with
  | zero => intro s cur; unfold collect_off_path_loop; exact Tri_throw
  | succ fuel ih =>
    intro s cur
    unfold collect_off_path_loop
    split
    · exact Tri_pure (same_graph_refl s)
    · refine Tri_read fun cnd => Tri_ite (fun _ => ?_) (fun _ => Tri_pure (same_graph_refl s))
      exact Tri_bind (collect_off_path_children_graph _ _ _ s)
        (fun s1 h1 => Tri_mono (ih s1 _) (fun s2 h2 => same_graph_trans h1 h2))

theorem collect_necessary_off_path_literals_graph (fuel : Nat) (s : Nenofex) (n : Nat) :
    Tri (collect_necessary_off_path_literals fuel s n) (same_graph s) := by
  unfold collect_necessary_off_path_literals
  refine Tri_ite (fun _ => Tri_pure (same_graph_refl s)) (fun _ => ?_)
  refine Tri_read fun nd => Tri_read fun cur => Tri_read fun cnd => ?_
  refine Tri_bind (collect_off_path_children_graph _ _ _ s) (fun s1 h1 => ?_)
  refine Tri_read fun lca => Tri_read fun lnd => ?_
  exact Tri_mono (collect_off_path_loop_graph _ _ s1 _) (fun s2 h2 => same_graph_trans h1 h2)

theorem test_fault_setup_same_assignments (fuel : Nat) (s : Nenofex) (n : Nat) :
    Tri (test_fault_setup fuel s n) (same_assignments s) := by
  unfold test_fault_setup
  refine Tri_read fun ft => ?_
  refine Tri_bind (fault_sensitization_graph _ _ _) (fun s1 h1 => ?_)
  refine Tri_bind (collect_necessary_off_path_literals_graph _ _ _) (fun s2 h2 => ?_)
  exact Tri_mono (mark_path_nodes_same_assignments _ _ _)
    (fun s3 h3 => same_assignments_trans (same_assignments_of_graph (same_graph_trans h1 h2)) h3)

theorem test_fault_is_redundant_eq (fuel : Nat) (s : Nenofex) (n : Nat) :
    test_fault_is_redundant fuel s n
      = test_fault_setup fuel s n >>= fun s =>
          if s.atpg_rr.conflict = true then pure (s, true)
          else if s.atpg_rr.propagation_queue.length ≠ 0 then
            propagate_enqueued_variable_assignments fuel s >>= fun s =>
              if s.atpg_rr.conflict = true then pure (s, true) else pure (s, false)
          else
            pure ({ s with atpg_rr.restricted_clean_up := true }, false) := by
  unfold test_fault_is_redundant test_fault_setup
  simp only [bind_assoc]

/-! ## Theorems: the redundancy test does not run out of fuel -/

theorem get_node_fin_eq (s : Nenofex) (n : Nat) :
    Fin (get_node s n) (fun nd => s.nodes[n]? = some (some nd)) :=
  Fin_tri (get_node_fin s n) (fun _ h => get_node_ok h)

theorem level_of_eq {s : Nenofex} {n : Nat} {nd : Node} (h : s.nodes[n]? = some (some nd)) :
    level_of s n = nd.level := by
  unfold level_of
  rw [h]

theorem level_of_nodes {s s1 : Nenofex} (h : s1.nodes = s.nodes) (n : Nat) :
    level_of s1 n = level_of s n := by
  unfold level_of
  rw [h]

theorem levels_decrease_nodes {s s1 : Nenofex} (h : s1.nodes = s.nodes)
    (hl : levels_decrease s) : levels_decrease s1 := by
  unfold levels_decrease
  rw [h]
  exact hl

theorem modify_node_info_fin (s : Nenofex) (n : Nat) (f : ATPGInfo → ATPGInfo) :
    Fin (modify_node_info s n f) (fun s1 => s1.nodes = s.nodes) := by
  unfold modify_node_info
  exact Fin_read (info_index_fin _ _) fun i => Fin_read (get_info_fin _ _) fun a => Fin_pure rfl

theorem collect_fault_path_node_fin (s : Nenofex) (n : Nat) :
    Fin (collect_fault_path_node s n) (fun s1 => s1.nodes = s.nodes) := by
  unfold collect_fault_path_node
  exact Fin_read (info_index_fin _ _) fun i => Fin_read (get_info_fin _ _) fun a =>
    Fin_ite (fun _ => Fin_pure rfl) (fun _ => Fin_pure rfl)

theorem path_nodes_loop_fin (mark collect : Bool) (lvl : Nat) (fuel : Nat) :
    ∀ s n, levels_decrease s → level_of s n < fuel →
      Fin (path_nodes_loop mark collect lvl fuel s n) (fun _ => True) := by
  induction fuel with
  | zero => intro s n _ h; exact absurd h (Nat.not_lt_zero _)
  | succ fuel ih =>
    intro s n hl hf
    unfold path_nodes_loop
    refine Fin_seq (fun s1 => s1.nodes = s.nodes) ?_ (fun s1 h1 => ?_)
    · exact Fin_ite (fun _ => collect_fault_path_node_fin _ _) (fun _ => Fin_pure rfl)
    refine Fin_bind (modify_node_info_fin s1 n _) (fun s2 h2 => ?_)
    have h12 : s2.nodes = s.nodes := h2.trans h1
    refine Fin_bind (get_node_fin_eq s2 n) (fun nd hnd => ?_)
    split
    · exact Fin_pure trivial
    · rename_i parent hp
      refine Fin_bind (get_node_fin_eq s2 parent) (fun pnd hpnd => ?_)
      refine Fin_ite (fun _ => ?_) (fun _ => Fin_pure trivial)
      refine ih s2 parent (levels_decrease_nodes h12 hl) ?_
      have e1 := levels_decrease_nodes h12 hl n nd parent pnd hnd hp hpnd
      rw [level_of_eq hpnd]
      rw [← level_of_nodes h12, level_of_eq hnd] at hf
      omega

theorem mark_path_nodes_fin (fuel : Nat) (s : Nenofex) (n : Nat) (hl : levels_decrease s)
    (hf : level_of s n < fuel) : Fin (mark_path_nodes fuel s n) (fun _ => True) := by
  unfold mark_path_nodes
  exact Fin_read (deref_fin _) fun lca => Fin_read (get_node_fin _ _) fun lnd =>
    path_nodes_loop_fin _ _ _ _ _ _ hl hf

theorem var_assign_fin (s : Nenofex) (v : Nat) (x : VarAssignment) :
    Fin (var_assign s v x) (fun _ => True) := by
  unfold var_assign
  exact Fin_read (get_var_fin _ _) fun var => Fin_pure trivial

theorem sensitize_literal_fin (s : Nenofex) (n : Nat) (want : Bool) :
    Fin (sensitize_literal s n want) (fun _ => True) := by
  unfold sensitize_literal
  refine Fin_read (get_node_fin _ _) fun nd => Fin_read (deref_fin _) fun lit => ?_
  exact Fin_read (var_assign_fin _ _ _) fun s1 => Fin_pure trivial

theorem sensitize_children_fin (want : Bool) :
    ∀ (l : List Nat) (s : Nenofex), Fin (sensitize_children s want l) (fun _ => True) := by
  intro l
  induction l with
  | nil =>
    intro s
    unfold sensitize_children
    exact Fin_pure trivial
  | cons c rest ih =>
    intro s
    unfold sensitize_children
    refine Fin_read (get_node_fin _ _) fun cnd => Fin_ite (fun _ => ?_) (fun _ => Fin_pure trivial)
    split
    · exact ih s
    · exact Fin_read (sensitize_literal_fin s c want) fun s1 => ih s1

theorem fault_sensitization_fin (s : Nenofex) (n : Nat) (ft : ATPGFaultType) :
    Fin (fault_sensitization s n ft) (fun _ => True) := by
  unfold fault_sensitization
  refine Fin_read (get_node_fin _ _) fun nd => Fin_ite (fun _ => ?_) (fun _ => ?_)
  · exact Fin_ite (fun _ => sensitize_literal_fin _ _ _) (fun _ => sensitize_children_fin _ _ _)
  · exact Fin_ite (fun _ => sensitize_literal_fin _ _ _) (fun _ => sensitize_children_fin _ _ _)

theorem fault_type_of_fin (s : Nenofex) (n : Nat) :
    Fin (fault_type_of s n) (fun _ => True) := by
  unfold fault_type_of
  refine Fin_read (get_node_fin _ _) fun nd => ?_
  split
  · exact Fin_pure trivial
  · exact Fin_read (get_node_fin _ _) fun pnd => Fin_pure trivial

theorem collect_necessary_off_path_literal_fin (s : Nenofex) (n : Nat) (want : Bool) :
    Fin (collect_necessary_off_path_literal s n want) (fun _ => True) := by
  unfold collect_necessary_off_path_literal
  refine Fin_read (get_node_fin _ _) fun nd => Fin_read (deref_fin _) fun lit =>
    Fin_read (get_var_fin _ _) fun var => ?_
  refine Fin_ite (fun _ => Fin_pure trivial) (fun _ => Fin_ite (fun _ => ?_)
    (fun _ => Fin_pure trivial))
  exact Fin_read (var_assign_fin _ _ _) fun s1 => Fin_pure trivial

theorem collect_off_path_children_fin (want : Bool) (skip : Option Nat) :
    ∀ (l : List Nat) (s : Nenofex),
      Fin (collect_off_path_children s want skip l) (fun _ => True) := by
  intro l
  induction l with
  | nil =>
    intro s
    unfold collect_off_path_children
    exact Fin_pure trivial
  | cons c rest ih =>
    intro s
    unfold collect_off_path_children
    refine Fin_read (get_node_fin _ _) fun cnd => Fin_ite (fun _ => ?_) (fun _ => Fin_pure trivial)
    refine Fin_ite (fun _ => ih s) (fun _ => ?_)
    exact Fin_read (collect_necessary_off_path_literal_fin s c want) fun s1 => ih s1

theorem collect_off_path_loop_fin (top : Nat) (fuel : Nat) :
    ∀ (s : Nenofex) (cur : Option Nat), levels_decrease s → 0 < fuel →
      (∀ c nd, cur = some c → s.nodes[c]? = some (some nd) → nd.level + 1 < fuel) →
      Fin (collect_off_path_loop top fuel s cur) (fun _ => True) := by
  induction fuel with
  | zero => intro s cur _ h _; exact absurd h (Nat.lt_irrefl _)
  | succ fuel ih =>
    intro s cur hl _ hf
    unfold collect_off_path_loop
    split
    · exact Fin_pure trivial
    · rename_i c
      refine Fin_bind (get_node_fin_eq s c) (fun cnd hc => ?_)
      refine Fin_ite (fun _ => ?_) (fun _ => Fin_pure trivial)
      refine Fin_bind (Fin_tri (collect_off_path_children_fin _ _ _ s)
        (collect_off_path_children_graph _ _ _ s)) (fun s1 h1 => ?_)
      have hlc := hf c cnd rfl hc
      have hpos : 0 < fuel := by omega
      refine ih s1 cnd.parent (levels_decrease_nodes h1.1 hl) hpos ?_
      intro p pnd hpar hp
      rw [h1.1] at hp
      have := hl c cnd p pnd hc hpar hp
      omega

theorem collect_necessary_off_path_literals_fin (fuel : Nat) (s : Nenofex) (n : Nat)
    (hl : levels_decrease s) (hf : level_of s n < fuel) :
    Fin (collect_necessary_off_path_literals fuel s n) (fun _ => True) := by
  unfold collect_necessary_off_path_literals
  refine Fin_ite (fun _ => Fin_pure trivial) (fun _ => ?_)
  refine Fin_bind (get_node_fin_eq s n) (fun nd hn => ?_)
  refine Fin_bind (Fin_tri (deref_fin _) (fun cur h => deref_ok h)) (fun cur hcur => ?_)
  refine Fin_bind (get_node_fin_eq s cur) (fun cnd hc => ?_)
  refine Fin_bind (Fin_tri (collect_off_path_children_fin _ _ _ s)
    (collect_off_path_children_graph _ _ _ s)) (fun s1 h1 => ?_)
  refine Fin_read (deref_fin _) fun lca => Fin_read (get_node_fin _ _) fun lnd => ?_
  rw [level_of_eq hn] at hf
  have h2 := hl n nd cur cnd hn hcur hc
  refine collect_off_path_loop_fin _ _ s1 _ (levels_decrease_nodes h1.1 hl) (by omega) ?_
  intro p pnd hpar hp
  rw [h1.1] at hp
  have := hl cur cnd p pnd hc hpar hp
  omega

theorem test_fault_setup_fin (fuel : Nat) (s : Nenofex) (n : Nat)
    (hl : levels_decrease s) (hf : level_of s n < fuel) :
    Fin (test_fault_setup fuel s n) (fun _ => True) := by
  unfold test_fault_setup
  refine Fin_read (fault_type_of_fin _ _) fun ft => ?_
  refine Fin_bind (Fin_tri (fault_sensitization_fin _ _ _) (fault_sensitization_graph _ _ _))
    (fun s1 h1 => ?_)
  refine Fin_bind (Fin_tri (collect_necessary_off_path_literals_fin fuel s1 n
      (levels_decrease_nodes h1.1 hl) (by rw [level_of_nodes h1.1]; exact hf))
    (collect_necessary_off_path_literals_graph _ _ _)) (fun s2 h2 => ?_)
  exact mark_path_nodes_fin fuel s2 n (levels_decrease_nodes (h2.1.trans h1.1) hl)
    (by rw [level_of_nodes (h2.1.trans h1.1)]; exact hf)

theorem test_fault_setup_inv {b : Prop} {L : Nat} {T : List Event} {s : Nenofex}
    (fuel n : Nat) (hI : InvA b L T s) :
    Tri (test_fault_setup fuel s n) (InvA b L T) := by
  unfold test_fault_setup
  refine Tri_read fun ft => ?_
  refine Tri_bind (fault_sensitization_inv _ _ hI) (fun s1 h1 => ?_)
  refine Tri_bind (collect_necessary_off_path_literals_inv _ _ h1) (fun s2 h2 => ?_)
  exact Tri_quiet_InvA (mark_path_nodes_core _ _ _) h2

theorem fault_type_of_spec (s : Nenofex) (N : Nat) (nd : Node)
    (hn : s.nodes[N]? = some (some nd)) :
    (∀ p pnd, nd.parent = some p → s.nodes[p]? = some (some pnd) →
        fault_type_of s N = Except.ok
          (if pnd.type = NodeType.OR then ATPGFaultType.STUCK_AT_0
           else ATPGFaultType.STUCK_AT_1))
    ∧ (nd.parent = none →
        fault_type_of s N = Except.ok
          (if nd.type = NodeType.OR then ATPGFaultType.STUCK_AT_1
           else ATPGFaultType.STUCK_AT_0)) := by
  refine ⟨fun p pnd hp hpn => ?_, fun hp => ?_⟩
  · unfold fault_type_of
    simp only [get_node_of_getElem hn, ok_bind, hp, get_node_of_getElem hpn]
    rfl
  · unfold fault_type_of
    simp only [get_node_of_getElem hn, ok_bind, hp]
    rfl

theorem test_fault_is_redundant_fin (fuel : Nat) (s : Nenofex) (N : Nat)
    (hw : active_limit s + 2 < UINT_MOD) (hcut : s.atpg_rr.prop_cutoff = false)
    (hsum : step_sum s ≤ active_limit s) (hl : levels_decrease s) (hf : level_of s N < fuel)
    (hq : ∀ sm, test_fault_setup fuel s N = Except.ok sm →
      sm.atpg_rr.propagation_queue.length + (active_limit s + 3 - step_sum sm) ≤ fuel) :
    test_fault_is_redundant fuel s N ≠ Except.error Err.fuel := by
  have hI : InvA True (active_limit s) s.atpg_rr.trace s :=
    ⟨⟨rfl, ⟨[], (List.append_nil _).symm, ⟨fun _ h => (nomatch h), List.Pairwise.nil,
      fun _ _ h => (nomatch h), fun _ _ h => (nomatch h)⟩⟩,
      fun _ => ⟨hw, Or.inl ⟨hcut, hsum⟩⟩⟩, fun _ => hcut⟩
  rw [test_fault_is_redundant_eq]
  have h1 := test_fault_setup_fin fuel s N hl hf
  cases hp : test_fault_setup fuel s N with
  | error e =>
    intro h
    apply h1.1
    rw [hp]
    cases h
    rfl
  | ok sm =>
    rw [ok_bind]
    have hIm : InvA True (active_limit s) s.atpg_rr.trace sm := test_fault_setup_inv fuel N hI sm hp
    split
    · intro h; cases h
    · split
      · have h2 := (propagate_enqueued_fin fuel sm hIm.1 (hq sm hp)).1
        cases hpr : propagate_enqueued_variable_assignments fuel sm with
        | error e =>
          intro h
          apply h2
          rw [hpr]
          cases h
          rfl
        | ok s4 =>
          rw [ok_bind]
          split
          · intro h; cases h
          · intro h; cases h
      · intro h; cases h

/-- C29 (outcome of a redundancy test). Let `N` be an existing node and let
the pass be within its budget `L` (no cutoff, counters at most `L`,
`L + 2 < 2 ^ 32`). (1) Whenever `test_fault_is_redundant` returns, the result
is non-zero iff the conflict flag is then set, and a run that ends with the
cutoff flag set returns 0. (2) If sensitisation, off-path collection and path
marking (`test_fault_setup`) end without conflict and with an empty
propagation queue, the test returns 0 with `restricted_clean_up` set, and no
node has been assigned. (3) The stuck-at type used is s-a-0 under an `OR`
parent and s-a-1 otherwise (an `AND` parent); for a parentless node it is
s-a-1 for an `OR` and s-a-0 otherwise. (4) The test is the prefix followed by
the propagation. (5) If levels decrease towards the root, the fuel exceeds
the level of `N` and covers the queue length plus the remaining budget, the
test does not run out of fuel. -/
theorem C29_outcome_of_redundancy_test (fuel : Nat) (s : Nenofex) (N : Nat) (nd : Node)
    (hn : s.nodes[N]? = some (some nd))
    (hw : active_limit s + 2 < UINT_MOD) (hcut : s.atpg_rr.prop_cutoff = false)
    (hsum : step_sum s ≤ active_limit s) :
    (∀ s1 r, test_fault_is_redundant fuel s N = Except.ok (s1, r) →
        (r = true ↔ s1.atpg_rr.conflict = true)
        ∧ (s1.atpg_rr.prop_cutoff = true → r = false))
    ∧ (∀ sm, test_fault_setup fuel s N = Except.ok sm → sm.atpg_rr.conflict = false →
        sm.atpg_rr.propagation_queue = [] →
        test_fault_is_redundant fuel s N
            = Except.ok ({ sm with atpg_rr.restricted_clean_up := true }, false)
        ∧ same_assignments s sm)
    ∧ (∀ p pnd, nd.parent = some p → s.nodes[p]? = some (some pnd) →
        fault_type_of s N = Except.ok
          (if pnd.type = NodeType.OR then ATPGFaultType.STUCK_AT_0
           else ATPGFaultType.STUCK_AT_1))
    ∧ (nd.parent = none →
        fault_type_of s N = Except.ok
          (if nd.type = NodeType.OR then ATPGFaultType.STUCK_AT_1
           else ATPGFaultType.STUCK_AT_0))
    ∧ test_fault_is_redundant fuel s N
        = (test_fault_setup fuel s N >>= fun s =>
            if s.atpg_rr.conflict = true then pure (s, true)
            else if s.atpg_rr.propagation_queue.length ≠ 0 then
              propagate_enqueued_variable_assignments fuel s >>= fun s =>
                if s.atpg_rr.conflict = true then pure (s, true) else pure (s, false)
            else
              pure ({ s with atpg_rr.restricted_clean_up := true }, false))
    ∧ (levels_decrease s → nd.level < fuel →
        (∀ sm, test_fault_setup fuel s N = Except.ok sm →
          sm.atpg_rr.propagation_queue.length + (active_limit s + 3 - step_sum sm) ≤ fuel) →
        test_fault_is_redundant fuel s N ≠ Except.error Err.fuel) := by
  have hI : InvA True (active_limit s) s.atpg_rr.trace s :=
    ⟨⟨rfl, ⟨[], (List.append_nil _).symm, ⟨fun _ h => (nomatch h), List.Pairwise.nil,
      fun _ _ h => (nomatch h), fun _ _ h => (nomatch h)⟩⟩,
      fun _ => ⟨hw, Or.inl ⟨hcut, hsum⟩⟩⟩, fun _ => hcut⟩
  refine ⟨fun s1 r h => ?_, fun sm hp hc hq => ?_, (fault_type_of_spec s N nd hn).1,
    (fault_type_of_spec s N nd hn).2, test_fault_is_redundant_eq fuel s N, fun hl hf hq => ?_⟩
  · have h1 : r = s1.atpg_rr.conflict := test_fault_is_redundant_result fuel s N (s1, r) h
    have h2 : not_both s1 := test_fault_is_redundant_excl fuel N hI (s1, r) h
    refine ⟨by rw [h1], fun hct => ?_⟩
    rw [h1]
    exact eq_false_of_not_true (fun hcf => h2 ⟨hcf, hct⟩)
  · refine ⟨?_, test_fault_setup_same_assignments fuel s N sm hp⟩
    rw [test_fault_is_redundant_eq, hp, ok_bind, if_neg (by rw [hc]; decide),
      if_neg (by rw [hq]; simp)]
    rfl
  · exact test_fault_is_redundant_fin fuel s N hw hcut hsum hl
      (by rw [level_of_eq hn]; exact hf) hq

set_option maxRecDepth 100000 in
/-- C29, witness: the test of the literal `b` (node 1, a child of the root
`OR`) in `sample_ready_state`, the prepared pass on `(a & !a) | b`, with the
table budget 1500000. -/
theorem C29_outcome_of_redundancy_test_witness :
    active_limit sample_ready_state = 1500000
    ∧ step_sum sample_ready_state = 0
    ∧ fault_type_of sample_ready_state 1 = Except.ok ATPGFaultType.STUCK_AT_0
    ∧ (∀ s1 r, test_fault_is_redundant 20 sample_ready_state 1 = Except.ok (s1, r) →
        (r = true ↔ s1.atpg_rr.conflict = true)
        ∧ (s1.atpg_rr.prop_cutoff = true → r = false)) := by
  have hl : active_limit sample_ready_state = 1500000 := rfl
  have h0 : step_sum sample_ready_state = 0 := rfl
  have h := C29_outcome_of_redundancy_test 20 sample_ready_state 1
    { level := 1, type := NodeType.LITERAL, parent := some 0, lit := some ⟨1, false⟩,
      atpg_info := some 4 } rfl
    (by rw [hl]; unfold UINT_MOD; omega) rfl (by rw [h0]; exact Nat.zero_le _)
  exact ⟨hl, h0, h.2.2.1 0
    { level := 0, type := NodeType.OR, parent := none, child_list := [1, 2],
      num_children := 2, size_subformula := 5, atpg_info := some 0 } rfl rfl, h.1⟩

/-! ## Theorems: `find_highest_implication_on_path` -/

theorem assignment_of_eq {s : Nenofex} {n : Nat} {a : ATPGInfo}
    (h : node_info s n = Except.ok a) : assignment_of s n = some a.assignment := by
  unfold assignment_of
  rw [h]

theorem highest_match_spec (s : Nenofex) (v : ATPGAssignment) :
    ∀ (l : List Nat) (hi : Option Nat) (H : Nat), highest_match s v hi l = some H →
      (hi = some H ∧ ∀ n ∈ l, assignment_of s n ≠ some v)
      ∨ ∃ l1 l2, l = l1 ++ H :: l2 ∧ assignment_of s H = some v
          ∧ ∀ n ∈ l2, assignment_of s n ≠ some v := by
  intro l
  induction l with
  | nil =>
    intro hi H h
    exact Or.inl ⟨h, fun _ hn => (nomatch hn)⟩
  | cons c rest ih =>
    intro hi H h
    rw [highest_match] at h
    by_cases hc : assignment_of s c = some v
    · rw [if_pos hc] at h
      rcases ih _ H h with ⟨h1, h2⟩ | ⟨l1, l2, h1, h2, h3⟩
      · cases h1
        exact Or.inr ⟨[], rest, rfl, hc, h2⟩
      · exact Or.inr ⟨c :: l1, l2, by rw [h1]; rfl, h2, h3⟩
    · rw [if_neg hc] at h
      rcases ih _ H h with ⟨h1, h2⟩ | ⟨l1, l2, h1, h2, h3⟩
      · refine Or.inl ⟨h1, fun n hn => ?_⟩
        rcases List.mem_cons.mp hn with rfl | hn
        · exact hc
        · exact h2 n hn
      · exact Or.inr ⟨c :: l1, l2, by rw [h1]; rfl, h2, h3⟩

theorem highest_match_some (s : Nenofex) (v : ATPGAssignment) :
    ∀ (l : List Nat) (c : Nat), ∃ H, highest_match s v (some c) l = some H := by
  intro l
  induction l with
  | nil => intro c; exact ⟨c, rfl⟩
  | cons d rest ih =>
    intro c
    rw [highest_match]
    split
    · exact ih d
    · exact ih c

theorem highest_match_none (s : Nenofex) (v : ATPGAssignment) :
    ∀ (l : List Nat), highest_match s v none l = none →
      ∀ n ∈ l, assignment_of s n ≠ some v := by
  intro l
  induction l with
  | nil => intro _ n hn; cases hn
  | cons c rest ih =>
    intro h n hn
    rw [highest_match] at h
    by_cases hc : assignment_of s c = some v
    · rw [if_pos hc] at h
      obtain ⟨H, hH⟩ := highest_match_some s v rest c
      rw [hH] at h
      cases h
    · rw [if_neg hc] at h
      rcases List.mem_cons.mp hn with rfl | hn
      · exact hc
      · exact ih h n hn

theorem highest_implication_loop_spec (s : Nenofex) (top : Nat) (v : ATPGAssignment) :
    ∀ (l : List Nat) (cur : Nat) (hi : Option Nat) (fuel : Nat),
      upward_chain s top (cur :: l) → (∀ n ∈ cur :: l, ∃ a, node_info s n = Except.ok a) →
      l.length < fuel →
      highest_implication_loop top v fuel s cur hi
        = Except.ok (highest_match s v hi (cur :: l)) := by
  intro l
  induction l with
  | nil =>
    intro cur hi fuel hch hinfo hf
    obtain ⟨f, rfl⟩ : ∃ f, fuel = f + 1 := ⟨fuel - 1, by simp at hf; omega⟩
    obtain ⟨a, ha⟩ := hinfo cur (List.mem_cons_self _ _)
    obtain ⟨nd, hnd, hpar⟩ := hch
    rw [highest_implication_loop]
    simp only [ha, ok_bind, get_node_of_getElem hnd, highest_match, assignment_of_eq ha,
      Option.some.injEq]
    rcases hpar with hp | ⟨p, pnd, hp, hpn, hlt⟩
    · simp only [hp]
      rfl
    · simp only [hp, get_node_of_getElem hpn, ok_bind, ge_iff_le, Nat.not_le.mpr hlt, if_false]
      rfl
  | cons p rest ih =>
    intro cur hi fuel hch hinfo hf
    obtain ⟨f, rfl⟩ : ∃ f, fuel = f + 1 := ⟨fuel - 1, by simp at hf; omega⟩
    obtain ⟨a, ha⟩ := hinfo cur (List.mem_cons_self _ _)
    obtain ⟨⟨nd, pnd, hnd, hp, hpn, hle⟩, hrest⟩ := hch
    rw [highest_implication_loop]
    simp only [ha, ok_bind, get_node_of_getElem hnd, hp, get_node_of_getElem hpn, ge_iff_le,
      hle, if_true]
    rw [ih p _ f hrest (fun n hn => hinfo n (List.mem_cons_of_mem _ hn))
      (by simp at hf; omega)]
    conv_rhs => rw [highest_match, assignment_of_eq ha]
    simp only [Option.some.injEq]

theorem all_children_atpg_relevant_spec (s : Nenofex) :
    ∀ l : List Nat, (∀ c ∈ l, ∃ cnd, s.nodes[c]? = some (some cnd)) →
      all_children_atpg_relevant s l = Except.ok (l.all (has_info s)) := by
  intro l
  induction l with
  | nil => intro _; rfl
  | cons c rest ih =>
    intro h
    obtain ⟨cnd, hc⟩ := h c (List.mem_cons_self _ _)
    rw [all_children_atpg_relevant]
    simp only [get_node_of_getElem hc, ok_bind, List.all_cons]
    have hi : has_info s c = cnd.atpg_info.isSome := by
      unfold has_info
      rw [hc]
    rw [hi]
    cases hai : cnd.atpg_info with
    | none => rfl
    | some i =>
      simp only [Option.isSome_some, Bool.true_and]
      exact ih (fun d hd => h d (List.mem_cons_of_mem _ hd))

theorem upward_chain_level (s : Nenofex) (top : Nat) :
    ∀ (l : List Nat) (c : Nat), upward_chain s top (c :: l) → ∀ n ∈ l, top ≤ level_of s n := by
  intro l
  induction l with
  | nil => intro c _ n hn; cases hn
  | cons p rest ih =>
    intro c h n hn
    obtain ⟨⟨nd, pnd, _, _, hpn, hle⟩, hrest⟩ := h
    rcases List.mem_cons.mp hn with rfl | hn
    · rw [level_of_eq hpn]
      exact hle
    · exact ih p hrest n hn

theorem accept_implication_eq (s : Nenofex) (h : Nat) (hnd : Node) (ha : ATPGInfo)
    (hn : s.nodes[h]? = some (some hnd)) (hi : node_info s h = Except.ok ha)
    (hch : ∀ c ∈ hnd.child_list, ∃ cnd, s.nodes[c]? = some (some cnd)) :
    (do
      let hnd ← get_node s h
      let ha ← node_info s h
      if (hnd.type = NodeType.AND ∧ ha.assignment = ATPGAssignment.TRUE)
          ∨ (hnd.type = NodeType.OR ∧ ha.assignment = ATPGAssignment.FALSE) then
        if ← all_children_atpg_relevant s hnd.child_list then pure (some h) else pure none
      else
        pure (some h) : M (Option Nat))
      = Except.ok (spec_accept_implication s h) := by
  unfold spec_accept_implication
  simp only [get_node_of_getElem hn, hi, ok_bind, hn, assignment_of_eq hi, Option.some.injEq,
    all_children_atpg_relevant_spec s _ hch]
  split
  · split <;> rfl
  · rfl

/-- C30 (highest implication). Let `N` be a node with an `ATPGInfo` and let
`lca` be the subformula LCA. `find_highest_implication_on_path` returns null
when `N` is unassigned, when `N` is an `OR` assigned true or an `AND`
assigned false, when `N` has no parent, and when the level of `N`'s parent
is not greater than the level of the LCA (the parent is the LCA). Otherwise
let `g :: l` be the chain of ancestors from `N`'s grandparent `g` upwards
through the nodes whose level is at least that of the LCA, all with an
`ATPGInfo` and existing children. With more fuel than the chain is long the
function returns: null if no node of the chain has `N`'s assignment, else
the last such node `H` of the chain, unless `H` is an `AND` assigned true or
an `OR` assigned false one of whose children has no `ATPGInfo`, in which case
it returns null. Hence a returned `H` is a member of the chain (an ancestor
from the grandparent on, at a level not below the LCA's when the grandparent
is), has the assignment of `N`, and no later member of the chain has that
assignment. -/
theorem C30_highest_implication (fuel : Nat) (s : Nenofex) (N lca : Nat) (fnd lnd : Node)
    (fa : ATPGInfo) (hlca : s.changed_subformula.lca = some lca)
    (hlnd : s.nodes[lca]? = some (some lnd)) (hn : s.nodes[N]? = some (some fnd))
    (hfa : node_info s N = Except.ok fa) :
    (fa.assignment = ATPGAssignment.UNDEFINED →
        find_highest_implication_on_path fuel s N = Except.ok none)
    ∧ (fa.assignment = ATPGAssignment.TRUE → fnd.type = NodeType.OR →
        find_highest_implication_on_path fuel s N = Except.ok none)
    ∧ (fa.assignment = ATPGAssignment.FALSE → fnd.type = NodeType.AND →
        find_highest_implication_on_path fuel s N = Except.ok none)
    ∧ (fnd.parent = none → find_highest_implication_on_path fuel s N = Except.ok none)
    ∧ (∀ p pnd, fnd.parent = some p → s.nodes[p]? = some (some pnd) →
        pnd.level ≤ lnd.level → find_highest_implication_on_path fuel s N = Except.ok none)
    ∧ (∀ (p g : Nat) (pnd : Node) (l : List Nat),
        fa.assignment ≠ ATPGAssignment.UNDEFINED →
        ¬ (fa.assignment = ATPGAssignment.TRUE ∧ fnd.type = NodeType.OR) →
        ¬ (fa.assignment = ATPGAssignment.FALSE ∧ fnd.type = NodeType.AND) →
        fnd.parent = some p → s.nodes[p]? = some (some pnd) → lnd.level < pnd.level →
        pnd.parent = some g → upward_chain s lnd.level (g :: l) →
        (∀ n ∈ g :: l, ∃ a, node_info s n = Except.ok a) →
        (∀ n ∈ g :: l, ∀ nd, s.nodes[n]? = some (some nd) →
          ∀ c ∈ nd.child_list, ∃ cnd, s.nodes[c]? = some (some cnd)) →
        l.length < fuel →
        find_highest_implication_on_path fuel s N
            = Except.ok ((highest_match s fa.assignment none (g :: l)).bind
                (spec_accept_implication s))
        ∧ ∀ H, find_highest_implication_on_path fuel s N = Except.ok (some H) →
            H ∈ g :: l ∧ assignment_of s H = some fa.assignment
            ∧ (∃ l1 l2, g :: l = l1 ++ H :: l2
                ∧ ∀ n ∈ l2, assignment_of s n ≠ some fa.assignment)
            ∧ (lnd.level ≤ level_of s g → lnd.level ≤ level_of s H)) := by
  refine ⟨fun h => ?_, fun h1 h2 => ?_, fun h1 h2 => ?_, fun h => ?_, fun p pnd hp hpn hle => ?_,
    fun p g pnd l h1 h2 h3 hp hpn hlt hg hch hinfo hchildren hf => ?_⟩
  · unfold find_highest_implication_on_path
    simp only [hlca, deref, pure_eq_ok, ok_bind, get_node_of_getElem hlnd, hfa,
      get_node_of_getElem hn, h, if_true]
  · unfold find_highest_implication_on_path
    simp only [hlca, deref, pure_eq_ok, ok_bind, get_node_of_getElem hlnd, hfa,
      get_node_of_getElem hn, h1, h2, and_self, if_true]
    rfl
  · unfold find_highest_implication_on_path
    simp only [hlca, deref, pure_eq_ok, ok_bind, get_node_of_getElem hlnd, hfa,
      get_node_of_getElem hn, h1, h2, and_self, if_true]
    rfl
  · unfold find_highest_implication_on_path
    simp only [hlca, deref, pure_eq_ok, ok_bind, get_node_of_getElem hlnd, hfa,
      get_node_of_getElem hn, h]
    split
    · rfl
    · split
      · rfl
      · split <;> rfl
  · unfold find_highest_implication_on_path
    simp only [hlca, deref, pure_eq_ok, ok_bind, get_node_of_getElem hlnd, hfa,
      get_node_of_getElem hn, hp, get_node_of_getElem hpn, hle, if_true]
    split
    · rfl
    · split
      · rfl
      · split <;> rfl
  · have hloop := highest_implication_loop_spec s lnd.level fa.assignment l g none fuel hch hinfo hf
    have hmain : find_highest_implication_on_path fuel s N
        = Except.ok ((highest_match s fa.assignment none (g :: l)).bind
            (spec_accept_implication s)) := by
      unfold find_highest_implication_on_path
      simp only [hlca, deref, pure_eq_ok, ok_bind, get_node_of_getElem hlnd, hfa,
        get_node_of_getElem hn, h1, h2, h3, if_false, hp, get_node_of_getElem hpn,
        Nat.not_le.mpr hlt, hg, hloop]
      cases hm : highest_match s fa.assignment none (g :: l) with
      | none => rfl
      | some H =>
        rw [Option.some_bind]
        rcases highest_match_spec s fa.assignment (g :: l) none H hm with ⟨h4, _⟩ | ⟨l1, l2, e1, _, _⟩
        · cases h4
        · have hmem : H ∈ g :: l := by rw [e1]; simp
          obtain ⟨ha, hha⟩ := hinfo H hmem
          have hex : ∃ hnd, s.nodes[H]? = some (some hnd) := by
            unfold node_info info_index at hha
            obtain ⟨i, hi, _⟩ := bind_ok.mp hha
            obtain ⟨hnd, hhnd, _⟩ := bind_ok.mp hi
            exact ⟨hnd, get_node_ok hhnd⟩
          obtain ⟨hnd, hhnd⟩ := hex
          exact accept_implication_eq s H hnd ha hhnd hha (hchildren H hmem hnd hhnd)
    refine ⟨hmain, fun H hH => ?_⟩
    rw [hmain] at hH
    have hH1 : (highest_match s fa.assignment none (g :: l)).bind (spec_accept_implication s)
        = some H := Except.ok.inj hH
    cases hm : highest_match s fa.assignment none (g :: l) with
    | none => rw [hm] at hH1; cases hH1
    | some H1 =>
      simp only [hm, Option.some_bind] at hH1
      have hHH : H1 = H := by
        unfold spec_accept_implication at hH1
        split at hH1
        · split at hH1
          · split at hH1
            · exact Option.some.inj hH1
            · cases hH1
          · exact Option.some.inj hH1
        · cases hH1
      subst hHH
      rcases highest_match_spec s fa.assignment (g :: l) none H1 hm with ⟨h4, _⟩ | ⟨l1, l2, e1, e2, e3⟩
      · cases h4
      · have hmem : H1 ∈ g :: l := by rw [e1]; simp
        refine ⟨hmem, e2, ⟨l1, l2, e1, e3⟩, fun hgl => ?_⟩
        rcases List.mem_cons.mp hmem with rfl | hm2
        · exact hgl
        · exact upward_chain_level s lnd.level l g hch H1 hm2

set_option maxRecDepth 100000 in
/-- C30, witness: in `majority_implied` (the graph of
`(c & (b | a)) | (b & a)` after the trial that makes the `OR` node 3 false)
the grandparent of node 3 is the root `OR`, which is the LCA and is assigned
false; all its children participate, so it is returned. -/
theorem C30_highest_implication_witness :
    find_highest_implication_on_path 5 majority_implied 3 = Except.ok (some 0)
    ∧ ∀ H, find_highest_implication_on_path 5 majority_implied 3 = Except.ok (some H) →
        H ∈ [0] ∧ assignment_of majority_implied H = some ATPGAssignment.FALSE
        ∧ (∃ l1 l2, [0] = l1 ++ H :: l2
            ∧ ∀ n ∈ l2, assignment_of majority_implied n ≠ some ATPGAssignment.FALSE)
        ∧ (0 ≤ level_of majority_implied 0 → 0 ≤ level_of majority_implied H) := by
  have h := (C30_highest_implication 5 majority_implied 3 0
    { level := 2, type := NodeType.OR, parent := some 1, child_list := [4, 5],
      num_children := 2, size_subformula := 3, atpg_info := some 6 }
    { level := 0, type := NodeType.OR, parent := none, child_list := [1, 6],
      num_children := 2, size_subformula := 9, atpg_info := some 0 }
    { fault_node := some 6, assignment := ATPGAssignment.FALSE, justified := true,
      collected := true }
    rfl rfl rfl rfl).2.2.2.2.2 1 0
    { level := 1, type := NodeType.AND, parent := some 0, child_list := [2, 3],
      num_children := 2, size_subformula := 5, atpg_info := some 4 } []
    (by decide) (by decide) (by decide) rfl rfl (by decide) rfl
    ⟨_, rfl, Or.inl rfl⟩
    (fun n hn => by
      rw [List.mem_singleton.mp hn]
      exact ⟨_, rfl⟩)
    (fun n hn nd hnd c hc => by
      rw [List.mem_singleton.mp hn] at hnd
      cases hnd
      simp only [List.mem_cons, List.mem_singleton, List.not_mem_nil, or_false] at hc
      rcases hc with rfl | rfl
      · exact ⟨_, rfl⟩
      · exact ⟨_, rfl⟩)
    (by decide)
  exact ⟨h.1, h.2⟩

/-! ## Theorems: `collect_necessary_off_path_literals` -/

theorem bind_congr_ok {α β : Type} {x : M α} {f g : α → M β}
    (h : ∀ a, x = Except.ok a → f a = g a) : (x >>= f) = (x >>= g) := by
  cases hx : x with
  | error e => rfl
  | ok a => exact h a hx

theorem is_literal_node_nodes {s s1 : Nenofex} (h : s1.nodes = s.nodes) (n : Nat) :
    is_literal_node s1 n = is_literal_node s n := by
  unfold is_literal_node
  rw [h]

theorem has_info_nodes {s s1 : Nenofex} (h : s1.nodes = s.nodes) (n : Nat) :
    has_info s1 n = has_info s n := by
  unfold has_info
  rw [h]

theorem participating_literals_nodes {s s1 : Nenofex} (h : s1.nodes = s.nodes) (l : List Nat) :
    participating_literals s1 l = participating_literals s l := by
  unfold participating_literals
  congr 1
  funext c
  rw [is_literal_node_nodes h, has_info_nodes h]

theorem children_of_nodes {s s1 : Nenofex} (h : s1.nodes = s.nodes) (n : Nat) :
    children_of s1 n = children_of s n := by
  unfold children_of
  rw [h]

theorem off_path_literals_nodes {s s1 : Nenofex} (h : s1.nodes = s.nodes) (N a : Nat) :
    off_path_literals s1 N a = off_path_literals s N a := by
  unfold off_path_literals
  rw [participating_literals_nodes h, children_of_nodes h]

theorem upward_chain_nodes {s s1 : Nenofex} (h : s1.nodes = s.nodes) (top : Nat) :
    ∀ l, upward_chain s1 top l ↔ upward_chain s top l := by
  intro l
  induction l with
  | nil => exact Iff.rfl
  | cons c rest ih =>
    cases rest with
    | nil =>
      unfold upward_chain
      rw [h]
    | cons p rest2 =>
      unfold upward_chain
      rw [h]
      exact and_congr Iff.rfl ih

/-- The loop over the children of an ancestor forces the leading literal
children that participate, except the node `skip`. -/
theorem collect_off_path_children_spec (s0 : Nenofex) (want : Bool) (N : Nat) (skip : Option Nat)
    (hskip : skip = some N ∨ skip = none) :
    ∀ (l : List Nat) (s : Nenofex), s.nodes = s0.nodes →
      (∀ c ∈ l, ∃ cnd, s0.nodes[c]? = some (some cnd)) → (skip = none → N ∉ l) →
      collect_off_path_children s want skip l
        = spec_force_all want s ((leading_literals s0 l).filter (fun c => c != N)) := by
  intro l
  induction l with
  | nil => intro s _ _ _; rfl
  | cons c rest ih =>
    intro s hs hex hN
    obtain ⟨cnd, hc⟩ := hex c (List.mem_cons_self _ _)
    have hcs : s.nodes[c]? = some (some cnd) := by rw [hs]; exact hc
    have hlitn : is_literal_node s0 c = (cnd.type == NodeType.LITERAL) := is_literal_node_eq hc
    have hinfo : has_info s0 c = cnd.atpg_info.isSome := by
      unfold has_info
      rw [hc]
    have hN2 : skip = none → N ∉ rest := fun h hm => hN h (List.mem_cons_of_mem _ hm)
    have hex2 : ∀ d ∈ rest, ∃ cnd, s0.nodes[d]? = some (some cnd) :=
      fun d hd => hex d (List.mem_cons_of_mem _ hd)
    rw [collect_off_path_children]
    simp only [get_node_of_getElem hcs, ok_bind]
    by_cases ht : cnd.type = NodeType.LITERAL
    · have hl1 : is_literal_node s0 c = true := by rw [hlitn]; simp [ht]
      rw [if_pos ht, leading_literals, if_pos hl1]
      by_cases hsk : skip = some c ∨ cnd.atpg_info = none
      · rw [if_pos hsk, ih s hs hex2 hN2]
        rcases hsk with hsk | hsk
        · have hcN : c = N := by
            rcases hskip with h | h
            · rw [h] at hsk
              exact (Option.some.inj hsk).symm
            · rw [h] at hsk
              cases hsk
          by_cases hi : has_info s0 c = true
          · rw [if_pos hi, List.filter_cons, if_neg (by simp [hcN])]
          · rw [if_neg hi]
        · have hi : has_info s0 c = false := by rw [hinfo, hsk]; rfl
          rw [if_neg (by simp [hi])]
      · rw [if_neg hsk]
        have hsk1 : ¬ skip = some c := fun h => hsk (Or.inl h)
        have hai : cnd.atpg_info ≠ none := fun h => hsk (Or.inr h)
        have hi : has_info s0 c = true := by
          rw [hinfo]
          cases h : cnd.atpg_info with
          | none => exact absurd h hai
          | some i => rfl
        have hcN : c ≠ N := by
          intro h
          rcases hskip with h1 | h1
          · exact hsk1 (by rw [h1, h])
          · exact hN h1 (by rw [h]; exact List.mem_cons_self _ _)
        rw [if_pos hi, List.filter_cons, if_pos (by simp [hcN]), spec_force_all]
        refine bind_congr_ok (fun s1 h1 => ?_)
        have hs1 : s1.nodes = s0.nodes :=
          ((collect_necessary_off_path_literal_graph s c want s1 h1).1).trans hs
        exact ih s1 hs1 hex2 hN2
    · have hl1 : is_literal_node s0 c = false := by rw [hlitn]; simp [ht]
      rw [if_neg ht, leading_literals, if_neg (by simp [hl1])]
      rfl

theorem only_vars_changed_refl (s : Nenofex) (vs : List Nat) : only_vars_changed s s vs :=
  ⟨rfl, rfl, rfl, fun _ _ => rfl⟩

theorem only_vars_changed_trans {s s1 s2 : Nenofex} {vs ws : List Nat}
    (h1 : only_vars_changed s s1 vs) (h2 : only_vars_changed s1 s2 ws) :
    only_vars_changed s s2 (vs ++ ws) := by
  refine ⟨h2.1.trans h1.1, h2.2.1.trans h1.2.1, h2.2.2.1.trans h1.2.2.1, fun v hv => ?_⟩
  rw [h2.2.2.2 v (fun h => hv (List.mem_append_right _ h)),
    h1.2.2.2 v (fun h => hv (List.mem_append_left _ h))]

theorem only_vars_changed_mono {s s1 : Nenofex} {vs ws : List Nat}
    (h : only_vars_changed s s1 vs) (hsub : ∀ v ∈ vs, v ∈ ws) : only_vars_changed s s1 ws :=
  ⟨h.1, h.2.1, h.2.2.1, fun v hv => h.2.2.2 v (fun hm => hv (hsub v hm))⟩

theorem var_of_literal {s : Nenofex} {c : Nat} {cnd : Node} {lit : Lit}
    (hc : s.nodes[c]? = some (some cnd)) (hl : cnd.lit = some lit)
    (hlit : is_literal_node s c = true) : var_of s c = some lit.var := by
  have ht : cnd.type = NodeType.LITERAL := by
    rw [is_literal_node_eq hc] at hlit
    simpa using hlit
  unfold var_of lit_of
  rw [hc]
  simp only [ht, if_true, hl, Option.map_some']

theorem force_literal_frame (s : Nenofex) (c : Nat) (want : Bool) (s1 : Nenofex)
    (h : collect_necessary_off_path_literal s c want = Except.ok s1)
    (hlit : is_literal_node s c = true) :
    only_vars_changed s s1 ((var_of s c).toList) := by
  have h0 := h
  unfold collect_necessary_off_path_literal at h0
  obtain ⟨cnd, hcnd, h1⟩ := bind_ok.mp h0
  obtain ⟨lit, hl, h2⟩ := bind_ok.mp h1
  obtain ⟨x, hx, _⟩ := bind_ok.mp h2
  have hc := get_node_ok hcnd
  have hl1 := deref_ok hl
  rw [collect_necessary_off_path_literal_spec s c want cnd lit x hcnd hl1 hx] at h
  rw [var_of_literal hc hl1 hlit]
  split at h
  · cases h
    refine ⟨rfl, rfl, rfl, fun v hv => ?_⟩
    show (set_var s lit.var _).vars[v]? = _
    rw [getElem?_set_var, if_neg (fun e => hv (by rw [← e]; simp))]
  · split at h
    · cases h
      exact only_vars_changed_refl _ _
    · cases h
      exact ⟨rfl, rfl, rfl, fun _ _ => rfl⟩

theorem spec_force_all_frame (s0 : Nenofex) (want : Bool) :
    ∀ (l : List Nat) (s : Nenofex), s.nodes = s0.nodes →
      (∀ c ∈ l, is_literal_node s0 c = true) →
      Tri (spec_force_all want s l) (fun s1 => only_vars_changed s s1 (l.filterMap (var_of s0))) := by
  intro l
  induction l with
  | nil =>
    intro s _ _
    unfold spec_force_all
    exact Tri_pure (only_vars_changed_refl _ _)
  | cons c rest ih =>
    intro s hs hlit
    unfold spec_force_all
    intro s2 h2
    obtain ⟨s1, h1, h3⟩ := bind_ok.mp h2
    have hl1 : is_literal_node s c = true := by
      rw [is_literal_node_nodes hs]
      exact hlit c (List.mem_cons_self _ _)
    have f1 := force_literal_frame s c want s1 h1 hl1
    have f2 := ih s1 (f1.1.trans hs) (fun d hd => hlit d (List.mem_cons_of_mem _ hd)) s2 h3
    have hvo : var_of s c = var_of s0 c := by
      unfold var_of lit_of
      rw [hs]
    rw [hvo] at f1
    refine only_vars_changed_mono (only_vars_changed_trans f1 f2) (fun v hv => ?_)
    rw [List.filterMap_cons]
    rcases List.mem_append.mp hv with hv | hv
    · cases hvc : var_of s0 c with
      | none => rw [hvc] at hv; cases hv
      | some w =>
        rw [hvc] at hv
        simp only [Option.toList_some, List.mem_singleton] at hv
        rw [hv]
        exact List.mem_cons_self _ _
    · cases hvc : var_of s0 c with
      | none => exact hv
      | some w => exact List.mem_cons_of_mem _ hv

theorem participating_literals_literal (s : Nenofex) (l : List Nat) :
    ∀ c ∈ participating_literals s l, is_literal_node s c = true := by
  intro c hc
  unfold participating_literals at hc
  have := (List.mem_filter.mp hc).2
  simp only [Bool.and_eq_true] at this
  exact this.1

theorem off_path_literals_literal (s : Nenofex) (N a : Nat) :
    ∀ c ∈ off_path_literals s N a, is_literal_node s c = true := by
  intro c hc
  unfold off_path_literals at hc
  exact participating_literals_literal s _ c (List.mem_filter.mp hc).1

/-- The loop over the children of the ancestor `a`, as called by
`collect_necessary_off_path_literals`, is the visit of `a`. -/
theorem collect_off_path_children_visit (s0 s : Nenofex) (N a : Nat) (and : Node)
    (skip : Option Nat) (hs : s.nodes = s0.nodes) (ha : s0.nodes[a]? = some (some and))
    (hfirst : literals_first s0 and.child_list)
    (hex : ∀ c ∈ and.child_list, ∃ cnd, s0.nodes[c]? = some (some cnd))
    (hskip : skip = some N ∨ skip = none) (hN : skip = none → N ∉ and.child_list) :
    collect_off_path_children s (and.type != NodeType.OR) skip and.child_list
      = spec_off_path_visit s N a := by
  unfold spec_off_path_visit
  have has : s.nodes[a]? = some (some and) := by rw [hs]; exact ha
  rw [get_node_of_getElem has, ok_bind,
    collect_off_path_children_spec s0 _ N skip hskip and.child_list s hs hex hN,
    off_path_literals_nodes hs]
  unfold off_path_literals children_of
  rw [ha, leading_literals_eq s0 _ hfirst]

theorem spec_off_path_visit_frame (s0 s : Nenofex) (N a : Nat) (hs : s.nodes = s0.nodes) :
    Tri (spec_off_path_visit s N a)
      (fun s1 => only_vars_changed s s1 ((off_path_literals s0 N a).filterMap (var_of s0))) := by
  unfold spec_off_path_visit
  refine Tri_read fun nd => ?_
  rw [off_path_literals_nodes hs]
  exact spec_force_all_frame s0 _ _ s hs (off_path_literals_literal s0 N a)

theorem spec_off_path_walk_frame (s0 : Nenofex) (N : Nat) :
    ∀ (l : List Nat) (s : Nenofex), s.nodes = s0.nodes →
      Tri (spec_off_path_walk N s l) (fun s1 => only_vars_changed s s1
        ((l.flatMap (off_path_literals s0 N)).filterMap (var_of s0))) := by
  intro l
  induction l with
  | nil =>
    intro s _
    unfold spec_off_path_walk
    exact Tri_pure (only_vars_changed_refl _ _)
  | cons a rest ih =>
    intro s hs
    unfold spec_off_path_walk
    refine Tri_ite (fun _ => Tri_pure (only_vars_changed_refl _ _)) (fun _ => ?_)
    refine Tri_bind (spec_off_path_visit_frame s0 s N a hs) (fun s1 h1 => ?_)
    refine Tri_mono (ih s1 (h1.1.trans hs)) (fun s2 h2 => ?_)
    refine only_vars_changed_mono (only_vars_changed_trans h1 h2) (fun v hv => ?_)
    rw [List.flatMap_cons, List.filterMap_append]
    exact hv

/-- The loop of `collect_necessary_off_path_literals` above the ancestor
`c0` is the walk along the rest of the chain. -/
theorem collect_off_path_loop_walk (s0 : Nenofex) (top N : Nat) :
    ∀ (l : List Nat) (c0 : Nat) (cnd0 : Node) (s : Nenofex) (fuel : Nat),
      s.nodes = s0.nodes → s0.nodes[c0]? = some (some cnd0) →
      upward_chain s0 top (c0 :: l) →
      (∀ a ∈ l, ∀ nd, s0.nodes[a]? = some (some nd) →
        literals_first s0 nd.child_list
        ∧ (∀ c ∈ nd.child_list, ∃ cnd, s0.nodes[c]? = some (some cnd))
        ∧ N ∉ nd.child_list) →
      l.length < fuel →
      collect_off_path_loop top fuel s cnd0.parent = spec_off_path_walk N s l := by
  intro l
  induction l with
  | nil =>
    intro c0 cnd0 s fuel hs hc0 hch _ hf
    obtain ⟨f, rfl⟩ : ∃ f, fuel = f + 1 := ⟨fuel - 1, by simp at hf; omega⟩
    obtain ⟨nd, hnd, hpar⟩ := hch
    rw [hc0] at hnd
    cases hnd
    rcases hpar with hp | ⟨p, pnd, hp, hpn, hlt⟩
    · rw [hp]
      rfl
    · have hps : s.nodes[p]? = some (some pnd) := by rw [hs]; exact hpn
      rw [hp, collect_off_path_loop]
      simp only [get_node_of_getElem hps, ok_bind, ge_iff_le, Nat.not_le.mpr hlt, false_and,
        if_false]
      rfl
  | cons p rest ih =>
    intro c0 cnd0 s fuel hs hc0 hch hwf hf
    obtain ⟨f, rfl⟩ : ∃ f, fuel = f + 1 := ⟨fuel - 1, by simp at hf; omega⟩
    obtain ⟨⟨nd, pnd, hnd, hp, hpn, hle⟩, hrest⟩ := hch
    rw [hc0] at hnd
    cases hnd
    have hps : s.nodes[p]? = some (some pnd) := by rw [hs]; exact hpn
    obtain ⟨w1, w2, w3⟩ := hwf p (List.mem_cons_self _ _) pnd hpn
    rw [hp, collect_off_path_loop, spec_off_path_walk]
    simp only [get_node_of_getElem hps, ok_bind, ge_iff_le, hle, true_and]
    by_cases hc : s.atpg_rr.conflict = true
    · rw [if_neg (by rw [hc]; decide), if_pos hc]
    · rw [if_pos (eq_false_of_not_true hc), if_neg hc,
        collect_off_path_children_visit s0 s N p pnd none hs hpn w1 w2 (Or.inr rfl) (fun _ => w3)]
      refine bind_congr_ok (fun s1 h1 => ?_)
      have hs1 : s1.nodes = s0.nodes := ((spec_off_path_visit_frame s0 s N p hs s1 h1).1).trans hs
      exact ih p pnd s1 f hs1 hpn hrest
        (fun a ha => hwf a (List.mem_cons_of_mem _ ha)) (by simp at hf; omega)

theorem upward_chain_last (s : Nenofex) (top : Nat) (hl : levels_decrease s) (lca : Nat)
    (lnd : Node) (hlnd : s.nodes[lca]? = some (some lnd)) (htop : lnd.level = top) :
    ∀ (l : List Nat) (c : Nat), upward_chain s top (c :: l) → lca ∈ c :: l →
      (c :: l).getLast? = some lca := by
  intro l
  induction l with
  | nil =>
    intro c _ hm
    rw [List.mem_singleton.mp hm]
    rfl
  | cons p rest ih =>
    intro c hch hm
    obtain ⟨⟨nd, pnd, hnd, hp, hpn, hle⟩, hrest⟩ := hch
    rw [List.getLast?_cons_cons]
    rcases List.mem_cons.mp hm with rfl | hm
    · exfalso
      rw [hlnd] at hnd
      cases hnd
      have := hl lca lnd p pnd hlnd hp hpn
      omega
    · exact ih p hrest hm

/-- C28 (off-path literal collection). For the subformula LCA itself
`collect_necessary_off_path_literals` does nothing. For a candidate `N` other
than the LCA, let `p :: l` be the chain of ancestors of `N` from its parent
`p` upwards through the nodes whose level is at least that of the LCA, in a
tree in which `N` is a child of `p` only, the children of the ancestors
exist and literal children precede operator children, and let no conflict be
set at the call. With more fuel than the chain is long, the function is the
walk `spec_off_path_walk` along this chain: the ancestors are visited in
order until the conflict flag is set, and the visit of an ancestor forces
every participating literal child other than `N` to false under an `OR` and
to true under an `AND`. If levels decrease towards the root and the LCA is an
ancestor of `N`, the chain ends with the LCA. Whenever the function
returns, nodes, arena and subformula are unchanged, and so is every variable
that is not the variable of one of these literal children. -/
theorem C28_off_path_literal_collection (fuel : Nat) (s : Nenofex) (N lca p : Nat)
    (nd lnd : Node) (l : List Nat)
    (hlca : s.changed_subformula.lca = some lca) (hlnd : s.nodes[lca]? = some (some lnd))
    (hn : s.nodes[N]? = some (some nd)) (hne : N ≠ lca) (hp : nd.parent = some p)
    (hchain : upward_chain s lnd.level (p :: l))
    (hwf : ∀ a ∈ p :: l, ∀ and, s.nodes[a]? = some (some and) →
      literals_first s and.child_list
      ∧ ∀ c ∈ and.child_list, ∃ cnd, s.nodes[c]? = some (some cnd))
    (htree : ∀ a ∈ l, N ∉ children_of s a)
    (hc : s.atpg_rr.conflict = false) (hf : l.length < fuel) :
    collect_necessary_off_path_literals fuel s N = spec_off_path_walk N s (p :: l)
    ∧ (levels_decrease s → lca ∈ p :: l → (p :: l).getLast? = some lca)
    ∧ (∀ s1, collect_necessary_off_path_literals fuel s N = Except.ok s1 →
        only_vars_changed s s1
          (((p :: l).flatMap (off_path_literals s N)).filterMap (var_of s)))
    ∧ collect_necessary_off_path_literals fuel s lca = Except.ok s := by
  have hmain : collect_necessary_off_path_literals fuel s N = spec_off_path_walk N s (p :: l) := by
    have hpn : ∃ pnd, s.nodes[p]? = some (some pnd) := by
      cases l with
      | nil =>
        obtain ⟨pnd, h1, _⟩ := hchain
        exact ⟨pnd, h1⟩
      | cons q rest =>
        obtain ⟨⟨pnd, _, h1, _⟩, _⟩ := hchain
        exact ⟨pnd, h1⟩
    obtain ⟨pnd, hpn⟩ := hpn
    obtain ⟨w1, w2⟩ := hwf p (List.mem_cons_self _ _) pnd hpn
    unfold collect_necessary_off_path_literals
    rw [if_neg (by rw [hlca]; exact fun h => hne (Option.some.inj h).symm)]
    simp only [get_node_of_getElem hn, ok_bind, hp, deref, pure_eq_ok, get_node_of_getElem hpn]
    rw [collect_off_path_children_visit s s N p pnd (some N) rfl hpn w1 w2 (Or.inl rfl)
      (fun h => by cases h), spec_off_path_walk, if_neg (by rw [hc]; decide)]
    refine bind_congr_ok (fun s1 h1 => ?_)
    have f1 := spec_off_path_visit_frame s s N p rfl s1 h1
    have hlnd1 : s1.nodes[lca]? = some (some lnd) := by rw [f1.1]; exact hlnd
    simp only [f1.2.2.1, hlca, get_node_of_getElem hlnd1, ok_bind]
    exact collect_off_path_loop_walk s lnd.level N l p pnd s1 fuel f1.1 hpn hchain
      (fun a ha and hand => by
        obtain ⟨v1, v2⟩ := hwf a (List.mem_cons_of_mem _ ha) and hand
        refine ⟨v1, v2, ?_⟩
        have := htree a ha
        unfold children_of at this
        rw [hand] at this
        exact this) hf
  refine ⟨hmain, fun hl hm => upward_chain_last s lnd.level hl lca lnd hlnd rfl l p hchain hm,
    fun s1 h1 => ?_, ?_⟩
  · rw [hmain] at h1
    exact spec_off_path_walk_frame s N (p :: l) s rfl s1 h1
  · unfold collect_necessary_off_path_literals
    rw [if_pos hlca]
    rfl

set_option maxRecDepth 100000 in
/-- C28, witness: the literal `b` (node 4) of `majority_ready_state`, the
prepared pass on `(c & (b | a)) | (b & a)`. Its ancestors are the `OR`
node 3, the `AND` node 1 and the root `OR` node 0 (the LCA): the walk forces
`a` (variable 0) to false at node 3 and `c` (variable 2) to true at node 1,
and finds no literal child at the root. -/
theorem C28_off_path_literal_collection_witness :
    collect_necessary_off_path_literals 10 majority_ready_state 4
        = spec_off_path_walk 4 majority_ready_state [3, 1, 0]
    ∧ [3, 1, 0].getLast? = some 0
    ∧ (collect_necessary_off_path_literals 10 majority_ready_state 4).map
        (fun s1 => (var_value s1 0, var_value s1 1, var_value s1 2,
          s1.atpg_rr.propagation_queue, s1.atpg_rr.conflict))
      = Except.ok (some VarAssignment.FALSE, some VarAssignment.UNDEFINED,
          some VarAssignment.TRUE, [0, 2], false) := by
  have e0 : majority_ready_state.nodes[0]? = some (some
      { level := 0, type := NodeType.OR, parent := none, child_list := [1, 6],
        num_children := 2, size_subformula := 9, atpg_info := some 0 }) := rfl
  have e1 : majority_ready_state.nodes[1]? = some (some
      { level := 1, type := NodeType.AND, parent := some 0, child_list := [2, 3],
        num_children := 2, size_subformula := 5, atpg_info := some 4 }) := rfl
  have e3 : majority_ready_state.nodes[3]? = some (some
      { level := 2, type := NodeType.OR, parent := some 1, child_list := [4, 5],
        num_children := 2, size_subformula := 3, atpg_info := some 6 }) := rfl
  have e4 : majority_ready_state.nodes[4]? = some (some
      { level := 3, type := NodeType.LITERAL, parent := some 3, lit := some ⟨1, false⟩,
        atpg_info := some 7 }) := rfl
  have h := C28_off_path_literal_collection 10 majority_ready_state 4 0 3 _ _ [1, 0]
    rfl e0 e4 (by decide) rfl
    ⟨⟨_, _, e3, rfl, e1, Nat.zero_le _⟩, ⟨_, _, e1, rfl, e0, Nat.zero_le _⟩, _, e0, Or.inl rfl⟩
    (fun a ha and hand => by
      simp only [List.mem_cons, List.mem_singleton, List.not_mem_nil, or_false] at ha
      rcases ha with rfl | rfl | rfl
      · rw [e3] at hand
        cases hand
        refine ⟨⟨[4, 5], [], rfl, fun c hc => ?_, fun c hc => (nomatch hc)⟩, fun c hc => ?_⟩
        · simp only [List.mem_cons, List.mem_singleton, List.not_mem_nil, or_false] at hc
          rcases hc with rfl | rfl
          · rfl
          · rfl
        · simp only [List.mem_cons, List.mem_singleton, List.not_mem_nil, or_false] at hc
          rcases hc with rfl | rfl
          · exact ⟨_, rfl⟩
          · exact ⟨_, rfl⟩
      · rw [e1] at hand
        cases hand
        refine ⟨⟨[2], [3], rfl, fun c hc => ?_, fun c hc => ?_⟩, fun c hc => ?_⟩
        · rw [List.mem_singleton.mp hc]
          rfl
        · rw [List.mem_singleton.mp hc]
          rfl
        · simp only [List.mem_cons, List.mem_singleton, List.not_mem_nil, or_false] at hc
          rcases hc with rfl | rfl
          · exact ⟨_, rfl⟩
          · exact ⟨_, rfl⟩
      · rw [e0] at hand
        cases hand
        refine ⟨⟨[], [1, 6], rfl, fun c hc => (nomatch hc), fun c hc => ?_⟩, fun c hc => ?_⟩
        · simp only [List.mem_cons, List.mem_singleton, List.not_mem_nil, or_false] at hc
          rcases hc with rfl | rfl
          · rfl
          · rfl
        · simp only [List.mem_cons, List.mem_singleton, List.not_mem_nil, or_false] at hc
          rcases hc with rfl | rfl
          · exact ⟨_, rfl⟩
          · exact ⟨_, rfl⟩)
    (fun a ha => by
      simp only [List.mem_cons, List.mem_singleton, List.not_mem_nil, or_false] at ha
      rcases ha with rfl | rfl
      · show 4 ∉ [2, 3]
        decide
      · show 4 ∉ [1, 6]
        decide)
    rfl (by decide)
  exact ⟨h.1, rfl, rfl⟩

/-! ## Theorems: evaluation of `AND` and `OR` nodes in forward propagation -/

theorem node_info_ok {s : Nenofex} {n : Nat} {a : ATPGInfo} (h : node_info s n = Except.ok a) :
    ∃ (nd : Node) (i : Nat) (arr : List ATPGInfo), s.nodes[n]? = some (some nd)
      ∧ nd.atpg_info = some i ∧ s.atpg_rr.atpg_info_array = some arr ∧ arr[i]? = some a := by
  unfold node_info info_index at h
  obtain ⟨i, hi, h1⟩ := bind_ok.mp h
  obtain ⟨nd, hnd, h2⟩ := bind_ok.mp hi
  obtain ⟨arr, harr, ha⟩ := get_info_ok h1
  exact ⟨nd, i, arr, get_node_ok hnd, deref_ok h2, harr, ha⟩

theorem node_info_of {s : Nenofex} {n i : Nat} {nd : Node} {arr : List ATPGInfo} {a : ATPGInfo}
    (hn : s.nodes[n]? = some (some nd)) (hi : nd.atpg_info = some i)
    (harr : s.atpg_rr.atpg_info_array = some arr) (ha : arr[i]? = some a) :
    node_info s n = Except.ok a := by
  unfold node_info info_index
  simp only [get_node_of_getElem hn, ok_bind, hi, deref, pure_eq_ok,
    get_info_of_getElem harr ha]

/-- The first two assignments of a forward step (for example lines
1575-1576): the node gets the value `v` and is marked justified. -/
theorem assign_and_justify (s : Nenofex) (n : Nat) (v : ATPGAssignment) (a : ATPGInfo)
    (h : node_info s n = Except.ok a) :
    ∃ s2, (node_assign s n v >>= fun t => modify_node_info t n (fun a => { a with justified := true }))
        = Except.ok s2
      ∧ node_info s2 n = Except.ok { a with assignment := v, justified := true }
      ∧ s2.atpg_rr.trace
          = s.atpg_rr.trace ++ [Event.node_assigned n v s.atpg_rr.prop_cutoff] := by
  obtain ⟨nd, i, arr, hn, hi, harr, ha⟩ := node_info_ok h
  have hlt : i < arr.length := getElem?_lt ha
  have h1 : node_assign s n v = Except.ok (log (set_info s i { a with assignment := v })
      (Event.node_assigned n v s.atpg_rr.prop_cutoff)) := by
    unfold node_assign info_index
    simp only [get_node_of_getElem hn, ok_bind, hi, deref, pure_eq_ok,
      get_info_of_getElem harr ha]
  have harr1 : (log (set_info s i { a with assignment := v })
      (Event.node_assigned n v s.atpg_rr.prop_cutoff)).atpg_rr.atpg_info_array
      = some (arr.set i { a with assignment := v }) := by
    show (s.atpg_rr.atpg_info_array.map _) = _
    rw [harr]
    rfl
  have ha1 : (arr.set i { a with assignment := v })[i]? = some { a with assignment := v } :=
    List.getElem?_set_self hlt
  have h2 : modify_node_info (log (set_info s i { a with assignment := v })
      (Event.node_assigned n v s.atpg_rr.prop_cutoff)) n (fun a => { a with justified := true })
      = Except.ok (set_info (log (set_info s i { a with assignment := v })
          (Event.node_assigned n v s.atpg_rr.prop_cutoff)) i
          { a with assignment := v, justified := true }) := by
    unfold modify_node_info info_index
    have hn1 : (log (set_info s i { a with assignment := v })
        (Event.node_assigned n v s.atpg_rr.prop_cutoff)).nodes[n]? = some (some nd) := hn
    simp only [get_node_of_getElem hn1, ok_bind, hi, deref, pure_eq_ok,
      get_info_of_getElem harr1 ha1]
  refine ⟨_, by rw [h1, ok_bind, h2], ?_, rfl⟩
  refine @node_info_of _ n i nd ((arr.set i { a with assignment := v }).set i
    { a with assignment := v, justified := true }) _ hn hi ?_ ?_
  · show ((log (set_info s i { a with assignment := v })
      (Event.node_assigned n v s.atpg_rr.prop_cutoff)).atpg_rr.atpg_info_array.map _) = _
    rw [harr1]
    rfl
  · exact List.getElem?_set_self (by rw [List.length_set]; exact hlt)

theorem InvA_self (s : Nenofex) : InvA False (active_limit s) s.atpg_rr.trace s :=
  ⟨⟨rfl, ⟨[], (List.append_nil _).symm, Good_nil _ _ _⟩, fun h => h.elim⟩, fun h => h.elim⟩

theorem ext_of_Inv {b : Prop} {L : Nat} {T : List Event} {s : Nenofex} (h : Inv b L T s) :
    ∃ post, s.atpg_rr.trace = T ++ post := by
  obtain ⟨new, h1, _⟩ := h.ext
  exact ⟨new, h1⟩

theorem node_assign_trace (s : Nenofex) (n : Nat) (v : ATPGAssignment) :
    Tri (node_assign s n v) (fun s1 => s1.atpg_rr.trace
      = s.atpg_rr.trace ++ [Event.node_assigned n v s.atpg_rr.prop_cutoff]) := by
  unfold node_assign
  exact Tri_read fun i => Tri_read fun a => Tri_pure rfl

theorem forward_assign_trace (s : Nenofex) (n : Nat) (v : ATPGAssignment) :
    Tri (forward_assign s n v) (fun r => r.1.atpg_rr.trace
      = s.atpg_rr.trace ++ [Event.node_assigned n v s.atpg_rr.prop_cutoff]) := by
  unfold forward_assign
  refine Tri_bind (node_assign_trace _ _ _) (fun s1 h1 => ?_)
  refine Tri_bind (modify_node_info_core _ _ _) (fun s2 h2 => ?_)
  refine Tri_bind (collect_assigned_node_core _ _) (fun s3 h3 => ?_)
  have e3 : s3.atpg_rr.trace
      = s.atpg_rr.trace ++ [Event.node_assigned n v s.atpg_rr.prop_cutoff] := by
    rw [core_trace h3, core_trace h2, h1]
  refine Tri_read fun nd => Tri_ite (fun _ => Tri_pure e3) (fun _ => ?_)
  refine Tri_read fun parent => Tri_read fun pa => ?_
  refine Tri_ite (fun _ => ?_) (fun _ => Tri_pure e3)
  refine Tri_bind (update_counter_and_watcher_core _ _) (fun s4 h4 => ?_)
  refine Tri_bind (collect_assigned_node_core _ _) (fun s5 h5 => Tri_pure ?_)
  show s5.atpg_rr.trace = _
  rw [core_trace h5, core_trace h4, e3]

/-- A forward step within budget records the step and the assignment of
the node in the history, whatever follows. -/
theorem forward_propagate_truth_trace (fuel : Nat) (s : Nenofex) (node : Nat)
    (hlim : limit_exceeded (inc_fwd_prop_cnt s) = false) :
    Tri (forward_propagate_truth (fuel + 1) s node) (fun s1 => ∃ post, s1.atpg_rr.trace
      = (log_step (inc_fwd_prop_cnt s) false).atpg_rr.trace
        ++ [Event.node_assigned node ATPGAssignment.TRUE s.atpg_rr.prop_cutoff] ++ post) := by
  unfold forward_propagate_truth
  rw [if_neg (by rw [hlim]; decide)]
  refine Tri_bind (forward_assign_trace _ _ _) (fun r h2t => ?_)
  obtain ⟨s2, parent?⟩ := r
  have h2 := InvA_self s2
  have hfin : ∀ s3, Inv False (active_limit s2) s2.atpg_rr.trace s3 →
      ∃ post, s3.atpg_rr.trace
        = (log_step (inc_fwd_prop_cnt s) false).atpg_rr.trace
          ++ [Event.node_assigned node ATPGAssignment.TRUE s.atpg_rr.prop_cutoff] ++ post := by
    intro s3 h3
    obtain ⟨post, hp⟩ := ext_of_Inv h3
    exact ⟨post, by rw [hp]; exact congrArg (fun l => l ++ post) h2t⟩
  refine Tri_mono (P := Inv False (active_limit s2) s2.atpg_rr.trace) ?_ hfin
  cases parent? with
  | none => exact Tri_pure h2.1
  | some parent =>
    refine Tri_read fun pnd => Tri_read fun pa => ?_
    refine Tri_ite (fun _ => ?_) (fun _ => ?_)
    · refine Tri_read fun off_path => ?_
      refine Tri_ite (fun _ => ?_) (fun _ => ?_)
      · refine Tri_ite (fun _ => ?_) (fun _ => Tri_pure h2.1)
        refine Tri_bind (backward_propagate_falsity_inv _ _ h2) (fun s3 h3 => ?_)
        refine Tri_read fun pa1 => ?_
        exact Tri_ite (fun _ => (forward_propagate_inv fuel).2 s3 parent h3)
          (fun _ => Tri_pure h3.1)
      · refine Tri_ite (fun _ => ?_) (fun _ => Tri_pure h2.1)
        exact Tri_ite (fun _ => (forward_propagate_inv fuel).1 s2 parent (InvA_toB h2))
          (fun _ => Tri_pure h2.1)
    · refine Tri_read fun na => ?_
      refine Tri_ite (fun _ => Tri_pure (set_conflict_inv h2).1) (fun _ => ?_)
      refine Tri_ite (fun _ => (forward_propagate_inv fuel).1 s2 parent (InvA_toB h2)) (fun _ => ?_)
      exact Tri_quiet_Inv (modify_node_info_core _ _ _) h2.1

theorem forward_propagate_falsity_trace (fuel : Nat) (s : Nenofex) (node : Nat)
    (hlim : limit_exceeded (inc_fwd_prop_cnt s) = false) :
    Tri (forward_propagate_falsity (fuel + 1) s node) (fun s1 => ∃ post, s1.atpg_rr.trace
      = (log_step (inc_fwd_prop_cnt s) false).atpg_rr.trace
        ++ [Event.node_assigned node ATPGAssignment.FALSE s.atpg_rr.prop_cutoff] ++ post) := by
  unfold forward_propagate_falsity
  rw [if_neg (by rw [hlim]; decide)]
  refine Tri_bind (forward_assign_trace _ _ _) (fun r h2t => ?_)
  obtain ⟨s2, parent?⟩ := r
  have h2 := InvA_self s2
  have hfin : ∀ s3, Inv False (active_limit s2) s2.atpg_rr.trace s3 →
      ∃ post, s3.atpg_rr.trace
        = (log_step (inc_fwd_prop_cnt s) false).atpg_rr.trace
          ++ [Event.node_assigned node ATPGAssignment.FALSE s.atpg_rr.prop_cutoff] ++ post := by
    intro s3 h3
    obtain ⟨post, hp⟩ := ext_of_Inv h3
    exact ⟨post, by rw [hp]; exact congrArg (fun l => l ++ post) h2t⟩
  refine Tri_mono (P := Inv False (active_limit s2) s2.atpg_rr.trace) ?_ hfin
  cases parent? with
  | none => exact Tri_pure h2.1
  | some parent =>
    refine Tri_read fun pnd => Tri_read fun pa => ?_
    refine Tri_ite (fun _ => ?_) (fun _ => ?_)
    · refine Tri_read fun off_path => ?_
      refine Tri_ite (fun _ => ?_) (fun _ => ?_)
      · refine Tri_ite (fun _ => ?_) (fun _ => Tri_pure h2.1)
        refine Tri_bind (backward_propagate_truth_inv _ _ h2) (fun s3 h3 => ?_)
        refine Tri_read fun pa1 => ?_
        exact Tri_ite (fun _ => (forward_propagate_inv fuel).1 s3 parent h3)
          (fun _ => Tri_pure h3.1)
      · refine Tri_ite (fun _ => ?_) (fun _ => Tri_pure h2.1)
        exact Tri_ite (fun _ => (forward_propagate_inv fuel).2 s2 parent (InvA_toB h2))
          (fun _ => Tri_pure h2.1)
    · refine Tri_read fun na => ?_
      refine Tri_ite (fun _ => Tri_pure (set_conflict_inv h2).1) (fun _ => ?_)
      refine Tri_ite (fun _ => (forward_propagate_inv fuel).2 s2 parent (InvA_toB h2)) (fun _ => ?_)
      exact Tri_quiet_Inv (modify_node_info_core _ _ _) h2.1

theorem forward_step_truth (fuel : Nat) (t : Nenofex) (P : Nat) (pa : ATPGInfo)
    (hpa : node_info t P = Except.ok pa) :
    forward_step_outcome (forward_propagate_truth (fuel + 1) t P) t P ATPGAssignment.TRUE pa := by
  refine ⟨fun h => ⟨forward_propagate_truth_exceeded fuel t P h, hpa⟩, fun h => ?_⟩
  obtain ⟨t2, h1, h2, _⟩ := assign_and_justify (log_step (inc_fwd_prop_cnt t) false) P
    ATPGAssignment.TRUE pa hpa
  exact ⟨t2, h1, h2, forward_propagate_truth_trace fuel t P h⟩

theorem forward_step_falsity (fuel : Nat) (t : Nenofex) (P : Nat) (pa : ATPGInfo)
    (hpa : node_info t P = Except.ok pa) :
    forward_step_outcome (forward_propagate_falsity (fuel + 1) t P) t P ATPGAssignment.FALSE
      pa := by
  refine ⟨fun h => ⟨forward_propagate_falsity_exceeded fuel t P h, hpa⟩, fun h => ?_⟩
  obtain ⟨t2, h1, h2, _⟩ := assign_and_justify (log_step (inc_fwd_prop_cnt t) false) P
    ATPGAssignment.FALSE pa hpa
  exact ⟨t2, h1, h2, forward_propagate_falsity_trace fuel t P h⟩

theorem count_zero_iff (s : Nenofex) (cs : List Nat) (v : ATPGAssignment)
    (hv : v ≠ ATPGAssignment.UNDEFINED)
    (hall : ∀ c ∈ cs, assignment_of s c = some ATPGAssignment.UNDEFINED
      ∨ assignment_of s c = some v) :
    (cs.filter (is_unassigned s)).length = 0 ↔ ∀ c ∈ cs, assignment_of s c = some v := by
  rw [List.length_eq_zero, List.filter_eq_nil_iff]
  constructor
  · intro h c hc
    rcases hall c hc with h1 | h1
    · exfalso
      apply h c hc
      unfold is_unassigned
      simp [h1]
    · exact h1
  · intro h c hc
    unfold is_unassigned
    rw [h c hc]
    simp only [Option.some.injEq, decide_eq_true_eq]
    exact hv

/-- C21 (evaluation of an `AND` node in forward propagation, amended).
Let a forward step within budget assign the value `v` to the node `node`
(`forward_assign` returns the state `s1` and the parent `P`), where `P` is an
unassigned `AND` node with the record `pa` and neither `P` nor its parent
carries a path mark. If `v` is false, `forward_propagate_falsity` continues
with the step for `P` in the same call; if `v` is true,
`forward_propagate_truth` continues with the step for `P` in the same call
iff the counter of `P` has reached 0, and otherwise returns `s1`, in which
`P` is unassigned. The step for `P` (`forward_step_outcome`) assigns `P` the
value and marks it justified unless it exceeds the budget, in which case it
only raises the cutoff and `P` stays unassigned. If `P` satisfies the
counter invariant in `s1` and none of its participating children is
assigned false, the counter is 0 iff all participating children are
assigned true. -/
theorem C21_and_evaluation (fuel : Nat) (s s1 : Nenofex) (node P : Nat) (v : ATPGAssignment)
    (pnd : Node) (pa na : ATPGInfo)
    (hlim : limit_exceeded (inc_fwd_prop_cnt s) = false)
    (hfa : forward_assign (log_step (inc_fwd_prop_cnt s) false) node v = Except.ok (s1, some P))
    (hP : get_node s1 P = Except.ok pnd) (hand : pnd.type = NodeType.AND)
    (hpa : node_info s1 P = Except.ok pa) (hun : pa.assignment = ATPGAssignment.UNDEFINED)
    (hna : node_info s1 node = Except.ok na) (hpm : pa.path_mark = false)
    (hpp : parent_parent_path_mark s1 P = Except.ok false) :
    (v = ATPGAssignment.FALSE →
        forward_propagate_falsity (fuel + 2) s node = forward_propagate_falsity (fuel + 1) s1 P
        ∧ forward_step_outcome (forward_propagate_falsity (fuel + 1) s1 P) s1 P
            ATPGAssignment.FALSE pa)
    ∧ (v = ATPGAssignment.TRUE →
        (pa.unassigned_ch_cnt = 0 →
          forward_propagate_truth (fuel + 2) s node = forward_propagate_truth (fuel + 1) s1 P
          ∧ forward_step_outcome (forward_propagate_truth (fuel + 1) s1 P) s1 P
              ATPGAssignment.TRUE pa)
        ∧ (pa.unassigned_ch_cnt ≠ 0 →
            forward_propagate_truth (fuel + 2) s node = Except.ok s1)
        ∧ (counter_ok s1 P →
            (∀ c ∈ participating_children s1 P,
              assignment_of s1 c = some ATPGAssignment.UNDEFINED
              ∨ assignment_of s1 c = some ATPGAssignment.TRUE) →
            (pa.unassigned_ch_cnt = 0
              ↔ ∀ c ∈ participating_children s1 P,
                  assignment_of s1 c = some ATPGAssignment.TRUE))) := by
  refine ⟨fun hv => ?_, fun hv => ⟨fun hz => ?_, fun hz => ?_, fun hco hall => ?_⟩⟩
  · subst hv
    refine ⟨?_, forward_step_falsity fuel s1 P pa hpa⟩
    rw [forward_propagate_falsity]
    simp only [hlim, Bool.false_eq_true, if_false, hfa, ok_bind, hP, hpa, hand, hna, hpm, hun,
      if_true, and_false]
    rfl
  · subst hv
    refine ⟨?_, forward_step_truth fuel s1 P pa hpa⟩
    rw [forward_propagate_truth]
    simp only [hlim, Bool.false_eq_true, if_false, hfa, ok_bind, hP, hpa, hand, if_true,
      off_path_input, hun, hpm, and_self, hpp, false_and, hz]
    rfl
  · subst hv
    rw [forward_propagate_truth]
    simp only [hlim, Bool.false_eq_true, if_false, hfa, ok_bind, hP, hpa, hand, if_true,
      off_path_input, hun, hpm, and_self, hpp, false_and, hz]
    rfl
  · obtain ⟨a, ha, hcnt, _⟩ := hco
    rw [hpa] at ha
    cases ha
    rw [hcnt]
    exact count_zero_iff s1 _ ATPGAssignment.TRUE (by decide) hall

set_option maxRecDepth 100000 in
/-- C21, counterexample: `budget_one_state` is the prepared pass on
`a | x | (b & !a)` in the global-flow phase with a budget of one step.
`forward_propagate_falsity` for the literal `b` (node 4) assigns `b` false
with the first step; the step for its parent, the unassigned `AND` node 3,
is the second step and exceeds the budget: the call returns with the cutoff
raised and the `AND` node unassigned. -/
theorem C21_cutoff_leaves_and_unassigned :
    (forward_propagate_falsity 5 budget_one_state 4).map
        (fun s1 => (assignment_of s1 4, assignment_of s1 3, s1.atpg_rr.prop_cutoff))
      = Except.ok (some ATPGAssignment.FALSE, some ATPGAssignment.UNDEFINED, true) := by
  rfl

set_option maxRecDepth 100000 in
/-- C21, witness: in `partial_initialised` the literal `b` (node 4) is a
child of the `AND` node 3. Assigned false, the call continues with the step
for node 3; assigned true, the counter of node 3 is 1 and the call returns
with node 3 unassigned. -/
theorem C21_and_evaluation_witness :
    (forward_propagate_falsity 6 partial_initialised 4
        = forward_propagate_falsity 5 and_child_false 3
      ∧ forward_step_outcome (forward_propagate_falsity 5 and_child_false 3) and_child_false 3
          ATPGAssignment.FALSE
          { fault_node := some 1, watcher := some 5, unassigned_ch_cnt := 1, collected := true })
    ∧ forward_propagate_truth 6 partial_initialised 4 = Except.ok and_child_true := by
  have h1 := (C21_and_evaluation 4 partial_initialised and_child_false 4 3 ATPGAssignment.FALSE
    { level := 1, type := NodeType.AND, parent := some 0, child_list := [4, 5],
      num_children := 2, size_subformula := 3, atpg_info := some 1 }
    { fault_node := some 1, watcher := some 5, unassigned_ch_cnt := 1, collected := true }
    { fault_node := some 2, assignment := ATPGAssignment.FALSE, justified := true,
      collected := true }
    rfl rfl rfl rfl rfl rfl rfl rfl rfl).1 rfl
  have h2 := ((C21_and_evaluation 4 partial_initialised and_child_true 4 3 ATPGAssignment.TRUE
    { level := 1, type := NodeType.AND, parent := some 0, child_list := [4, 5],
      num_children := 2, size_subformula := 3, atpg_info := some 1 }
    { fault_node := some 1, watcher := some 5, unassigned_ch_cnt := 1, collected := true }
    { fault_node := some 2, assignment := ATPGAssignment.TRUE, justified := true,
      collected := true }
    rfl rfl rfl rfl rfl rfl rfl rfl rfl).2 rfl).2.1 (by decide)
  exact ⟨h1, h2⟩

/-- C22 (evaluation of an `OR` node in forward propagation, amended).
Let a forward step within budget assign the value `v` to the node `node`
(`forward_assign` returns the state `s1` and the parent `P`), where `P` is an
unassigned `OR` node with the record `pa` and neither `P` nor its parent
carries a path mark. If `v` is true, `forward_propagate_truth` continues
with the step for `P` in the same call; if `v` is false,
`forward_propagate_falsity` continues with the step for `P` in the same call
iff the counter of `P` has reached 0, and otherwise returns `s1`, in which
`P` is unassigned. The step for `P` (`forward_step_outcome`) assigns `P` the
value and marks it justified unless it exceeds the budget, in which case it
only raises the cutoff and `P` stays unassigned. If `P` satisfies the
counter invariant in `s1` and none of its participating children is
assigned true, the counter is 0 iff all participating children are assigned
false. -/
theorem C22_or_evaluation (fuel : Nat) (s s1 : Nenofex) (node P : Nat) (v : ATPGAssignment)
    (pnd : Node) (pa na : ATPGInfo)
    (hlim : limit_exceeded (inc_fwd_prop_cnt s) = false)
    (hfa : forward_assign (log_step (inc_fwd_prop_cnt s) false) node v = Except.ok (s1, some P))
    (hP : get_node s1 P = Except.ok pnd) (hor : pnd.type = NodeType.OR)
    (hpa : node_info s1 P = Except.ok pa) (hun : pa.assignment = ATPGAssignment.UNDEFINED)
    (hna : node_info s1 node = Except.ok na) (hpm : pa.path_mark = false)
    (hpp : parent_parent_path_mark s1 P = Except.ok false) :
    (v = ATPGAssignment.TRUE →
        forward_propagate_truth (fuel + 2) s node = forward_propagate_truth (fuel + 1) s1 P
        ∧ forward_step_outcome (forward_propagate_truth (fuel + 1) s1 P) s1 P
            ATPGAssignment.TRUE pa)
    ∧ (v = ATPGAssignment.FALSE →
        (pa.unassigned_ch_cnt = 0 →
          forward_propagate_falsity (fuel + 2) s node = forward_propagate_falsity (fuel + 1) s1 P
          ∧ forward_step_outcome (forward_propagate_falsity (fuel + 1) s1 P) s1 P
              ATPGAssignment.FALSE pa)
        ∧ (pa.unassigned_ch_cnt ≠ 0 →
            forward_propagate_falsity (fuel + 2) s node = Except.ok s1)
        ∧ (counter_ok s1 P →
            (∀ c ∈ participating_children s1 P,
              assignment_of s1 c = some ATPGAssignment.UNDEFINED
              ∨ assignment_of s1 c = some ATPGAssignment.FALSE) →
            (pa.unassigned_ch_cnt = 0
              ↔ ∀ c ∈ participating_children s1 P,
                  assignment_of s1 c = some ATPGAssignment.FALSE))) := by
  have hna2 : ¬ (NodeType.OR = NodeType.AND) := by decide
  refine ⟨fun hv => ?_, fun hv => ⟨fun hz => ?_, fun hz => ?_, fun hco hall => ?_⟩⟩
  · subst hv
    refine ⟨?_, forward_step_truth fuel s1 P pa hpa⟩
    rw [forward_propagate_truth]
    simp only [hlim, Bool.false_eq_true, if_false, hfa, ok_bind, hP, hpa, hor, hna2, hna, hpm,
      hun, if_true, and_false]
    try rfl
  · subst hv
    refine ⟨?_, forward_step_falsity fuel s1 P pa hpa⟩
    rw [forward_propagate_falsity]
    simp only [hlim, Bool.false_eq_true, if_false, hfa, ok_bind, hP, hpa, hor, if_true,
      off_path_input, hun, hpm, and_self, hpp, false_and, hz]
    try rfl
  · subst hv
    rw [forward_propagate_falsity]
    simp only [hlim, Bool.false_eq_true, if_false, hfa, ok_bind, hP, hpa, hor, if_true,
      off_path_input, hun, hpm, and_self, hpp, false_and, hz]
    try rfl
  · obtain ⟨a, ha, hcnt, _⟩ := hco
    rw [hpa] at ha
    cases ha
    rw [hcnt]
    exact count_zero_iff s1 _ ATPGAssignment.FALSE (by decide) hall

set_option maxRecDepth 100000 in
/-- C22, counterexample: in `budget_one_state` (budget of one step)
`forward_propagate_truth` for the literal `a` (node 1) assigns `a` true with
the first step; the step for its parent, the unassigned root `OR` (node 0),
exceeds the budget: the call returns with the cutoff raised and the `OR`
node unassigned. -/
theorem C22_cutoff_leaves_or_unassigned :
    (forward_propagate_truth 5 budget_one_state 1).map
        (fun s1 => (assignment_of s1 1, assignment_of s1 0, s1.atpg_rr.prop_cutoff))
      = Except.ok (some ATPGAssignment.TRUE, some ATPGAssignment.UNDEFINED, true) := by
  rfl

set_option maxRecDepth 100000 in
/-- C22, witness: in `partial_initialised` the literal `a` (node 1) is a
child of the root `OR` (node 0). Assigned true, the call continues with the
step for the root; assigned false, the counter of the root is 1 and the call
returns with the root unassigned. -/
theorem C22_or_evaluation_witness :
    (forward_propagate_truth 6 partial_initialised 1
        = forward_propagate_truth 5 or_child_true 0
      ∧ forward_step_outcome (forward_propagate_truth 5 or_child_true 0) or_child_true 0
          ATPGAssignment.TRUE
          { fault_node := some 0, watcher := some 3, unassigned_ch_cnt := 1,
            atpg_ch := some [1, 4], watcher_pos := some 0, collected := true })
    ∧ forward_propagate_falsity 6 partial_initialised 1 = Except.ok or_child_false := by
  have h1 := (C22_or_evaluation 4 partial_initialised or_child_true 1 0 ATPGAssignment.TRUE
    { level := 0, type := NodeType.OR, parent := none, child_list := [1, 2, 3],
      num_children := 3, size_subformula := 6, atpg_info := some 0 }
    { fault_node := some 0, watcher := some 3, unassigned_ch_cnt := 1,
      atpg_ch := some [1, 4], watcher_pos := some 0, collected := true }
    { fault_node := some 4, assignment := ATPGAssignment.TRUE, justified := true,
      collected := true }
    rfl rfl rfl rfl rfl rfl rfl rfl rfl).1 rfl
  have h2 := ((C22_or_evaluation 4 partial_initialised or_child_false 1 0 ATPGAssignment.FALSE
    { level := 0, type := NodeType.OR, parent := none, child_list := [1, 2, 3],
      num_children := 3, size_subformula := 6, atpg_info := some 0 }
    { fault_node := some 0, watcher := some 3, unassigned_ch_cnt := 1,
      atpg_ch := some [1, 4], watcher_pos := some 0, collected := true }
    { fault_node := some 4, assignment := ATPGAssignment.FALSE, justified := true,
      collected := true }
    rfl rfl rfl rfl rfl rfl rfl rfl rfl).2 rfl).2.1 (by decide)
  exact ⟨h1, h2⟩

/-! ## Theorems: implication of children in backward propagation -/

theorem get_info_set_info_ne (s : Nenofex) (i j : Nat) (x : ATPGInfo) (h : j ≠ i) :
    get_info (set_info s i x) j = get_info s j := by
  unfold get_info set_info
  cases harr : s.atpg_rr.atpg_info_array with
  | none => rfl
  | some arr =>
    show deref (arr.set i x)[j]? = deref arr[j]?
    rw [List.getElem?_set_ne (Ne.symm h)]

theorem node_info_frame {s t : Nenofex} {n i : Nat} (hn : t.nodes = s.nodes)
    (hi : info_index s n = Except.ok i) (hj : ∀ j, j ≠ i → get_info t j = get_info s j)
    (m : Nat) (hm : info_index s m ≠ info_index s n) : node_info t m = node_info s m := by
  have e : info_index t m = info_index s m := by
    unfold info_index get_node
    rw [hn]
  unfold node_info
  rw [e]
  cases hx : info_index s m with
  | error e => rfl
  | ok j =>
    rw [hx, hi] at hm
    exact hj j (fun h => hm (by rw [h]))

theorem stack_reset_eq (t : Nenofex) (h : t.atpg_rr.bwd_prop_stack = []) :
    { t with atpg_rr.bwd_prop_stack := [] } = t := by
  have e : { t with atpg_rr.bwd_prop_stack := t.atpg_rr.bwd_prop_stack } = t := rfl
  rw [h] at e
  exact e

/-- The first two statements of a backward step for an operator node: the
node gets the value `v` and is collected. -/
theorem assign_and_collect (s : Nenofex) (n : Nat) (v : ATPGAssignment) (a : ATPGInfo)
    (h : node_info s n = Except.ok a) :
    ∃ t i, info_index s n = Except.ok i
      ∧ (node_assign s n v >>= fun u => collect_assigned_node u n) = Except.ok t
      ∧ node_info t n = Except.ok { a with assignment := v, collected := true }
      ∧ (∀ m, info_index s m ≠ info_index s n → node_info t m = node_info s m)
      ∧ t.nodes = s.nodes ∧ t.vars = s.vars
      ∧ t.atpg_rr.bwd_prop_stack = s.atpg_rr.bwd_prop_stack
      ∧ t.atpg_rr.conflict = s.atpg_rr.conflict := by
  obtain ⟨nd, i, arr, hn, hi, harr, ha⟩ := node_info_ok h
  have hlt : i < arr.length := getElem?_lt ha
  have hidx : info_index s n = Except.ok i := by
    unfold info_index
    simp only [get_node_of_getElem hn, ok_bind, hi, deref, pure_eq_ok]
  have h1 : node_assign s n v = Except.ok (log (set_info s i { a with assignment := v })
      (Event.node_assigned n v s.atpg_rr.prop_cutoff)) := by
    unfold node_assign info_index
    simp only [get_node_of_getElem hn, ok_bind, hi, deref, pure_eq_ok,
      get_info_of_getElem harr ha]
  have harr1 : (log (set_info s i { a with assignment := v })
      (Event.node_assigned n v s.atpg_rr.prop_cutoff)).atpg_rr.atpg_info_array
      = some (arr.set i { a with assignment := v }) := by
    show (s.atpg_rr.atpg_info_array.map _) = _
    rw [harr]
    rfl
  have ha1 : (arr.set i { a with assignment := v })[i]? = some { a with assignment := v } :=
    List.getElem?_set_self hlt
  have hn1 : (log (set_info s i { a with assignment := v })
      (Event.node_assigned n v s.atpg_rr.prop_cutoff)).nodes[n]? = some (some nd) := hn
  by_cases hcol : a.collected = true
  · have h2 : collect_assigned_node (log (set_info s i { a with assignment := v })
        (Event.node_assigned n v s.atpg_rr.prop_cutoff)) n
        = Except.ok (log (set_info s i { a with assignment := v })
          (Event.node_assigned n v s.atpg_rr.prop_cutoff)) := by
      unfold collect_assigned_node info_index
      simp only [get_node_of_getElem hn1, ok_bind, hi, deref, pure_eq_ok,
        get_info_of_getElem harr1 ha1]
      rw [if_neg (by simp [hcol])]
      try rfl
    have hrec : ({ a with assignment := v } : ATPGInfo)
        = { a with assignment := v, collected := true } := by
      cases a
      simp only at hcol
      simp only [hcol]
    have h3 := (bind_ok (f := fun u => collect_assigned_node u n)).mpr ⟨_, h1, h2⟩
    refine ⟨_, i, hidx, h3, ?_, ?_, rfl, rfl, rfl, rfl⟩
    · rw [← hrec]
      exact node_info_of hn1 hi harr1 ha1
    · exact node_info_frame rfl hidx (fun j hj => get_info_set_info_ne s i j _ hj)
  · have hcol2 : a.collected = false := eq_false_of_not_true hcol
    have h2 : collect_assigned_node (log (set_info s i { a with assignment := v })
        (Event.node_assigned n v s.atpg_rr.prop_cutoff)) n
        = Except.ok { set_info (log (set_info s i { a with assignment := v })
              (Event.node_assigned n v s.atpg_rr.prop_cutoff)) i
              { a with assignment := v, collected := true } with
            atpg_rr.touched_nodes := i :: s.atpg_rr.touched_nodes } := by
      unfold collect_assigned_node info_index
      simp only [get_node_of_getElem hn1, ok_bind, hi, deref, pure_eq_ok,
        get_info_of_getElem harr1 ha1]
      rw [if_pos (by simp [hcol2])]
      try rfl
    have h3 := (bind_ok (f := fun u => collect_assigned_node u n)).mpr ⟨_, h1, h2⟩
    refine ⟨_, i, hidx, h3, ?_, ?_, rfl, rfl, rfl, rfl⟩
    · refine @node_info_of _ n i nd ((arr.set i { a with assignment := v }).set i
        { a with assignment := v, collected := true }) _ hn hi ?_ ?_
      · show ((log (set_info s i { a with assignment := v })
          (Event.node_assigned n v s.atpg_rr.prop_cutoff)).atpg_rr.atpg_info_array.map _) = _
        rw [harr1]
        rfl
      · exact List.getElem?_set_self (by rw [List.length_set]; exact hlt)
    · refine node_info_frame rfl hidx (fun j hj => ?_)
      show get_info (set_info (log (set_info s i { a with assignment := v })
          (Event.node_assigned n v s.atpg_rr.prop_cutoff)) i
          { a with assignment := v, collected := true }) j = _
      rw [get_info_set_info_ne _ i j _ hj]
      exact get_info_set_info_ne s i j _ hj

/-- The statement `node->atpg_info->justified = 1` on a node with a
record. -/
theorem modify_node_info_eq (s : Nenofex) (n i : Nat) (f : ATPGInfo → ATPGInfo) (b : ATPGInfo)
    (hidx : info_index s n = Except.ok i) (h : node_info s n = Except.ok b) :
    modify_node_info s n f = Except.ok (set_info s i (f b))
      ∧ node_info (set_info s i (f b)) n = Except.ok (f b) := by
  obtain ⟨nd, i1, arr, hn, hi, harr, ha⟩ := node_info_ok h
  have hidx1 : info_index s n = Except.ok i1 := by
    unfold info_index
    simp only [get_node_of_getElem hn, ok_bind, hi, deref, pure_eq_ok]
  rw [hidx] at hidx1
  cases hidx1
  have hlt : i < arr.length := getElem?_lt ha
  refine ⟨?_, ?_⟩
  · unfold modify_node_info info_index
    simp only [get_node_of_getElem hn, ok_bind, hi, deref, pure_eq_ok,
      get_info_of_getElem harr ha]
  · refine @node_info_of _ n i nd (arr.set i (f b)) _ hn hi ?_ ?_
    · show (s.atpg_rr.atpg_info_array.map _) = _
      rw [harr]
      rfl
    · exact List.getElem?_set_self hlt

theorem node_assigned_eq {s : Nenofex} {c : Nat} {b : ATPGInfo}
    (h : node_info s c = Except.ok b) :
    node_assigned s c = Except.ok (!is_unassigned s c) := by
  unfold node_assigned is_unassigned assignment_of
  rw [h]
  cases hb : b.assignment <;> simp [hb, ok_bind, pure_eq_ok]

/-- The loop that pushes the unassigned children: applied to the children
from last to first, it leaves the unassigned children on the stack, the
first child on top. -/
theorem push_unassigned_children_spec (l : List Nat) :
    ∀ s : Nenofex, (∀ c ∈ l, ∃ b, node_info s c = Except.ok b) →
      push_unassigned_children s l
        = Except.ok { s with atpg_rr.bwd_prop_stack :=
            ((l.reverse.filter (is_unassigned s)).map some ++ s.atpg_rr.bwd_prop_stack) } := by
  induction l with
  | nil => intro s _; rfl
  | cons ch rest ih =>
    intro s h
    obtain ⟨b, hb⟩ := h ch (List.mem_cons_self _ _)
    have hrest : ∀ c ∈ rest, ∃ b, node_info s c = Except.ok b :=
      fun c hc => h c (List.mem_cons_of_mem _ hc)
    rw [push_unassigned_children]
    simp only [node_assigned_eq hb, ok_bind]
    cases hu : is_unassigned s ch with
    | false =>
      simp only [Bool.not_false, if_true]
      rw [ih s hrest]
      simp [List.filter_append, hu]
    | true =>
      simp only [Bool.not_true, Bool.false_eq_true, if_false]
      rw [ih { s with atpg_rr.bwd_prop_stack := some ch :: s.atpg_rr.bwd_prop_stack } hrest]
      have e : is_unassigned
          { s with atpg_rr.bwd_prop_stack := some ch :: s.atpg_rr.bwd_prop_stack }
          = is_unassigned s := rfl
      rw [e]
      simp [List.filter_append, hu]


theorem backward_propagate_truth_loop_empty (fuel : Nat) (t : Nenofex)
    (hc : t.atpg_rr.conflict = false) (hs : t.atpg_rr.bwd_prop_stack = []) :
    backward_propagate_truth_loop (fuel + 1) t = Except.ok t := by
  rw [backward_propagate_truth_loop]
  rw [if_neg (by simp [hc])]
  split
  · rfl
  · rename_i h1; rw [hs] at h1; cases h1
  · rename_i h1; rw [hs] at h1; cases h1

/-- The first step of `backward_propagate_truth` within budget. -/
theorem backward_propagate_truth_step (fuel : Nat) (s : Nenofex) (node : Nat)
    (hc : s.atpg_rr.conflict = false)
    (h : limit_exceeded (inc_bwd_prop_cnt s) = false) :
    backward_propagate_truth (fuel + 1) s (some node)
      = ((do
          let s := log_step (inc_bwd_prop_cnt s) false
          let nd ← get_node s node
          if nd.type = NodeType.LITERAL then
            let s ← backward_literal s node true
            backward_propagate_truth_loop fuel s
          else if nd.type = NodeType.AND then
            let s ← node_assign s node ATPGAssignment.TRUE
            let s ← collect_assigned_node s node
            let s ← push_unassigned_children s nd.child_list.reverse
            let s ← modify_node_info s node (fun a => { a with justified := true })
            backward_propagate_truth_loop fuel s
          else
            let s ← node_assign s node ATPGAssignment.TRUE
            let s ← collect_assigned_node s node
            let a ← node_info s node
            if a.unassigned_ch_cnt = 1 then
              let s := { s with atpg_rr.bwd_prop_stack := a.watcher :: s.atpg_rr.bwd_prop_stack }
              let s ← modify_node_info s node (fun a => { a with justified := true })
              backward_propagate_truth_loop fuel s
            else
              backward_propagate_truth_loop fuel s) >>= fun s1 =>
          pure { s1 with atpg_rr.bwd_prop_stack := [] }) := by
  unfold backward_propagate_truth
  rw [backward_truth_loop_step fuel
    { s with atpg_rr.bwd_prop_stack := some node :: s.atpg_rr.bwd_prop_stack } node
    s.atpg_rr.bwd_prop_stack hc rfl h]

theorem backward_propagate_truth_exceeded (fuel : Nat) (s : Nenofex) (node : Nat)
    (hc : s.atpg_rr.conflict = false) (hst : s.atpg_rr.bwd_prop_stack = [])
    (h : limit_exceeded (inc_bwd_prop_cnt s) = true) :
    backward_propagate_truth (fuel + 1) s (some node)
      = Except.ok (log_step { inc_bwd_prop_cnt s with atpg_rr.prop_cutoff := true } true) := by
  unfold backward_propagate_truth
  rw [backward_propagate_truth_loop_exceeded fuel
    { s with atpg_rr.bwd_prop_stack := some node :: s.atpg_rr.bwd_prop_stack } node
    s.atpg_rr.bwd_prop_stack hc rfl h]
  show Except.ok _ = Except.ok _
  congr 1
  exact stack_reset_eq (log_step { inc_bwd_prop_cnt s with atpg_rr.prop_cutoff := true } true) hst

/-- Backward truth into an `OR` within budget. -/
theorem backward_truth_implication (fuel : Nat) (s : Nenofex) (node : Nat) (nd : Node)
    (a : ATPGInfo) (hc : s.atpg_rr.conflict = false) (hst : s.atpg_rr.bwd_prop_stack = [])
    (h : limit_exceeded (inc_bwd_prop_cnt s) = false)
    (hn : get_node s node = Except.ok nd) (ha : node_info s node = Except.ok a)
    (hty : nd.type = NodeType.OR) :
    backward_implication_outcome (backward_propagate_truth (fuel + 2) s (some node))
      (backward_propagate_truth (fuel + 1)) s node a ATPGAssignment.TRUE := by
  have ha0 : node_info (log_step (inc_bwd_prop_cnt s) false) node = Except.ok a := ha
  have hn0 : get_node (log_step (inc_bwd_prop_cnt s) false) node = Except.ok nd := hn
  obtain ⟨t, i, hidx, hac, hti, hfr, htn, htv, hts, htc⟩ :=
    assign_and_collect (log_step (inc_bwd_prop_cnt s) false) node ATPGAssignment.TRUE a ha0
  obtain ⟨u, hu1, hu2⟩ := bind_ok.mp hac
  have hidxt : info_index t node = Except.ok i := by
    unfold info_index get_node
    rw [htn]
    exact hidx
  have hX := backward_propagate_truth_step (fuel + 1) s node hc h
  simp only [hn0, ok_bind, (by rw [hty]; decide : ¬ nd.type = NodeType.LITERAL), (by rw [hty]; decide : ¬ nd.type = NodeType.AND), if_true, if_false, hu1, hu2, hti] at hX
  refine ⟨t, hac, hti, fun m hm => hfr m hm, htv, fun hcnt => ?_, fun hcnt => ?_⟩
  · obtain ⟨hmod, hinfo⟩ := modify_node_info_eq t node i
      (fun a => { a with justified := true }) _ hidxt hti
    have hmod1 : modify_node_info
        { t with atpg_rr.bwd_prop_stack := a.watcher :: t.atpg_rr.bwd_prop_stack } node
        (fun a => { a with justified := true })
        = Except.ok (set_info
            { t with atpg_rr.bwd_prop_stack := a.watcher :: t.atpg_rr.bwd_prop_stack } i
            { a with assignment := ATPGAssignment.TRUE, collected := true,
                      justified := true }) :=
      (modify_node_info_eq
        { t with atpg_rr.bwd_prop_stack := a.watcher :: t.atpg_rr.bwd_prop_stack } node i
        (fun a => { a with justified := true }) _ hidxt hti).1
    refine ⟨_, hmod, hinfo, ?_⟩
    rw [hX, if_pos hcnt, hmod1]
    rfl
  · rw [hX, if_neg hcnt]
    have hte : backward_propagate_truth_loop (fuel + 1) t = Except.ok t :=
      backward_propagate_truth_loop_empty fuel t (by rw [htc]; exact hc) (by rw [hts]; exact hst)
    rw [hte]
    show Except.ok _ = Except.ok _
    congr 1
    exact stack_reset_eq t (by rw [hts]; exact hst)

/-- Backward truth into an `AND` within budget. -/
theorem backward_truth_push (fuel : Nat) (s : Nenofex) (node : Nat) (nd : Node)
    (a : ATPGInfo) (hc : s.atpg_rr.conflict = false) (hst : s.atpg_rr.bwd_prop_stack = [])
    (h : limit_exceeded (inc_bwd_prop_cnt s) = false)
    (hn : get_node s node = Except.ok nd) (ha : node_info s node = Except.ok a)
    (hty : nd.type = NodeType.AND) :
    backward_push_outcome (backward_propagate_truth (fuel + 2) s (some node))
      (backward_propagate_truth_loop (fuel + 1)) s node nd a ATPGAssignment.TRUE := by
  have ha0 : node_info (log_step (inc_bwd_prop_cnt s) false) node = Except.ok a := ha
  have hn0 : get_node (log_step (inc_bwd_prop_cnt s) false) node = Except.ok nd := hn
  obtain ⟨t, i, hidx, hac, hti, hfr, htn, htv, hts, htc⟩ :=
    assign_and_collect (log_step (inc_bwd_prop_cnt s) false) node ATPGAssignment.TRUE a ha0
  obtain ⟨u, hu1, hu2⟩ := bind_ok.mp hac
  have hidxt : info_index t node = Except.ok i := by
    unfold info_index get_node
    rw [htn]
    exact hidx
  have hX := backward_propagate_truth_step (fuel + 1) s node hc h
  simp only [hn0, ok_bind, (by rw [hty]; decide : ¬ nd.type = NodeType.LITERAL), hty, if_true, if_false, hu1, hu2] at hX
  refine ⟨t, hac, hti, fun hch => ?_⟩
  have hpush := push_unassigned_children_spec nd.child_list.reverse t
    (fun c hc1 => hch c (List.mem_reverse.mp hc1))
  rw [List.reverse_reverse, hts] at hpush
  have hst0 : (log_step (inc_bwd_prop_cnt s) false).atpg_rr.bwd_prop_stack = [] := hst
  rw [hst0, List.append_nil] at hpush
  obtain ⟨hmod, hinfo⟩ := modify_node_info_eq t node i
    (fun a => { a with justified := true }) _ hidxt hti
  have hmod1 : modify_node_info
      { t with atpg_rr.bwd_prop_stack := (nd.child_list.filter (is_unassigned t)).map some }
      node (fun a => { a with justified := true })
      = Except.ok (set_info
          { t with atpg_rr.bwd_prop_stack := (nd.child_list.filter (is_unassigned t)).map some }
          i { a with assignment := ATPGAssignment.TRUE, collected := true,
                     justified := true }) :=
    (modify_node_info_eq
      { t with atpg_rr.bwd_prop_stack := (nd.child_list.filter (is_unassigned t)).map some }
      node i (fun a => { a with justified := true }) _ hidxt hti).1
  refine ⟨_, hmod, hinfo, ?_⟩
  rw [hX, hpush, ok_bind, hmod1]
  rfl

theorem backward_propagate_falsity_loop_empty (fuel : Nat) (t : Nenofex)
    (hc : t.atpg_rr.conflict = false) (hs : t.atpg_rr.bwd_prop_stack = []) :
    backward_propagate_falsity_loop (fuel + 1) t = Except.ok t := by
  rw [backward_propagate_falsity_loop]
  rw [if_neg (by simp [hc])]
  split
  · rfl
  · rename_i h1; rw [hs] at h1; cases h1
  · rename_i h1; rw [hs] at h1; cases h1

/-- The first step of `backward_propagate_falsity` within budget. -/
theorem backward_propagate_falsity_step (fuel : Nat) (s : Nenofex) (node : Nat)
    (hc : s.atpg_rr.conflict = false)
    (h : limit_exceeded (inc_bwd_prop_cnt s) = false) :
    backward_propagate_falsity (fuel + 1) s (some node)
      = ((do
          let s := log_step (inc_bwd_prop_cnt s) false
          let nd ← get_node s node
          if nd.type = NodeType.LITERAL then
            let s ← backward_literal s node false
            backward_propagate_falsity_loop fuel s
          else if nd.type = NodeType.AND then
            let s ← node_assign s node ATPGAssignment.FALSE
            let s ← collect_assigned_node s node
            let a ← node_info s node
            if a.unassigned_ch_cnt = 1 then
              let s := { s with atpg_rr.bwd_prop_stack := a.watcher :: s.atpg_rr.bwd_prop_stack }
              let s ← modify_node_info s node (fun a => { a with justified := true })
              backward_propagate_falsity_loop fuel s
            else
              backward_propagate_falsity_loop fuel s
          else
            let s ← node_assign s node ATPGAssignment.FALSE
            let s ← collect_assigned_node s node
            let s ← push_unassigned_children s nd.child_list.reverse
            let s ← modify_node_info s node (fun a => { a with justified := true })
            backward_propagate_falsity_loop fuel s) >>= fun s1 =>
          pure { s1 with atpg_rr.bwd_prop_stack := [] }) := by
  unfold backward_propagate_falsity
  rw [backward_falsity_loop_step fuel
    { s with atpg_rr.bwd_prop_stack := some node :: s.atpg_rr.bwd_prop_stack } node
    s.atpg_rr.bwd_prop_stack hc rfl h]

theorem backward_propagate_falsity_exceeded (fuel : Nat) (s : Nenofex) (node : Nat)
    (hc : s.atpg_rr.conflict = false) (hst : s.atpg_rr.bwd_prop_stack = [])
    (h : limit_exceeded (inc_bwd_prop_cnt s) = true) :
    backward_propagate_falsity (fuel + 1) s (some node)
      = Except.ok (log_step { inc_bwd_prop_cnt s with atpg_rr.prop_cutoff := true } true) := by
  unfold backward_propagate_falsity
  rw [backward_propagate_falsity_loop_exceeded fuel
    { s with atpg_rr.bwd_prop_stack := some node :: s.atpg_rr.bwd_prop_stack } node
    s.atpg_rr.bwd_prop_stack hc rfl h]
  show Except.ok _ = Except.ok _
  congr 1
  exact stack_reset_eq (log_step { inc_bwd_prop_cnt s with atpg_rr.prop_cutoff := true } true) hst

/-- Backward falsity into an `AND` within budget. -/
theorem backward_falsity_implication (fuel : Nat) (s : Nenofex) (node : Nat) (nd : Node)
    (a : ATPGInfo) (hc : s.atpg_rr.conflict = false) (hst : s.atpg_rr.bwd_prop_stack = [])
    (h : limit_exceeded (inc_bwd_prop_cnt s) = false)
    (hn : get_node s node = Except.ok nd) (ha : node_info s node = Except.ok a)
    (hty : nd.type = NodeType.AND) :
    backward_implication_outcome (backward_propagate_falsity (fuel + 2) s (some node))
      (backward_propagate_falsity (fuel + 1)) s node a ATPGAssignment.FALSE := by
  have ha0 : node_info (log_step (inc_bwd_prop_cnt s) false) node = Except.ok a := ha
  have hn0 : get_node (log_step (inc_bwd_prop_cnt s) false) node = Except.ok nd := hn
  obtain ⟨t, i, hidx, hac, hti, hfr, htn, htv, hts, htc⟩ :=
    assign_and_collect (log_step (inc_bwd_prop_cnt s) false) node ATPGAssignment.FALSE a ha0
  obtain ⟨u, hu1, hu2⟩ := bind_ok.mp hac
  have hidxt : info_index t node = Except.ok i := by
    unfold info_index get_node
    rw [htn]
    exact hidx
  have hX := backward_propagate_falsity_step (fuel + 1) s node hc h
  simp only [hn0, ok_bind, (by rw [hty]; decide : ¬ nd.type = NodeType.LITERAL), hty, if_true, if_false, hu1, hu2, hti] at hX
  refine ⟨t, hac, hti, fun m hm => hfr m hm, htv, fun hcnt => ?_, fun hcnt => ?_⟩
  · obtain ⟨hmod, hinfo⟩ := modify_node_info_eq t node i
      (fun a => { a with justified := true }) _ hidxt hti
    have hmod1 : modify_node_info
        { t with atpg_rr.bwd_prop_stack := a.watcher :: t.atpg_rr.bwd_prop_stack } node
        (fun a => { a with justified := true })
        = Except.ok (set_info
            { t with atpg_rr.bwd_prop_stack := a.watcher :: t.atpg_rr.bwd_prop_stack } i
            { a with assignment := ATPGAssignment.FALSE, collected := true,
                      justified := true }) :=
      (modify_node_info_eq
        { t with atpg_rr.bwd_prop_stack := a.watcher :: t.atpg_rr.bwd_prop_stack } node i
        (fun a => { a with justified := true }) _ hidxt hti).1
    refine ⟨_, hmod, hinfo, ?_⟩
    rw [hX, if_pos hcnt, hmod1]
    rfl
  · rw [hX, if_neg hcnt]
    have hte : backward_propagate_falsity_loop (fuel + 1) t = Except.ok t :=
      backward_propagate_falsity_loop_empty fuel t (by rw [htc]; exact hc) (by rw [hts]; exact hst)
    rw [hte]
    show Except.ok _ = Except.ok _
    congr 1
    exact stack_reset_eq t (by rw [hts]; exact hst)

/-- Backward falsity into an `OR` within budget. -/
theorem backward_falsity_push (fuel : Nat) (s : Nenofex) (node : Nat) (nd : Node)
    (a : ATPGInfo) (hc : s.atpg_rr.conflict = false) (hst : s.atpg_rr.bwd_prop_stack = [])
    (h : limit_exceeded (inc_bwd_prop_cnt s) = false)
    (hn : get_node s node = Except.ok nd) (ha : node_info s node = Except.ok a)
    (hty : nd.type = NodeType.OR) :
    backward_push_outcome (backward_propagate_falsity (fuel + 2) s (some node))
      (backward_propagate_falsity_loop (fuel + 1)) s node nd a ATPGAssignment.FALSE := by
  have ha0 : node_info (log_step (inc_bwd_prop_cnt s) false) node = Except.ok a := ha
  have hn0 : get_node (log_step (inc_bwd_prop_cnt s) false) node = Except.ok nd := hn
  obtain ⟨t, i, hidx, hac, hti, hfr, htn, htv, hts, htc⟩ :=
    assign_and_collect (log_step (inc_bwd_prop_cnt s) false) node ATPGAssignment.FALSE a ha0
  obtain ⟨u, hu1, hu2⟩ := bind_ok.mp hac
  have hidxt : info_index t node = Except.ok i := by
    unfold info_index get_node
    rw [htn]
    exact hidx
  have hX := backward_propagate_falsity_step (fuel + 1) s node hc h
  simp only [hn0, ok_bind, (by rw [hty]; decide : ¬ nd.type = NodeType.LITERAL), (by rw [hty]; decide : ¬ nd.type = NodeType.AND), if_true, if_false, hu1, hu2] at hX
  refine ⟨t, hac, hti, fun hch => ?_⟩
  have hpush := push_unassigned_children_spec nd.child_list.reverse t
    (fun c hc1 => hch c (List.mem_reverse.mp hc1))
  rw [List.reverse_reverse, hts] at hpush
  have hst0 : (log_step (inc_bwd_prop_cnt s) false).atpg_rr.bwd_prop_stack = [] := hst
  rw [hst0, List.append_nil] at hpush
  obtain ⟨hmod, hinfo⟩ := modify_node_info_eq t node i
    (fun a => { a with justified := true }) _ hidxt hti
  have hmod1 : modify_node_info
      { t with atpg_rr.bwd_prop_stack := (nd.child_list.filter (is_unassigned t)).map some }
      node (fun a => { a with justified := true })
      = Except.ok (set_info
          { t with atpg_rr.bwd_prop_stack := (nd.child_list.filter (is_unassigned t)).map some }
          i { a with assignment := ATPGAssignment.FALSE, collected := true,
                     justified := true }) :=
    (modify_node_info_eq
      { t with atpg_rr.bwd_prop_stack := (nd.child_list.filter (is_unassigned t)).map some }
      node i (fun a => { a with justified := true }) _ hidxt hti).1
  refine ⟨_, hmod, hinfo, ?_⟩
  rw [hX, hpush, ok_bind, hmod1]
  rfl

theorem single_unassigned_child (s : Nenofex) (node : Nat) (a : ATPGInfo)
    (ha : node_info s node = Except.ok a) (hco : counter_ok s node)
    (hcnt : a.unassigned_ch_cnt = 1) (w : Nat) (hw : a.watcher = some w) :
    (participating_children s node).filter (is_unassigned s) = [w] := by
  obtain ⟨a1, ha1, hc1, hw1⟩ := hco
  rw [ha] at ha1
  cases ha1
  rw [hcnt] at hc1
  have hlen : ((participating_children s node).filter (is_unassigned s)).length = 1 := hc1.symm
  have hmem : w ∈ (participating_children s node).filter (is_unassigned s) := by
    cases hw1 with
    | inl h0 => rw [hw] at h0; cases h0
    | inr h1 =>
      obtain ⟨w1, hw2, hin, hun⟩ := h1
      rw [hw] at hw2
      cases hw2
      exact List.mem_filter.mpr ⟨hin, hun⟩
  obtain ⟨x, hx⟩ := List.length_eq_one.mp hlen
  rw [hx] at hmem ⊢
  rw [List.mem_singleton.mp hmem]

/-- C23 (backward implication of the last unassigned child, amended). Let
`backward_propagate_truth` or `backward_propagate_falsity` be called for
the operator node `node` with the record `a`, with no conflict and an empty
stack. If the first step is within budget: truth into an `OR` and falsity
into an `AND` assign the node the value and collect it, leaving the records
of all other nodes and the variables untouched; if the counter of the node
is 1 the node is marked justified and the same value is backward-propagated
into the watcher (`backward_implication_outcome`), otherwise the call returns
with only the node assigned, unjustified unless it was before. Truth into an
`AND` and falsity into an `OR` assign the node, mark it justified and go on
with a stack holding exactly the unassigned children
(`backward_push_outcome`). If the first step exceeds the budget, the call only
raises the cutoff and the node keeps its record. If the node satisfies the
counter invariant and its counter is 1, its watcher, when not null, is the
only unassigned participating child. -/
theorem C23_backward_implication (fuel : Nat) (s : Nenofex) (node : Nat) (nd : Node)
    (a : ATPGInfo) (hc : s.atpg_rr.conflict = false) (hst : s.atpg_rr.bwd_prop_stack = [])
    (hn : get_node s node = Except.ok nd) (ha : node_info s node = Except.ok a) :
    (limit_exceeded (inc_bwd_prop_cnt s) = false →
        (nd.type = NodeType.OR →
          backward_implication_outcome (backward_propagate_truth (fuel + 2) s (some node))
            (backward_propagate_truth (fuel + 1)) s node a ATPGAssignment.TRUE)
        ∧ (nd.type = NodeType.AND →
          backward_implication_outcome (backward_propagate_falsity (fuel + 2) s (some node))
            (backward_propagate_falsity (fuel + 1)) s node a ATPGAssignment.FALSE)
        ∧ (nd.type = NodeType.AND →
          backward_push_outcome (backward_propagate_truth (fuel + 2) s (some node))
            (backward_propagate_truth_loop (fuel + 1)) s node nd a ATPGAssignment.TRUE)
        ∧ (nd.type = NodeType.OR →
          backward_push_outcome (backward_propagate_falsity (fuel + 2) s (some node))
            (backward_propagate_falsity_loop (fuel + 1)) s node nd a ATPGAssignment.FALSE))
    ∧ (limit_exceeded (inc_bwd_prop_cnt s) = true →
        backward_cutoff_outcome (backward_propagate_truth (fuel + 2) s (some node)) s node a
        ∧ backward_cutoff_outcome (backward_propagate_falsity (fuel + 2) s (some node)) s node a)
    ∧ (counter_ok s node → a.unassigned_ch_cnt = 1 → ∀ w, a.watcher = some w →
        (participating_children s node).filter (is_unassigned s) = [w]) := by
  refine ⟨fun h => ⟨fun hty => ?_, fun hty => ?_, fun hty => ?_, fun hty => ?_⟩,
    fun h => ⟨⟨?_, ha⟩, ⟨?_, ha⟩⟩, fun hco hcnt w hw => ?_⟩
  · exact backward_truth_implication fuel s node nd a hc hst h hn ha hty
  · exact backward_falsity_implication fuel s node nd a hc hst h hn ha hty
  · exact backward_truth_push fuel s node nd a hc hst h hn ha hty
  · exact backward_falsity_push fuel s node nd a hc hst h hn ha hty
  · exact backward_propagate_truth_exceeded (fuel + 1) s node hc hst h
  · exact backward_propagate_falsity_exceeded (fuel + 1) s node hc hst h
  · exact single_unassigned_child s node a ha hco hcnt w hw

set_option maxRecDepth 100000 in
/-- C23, counterexample: `budget_zero_state` is the prepared pass on
`a | x | (b & !a)` with an exhausted budget. `backward_propagate_truth` on
the unassigned root `OR` (node 0) exceeds the budget with its first step:
the call returns with the cutoff raised and the root still unassigned. -/
theorem C23_cutoff_leaves_node_unassigned :
    (backward_propagate_truth 5 budget_zero_state (some 0)).map
        (fun s1 => (assignment_of s1 0, s1.atpg_rr.prop_cutoff))
      = Except.ok (some ATPGAssignment.UNDEFINED, true) := by
  rfl

set_option maxRecDepth 100000 in
/-- C23, witness: in `or_child_false` (the literal `a` of `a | x | (b & !a)`
is assigned false) the root `OR` (node 0) has the counter 1 and the watcher
node 3; backward truth into the root assigns it, marks it justified and
continues with the watcher. -/
theorem C23_backward_implication_witness :
    backward_implication_outcome (backward_propagate_truth 6 or_child_false (some 0))
      (backward_propagate_truth 5) or_child_false 0
      { fault_node := some 0, watcher := some 3, unassigned_ch_cnt := 1,
        atpg_ch := some [1, 4], watcher_pos := some 0, collected := true }
      ATPGAssignment.TRUE :=
  ((C23_backward_implication 4 or_child_false 0
    { level := 0, type := NodeType.OR, parent := none, child_list := [1, 2, 3],
      num_children := 3, size_subformula := 6, atpg_info := some 0 }
    { fault_node := some 0, watcher := some 3, unassigned_ch_cnt := 1,
      atpg_ch := some [1, 4], watcher_pos := some 0, collected := true }
    rfl rfl rfl rfl).1 rfl).1 rfl

/-! ## Theorems: the counter and the watcher of an operator node -/

theorem filter_length_flip (q0 q : Nat → Bool) (c : Nat) :
    ∀ L : List Nat, L.Nodup → c ∈ L → q0 c = true → q c = false →
      (∀ m ∈ L, m ≠ c → q m = q0 m) → (L.filter q).length + 1 = (L.filter q0).length := by
  intro L
  induction L with
  | nil => intro _ h; cases h
  | cons x r ih =>
    intro hnd hc h0 h1 hm
    have hx : x ∉ r := (List.nodup_cons.mp hnd).1
    have hr : r.Nodup := (List.nodup_cons.mp hnd).2
    by_cases hcx : c = x
    · subst hcx
      have e : r.filter q = r.filter q0 := by
        apply List.filter_congr
        intro m hmr
        exact hm m (List.mem_cons_of_mem _ hmr) (fun h => hx (h ▸ hmr))
      simp [List.filter_cons, h0, h1, e]
    · have hcr : c ∈ r := by
        cases List.mem_cons.mp hc with
        | inl h => exact (hcx h).elim
        | inr h => exact h
      have hqx : q x = q0 x := hm x (List.mem_cons_self _ _) (fun h => hcx h.symm)
      have ih1 := ih hr hcr h0 h1 (fun m hmr => hm m (List.mem_cons_of_mem _ hmr))
      cases hq : q0 x <;> simp [List.filter_cons, hqx, hq] <;> omega

theorem find_split (q : Nat → Bool) (pre post : List Nat) (w : Nat)
    (hpre : ∀ x ∈ pre, q x = false) :
    (pre ++ w :: post).find? q = if q w = true then some w else post.find? q := by
  induction pre with
  | nil => cases hq : q w <;> simp [List.find?_cons, hq]
  | cons x r ih =>
    have hx : q x = false := hpre x (List.mem_cons_self _ _)
    rw [List.cons_append, List.find?_cons, hx]
    exact ih (fun y hy => hpre y (List.mem_cons_of_mem _ hy))

theorem takeWhile_split (q : Nat → Bool) (pre post : List Nat) (w : Nat)
    (hpre : ∀ x ∈ pre, q x = false) :
    (pre ++ w :: post).takeWhile (fun c => !q c)
      = if q w = true then pre else pre ++ w :: post.takeWhile (fun c => !q c) := by
  induction pre with
  | nil => cases hq : q w <;> simp [List.takeWhile_cons, hq]
  | cons x r ih =>
    have hx : q x = false := hpre x (List.mem_cons_self _ _)
    rw [List.cons_append, List.takeWhile_cons]
    simp only [hx, Bool.not_false, if_true]
    rw [ih (fun y hy => hpre y (List.mem_cons_of_mem _ hy))]
    cases hq : q w <;> simp

theorem filter_split (q : Nat → Bool) (pre post : List Nat) (w : Nat)
    (hpre : ∀ x ∈ pre, q x = false) :
    ((pre ++ w :: post).filter q).length
      = (if q w = true then 1 else 0) + (post.filter q).length := by
  have e : pre.filter q = [] := List.filter_eq_nil_iff.mpr (fun x hx => by simp [hpre x hx])
  rw [List.filter_append, e, List.nil_append, List.filter_cons]
  cases hq : q w <;> simp <;> omega

theorem find_none_takeWhile (q : Nat → Bool) (l : List Nat) :
    (l.find? q = none ↔ (l.takeWhile (fun c => !q c)).length = l.length)
    ∧ (∀ x, l.find? q = some x → (l.takeWhile (fun c => !q c)).length < l.length) := by
  induction l with
  | nil => simp
  | cons y r ih =>
    cases hq : q y with
    | true => simp [List.find?_cons, List.takeWhile_cons, hq]
    | false =>
      simp only [List.find?_cons, List.takeWhile_cons, hq, Bool.not_false, if_true,
        List.length_cons, Nat.add_right_cancel_iff, Nat.add_lt_add_iff_right]
      exact ih

theorem participating_children_eq {s : Nenofex} {p : Nat} {nd : Node} {a : ATPGInfo}
    (hn : s.nodes[p]? = some (some nd)) (h : node_info s p = Except.ok a) :
    participating_children s p
      = (match a.atpg_ch with
        | some ch => ch.filterMap (fun f => (s.atpg_rr.fault_nodes[f]?).map (fun fn => fn.node))
        | none => nd.child_list) := by
  unfold participating_children
  rw [hn, h]
  try rfl

theorem participating_children_congr {s0 s : Nenofex} (p : Nat) (hn : s.nodes = s0.nodes)
    (hf : s.atpg_rr.fault_nodes = s0.atpg_rr.fault_nodes)
    (hp : node_info s p = node_info s0 p) :
    participating_children s p = participating_children s0 p := by
  unfold participating_children
  rw [hn, hf, hp]

theorem assignment_of_eq_some {s : Nenofex} {n : Nat} {v : ATPGAssignment}
    (h : assignment_of s n = some v) : ∃ b, node_info s n = Except.ok b ∧ b.assignment = v := by
  unfold assignment_of at h
  cases hx : node_info s n with
  | error e => rw [hx] at h; cases h
  | ok b =>
    rw [hx] at h
    exact ⟨b, rfl, Option.some.inj h⟩

theorem is_unassigned_false_of {s : Nenofex} {n : Nat} {v : ATPGAssignment}
    (h : assignment_of s n = some v) (hv : v ≠ ATPGAssignment.UNDEFINED) :
    is_unassigned s n = false := by
  unfold is_unassigned
  rw [h]
  simp [hv]

theorem is_unassigned_true_of {s : Nenofex} {n : Nat}
    (h : assignment_of s n = some ATPGAssignment.UNDEFINED) : is_unassigned s n = true := by
  unfold is_unassigned
  rw [h]
  simp

theorem set_info_array_eq (s : Nenofex) (i : Nat) (x : ATPGInfo) (arr : List ATPGInfo)
    (harr : s.atpg_rr.atpg_info_array = some arr) :
    (set_info s i x).atpg_rr.atpg_info_array = some (arr.set i x) := by
  show (s.atpg_rr.atpg_info_array.map _) = _
  rw [harr]
  rfl

/-- Storing a record with the same assignment leaves the assignment of
every node unchanged. -/
theorem assignment_of_set_info (s : Nenofex) (i : Nat) (arr : List ATPGInfo) (a a1 : ATPGInfo)
    (harr : s.atpg_rr.atpg_info_array = some arr) (ha : arr[i]? = some a)
    (h : a1.assignment = a.assignment) (m : Nat) :
    assignment_of (set_info s i a1) m = assignment_of s m := by
  have hidx : info_index (set_info s i a1) m = info_index s m := rfl
  unfold assignment_of node_info
  rw [hidx]
  cases hj : info_index s m with
  | error e => rfl
  | ok j =>
    simp only [ok_bind]
    by_cases hji : j = i
    · subst hji
      have hlt : j < arr.length := getElem?_lt ha
      have h1 : get_info (set_info s j a1) j = Except.ok a1 := by
        exact get_info_of_getElem (set_info_array_eq s j a1 arr harr)
          (List.getElem?_set_self hlt)
      rw [h1, get_info_of_getElem harr ha]
      show some a1.assignment = some a.assignment
      rw [h]
    · rw [get_info_set_info_ne s i j a1 hji]

theorem is_unassigned_set_info (s : Nenofex) (i : Nat) (arr : List ATPGInfo) (a a1 : ATPGInfo)
    (harr : s.atpg_rr.atpg_info_array = some arr) (ha : arr[i]? = some a)
    (h : a1.assignment = a.assignment) :
    is_unassigned (set_info s i a1) = is_unassigned s := by
  funext m
  unfold is_unassigned
  rw [assignment_of_set_info s i arr a a1 harr ha h m]

theorem node_assigned_of_info {s : Nenofex} {c : Nat} (h : ∃ b, node_info s c = Except.ok b) :
    node_assigned s c = Except.ok (!is_unassigned s c) := by
  obtain ⟨b, hb⟩ := h
  exact node_assigned_eq hb

/-- The loop of `update_watcher_by_child_list` returns the first unassigned
node of the list. -/
theorem scan_child_list_spec (s : Nenofex) :
    ∀ l : List Nat, (∀ c ∈ l, ∃ b, node_info s c = Except.ok b) →
      scan_child_list s l = Except.ok (l.find? (is_unassigned s)) := by
  intro l
  induction l with
  | nil => intro _; rfl
  | cons c r ih =>
    intro h
    rw [scan_child_list]
    simp only [node_assigned_of_info (h c (List.mem_cons_self _ _)), ok_bind]
    cases hu : is_unassigned s c with
    | true =>
      simp only [Bool.not_true, Bool.false_eq_true, if_false, List.find?_cons, hu]
      rfl
    | false =>
      simp only [Bool.not_false, if_true, List.find?_cons, hu]
      exact ih (fun x hx => h x (List.mem_cons_of_mem _ hx))

/-- The loop of `update_watcher_by_watcher_list` returns the first
unassigned node of the handles and its position. -/
theorem scan_watcher_list_spec (s : Nenofex) :
    ∀ (fs : List Nat) (cur : Nat),
      (∀ f ∈ fs, ∃ fn, s.atpg_rr.fault_nodes[f]? = some fn) →
      (∀ c ∈ fs.filterMap (fun f => (s.atpg_rr.fault_nodes[f]?).map (fun fn => fn.node)),
        ∃ b, node_info s c = Except.ok b) →
      scan_watcher_list s fs cur
        = Except.ok
          ((fs.filterMap (fun f => (s.atpg_rr.fault_nodes[f]?).map (fun fn => fn.node))).find?
              (is_unassigned s),
            cur + ((fs.filterMap (fun f =>
              (s.atpg_rr.fault_nodes[f]?).map (fun fn => fn.node))).takeWhile
                (fun c => !is_unassigned s c)).length) := by
  intro fs
  induction fs with
  | nil => intro cur _ _; rfl
  | cons f r ih =>
    intro cur hf hc
    obtain ⟨fn, hfn⟩ := hf f (List.mem_cons_self _ _)
    have hfm : (f :: r).filterMap (fun f => (s.atpg_rr.fault_nodes[f]?).map (fun fn => fn.node))
        = fn.node :: r.filterMap (fun f => (s.atpg_rr.fault_nodes[f]?).map (fun fn => fn.node)) := by
      rw [List.filterMap_cons, hfn]
      rfl
    rw [hfm] at hc ⊢
    have hg : get_fault_node s f = Except.ok fn := by
      unfold get_fault_node
      rw [hfn]
      rfl
    rw [scan_watcher_list]
    simp only [hg, ok_bind, node_assigned_of_info (hc fn.node (List.mem_cons_self _ _))]
    cases hu : is_unassigned s fn.node with
    | true =>
      simp only [Bool.not_true, Bool.false_eq_true, if_false, List.find?_cons,
        List.takeWhile_cons, hu, List.length_nil, Nat.add_zero]
      rfl
    | false =>
      simp only [Bool.not_false, if_true, List.find?_cons, List.takeWhile_cons, hu,
        List.length_cons]
      rw [ih (cur + 1) (fun x hx => hf x (List.mem_cons_of_mem _ hx))
        (fun x hx => hc x (List.mem_cons_of_mem _ hx))]
      congr 2
      omega

theorem filterMap_drop {β : Type} (g : Nat → Option β) :
    ∀ (ch : List Nat) (n : Nat), (∀ f ∈ ch, ∃ b, g f = some b) →
      (ch.drop n).filterMap g = (ch.filterMap g).drop n := by
  intro ch
  induction ch with
  | nil => intro n _; simp
  | cons f r ih =>
    intro n h
    obtain ⟨b, hb⟩ := h f (List.mem_cons_self _ _)
    cases n with
    | zero => rfl
    | succ k =>
      rw [List.drop_succ_cons, List.filterMap_cons, hb]
      exact ih k (fun x hx => h x (List.mem_cons_of_mem _ hx))

theorem filterMap_length {β : Type} (g : Nat → Option β) :
    ∀ ch : List Nat, (∀ f ∈ ch, ∃ b, g f = some b) → (ch.filterMap g).length = ch.length := by
  intro ch
  induction ch with
  | nil => intro _; rfl
  | cons f r ih =>
    intro h
    obtain ⟨b, hb⟩ := h f (List.mem_cons_self _ _)
    rw [List.filterMap_cons, hb]
    simp only [List.length_cons]
    rw [ih (fun x hx => h x (List.mem_cons_of_mem _ hx))]

theorem node_info_set_info_self {s : Nenofex} {p i : Nat} {nd : Node} {arr : List ATPGInfo}
    (x : ATPGInfo) (hn : s.nodes[p]? = some (some nd)) (hi : nd.atpg_info = some i)
    (harr : s.atpg_rr.atpg_info_array = some arr) (hlt : i < arr.length) :
    node_info (set_info s i x) p = Except.ok x :=
  @node_info_of (set_info s i x) p i nd (arr.set i x) x hn hi (set_info_array_eq s i x arr harr)
    (List.getElem?_set_self hlt)

/-- A state whose record of `p` has the right counter, watcher and position
satisfies the invariant. -/
theorem watcher_first_of_record {s s2 : Nenofex} {p : Nat} {nd : Node} {a a2 : ATPGInfo}
    {L : List Nat} (hn : s.nodes[p]? = some (some nd)) (ha : node_info s p = Except.ok a)
    (hL : participating_children s p = L)
    (hn2 : s2.nodes[p]? = some (some nd)) (h2 : node_info s2 p = Except.ok a2)
    (hatpg : a2.atpg_ch = a.atpg_ch)
    (hfn : s2.atpg_rr.fault_nodes = s.atpg_rr.fault_nodes)
    (hq : is_unassigned s2 = is_unassigned s)
    (hcnt : a2.unassigned_ch_cnt = (L.filter (is_unassigned s)).length)
    (hwat : a2.watcher = L.find? (is_unassigned s))
    (hpos : ∀ ch, a.atpg_ch = some ch →
      a2.watcher_pos = some (L.takeWhile (fun c => !is_unassigned s c)).length) :
    watcher_first s2 p := by
  have hL2 : participating_children s2 p = L := by
    rw [participating_children_eq hn2 h2, hatpg, hfn, ← participating_children_eq hn ha, hL]
  refine ⟨a2, h2, ?_, ?_, ?_⟩
  · unfold unassigned_count
    rw [hL2, hq, hcnt]
  · rw [hL2, hq, hwat]
  · intro ch hch
    rw [hL2, hq]
    exact hpos ch (by rw [← hatpg]; exact hch)

theorem dropWhile_ne (w : Nat) (post : List Nat) :
    ∀ pre : List Nat, w ∉ pre → (pre ++ w :: post).dropWhile (fun c => c != w) = w :: post := by
  intro pre
  induction pre with
  | nil => intro _; simp [List.dropWhile_cons]
  | cons x r ih =>
    intro h
    have hx : x ≠ w := fun e => h (e ▸ List.mem_cons_self _ _)
    rw [List.cons_append, List.dropWhile_cons]
    simp only [bne_iff_ne, ne_eq, hx, not_false_eq_true, if_true]
    exact ih (fun hw => h (List.mem_cons_of_mem _ hw))

/-- The watcher update through the child list: the watcher becomes the
first unassigned child. -/
theorem update_watcher_by_child_list_spec (s : Nenofex) (p i : Nat) (nd : Node)
    (arr : List ATPGInfo) (a : ATPGInfo) (pre post : List Nat) (w : Nat)
    (hn : s.nodes[p]? = some (some nd)) (hi : nd.atpg_info = some i)
    (harr : s.atpg_rr.atpg_info_array = some arr) (harri : arr[i]? = some a)
    (hcl : nd.child_list = pre ++ w :: post) (hwpre : w ∉ pre)
    (hinfo : ∀ c ∈ pre ++ w :: post, ∃ b, node_info s c = Except.ok b)
    (hpar : ∀ c ∈ pre ++ w :: post, ∃ cnd, get_node s c = Except.ok cnd ∧ cnd.parent = some p)
    (hpre : ∀ x ∈ pre, is_unassigned s x = false)
    (hw : a.watcher = some w) :
    ∃ s2 a2, update_watcher_by_child_list s p = Except.ok s2
      ∧ s2.nodes = s.nodes ∧ s2.atpg_rr.fault_nodes = s.atpg_rr.fault_nodes
      ∧ node_info s2 p = Except.ok a2
      ∧ (∀ m, assignment_of s2 m = assignment_of s m)
      ∧ a2.atpg_ch = a.atpg_ch ∧ a2.unassigned_ch_cnt = a.unassigned_ch_cnt
      ∧ a2.watcher = (pre ++ w :: post).find? (is_unassigned s)
      ∧ a2.watcher_pos = a.watcher_pos := by
  have hlt : i < arr.length := getElem?_lt harri
  have hidx : info_index s p = Except.ok i := by
    unfold info_index
    simp only [get_node_of_getElem hn, ok_bind, hi, deref, pure_eq_ok]
  have hwin : w ∈ pre ++ w :: post := List.mem_append_right _ (List.mem_cons_self _ _)
  have hna := node_assigned_of_info (hinfo w hwin)
  rw [find_split (is_unassigned s) pre post w hpre]
  cases hu : is_unassigned s w with
  | true =>
    refine ⟨s, a, ?_, rfl, rfl, node_info_of hn hi harr harri, fun m => rfl, rfl, rfl, ?_, rfl⟩
    · unfold update_watcher_by_child_list
      simp only [hidx, ok_bind, get_info_of_getElem harr harri, hw, deref, pure_eq_ok, hna, hu,
        Bool.not_true, Bool.false_eq_true, if_false]
    · simp only [if_true]
      exact hw
  | false =>
    obtain ⟨cnd, hcnd, hcp⟩ := hpar w hwin
    have hafter : level_link_after s w = Except.ok post := by
      unfold level_link_after
      simp only [hcnd, ok_bind, hcp, get_node_of_getElem hn, pure_eq_ok, hcl,
        dropWhile_ne w post pre hwpre, List.drop_succ_cons, List.drop_zero]
    have hscan : scan_child_list s post = Except.ok (post.find? (is_unassigned s)) :=
      scan_child_list_spec s post (fun c hc =>
        hinfo c (List.mem_append_right _ (List.mem_cons_of_mem _ hc)))
    refine ⟨set_info s i { a with watcher := post.find? (is_unassigned s) },
      { a with watcher := post.find? (is_unassigned s) }, ?_, rfl, rfl,
      node_info_set_info_self _ hn hi harr hlt,
      fun m => assignment_of_set_info s i arr a
        { a with watcher := post.find? (is_unassigned s) } harr harri rfl m, rfl, rfl, ?_, rfl⟩
    · unfold update_watcher_by_child_list
      simp only [hidx, ok_bind, get_info_of_getElem harr harri, hw, deref, pure_eq_ok, hna, hu,
        Bool.not_false, if_true, hafter, hscan]
    · simp only [Bool.false_eq_true, if_false]

/-- The watcher update through the restricted watcher list: the watcher
becomes the first unassigned node of the list, and `watcher_pos` its
position. -/
theorem update_watcher_by_watcher_list_spec (s : Nenofex) (p i : Nat) (nd : Node)
    (arr : List ATPGInfo) (a : ATPGInfo) (ch pre post : List Nat) (w : Nat)
    (hn : s.nodes[p]? = some (some nd)) (hi : nd.atpg_info = some i)
    (harr : s.atpg_rr.atpg_info_array = some arr) (harri : arr[i]? = some a)
    (hch : a.atpg_ch = some ch)
    (hfm : ch.filterMap (fun f => (s.atpg_rr.fault_nodes[f]?).map (fun fn => fn.node))
      = pre ++ w :: post)
    (hres : ∀ f ∈ ch, ∃ fn, s.atpg_rr.fault_nodes[f]? = some fn)
    (hinfo : ∀ c ∈ pre ++ w :: post, ∃ b, node_info s c = Except.ok b)
    (hpre : ∀ x ∈ pre, is_unassigned s x = false)
    (hw : a.watcher = some w) (hpos : a.watcher_pos = some pre.length) :
    ∃ s2 a2, update_watcher_by_watcher_list s p = Except.ok s2
      ∧ s2.nodes = s.nodes ∧ s2.atpg_rr.fault_nodes = s.atpg_rr.fault_nodes
      ∧ node_info s2 p = Except.ok a2
      ∧ (∀ m, assignment_of s2 m = assignment_of s m)
      ∧ a2.atpg_ch = a.atpg_ch ∧ a2.unassigned_ch_cnt = a.unassigned_ch_cnt
      ∧ a2.watcher = (pre ++ w :: post).find? (is_unassigned s)
      ∧ a2.watcher_pos
          = some ((pre ++ w :: post).takeWhile (fun c => !is_unassigned s c)).length := by
  have hlt : i < arr.length := getElem?_lt harri
  have hidx : info_index s p = Except.ok i := by
    unfold info_index
    simp only [get_node_of_getElem hn, ok_bind, hi, deref, pure_eq_ok]
  have hwin : w ∈ pre ++ w :: post := List.mem_append_right _ (List.mem_cons_self _ _)
  have hna := node_assigned_of_info (hinfo w hwin)
  rw [find_split (is_unassigned s) pre post w hpre,
    takeWhile_split (is_unassigned s) pre post w hpre]
  cases hu : is_unassigned s w with
  | true =>
    refine ⟨s, a, ?_, rfl, rfl, node_info_of hn hi harr harri, fun m => rfl, rfl, rfl, ?_, ?_⟩
    · unfold update_watcher_by_watcher_list
      simp only [hidx, ok_bind, get_info_of_getElem harr harri, hw, deref, pure_eq_ok, hna, hu,
        Bool.not_true, Bool.false_eq_true, if_false]
    · simp only [if_true]
      exact hw
    · simp only [if_true]
      exact hpos
  | false =>
    have hres1 : ∀ f ∈ ch, ∃ b,
        (fun f => (s.atpg_rr.fault_nodes[f]?).map (fun fn => fn.node)) f = some b := by
      intro f hf
      obtain ⟨fn, hfn⟩ := hres f hf
      exact ⟨fn.node, by simp only [hfn, Option.map_some']⟩
    have hdrop : (ch.drop (pre.length + 1)).filterMap
        (fun f => (s.atpg_rr.fault_nodes[f]?).map (fun fn => fn.node)) = post := by
      rw [filterMap_drop _ ch (pre.length + 1) hres1, hfm]
      simp
    have hlen : ch.length = pre.length + 1 + post.length := by
      rw [← filterMap_length _ ch hres1, hfm]
      simp only [List.length_append, List.length_cons]
      omega
    have hscan := scan_watcher_list_spec s (ch.drop (pre.length + 1)) (pre.length + 1)
      (fun f hf => hres f (List.mem_of_mem_drop hf))
      (by
        rw [hdrop]
        exact fun c hc => hinfo c (List.mem_append_right _ (List.mem_cons_of_mem _ hc)))
    rw [hdrop] at hscan
    have hkey := find_none_takeWhile (is_unassigned s) post
    cases hf : post.find? (is_unassigned s) with
    | none =>
      have htw : (post.takeWhile (fun c => !is_unassigned s c)).length = post.length :=
        hkey.1.mp hf
      refine ⟨set_info s i { a with watcher := none, watcher_pos := some ch.length },
        { a with watcher := none, watcher_pos := some ch.length }, ?_, rfl, rfl,
        node_info_set_info_self _ hn hi harr hlt,
        fun m => assignment_of_set_info s i arr a
          { a with watcher := none, watcher_pos := some ch.length } harr harri rfl m,
        rfl, rfl, ?_, ?_⟩
      · unfold update_watcher_by_watcher_list
        simp only [hidx, ok_bind, get_info_of_getElem harr harri, hw, deref, pure_eq_ok, hna,
          hu, Bool.not_false, if_true, hch, hpos, hscan, hf, htw]
        rw [if_pos (by omega)]
      · simp only [Bool.false_eq_true, if_false]
      · simp only [Bool.false_eq_true, if_false, List.length_append, List.length_cons, htw]
        show some ch.length = _
        rw [hlen]
        congr 1
        omega
    | some x =>
      have htw : (post.takeWhile (fun c => !is_unassigned s c)).length < post.length :=
        hkey.2 x hf
      obtain ⟨k, hk⟩ : ∃ k, k = (post.takeWhile (fun c => !is_unassigned s c)).length :=
        ⟨_, rfl⟩
      rw [← hk] at hscan htw
      refine ⟨set_info s i { a with watcher := some x, watcher_pos := some (pre.length + 1 + k) },
        { a with watcher := some x, watcher_pos := some (pre.length + 1 + k) },
        ?_, rfl, rfl, node_info_set_info_self _ hn hi harr hlt,
        fun m => assignment_of_set_info s i arr a
          { a with watcher := some x, watcher_pos := some (pre.length + 1 + k) } harr harri rfl m,
        rfl, rfl, ?_, ?_⟩
      · unfold update_watcher_by_watcher_list
        simp only [hidx, ok_bind, get_info_of_getElem harr harri, hw, deref, pure_eq_ok, hna,
          hu, Bool.not_false, if_true, hch, hpos, hscan, hf]
        rw [if_neg (by omega)]
        rfl
      · simp only [Bool.false_eq_true, if_false]
      · simp only [Bool.false_eq_true, if_false, List.length_append, List.length_cons]
        rw [← hk]
        congr 1
        omega

theorem uint_dec (n : Nat) (h : n + 1 < UINT_MOD) :
    (n + 1 + (UINT_MOD - 1)) % UINT_MOD = n := by
  have e : UINT_MOD = 4294967296 := by decide
  rw [e] at h ⊢
  omega

/-- C24 (counter and watcher, amended). Let the node `p` have a well-formed
family and an exact counter and watcher in the state `s0` (`watcher_first`:
the counter is the number of unassigned participating children, the watcher
is the first of them), and let `s` be `s0` after the unassigned participating
child `c` has been assigned. Then `update_counter_and_watcher` on `p`
returns, without changing the assignment of any node, a state in which the
counter and watcher of `p` are exact again. -/
theorem C24_update_counter_and_watcher (s0 s : Nenofex) (p c : Nat)
    (hfam : family_ok s0 p) (hinv : watcher_first s0 p) (hchild : child_assigned s0 s p c) :
    ∃ s1, update_counter_and_watcher s p = Except.ok s1 ∧ watcher_first s1 p
      ∧ counter_ok s1 p
      ∧ counter_of s1 p = (counter_of s0 p).map (fun n => n - 1)
      ∧ (∀ m, assignment_of s1 m = assignment_of s m) := by
  obtain ⟨hnodes, hfn, hp, hcin, hc0, ⟨v, hcv, hvne⟩, hoth⟩ := hchild
  obtain ⟨a, ha0, hcnt0, hwat0, hpos0⟩ := hinv
  obtain ⟨hnd, hlen, hinfo0, hmode⟩ := hfam
  have ha : node_info s p = Except.ok a := by rw [hp]; exact ha0
  obtain ⟨nd, i, arr, hn, hi, harr, harri⟩ := node_info_ok ha
  have hlt : i < arr.length := getElem?_lt harri
  have hn0 : s0.nodes[p]? = some (some nd) := by rw [← hnodes]; exact hn
  have hLs : participating_children s p = participating_children s0 p :=
    participating_children_congr p hnodes hfn hp
  have hq0c : is_unassigned s0 c = true := is_unassigned_true_of hc0
  have hqc : is_unassigned s c = false := is_unassigned_false_of hcv hvne
  have hqm : ∀ m ∈ participating_children s0 p, m ≠ c →
      is_unassigned s m = is_unassigned s0 m := by
    intro m hm hmc
    unfold is_unassigned
    rw [hoth m hm hmc]
  have hinfo : ∀ x ∈ participating_children s0 p, ∃ b, node_info s x = Except.ok b := by
    intro x hx
    by_cases hxc : x = c
    · obtain ⟨b, hb, _⟩ := assignment_of_eq_some hcv
      exact ⟨b, hxc ▸ hb⟩
    · obtain ⟨b0, hb0⟩ := hinfo0 x hx
      have e : assignment_of s x = some b0.assignment := by
        rw [hoth x hx hxc]
        unfold assignment_of
        rw [hb0]
      obtain ⟨b, hb, _⟩ := assignment_of_eq_some e
      exact ⟨b, hb⟩
  -- the watcher of `s0` splits the list of participating children
  cases hfind : (participating_children s0 p).find? (is_unassigned s0) with
  | none =>
    have h1 := List.find?_eq_none.mp hfind c hcin
    exact (h1 hq0c).elim
  | some w =>
    obtain ⟨hq0w, pre, post, hL, hpre0⟩ := List.find?_eq_some.mp hfind
    have hpre0f : ∀ x ∈ pre, is_unassigned s0 x = false := by
      intro x hx
      have h1 := hpre0 x hx
      cases hq : is_unassigned s0 x with
      | false => rfl
      | true => rw [hq] at h1; cases h1
    have hwpre : w ∉ pre := fun hw => by
      rw [hpre0f w hw] at hq0w
      cases hq0w
    have hpre : ∀ x ∈ pre, is_unassigned s x = false := by
      intro x hx
      have hxL : x ∈ participating_children s0 p := by
        rw [hL]
        exact List.mem_append_left _ hx
      have hxc : x ≠ c := fun e => by
        have h2 := hpre0f x hx
        rw [e, hq0c] at h2
        cases h2
      rw [hqm x hxL hxc]
      exact hpre0f x hx
    have hcount : ((participating_children s0 p).filter (is_unassigned s)).length + 1
        = a.unassigned_ch_cnt := by
      rw [hcnt0]
      exact filter_length_flip (is_unassigned s0) (is_unassigned s) c _ hnd hcin hq0c hqc hqm
    have htw0 : ((participating_children s0 p).takeWhile
        (fun x => !is_unassigned s0 x)).length = pre.length := by
      rw [hL, takeWhile_split (is_unassigned s0) pre post w hpre0f, if_pos hq0w]
    have hw : a.watcher = some w := by rw [hwat0, hfind]
    have hfl : ((participating_children s0 p).filter (is_unassigned s)).length
        ≤ (participating_children s0 p).length := List.length_filter_le _ _
    have hdec : (a.unassigned_ch_cnt + (UINT_MOD - 1)) % UINT_MOD
        = ((participating_children s0 p).filter (is_unassigned s)).length := by
      rw [← hcount]
      refine uint_dec _ ?_
      have h3 : ((participating_children s0 p).filter (is_unassigned s0)).length
          ≤ (participating_children s0 p).length := List.length_filter_le _ _
      rw [hcount, hcnt0]
      exact Nat.lt_of_le_of_lt h3 hlen
    -- the state after the decrement
    obtain ⟨a1, ha1⟩ : ∃ a1 : ATPGInfo, a1 = { a with unassigned_ch_cnt
        := (a.unassigned_ch_cnt + (UINT_MOD - 1)) % UINT_MOD } := ⟨_, rfl⟩
    have ha1a : a1.assignment = a.assignment := by rw [ha1]
    have ha1c : a1.atpg_ch = a.atpg_ch := by rw [ha1]
    have ha1w : a1.watcher = some w := by rw [ha1]; exact hw
    have ha1p : a1.watcher_pos = a.watcher_pos := by rw [ha1]
    have ha1n : a1.unassigned_ch_cnt
        = ((participating_children s0 p).filter (is_unassigned s)).length := by
      rw [ha1]
      exact hdec
    have hidx : info_index s p = Except.ok i := by
      unfold info_index
      simp only [get_node_of_getElem hn, ok_bind, hi, deref, pure_eq_ok]
    have hup : update_counter_and_watcher s p
        = (match a.atpg_ch with
          | some _ => update_watcher_by_watcher_list (set_info s i a1) p
          | none => update_watcher_by_child_list (set_info s i a1) p) := by
      subst ha1
      unfold update_counter_and_watcher
      simp only [hidx, ok_bind, get_info_of_getElem harr harri]
      try rfl
    have hn1 : (set_info s i a1).nodes[p]? = some (some nd) := hn
    have harr1 := set_info_array_eq s i a1 arr harr
    have harri1 : (arr.set i a1)[i]? = some a1 := List.getElem?_set_self hlt
    have hass1 : ∀ m, assignment_of (set_info s i a1) m = assignment_of s m :=
      assignment_of_set_info s i arr a a1 harr harri ha1a
    have hq1 : is_unassigned (set_info s i a1) = is_unassigned s :=
      is_unassigned_set_info s i arr a a1 harr harri ha1a
    have hinfo1 : ∀ x ∈ pre ++ w :: post, ∃ b, node_info (set_info s i a1) x = Except.ok b := by
      intro x hx
      obtain ⟨b, hb⟩ := hinfo x (by rw [hL]; exact hx)
      have e : assignment_of (set_info s i a1) x = some b.assignment := by
        rw [hass1 x]
        unfold assignment_of
        rw [hb]
      obtain ⟨b1, hb1, _⟩ := assignment_of_eq_some e
      exact ⟨b1, hb1⟩
    have hpre1 : ∀ x ∈ pre, is_unassigned (set_info s i a1) x = false := by
      intro x hx
      rw [hq1]
      exact hpre x hx
    have hfinal : ∀ s2 a2, s2.nodes = (set_info s i a1).nodes →
        s2.atpg_rr.fault_nodes = (set_info s i a1).atpg_rr.fault_nodes →
        node_info s2 p = Except.ok a2 →
        (∀ m, assignment_of s2 m = assignment_of (set_info s i a1) m) →
        a2.atpg_ch = a1.atpg_ch → a2.unassigned_ch_cnt = a1.unassigned_ch_cnt →
        a2.watcher = (pre ++ w :: post).find? (is_unassigned (set_info s i a1)) →
        (∀ ch, a.atpg_ch = some ch → a2.watcher_pos
          = some ((pre ++ w :: post).takeWhile
              (fun x => !is_unassigned (set_info s i a1) x)).length) →
        watcher_first s2 p ∧ counter_ok s2 p
          ∧ counter_of s2 p = (counter_of s0 p).map (fun n => n - 1)
          ∧ (∀ m, assignment_of s2 m = assignment_of s m) := by
      intro s2 a2 hn2 hfn2 hinfo2 hass2 hatpg2 hcnt2 hwat2 hpos2
      have hass : ∀ m, assignment_of s2 m = assignment_of s m :=
        fun m => (hass2 m).trans (hass1 m)
      have hq2 : is_unassigned s2 = is_unassigned s := by
        funext m
        unfold is_unassigned
        rw [hass m]
      have hwf : watcher_first s2 p := by
        refine watcher_first_of_record hn ha (hLs.trans hL) (by rw [hn2]; exact hn1) hinfo2
          (hatpg2.trans ha1c) hfn2 hq2 ?_ ?_ ?_
        · rw [hcnt2, ha1n, hL]
        · rw [hwat2, hq1]
        · intro ch hch
          rw [hpos2 ch hch, hq1]
      refine ⟨hwf, ?_, ?_, hass⟩
      · obtain ⟨a3, h3, hc3, hw3, _⟩ := hwf
        refine ⟨a3, h3, hc3, ?_⟩
        cases hf3 : (participating_children s2 p).find? (is_unassigned s2) with
        | none => exact Or.inl (by rw [hw3, hf3])
        | some w3 =>
          obtain ⟨hq3, pre3, post3, hL3, _⟩ := List.find?_eq_some.mp hf3
          refine Or.inr ⟨w3, by rw [hw3, hf3], ?_, hq3⟩
          rw [hL3]
          exact List.mem_append_right _ (List.mem_cons_self _ _)
      · unfold counter_of
        rw [hinfo2, ha0]
        show some a2.unassigned_ch_cnt = some (a.unassigned_ch_cnt - 1)
        rw [hcnt2, ha1n, ← hcount]
        rfl
    rw [hup]
    cases hm : a.atpg_ch with
    | none =>
      have hcl : nd.child_list = pre ++ w :: post := by
        rw [← hL, participating_children_eq hn0 ha0, hm]
      have hpar1 : ∀ x ∈ pre ++ w :: post,
          ∃ cnd, get_node (set_info s i a1) x = Except.ok cnd ∧ cnd.parent = some p := by
        intro x hx
        obtain ⟨cnd, hc1, hc2⟩ := (hmode a ha0).1 hm x (by rw [hL]; exact hx)
        refine ⟨cnd, ?_, hc2⟩
        have e : get_node (set_info s i a1) x = get_node s0 x := by
          unfold get_node
          show (match s.nodes[x]? with | some (some nd) => pure nd | _ => throw Err.undef) = _
          rw [hnodes]
          try rfl
        rw [e]
        exact hc1
      obtain ⟨s2, a2, hu2, hn2, hfn2, hinfo2, hass2, hatpg2, hcnt2, hwat2, _⟩ :=
        update_watcher_by_child_list_spec (set_info s i a1) p i nd (arr.set i a1) a1 pre post w
          hn1 hi harr1 harri1 hcl hwpre hinfo1 hpar1 hpre1 ha1w
      refine ⟨s2, hu2, hfinal s2 a2 hn2 hfn2 hinfo2 hass2 hatpg2 hcnt2 hwat2 ?_⟩
      intro ch hch
      rw [hm] at hch
      cases hch
    | some ch =>
      have hfm : ch.filterMap (fun f =>
          ((set_info s i a1).atpg_rr.fault_nodes[f]?).map (fun fn => fn.node))
          = pre ++ w :: post := by
        rw [← hL, participating_children_eq hn0 ha0, hm]
        show ch.filterMap (fun f => (s.atpg_rr.fault_nodes[f]?).map (fun fn => fn.node)) = _
        rw [hfn]
      have hres1 : ∀ f ∈ ch, ∃ fn, (set_info s i a1).atpg_rr.fault_nodes[f]? = some fn := by
        intro f hf
        obtain ⟨fn, h1⟩ := (hmode a ha0).2 ch hm f hf
        refine ⟨fn, ?_⟩
        show s.atpg_rr.fault_nodes[f]? = _
        rw [hfn]
        exact h1
      have hpos1 : a1.watcher_pos = some pre.length := by
        rw [ha1p, hpos0 ch hm, htw0]
      obtain ⟨s2, a2, hu2, hn2, hfn2, hinfo2, hass2, hatpg2, hcnt2, hwat2, hpos2⟩ :=
        update_watcher_by_watcher_list_spec (set_info s i a1) p i nd (arr.set i a1) a1 ch pre
          post w hn1 hi harr1 harri1 (ha1c.trans hm) hfm hres1 hinfo1 hpre1 ha1w hpos1
      exact ⟨s2, hu2, hfinal s2 a2 hn2 hfn2 hinfo2 hass2 hatpg2 hcnt2 hwat2 (fun _ _ => hpos2)⟩

set_option maxRecDepth 100000 in
theorem sample_family_ok : family_ok partial_initialised 3 := by
  have hL : participating_children partial_initialised 3 = [4, 5] := rfl
  have hmem : ∀ x ∈ participating_children partial_initialised 3, x = 4 ∨ x = 5 := by
    intro x hx
    rw [hL] at hx
    simpa using hx
  refine ⟨by rw [hL]; decide, by rw [hL]; decide, ?_, ?_⟩
  · intro x hx
    cases hmem x hx with
    | inl h => subst h; exact ⟨_, rfl⟩
    | inr h => subst h; exact ⟨_, rfl⟩
  · intro a ha
    have ha1 : node_info partial_initialised 3
        = Except.ok { fault_node := some 1, watcher := some 4, unassigned_ch_cnt := 2 } := rfl
    rw [ha1] at ha
    cases ha
    refine ⟨fun _ x hx => ?_, fun ch hch => by cases hch⟩
    cases hmem x hx with
    | inl h => subst h; exact ⟨_, rfl, rfl⟩
    | inr h => subst h; exact ⟨_, rfl, rfl⟩

set_option maxRecDepth 100000 in
theorem sample_watcher_first : watcher_first partial_initialised 3 :=
  ⟨{ fault_node := some 1, watcher := some 4, unassigned_ch_cnt := 2 }, rfl, rfl, rfl,
    fun ch hch => by cases hch⟩

set_option maxRecDepth 100000 in
theorem sample_child_assigned : child_assigned partial_initialised and_child_assigned 3 4 := by
  have hL : participating_children partial_initialised 3 = [4, 5] := rfl
  refine ⟨rfl, rfl, rfl, by rw [hL]; decide, rfl, ⟨ATPGAssignment.FALSE, rfl, by decide⟩, ?_⟩
  intro m hm hne
  rw [hL] at hm
  have h5 : m = 5 := by
    cases List.mem_cons.mp hm with
    | inl h => exact (hne h).elim
    | inr h => exact List.mem_singleton.mp h
  subst h5
  rfl

set_option maxRecDepth 100000 in
/-- C24, counterexample: in `partial_initialised` (the prepared pass on
`a | x | (b & !a)`) the root `OR` (node 0) has the counter 2 and two
unassigned participating children (the `AND` node 3 and the literal `a`,
node 1). After `forward_propagate_truth` on the literal `a` (the root
becomes true and justified, counter 1) and `forward_propagate_falsity` on
the literal `!a` (node 5; its parent, node 3, becomes false), the counter of
the root is still 1 although none of its participating children is
unassigned, and its watcher is the assigned node 3: the step for node 3
skips `update_counter_and_watcher` because the root is assigned and
justified. -/
theorem C24_counter_not_maintained :
    (counter_of partial_initialised 0, unassigned_count partial_initialised 0) = (some 2, 2)
    ∧ (forward_propagate_truth 5 partial_initialised 1 >>= fun s1 =>
          forward_propagate_falsity 5 s1 5).map
        (fun s2 => (counter_of s2 0, unassigned_count s2 0, watcher_of s2 0, is_unassigned s2 3,
          s2.atpg_rr.conflict, s2.atpg_rr.prop_cutoff))
      = Except.ok (some 1, 0, some (some 3), false, false, false) :=
  ⟨rfl, rfl⟩

/-- C24, witness: in `partial_initialised` the `AND` node 3 has the
children `b` (node 4) and `!a` (node 5), the counter 2 and the watcher
node 4; after `b` has been assigned, `update_counter_and_watcher` makes the
counter and watcher of node 3 exact again. -/
theorem C24_update_counter_and_watcher_witness :
    ∃ s1, update_counter_and_watcher and_child_assigned 3 = Except.ok s1 ∧ watcher_first s1 3
      ∧ counter_ok s1 3
      ∧ counter_of s1 3 = (counter_of partial_initialised 3).map (fun n => n - 1)
      ∧ (∀ m, assignment_of s1 m = assignment_of and_child_assigned m) :=
  C24_update_counter_and_watcher partial_initialised and_child_assigned 3 4
    sample_family_ok sample_watcher_first sample_child_assigned

/-! ## Theorems: the order of `collect_fault_nodes_bottom_up` -/

theorem literal_no_child {s : Nenofex} {a b : Nat} (h : is_literal_node s a = true) :
    ¬ child_of (node_children s) a b := by
  rintro ⟨cs, hcs, hb⟩
  obtain ⟨nd, hn, rfl⟩ := node_children_some hcs
  rw [is_literal_node_eq hn] at h
  have ht : nd.type = NodeType.LITERAL := by simpa using h
  simp [ht] at hb

theorem literal_no_descendant {s : Nenofex} {a b : Nat} (h : is_literal_node s a = true)
    (hab : Relation.ReflTransGen (child_of (node_children s)) a b) : a = b := by
  rcases Relation.ReflTransGen.cases_head hab with rfl | ⟨m, hm, _⟩
  · rfl
  · exact (literal_no_child h hm).elim

/-- In the order of the bottom-up collector no node comes before a node of
its own subtree. -/
theorem bottom_up_order_children_first (s : Nenofex) (root : Nat) (k : Nat) (W lb : List Nat)
    (hb : bfs_order (node_children s) k W = some lb) (hnd : (root :: lb).Nodup) :
    (bottom_up_order s root lb).Pairwise
      (fun a b => ¬ (Relation.ReflTransGen (child_of (node_children s)) a b ∧ a ≠ b)) := by
  obtain ⟨hroot, hnd1⟩ := List.nodup_cons.mp hnd
  have hanc := bfs_order_ancestors_first k W lb hb hnd1
  have hops : ((lb.filter (fun n => !is_literal_node s n)).reverse).Pairwise
      (fun a b => ¬ (Relation.ReflTransGen (child_of (node_children s)) a b ∧ a ≠ b)) := by
    rw [List.pairwise_reverse]
    exact List.Pairwise.sublist (List.filter_sublist _) hanc
  have hnotroot : ∀ a ∈ lb,
      ¬ (Relation.ReflTransGen (child_of (node_children s)) a root ∧ a ≠ root) := by
    intro a ha hc
    obtain ⟨r, hr, hra⟩ := (mem_bfs_order k W lb hb a).mp ha
    exact hroot ((mem_bfs_order k W lb hb root).mpr ⟨r, hr, hra.trans hc.1⟩)
  unfold bottom_up_order
  rw [List.pairwise_append]
  refine ⟨?_, ?_, ?_⟩
  · refine List.Pairwise.imp_of_mem ?_ (List.pairwise_of_forall (fun _ _ => trivial))
    intro a b ha _ _ hc
    exact hc.2 (literal_no_descendant (List.mem_filter.mp ha).2 hc.1)
  · rw [List.pairwise_append]
    refine ⟨hops, List.pairwise_singleton _ _, ?_⟩
    intro a ha b hb1
    rw [List.mem_singleton] at hb1
    subst hb1
    exact hnotroot a (List.mem_filter.mp (List.mem_reverse.mp ha)).1
  · intro a ha b _ hc
    exact hc.2 (literal_no_descendant (List.mem_filter.mp ha).2 hc.1)

theorem collect_bottom_up_loop_fuel (s : Nenofex) (k fuel : Nat) (queue lb : List Nat)
    (hb : bfs_order (node_children s) k queue = some lb)
    (hh : ∀ n ∈ lb, ∃ f, fault_handle s n = some f) (hfuel : k < fuel)
    (stack q : List Nat) :
    ∃ hl ho : List Nat,
      hl.map some = (lb.filter (is_literal_node s)).map (fault_handle s)
      ∧ ho.map some = (lb.filter (fun n => !is_literal_node s n)).map (fault_handle s)
      ∧ collect_bottom_up_loop fuel (with_fault_queue s q) queue stack
          = Except.ok (with_fault_queue s (q ++ hl), ho.reverse ++ stack) := by
  obtain ⟨m, rfl⟩ : ∃ m, fuel = m + 1 := ⟨fuel - 1, by omega⟩
  exact collect_bottom_up_loop_spec s m queue lb (bfs_order_mono_le hb (by omega)) hh stack q

/-- C17 (bottom-up order). Let `lb` be the breadth-first order of the nodes
below the LCA `root` (reached within `k` visits from the participating
children), all with a `FaultNode`, and let the region be a tree. With more
than `k` units of fuel `collect_fault_nodes_bottom_up` returns, changes only
the fault queue, and appends to it the handles of the nodes in the order
`bottom_up_order`: the literal nodes in breadth-first order, then the
operator nodes in the reverse of their breadth-first order, then the LCA. In
this order no node comes before a node of its own subtree, so every operator
node stands after every node of its subtree, and the LCA is the last
entry. -/
theorem C17_bottom_up_order (s : Nenofex) (root rf k fuel : Nat) (ra : ATPGInfo)
    (lb : List Nat) (hlca : s.changed_subformula.lca = some root)
    (hra : node_info s root = Except.ok ra) (hrf : ra.fault_node = some rf)
    (hb : bfs_order (node_children s) k s.changed_subformula.children = some lb)
    (hh : ∀ n ∈ lb, ∃ f, fault_handle s n = some f)
    (hnd : (root :: lb).Nodup) (hfuel : k < fuel) :
    ∃ hs : List Nat,
      collect_fault_nodes_bottom_up fuel s
        = Except.ok (with_fault_queue s (s.atpg_rr.fault_queue ++ hs))
      ∧ hs.map some = (bottom_up_order s root lb).map (fault_handle s)
      ∧ (bottom_up_order s root lb).Pairwise
          (fun a b => ¬ (Relation.ReflTransGen (child_of (node_children s)) a b ∧ a ≠ b))
      ∧ (bottom_up_order s root lb).getLast? = some root
      ∧ hs.getLast? = some rf := by
  obtain ⟨hl, ho, e1, e2, e3⟩ := collect_bottom_up_loop_fuel s k fuel
    s.changed_subformula.children lb hb hh hfuel [rf] s.atpg_rr.fault_queue
  have hroot : fault_handle s root = some rf := by
    unfold fault_handle
    rw [hra]
    exact hrf
  refine ⟨hl ++ (ho.reverse ++ [rf]), ?_, ?_,
    bottom_up_order_children_first s root k _ lb hb hnd, ?_, ?_⟩
  · unfold collect_fault_nodes_bottom_up
    simp only [hlca, deref, pure_eq_ok, ok_bind, hra, hrf]
    rw [← with_fault_queue_self s] at e3
    have e4 : collect_bottom_up_loop fuel s s.changed_subformula.children [rf]
        = Except.ok (with_fault_queue s (s.atpg_rr.fault_queue ++ hl), ho.reverse ++ [rf]) := e3
    rw [e4]
    simp only [ok_bind]
    show Except.ok (with_fault_queue s ((s.atpg_rr.fault_queue ++ hl) ++ (ho.reverse ++ [rf])))
      = _
    rw [List.append_assoc]
  · unfold bottom_up_order
    simp only [List.map_append, List.map_reverse, List.map_cons, List.map_nil, e1, e2, hroot]
  · unfold bottom_up_order
    simp
  · simp

set_option maxRecDepth 100000 in
/-- C17, witness: in `partial_initialised` (the prepared pass on
`a | x | (b & !a)` with the participating children `a` and `b & !a`) the
nodes below the LCA are 1, 3, 4, 5 in breadth-first order, and the
bottom-up order is 1, 4, 5, 3, 0. -/
theorem C17_bottom_up_order_witness :
    ∃ hs : List Nat,
      collect_fault_nodes_bottom_up 5 partial_initialised
        = Except.ok (with_fault_queue partial_initialised
            (partial_initialised.atpg_rr.fault_queue ++ hs))
      ∧ hs.map some = (bottom_up_order partial_initialised 0 [1, 3, 4, 5]).map
          (fault_handle partial_initialised)
      ∧ (bottom_up_order partial_initialised 0 [1, 3, 4, 5]).Pairwise
          (fun a b => ¬ (Relation.ReflTransGen
            (child_of (node_children partial_initialised)) a b ∧ a ≠ b))
      ∧ (bottom_up_order partial_initialised 0 [1, 3, 4, 5]).getLast? = some 0
      ∧ hs.getLast? = some 0 :=
  C17_bottom_up_order partial_initialised 0 0 4 5
    { fault_node := some 0, watcher := some 3, unassigned_ch_cnt := 2, atpg_ch := some [1, 4],
      watcher_pos := some 0 }
    [1, 3, 4, 5] rfl rfl rfl rfl
    (by
      intro n hn
      simp only [List.mem_cons, List.mem_singleton, List.not_mem_nil, or_false] at hn
      rcases hn with rfl | rfl | rfl | rfl <;> exact ⟨_, rfl⟩)
    (by decide) (by decide)

/-! ## Theorems: the loop of `collect_fault_nodes_by_dfs` -/

theorem set_node_getElem_self {s : Nenofex} {n : Nat} {nd : Node} (x : Node)
    (h : s.nodes[n]? = some (some nd)) : (set_node s n x).nodes[n]? = some (some x) := by
  show (s.nodes.set n (some x))[n]? = _
  exact List.getElem?_set_self (getElem?_lt h)

theorem set_node_getElem_ne (s : Nenofex) {n m : Nat} (x : Node) (h : m ≠ n) :
    (set_node s n x).nodes[m]? = s.nodes[m]? := by
  show (s.nodes.set n (some x))[m]? = _
  exact List.getElem?_set_ne (Ne.symm h)

theorem node_children_set_node {s : Nenofex} {n : Nat} {nd : Node} (x : Node)
    (h : s.nodes[n]? = some (some nd)) (ht : x.type = nd.type)
    (hc : x.child_list = nd.child_list) :
    node_children (set_node s n x) = node_children s := by
  funext m
  unfold node_children
  by_cases hm : m = n
  · subst hm
    rw [set_node_getElem_self x h, h]
    show some (if (x.type != NodeType.LITERAL) = true then x.child_list else [])
      = some (if (nd.type != NodeType.LITERAL) = true then nd.child_list else [])
    rw [ht, hc]
  · rw [set_node_getElem_ne s x hm]

theorem fault_handle_set_node {s : Nenofex} {n : Nat} {nd : Node} (x : Node)
    (h : s.nodes[n]? = some (some nd)) (hi : x.atpg_info = nd.atpg_info) :
    fault_handle (set_node s n x) = fault_handle s := by
  funext m
  have e : info_index (set_node s n x) m = info_index s m := by
    unfold info_index get_node
    by_cases hm : m = n
    · subst hm
      rw [set_node_getElem_self x h, h]
      show deref x.atpg_info = deref nd.atpg_info
      rw [hi]
    · rw [set_node_getElem_ne s x hm]
  unfold fault_handle node_info
  rw [e]
  rfl

theorem mark2_of_set_node_ne (s : Nenofex) {n m : Nat} (x : Node) (h : m ≠ n) :
    mark2_of (set_node s n x) m = mark2_of s m := by
  unfold mark2_of
  rw [set_node_getElem_ne s x h]

theorem set_node_restore {s : Nenofex} {n : Nat} {nd : Node}
    (h : s.nodes[n]? = some (some nd)) (x : Node) : set_node (set_node s n x) n nd = s := by
  have e : (s.nodes.set n (some x)).set n (some nd) = s.nodes := by
    rw [List.set_set]
    apply List.ext_getElem?
    intro i
    by_cases hi : i = n
    · subst hi
      rw [List.getElem?_set_self (getElem?_lt h), h]
    · rw [List.getElem?_set_ne (Ne.symm hi)]
  show { s with nodes := (s.nodes.set n (some x)).set n (some nd) } = s
  rw [e]

theorem fault_handle_info {s : Nenofex} {n f : Nat} {q : List Nat}
    (h : fault_handle s n = some f) :
    (node_info (with_fault_queue s q) n >>= fun ca => deref ca.fault_node) = Except.ok f := by
  obtain ⟨a, ha, haf⟩ := fault_handle_some h
  have e : node_info (with_fault_queue s q) n = Except.ok a := ha
  rw [e, ok_bind, haf]
  rfl

theorem dfs_step_literal (fuel : Nat) (s : Nenofex) (n f : Nat) (nd : Node) (rest q : List Nat)
    (hn : s.nodes[n]? = some (some nd)) (ht : nd.type = NodeType.LITERAL)
    (hf : fault_handle s n = some f) :
    collect_dfs_loop (fuel + 1) (with_fault_queue s q) (n :: rest)
      = collect_dfs_loop fuel (with_fault_queue s (q ++ [f])) rest := by
  obtain ⟨a, ha, haf⟩ := fault_handle_some hf
  have e1 : get_node (with_fault_queue s q) n = Except.ok nd := get_node_of_getElem hn
  have e2 : node_info (with_fault_queue s q) n = Except.ok a := ha
  rw [collect_dfs_loop]
  simp only [e1, ok_bind, ht, if_true, e2, haf, deref, pure_eq_ok]
  rfl

theorem dfs_step_mark (fuel : Nat) (s : Nenofex) (n : Nat) (nd : Node) (rest q : List Nat)
    (hn : s.nodes[n]? = some (some nd)) (ht : nd.type ≠ NodeType.LITERAL)
    (hm : nd.mark2 = false) :
    collect_dfs_loop (fuel + 1) (with_fault_queue s q) (n :: rest)
      = collect_dfs_loop fuel (with_fault_queue (set_node s n { nd with mark2 := true }) q)
          (nd.child_list ++ n :: rest) := by
  have e1 : get_node (with_fault_queue s q) n = Except.ok nd := get_node_of_getElem hn
  rw [collect_dfs_loop]
  simp only [e1, ok_bind, ht, if_false, hm, Bool.false_eq_true]
  rfl

theorem dfs_step_emit (fuel : Nat) (s : Nenofex) (n f : Nat) (nd : Node) (rest q : List Nat)
    (hn : s.nodes[n]? = some (some nd)) (ht : nd.type ≠ NodeType.LITERAL)
    (hm : nd.mark2 = true) (hf : fault_handle s n = some f) :
    collect_dfs_loop (fuel + 1) (with_fault_queue s q) (n :: rest)
      = collect_dfs_loop fuel
          (with_fault_queue (set_node s n { nd with mark2 := false }) (q ++ [f])) rest := by
  have e1 : get_node (with_fault_queue s q) n = Except.ok nd := get_node_of_getElem hn
  have hf1 : fault_handle (set_node s n { nd with mark2 := false }) n = some f := by
    rw [fault_handle_set_node { nd with mark2 := false } hn rfl]
    exact hf
  obtain ⟨a, ha, haf⟩ := fault_handle_some hf1
  have e2 : node_info (set_node (with_fault_queue s q) n { nd with mark2 := false }) n
      = Except.ok a := ha
  rw [collect_dfs_loop]
  simp only [e1, ok_bind, ht, if_false, hm, if_true, e2, haf, deref, pure_eq_ok]
  rfl

theorem mark2_of_eq {s : Nenofex} {n : Nat} {nd : Node} (h : s.nodes[n]? = some (some nd)) :
    mark2_of s n = nd.mark2 := by
  unfold mark2_of
  rw [h]

/-- The loop of `collect_fault_nodes_by_dfs` on a stack that starts with
the roots `W` of an unmarked forest: it appends one handle for every node of
the forest, restores the marks, and goes on with the rest of the stack; it
needs at most two units of fuel per node. -/
theorem collect_dfs_forest :
    ∀ (k d : Nat) (W lt : List Nat) (s : Nenofex) (rest q : List Nat), lt.length ≤ k →
      forest_of (node_children s) d W = some lt → lt.Nodup →
      (∀ n ∈ lt, mark2_of s n = false) → (∀ n ∈ lt, ∃ f, fault_handle s n = some f) →
      ∃ (L hs : List Nat) (c : Nat), L.Perm lt ∧ hs.map some = L.map (fault_handle s)
        ∧ c ≤ 2 * lt.length
        ∧ ∀ fuel, collect_dfs_loop (c + fuel) (with_fault_queue s q) (W ++ rest)
            = collect_dfs_loop fuel (with_fault_queue s (q ++ hs)) rest := by
  intro k
  induction k with
  | zero =>
    intro d W lt s rest q hk h _ _ _
    have hl : lt = [] := List.eq_nil_of_length_eq_zero (Nat.le_zero.mp hk)
    subst hl
    cases W with
    | nil =>
      refine ⟨[], [], 0, List.Perm.refl _, rfl, Nat.le_refl _, fun fuel => ?_⟩
      rw [Nat.zero_add, List.append_nil, List.nil_append]
    | cons n W =>
      obtain ⟨_, _, _, _, _, _, h5⟩ := forest_of_cons_some h
      cases h5
  | succ k ih =>
    intro d W lt s rest q hk h hnd hmark hh
    cases W with
    | nil =>
      rw [forest_of_nil_some h]
      refine ⟨[], [], 0, List.Perm.refl _, rfl, Nat.zero_le _, fun fuel => ?_⟩
      rw [Nat.zero_add, List.append_nil, List.nil_append]
    | cons n W =>
      obtain ⟨cs, lc, lr, h1, h2, h3, rfl⟩ := forest_of_cons_some h
      obtain ⟨nd, hn, hcs⟩ := node_children_some h1
      obtain ⟨hn_notin, hnd1⟩ := List.nodup_cons.mp hnd
      have hndc : lc.Nodup := (List.nodup_append.mp hnd1).1
      have hndr : lr.Nodup := (List.nodup_append.mp hnd1).2.1
      obtain ⟨f, hf⟩ := hh n (List.mem_cons_self _ _)
      have hm : nd.mark2 = false := by
        rw [← mark2_of_eq hn]
        exact hmark n (List.mem_cons_self _ _)
      have hlenr : lr.length ≤ k := by
        simp only [List.length_cons, List.length_append] at hk
        omega
      have hlenc : lc.length ≤ k := by
        simp only [List.length_cons, List.length_append] at hk
        omega
      have hmarkr : ∀ m ∈ lr, mark2_of s m = false :=
        fun m hm1 => hmark m (List.mem_cons_of_mem _ (List.mem_append_right _ hm1))
      have hhr : ∀ m ∈ lr, ∃ f, fault_handle s m = some f :=
        fun m hm1 => hh m (List.mem_cons_of_mem _ (List.mem_append_right _ hm1))
      by_cases ht : nd.type = NodeType.LITERAL
      · have hcs0 : cs = [] := by rw [hcs]; simp [ht]
        rw [hcs0] at h2
        have hlc := forest_of_nil_some h2
        subst hlc
        obtain ⟨L, hs, c, hp, hmap, hc, heq⟩ := ih d W lr s rest (q ++ [f]) hlenr h3 hndr hmarkr hhr
        refine ⟨n :: L, f :: hs, c + 1, List.Perm.cons _ hp, ?_, ?_, fun fuel => ?_⟩
        · rw [List.map_cons, List.map_cons, hmap, hf]
        · simp only [List.length_cons, List.nil_append]
          omega
        · have e : c + 1 + fuel = (c + fuel) + 1 := by omega
          rw [e, List.cons_append, dfs_step_literal _ s n f nd _ q hn ht hf, heq fuel,
            List.append_assoc]
          rfl
      · have hcs1 : cs = nd.child_list := by rw [hcs]; simp [ht]
        subst hcs1
        have hn1 : (set_node s n { nd with mark2 := true }).nodes[n]?
            = some (some { nd with mark2 := true }) := set_node_getElem_self _ hn
        have hch1 : node_children (set_node s n { nd with mark2 := true }) = node_children s :=
          node_children_set_node { nd with mark2 := true } hn rfl rfl
        have hfh1 : fault_handle (set_node s n { nd with mark2 := true }) = fault_handle s :=
          fault_handle_set_node { nd with mark2 := true } hn rfl
        have hmarkc : ∀ m ∈ lc, mark2_of (set_node s n { nd with mark2 := true }) m = false := by
          intro m hm1
          have hne : m ≠ n := fun e => hn_notin (e ▸ List.mem_append_left _ hm1)
          rw [mark2_of_set_node_ne s _ hne]
          exact hmark m (List.mem_cons_of_mem _ (List.mem_append_left _ hm1))
        have hhc : ∀ m ∈ lc, ∃ f,
            fault_handle (set_node s n { nd with mark2 := true }) m = some f := by
          intro m hm1
          rw [hfh1]
          exact hh m (List.mem_cons_of_mem _ (List.mem_append_left _ hm1))
        obtain ⟨Lc, hsc, cc, hpc, hmapc, hcc, heqc⟩ := ih d nd.child_list lc
          (set_node s n { nd with mark2 := true }) (n :: (W ++ rest)) q hlenc
          (by rw [hch1]; exact h2) hndc hmarkc hhc
        obtain ⟨Lr, hsr, cr, hpr, hmapr, hcr, heqr⟩ := ih d W lr s rest (q ++ hsc ++ [f]) hlenr h3
          hndr hmarkr hhr
        have hrestore : set_node (set_node s n { nd with mark2 := true }) n
            { ({ nd with mark2 := true } : Node) with mark2 := false } = s := by
          have e : ({ ({ nd with mark2 := true } : Node) with mark2 := false } : Node) = nd := by
            cases nd
            simp only at hm
            simp only [hm]
          rw [e]
          exact set_node_restore hn _
        refine ⟨Lc ++ n :: Lr, hsc ++ f :: hsr, cc + cr + 2, ?_, ?_, ?_, fun fuel => ?_⟩
        · exact (List.perm_middle).trans (List.Perm.cons _ (List.Perm.append hpc hpr))
        · rw [List.map_append, List.map_append, List.map_cons, List.map_cons, hmapc, hmapr, hf,
            hfh1]
        · simp only [List.length_cons, List.length_append]
          omega
        · have e : cc + cr + 2 + fuel = (cc + ((cr + fuel) + 1)) + 1 := by omega
          rw [e, List.cons_append, dfs_step_mark _ s n nd _ q hn ht hm, heqc,
            dfs_step_emit _ _ n f { nd with mark2 := true } _ _ hn1 ht rfl
              (by rw [hfh1]; exact hf),
            hrestore, heqr fuel]
          congr 2
          simp

theorem forest_of_reverse {ch : Nat → Option (List Nat)} {d : Nat} :
    ∀ (W lt : List Nat), forest_of ch d W = some lt →
      ∃ lr, forest_of ch d W.reverse = some lr ∧ lr.Perm lt := by
  intro W
  induction W with
  | nil => intro lt h; exact ⟨lt, h, List.Perm.refl _⟩
  | cons n W ih =>
    intro lt h
    obtain ⟨l1, l2, h1, h2, rfl⟩ := concat_map_cons_some.mp h
    obtain ⟨lr, h3, hp⟩ := ih l2 h2
    have h4 : forest_of ch d [n] = some l1 := by
      refine concat_map_cons_some.mpr ⟨l1, [], h1, rfl, ?_⟩
      rw [List.append_nil]
    refine ⟨lr ++ l1, ?_, ?_⟩
    · rw [List.reverse_cons]
      exact forest_of_append h3 h4
    · exact (List.perm_append_comm).trans (List.Perm.append_left _ hp)

theorem collect_dfs_loop_nil (fuel : Nat) (s : Nenofex) :
    collect_dfs_loop (fuel + 1) s [] = Except.ok s := by
  rw [collect_dfs_loop]
  rfl

/-- The collector `collect_fault_nodes_by_dfs` on an unmarked region. -/
theorem collect_fault_nodes_by_dfs_spec (s : Nenofex) (root rf d fuel : Nat) (rnd : Node)
    (ra : ATPGInfo) (lt : List Nat) (hlca : s.changed_subformula.lca = some root)
    (hroot : s.nodes[root]? = some (some rnd)) (hop : rnd.type ≠ NodeType.LITERAL)
    (hra : node_info s root = Except.ok ra) (hrf : ra.fault_node = some rf)
    (hforest : forest_of (node_children s) d s.changed_subformula.children = some lt)
    (hnd : (root :: lt).Nodup)
    (hh : ∀ n ∈ lt, ∃ f, fault_handle s n = some f)
    (hmark : ∀ n ∈ root :: lt, mark2_of s n = false)
    (hfuel : 2 * lt.length + 2 ≤ fuel) :
    ∃ L hs : List Nat,
      collect_fault_nodes_by_dfs fuel s
        = Except.ok (with_fault_queue s (s.atpg_rr.fault_queue ++ hs))
      ∧ hs.map some = L.map (fault_handle s) ∧ L.Perm (root :: lt) := by
  obtain ⟨hroot_notin, hnd1⟩ := List.nodup_cons.mp hnd
  obtain ⟨lr, hfr, hpr⟩ := forest_of_reverse _ lt hforest
  have hm : rnd.mark2 = false := by
    rw [← mark2_of_eq hroot]
    exact hmark root (List.mem_cons_self _ _)
  have hrootf : fault_handle s root = some rf := by
    unfold fault_handle
    rw [hra]
    exact hrf
  have hn1 : (set_node s root { rnd with mark2 := true }).nodes[root]?
      = some (some { rnd with mark2 := true }) := set_node_getElem_self _ hroot
  have hch1 : node_children (set_node s root { rnd with mark2 := true }) = node_children s :=
    node_children_set_node { rnd with mark2 := true } hroot rfl rfl
  have hfh1 : fault_handle (set_node s root { rnd with mark2 := true }) = fault_handle s :=
    fault_handle_set_node { rnd with mark2 := true } hroot rfl
  have hmark1 : ∀ m ∈ lr, mark2_of (set_node s root { rnd with mark2 := true }) m = false := by
    intro m hm1
    have hmlt : m ∈ lt := hpr.subset hm1
    have hne : m ≠ root := fun e => hroot_notin (e ▸ hmlt)
    rw [mark2_of_set_node_ne s _ hne]
    exact hmark m (List.mem_cons_of_mem _ hmlt)
  have hh1 : ∀ m ∈ lr, ∃ f,
      fault_handle (set_node s root { rnd with mark2 := true }) m = some f := by
    intro m hm1
    rw [hfh1]
    exact hh m (hpr.subset hm1)
  obtain ⟨L, hs, c, hp, hmap, hc, heq⟩ := collect_dfs_forest lr.length d
    s.changed_subformula.children.reverse lr (set_node s root { rnd with mark2 := true })
    [root] s.atpg_rr.fault_queue (Nat.le_refl _) (by rw [hch1]; exact hfr)
    (hpr.nodup_iff.mpr hnd1) hmark1 hh1
  have hrestore : set_node (set_node s root { rnd with mark2 := true }) root
      { ({ rnd with mark2 := true } : Node) with mark2 := false } = s := by
    have e : ({ ({ rnd with mark2 := true } : Node) with mark2 := false } : Node) = rnd := by
      cases rnd
      simp only at hm
      simp only [hm]
    rw [e]
    exact set_node_restore hroot _
  have hlen : lr.length = lt.length := hpr.length_eq
  obtain ⟨m, hm2⟩ : ∃ m, fuel = c + ((m + 1) + 1) := ⟨fuel - c - 2, by omega⟩
  refine ⟨L ++ [root], hs ++ [rf], ?_, ?_, ?_⟩
  · unfold collect_fault_nodes_by_dfs
    simp only [hlca, deref, pure_eq_ok, ok_bind, get_node_of_getElem hroot]
    have e0 : collect_dfs_loop fuel (set_node s root { rnd with mark2 := true })
          ((set_node s root { rnd with mark2 := true }).changed_subformula.children.reverse
            ++ [root])
        = collect_dfs_loop (c + ((m + 1) + 1))
          (with_fault_queue (set_node s root { rnd with mark2 := true }) s.atpg_rr.fault_queue)
          (s.changed_subformula.children.reverse ++ [root]) := by
      rw [hm2]
      rfl
    rw [e0, heq, dfs_step_emit _ _ root rf { rnd with mark2 := true } _ _ hn1 hop rfl
      (by rw [hfh1]; exact hrootf), hrestore, collect_dfs_loop_nil, List.append_assoc]
  · rw [List.map_append, List.map_append, hmap, hfh1, List.map_cons, List.map_cons, hrootf]
    rfl
  · exact (List.perm_append_comm).trans (List.Perm.cons _ (hp.trans hpr))

/-- The collector `collect_fault_nodes_by_bfs` on a region. -/
theorem collect_fault_nodes_by_bfs_spec (s : Nenofex) (root rf d fuel : Nat)
    (ra : ATPGInfo) (lt : List Nat) (hlca : s.changed_subformula.lca = some root)
    (hra : node_info s root = Except.ok ra) (hrf : ra.fault_node = some rf)
    (hforest : forest_of (node_children s) d s.changed_subformula.children = some lt)
    (hh : ∀ n ∈ lt, ∃ f, fault_handle s n = some f)
    (hfuel : lt.length < fuel) :
    ∃ L hs : List Nat,
      collect_fault_nodes_by_bfs fuel s
        = Except.ok (with_fault_queue s (s.atpg_rr.fault_queue ++ hs))
      ∧ hs.map some = L.map (fault_handle s) ∧ L.Perm (root :: lt) := by
  obtain ⟨lb, hb, hp⟩ := bfs_order_perm_forest lt.length _ lt rfl hforest
  obtain ⟨m, rfl⟩ : ∃ m, fuel = m + 1 := ⟨fuel - 1, by omega⟩
  obtain ⟨hl, e1, e2⟩ := collect_bfs_loop_spec s m s.changed_subformula.children lb
    (bfs_order_mono_le hb (by omega)) (fun n hn => hh n (hp.subset hn))
    (s.atpg_rr.fault_queue ++ [rf])
  have hrootf : fault_handle s root = some rf := by
    unfold fault_handle
    rw [hra]
    exact hrf
  refine ⟨root :: lb, rf :: hl, ?_, ?_, List.Perm.cons _ hp⟩
  · unfold collect_fault_nodes_by_bfs
    simp only [hlca, deref, pure_eq_ok, ok_bind, hra, hrf]
    have e3 : collect_bfs_loop (m + 1) (enqueue_fault s rf) s.changed_subformula.children
        = Except.ok (with_fault_queue s (s.atpg_rr.fault_queue ++ [rf] ++ hl)) := e2
    rw [e3, List.append_assoc]
    rfl
  · rw [List.map_cons, List.map_cons, e1, hrootf]

/-- The collector `collect_fault_nodes_bottom_up` on a region. -/
theorem collect_fault_nodes_bottom_up_spec (s : Nenofex) (root rf d fuel : Nat)
    (ra : ATPGInfo) (lt : List Nat) (hlca : s.changed_subformula.lca = some root)
    (hra : node_info s root = Except.ok ra) (hrf : ra.fault_node = some rf)
    (hforest : forest_of (node_children s) d s.changed_subformula.children = some lt)
    (hh : ∀ n ∈ lt, ∃ f, fault_handle s n = some f)
    (hfuel : lt.length < fuel) :
    ∃ L hs : List Nat,
      collect_fault_nodes_bottom_up fuel s
        = Except.ok (with_fault_queue s (s.atpg_rr.fault_queue ++ hs))
      ∧ hs.map some = L.map (fault_handle s) ∧ L.Perm (root :: lt) := by
  obtain ⟨lb, hb, hp⟩ := bfs_order_perm_forest lt.length _ lt rfl hforest
  obtain ⟨hl, ho, e1, e2, e3⟩ := collect_bottom_up_loop_fuel s lt.length fuel
    s.changed_subformula.children lb hb (fun n hn => hh n (hp.subset hn)) hfuel [rf]
    s.atpg_rr.fault_queue
  have hrootf : fault_handle s root = some rf := by
    unfold fault_handle
    rw [hra]
    exact hrf
  refine ⟨bottom_up_order s root lb, hl ++ (ho.reverse ++ [rf]), ?_, ?_, ?_⟩
  · unfold collect_fault_nodes_bottom_up
    simp only [hlca, deref, pure_eq_ok, ok_bind, hra, hrf]
    have e4 : collect_bottom_up_loop fuel s s.changed_subformula.children [rf]
        = Except.ok (with_fault_queue s (s.atpg_rr.fault_queue ++ hl), ho.reverse ++ [rf]) := e3
    rw [e4]
    simp only [ok_bind]
    show Except.ok (with_fault_queue s ((s.atpg_rr.fault_queue ++ hl) ++ (ho.reverse ++ [rf])))
      = _
    rw [List.append_assoc]
  · unfold bottom_up_order
    simp only [List.map_append, List.map_reverse, List.map_cons, List.map_nil, e1, e2, hrootf]
  · unfold bottom_up_order
    have h1 : (lb.filter (is_literal_node s) ++ lb.filter (fun n => !is_literal_node s n)).Perm
        lb := List.filter_append_perm _ _
    have h2 : (lb.filter (is_literal_node s)
        ++ ((lb.filter (fun n => !is_literal_node s n)).reverse ++ [root])).Perm
        (root :: (lb.filter (is_literal_node s)
          ++ lb.filter (fun n => !is_literal_node s n))) := by
      rw [← List.append_assoc]
      refine (List.perm_append_comm).trans (List.Perm.cons _ ?_)
      exact List.Perm.append_left (lb.filter (is_literal_node s)) (List.reverse_perm _)
    exact h2.trans (List.Perm.cons _ (h1.trans hp))

/-- C12 (one handle per node). Let the region below the LCA `root` be a
tree with the nodes `lt` (the forest of the participating children), all
with a `FaultNode` and without a collector mark. Then `root :: lt` are
exactly the nodes of the region, and each of the three collectors, given
two units of fuel per node, returns, changes only the fault queue, and
appends to it one handle per node of a list `L` that is a permutation of
`root :: lt`: every node of the region contributes exactly one handle and
nothing else is appended. -/
theorem C12_one_handle_per_node (s : Nenofex) (root rf d fuel : Nat) (rnd : Node)
    (ra : ATPGInfo) (lt : List Nat) (hlca : s.changed_subformula.lca = some root)
    (hroot : s.nodes[root]? = some (some rnd)) (hop : rnd.type ≠ NodeType.LITERAL)
    (hra : node_info s root = Except.ok ra) (hrf : ra.fault_node = some rf)
    (hforest : forest_of (node_children s) d s.changed_subformula.children = some lt)
    (hnd : (root :: lt).Nodup)
    (hh : ∀ n ∈ lt, ∃ f, fault_handle s n = some f)
    (hmark : ∀ n ∈ root :: lt, mark2_of s n = false)
    (hfuel : 2 * lt.length + 2 ≤ fuel) :
    (∀ n, n ∈ root :: lt ↔ in_region s n)
    ∧ (∃ L hs : List Nat,
        collect_fault_nodes_by_dfs fuel s
          = Except.ok (with_fault_queue s (s.atpg_rr.fault_queue ++ hs))
        ∧ hs.map some = L.map (fault_handle s) ∧ L.Perm (root :: lt))
    ∧ (∃ L hs : List Nat,
        collect_fault_nodes_by_bfs fuel s
          = Except.ok (with_fault_queue s (s.atpg_rr.fault_queue ++ hs))
        ∧ hs.map some = L.map (fault_handle s) ∧ L.Perm (root :: lt))
    ∧ (∃ L hs : List Nat,
        collect_fault_nodes_bottom_up fuel s
          = Except.ok (with_fault_queue s (s.atpg_rr.fault_queue ++ hs))
        ∧ hs.map some = L.map (fault_handle s) ∧ L.Perm (root :: lt)) := by
  refine ⟨fun n => ?_,
    collect_fault_nodes_by_dfs_spec s root rf d fuel rnd ra lt hlca hroot hop hra hrf hforest
      hnd hh hmark hfuel,
    collect_fault_nodes_by_bfs_spec s root rf d fuel ra lt hlca hra hrf hforest hh (by omega),
    collect_fault_nodes_bottom_up_spec s root rf d fuel ra lt hlca hra hrf hforest hh
      (by omega)⟩
  unfold in_region in_subtree
  rw [List.mem_cons, mem_forest_of lt.length d _ lt (Nat.le_refl _) hforest n, hlca]
  constructor
  · rintro (h | h)
    · exact Or.inl (by rw [h])
    · exact Or.inr h
  · rintro (h | h)
    · exact Or.inl (Option.some.inj h).symm
    · exact Or.inr h

set_option maxRecDepth 100000 in
/-- C12, witness: the region of `partial_initialised` (the prepared pass on
`a | x | (b & !a)` with the participating children `a` and `b & !a`) has the
LCA 0 and the nodes 1, 3, 4, 5 below it. -/
theorem C12_one_handle_per_node_witness :
    (∀ n, n ∈ [0, 1, 3, 4, 5] ↔ in_region partial_initialised n)
    ∧ (∃ L hs : List Nat,
        collect_fault_nodes_by_dfs 10 partial_initialised
          = Except.ok (with_fault_queue partial_initialised
              (partial_initialised.atpg_rr.fault_queue ++ hs))
        ∧ hs.map some = L.map (fault_handle partial_initialised) ∧ L.Perm [0, 1, 3, 4, 5])
    ∧ (∃ L hs : List Nat,
        collect_fault_nodes_by_bfs 10 partial_initialised
          = Except.ok (with_fault_queue partial_initialised
              (partial_initialised.atpg_rr.fault_queue ++ hs))
        ∧ hs.map some = L.map (fault_handle partial_initialised) ∧ L.Perm [0, 1, 3, 4, 5])
    ∧ (∃ L hs : List Nat,
        collect_fault_nodes_bottom_up 10 partial_initialised
          = Except.ok (with_fault_queue partial_initialised
              (partial_initialised.atpg_rr.fault_queue ++ hs))
        ∧ hs.map some = L.map (fault_handle partial_initialised) ∧ L.Perm [0, 1, 3, 4, 5]) :=
  C12_one_handle_per_node partial_initialised 0 0 3 10
    { level := 0, type := NodeType.OR, parent := none, child_list := [1, 2, 3],
      num_children := 3, size_subformula := 6, atpg_info := some 0 }
    { fault_node := some 0, watcher := some 3, unassigned_ch_cnt := 2, atpg_ch := some [1, 4],
      watcher_pos := some 0 }
    [1, 3, 4, 5] rfl rfl (by decide) rfl rfl rfl (by decide)
    (by
      intro n hn
      simp only [List.mem_cons, List.mem_singleton, List.not_mem_nil, or_false] at hn
      rcases hn with rfl | rfl | rfl | rfl <;> exact ⟨_, rfl⟩)
    (by
      intro n hn
      simp only [List.mem_cons, List.mem_singleton, List.not_mem_nil, or_false] at hn
      rcases hn with rfl | rfl | rfl | rfl | rfl <;> rfl)
    (by decide)

/-! ## Theorems: the records and variables changed by a test are tracked -/

theorem get_info_congr {s s1 : Nenofex}
    (h : s1.atpg_rr.atpg_info_array = s.atpg_rr.atpg_info_array) (i : Nat) :
    get_info s1 i = get_info s i := by
  unfold get_info
  rw [h]

theorem get_info_set_info_self {s : Nenofex} {i : Nat} {a : ATPGInfo} (x : ATPGInfo)
    (h : get_info s i = Except.ok a) : get_info (set_info s i x) i = Except.ok x := by
  obtain ⟨arr, harr, ha⟩ := get_info_ok h
  exact get_info_of_getElem (set_info_array_eq s i x arr harr)
    (List.getElem?_set_self (getElem?_lt ha))

theorem info_index_congr {s s1 : Nenofex} (h : s1.nodes = s.nodes) (n : Nat) :
    info_index s1 n = info_index s n := by
  unfold info_index get_node
  rw [h]

theorem node_info_congr {s s1 : Nenofex} (h : s1.nodes = s.nodes)
    (harr : s1.atpg_rr.atpg_info_array = s.atpg_rr.atpg_info_array) (n : Nat) :
    node_info s1 n = node_info s n := by
  unfold node_info
  rw [info_index_congr h n]
  cases info_index s n with
  | error e => rfl
  | ok i => exact get_info_congr harr i

/-- The record `i` is assigned. -/
theorem assigned_frame {s s1 : Nenofex} {i : Nat}
    (h : ∀ a, get_info s i = Except.ok a →
      ∃ a1, get_info s1 i = Except.ok a1 ∧ a1.assignment = a.assignment)
    (ha : ∃ a, get_info s i = Except.ok a ∧ a.assignment ≠ ATPGAssignment.UNDEFINED) :
    ∃ a, get_info s1 i = Except.ok a ∧ a.assignment ≠ ATPGAssignment.UNDEFINED := by
  obtain ⟨a, h1, h2⟩ := ha
  obtain ⟨a1, h3, h4⟩ := h a h1
  exact ⟨a1, h3, by rw [h4]; exact h2⟩

theorem Tot_pure {α : Type} {a : α} {Q : α → Prop} (h : Q a) : Tot (pure a) Q :=
  ⟨a, rfl, h⟩

theorem Tot_bind {α β : Type} {x : M α} {f : α → M β} {P : α → Prop} {Q : β → Prop}
    (hx : Tot x P) (hf : ∀ a, P a → Tot (f a) Q) : Tot (x >>= f) Q := by
  obtain ⟨a, ha, hp⟩ := hx
  obtain ⟨b, hb, hq⟩ := hf a hp
  exact ⟨b, by rw [ha, ok_bind, hb], hq⟩

theorem Tot_ite {α : Type} {c : Prop} [Decidable c] {x y : M α} {Q : α → Prop}
    (hx : c → Tot x Q) (hy : ¬ c → Tot y Q) : Tot (if c then x else y) Q := by
  by_cases h : c
  · rw [if_pos h]; exact hx h
  · rw [if_neg h]; exact hy h

theorem Tot_mono {α : Type} {x : M α} {P Q : α → Prop} (hx : Tot x P) (h : ∀ a, P a → Q a) :
    Tot x Q := by
  obtain ⟨a, ha, hp⟩ := hx
  exact ⟨a, ha, h a hp⟩

theorem Tot_tri {α : Type} {x : M α} {P Q : α → Prop} (hx : Tot x P) (ht : Tri x Q) :
    Tot x (fun a => P a ∧ Q a) := by
  obtain ⟨a, ha, hp⟩ := hx
  exact ⟨a, ha, hp, ht a ha⟩

theorem Tot_of_eq {α : Type} {x : M α} {a : α} {Q : α → Prop} (h : x = Except.ok a)
    (hq : Q a) : Tot x Q :=
  ⟨a, h, hq⟩

/-! ## Theorems: the path marks -/

/-- The body of the loop of `test_all_faults` for a live handle that is not
skipped and whose test finds no redundancy: the handle is kept and the
clean-up runs. -/
theorem test_all_faults_body_non_redundant (api : GraphAPI) (fuel : Nat) (s s1 : Nenofex)
    (nrf : List Nat) (ct : Bool) (f : Nat) (fn : FaultNode) (nd : Node)
    (hf : get_fault_node s f = Except.ok fn) (hlive : ¬ (fn.deleted = true ∨ fn.skip = true))
    (hnd : get_node s fn.node = Except.ok nd)
    (hs1 : skip_fault_node s nd nd.child_list.head? = Except.ok false)
    (hs2 : skip_fault_node s nd nd.child_list.getLast? = Except.ok false)
    (ht : test_fault_is_redundant fuel (test_entry s f fn) fn.node = Except.ok (s1, false)) :
    test_all_faults_body api fuel s nrf ct f
      = (non_redundant_clean_up fuel s1 fn.node >>= fun s2 =>
          pure (s2, nrf ++ [f], ct, LoopCtl.next)) := by
  unfold test_entry at ht
  unfold test_all_faults_body
  rw [hf, ok_bind, if_neg hlive, hnd, ok_bind, hs1, ok_bind]
  simp only [Bool.false_eq_true, if_false]
  rw [hs2, ok_bind]
  simp only [Bool.false_eq_true, if_false]
  simp only [] at ht
  rw [ht, ok_bind]
  simp only [Bool.false_eq_true, if_false]
  unfold non_redundant_clean_up
  cases unmark_path_nodes fuel s1 fn.node false with
  | error e => rfl
  | ok s2 =>
    simp only [ok_bind]
    by_cases hr : s2.atpg_rr.restricted_clean_up = false
    · rw [if_pos hr, if_pos hr]
      cases reset_touched_variables s2 with
      | error e => rfl
      | ok s3 =>
        simp only [ok_bind]
        cases reset_touched_nodes s3 with
        | error e => rfl
        | ok s4 => rfl
    · rw [if_neg hr, if_neg hr]
      rfl

/-! ## Theorems: the sample region is well formed and fully reset -/

/-- Claim C39: `delete_redundant_subformula` on a node `n` that resolves to
`nd`. If `n` is the graph root and an `OR`, the subtree is removed by
`remove_and_free_subformula` in the state whose `result` is
`NENOFEX_RESULT_SAT`; if `n` is the graph root and an `AND`, in the state
whose `result` is `NENOFEX_RESULT_UNSAT`; if `n` is not the graph root, in
the unchanged state. -/
theorem C39_result_on_root_deletion (api : GraphAPI) (s : Nenofex) (n : Nat) (nd : Node)
    (hn : get_node s n = Except.ok nd) :
    (s.graph_root = some n → nd.type = NodeType.OR →
      delete_redundant_subformula api s n
        = api.remove_and_free_subformula { s with result := NenofexResult.SAT } n)
    ∧ (s.graph_root = some n → nd.type = NodeType.AND →
      delete_redundant_subformula api s n
        = api.remove_and_free_subformula { s with result := NenofexResult.UNSAT } n)
    ∧ (s.graph_root ≠ some n →
      delete_redundant_subformula api s n = api.remove_and_free_subformula s n) := by
  refine ⟨?_, ?_, ?_⟩
  · intro hr ht
    unfold delete_redundant_subformula set_result_for_root
    rw [if_pos hr, hn]
    show api.remove_and_free_subformula (if nd.type = NodeType.OR then _ else _) n = _
    rw [if_pos ht]
  · intro hr ht
    unfold delete_redundant_subformula set_result_for_root
    rw [if_pos hr, hn]
    show api.remove_and_free_subformula (if nd.type = NodeType.OR then _ else _) n = _
    rw [if_neg (by rw [ht]; decide)]
  · intro hr
    unfold delete_redundant_subformula set_result_for_root
    rw [if_neg hr]
    rfl

/-- C39, witness: the root of `(a & !a) | b` is an `OR`; deleting it sets
the result to `NENOFEX_RESULT_SAT` before the removal. -/
theorem C39_result_on_root_deletion_witness :
    delete_redundant_subformula spec_api sample_graph 0
      = spec_api.remove_and_free_subformula
          { sample_graph with result := NenofexResult.SAT } 0 :=
  (C39_result_on_root_deletion spec_api sample_graph 0
    { level := 0, type := NodeType.OR, parent := none, child_list := [1, 2],
      num_children := 2, size_subformula := 5 } rfl).1 rfl rfl

/-! ## Theorems: removal from the restricted watcher list (claim C31) -/

theorem get_fault_node_of_lt {s : Nenofex} {f : Nat} (h : f < s.atpg_rr.fault_nodes.length) :
    ∃ fn, get_fault_node s f = Except.ok fn ∧ handle_deleted s f = fn.deleted := by
  refine ⟨s.atpg_rr.fault_nodes[f], ?_, ?_⟩
  · unfold get_fault_node
    rw [List.getElem?_eq_getElem h]
    rfl
  · unfold handle_deleted
    rw [List.getElem?_eq_getElem h]

theorem getElem?_mid {α : Type} (pre post : List α) (x : α) :
    (pre ++ x :: post)[pre.length]? = some x := by
  rw [List.getElem?_append_right (Nat.le_refl _)]
  simp

theorem set_mid {α : Type} (pre post : List α) (x y : α) :
    (pre ++ x :: post).set pre.length y = pre ++ y :: post := by
  induction pre with
  | nil => rfl
  | cons a pre ih => simp [List.set, ih]

theorem clean_up_loop_step (s : Nenofex) (k : Nat) (elems : List Nat) (cur end_ f : Nat)
    (fn : FaultNode) (hlt : cur < end_) (hget : elems[cur]? = some f)
    (hfn : get_fault_node s f = Except.ok fn) :
    clean_up_loop s (k + 1) elems cur end_
      = (if fn.deleted = true then
          (if cur = end_ - 1 then pure (elems, end_ - 1)
           else deref elems[end_ - 1]? >>= fun last =>
             clean_up_loop s k (elems.set cur last) cur (end_ - 1))
        else clean_up_loop s k elems (cur + 1) end_) := by
  rw [clean_up_loop, if_pos hlt, hget]
  show (get_fault_node s f >>= _) = _
  rw [hfn]
  rfl

/-- The loop of `clean_up_watcher_atpg_child_list` on the window `win` of the
array `pre ++ win ++ post`: the entries below the new `top` are those of
`pre` and the entries of `win` that are not deleted. -/
theorem clean_up_loop_spec (s : Nenofex) :
    ∀ (n k : Nat) (pre win post : List Nat), win.length = n → n ≤ k →
      (∀ f ∈ win, f < s.atpg_rr.fault_nodes.length) →
      ∃ elems top, clean_up_loop s k (pre ++ win ++ post) pre.length (pre.length + win.length)
          = Except.ok (elems, top)
        ∧ (elems.take top).Perm (pre ++ win.filter (fun f => !handle_deleted s f)) := by
  intro n
  induction n with
  | zero =>
    intro k pre win post hn _ _
    have hw : win = [] := List.length_eq_zero.mp hn
    subst hw
    refine ⟨pre ++ [] ++ post, pre.length, ?_, ?_⟩
    · cases k with
      | zero => rfl
      | succ k =>
        unfold clean_up_loop
        rw [if_neg (by simp)]
        rfl
    · simp
  | succ n ih =>
    intro k pre win post hn hk hres
    cases k with
    | zero => omega
    | succ k =>
      cases win with
      | nil => simp at hn
      | cons f rest =>
        have hrn : rest.length = n := by simpa using hn
        have hf : f < s.atpg_rr.fault_nodes.length := hres f (List.mem_cons_self _ _)
        obtain ⟨fn, hfn, hdel⟩ := get_fault_node_of_lt hf
        have hget : (pre ++ f :: rest ++ post)[pre.length]? = some f := by
          rw [List.append_assoc, List.cons_append]
          exact getElem?_mid pre (rest ++ post) f
        rw [clean_up_loop_step s k _ _ _ f fn (by simp) hget hfn]
        by_cases hd : fn.deleted = true
        · rw [if_pos hd]
          have hdf : handle_deleted s f = true := by rw [hdel, hd]
          by_cases hlast : pre.length = pre.length + (f :: rest).length - 1
          · rw [if_pos hlast]
            have hr0 : rest = [] := by
              apply List.length_eq_zero.mp
              have h1 : (f :: rest).length = rest.length + 1 := rfl
              omega
            subst hr0
            refine ⟨_, _, rfl, ?_⟩
            simp [hdf]
          · rw [if_neg hlast]
            have hrne : rest ≠ [] := by
              intro h0
              apply hlast
              simp [h0]
            obtain ⟨mid, last, hml⟩ : ∃ mid last, rest = mid ++ [last] :=
              ⟨rest.dropLast, rest.getLast hrne, (List.dropLast_append_getLast hrne).symm⟩
            subst hml
            have hidx : pre.length + (f :: (mid ++ [last])).length - 1
                = (pre ++ f :: mid).length := by
              simp only [List.length_append, List.length_cons, List.length_nil]
              omega
            have hgl : (pre ++ f :: (mid ++ [last]) ++ post)[
                pre.length + (f :: (mid ++ [last])).length - 1]? = some last := by
              rw [hidx]
              have : pre ++ f :: (mid ++ [last]) ++ post = (pre ++ f :: mid) ++ last :: post := by
                simp
              rw [this]
              exact getElem?_mid _ _ _
            rw [hgl]
            have hset : (pre ++ f :: (mid ++ [last]) ++ post).set pre.length last
                = pre ++ (last :: mid) ++ (last :: post) := by
              have : pre ++ f :: (mid ++ [last]) ++ post = pre ++ f :: (mid ++ last :: post) := by
                simp
              rw [this, set_mid]
              simp
            have hend : pre.length + (f :: (mid ++ [last])).length - 1
                = pre.length + (last :: mid).length := by simp
            have hbind : ∀ (x : Nat) (g : Nat → M (List Nat × Nat)),
                (deref (some x) >>= g) = g x := fun _ _ => rfl
            rw [hbind, hset, hend]
            have hmn : (last :: mid).length = n := by
              simp at hrn ⊢
              omega
            obtain ⟨elems, top, he, hp⟩ := ih k pre (last :: mid) (last :: post) hmn (by omega)
              (by
                intro g hg
                apply hres
                rcases List.mem_cons.mp hg with h | h
                · subst h
                  simp
                · simp [h])
            refine ⟨elems, top, he, hp.trans ?_⟩
            apply List.Perm.append_left
            have e1 : List.filter (fun f => !handle_deleted s f) (f :: (mid ++ [last]))
                = List.filter (fun f => !handle_deleted s f) mid
                  ++ List.filter (fun f => !handle_deleted s f) [last] := by
              rw [List.filter_cons_of_neg (by simp [hdf]), List.filter_append]
            rw [e1]
            cases hl : handle_deleted s last
            · have e2 : List.filter (fun f => !handle_deleted s f) (last :: mid)
                  = last :: List.filter (fun f => !handle_deleted s f) mid :=
                List.filter_cons_of_pos (by simp [hl])
              have e3 : List.filter (fun f => !handle_deleted s f) [last] = [last] := by
                simp [hl]
              rw [e2, e3]
              exact (List.perm_append_singleton _ _).symm
            · have e2 : List.filter (fun f => !handle_deleted s f) (last :: mid)
                  = List.filter (fun f => !handle_deleted s f) mid :=
                List.filter_cons_of_neg (by simp [hl])
              have e3 : List.filter (fun f => !handle_deleted s f) [last] = [] := by
                simp [hl]
              rw [e2, e3, List.append_nil]
        · rw [if_neg hd]
          have hdf : handle_deleted s f = false := by
            rw [hdel]
            simpa using hd
          have e1 : pre ++ f :: rest ++ post = (pre ++ [f]) ++ rest ++ post := by simp
          have e2 : pre.length + 1 = (pre ++ [f]).length := by simp
          have e3 : pre.length + (f :: rest).length = (pre ++ [f]).length + rest.length := by
            simp
            omega
          rw [e1, e2, e3]
          obtain ⟨elems, top, he, hp⟩ := ih k (pre ++ [f]) rest post hrn (by omega)
            (fun g hg => hres g (List.mem_cons_of_mem _ hg))
          refine ⟨elems, top, he, ?_⟩
          rw [List.filter_cons]
          simpa [hdf] using hp

theorem clean_up_watcher_atpg_child_list_spec (s : Nenofex) (i : Nat) (a : ATPGInfo)
    (ch : List Nat) (ha : get_info s i = Except.ok a) (hch : a.atpg_ch = some ch)
    (hres : ∀ f ∈ ch, f < s.atpg_rr.fault_nodes.length) :
    ∃ ch1, clean_up_watcher_atpg_child_list s i
        = Except.ok (set_info s i { a with atpg_ch := some ch1 })
      ∧ ch1.Perm (ch.filter (fun f => !handle_deleted s f)) := by
  obtain ⟨elems, top, he, hp⟩ := clean_up_loop_spec s ch.length ch.length [] ch [] rfl
    (Nat.le_refl _) hres
  refine ⟨elems.take top, ?_, by simpa using hp⟩
  unfold clean_up_watcher_atpg_child_list
  rw [ha]
  show (deref a.atpg_ch >>= _) = _
  rw [hch]
  show (clean_up_loop s ch.length ch 0 ch.length >>= _) = _
  have e : clean_up_loop s ch.length ch 0 ch.length = Except.ok (elems, top) := by
    simpa using he
  rw [e]
  rfl

theorem first_watcher_spec (s : Nenofex) (ch : List Nat)
    (hres : ∀ f ∈ ch, f < s.atpg_rr.fault_nodes.length) :
    ∃ w, first_watcher s ch = Except.ok w
      ∧ ∀ f, ch[0]? = some f → ∃ fn, get_fault_node s f = Except.ok fn ∧ w = some fn.node := by
  cases ch with
  | nil => exact ⟨none, rfl, fun f hf => by simp at hf⟩
  | cons f rest =>
    obtain ⟨fn, hfn, -⟩ := get_fault_node_of_lt (hres f (List.mem_cons_self _ _))
    refine ⟨some fn.node, ?_, ?_⟩
    · simp only [first_watcher, List.getElem?_cons_zero]
      rw [hfn]
      rfl
    · intro g hg
      have : f = g := by simpa using hg
      subst this
      exact ⟨fn, hfn, rfl⟩

theorem init_counter_and_watcher_eq (s : Nenofex) (node i : Nat) (a : ATPGInfo) (ch : List Nat)
    (hi : info_index s node = Except.ok i) (ha : get_info s i = Except.ok a)
    (hch : a.atpg_ch = some ch) :
    init_counter_and_watcher s node
      = ((if a.clean_up_watcher_list = true then
            clean_up_watcher_atpg_child_list
              (set_info s i { a with clean_up_watcher_list := false }) i
          else pure s) >>= fun s1 =>
          get_info s1 i >>= fun a1 =>
          deref a1.atpg_ch >>= fun ch1 =>
          first_watcher s1 ch1 >>= fun w =>
          pure (set_info s1 i { a1 with watcher_pos := some 0, watcher := w,
                                        unassigned_ch_cnt := ch1.length })) := by
  unfold init_counter_and_watcher
  rw [hi]
  show (get_info s i >>= _) = _
  rw [ha]
  show (match a.atpg_ch with | some _ => _ | none => _) = _
  rw [hch]

theorem init_counter_and_watcher_tail (s s1 : Nenofex) (i : Nat) (a1 : ATPGInfo)
    (ch1 : List Nat) (h1 : get_info s1 i = Except.ok a1) (hch1 : a1.atpg_ch = some ch1)
    (hfl : a1.clean_up_watcher_list = false)
    (hfn : s1.atpg_rr.fault_nodes = s.atpg_rr.fault_nodes) (hn : s1.nodes = s.nodes)
    (hres : ∀ f ∈ ch1, f < s.atpg_rr.fault_nodes.length) :
    ∃ s2 a2, (get_info s1 i >>= fun a1 =>
          deref a1.atpg_ch >>= fun ch1 =>
          first_watcher s1 ch1 >>= fun w =>
          pure (set_info s1 i { a1 with watcher_pos := some 0, watcher := w,
                                        unassigned_ch_cnt := ch1.length })) = Except.ok s2
      ∧ get_info s2 i = Except.ok a2 ∧ a2.atpg_ch = some ch1
      ∧ a2.clean_up_watcher_list = false ∧ a2.unassigned_ch_cnt = ch1.length
      ∧ a2.watcher_pos = some 0
      ∧ (∀ f, ch1[0]? = some f →
          ∃ fn, get_fault_node s f = Except.ok fn ∧ a2.watcher = some fn.node)
      ∧ s2.atpg_rr.fault_nodes = s.atpg_rr.fault_nodes ∧ s2.nodes = s.nodes := by
  obtain ⟨w, hw, hwf⟩ := first_watcher_spec s1 ch1 (by rw [hfn]; exact hres)
  have hd : deref a1.atpg_ch = Except.ok ch1 := by
    rw [hch1]
    rfl
  refine ⟨set_info s1 i { a1 with watcher_pos := some 0, watcher := w,
                                  unassigned_ch_cnt := ch1.length },
    { a1 with watcher_pos := some 0, watcher := w, unassigned_ch_cnt := ch1.length },
    ?_, get_info_set_info_self _ h1, hch1, hfl, rfl, rfl, ?_, hfn, hn⟩
  · rw [h1]
    show (deref a1.atpg_ch >>= _) = _
    rw [hd]
    show (first_watcher s1 ch1 >>= _) = _
    rw [hw]
    rfl
  · intro f hf
    obtain ⟨fn, h2, h3⟩ := hwf f hf
    refine ⟨fn, ?_, h3⟩
    unfold get_fault_node at h2 ⊢
    rw [← hfn]
    exact h2

/-- Claim C32: lazy compaction of the restricted watcher list `ch` of the
arena entry `i` of `node`, all of whose handles resolve.
`clean_up_watcher_atpg_child_list` leaves a permutation of the entries that
are not deleted: the new length is their number and no remaining entry is
deleted. `init_counter_and_watcher` compacts the list in this way if
`clean_up_watcher_list` is set and leaves it as it is otherwise; afterwards
the flag is clear, the counter is the length of the list, `watcher_pos` is
the first position, and the watcher is the node of the first entry. -/
theorem C32_lazy_compaction (s : Nenofex) (node i : Nat) (a : ATPGInfo) (ch : List Nat)
    (hi : info_index s node = Except.ok i) (ha : get_info s i = Except.ok a)
    (hch : a.atpg_ch = some ch) (hres : ∀ f ∈ ch, f < s.atpg_rr.fault_nodes.length) :
    (∃ ch1, clean_up_watcher_atpg_child_list s i
          = Except.ok (set_info s i { a with atpg_ch := some ch1 })
        ∧ ch1.Perm (ch.filter (fun f => !handle_deleted s f))
        ∧ ch1.length = ch.countP (fun f => !handle_deleted s f)
        ∧ ∀ f ∈ ch1, handle_deleted s f = false)
    ∧ (∃ s1 a1 ch1, init_counter_and_watcher s node = Except.ok s1
        ∧ get_info s1 i = Except.ok a1 ∧ a1.atpg_ch = some ch1
        ∧ (a.clean_up_watcher_list = true →
            ch1.Perm (ch.filter (fun f => !handle_deleted s f)))
        ∧ (a.clean_up_watcher_list = false → ch1 = ch)
        ∧ a1.clean_up_watcher_list = false
        ∧ a1.unassigned_ch_cnt = ch1.length
        ∧ a1.watcher_pos = some 0
        ∧ (∀ f, ch1[0]? = some f →
            ∃ fn, get_fault_node s f = Except.ok fn ∧ a1.watcher = some fn.node)
        ∧ s1.atpg_rr.fault_nodes = s.atpg_rr.fault_nodes ∧ s1.nodes = s.nodes) := by
  constructor
  · obtain ⟨ch1, h1, hp⟩ := clean_up_watcher_atpg_child_list_spec s i a ch ha hch hres
    refine ⟨ch1, h1, hp, ?_, ?_⟩
    · rw [hp.length_eq, List.countP_eq_length_filter]
    · intro f hf
      have := (List.mem_filter.mp (hp.mem_iff.mp hf)).2
      simpa using this
  · rw [init_counter_and_watcher_eq s node i a ch hi ha hch]
    by_cases hfl : a.clean_up_watcher_list = true
    · rw [if_pos hfl]
      have ha0 : get_info (set_info s i { a with clean_up_watcher_list := false }) i
          = Except.ok { a with clean_up_watcher_list := false } :=
        get_info_set_info_self _ ha
      obtain ⟨ch1, h1, hp⟩ := clean_up_watcher_atpg_child_list_spec
        (set_info s i { a with clean_up_watcher_list := false }) i
        { a with clean_up_watcher_list := false } ch ha0 hch hres
      rw [h1]
      have hin : ∀ f ∈ ch1, f < s.atpg_rr.fault_nodes.length := fun f hf =>
        hres f (List.mem_filter.mp (hp.mem_iff.mp hf)).1
      obtain ⟨s2, a2, e, h2, h3, h4, h5, h6, h7, h8, h9⟩ :=
        init_counter_and_watcher_tail s
          (set_info (set_info s i { a with clean_up_watcher_list := false }) i
            { a with clean_up_watcher_list := false, atpg_ch := some ch1 }) i
          { a with clean_up_watcher_list := false, atpg_ch := some ch1 } ch1
          (get_info_set_info_self _ ha0) rfl rfl rfl rfl hin
      exact ⟨s2, a2, ch1, e, h2, h3, fun _ => hp, fun h => absurd (hfl.symm.trans h) (by decide),
        h4, h5, h6, h7, h8, h9⟩
    · rw [if_neg hfl]
      have hfl1 : a.clean_up_watcher_list = false := by simpa using hfl
      obtain ⟨s2, a2, e, h2, h3, h4, h5, h6, h7, h8, h9⟩ :=
        init_counter_and_watcher_tail s s i a ch ha hch hfl1 rfl rfl hres
      exact ⟨s2, a2, ch, e, h2, h3, fun h => absurd h hfl, fun _ => rfl,
        h4, h5, h6, h7, h8, h9⟩

set_option maxRecDepth 100000 in
/-- C32, witness: the root of `a | x | (b & !a)` with the watcher list
`[1, 4]` whose handle 4 is deleted and whose flag is set. -/
theorem C32_lazy_compaction_witness :
    ∃ a : ATPGInfo, get_info partial_with_deleted 0 = Except.ok a
      ∧ a.clean_up_watcher_list = true ∧ a.atpg_ch = some [1, 4]
      ∧ handle_deleted partial_with_deleted 4 = true
      ∧ (∃ ch1, clean_up_watcher_atpg_child_list partial_with_deleted 0
            = Except.ok (set_info partial_with_deleted 0 { a with atpg_ch := some ch1 })
          ∧ ch1.Perm ([1, 4].filter (fun f => !handle_deleted partial_with_deleted f))
          ∧ ch1.length = [1, 4].countP (fun f => !handle_deleted partial_with_deleted f)
          ∧ ∀ f ∈ ch1, handle_deleted partial_with_deleted f = false) :=
  ⟨_, rfl, rfl, rfl, rfl,
    (C32_lazy_compaction partial_with_deleted 0 0 _ [1, 4] rfl rfl rfl (by decide)).1⟩

/-! ## Theorems: return value and phase gating of the pass driver (claim C40) -/

theorem global_flow_atpg_rounds_logged_eq (api : GraphAPI) (fuel : Nat) (s : Nenofex)
    (called_again : Bool) (i r : Nat) (ia ra : Bool) (round : Nat) (calls : List PhaseCall) :
    global_flow_atpg_rounds_logged api (fuel + 1) s called_again i r ia ra round calls
      = (global_flow_phase api fuel s i >>= fun r1 =>
          if r1.1.atpg_rr_abort = true then
            pure (r1.1, ia || decide (r1.2 ≠ 0), ra, calls ++ global_flow_call s round r1.2)
          else
            atpg_phase api fuel r1.1 called_again r1.2 r >>= fun r2 =>
              if r2.1.atpg_rr_abort = false then
                if r2.2 ≠ 0 ∧ r2.1.atpg_rr.global_flow_prop_cutoff = false then
                  global_flow_atpg_rounds_logged api fuel r2.1 true 0 0
                    (ia || decide (r1.2 ≠ 0)) (ra || decide (r2.2 ≠ 0)) (round + 1)
                    (calls ++ global_flow_call s round r1.2
                      ++ atpg_call r1.1 called_again r1.2 round r2.2)
                else
                  pure ({ r2.1 with atpg_rr_abort := true,
                                    atpg_rr_reset_changed_subformula := true },
                    ia || decide (r1.2 ≠ 0), ra || decide (r2.2 ≠ 0),
                    calls ++ global_flow_call s round r1.2
                      ++ atpg_call r1.1 called_again r1.2 round r2.2)
              else
                pure (r2.1, ia || decide (r1.2 ≠ 0), ra || decide (r2.2 ≠ 0),
                    calls ++ global_flow_call s round r1.2
                      ++ atpg_call r1.1 called_again r1.2 round r2.2)) := by
  rw [global_flow_atpg_rounds_logged]
  unfold global_flow_phase atpg_phase global_flow_call atpg_call global_flow_allowed atpg_allowed
  by_cases h1 : s.options.no_global_flow_specified = 0 ∧ s.atpg_rr.global_flow_prop_cutoff = false
  · simp only [if_pos h1]
    cases hg : optimize_by_global_flow api fuel s with
    | error e => rfl
    | ok r1 =>
      show (if r1.1.atpg_rr_abort = true then _ else _) = (if r1.1.atpg_rr_abort = true then _ else _)
      by_cases hab : r1.1.atpg_rr_abort = true
      · rw [if_pos hab, if_pos hab]
      · rw [if_neg hab, if_neg hab]
        by_cases h2 : r1.1.options.no_atpg_specified = 0 ∧ r1.1.atpg_rr.atpg_prop_cutoff = false
            ∧ (called_again = false ∨ r1.2 ≠ 0)
        · have h2b : (r1.1.options.no_atpg_specified = 0 ∧ r1.1.atpg_rr.atpg_prop_cutoff = false)
              ∧ (called_again = false ∨ r1.2 ≠ 0) := ⟨⟨h2.1, h2.2.1⟩, h2.2.2⟩
          simp only [if_pos h2, if_pos h2b]
          cases ht : test_all_faults api fuel r1.1 with
          | error e => rfl
          | ok r2 => rfl
        · have h2b : ¬ ((r1.1.options.no_atpg_specified = 0
              ∧ r1.1.atpg_rr.atpg_prop_cutoff = false)
              ∧ (called_again = false ∨ r1.2 ≠ 0)) := fun h => h2 ⟨h.1.1, h.1.2, h.2⟩
          simp only [if_neg h2, if_neg h2b, List.append_nil]
          rfl
  · simp only [if_neg h1, List.append_nil]
    show (if s.atpg_rr_abort = true then _ else _) = (if s.atpg_rr_abort = true then _ else _)
    by_cases hab : s.atpg_rr_abort = true
    · rw [if_pos hab, if_pos hab]
    · rw [if_neg hab, if_neg hab]
      by_cases h2 : s.options.no_atpg_specified = 0 ∧ s.atpg_rr.atpg_prop_cutoff = false
          ∧ (called_again = false ∨ i ≠ 0)
      · have h2b : (s.options.no_atpg_specified = 0 ∧ s.atpg_rr.atpg_prop_cutoff = false)
            ∧ (called_again = false ∨ i ≠ 0) := ⟨⟨h2.1, h2.2.1⟩, h2.2.2⟩
        simp only [if_pos h2, if_pos h2b]
        cases ht : test_all_faults api fuel s with
        | error e => rfl
        | ok r2 => rfl
      · have h2b : ¬ ((s.options.no_atpg_specified = 0 ∧ s.atpg_rr.atpg_prop_cutoff = false)
            ∧ (called_again = false ∨ i ≠ 0)) := fun h => h2 ⟨h.1.1, h.1.2, h.2⟩
        simp only [if_neg h2, if_neg h2b, List.append_nil]
        rfl

theorem global_flow_phase_skip {api : GraphAPI} {fuel : Nat} {s : Nenofex} {i : Nat}
    {r1 : Nenofex × Nat} (h : global_flow_phase api fuel s i = Except.ok r1)
    (hn : ¬ global_flow_allowed s) : r1 = (s, i) := by
  unfold global_flow_phase at h
  have hn1 : ¬ (s.options.no_global_flow_specified = 0
      ∧ s.atpg_rr.global_flow_prop_cutoff = false) := hn
  rw [if_neg hn1] at h
  cases h
  rfl

theorem atpg_phase_skip {api : GraphAPI} {fuel : Nat} {s : Nenofex} {ca : Bool} {i r : Nat}
    {r2 : Nenofex × Nat} (h : atpg_phase api fuel s ca i r = Except.ok r2)
    (hn : ¬ (atpg_allowed s ∧ (ca = false ∨ i ≠ 0))) : r2 = (s, r) := by
  unfold atpg_phase at h
  have hn1 : ¬ (s.options.no_atpg_specified = 0 ∧ s.atpg_rr.atpg_prop_cutoff = false
      ∧ (ca = false ∨ i ≠ 0)) := fun hc => hn ⟨⟨hc.1, hc.2.1⟩, hc.2.2⟩
  rw [if_neg hn1] at h
  cases h
  rfl

theorem mem_global_flow_call {s : Nenofex} {round result : Nat} {c : PhaseCall}
    (h : c ∈ global_flow_call s round result) :
    c = PhaseCall.mk false round s result ∧ global_flow_allowed s := by
  unfold global_flow_call at h
  by_cases hc : global_flow_allowed s
  · rw [if_pos hc] at h
    exact ⟨List.mem_singleton.mp h, hc⟩
  · rw [if_neg hc] at h
    cases h

theorem mem_atpg_call {s : Nenofex} {ca : Bool} {i round result : Nat} {c : PhaseCall}
    (h : c ∈ atpg_call s ca i round result) :
    c = PhaseCall.mk true round s result ∧ atpg_allowed s ∧ (ca = false ∨ i ≠ 0) := by
  unfold atpg_call at h
  by_cases hc : atpg_allowed s ∧ (ca = false ∨ i ≠ 0)
  · rw [if_pos hc] at h
    exact ⟨List.mem_singleton.mp h, hc⟩
  · rw [if_neg hc] at h
    cases h

theorem any_global_flow_call (s : Nenofex) (round result : Nat)
    (hz : ¬ global_flow_allowed s → result = 0) :
    (global_flow_call s round result).any (fun c => !c.atpg && decide (c.result ≠ 0))
        = decide (result ≠ 0)
    ∧ (global_flow_call s round result).any (fun c => c.atpg && decide (c.result ≠ 0))
        = false := by
  unfold global_flow_call
  by_cases hc : global_flow_allowed s
  · rw [if_pos hc]
    simp
  · rw [if_neg hc, hz hc]
    simp

theorem any_atpg_call (s : Nenofex) (ca : Bool) (i round result : Nat)
    (hz : ¬ (atpg_allowed s ∧ (ca = false ∨ i ≠ 0)) → result = 0) :
    (atpg_call s ca i round result).any (fun c => c.atpg && decide (c.result ≠ 0))
        = decide (result ≠ 0)
    ∧ (atpg_call s ca i round result).any (fun c => !c.atpg && decide (c.result ≠ 0))
        = false := by
  unfold atpg_call
  by_cases hc : atpg_allowed s ∧ (ca = false ∨ i ≠ 0)
  · rw [if_pos hc]
    simp
  · rw [if_neg hc, hz hc]
    simp

theorem gating_first (s : Nenofex) (ca : Bool) (round result : Nat) :
    PhaseGating ca round (global_flow_call s round result) where
  global_flow := fun c hc _ => by
    obtain ⟨e, h⟩ := mem_global_flow_call hc
    rw [e]
    exact h
  atpg := fun c hc ha => by
    obtain ⟨e, _⟩ := mem_global_flow_call hc
    rw [e] at ha
    cases ha
  rounds := fun c hc => by
    obtain ⟨e, _⟩ := mem_global_flow_call hc
    rw [e]
  repeated := fun c hc ha => by
    obtain ⟨e, _⟩ := mem_global_flow_call hc
    rw [e] at ha
    cases ha

theorem gating_round (s t : Nenofex) (ca : Bool) (round i1 res : Nat)
    (hz : ¬ global_flow_allowed s → i1 = 0) :
    PhaseGating ca round (global_flow_call s round i1 ++ atpg_call t ca i1 round res) where
  global_flow := fun c hc hf => by
    rcases List.mem_append.mp hc with h | h
    · obtain ⟨e, h⟩ := mem_global_flow_call h
      rw [e]
      exact h
    · obtain ⟨e, _⟩ := mem_atpg_call h
      rw [e] at hf
      cases hf
  atpg := fun c hc ha => by
    rcases List.mem_append.mp hc with h | h
    · obtain ⟨e, _⟩ := mem_global_flow_call h
      rw [e] at ha
      cases ha
    · obtain ⟨e, h, _⟩ := mem_atpg_call h
      rw [e]
      exact h
  rounds := fun c hc => by
    rcases List.mem_append.mp hc with h | h
    · obtain ⟨e, _⟩ := mem_global_flow_call h
      rw [e]
    · obtain ⟨e, _⟩ := mem_atpg_call h
      rw [e]
  repeated := fun c hc ha hr => by
    rcases List.mem_append.mp hc with h | h
    · obtain ⟨e, _⟩ := mem_global_flow_call h
      rw [e] at ha
      cases ha
    · obtain ⟨e, _, h3⟩ := mem_atpg_call h
      have hround : c.round = round := by rw [e]
      have hca : ca = true := by
        rcases hr with hr | hr
        · omega
        · exact hr
      have hi : i1 ≠ 0 := by
        rcases h3 with h3 | h3
        · rw [hca] at h3
          cases h3
        · exact h3
      have hgf : global_flow_allowed s := by
        by_contra hn
        exact hi (hz hn)
      refine ⟨PhaseCall.mk false round s i1, List.mem_append_left _ ?_, rfl, hround.symm, hi⟩
      unfold global_flow_call
      rw [if_pos hgf]
      exact List.mem_singleton_self _

theorem gating_append {ca : Bool} {round : Nat} {l1 l2 : List PhaseCall}
    (h1 : PhaseGating ca round l1) (h2 : PhaseGating true (round + 1) l2) :
    PhaseGating ca round (l1 ++ l2) where
  global_flow := fun c hc hf => by
    rcases List.mem_append.mp hc with h | h
    · exact h1.global_flow c h hf
    · exact h2.global_flow c h hf
  atpg := fun c hc ha => by
    rcases List.mem_append.mp hc with h | h
    · exact h1.atpg c h ha
    · exact h2.atpg c h ha
  rounds := fun c hc => by
    rcases List.mem_append.mp hc with h | h
    · exact h1.rounds c h
    · exact Nat.le_of_succ_le (h2.rounds c h)
  repeated := fun c hc ha hr => by
    rcases List.mem_append.mp hc with h | h
    · have hca : round < c.round ∨ ca = true := hr
      obtain ⟨g, hg, e1, e2, e3⟩ := h1.repeated c h ha hca
      exact ⟨g, List.mem_append_left _ hg, e1, e2, e3⟩
    · obtain ⟨g, hg, e1, e2, e3⟩ := h2.repeated c h ha (Or.inr rfl)
      exact ⟨g, List.mem_append_right _ hg, e1, e2, e3⟩

/-- The history of the loop of the driver: a run of `global_flow_atpg_rounds`
that returns is a run of the loop with history that returns the same values
and extends the history by calls that obey the gating; the two results are
the disjunctions of the values returned by the calls of each phase. -/
theorem global_flow_atpg_rounds_logged_spec (api : GraphAPI) :
    ∀ (fuel : Nat) (s : Nenofex) (ca ia ra : Bool) (round : Nat) (calls : List PhaseCall)
      (res : Nenofex × Bool × Bool),
      global_flow_atpg_rounds api fuel s ca 0 0 ia ra = Except.ok res →
      ∃ new, global_flow_atpg_rounds_logged api fuel s ca 0 0 ia ra round calls
            = Except.ok (res.1, res.2.1, res.2.2, calls ++ new)
        ∧ PhaseGating ca round new
        ∧ res.2.1 = (ia || new.any (fun c => !c.atpg && decide (c.result ≠ 0)))
        ∧ res.2.2 = (ra || new.any (fun c => c.atpg && decide (c.result ≠ 0))) := by
  intro fuel
  induction fuel with
  | zero =>
    intro s ca ia ra round calls res h
    cases h
  | succ fuel ih =>
    intro s ca ia ra round calls res h
    rw [global_flow_atpg_rounds_eq] at h
    obtain ⟨r1, h1, h⟩ := bind_ok.mp h
    have hz1 : ¬ global_flow_allowed s → r1.2 = 0 := fun hn => by
      rw [global_flow_phase_skip h1 hn]
    obtain ⟨g1, g2⟩ := any_global_flow_call s round r1.2 hz1
    rw [global_flow_atpg_rounds_logged_eq, h1]
    show ∃ new, (if r1.1.atpg_rr_abort = true then _ else _) = _ ∧ _
    by_cases hab : r1.1.atpg_rr_abort = true
    · rw [if_pos hab] at h ⊢
      cases h
      exact ⟨global_flow_call s round r1.2, rfl, gating_first s ca round r1.2,
        by rw [g1], by rw [g2, Bool.or_false]⟩
    · rw [if_neg hab] at h ⊢
      obtain ⟨r2, h2, h⟩ := bind_ok.mp h
      have hz2 : ¬ (atpg_allowed r1.1 ∧ (ca = false ∨ r1.2 ≠ 0)) → r2.2 = 0 := fun hn => by
        rw [atpg_phase_skip h2 hn]
      obtain ⟨t1, t2⟩ := any_atpg_call r1.1 ca r1.2 round r2.2 hz2
      have hany1 : (global_flow_call s round r1.2 ++ atpg_call r1.1 ca r1.2 round r2.2).any
          (fun c => !c.atpg && decide (c.result ≠ 0)) = decide (r1.2 ≠ 0) := by
        rw [List.any_append, g1, t2, Bool.or_false]
      have hany2 : (global_flow_call s round r1.2 ++ atpg_call r1.1 ca r1.2 round r2.2).any
          (fun c => c.atpg && decide (c.result ≠ 0)) = decide (r2.2 ≠ 0) := by
        rw [List.any_append, g2, t1, Bool.false_or]
      rw [h2]
      show ∃ new, (if r2.1.atpg_rr_abort = false then _ else _) = _ ∧ _
      by_cases hab2 : r2.1.atpg_rr_abort = false
      · rw [if_pos hab2] at h ⊢
        by_cases hag : r2.2 ≠ 0 ∧ r2.1.atpg_rr.global_flow_prop_cutoff = false
        · rw [if_pos hag] at h ⊢
          obtain ⟨new, e, hg, e1, e2⟩ := ih r2.1 true (ia || decide (r1.2 ≠ 0))
            (ra || decide (r2.2 ≠ 0)) (round + 1)
            (calls ++ global_flow_call s round r1.2 ++ atpg_call r1.1 ca r1.2 round r2.2) res h
          refine ⟨global_flow_call s round r1.2 ++ atpg_call r1.1 ca r1.2 round r2.2 ++ new,
            ?_, gating_append (gating_round s r1.1 ca round r1.2 r2.2 hz1) hg,
            ?_, ?_⟩
          · rw [e]
            simp only [List.append_assoc]
          · rw [e1, List.any_append, hany1, Bool.or_assoc]
          · rw [e2, List.any_append, hany2, Bool.or_assoc]
        · rw [if_neg hag] at h ⊢
          cases h
          refine ⟨global_flow_call s round r1.2 ++ atpg_call r1.1 ca r1.2 round r2.2,
            ?_, gating_round s r1.1 ca round r1.2 r2.2 hz1, by rw [hany1], by rw [hany2]⟩
          simp only [List.append_assoc]
          rfl
      · rw [if_neg hab2] at h ⊢
        cases h
        refine ⟨global_flow_call s round r1.2 ++ atpg_call r1.1 ca r1.2 round r2.2,
          ?_, gating_round s r1.1 ca round r1.2 r2.2 hz1, by rw [hany1], by rw [hany2]⟩
        simp only [List.append_assoc]
        rfl

theorem driver_eq (api : GraphAPI) (fuel : Nat) (s : Nenofex) :
    simplify_by_global_flow_and_atpg_main api fuel s
      = (driver_set_up fuel s >>= fun s1 =>
          global_flow_atpg_rounds api fuel s1 false 0 0 false false >>= fun r =>
          driver_wrap_up api r.1 r.2.1 r.2.2) := by
  unfold simplify_by_global_flow_and_atpg_main driver_set_up driver_wrap_up
  simp only [bind_assoc]

/-- Claim C40: a run of `simplify_by_global_flow_and_atpg_main` that returns
`changed` consists of the set-up, the loop of the two phases and the
wrap-up; with `calls` the calls of `optimize_by_global_flow` and
`test_all_faults` that the loop has made, `changed` is non-zero iff one of
the calls returned non-zero; every call of `optimize_by_global_flow` was
made in a state with `no_global_flow_specified` zero and
`global_flow_prop_cutoff` clear; every call of `test_all_faults` in a state
with `no_atpg_specified` zero and `atpg_prop_cutoff` clear; and every call
of `test_all_faults` in a repeated round follows a call of
`optimize_by_global_flow` of the same round that returned non-zero. -/
theorem C40_driver_result_and_gating (api : GraphAPI) (fuel : Nat) (s s1 : Nenofex)
    (changed : Bool)
    (h : simplify_by_global_flow_and_atpg_main api fuel s = Except.ok (s1, changed)) :
    ∃ (t t1 : Nenofex) (ia ra : Bool) (calls : List PhaseCall),
      driver_set_up fuel s = Except.ok t
      ∧ global_flow_atpg_rounds api fuel t false 0 0 false false = Except.ok (t1, ia, ra)
      ∧ global_flow_atpg_rounds_logged api fuel t false 0 0 false false 0 []
          = Except.ok (t1, ia, ra, calls)
      ∧ driver_wrap_up api t1 ia ra = Except.ok (s1, changed)
      ∧ (changed = true ↔ ∃ c ∈ calls, c.result ≠ 0)
      ∧ (∀ c ∈ calls, c.atpg = false →
          c.entry.options.no_global_flow_specified = 0
          ∧ c.entry.atpg_rr.global_flow_prop_cutoff = false)
      ∧ (∀ c ∈ calls, c.atpg = true →
          c.entry.options.no_atpg_specified = 0 ∧ c.entry.atpg_rr.atpg_prop_cutoff = false)
      ∧ (∀ c ∈ calls, c.atpg = true → 0 < c.round →
          ∃ g ∈ calls, g.atpg = false ∧ g.round = c.round ∧ g.result ≠ 0) := by
  rw [driver_eq] at h
  obtain ⟨t, ht, h⟩ := bind_ok.mp h
  obtain ⟨r, hr, hw⟩ := bind_ok.mp h
  obtain ⟨new, hl, hg, e1, e2⟩ := global_flow_atpg_rounds_logged_spec api fuel t false false
    false 0 [] r hr
  have hch : changed = (r.2.1 || r.2.2) := by
    unfold driver_wrap_up at hw
    obtain ⟨x1, _, hw⟩ := bind_ok.mp hw
    obtain ⟨x2, _, hw⟩ := bind_ok.mp hw
    obtain ⟨x3, _, hw⟩ := bind_ok.mp hw
    cases hw
    rfl
  refine ⟨t, r.1, r.2.1, r.2.2, new, ht, hr, ?_, hw, ?_, hg.global_flow, hg.atpg, ?_⟩
  · rw [hl]
    rfl
  · rw [hch, e1, e2, Bool.false_or, Bool.false_or, Bool.or_eq_true, List.any_eq_true,
      List.any_eq_true]
    constructor
    · rintro (⟨c, hc, h3⟩ | ⟨c, hc, h3⟩)
      · exact ⟨c, hc, of_decide_eq_true (Bool.and_eq_true_iff.mp h3).2⟩
      · exact ⟨c, hc, of_decide_eq_true (Bool.and_eq_true_iff.mp h3).2⟩
    · rintro ⟨c, hc, h3⟩
      cases hat : c.atpg
      · exact Or.inl ⟨c, hc, by rw [hat]; exact Bool.and_eq_true_iff.mpr ⟨rfl, decide_eq_true h3⟩⟩
      · exact Or.inr ⟨c, hc, by rw [hat]; exact Bool.and_eq_true_iff.mpr ⟨rfl, decide_eq_true h3⟩⟩
  · intro c hc ha hpos
    exact hg.repeated c hc ha (Or.inl hpos)

/-- C40, witness: the pass on the graph of `(a & !a) | b` returns. -/
theorem C40_driver_result_and_gating_witness :
    ∃ (s1 : Nenofex) (changed : Bool),
      simplify_by_global_flow_and_atpg_main spec_api 20 sample_graph
        = Except.ok (s1, changed)
      ∧ ∃ (t t1 : Nenofex) (ia ra : Bool) (calls : List PhaseCall),
        driver_set_up 20 sample_graph = Except.ok t
        ∧ global_flow_atpg_rounds spec_api 20 t false 0 0 false false = Except.ok (t1, ia, ra)
        ∧ global_flow_atpg_rounds_logged spec_api 20 t false 0 0 false false 0 []
            = Except.ok (t1, ia, ra, calls)
        ∧ driver_wrap_up spec_api t1 ia ra = Except.ok (s1, changed)
        ∧ (changed = true ↔ ∃ c ∈ calls, c.result ≠ 0)
        ∧ (∀ c ∈ calls, c.atpg = false →
            c.entry.options.no_global_flow_specified = 0
            ∧ c.entry.atpg_rr.global_flow_prop_cutoff = false)
        ∧ (∀ c ∈ calls, c.atpg = true →
            c.entry.options.no_atpg_specified = 0 ∧ c.entry.atpg_rr.atpg_prop_cutoff = false)
        ∧ (∀ c ∈ calls, c.atpg = true → 0 < c.round →
            ∃ g ∈ calls, g.atpg = false ∧ g.round = c.round ∧ g.result ≠ 0) := by
  obtain ⟨r, hr⟩ := sample_main_run_ok
  exact ⟨r.1, r.2, hr, C40_driver_result_and_gating spec_api 20 sample_graph r.1 r.2 hr⟩

/-! ## Theorems: the LIFO stack of `stack.c` (claim C38) -/

theorem stack_top_eq {st : Stack} {l : List Nat} (h : StackRep st l) : st.top = l.length := by
  have := congrArg List.length h.contents
  unfold stack_contents at this
  rw [List.length_reverse, List.length_take] at this
  have := h.top_lt
  omega

theorem count_stack_spec {st : Stack} {l : List Nat} (h : StackRep st l) :
    count_stack st = l.length ∧ count_stack st < size_stack st := by
  have h1 := stack_top_eq h
  have h2 := h.top_lt
  have h3 := h.size_lt
  unfold count_stack size_stack
  rw [Nat.mod_eq_of_lt (by omega), Nat.mod_eq_of_lt h3]
  exact ⟨h1, h2⟩

theorem create_stack_spec (junk : Nat → Nat) (size : Nat) (hsize : size < UINT_MOD) :
    StackRep (create_stack junk size) [] := by
  unfold create_stack
  by_cases h0 : size = 0
  · simp only [h0, if_true]
    exact ⟨by simp, by simp [UINT_MOD], rfl, fun x hx => by cases hx⟩
  · simp only [h0, if_false]
    exact ⟨by simp; omega, by simpa using hsize, rfl, fun x hx => by cases hx⟩

theorem take_succ_set {l : List Nat} {n : Nat} (x : Nat) (h : n < l.length) :
    (l.set n x).take (n + 1) = l.take n ++ [x] := by
  induction l generalizing n with
  | nil => simp at h
  | cons a l ih =>
    cases n with
    | zero => simp
    | succ n =>
      simp only [List.set_cons_succ, List.take_succ_cons, List.cons_append]
      rw [ih (by simpa using h)]

theorem push_stack_spec (junk : Nat → Nat) (x : Nat) {st : Stack} {l : List Nat}
    (h : StackRep st l) (hx : x ≠ 0) (hcap : 2 * (l.length + 1) < UINT_MOD) :
    ∃ s1, push_stack junk st x = Except.ok s1 ∧ StackRep s1 (x :: l) := by
  have htop := stack_top_eq h
  have hlt := h.top_lt
  have hc1 : ((st.elems.set st.top x).take (st.top + 1)).reverse = x :: l := by
    rw [take_succ_set x hlt, List.reverse_append]
    show x :: (st.elems.take st.top).reverse = _
    have := h.contents
    unfold stack_contents at this
    rw [this]
  have hnn : ∀ y ∈ x :: l, y ≠ 0 := by
    intro y hy
    rcases List.mem_cons.mp hy with e | e
    · rw [e]
      exact hx
    · exact h.non_null y e
  by_cases hfull : st.top + 1 = st.elems.length
  · refine ⟨enlarge_stack junk { elems := st.elems.set st.top x, top := st.top + 1 }, ?_, ?_⟩
    · unfold push_stack
      rw [if_pos hlt]
      show (if st.top + 1 = (st.elems.set st.top x).length then _ else _) = _
      rw [if_pos (by rw [List.length_set]; exact hfull)]
      rfl
    · have hsz : size_stack { elems := st.elems.set st.top x, top := st.top + 1 }
          = st.elems.length := by
        unfold size_stack
        show (st.elems.set st.top x).length % UINT_MOD = _
        rw [List.length_set, Nat.mod_eq_of_lt h.size_lt]
      have hcnt : count_stack { elems := st.elems.set st.top x, top := st.top + 1 }
          = st.top + 1 := by
        unfold count_stack
        show (st.top + 1) % UINT_MOD = _
        rw [Nat.mod_eq_of_lt (by omega)]
      have hnew : (st.elems.length * 2) % UINT_MOD = st.elems.length * 2 :=
        Nat.mod_eq_of_lt (by omega)
      have hel : (enlarge_stack junk { elems := st.elems.set st.top x, top := st.top + 1 }).elems
          = st.elems.set st.top x ++ (List.range (st.elems.length * 2 - st.elems.length)).map
              (fun i => junk (st.elems.length + i)) := by
        unfold enlarge_stack
        show (st.elems.set st.top x).take
            (size_stack { elems := st.elems.set st.top x, top := st.top + 1 } * 2 % UINT_MOD)
          ++ (List.range (size_stack { elems := st.elems.set st.top x, top := st.top + 1 } * 2
              % UINT_MOD - (st.elems.set st.top x).length)).map
              (fun i => junk ((st.elems.set st.top x).length + i)) = _
        rw [hsz, hnew, List.length_set, List.take_of_length_le (by rw [List.length_set]; omega)]
      have htp : (enlarge_stack junk { elems := st.elems.set st.top x, top := st.top + 1 }).top
          = st.top + 1 := hcnt
      refine ⟨?_, ?_, ?_, hnn⟩
      · rw [htp, hel, List.length_append, List.length_set, List.length_map, List.length_range]
        omega
      · rw [hel, List.length_append, List.length_set, List.length_map, List.length_range]
        omega
      · unfold stack_contents
        rw [htp, hel, List.take_append_of_le_length (by rw [List.length_set]; omega)]
        exact hc1
  · refine ⟨{ elems := st.elems.set st.top x, top := st.top + 1 }, ?_, ?_⟩
    · unfold push_stack
      rw [if_pos hlt]
      show (if st.top + 1 = (st.elems.set st.top x).length then _ else _) = _
      rw [if_neg (by rw [List.length_set]; exact hfull)]
      rfl
    · refine ⟨?_, ?_, hc1, hnn⟩
      · show st.top + 1 < (st.elems.set st.top x).length
        rw [List.length_set]
        omega
      · show (st.elems.set st.top x).length < UINT_MOD
        rw [List.length_set]
        exact h.size_lt

theorem pop_stack_spec {st : Stack} {l : List Nat} (h : StackRep st l) :
    ∃ s1, pop_stack st = Except.ok (s1, l.headD 0) ∧ StackRep s1 l.tail := by
  have htop := stack_top_eq h
  have hlt := h.top_lt
  have hc := h.contents
  unfold stack_contents at hc
  by_cases h0 : st.top = 0
  · have hl : l = [] := List.length_eq_zero.mp (by omega)
    subst hl
    refine ⟨st, ?_, h⟩
    unfold pop_stack
    rw [if_pos h0]
    rfl
  · obtain ⟨k, hk⟩ : ∃ k, st.top = k + 1 := ⟨st.top - 1, by omega⟩
    have hkl : k < st.elems.length := by omega
    have htk : st.elems.take (k + 1) = st.elems.take k ++ [st.elems[k]] := by
      rw [List.take_succ, List.getElem?_eq_getElem hkl]
      rfl
    rw [hk, htk, List.reverse_append] at hc
    have hl : l = st.elems[k] :: (st.elems.take k).reverse := hc.symm
    refine ⟨{ st with top := st.top - 1 }, ?_, ?_⟩
    · unfold pop_stack
      rw [if_neg h0]
      have : st.elems[st.top - 1]? = some (st.elems[k]) := by
        rw [hk]
        exact List.getElem?_eq_getElem hkl
      rw [this, hl]
      rfl
    · refine ⟨?_, h.size_lt, ?_, ?_⟩
      · show st.top - 1 < st.elems.length
        omega
      · unfold stack_contents
        show (st.elems.take (st.top - 1)).reverse = _
        rw [hk, hl]
        rfl
      · intro y hy
        exact h.non_null y (List.mem_of_mem_tail hy)

theorem run_stack_spec (junk : Nat → Nat) (ops : List StackOp) :
    ∀ st l, StackRep st l → (∀ x, StackOp.push x ∈ ops → x ≠ 0) →
      2 * (l.length + count_push ops) < UINT_MOD →
      ∃ s1, run_stack junk st ops = Except.ok (s1, (lifo_run l ops).2)
        ∧ StackRep s1 (lifo_run l ops).1 := by
  induction ops with
  | nil => intro st l h _ _; exact ⟨st, rfl, h⟩
  | cons op ops ih =>
    intro st l h hnn hcap
    cases op with
    | push x =>
      have hx : x ≠ 0 := hnn x (List.mem_cons_self _ _)
      have hc : count_push (StackOp.push x :: ops) = count_push ops + 1 := rfl
      rw [hc] at hcap
      obtain ⟨s1, h1, h2⟩ := push_stack_spec junk x h hx (by omega)
      obtain ⟨s2, h3, h4⟩ := ih s1 (x :: l) h2
        (fun y hy => hnn y (List.mem_cons_of_mem _ hy))
        (by rw [List.length_cons]; omega)
      refine ⟨s2, ?_, h4⟩
      show (push_stack junk st x >>= fun s1 => run_stack junk s1 ops) = _
      rw [h1]
      exact h3
    | pop =>
      have hc : count_push (StackOp.pop :: ops) = count_push ops := rfl
      rw [hc] at hcap
      obtain ⟨s1, h1, h2⟩ := pop_stack_spec h
      obtain ⟨s2, h3, h4⟩ := ih s1 l.tail h2
        (fun y hy => hnn y (List.mem_cons_of_mem _ hy))
        (by rw [List.length_tail]; omega)
      refine ⟨s2, ?_, h4⟩
      show (pop_stack st >>= fun r => run_stack junk r.1 ops >>= fun r2 =>
        pure (r2.1, r.2 :: r2.2)) = _
      rw [h1]
      show (run_stack junk s1 ops >>= fun r2 => pure (r2.1, l.headD 0 :: r2.2)) = _
      rw [h3]
      rfl

/-- Claim C38: for a stack created with any `unsigned` size (zero is treated
as one) and any sequence of `push_stack` calls with non-null elements and
`pop_stack` calls, as long as twice the number of pushed elements fits in an
`unsigned int` (the new size computed by `enlarge_stack`): all calls
succeed, the pointers returned by `pop_stack` are those of the last-in
first-out stack (null when nothing is stored), and at the end `count_stack`
is the number of stored elements and is less than `size_stack`. For every
well-formed stack, `pop_stack` returns the most recently pushed element and
null exactly when the stack holds no element, and after a `push_stack` the
element is on top and `count_stack` is less than `size_stack`. -/
theorem C38_lifo_stack (junk : Nat → Nat) (size : Nat) (ops : List StackOp)
    (hsize : size < UINT_MOD) (hnn : ∀ x, StackOp.push x ∈ ops → x ≠ 0)
    (hcap : 2 * count_push ops < UINT_MOD) :
    (∃ st, run_stack junk (create_stack junk size) ops = Except.ok (st, (lifo_run [] ops).2)
      ∧ stack_contents st = (lifo_run [] ops).1
      ∧ count_stack st = (lifo_run [] ops).1.length
      ∧ count_stack st < size_stack st)
    ∧ (∀ st l, StackRep st l →
        (∃ s1, pop_stack st = Except.ok (s1, l.headD 0) ∧ StackRep s1 l.tail)
        ∧ (l.headD 0 = 0 ↔ l = []) ∧ count_stack st = l.length)
    ∧ (∀ st l x, StackRep st l → x ≠ 0 → 2 * (l.length + 1) < UINT_MOD →
        ∃ s1, push_stack junk st x = Except.ok s1 ∧ StackRep s1 (x :: l)
          ∧ count_stack s1 = l.length + 1 ∧ count_stack s1 < size_stack s1) := by
  refine ⟨?_, ?_, ?_⟩
  · obtain ⟨st, h1, h2⟩ := run_stack_spec junk ops (create_stack junk size) []
      (create_stack_spec junk size hsize) hnn (by simpa using hcap)
    exact ⟨st, h1, h2.contents, (count_stack_spec h2).1, (count_stack_spec h2).2⟩
  · intro st l h
    refine ⟨pop_stack_spec h, ?_, (count_stack_spec h).1⟩
    cases l with
    | nil => simp
    | cons a t =>
      have ha : a ≠ 0 := h.non_null a (List.mem_cons_self _ _)
      simp [ha]
  · intro st l x h hx hcap
    obtain ⟨s1, h1, h2⟩ := push_stack_spec junk x h hx hcap
    exact ⟨s1, h1, h2, (count_stack_spec h2).1, (count_stack_spec h2).2⟩

/-- C38, witness: a stack created with size 0 that is filled beyond its size
twice, emptied (one `pop_stack` more than elements) and used again. -/
theorem C38_lifo_stack_witness :
    ∃ st, run_stack (fun _ => 7) (create_stack (fun _ => 7) 0) sample_stack_ops
        = Except.ok (st, [2, 5, 4, 3, 1, 0, 6])
      ∧ stack_contents st = [] ∧ count_stack st = 0 ∧ count_stack st < size_stack st := by
  obtain ⟨⟨st, h1, h2, h3, h4⟩, _, _⟩ := C38_lifo_stack (fun _ => 7) 0 sample_stack_ops
    (by unfold UINT_MOD; omega)
    (by
      intro x hx
      simp only [sample_stack_ops, List.mem_cons, StackOp.push.injEq, List.mem_singleton,
        reduceCtorEq, or_false, false_or, List.not_mem_nil] at hx
      rcases hx with h | h | h | h | h | h <;> omega)
    (by
      have : count_push sample_stack_ops = 6 := rfl
      rw [this]; unfold UINT_MOD; omega)
  have e1 : (lifo_run [] sample_stack_ops).2 = [2, 5, 4, 3, 1, 0, 6] := rfl
  have e2 : (lifo_run [] sample_stack_ops).1 = [] := rfl
  rw [e1] at h1
  rw [e2] at h2 h3
  exact ⟨st, h1, h2, h3, h4⟩

/-! ## Theorems: the relinking made by the global-flow rewrite (claim C15) -/

theorem links_of_get_node {s : Nenofex} {k : Nat} {nd : Node}
    (h : get_node s k = Except.ok nd) :
    s.nodes[k]? = some (some nd) ∧ links s k = some (nd.type, nd.parent, nd.child_list) := by
  unfold get_node at h
  unfold links
  cases hk : s.nodes[k]? with
  | none =>
    rw [hk] at h
    cases h
  | some o =>
    cases o with
    | none =>
      rw [hk] at h
      cases h
    | some nd1 =>
      rw [hk] at h
      cases h
      exact ⟨rfl, rfl⟩

theorem links_congr {s s1 : Nenofex} (h : s1.nodes = s.nodes) (k : Nat) :
    links s1 k = links s k := by
  unfold links
  rw [h]

theorem get_node_of_links {s : Nenofex} {k : Nat} {t : NodeType} {p : Option Nat}
    {cl : List Nat} (h : links s k = some (t, p, cl)) :
    ∃ nd, get_node s k = Except.ok nd ∧ nd.type = t ∧ nd.parent = p ∧ nd.child_list = cl := by
  unfold links at h
  unfold get_node
  cases hk : s.nodes[k]? with
  | none =>
    rw [hk] at h
    cases h
  | some o =>
    cases o with
    | none =>
      rw [hk] at h
      cases h
    | some nd =>
      rw [hk] at h
      cases h
      exact ⟨nd, rfl, rfl, rfl, rfl⟩

theorem collect_fault_path_node_nodes {s s1 : Nenofex} {k : Nat}
    (h : collect_fault_path_node s k = Except.ok s1) :
    s1.nodes = s.nodes ∧ s1.graph_root = s.graph_root := by
  unfold collect_fault_path_node at h
  obtain ⟨i, _, h⟩ := bind_ok.mp h
  obtain ⟨a, _, h⟩ := bind_ok.mp h
  by_cases hc : a.fault_path_node_collected = false
  · rw [if_pos hc] at h
    cases h
    exact ⟨rfl, rfl⟩
  · rw [if_neg hc] at h
    cases h
    exact ⟨rfl, rfl⟩

theorem remove_child_from_watcher_list_nodes {s s1 : Nenofex} {p c : Nat}
    (h : remove_child_from_watcher_list s p c = Except.ok s1) :
    s1.nodes = s.nodes ∧ s1.graph_root = s.graph_root := by
  unfold remove_child_from_watcher_list at h
  obtain ⟨i, _, h⟩ := bind_ok.mp h
  obtain ⟨a, _, h⟩ := bind_ok.mp h
  obtain ⟨ch, _, h⟩ := bind_ok.mp h
  by_cases h0 : ch.length = 0
  · rw [if_pos h0] at h
    cases h
  · rw [if_neg h0] at h
    by_cases h1 : ch.findIdx (fun f => watcher_entry_is_child f c) = ch.length - 1
    · rw [if_pos h1] at h
      cases h
      exact ⟨rfl, rfl⟩
    · rw [if_neg h1] at h
      obtain ⟨last, _, h⟩ := bind_ok.mp h
      cases h
      exact ⟨rfl, rfl⟩

theorem getElem?_set_some {α : Type} (l : List α) (i j : Nat) (x : α) :
    (l.set i x)[j]? = if i = j ∧ i < l.length then some x else l[j]? := by
  by_cases e : i = j
  · subst e
    by_cases hl : i < l.length
    · rw [List.getElem?_set_self hl, if_pos ⟨rfl, hl⟩]
    · rw [if_neg (fun hh => hl hh.2), List.getElem?_eq_none (by rw [List.length_set]; omega),
        List.getElem?_eq_none (by omega)]
  · rw [List.getElem?_set_ne e, if_neg (fun hh => e hh.1)]

/-- A store into a node that keeps type, parent and children keeps all links. -/
theorem links_set_same (s : Nenofex) (k : Nat) (nd nd1 : Node)
    (hk : s.nodes[k]? = some (some nd)) (ht : nd1.type = nd.type) (hp : nd1.parent = nd.parent)
    (hc : nd1.child_list = nd.child_list) (s1 : Nenofex)
    (hs : s1.nodes = s.nodes.set k (some nd1)) (j : Nat) : links s1 j = links s j := by
  unfold links
  rw [hs, getElem?_set_some]
  by_cases e : k = j ∧ k < s.nodes.length
  · rw [if_pos e]
    obtain ⟨e1, _⟩ := e
    subst e1
    rw [hk]
    show some (nd1.type, nd1.parent, nd1.child_list) = some (nd.type, nd.parent, nd.child_list)
    rw [ht, hp, hc]
  · rw [if_neg e]

theorem assign_node_atpg_info_links {s s1 : Nenofex} {k : Nat}
    (h : assign_node_atpg_info s k = Except.ok s1) :
    s1.graph_root = s.graph_root ∧ ∀ j, links s1 j = links s j := by
  unfold assign_node_atpg_info at h
  obtain ⟨cur, _, h⟩ := bind_ok.mp h
  obtain ⟨end_, _, h⟩ := bind_ok.mp h
  by_cases hx : cur + 1 = end_
  · rw [if_pos hx] at h
    cases h
  · rw [if_neg hx] at h
    obtain ⟨nd, hnd, h⟩ := bind_ok.mp h
    obtain ⟨a, _, h⟩ := bind_ok.mp h
    have hk := (links_of_get_node hnd).1
    by_cases hl : (nd.type != NodeType.LITERAL) = true
    · rw [if_pos hl] at h
      cases h
      exact ⟨rfl, fun j => links_set_same s k nd { nd with atpg_info := some cur } hk rfl rfl rfl
        _ rfl j⟩
    · rw [if_neg hl] at h
      cases h
      exact ⟨rfl, fun j => links_set_same s k nd { nd with atpg_info := some cur } hk rfl rfl rfl
        _ rfl j⟩

/-- The rewrite is its preparation, which fixes the insertion point,
followed by the macro `apply_transformation`. -/
theorem transform_split (api : GraphAPI) (s : Nenofex) (n h : Nat) :
    transform_subformula_by_global_flow_implication api s n h
      = transform_preparation api s n h >>= fun r => apply_transformation api r.1 n r.2 := by
  cases hfa : node_info s n with
  | error e =>
    unfold transform_subformula_by_global_flow_implication transform_preparation
    rw [hfa]
    rfl
  | ok fa =>
    cases hh : get_node s h with
    | error e =>
      unfold transform_subformula_by_global_flow_implication transform_preparation
      rw [hfa, hh]
      rfl
    | ok hnd =>
      rw [transform_eq api s n h fa hnd hfa hh]
      unfold transform_preparation
      rw [hfa, ok_bind, hh, ok_bind]
      by_cases hst : strong_implication fa.assignment hnd.type
      · by_cases h1 : s.graph_root = some h
        · simp only [if_pos h1, if_pos hst, bind_assoc, pure_bind]
        · by_cases h2 : s.changed_subformula.lca = some h
          · simp only [if_neg h1, if_pos h2, if_pos hst, bind_assoc, pure_bind]
          · by_cases h3 : hnd.parent = s.changed_subformula.lca
            · simp only [if_neg h1, if_neg h2, if_pos h3, if_pos hst, bind_assoc, pure_bind]
            · simp only [if_neg h1, if_neg h2, if_neg h3, if_pos hst, bind_assoc, pure_bind]
      · by_cases h1 : s.graph_root = some h
        · simp only [if_pos h1, if_neg hst, bind_assoc, pure_bind]
        · by_cases h2 : s.changed_subformula.lca = some h
          · simp only [if_neg h1, if_pos h2, if_neg hst, bind_assoc, pure_bind]
          · by_cases h3 : hnd.parent = s.changed_subformula.lca
            · simp only [if_neg h1, if_neg h2, if_pos h3, if_neg hst, bind_assoc, pure_bind]
            · simp only [if_neg h1, if_neg h2, if_neg h3, if_neg hst, bind_assoc, pure_bind]

/-- The macro `apply_transformation` is the detachment of the implicant, the
call `add_node_to_child_list (nenofex, insert_at, fault_node)` and the
statements that follow it. -/
theorem apply_transformation_split (api : GraphAPI) (s : Nenofex) (n ip : Nat) :
    apply_transformation api s n ip
      = detach_implicant api s n ip >>= fun r =>
          api.add_node_to_child_list r.1 ip n >>= fun s2 =>
            finish_transformation api s2 n ip r.2 := by
  unfold apply_transformation unlink_and_add_implication detach_implicant finish_transformation
  simp only [bind_assoc, pure_bind]

/-- The statements of CASE 1.1 after the creation of the node `f`: `f`
becomes the graph root with the old root `h` as its only child. -/
theorem new_root_set_up_links {api : GraphAPI} (hc : GraphContract api) {sB s0 : Nenofex}
    {n f h : Nat} {t th : NodeType} {ph : Option Nat} {ch : List Nat}
    (hrun : new_root_set_up api sB n f = Except.ok s0) (hroot : sB.graph_root = some h)
    (hf : links sB f = some (t, none, [])) (hh : links sB h = some (th, ph, ch))
    (hfh : f ≠ h) :
    s0.graph_root = some f
    ∧ (∃ cl, links s0 f = some (t, none, cl) ∧ ∀ x, x ∈ cl ↔ x = h)
    ∧ links s0 h = some (th, some f, ch)
    ∧ ∀ k, k ≠ f → k ≠ h → links s0 k = links sB k := by
  unfold new_root_set_up at hrun
  obtain ⟨root, hr, hrun⟩ := bind_ok.mp hrun
  have hr1 : some h = some root := hroot.symm.trans (deref_ok hr)
  cases hr1
  obtain ⟨sC, hC, hrun⟩ := bind_ok.mp hrun
  obtain ⟨sD, hD, hrun⟩ := bind_ok.mp hrun
  obtain ⟨rnd, _, hrun⟩ := bind_ok.mp hrun
  obtain ⟨sE, hE, hrun⟩ := bind_ok.mp hrun
  obtain ⟨sF, hF, hrun⟩ := bind_ok.mp hrun
  obtain ⟨ia, _, hrun⟩ := bind_ok.mp hrun
  obtain ⟨iaf, _, hrun⟩ := bind_ok.mp hrun
  obtain ⟨sG, hG, hrun⟩ := bind_ok.mp hrun
  obtain ⟨ind, _, hrun⟩ := bind_ok.mp hrun
  obtain ⟨first, _, hrun⟩ := bind_ok.mp hrun
  obtain ⟨sH, hH, hI⟩ := bind_ok.mp hrun
  obtain ⟨_, c2, tp, pp, pc, pc1, tc, oc, cc, c3, c4, c5, c6, c7⟩ :=
    hc.add_node_to_child_list _ _ _ _ hC hfh
  rw [hf] at c3
  cases c3
  rw [hh] at c4
  cases c4
  obtain ⟨_, d2⟩ := hc.update_level _ _ _ hD
  obtain ⟨_, e2⟩ := hc.update_size_subformula _ _ _ _ hE
  obtain ⟨_, f2⟩ := assign_node_atpg_info_links hF
  obtain ⟨g1, g2⟩ := hc.reset_changed_lca_object _ _ hG
  obtain ⟨h1, h2⟩ := hc.add_changed_lca_child _ _ _ hH
  obtain ⟨i1, i2⟩ := hc.add_changed_lca_child _ _ _ hI
  have hall : ∀ j, links s0 j = links sC j := by
    intro j
    rw [i2 j, h2 j]
    have e1 : links { sG with changed_subformula.lca := some f } j = links sG j :=
      links_congr rfl j
    rw [e1, g2 j]
    have e3 : links { enqueue_fault sF iaf with graph_root := some f } j = links sF j :=
      links_congr rfl j
    rw [e3, f2 j, e2 j, d2 j]
  refine ⟨?_, ⟨pc1, ?_, ?_⟩, ?_, ?_⟩
  · rw [i1, h1]
    show sG.graph_root = some f
    rw [g1]
  · rw [hall f]
    exact c5
  · intro x
    rw [c6 x]
    constructor
    · rintro (e | e)
      · exact e
      · cases e
    · intro e
      exact Or.inl e
  · rw [hall h]
    exact c7
  · intro k k1 k2
    rw [hall k]
    exact c2 k k1 k2

/-- The detachment of the implicant `n` from its parent `p` clears the
parent pointer of `n` and leaves the links of the nodes other than `n` and
`p` alone. -/
theorem detach_implicant_links {api : GraphAPI} (hc : GraphContract api) {s0 s1 : Nenofex}
    {n ip p : Nat} {ctx : RelinkContext} {tn : NodeType} {cn : List Nat}
    (hrun : detach_implicant api s0 n ip = Except.ok (s1, ctx))
    (hn : links s0 n = some (tn, some p, cn)) :
    s1.graph_root = s0.graph_root ∧ links s1 n = some (tn, none, cn)
    ∧ ∀ k, k ≠ n → k ≠ p → links s1 k = links s0 k := by
  unfold detach_implicant at hrun
  obtain ⟨ia, _, hrun⟩ := bind_ok.mp hrun
  obtain ⟨iaf, _, hrun⟩ := bind_ok.mp hrun
  obtain ⟨fnd, _, hrun⟩ := bind_ok.mp hrun
  obtain ⟨p1, _, hrun⟩ := bind_ok.mp hrun
  obtain ⟨pa, _, hrun⟩ := bind_ok.mp hrun
  obtain ⟨fault_parent, _, hrun⟩ := bind_ok.mp hrun
  obtain ⟨fp, _, hrun⟩ := bind_ok.mp hrun
  obtain ⟨fpa, _, hrun⟩ := bind_ok.mp hrun
  obtain ⟨sR, hR, hrun⟩ := bind_ok.mp hrun
  obtain ⟨sU, hU, hrun⟩ := bind_ok.mp hrun
  obtain ⟨fnd2, _, hrun⟩ := bind_ok.mp hrun
  obtain ⟨sV, hV, hrun⟩ := bind_ok.mp hrun
  cases hrun
  have hRn : sR.nodes = s0.nodes ∧ sR.graph_root = s0.graph_root := by
    obtain ⟨a1, a2, a3, a4, ch, a6, a7, a8, a9, a10, a11⟩ := fpa
    cases ch with
    | none =>
      cases hR
      exact ⟨rfl, rfl⟩
    | some l => exact remove_child_from_watcher_list_nodes hR
  obtain ⟨u1, tc, oc, cc, u2, u3, u4⟩ := hc.unlink_node _ _ _ hU
  obtain ⟨v1, v2⟩ := hc.update_size_subformula _ _ _ _ hV
  rw [links_congr hRn.1 n, hn] at u2
  cases u2
  refine ⟨by rw [v1, u1, hRn.2], by rw [v2 n]; exact u3, ?_⟩
  intro k k1 k2
  rw [v2 k, u4 k k1 (fun e => k2 (Option.some.inj e).symm), links_congr hRn.1 k]

/-- The insertion point fixed by the preparation, case by case. -/
theorem transform_preparation_point {api : GraphAPI} {s s0 : Nenofex} {n h ip : Nat}
    {fa : ATPGInfo} {hnd : Node} (hfa : node_info s n = Except.ok fa)
    (hh : get_node s h = Except.ok hnd)
    (hrun : transform_preparation api s n h = Except.ok (s0, ip)) :
    (s.graph_root = some h → strong_implication fa.assignment hnd.type →
      ∃ sA sB, collect_fault_path_node s h = Except.ok sA
        ∧ (if hnd.type = NodeType.AND then api.or_node sA else api.and_node sA)
            = Except.ok (sB, ip)
        ∧ new_root_set_up api sB n ip = Except.ok s0)
    ∧ (¬ strong_implication fa.assignment hnd.type → ip = h)
    ∧ (s.graph_root ≠ some h → strong_implication fa.assignment hnd.type →
        hnd.parent = some ip) := by
  unfold transform_preparation at hrun
  rw [hfa, ok_bind, hh, ok_bind] at hrun
  refine ⟨?_, ?_, ?_⟩
  · intro h1 hst
    rw [if_pos h1, if_pos hst] at hrun
    obtain ⟨sA, hA, hrun⟩ := bind_ok.mp hrun
    obtain ⟨r, hB, hrun⟩ := bind_ok.mp hrun
    obtain ⟨s2, hS, hrun⟩ := bind_ok.mp hrun
    cases hrun
    exact ⟨sA, r.1, hA, hB, hS⟩
  · intro hst
    by_cases h1 : s.graph_root = some h
    · rw [if_pos h1, if_neg hst] at hrun
      obtain ⟨s1, _, hrun⟩ := bind_ok.mp hrun
      cases hrun
      rfl
    · rw [if_neg h1] at hrun
      by_cases h2 : s.changed_subformula.lca = some h
      · rw [if_pos h2, if_neg hst] at hrun
        obtain ⟨s1, _, hrun⟩ := bind_ok.mp hrun
        cases hrun
        rfl
      · rw [if_neg h2] at hrun
        by_cases h3 : hnd.parent = s.changed_subformula.lca
        · rw [if_pos h3, if_neg hst] at hrun
          cases hrun
          rfl
        · rw [if_neg h3, if_neg hst] at hrun
          cases hrun
          rfl
  · intro h1 hst
    rw [if_neg h1] at hrun
    by_cases h2 : s.changed_subformula.lca = some h
    · rw [if_pos h2, if_pos hst] at hrun
      obtain ⟨p, hp, hrun⟩ := bind_ok.mp hrun
      obtain ⟨s1, _, hrun⟩ := bind_ok.mp hrun
      cases hrun
      exact deref_ok hp
    · rw [if_neg h2] at hrun
      by_cases h3 : hnd.parent = s.changed_subformula.lca
      · rw [if_pos h3, if_pos hst] at hrun
        obtain ⟨p, hp, hrun⟩ := bind_ok.mp hrun
        obtain ⟨s1, _, hrun⟩ := bind_ok.mp hrun
        obtain ⟨s2, _, hrun⟩ := bind_ok.mp hrun
        cases hrun
        exact deref_ok hp
      · rw [if_neg h3, if_pos hst] at hrun
        obtain ⟨s1, _, hrun⟩ := bind_ok.mp hrun
        obtain ⟨p, hp, hrun⟩ := bind_ok.mp hrun
        cases hrun
        exact deref_ok hp

theorem strong_of_witness {a b : ATPGAssignment} {t : NodeType} (hab : b = a)
    (h : strong_witness t b) : strong_implication a t := by
  subst hab
  unfold strong_implication
  rcases h with ⟨h1, h2⟩ | ⟨h1, h2⟩
  · rw [h1, h2]
    exact Or.inl ⟨by decide, rfl⟩
  · rw [h1, h2]
    exact Or.inr ⟨by decide, rfl⟩

theorem not_strong_of_weak {a b : ATPGAssignment} {t : NodeType} (hab : b = a)
    (h : weak_witness t b) : ¬ strong_implication a t := by
  subst hab
  unfold strong_implication
  rcases h with ⟨h1, h2⟩ | ⟨h1, h2⟩
  · rw [h1, h2]
    rintro (⟨_, h4⟩ | ⟨h3, _⟩)
    · cases h4
    · exact h3 (by decide)
  · rw [h1, h2]
    rintro (⟨h3, _⟩ | ⟨_, h4⟩)
    · exact absurd h3 (by decide)
    · cases h4

/-- Claim C15: a run of `transform_subformula_by_global_flow_implication`
for an implicant `n` and a witness `h` with equal assignments (`h` is neither
`n` nor its parent `p`) that returns consists of the preparation, which
fixes the insertion point `ip`, the detachment of `n`, the call
`add_node_to_child_list (nenofex, ip, n)` and the statements after it. Right
after that call `n` has the parent `ip` and stands in the child list of `ip`,
and `ip` is the one of the insertion-point table: for the graph root and a
strong witness a node that did not exist before, of the opposite kind, which
is the graph root without parent and whose children are exactly the old root
`h` and `n`, both with this node as parent; `h` for a weak witness in every
position; the parent of `h` for a strong witness that is not the graph root,
which is the subformula LCA when `h` is a child of the LCA. The functions of
`nenofex.c` are any functions that satisfy `GraphContract`. -/
theorem C15_insertion_point_table (api : GraphAPI) (hc : GraphContract api) (s s' : Nenofex)
    (n h p : Nat) (fa ha : ATPGInfo) (nnd hnd pnd : Node)
    (hfa : node_info s n = Except.ok fa) (hha : node_info s h = Except.ok ha)
    (hn : get_node s n = Except.ok nnd) (hh : get_node s h = Except.ok hnd)
    (hp : nnd.parent = some p) (hpn : get_node s p = Except.ok pnd)
    (heq : ha.assignment = fa.assignment)
    (hnh : n ≠ h) (hph : p ≠ h) (hnp : hnd.parent ≠ some n)
    (hrun : transform_subformula_by_global_flow_implication api s n h = Except.ok s') :
    ∃ (ip : Nat) (s0 s1 s2 : Nenofex) (ctx : RelinkContext),
      transform_preparation api s n h = Except.ok (s0, ip)
      ∧ detach_implicant api s0 n ip = Except.ok (s1, ctx)
      ∧ api.add_node_to_child_list s1 ip n = Except.ok s2
      ∧ finish_transformation api s2 n ip ctx = Except.ok s'
      ∧ (∃ (tn : NodeType) (cn : List Nat) (tp : NodeType) (pp : Option Nat) (cl : List Nat),
          links s2 n = some (tn, some ip, cn) ∧ links s2 ip = some (tp, pp, cl) ∧ n ∈ cl)
      ∧ (s.graph_root = some h → strong_witness hnd.type ha.assignment →
          links s ip = none ∧ s2.graph_root = some ip
          ∧ (∃ cl, links s2 ip = some (opposite_kind hnd.type, none, cl)
              ∧ ∀ x, x ∈ cl ↔ x = h ∨ x = n)
          ∧ links s2 h = some (hnd.type, some ip, hnd.child_list)
          ∧ links s2 n = some (nnd.type, some ip, nnd.child_list))
      ∧ (s.graph_root = some h → weak_witness hnd.type ha.assignment → ip = h)
      ∧ (s.graph_root ≠ some h → s.changed_subformula.lca = some h →
          strong_witness hnd.type ha.assignment → hnd.parent = some ip)
      ∧ (s.graph_root ≠ some h → s.changed_subformula.lca = some h →
          weak_witness hnd.type ha.assignment → ip = h)
      ∧ (s.graph_root ≠ some h → s.changed_subformula.lca ≠ some h →
          hnd.parent = s.changed_subformula.lca → strong_witness hnd.type ha.assignment →
          s.changed_subformula.lca = some ip)
      ∧ (s.graph_root ≠ some h → s.changed_subformula.lca ≠ some h →
          hnd.parent = s.changed_subformula.lca → weak_witness hnd.type ha.assignment →
          ip = h)
      ∧ (s.graph_root ≠ some h → s.changed_subformula.lca ≠ some h →
          hnd.parent ≠ s.changed_subformula.lca → strong_witness hnd.type ha.assignment →
          hnd.parent = some ip)
      ∧ (s.graph_root ≠ some h → s.changed_subformula.lca ≠ some h →
          hnd.parent ≠ s.changed_subformula.lca → weak_witness hnd.type ha.assignment →
          ip = h) := by
  have _ := hha
  rw [transform_split] at hrun
  obtain ⟨r, hprep, hrun⟩ := bind_ok.mp hrun
  obtain ⟨s0, ip⟩ := r
  rw [apply_transformation_split] at hrun
  obtain ⟨r1, hdet, hrun⟩ := bind_ok.mp hrun
  obtain ⟨s1, ctx⟩ := r1
  obtain ⟨s2, hadd, hfin⟩ := bind_ok.mp hrun
  obtain ⟨q1, q2, q3⟩ := transform_preparation_point hfa hh hprep
  have hln := (links_of_get_node hn).2
  have hlh := (links_of_get_node hh).2
  have hlp := (links_of_get_node hpn).2
  rw [hp] at hln
  -- the facts of the first row
  have hrow1 : s.graph_root = some h → strong_implication fa.assignment hnd.type →
      links s ip = none ∧ s1.graph_root = some ip
      ∧ (∃ cl, links s1 ip = some (opposite_kind hnd.type, none, cl) ∧ ∀ x, x ∈ cl ↔ x = h)
      ∧ links s1 h = some (hnd.type, some ip, hnd.child_list)
      ∧ links s1 n = some (nnd.type, none, nnd.child_list) := by
    intro h1 hst
    obtain ⟨sA, sB, hA, hB, hS⟩ := q1 h1 hst
    obtain ⟨a1, a2⟩ := collect_fault_path_node_nodes hA
    have hnew : links sA ip = none ∧ links sB ip = some (opposite_kind hnd.type, none, [])
        ∧ sB.graph_root = sA.graph_root ∧ ∀ k, k ≠ ip → links sB k = links sA k := by
      by_cases ht : hnd.type = NodeType.AND
      · rw [if_pos ht] at hB
        have e : opposite_kind hnd.type = NodeType.OR := by
          unfold opposite_kind
          rw [if_pos ht]
        rw [e]
        exact hc.or_node _ _ _ hB
      · rw [if_neg ht] at hB
        have e : opposite_kind hnd.type = NodeType.AND := by
          unfold opposite_kind
          rw [if_neg ht]
        rw [e]
        exact hc.and_node _ _ _ hB
    obtain ⟨b1, b2, b3, b4⟩ := hnew
    have b1s : links s ip = none := by
      rw [← links_congr a1 ip]
      exact b1
    have hfh : ip ≠ h := by
      intro e
      rw [e, hlh] at b1s
      cases b1s
    have hfn : ip ≠ n := by
      intro e
      rw [e, hln] at b1s
      cases b1s
    have hfp : ip ≠ p := by
      intro e
      rw [e, hlp] at b1s
      cases b1s
    have hBh : links sB h = some (hnd.type, hnd.parent, hnd.child_list) := by
      rw [b4 h (fun e => hfh e.symm), links_congr a1 h]
      exact hlh
    obtain ⟨c1, ⟨cl, c2, c3⟩, c4, c5⟩ := new_root_set_up_links hc hS
      (by rw [b3, a2]; exact h1) b2 hBh hfh
    have h0n : links s0 n = some (nnd.type, some p, nnd.child_list) := by
      rw [c5 n (fun e => hfn e.symm) hnh, b4 n (fun e => hfn e.symm), links_congr a1 n]
      exact hln
    obtain ⟨d1, d2, d3⟩ := detach_implicant_links hc hdet h0n
    refine ⟨b1s, by rw [d1]; exact c1, ⟨cl, ?_, c3⟩, ?_, d2⟩
    · rw [d3 ip hfn hfp]
      exact c2
    · rw [d3 h (fun e => hnh e.symm) (fun e => hph e.symm)]
      exact c4
  have hipn : ip ≠ n := by
    by_cases hst : strong_implication fa.assignment hnd.type
    · by_cases h1 : s.graph_root = some h
      · obtain ⟨b1s, _⟩ := hrow1 h1 hst
        intro e
        rw [e, hln] at b1s
        cases b1s
      · intro e
        have h3 := q3 h1 hst
        rw [e] at h3
        exact hnp h3
    · rw [q2 hst]
      exact fun e => hnh e.symm
  obtain ⟨e1, e2, tp, pp, pc, pc1, tc, oc, cc, e3, e4, e5, e6, e7⟩ :=
    hc.add_node_to_child_list _ _ _ _ hadd hipn
  refine ⟨ip, s0, s1, s2, ctx, hprep, hdet, hadd, hfin,
    ⟨tc, cc, tp, pp, pc1, e7, e5, (e6 n).mpr (Or.inl rfl)⟩, ?_, ?_, ?_, ?_, ?_, ?_, ?_, ?_⟩
  · intro h1 hw
    obtain ⟨r1, r2, ⟨cl, r3, r4⟩, r5, r6⟩ := hrow1 h1 (strong_of_witness heq hw)
    rw [r3] at e3
    cases e3
    rw [r6] at e4
    cases e4
    have hih : ip ≠ h := by
      intro e
      rw [e, hlh] at r1
      cases r1
    refine ⟨r1, by rw [e1]; exact r2, ⟨pc1, e5, ?_⟩, ?_, e7⟩
    · intro x
      rw [e6 x, r4 x]
      exact Or.comm
    · rw [e2 h (fun e => hih e.symm) (fun e => hnh e.symm)]
      exact r5
  · intro _ hw
    exact q2 (not_strong_of_weak heq hw)
  · intro h1 _ hw
    exact q3 h1 (strong_of_witness heq hw)
  · intro _ _ hw
    exact q2 (not_strong_of_weak heq hw)
  · intro h1 _ h3 hw
    rw [← h3]
    exact q3 h1 (strong_of_witness heq hw)
  · intro _ _ _ hw
    exact q2 (not_strong_of_weak heq hw)
  · intro h1 _ _ hw
    exact q3 h1 (strong_of_witness heq hw)
  · intro _ _ _ hw
    exact q2 (not_strong_of_weak heq hw)

/-! ### The model of the graph functions satisfies the contract -/

theorem filterAuxM_ok {α : Type} (f : α → M Bool) :
    ∀ (l acc r : List α), List.filterAuxM f l acc = Except.ok r →
      (∀ x, x ∈ r ↔ (x ∈ acc ∨ (x ∈ l ∧ f x = Except.ok true)))
      ∧ ∀ x ∈ l, ∃ b, f x = Except.ok b := by
  intro l
  induction l with
  | nil =>
    intro acc r h
    cases h
    refine ⟨fun x => ?_, fun x hx => absurd hx (List.not_mem_nil x)⟩
    constructor
    · exact fun hx => Or.inl hx
    · rintro (hx | ⟨hx, _⟩)
      · exact hx
      · cases hx
  | cons a t ih =>
    intro acc r h
    have e : List.filterAuxM f (a :: t) acc
        = f a >>= fun b => List.filterAuxM f t (bif b then a :: acc else acc) := rfl
    rw [e] at h
    obtain ⟨b, hb, h⟩ := bind_ok.mp h
    obtain ⟨i1, i2⟩ := ih _ r h
    refine ⟨fun x => ?_, fun x hx => ?_⟩
    · rw [i1 x]
      cases b with
      | true =>
        constructor
        · rintro (hx | ⟨hx, hf⟩)
          · rcases List.mem_cons.mp hx with e1 | e1
            · exact Or.inr ⟨by rw [e1]; exact List.mem_cons_self a t, by rw [e1]; exact hb⟩
            · exact Or.inl e1
          · exact Or.inr ⟨List.mem_cons_of_mem a hx, hf⟩
        · rintro (hx | ⟨hx, hf⟩)
          · exact Or.inl (List.mem_cons_of_mem a hx)
          · rcases List.mem_cons.mp hx with e1 | e1
            · exact Or.inl (by rw [e1]; exact List.mem_cons_self a acc)
            · exact Or.inr ⟨e1, hf⟩
      | false =>
        constructor
        · rintro (hx | ⟨hx, hf⟩)
          · exact Or.inl hx
          · exact Or.inr ⟨List.mem_cons_of_mem a hx, hf⟩
        · rintro (hx | ⟨hx, hf⟩)
          · exact Or.inl hx
          · rcases List.mem_cons.mp hx with e1 | e1
            · rw [e1, hb] at hf
              cases hf
            · exact Or.inr ⟨e1, hf⟩
    · rcases List.mem_cons.mp hx with e1 | e1
      · exact ⟨b, by rw [e1]; exact hb⟩
      · exact i2 x e1

theorem filterM_ok {α : Type} (f : α → M Bool) (l r : List α)
    (h : l.filterM f = Except.ok r) :
    (∀ x, x ∈ r ↔ (x ∈ l ∧ f x = Except.ok true)) ∧ ∀ x ∈ l, ∃ b, f x = Except.ok b := by
  unfold List.filterM at h
  obtain ⟨as, h1, h2⟩ := bind_ok.mp h
  cases h2
  obtain ⟨i1, i2⟩ := filterAuxM_ok f l [] as h1
  refine ⟨fun x => ?_, i2⟩
  rw [List.mem_reverse, i1 x]
  constructor
  · rintro (hx | hx)
    · cases hx
    · exact hx
  · exact fun hx => Or.inr hx

theorem links_set_node (s : Nenofex) (k : Nat) (nd : Node) (j : Nat) :
    links (set_node s k nd) j
      = if k = j ∧ k < s.nodes.length then some (nd.type, nd.parent, nd.child_list)
        else links s j := by
  unfold links set_node
  simp only [getElem?_set_some]
  by_cases e : k = j ∧ k < s.nodes.length
  · simp only [if_pos e]
  · simp only [if_neg e]

theorem get_node_lt {s : Nenofex} {k : Nat} {nd : Node} (h : get_node s k = Except.ok nd) :
    k < s.nodes.length := by
  have h1 := (links_of_get_node h).1
  by_contra hc
  rw [List.getElem?_eq_none (by omega)] at h1
  cases h1

theorem spec_new_node_links (t : NodeType) (s s1 : Nenofex) (f : Nat)
    (h : spec_new_node t s = Except.ok (s1, f)) :
    links s f = none ∧ links s1 f = some (t, none, [])
    ∧ s1.graph_root = s.graph_root ∧ ∀ k, k ≠ f → links s1 k = links s k := by
  unfold spec_new_node at h
  cases h
  refine ⟨?_, ?_, rfl, ?_⟩
  · unfold links
    rw [List.getElem?_eq_none (Nat.le_refl _)]
  · unfold links
    simp only [List.getElem?_append_right (Nat.le_refl _), Nat.sub_self, List.getElem?_cons_zero]
  · intro k hk
    unfold links
    rcases Nat.lt_or_ge k s.nodes.length with h1 | h1
    · simp only [List.getElem?_append_left h1]
    · have h2 : s.nodes.length < k := by omega
      rw [List.getElem?_eq_none (by rw [List.length_append, List.length_singleton]; omega),
        List.getElem?_eq_none h1]

theorem spec_add_node_to_child_list_links (s s1 : Nenofex) (p c : Nat)
    (h : spec_add_node_to_child_list s p c = Except.ok s1) (hpc : p ≠ c) :
    s1.graph_root = s.graph_root ∧ (∀ k, k ≠ p → k ≠ c → links s1 k = links s k)
    ∧ ∃ (tp : NodeType) (pp : Option Nat) (pc pc1 : List Nat) (tc : NodeType) (oc : Option Nat)
        (cc : List Nat),
        links s p = some (tp, pp, pc) ∧ links s c = some (tc, oc, cc)
        ∧ links s1 p = some (tp, pp, pc1) ∧ (∀ x, x ∈ pc1 ↔ x = c ∨ x ∈ pc)
        ∧ links s1 c = some (tc, some p, cc) := by
  unfold spec_add_node_to_child_list at h
  obtain ⟨pnd, hp, h⟩ := bind_ok.mp h
  obtain ⟨cnd, hcn, h⟩ := bind_ok.mp h
  obtain ⟨lits, hl, h⟩ := bind_ok.mp h
  obtain ⟨ops, ho, h⟩ := bind_ok.mp h
  cases h
  have hpl := get_node_lt hp
  have hcl := get_node_lt hcn
  obtain ⟨l1, l2⟩ := filterM_ok _ _ _ hl
  obtain ⟨o1, _⟩ := filterM_ok _ _ _ ho
  have hmem : ∀ x, (x ∈ lits ∨ x ∈ ops) ↔ x ∈ pnd.child_list := by
    intro x
    rw [l1 x, o1 x]
    constructor
    · rintro (hx | hx)
      · exact hx.1
      · exact hx.1
    · intro hx
      obtain ⟨b, hb⟩ := l2 x hx
      obtain ⟨nd, hnd, hb1⟩ := bind_ok.mp hb
      cases hb1
      cases ht : (nd.type == NodeType.LITERAL) with
      | true =>
        refine Or.inl ⟨hx, ?_⟩
        rw [hnd, ok_bind, ht]
        rfl
      | false =>
        refine Or.inr ⟨hx, ?_⟩
        rw [hnd, ok_bind]
        have e : (nd.type != NodeType.LITERAL) = true := by
          show (!(nd.type == NodeType.LITERAL)) = true
          rw [ht]
          rfl
        rw [e]
        rfl
  refine ⟨rfl, ?_, pnd.type, pnd.parent, pnd.child_list,
    (if cnd.type = NodeType.LITERAL then lits ++ [c] ++ ops else lits ++ ops ++ [c]), cnd.type, cnd.parent, cnd.child_list,
    (links_of_get_node hp).2, (links_of_get_node hcn).2, ?_, ?_, ?_⟩
  · intro k k1 k2
    rw [links_set_node, if_neg (fun e => k2 e.1.symm), links_set_node,
      if_neg (fun e => k1 e.1.symm)]
  · rw [links_set_node, if_neg (fun e => hpc e.1.symm), links_set_node, if_pos ⟨rfl, hpl⟩]
  · intro x
    by_cases ht : cnd.type = NodeType.LITERAL
    · rw [if_pos ht]
      simp only [List.mem_append, List.mem_singleton]
      rw [← hmem x]
      constructor
      · rintro ((h1 | h1) | h1)
        · exact Or.inr (Or.inl h1)
        · exact Or.inl h1
        · exact Or.inr (Or.inr h1)
      · rintro (h1 | h1 | h1)
        · exact Or.inl (Or.inr h1)
        · exact Or.inl (Or.inl h1)
        · exact Or.inr h1
    · rw [if_neg ht]
      simp only [List.mem_append, List.mem_singleton]
      rw [← hmem x]
      constructor
      · rintro (h1 | h1)
        · exact Or.inr h1
        · exact Or.inl h1
      · rintro (h1 | h1)
        · exact Or.inr h1
        · exact Or.inl h1
  · rw [links_set_node, if_pos ⟨rfl, by show c < (s.nodes.set p _).length
                                        rw [List.length_set]
                                        exact hcl⟩]

theorem spec_unlink_node_links (s s1 : Nenofex) (c : Nat)
    (h : spec_unlink_node s c = Except.ok s1) :
    s1.graph_root = s.graph_root
    ∧ (∃ (tc : NodeType) (oc : Option Nat) (cc : List Nat),
        links s c = some (tc, oc, cc) ∧ links s1 c = some (tc, none, cc)
        ∧ ∀ k, k ≠ c → oc ≠ some k → links s1 k = links s k) := by
  unfold spec_unlink_node spec_detach at h
  obtain ⟨nd, hn, h⟩ := bind_ok.mp h
  have hl := (links_of_get_node hn).2
  have hlt := get_node_lt hn
  cases hp : nd.parent with
  | none =>
    rw [hp] at h
    cases h
    refine ⟨rfl, nd.type, nd.parent, nd.child_list, hl, ?_, fun k _ _ => rfl⟩
    rw [hl, hp]
  | some p =>
    rw [hp] at h
    obtain ⟨pnd, hpn, h⟩ := bind_ok.mp h
    have key : ∃ pn1 : Node, s1 = set_node (set_node s p pn1) c { nd with parent := none } := by
      cases hi : pnd.atpg_info with
      | none =>
        rw [hi] at h
        cases h
        exact ⟨_, rfl⟩
      | some i =>
        rw [hi] at h
        obtain ⟨a, _, h⟩ := bind_ok.mp h
        rw [if_neg (fun e => absurd e.1 (by decide))] at h
        cases h
        exact ⟨_, rfl⟩
    obtain ⟨pn1, key⟩ := key
    rw [key]
    refine ⟨rfl, nd.type, nd.parent, nd.child_list, hl, ?_, ?_⟩
    · rw [links_set_node, if_pos ⟨rfl, by show c < (s.nodes.set p _).length
                                          rw [List.length_set]
                                          exact hlt⟩]
    · intro k k1 k2
      rw [hp] at k2
      rw [links_set_node, if_neg (fun e => k1 e.1.symm), links_set_node,
        if_neg (fun e => k2 (by rw [e.1]))]

theorem spec_update_size_loop_links : ∀ (fuel : Nat) (s s1 : Nenofex) (o : Option Nat)
    (delta : Int), spec_update_size_loop fuel s o delta = Except.ok s1 →
    s1.graph_root = s.graph_root ∧ ∀ j, links s1 j = links s j := by
  intro fuel
  induction fuel with
  | zero =>
    intro s s1 o delta h
    cases h
    exact ⟨rfl, fun _ => rfl⟩
  | succ k ih =>
    intro s s1 o delta h
    cases o with
    | none =>
      cases h
      exact ⟨rfl, fun _ => rfl⟩
    | some n =>
      have e : spec_update_size_loop (k + 1) s (some n) delta
          = get_node s n >>= fun nd =>
              spec_update_size_loop k (set_node s n { nd with size_subformula :=
                ((nd.size_subformula : Int) + delta).toNat }) nd.parent delta := rfl
      rw [e] at h
      obtain ⟨nd, hn, h⟩ := bind_ok.mp h
      obtain ⟨i1, i2⟩ := ih _ _ _ _ h
      refine ⟨i1, fun j => ?_⟩
      rw [i2 j]
      exact links_set_same s n nd { nd with size_subformula :=
        ((nd.size_subformula : Int) + delta).toNat } (links_of_get_node hn).1 rfl rfl rfl _ rfl j

theorem spec_set_levels_links : ∀ (l : List Nat) (s s1 : Nenofex),
    spec_set_levels s l = Except.ok s1 →
    s1.graph_root = s.graph_root ∧ ∀ j, links s1 j = links s j := by
  intro l
  induction l with
  | nil =>
    intro s s1 h
    cases h
    exact ⟨rfl, fun _ => rfl⟩
  | cons n rest ih =>
    intro s s1 h
    unfold spec_set_levels at h
    obtain ⟨nd, hn, h⟩ := bind_ok.mp h
    obtain ⟨level, _, h⟩ := bind_ok.mp h
    obtain ⟨i1, i2⟩ := ih _ _ h
    refine ⟨i1, fun j => ?_⟩
    rw [i2 j]
    exact links_set_same s n nd { nd with level := level } (links_of_get_node hn).1 rfl rfl rfl
      _ rfl j

/-- The model of the graph functions that follows section 6 of the
specification satisfies the contract. -/
theorem spec_api_contract : GraphContract spec_api := by
  constructor
  · exact fun s s1 f h => spec_new_node_links NodeType.OR s s1 f h
  · exact fun s s1 f h => spec_new_node_links NodeType.AND s s1 f h
  · exact fun s s1 p c h hpc => spec_add_node_to_child_list_links s s1 p c h hpc
  · exact fun s s1 c h => spec_unlink_node_links s s1 c h
  · intro s s1 k delta h
    exact spec_update_size_loop_links _ s s1 (some k) delta h
  · intro s s1 k h
    have h1 : spec_update_level s k = Except.ok s1 := h
    unfold spec_update_level at h1
    obtain ⟨sub, _, h1⟩ := bind_ok.mp h1
    exact spec_set_levels_links sub s s1 h1
  · intro s s1 h
    cases h
    exact ⟨rfl, fun _ => rfl⟩
  · intro s s1 k h
    cases h
    exact ⟨rfl, fun _ => rfl⟩

set_option maxRecDepth 1000000 in
set_option maxHeartbeats 4000000 in
/-- Claim C15, the row "graph root, strong" on a run of the global-flow
phase: on the graph `(b | (a & c)) & (a | d)` the trial "node 3 (`a & c`)
true" yields the witness 0, the root `AND`, assigned true like node 3. The
rewrite is called in `distributive_call_state` with the implicant 3, whose
parent is node 1, and the witness 0. The insertion point is a node that did
not exist, after the attachment it is the graph root, an `OR` without parent
whose children are exactly 0 and 3, and the nodes 0 and 3 have it as parent;
when the rewrite returns, the node 9 is the root `OR` over the old root 0
and the implicant 3. -/
theorem C15_insertion_point_table_witness :
    ∃ (ip : Nat) (s0 s1 s2 : Nenofex) (ctx : RelinkContext),
      transform_preparation spec_api distributive_call_state 3 0 = Except.ok (s0, ip)
      ∧ detach_implicant spec_api s0 3 ip = Except.ok (s1, ctx)
      ∧ spec_api.add_node_to_child_list s1 ip 3 = Except.ok s2
      ∧ finish_transformation spec_api s2 3 ip ctx = Except.ok distributive_rewritten
      ∧ distributive_call_state.graph_root = some 0
      ∧ links distributive_call_state 0 = some (NodeType.AND, none, [1, 5])
      ∧ links distributive_call_state 3 = some (NodeType.AND, some 1, [4, 8])
      ∧ links distributive_call_state ip = none
      ∧ s2.graph_root = some ip
      ∧ (∃ cl, links s2 ip = some (NodeType.OR, none, cl) ∧ ∀ x, x ∈ cl ↔ x = 0 ∨ x = 3)
      ∧ links s2 0 = some (NodeType.AND, some ip, [1, 5])
      ∧ links s2 3 = some (NodeType.AND, some ip, [4, 8])
      ∧ distributive_rewritten.graph_root = some 9
      ∧ links distributive_rewritten 9 = some (NodeType.OR, none, [0, 3])
      ∧ links distributive_rewritten 0 = some (NodeType.AND, some 9, [2, 5])
      ∧ links distributive_rewritten 3 = some (NodeType.AND, some 9, [4, 8]) := by
  obtain ⟨ip, s0, s1, s2, ctx, h1, h2, h3, h4, _, row, _⟩ :=
    C15_insertion_point_table spec_api spec_api_contract distributive_call_state
      distributive_rewritten 3 0 1
      { fault_node := some 6, assignment := ATPGAssignment.TRUE, justified := true,
        collected := true }
      { fault_node := some 0, assignment := ATPGAssignment.TRUE, justified := true,
        collected := true }
      { level := 2, type := NodeType.AND, parent := some 1, child_list := [4, 8],
        num_children := 2, size_subformula := 3, atpg_info := some 6 }
      { level := 0, type := NodeType.AND, parent := none, child_list := [1, 5],
        num_children := 2, size_subformula := 10, atpg_info := some 0 }
      { level := 1, type := NodeType.OR, parent := some 0, child_list := [2, 3],
        num_children := 2, size_subformula := 5, atpg_info := some 4 }
      rfl rfl rfl rfl rfl rfl rfl (by decide) (by decide) (by decide) rfl
  obtain ⟨r1, r2, r3, r4, r5⟩ := row rfl (Or.inl ⟨rfl, rfl⟩)
  exact ⟨ip, s0, s1, s2, ctx, h1, h2, h3, h4, rfl, rfl, rfl, r1, r2, r3, r4, r5, rfl, rfl, rfl,
    rfl⟩

end Atpg

namespace Limboole

/-! ## Theorems: `limboole.c` -/

theorem find_var_some {nodes : List Node} {str : String} {i : Nat}
    (h : find_var nodes str = some i) :
    ∃ n, nodes[i]? = some n ∧ n.type = LType.VAR ∧ n.as_name = str := by
  unfold find_var at h
  simp only at h
  split at h
  · rename_i hlt
    injection h with h
    subst h
    have hp := List.findIdx_getElem (w := hlt)
    refine ⟨_, List.getElem?_eq_getElem hlt, ?_, ?_⟩
    · simp [eq_var] at hp; exact hp.1
    · simp [eq_var] at hp; exact hp.2
  · cases h

theorem find_var_none {nodes : List Node} {str : String}
    (h : find_var nodes str = none) :
    ∀ (i : Nat) (n : Node), nodes[i]? = some n → ¬ (n.type = LType.VAR ∧ n.as_name = str) := by
  unfold find_var at h
  simp only at h
  split at h
  · cases h
  · rename_i hlt
    intro i n hn hc
    apply hlt
    apply List.findIdx_lt_length_of_exists
    refine ⟨n, ?_, ?_⟩
    · exact List.getElem?_mem hn
    · simp [eq_var, hc.1, hc.2]

theorem get?_append_one {nodes : List Node} {x : Node} {i : Nat} {n : Node}
    (h : (nodes ++ [x])[i]? = some n) :
    (i < nodes.length ∧ nodes[i]? = some n) ∨ (i = nodes.length ∧ n = x) := by
  by_cases hi : i < nodes.length
  · left
    refine ⟨hi, ?_⟩
    rw [List.getElem?_append_left hi] at h
    exact h
  · right
    rw [List.getElem?_append_right (by omega)] at h
    have : i - nodes.length = 0 := by
      by_contra hne
      have : [x][i - nodes.length]? = none := by
        apply List.getElem?_eq_none
        simp; omega
      rw [this] at h; cases h
    constructor
    · omega
    · rw [this] at h; simp at h; exact h.symm

theorem WF_nil : WF [] := by
  constructor
  · intro i n h; simp at h
  · intro i j ni nj h; simp at h

theorem WF_append_var {nodes : List Node} {str : String} (h : WF nodes)
    (hf : find_var nodes str = none) :
    WF (nodes ++ [⟨LType.VAR, 0, str, none, none⟩]) := by
  constructor
  · intro i n hn
    rcases get?_append_one hn with ⟨_, h1⟩ | ⟨_, h1⟩
    · exact h.1 i n h1
    · subst h1; simp [NodeOk, NodeShape]
  · intro i j ni nj hi hj ti tj hname
    rcases get?_append_one hi with ⟨_, h1⟩ | ⟨h1, h1x⟩ <;>
    rcases get?_append_one hj with ⟨_, h2⟩ | ⟨h2, h2x⟩
    · exact h.2 i j ni nj h1 h2 ti tj hname
    · exfalso
      subst h2x
      exact find_var_none hf i ni h1 ⟨ti, hname⟩
    · exfalso
      subst h1x
      exact find_var_none hf j nj h2 ⟨tj, hname.symm⟩
    · omega

theorem WF_append_op {nodes : List Node} {t : LType} {c0 c1 : Option Nat} (h : WF nodes)
    (ht : t ≠ LType.VAR)
    (hok : NodeOk nodes.length ⟨t, 0, "", c0, c1⟩) :
    WF (nodes ++ [⟨t, 0, "", c0, c1⟩]) := by
  constructor
  · intro i n hn
    rcases get?_append_one hn with ⟨_, h1⟩ | ⟨h0, h1⟩
    · exact h.1 i n h1
    · subst h1; subst h0; exact hok
  · intro i j ni nj hi hj ti tj hname
    rcases get?_append_one hi with ⟨_, h1⟩ | ⟨h1, h1x⟩ <;>
    rcases get?_append_one hj with ⟨_, h2⟩ | ⟨h2, h2x⟩
    · exact h.2 i j ni nj h1 h2 ti tj hname
    · subst h2x; exact absurd tj ht
    · subst h1x; exact absurd ti ht
    · omega

theorem Reachable_inv {m : Mgr} (h : Reachable m) :
    WF m.nodes ∧ m.idx = 0 ∧ m.use_depqbf = 0 ∧ (∀ r, m.root = some r → r < m.nodes.length) := by
  induction h with
  | init => exact ⟨WF_nil, rfl, rfl, by intro r h; cases h⟩
  | var m str _ ih =>
    obtain ⟨hwf, hidx, hq, hr⟩ := ih
    unfold Limboole.var
    split
    · exact ⟨hwf, hidx, hq, hr⟩
    · rename_i hf
      refine ⟨WF_append_var hwf hf, hidx, hq, ?_⟩
      intro r h
      have := hr r h
      simp; omega
  | not m c0 _ hc ih =>
    obtain ⟨hwf, hidx, hq, hr⟩ := ih
    unfold Limboole.op
    split
    · exact ⟨hwf, hidx, hq, hr⟩
    · refine ⟨WF_append_op hwf (by decide) ?_, hidx, hq, ?_⟩
      · exact ⟨rfl, c0, rfl, hc, rfl⟩
      · intro r h
        have := hr r h
        simp; omega
  | bin m t c0 c1 _ ht hc0 hc1 ih =>
    obtain ⟨hwf, hidx, hq, hr⟩ := ih
    unfold Limboole.op
    split
    · exact ⟨hwf, hidx, hq, hr⟩
    · refine ⟨WF_append_op hwf ?_ ?_, hidx, hq, ?_⟩
      · rcases ht with h | h | h | h | h <;> subst h <;> decide
      · rcases ht with h | h | h | h | h <;> subst h <;> exact ⟨rfl, c0, c1, rfl, rfl, hc0, hc1⟩
      · intro r h
        have := hr r h
        simp; omega
  | set_root m r _ hr ih =>
    obtain ⟨hwf, hidx, hq, _⟩ := ih
    refine ⟨hwf, hidx, hq, ?_⟩
    intro r2 h
    simp at h
    subst h
    exact hr
  | set_check m c _ ih => exact ih

/-- Node tables after the first loop of `tseitin`: node `i` carries index
`i + 1` and has the shape `NodeShape`. -/
theorem tseitin_assign_spec (nodes : List Node) :
    ∀ (k : Int) (num : Nat), (∀ (i : Nat) (n : Node), nodes[i]? = some n → n.idx = 0) →
      (tseitin_assign nodes k num).1.length = nodes.length
      ∧ (∀ (i : Nat) (n : Node), nodes[i]? = some n →
          (tseitin_assign nodes k num).1[i]? = some { n with idx := k + i + 1 })
      ∧ (tseitin_assign nodes k num).2.1 = k + nodes.length := by
  induction nodes with
  | nil => intro k num _; simp [tseitin_assign]
  | cons p rest ih =>
    intro k num h0
    have hp : p.idx = 0 := h0 0 p (by simp)
    have hrest : ∀ (i : Nat) (n : Node), rest[i]? = some n → n.idx = 0 := by
      intro i n hn
      exact h0 (i + 1) n (by simpa using hn)
    simp only [tseitin_assign, hp, if_true]
    obtain ⟨h1, h2, h3⟩ := ih (k + 1) (match p.type with
      | LType.IFF => num + 4
      | LType.OR | LType.AND | LType.IMPLIES | LType.SEILPMI => num + 3
      | LType.NOT => num + 2
      | _ => num) hrest
    refine ⟨by simp [h1], ?_, ?_⟩
    · intro i n hn
      cases i with
      | zero =>
        simp at hn
        subst hn
        simp
      | succ j =>
        simp at hn
        have := h2 j n hn
        simp only [List.getElem?_cons_succ]
        rw [this]
        congr 2
        push_cast
        ring
    · simp only [h3, List.length_cons]
      push_cast
      ring

theorem eval_succ (ns : List Node) (v : String → Bool) (fuel i : Nat) (n : Node)
    (hn : ns[i]? = some n) :
    eval ns v (fuel + 1) i =
      if n.type = LType.VAR then v n.as_name
      else op_sem n.type
        (match n.as_child0 with | some j => eval ns v fuel j | none => false)
        (match n.as_child1 with | some j => eval ns v fuel j | none => false) := by
  rw [eval]
  simp only [hn]
  cases ht : n.type <;> simp [op_sem]

theorem eval_fuel {ns : List Node} (v : String → Bool)
    (hs : ∀ (i : Nat) (n : Node), ns[i]? = some n → NodeShape i n) :
    ∀ (i fuel : Nat), i + 1 ≤ fuel → eval ns v fuel i = eval ns v (i + 1) i := by
  intro i
  induction i using Nat.strong_induction_on with
  | _ i ih =>
    intro fuel hf
    obtain ⟨f, rfl⟩ : ∃ f, fuel = f + 1 := ⟨fuel - 1, by omega⟩
    cases hn : ns[i]? with
    | none => simp [eval, hn]
    | some n =>
      rw [eval_succ ns v f i n hn, eval_succ ns v i i n hn]
      have hsh := hs i n hn
      unfold NodeShape at hsh
      cases ht : n.type <;> rw [ht] at hsh <;> simp only at hsh
      · simp
      · obtain ⟨j, h0, hj, h1⟩ := hsh
        simp only [h0, h1]
        rw [ih j hj f (by omega), ih j hj i (by omega)]
      all_goals
        obtain ⟨j, k, h0, h1, hj, hk⟩ := hsh
        simp only [h0, h1]
        rw [ih j hj f (by omega), ih j hj i (by omega), ih k hk f (by omega),
          ih k hk i (by omega)]

theorem eval_node_unfold {ns : List Node} (v : String → Bool)
    (hs : ∀ (i : Nat) (n : Node), ns[i]? = some n → NodeShape i n)
    (i : Nat) (n : Node) (hn : ns[i]? = some n) :
    eval_node ns v i = node_sem ns v n := by
  unfold eval_node node_sem
  rw [eval_succ ns v i i n hn]
  have hsh := hs i n hn
  unfold NodeShape at hsh
  cases ht : n.type <;> rw [ht] at hsh <;> simp only at hsh
  · simp
  · obtain ⟨j, h0, hj, h1⟩ := hsh
    simp only [h0, h1, eval_child, eval_node]
    rw [eval_fuel v hs j i (by omega)]
  all_goals
    obtain ⟨j, k, h0, h1, hj, hk⟩ := hsh
    simp only [h0, h1, eval_child, eval_node]
    rw [eval_fuel v hs j i (by omega), eval_fuel v hs k i (by omega)]

theorem lit_true_pos (a : Nat → Bool) (k : Nat) : lit_true a ((k : Int) + 1) = a (k + 1) := by
  unfold lit_true
  have h : (0 : Int) < (k : Int) + 1 := by omega
  simp only [h, if_true]
  congr 1

theorem lit_true_neg (a : Nat → Bool) (k : Nat) :
    lit_true a (-((k : Int) + 1)) = !a (k + 1) := by
  unfold lit_true
  have h : ¬ (0 : Int) < -((k : Int) + 1) := by omega
  simp only [h, if_false, neg_neg]
  congr 2

theorem node_clauses_not (a : Nat → Bool) (ns : List Node) (p : Node) (i j : Nat)
    (ht : p.type = LType.NOT) (hp : p.idx = (i : Int) + 1)
    (h0 : child_idx ns p.as_child0 = (j : Int) + 1) :
    cnf_true a (node_clauses ns p) = true ↔ a (i + 1) = !a (j + 1) := by
  simp only [node_clauses, ht, hp, h0, cnf_true, clause_true, List.all_cons, List.any_cons,
    List.all_nil, List.any_nil, lit_true_pos, lit_true_neg]
  cases a (i + 1) <;> cases a (j + 1) <;> simp

theorem node_clauses_bin (a : Nat → Bool) (ns : List Node) (p : Node) (i j k : Nat)
    (ht : p.type = LType.AND ∨ p.type = LType.OR ∨ p.type = LType.IMPLIES
      ∨ p.type = LType.SEILPMI ∨ p.type = LType.IFF)
    (hp : p.idx = (i : Int) + 1)
    (h0 : child_idx ns p.as_child0 = (j : Int) + 1)
    (h1 : child_idx ns p.as_child1 = (k : Int) + 1) :
    cnf_true a (node_clauses ns p) = true ↔ a (i + 1) = op_sem p.type (a (j + 1)) (a (k + 1)) := by
  rcases ht with ht | ht | ht | ht | ht <;>
  · simp only [node_clauses, ht, hp, h0, h1, cnf_true, clause_true, List.all_cons,
      List.any_cons, List.all_nil, List.any_nil, lit_true_pos, lit_true_neg, op_sem]
    cases a (i + 1) <;> cases a (j + 1) <;> cases a (k + 1) <;> simp

theorem child_idx_numbered {ns : List Node} (h : Numbered ns) {j : Nat} (hj : j < ns.length) :
    child_idx ns (some j) = (j : Int) + 1 := by
  unfold child_idx
  have hn : ns[j]? = some ns[j] := List.getElem?_eq_getElem hj
  simp only [hn]
  exact (h.1 j _ hn).1

theorem cnf_true_flatMap (a : Nat → Bool) (ns : List Node) (f : Node → List (List Int)) :
    cnf_true a (ns.flatMap f) = true ↔ ∀ n ∈ ns, cnf_true a (f n) = true := by
  simp only [cnf_true, List.all_eq_true, List.mem_flatMap]
  constructor
  · intro h n hn c hc
    exact h c ⟨n, hn, hc⟩
  · rintro h c ⟨n, hn, hc⟩
    exact h n hn c hc

theorem valuation_of_var {ns : List Node} (h : Numbered ns) (a : Nat → Bool) {i : Nat}
    {n : Node} (hn : ns[i]? = some n) (ht : n.type = LType.VAR) :
    valuation_of ns a n.as_name = a (i + 1) := by
  unfold valuation_of
  cases hf : find_var ns n.as_name with
  | none => exact absurd ⟨ht, rfl⟩ (find_var_none hf i n hn)
  | some i2 =>
    obtain ⟨n2, hn2, ht2, hname⟩ := find_var_some hf
    have hi : i2 = i := h.2 i2 i n2 n hn2 hn ht2 ht hname
    subst hi
    have hlt : i2 < ns.length := by
      rcases List.getElem?_eq_some.mp hn with ⟨hl, _⟩
      exact hl
    simp only [child_idx_numbered h hlt]
    congr 1

theorem tseitin_sound {ns : List Node} (h : Numbered ns) (a : Nat → Bool)
    (hc : cnf_true a (ns.flatMap (node_clauses ns)) = true) :
    ∀ (i : Nat) (n : Node), ns[i]? = some n → a (i + 1) = eval_node ns (valuation_of ns a) i := by
  have hs : ∀ (i : Nat) (n : Node), ns[i]? = some n → NodeShape i n := fun i n hn => (h.1 i n hn).2
  rw [cnf_true_flatMap] at hc
  intro i
  induction i using Nat.strong_induction_on with
  | _ i ih =>
    intro n hn
    have hlen : i < ns.length := (List.getElem?_eq_some.mp hn).1
    have hcl := hc n (List.getElem?_mem hn)
    have hidx := (h.1 i n hn).1
    have hsh := hs i n hn
    rw [eval_node_unfold _ hs i n hn]
    unfold node_sem
    unfold NodeShape at hsh
    cases ht : n.type <;> rw [ht] at hsh <;> simp only at hsh
    · simp only [if_true]
      exact (valuation_of_var h a hn ht).symm
    · obtain ⟨j, h0, hj, h1⟩ := hsh
      have hjl : j < ns.length := by omega
      have hcj : child_idx ns n.as_child0 = (j : Int) + 1 := by
        rw [h0]; exact child_idx_numbered h hjl
      have := (node_clauses_not a ns n i j ht hidx hcj).mp hcl
      rw [this, ih j hj _ (List.getElem?_eq_getElem hjl)]
      simp [h0, eval_child, op_sem]
    all_goals
      obtain ⟨j, k, h0, h1, hj, hk⟩ := hsh
      have hjl : j < ns.length := by omega
      have hkl : k < ns.length := by omega
      have hcj : child_idx ns n.as_child0 = (j : Int) + 1 := by
        rw [h0]; exact child_idx_numbered h hjl
      have hck : child_idx ns n.as_child1 = (k : Int) + 1 := by
        rw [h1]; exact child_idx_numbered h hkl
      have := (node_clauses_bin a ns n i j k (by simp [ht]) hidx hcj hck).mp hcl
      rw [this, ih j hj _ (List.getElem?_eq_getElem hjl),
        ih k hk _ (List.getElem?_eq_getElem hkl)]
      simp [h0, h1, eval_child, ht]

theorem tseitin_complete {ns : List Node} (h : Numbered ns) (v : String → Bool) :
    cnf_true (fun k => eval_node ns v (k - 1)) (ns.flatMap (node_clauses ns)) = true := by
  have hs : ∀ (i : Nat) (n : Node), ns[i]? = some n → NodeShape i n := fun i n hn => (h.1 i n hn).2
  rw [cnf_true_flatMap]
  intro n hmem
  obtain ⟨i, hn⟩ := List.mem_iff_getElem?.mp hmem
  have hlen : i < ns.length := (List.getElem?_eq_some.mp hn).1
  have hidx := (h.1 i n hn).1
  have hsh := hs i n hn
  have hun := eval_node_unfold v hs i n hn
  unfold node_sem at hun
  unfold NodeShape at hsh
  cases ht : n.type <;> rw [ht] at hsh <;> simp only at hsh
  · simp [node_clauses, ht, cnf_true]
  · obtain ⟨j, h0, hj, h1⟩ := hsh
    have hjl : j < ns.length := by omega
    have hcj : child_idx ns n.as_child0 = (j : Int) + 1 := by
      rw [h0]; exact child_idx_numbered h hjl
    rw [node_clauses_not _ ns n i j ht hidx hcj]
    simp only [Nat.add_sub_cancel]
    rw [hun]
    simp [ht, h0, eval_child, op_sem]
  all_goals
    obtain ⟨j, k, h0, h1, hj, hk⟩ := hsh
    have hjl : j < ns.length := by omega
    have hkl : k < ns.length := by omega
    have hcj : child_idx ns n.as_child0 = (j : Int) + 1 := by
      rw [h0]; exact child_idx_numbered h hjl
    have hck : child_idx ns n.as_child1 = (k : Int) + 1 := by
      rw [h1]; exact child_idx_numbered h hkl
    rw [node_clauses_bin _ ns n i j k (by simp [ht]) hidx hcj hck]
    simp only [Nat.add_sub_cancel]
    rw [hun]
    simp [ht, h0, h1, eval_child]

theorem eval_renumber {ns ns1 : List Node} (v : String → Bool)
    (h : ∀ (i : Nat), ns1[i]? = (ns[i]?).map (fun n => { n with idx := (i : Int) + 1 })) :
    ∀ (fuel i : Nat), eval ns1 v fuel i = eval ns v fuel i := by
  intro fuel
  induction fuel with
  | zero => intro i; simp [eval]
  | succ f ih =>
    intro i
    cases hn : ns[i]? with
    | none =>
      have h1 : ns1[i]? = none := by rw [h i, hn]; rfl
      simp [eval, hn, h1]
    | some n =>
      have h1 : ns1[i]? = some { n with idx := (i : Int) + 1 } := by rw [h i, hn]; rfl
      rw [eval_succ ns1 v f i _ h1, eval_succ ns v f i n hn]
      simp only [ih]

theorem tseitin_assign_get (nodes : List Node)
    (h0 : ∀ (i : Nat) (n : Node), nodes[i]? = some n → n.idx = 0) (i : Nat) :
    (tseitin_assign nodes 0 0).1[i]? = (nodes[i]?).map (fun n => { n with idx := (i : Int) + 1 }) := by
  obtain ⟨hl, hg, _⟩ := tseitin_assign_spec nodes 0 0 h0
  cases hn : nodes[i]? with
  | none =>
    have : nodes.length ≤ i := List.getElem?_eq_none_iff.mp hn
    simp only [Option.map_none']
    apply List.getElem?_eq_none
    omega
  | some n =>
    rw [hg i n hn]
    simp

theorem tseitin_assign_numbered {nodes : List Node} (h : WF nodes) :
    Numbered (tseitin_assign nodes 0 0).1 := by
  have h0 : ∀ (i : Nat) (n : Node), nodes[i]? = some n → n.idx = 0 := fun i n hn => (h.1 i n hn).1
  have hg := tseitin_assign_get nodes h0
  constructor
  · intro i n1 hn1
    rw [hg i] at hn1
    cases hn : nodes[i]? with
    | none => rw [hn] at hn1; cases hn1
    | some n =>
      rw [hn] at hn1
      simp only [Option.map_some', Option.some.injEq] at hn1
      subst hn1
      exact ⟨rfl, (h.1 i n hn).2⟩
  · intro i j ni nj hi hj ti tj hname
    rw [hg i] at hi
    rw [hg j] at hj
    cases hni : nodes[i]? with
    | none => rw [hni] at hi; cases hi
    | some n =>
      cases hnj : nodes[j]? with
      | none => rw [hnj] at hj; cases hj
      | some n2 =>
        rw [hni] at hi
        rw [hnj] at hj
        simp only [Option.map_some', Option.some.injEq] at hi hj
        subst hi
        subst hj
        exact h.2 i j n n2 hni hnj ti tj hname

theorem tseitin_clauses_eq (m : Mgr) :
    (tseitin m).clauses =
      (tseitin_assign m.nodes m.idx 0).1.flatMap (node_clauses (tseitin_assign m.nodes m.idx 0).1)
      ++ [[(if m.use_depqbf ≠ 0 then 1 else if m.check_satisfiability ≠ 0 then 1 else -1)
            * child_idx (tseitin_assign m.nodes m.idx 0).1 m.root]] := by
  rfl

theorem tseitin_nodes_eq (m : Mgr) :
    (tseitin m).mgr.nodes = (tseitin_assign m.nodes m.idx 0).1 := by
  rfl

theorem cnf_true_append (a : Nat → Bool) (xs ys : List (List Int)) :
    cnf_true a (xs ++ ys) = true ↔ cnf_true a xs = true ∧ cnf_true a ys = true := by
  simp [cnf_true, List.all_append]

theorem eval_node_tseitin {m : Mgr} (hm : Reachable m) (v : String → Bool) (i : Nat) :
    eval_node (tseitin m).mgr.nodes v i = eval_node m.nodes v i := by
  obtain ⟨hwf, hidx, _, _⟩ := Reachable_inv hm
  rw [tseitin_nodes_eq, hidx]
  unfold eval_node
  exact eval_renumber v (tseitin_assign_get m.nodes (fun i n hn => (hwf.1 i n hn).1)) (i + 1) i

theorem tseitin_models {m : Mgr} (hm : Reachable m) (r : Nat) (hr : m.root = some r)
    (a : Nat → Bool) :
    cnf_true a (tseitin m).clauses = true ↔
      cnf_true a ((tseitin m).mgr.nodes.flatMap (node_clauses (tseitin m).mgr.nodes)) = true
      ∧ a (r + 1) = decide (m.check_satisfiability ≠ 0) := by
  obtain ⟨hwf, hidx, hq, hroot⟩ := Reachable_inv hm
  have hnum := tseitin_assign_numbered hwf
  have hlen : r < (tseitin_assign m.nodes 0 0).1.length := by
    rw [(tseitin_assign_spec m.nodes 0 0 (fun i n hn => (hwf.1 i n hn).1)).1]
    exact hroot r hr
  rw [tseitin_clauses_eq, tseitin_nodes_eq, cnf_true_append, hidx, hr,
    child_idx_numbered hnum hlen]
  apply and_congr_right
  intro _
  simp only [hq, ne_eq, not_true_eq_false, if_false]
  by_cases hc : m.check_satisfiability = 0
  · simp only [hc, not_true_eq_false, if_false, cnf_true, clause_true, List.all_cons,
      List.any_cons, List.all_nil, List.any_nil, neg_one_mul, lit_true_neg]
    simp
  · simp only [hc, not_false_eq_true, if_true, cnf_true, clause_true, List.all_cons,
      List.any_cons, List.all_nil, List.any_nil, one_mul, lit_true_pos]
    simp

/-- C3: for every manager built by the parser with root `r` and
`check_satisfiability` set, the clauses emitted by `tseitin` are the defining
clauses of all nodes followed by the unit clause `+root`; they are
satisfiable iff the formula at the root is satisfiable; every model of the
clauses, read on the indices of the `VAR` nodes, satisfies the formula; and
the defining clauses of each operator node hold iff the node's index has the
value of its operator applied to the values of its children's indices. -/
theorem C3_tseitin_satisfiability (m : Mgr) (hm : Reachable m) (r : Nat)
    (hr : m.root = some r) (hc : m.check_satisfiability ≠ 0) :
    (tseitin m).clauses
        = (tseitin m).mgr.nodes.flatMap (node_clauses (tseitin m).mgr.nodes)
          ++ [[child_idx (tseitin m).mgr.nodes (some r)]]
    ∧ ((∃ a, cnf_true a (tseitin m).clauses = true) ↔ (∃ v, eval_node m.nodes v r = true))
    ∧ (∀ a, cnf_true a (tseitin m).clauses = true →
          eval_node m.nodes (valuation_of (tseitin m).mgr.nodes a) r = true)
    ∧ (∀ (a : Nat → Bool) (i : Nat) (p : Node), (tseitin m).mgr.nodes[i]? = some p →
          p.type ≠ LType.VAR →
          (cnf_true a (node_clauses (tseitin m).mgr.nodes p) = true ↔
            lit_true a p.idx = op_sem p.type
              (lit_true a (child_idx (tseitin m).mgr.nodes p.as_child0))
              (lit_true a (child_idx (tseitin m).mgr.nodes p.as_child1)))) := by
  obtain ⟨hwf, hidx, hq, hroot⟩ := Reachable_inv hm
  have hnum : Numbered (tseitin m).mgr.nodes := by
    rw [tseitin_nodes_eq, hidx]; exact tseitin_assign_numbered hwf
  have hlen : (tseitin m).mgr.nodes.length = m.nodes.length := by
    rw [tseitin_nodes_eq, hidx]
    exact (tseitin_assign_spec m.nodes 0 0 (fun i n hn => (hwf.1 i n hn).1)).1
  have hrl : r < (tseitin m).mgr.nodes.length := by rw [hlen]; exact hroot r hr
  have hmod := tseitin_models hm r hr
  have hsound : ∀ a, cnf_true a (tseitin m).clauses = true →
      eval_node m.nodes (valuation_of (tseitin m).mgr.nodes a) r = true := by
    intro a ha
    obtain ⟨hd, hu⟩ := (hmod a).mp ha
    rw [← eval_node_tseitin hm,
      ← tseitin_sound hnum a hd r _ (List.getElem?_eq_getElem hrl), hu]
    simp [hc]
  refine ⟨?_, ⟨?_, ?_⟩, hsound, ?_⟩
  · rw [tseitin_clauses_eq, tseitin_nodes_eq, hr]
    simp [hq, hc]
  · rintro ⟨a, ha⟩
    exact ⟨_, hsound a ha⟩
  · rintro ⟨v, hv⟩
    refine ⟨fun k => eval_node (tseitin m).mgr.nodes v (k - 1), ?_⟩
    rw [hmod]
    refine ⟨tseitin_complete hnum v, ?_⟩
    simp only [Nat.add_sub_cancel]
    rw [eval_node_tseitin hm, hv]
    simp [hc]
  · intro a i p hp ht
    have hidxp := (hnum.1 i p hp).1
    have hsh := (hnum.1 i p hp).2
    have hil : i < (tseitin m).mgr.nodes.length := (List.getElem?_eq_some.mp hp).1
    unfold NodeShape at hsh
    cases htp : p.type <;> rw [htp] at hsh <;> simp only at hsh
    · exact absurd htp ht
    · obtain ⟨j, h0, hj, h1⟩ := hsh
      have hcj : child_idx (tseitin m).mgr.nodes p.as_child0 = (j : Int) + 1 := by
        rw [h0]; exact child_idx_numbered hnum (by omega)
      rw [node_clauses_not a _ p i j htp hidxp hcj, hidxp, hcj, lit_true_pos, lit_true_pos]
      simp [op_sem]
    all_goals
      obtain ⟨j, k, h0, h1, hj, hk⟩ := hsh
      have hcj : child_idx (tseitin m).mgr.nodes p.as_child0 = (j : Int) + 1 := by
        rw [h0]; exact child_idx_numbered hnum (by omega)
      have hck : child_idx (tseitin m).mgr.nodes p.as_child1 = (k : Int) + 1 := by
        rw [h1]; exact child_idx_numbered hnum (by omega)
      rw [node_clauses_bin a _ p i j k (by simp [htp]) hidxp hcj hck, hidxp, hcj, hck,
        lit_true_pos, lit_true_pos, lit_true_pos, htp]

theorem sample_sat_mgr_reachable : Reachable sample_sat_mgr :=
  Reachable.set_check _ 1
    (Reachable.set_root _ 3
      (Reachable.bin _ LType.OR 0 2
        (Reachable.not _ 1 (Reachable.var _ "b" (Reachable.var _ "a" Reachable.init)) (by decide))
        (Or.inr (Or.inl rfl)) (by decide) (by decide))
      (by decide))

/-- Witness for C3 on the manager of `a | !b` in satisfiability mode. -/
theorem C3_tseitin_satisfiability_witness :
    ((∃ a, cnf_true a (tseitin sample_sat_mgr).clauses = true)
      ↔ (∃ v, eval_node sample_sat_mgr.nodes v 3 = true)) :=
  (C3_tseitin_satisfiability sample_sat_mgr sample_sat_mgr_reachable 3 rfl (by decide)).2.1

/-- C4: in the default mode (`check_satisfiability` zero, SAT back-end) the
clauses emitted by `tseitin` end with the unit clause `-root`; they are
unsatisfiable iff the formula at the root is valid; with a solver result
`res` that is `20` exactly on unsatisfiable and `10` exactly on satisfiable
clause sets, the program prints `% VALID formula` iff the formula is a
tautology and `% INVALID formula (falsifying assignment follows)` iff it is
not, and then every model of the clauses falsifies the formula. -/
theorem C4_default_mode_validity (m : Mgr) (hm : Reachable m) (r : Nat)
    (hr : m.root = some r) (hc : m.check_satisfiability = 0) (res : Int)
    (hsat : res = 10 ↔ ∃ a, cnf_true a (tseitin m).clauses = true)
    (hunsat : res = 20 ↔ ¬ ∃ a, cnf_true a (tseitin m).clauses = true) :
    (tseitin m).clauses
        = (tseitin m).mgr.nodes.flatMap (node_clauses (tseitin m).mgr.nodes)
          ++ [[-child_idx (tseitin m).mgr.nodes (some r)]]
    ∧ ((¬ ∃ a, cnf_true a (tseitin m).clauses = true) ↔ (∀ v, eval_node m.nodes v r = true))
    ∧ (report m.check_satisfiability res = "% VALID formula"
          ↔ (∀ v, eval_node m.nodes v r = true))
    ∧ (report m.check_satisfiability res = "% INVALID formula (falsifying assignment follows)"
          ↔ (∃ v, eval_node m.nodes v r = false))
    ∧ (∀ a, cnf_true a (tseitin m).clauses = true →
          eval_node m.nodes (valuation_of (tseitin m).mgr.nodes a) r = false) := by
  obtain ⟨hwf, hidx, hq, hroot⟩ := Reachable_inv hm
  have hnum : Numbered (tseitin m).mgr.nodes := by
    rw [tseitin_nodes_eq, hidx]; exact tseitin_assign_numbered hwf
  have hlen : (tseitin m).mgr.nodes.length = m.nodes.length := by
    rw [tseitin_nodes_eq, hidx]
    exact (tseitin_assign_spec m.nodes 0 0 (fun i n hn => (hwf.1 i n hn).1)).1
  have hrl : r < (tseitin m).mgr.nodes.length := by rw [hlen]; exact hroot r hr
  have hmod := tseitin_models hm r hr
  have hsound : ∀ a, cnf_true a (tseitin m).clauses = true →
      eval_node m.nodes (valuation_of (tseitin m).mgr.nodes a) r = false := by
    intro a ha
    obtain ⟨hd, hu⟩ := (hmod a).mp ha
    rw [← eval_node_tseitin hm,
      ← tseitin_sound hnum a hd r _ (List.getElem?_eq_getElem hrl), hu]
    simp [hc]
  have hiff : (¬ ∃ a, cnf_true a (tseitin m).clauses = true)
      ↔ (∀ v, eval_node m.nodes v r = true) := by
    constructor
    · intro hno v
      by_contra hv
      apply hno
      refine ⟨fun k => eval_node (tseitin m).mgr.nodes v (k - 1), ?_⟩
      rw [hmod]
      refine ⟨tseitin_complete hnum v, ?_⟩
      simp only [Nat.add_sub_cancel]
      rw [eval_node_tseitin hm]
      simp [hc]
      simpa using hv
    · rintro hall ⟨a, ha⟩
      have h1 := hsound a ha
      rw [hall] at h1
      cases h1
  refine ⟨?_, hiff, ?_, ?_, hsound⟩
  · rw [tseitin_clauses_eq, tseitin_nodes_eq, hr]
    simp [hq, hc]
  · rw [← hiff, ← hunsat, hc]
    unfold report
    by_cases h10 : res = 10
    · subst h10
      simp only [if_true, ne_eq, not_true_eq_false, if_false]
      constructor
      · intro h; exact absurd h (by decide)
      · intro h; exact absurd h (by decide)
    · by_cases h20 : res = 20
      · simp [h10, h20]
      · simp only [h10, h20, if_false, iff_false]
        decide
  · have hex : (∃ v, eval_node m.nodes v r = false) ↔ ∃ a, cnf_true a (tseitin m).clauses = true := by
      constructor
      · rintro ⟨v, hv⟩
        by_contra hno
        have := hiff.mp hno v
        rw [hv] at this
        cases this
      · rintro ⟨a, ha⟩
        exact ⟨_, hsound a ha⟩
    rw [hex, ← hsat, hc]
    unfold report
    by_cases h10 : res = 10
    · simp [h10]
    · by_cases h20 : res = 20
      · subst h20
        simp only [ne_eq, not_true_eq_false, if_false, if_true]
        constructor
        · intro h; exact absurd h (by decide)
        · intro h; exact absurd h (by decide)
      · simp only [h10, h20, if_false, iff_false]
        decide

theorem sample_valid_mgr_reachable : Reachable sample_valid_mgr :=
  Reachable.set_root _ 1
    (Reachable.bin _ LType.IMPLIES 0 0 (Reachable.var _ "a" Reachable.init)
      (Or.inr (Or.inr (Or.inl rfl))) (by decide) (by decide))
    (by decide)

theorem sample_valid_mgr_unsat : ¬ ∃ a, cnf_true a (tseitin sample_valid_mgr).clauses = true := by
  have hcl : (tseitin sample_valid_mgr).clauses = [[2, 1], [2, -1], [-2, -1, 1], [-2]] := by
    decide
  rintro ⟨a, ha⟩
  rw [hcl] at ha
  have e1 : lit_true a 1 = a 1 := lit_true_pos a 0
  have e2 : lit_true a 2 = a 2 := lit_true_pos a 1
  have e3 : lit_true a (-1) = !a 1 := lit_true_neg a 0
  have e4 : lit_true a (-2) = !a 2 := lit_true_neg a 1
  simp only [cnf_true, clause_true, List.all_cons, List.any_cons, List.all_nil, List.any_nil,
    e1, e2, e3, e4] at ha
  revert ha
  cases a 1 <;> cases a 2 <;> simp

/-- Witness for C4: `a -> a` is reported valid when the solver answers `20`. -/
theorem C4_default_mode_validity_witness :
    report sample_valid_mgr.check_satisfiability 20 = "% VALID formula"
      ↔ (∀ v, eval_node sample_valid_mgr.nodes v 1 = true) :=
  (C4_default_mode_validity sample_valid_mgr sample_valid_mgr_reachable 1 rfl rfl 20
    ⟨fun h => absurd h (by decide), fun h => absurd h sample_valid_mgr_unsat⟩
    ⟨fun _ => sample_valid_mgr_unsat, fun _ => rfl⟩).2.2.1

/-! ## Theorems: the pretty printer and the parser (claim C33) -/

theorem pp_aux_succ (nodes : List Node) (fuel i : Nat) (n : Node) (outer : LType)
    (hn : nodes[i]? = some n) :
    pp_aux nodes (fuel + 1) (some i) outer = pp_aux_node (pp_aux nodes fuel) n outer := by
  rw [pp_aux]
  simp only [hn]

theorem pp_aux_node_implies (sub : Option Nat → LType → Option String) (n : Node)
    (outer : LType) (a b : String) (ht : n.type = LType.IMPLIES ∨ n.type = LType.SEILPMI)
    (ha : sub n.as_child0 n.type = some a) (hb : sub n.as_child1 n.type = some b) :
    pp_aux_node sub n outer
      = some ((if decide (outer.code ≤ n.type.code) then "(" else "") ++ a
        ++ (if n.type = LType.IMPLIES then " -> " else " <- ") ++ b
        ++ (if decide (outer.code ≤ n.type.code) then ")" else "")) := by
  unfold pp_aux_node
  rcases ht with ht | ht
  · simp only [ht] at ha hb ⊢
    simp only [ha, hb]
  · simp only [ht] at ha hb ⊢
    simp only [ha, hb]

/-- Claim C33, what the code does: for a `SEILPMI` node whose first child is
an `IMPLIES` node, `pp_aux` writes the text of the child without
parentheses, so `(A -> B) <- C` is written as `A -> B <- C`, whatever the
subformulas `A`, `B`, `C` are. -/
theorem C33_no_parentheses_under_seilpmi (nodes : List Node) (fuel i j : Nat) (n m : Node)
    (a b c : String)
    (hn : nodes[i]? = some n) (hnt : n.type = LType.SEILPMI) (hc : n.as_child0 = some j)
    (hm : nodes[j]? = some m) (hmt : m.type = LType.IMPLIES)
    (ha : pp_aux nodes fuel m.as_child0 LType.IMPLIES = some a)
    (hb : pp_aux nodes fuel m.as_child1 LType.IMPLIES = some b)
    (hcc : pp_aux nodes (fuel + 1) n.as_child1 LType.SEILPMI = some c) :
    pp_aux nodes (fuel + 2) (some i) LType.DONE
      = some ("" ++ ("" ++ a ++ " -> " ++ b ++ "") ++ " <- " ++ c ++ "") := by
  have h1 : pp_aux nodes (fuel + 1) (some j) LType.SEILPMI
      = some ("" ++ a ++ " -> " ++ b ++ "") := by
    rw [pp_aux_succ nodes fuel j m LType.SEILPMI hm,
      pp_aux_node_implies _ m LType.SEILPMI a b (Or.inl hmt) (by rw [hmt]; exact ha)
        (by rw [hmt]; exact hb), hmt]
    rfl
  rw [pp_aux_succ nodes (fuel + 1) i n LType.DONE hn,
    pp_aux_node_implies _ n LType.DONE _ c (Or.inr hnt) (by rw [hnt, hc]; exact h1)
      (by rw [hnt]; exact hcc), hnt]
  rfl

set_option maxRecDepth 100000 in
/-- C33, witness: the node table of `(a -> b) <- c`. -/
theorem C33_no_parentheses_under_seilpmi_witness :
    ∃ fr, parse_text 10 "(a -> b) <- c".data = some (fr, true)
      ∧ fr.mgr.root = some 4
      ∧ pp_aux fr.mgr.nodes 3 (some 4) LType.DONE
        = some ("" ++ ("" ++ "a" ++ " -> " ++ "b" ++ "") ++ " <- " ++ "c" ++ "") := by
  refine ⟨_, rfl, rfl, ?_⟩
  exact C33_no_parentheses_under_seilpmi _ 1 4 2 _ _ "a" "b" "c" rfl rfl rfl rfl rfl rfl rfl rfl

set_option maxRecDepth 100000 in
/-- Claim C33, counterexample: with `-p` the input `(a -> b) <- c` is
printed as `a -> b <- c`; on this text `parse` fails with the message
`expected operator or EOF` at the token `<-`, and no clauses are generated.
The same holds for `c <- (a -> b)`, printed as `c <- a -> b`. -/
theorem C33_printed_text_is_rejected :
    (limboole_extended 10 ["-p"] 0 "(a -> b) <- c".data).map (fun o => (o.result, o.printed))
      = some (0, some "a -> b <- c\n")
    ∧ (limboole_extended 10 [] 0 "a -> b <- c\n".data).map
        (fun o => (o.result, o.log, o.cnf.isSome))
      = some (1, [⟨LType.SEILPMI, "expected operator or EOF"⟩], false)
    ∧ (limboole_extended 10 ["-p"] 0 "c <- (a -> b)".data).map (fun o => (o.result, o.printed))
      = some (0, some "c <- a -> b\n")
    ∧ (limboole_extended 10 [] 0 "c <- a -> b\n".data).map
        (fun o => (o.result, o.log, o.cnf.isSome))
      = some (1, [⟨LType.IMPLIES, "expected operator or EOF"⟩], false) := by
  refine ⟨by decide, by decide, by decide, by decide⟩

/-! ## Theorems: the quantifier prefix (claim C37) -/

theorem next_token_keeps_entries (fr : Front) :
    Front.first_prefix (next_token fr) = fr.first_prefix := rfl

theorem prefix_loop_entries :
    ∀ (k : Nat) (fr : Front) (scope : LType) (r : Front × LType × Bool),
      prefix_loop k fr scope = some r →
      ∃ new, Front.first_prefix r.1 = fr.first_prefix ++ new ∧ ∀ p ∈ new, p.type = LType.VAR := by
  intro k
  induction k with
  | zero =>
    intro fr scope r h
    cases h
  | succ k ih =>
    intro fr scope r h
    rw [prefix_loop] at h
    by_cases hq : fr.sc.token = LType.ALL ∨ fr.sc.token = LType.EX
    · rw [if_pos hq] at h
      by_cases hv : (next_token fr).sc.token ≠ LType.VAR
      · simp only [hv, ne_eq, not_false_eq_true, if_true] at h
        cases h
        exact ⟨[], by simp [next_token_keeps_entries], fun p hp => by cases hp⟩
      · have hv1 : (next_token fr).sc.token = LType.VAR := by simpa using hv
        simp only [hv, if_false] at h
        obtain ⟨new, h1, h2⟩ := ih _ _ r h
        refine ⟨{ type := (next_token fr).sc.token
                  node := (var (next_token fr).mgr (String.mk (next_token fr).sc.buffer)).2 }
          :: new, h1.trans (List.append_assoc _ _ _), ?_⟩
        · intro p hp
          rcases List.mem_cons.mp hp with e | e
          · rw [e]
            exact hv1
          · exact h2 p e
    · rw [if_neg hq] at h
      cases h
      exact ⟨[], by simp, fun p hp => by cases hp⟩

theorem parse_prefix_entries (fuel : Nat) (fr fr1 : Front) (ok : Bool)
    (h : parse_prefix fuel fr = some (fr1, ok)) :
    ∃ new, fr1.first_prefix = fr.first_prefix ++ new ∧ ∀ p ∈ new, p.type = LType.VAR := by
  unfold parse_prefix at h
  by_cases he : fr.sc.token = LType.ERROR
  · rw [if_pos he] at h
    cases h
    exact ⟨[], by simp, fun p hp => by cases hp⟩
  · rw [if_neg he] at h
    cases hl : prefix_loop fuel
        { fr with qdpll := fr.qdpll
            ++ [QCall.new_scope (decide (fr.mgr.check_satisfiability ≠ 1))] } LType.EX with
    | none =>
      rw [hl] at h
      cases h
    | some r =>
      obtain ⟨new, h1, h2⟩ := prefix_loop_entries _ _ _ r hl
      rw [hl] at h
      obtain ⟨f2, sc2, b⟩ := r
      cases b with
      | false =>
        cases h
        exact ⟨new, h1, h2⟩
      | true =>
        cases h
        exact ⟨new, h1, h2⟩

theorem run_front_result (fuel : Nat) (o : Options) (input : List Char) (out : Outcome)
    (he : o.error = false) (hd : o.done = false)
    (h : run_front fuel o input = some out) :
    ∃ fr2 b fr3 ok, prefix_phase fuel o (initial_front o input) = some (fr2, b)
      ∧ parse fuel fr2 = some (fr3, ok) ∧ (out.result = 0 ↔ ok = true)
      ∧ (ok = true → o.pretty_print = false → fr3.qdump = 0 →
          out.cnf = some (tseitin fr3.mgr) ∧ out.solved = decide (fr3.dump = 0)) := by
  unfold run_front at h
  rw [if_neg (by rw [he, hd]; simp)] at h
  cases h2 : prefix_phase fuel o (initial_front o input) with
  | none =>
    rw [h2] at h
    cases h
  | some r2 =>
    obtain ⟨fr2, b⟩ := r2
    rw [h2] at h
    cases h3 : parse fuel fr2 with
    | none =>
      simp only [h3] at h
      cases h
    | some r3 =>
      obtain ⟨fr3, ok⟩ := r3
      simp only [h3] at h
      refine ⟨fr2, b, fr3, ok, rfl, h3, ?_⟩
      cases ok with
      | false =>
        simp only [Bool.false_eq_true, not_false_eq_true, if_true] at h
        cases h
        exact ⟨by simp, fun hc => by cases hc⟩
      | true =>
        simp only [not_true_eq_false, if_false] at h
        by_cases hp : o.pretty_print = true ∨ fr3.qdump ≠ 0
        · rw [if_pos hp] at h
          cases hpp : (if o.pretty_print = true then (pp fuel fr3).map some else some none) with
          | none =>
            rw [hpp] at h
            cases h
          | some printed =>
            rw [hpp] at h
            cases h
            refine ⟨by simp, fun _ h1 h2 => ?_⟩
            rcases hp with hp | hp
            · rw [h1] at hp
              cases hp
            · exact absurd h2 hp
        · rw [if_neg hp] at h
          cases h
          exact ⟨by simp, fun _ _ _ => ⟨rfl, rfl⟩⟩

/-- Claim C37, what the code does: every entry that `parse_prefix` records
carries the type `VAR` (the token that follows the quantifier), not `ALL` or
`EX`; and `limboole_extended` returns zero exactly when `parse` has
succeeded, whatever `parse_prefix` has returned, and then goes on to
`tseitin` and the solver unless it prints. -/
theorem C37_prefix_result_and_entries :
    (∀ (fuel : Nat) (fr fr1 : Front) (ok : Bool), parse_prefix fuel fr = some (fr1, ok) →
      ∃ new, fr1.first_prefix = fr.first_prefix ++ new ∧ ∀ p ∈ new, p.type = LType.VAR)
    ∧ (∀ (fuel : Nat) (o : Options) (input : List Char) (out : Outcome),
        o.error = false → o.done = false → run_front fuel o input = some out →
        ∃ fr2 b fr3 ok, prefix_phase fuel o (initial_front o input) = some (fr2, b)
          ∧ parse fuel fr2 = some (fr3, ok) ∧ (out.result = 0 ↔ ok = true)
          ∧ (ok = true → o.pretty_print = false → fr3.qdump = 0 →
              out.cnf = some (tseitin fr3.mgr) ∧ out.solved = decide (fr3.dump = 0))) :=
  ⟨parse_prefix_entries, run_front_result⟩

set_option maxRecDepth 100000 in
/-- Claim C37, counterexample: in DepQBF mode (`op` = 2) on the input `?(a)`
the function `parse_prefix` returns 0, but `limboole_extended` returns 0,
writes no message and hands the clauses of `a` to the solver, and with `-p`
it prints the formula; on `#a ?b a` with `-p` both recorded entries have the
type `VAR` and the prefix is printed as `?a ?b`. -/
theorem C37_malformed_prefix_accepted :
    (prefix_phase 10 (initial_options 2) (initial_front (initial_options 2) "?(a)".data)).map
        (fun r => r.2) = some false
    ∧ (limboole_extended 10 [] 2 "?(a)".data).map
        (fun o => (o.result, o.log, o.cnf.map (fun c => c.clauses), o.solved))
      = some (0, [], some [[1]], true)
    ∧ (limboole_extended 10 ["-p"] 2 "?(a)".data).map (fun o => (o.result, o.printed))
      = some (0, some "a\n")
    ∧ (limboole_extended 10 ["-p"] 2 "#a ?b a".data).map
        (fun o => (o.result, o.printed, o.prefixes))
      = some (0, some "?a ?b a\n", [⟨LType.VAR, 0⟩, ⟨LType.VAR, 1⟩]) := by
  refine ⟨by rfl, by rfl, by decide, by decide⟩

/-! ## Theorems: precedence and associativity of the parser (claim C34) -/

theorem Den_append {nodes : List Node} {i : Nat} {t : Form} (ext : List Node)
    (h : Den nodes i t) : Den (nodes ++ ext) i t := by
  have hget : ∀ (i : Nat) (n : Node), nodes[i]? = some n → (nodes ++ ext)[i]? = some n := by
    intro i n hn
    have hi : i < nodes.length := by
      by_contra hc
      rw [List.getElem?_eq_none (by omega)] at hn
      cases hn
    rw [List.getElem?_append_left hi]
    exact hn
  induction h with
  | var i n hn ht => exact Den.var i n (hget i n hn) ht
  | not i j n f hn ht h0 h1 _ ih => exact Den.not i j n f (hget i n hn) ht h0 h1 ih
  | and i j k n f g hn ht h0 h1 _ _ ih1 ih2 =>
    exact Den.and i j k n f g (hget i n hn) ht h0 h1 ih1 ih2
  | or i j k n f g hn ht h0 h1 _ _ ih1 ih2 =>
    exact Den.or i j k n f g (hget i n hn) ht h0 h1 ih1 ih2
  | implies i j k n f g hn ht h0 h1 _ _ ih1 ih2 =>
    exact Den.implies i j k n f g (hget i n hn) ht h0 h1 ih1 ih2
  | seilpmi i j k n f g hn ht h0 h1 _ _ ih1 ih2 =>
    exact Den.seilpmi i j k n f g (hget i n hn) ht h0 h1 ih1 ih2
  | iff i j k n f g hn ht h0 h1 _ _ ih1 ih2 =>
    exact Den.iff i j k n f g (hget i n hn) ht h0 h1 ih1 ih2

theorem find_op_some {nodes : List Node} {type : LType} {c0 c1 : Option Nat} {i : Nat}
    (h : find_op nodes type c0 c1 = some i) :
    ∃ n, nodes[i]? = some n ∧ n.type = type ∧ n.as_child0 = c0 ∧ n.as_child1 = c1 := by
  unfold find_op at h
  simp only at h
  split at h
  · rename_i hlt
    injection h with h
    subst h
    have hp := List.findIdx_getElem (w := hlt)
    refine ⟨_, List.getElem?_eq_getElem hlt, ?_⟩
    simp [eq_op] at hp
    exact ⟨hp.1.1, hp.1.2, hp.2⟩
  · cases h

theorem var_node (m : Mgr) (str : String) :
    (∃ ext, (var m str).1.nodes = m.nodes ++ ext)
    ∧ (∃ n, (var m str).1.nodes[(var m str).2]? = some n ∧ n.type = LType.VAR
        ∧ n.as_name = str)
    ∧ (var m str).1.use_depqbf = m.use_depqbf := by
  unfold var
  cases hf : find_var m.nodes str with
  | some i => exact ⟨⟨[], by simp⟩, find_var_some hf, rfl⟩
  | none =>
    refine ⟨⟨_, rfl⟩, ⟨⟨LType.VAR, 0, str, none, none⟩, ?_, rfl, rfl⟩, rfl⟩
    show (m.nodes ++ [_])[m.nodes.length]? = _
    rw [List.getElem?_append_right (Nat.le_refl _)]
    simp

theorem op_node (m : Mgr) (type : LType) (c0 c1 : Option Nat) :
    (∃ ext, (op m type c0 c1).1.nodes = m.nodes ++ ext)
    ∧ (∃ n, (op m type c0 c1).1.nodes[(op m type c0 c1).2]? = some n ∧ n.type = type
        ∧ n.as_child0 = c0 ∧ n.as_child1 = c1)
    ∧ (op m type c0 c1).1.use_depqbf = m.use_depqbf := by
  unfold op
  cases hf : find_op m.nodes type c0 c1 with
  | some i => exact ⟨⟨[], by simp⟩, find_op_some hf, rfl⟩
  | none =>
    refine ⟨⟨_, rfl⟩, ⟨⟨type, 0, "", c0, c1⟩, ?_, rfl, rfl, rfl⟩, rfl⟩
    show (m.nodes ++ [_])[m.nodes.length]? = _
    rw [List.getElem?_append_right (Nat.le_refl _)]
    simp

theorem Scans_cons {q : Bool} {sc : Scanner} {t : Tok} {ts : List Tok} :
    Scans q sc (t :: ts)
      ↔ (sc.token = t.type ∧ (t.type = LType.VAR → String.mk sc.buffer = t.name)
        ∧ (ts ≠ [] → (scan_token q sc).2 = none) ∧ Scans q (scan_token q sc).1 ts) :=
  Iff.rfl

/-- A call of `next_token` moves to the next token of the sequence. -/
theorem next_token_scans {q : Bool} {fr : Front} {t : Tok} {ts : List Tok}
    (hq : decide (fr.mgr.use_depqbf ≠ 0) = q) (h : Scans q fr.sc (t :: ts)) (hne : ts ≠ []) :
    Scans q (next_token fr).sc ts ∧ (next_token fr).log = fr.log
      ∧ (next_token fr).mgr = fr.mgr := by
  obtain ⟨_, _, h3, h4⟩ := Scans_cons.mp h
  have h3 := h3 hne
  refine ⟨?_, ?_, rfl⟩
  · show Scans q (scan_token (decide (fr.mgr.use_depqbf ≠ 0)) fr.sc).1 ts
    rw [hq]
    exact h4
  · show fr.log ++ (scan_token (decide (fr.mgr.use_depqbf ≠ 0)) fr.sc).2.toList = fr.log
    rw [hq, h3]
    simp

theorem render_paren (lvl : Nat) (t : Form) (h : t.level < lvl) (h5 : lvl ≤ 5) :
    render lvl t = ⟨LType.LP, ""⟩ :: (render 0 t ++ [⟨LType.RP, ""⟩]) := by
  cases t with
  | var name =>
    have h1 : 5 < lvl := h
    omega
  | not f =>
    have h1 : 4 < lvl := h
    simp [render, paren, h1]
  | and f g =>
    have h1 : 3 < lvl := h
    simp [render, paren, h1]
  | or f g =>
    have h1 : 2 < lvl := h
    simp [render, paren, h1]
  | implies f g =>
    have h1 : 1 < lvl := h
    simp [render, paren, h1]
  | seilpmi f g =>
    have h1 : 1 < lvl := h
    simp [render, paren, h1]
  | iff f g =>
    have h1 : 0 < lvl := h
    simp [render, paren, h1]

theorem render_congr (l1 l2 : Nat) (t : Form) (h : t.level < l1 ↔ t.level < l2) :
    render l1 t = render l2 t := by
  cases t with
  | var name => rfl
  | not f =>
    have h1 : 4 < l1 ↔ 4 < l2 := h
    simp [render, h1]
  | and f g =>
    have h1 : 3 < l1 ↔ 3 < l2 := h
    simp [render, h1]
  | or f g =>
    have h1 : 2 < l1 ↔ 2 < l2 := h
    simp [render, h1]
  | implies f g =>
    have h1 : 1 < l1 ↔ 1 < l2 := h
    simp [render, h1]
  | seilpmi f g =>
    have h1 : 1 < l1 ↔ 1 < l2 := h
    simp [render, h1]
  | iff f g =>
    have h1 : 0 < l1 ↔ 0 < l2 := h
    simp [render, h1]

theorem Parses_next {q : Bool} {fr fr1 : Front} {r : Nat} {t : Form} {tk : Tok}
    {ts : List Tok} (h : Parses q fr fr1 r t (tk :: ts)) (hne : ts ≠ [])
    (hq : decide (fr.mgr.use_depqbf ≠ 0) = q) :
    Parses q fr (next_token fr1) r t ts := by
  have hq1 : decide (fr1.mgr.use_depqbf ≠ 0) = q := by
    rw [h.depqbf]
    exact hq
  obtain ⟨h1, h2, h3⟩ := next_token_scans hq1 h.scans hne
  exact ⟨h1, by rw [h3]; exact h.nodes, by rw [h3]; exact h.den, h2.trans h.log,
    by rw [h3]; exact h.depqbf⟩

theorem Parses_of_next {q : Bool} {fr fr1 : Front} {r : Nat} {t : Form}
    {tk : Tok} {ts rest : List Tok} (hs : Scans q fr.sc (tk :: ts)) (hne : ts ≠ [])
    (hq : decide (fr.mgr.use_depqbf ≠ 0) = q)
    (h : Parses q (next_token fr) fr1 r t rest) :
    Parses q fr fr1 r t rest := by
  obtain ⟨_, h2, h3⟩ := next_token_scans hq hs hne
  exact ⟨h.scans, by rw [← h3]; exact h.nodes, h.den, h.log.trans h2,
    by rw [← h3]; exact h.depqbf⟩

/-- The strength 5: `parse_basic` parses a variable or a formula in
parentheses. -/
theorem parse_basic_level {q : Bool} {n : Nat} {expr : Front → Parsed}
    (he : ExprOk q n expr) : LevelOk q n 5 (parse_basic expr) := by
  intro t fr tk rest hsz hpar hq hs _
  by_cases hv : ∃ name, t = Form.var name
  · obtain ⟨name, rfl⟩ := hv
    have hs1 : Scans q fr.sc (⟨LType.VAR, name⟩ :: tk :: rest) := hs
    obtain ⟨htok, hbuf, _, _⟩ := Scans_cons.mp hs1
    have htok1 : fr.sc.token = LType.VAR := htok
    have hbuf1 : String.mk fr.sc.buffer = name := hbuf rfl
    obtain ⟨hext, ⟨nd, hnd, hty, hnm⟩, hdq⟩ := var_node fr.mgr (String.mk fr.sc.buffer)
    have hq2 : decide (({ fr with mgr := (var fr.mgr (String.mk fr.sc.buffer)).1 } : Front).mgr.use_depqbf
        ≠ 0) = q := by
      show decide ((var fr.mgr (String.mk fr.sc.buffer)).1.use_depqbf ≠ 0) = q
      rw [hdq]
      exact hq
    obtain ⟨h1, h2, h3⟩ := @next_token_scans q
      { fr with mgr := (var fr.mgr (String.mk fr.sc.buffer)).1 } _ _ hq2 hs1 (by simp)
    refine ⟨next_token { fr with mgr := (var fr.mgr (String.mk fr.sc.buffer)).1 },
      (var fr.mgr (String.mk fr.sc.buffer)).2, ?_, h1, ?_, ?_, h2, ?_⟩
    · unfold parse_basic
      rw [if_neg (by rw [htok1]; decide), if_pos htok1]
    · rw [h3]
      exact hext
    · rw [h3]
      have := Den.var _ nd hnd hty
      rw [hnm] at this
      rw [← hbuf1]
      exact this
    · rw [h3]
      exact hdq
  · have hlv : t.level < 5 := by
      cases t with
      | var name => exact absurd ⟨name, rfl⟩ hv
      | not f => exact (by omega : 4 < 5)
      | and f g => exact (by omega : 3 < 5)
      | or f g => exact (by omega : 2 < 5)
      | implies f g => exact (by omega : 1 < 5)
      | seilpmi f g => exact (by omega : 1 < 5)
      | iff f g => exact (by omega : 0 < 5)
    have hs1 : Scans q fr.sc
        (⟨LType.LP, ""⟩ :: (render 0 t ++ ⟨LType.RP, ""⟩ :: tk :: rest)) := by
      rw [render_paren 5 t hlv (Nat.le_refl _)] at hs
      simpa using hs
    obtain ⟨htok, _, _, _⟩ := Scans_cons.mp hs1
    have htok1 : fr.sc.token = LType.LP := htok
    obtain ⟨h1, h2, h3⟩ := next_token_scans hq hs1 (by simp)
    have hq1 : decide ((next_token fr).mgr.use_depqbf ≠ 0) = q := by
      rw [h3]
      exact hq
    obtain ⟨fr1, r, hr, hp⟩ := he t (next_token fr) ⟨LType.RP, ""⟩ (tk :: rest) (hpar hlv) hq1 h1
      ⟨fun _ => by decide, fun _ => by decide, fun _ => ⟨by decide, by decide⟩,
        fun _ => by decide⟩
    obtain ⟨hrp, _, _, _⟩ := Scans_cons.mp hp.scans
    have hrp1 : fr1.sc.token = LType.RP := hrp
    refine ⟨next_token fr1, r, ?_, Parses_of_next hs1 (by simp) hq (Parses_next hp (by simp) hq1)⟩
    unfold parse_basic
    rw [if_pos htok1, hr]
    simp only [hrp1, ne_eq, not_true_eq_false, if_false]

theorem render_first_not_NOT (t : Form) (h : ∀ f, t ≠ Form.not f) (ts : List Tok) :
    ∃ tk rest, render 4 t ++ ts = tk :: rest ∧ tk.type ≠ LType.NOT := by
  have hp : ∀ u : Form, u.level < 4 →
      ∃ tk rest, render 4 u ++ ts = tk :: rest ∧ tk.type ≠ LType.NOT := by
    intro u hu
    rw [render_paren 4 u hu (by omega)]
    exact ⟨⟨LType.LP, ""⟩, _, rfl, (by decide : LType.LP ≠ LType.NOT)⟩
  cases t with
  | var name => exact ⟨⟨LType.VAR, name⟩, ts, rfl, (by decide : LType.VAR ≠ LType.NOT)⟩
  | not f => exact absurd rfl (h f)
  | and f g => exact hp _ (by omega : 3 < 4)
  | or f g => exact hp _ (by omega : 2 < 4)
  | implies f g => exact hp _ (by omega : 1 < 4)
  | seilpmi f g => exact hp _ (by omega : 1 < 4)
  | iff f g => exact hp _ (by omega : 0 < 4)

/-- The strength 4: `parse_not` parses a chain of negations. -/
theorem parse_not_level {q : Bool} {n : Nat} {expr : Front → Parsed}
    (hb : LevelOk q n 5 (parse_basic expr)) :
    ∀ (k : Nat) (t : Form), t.size ≤ k → t.size ≤ n + 1 → (t.level < 4 → t.size ≤ n) →
      ∀ (fr : Front) (tk : Tok) (rest : List Tok), decide (fr.mgr.use_depqbf ≠ 0) = q →
      Scans q fr.sc (render 4 t ++ tk :: rest) →
      ∃ fr1 r, parse_not expr k fr = some (fr1, some r) ∧ Parses q fr fr1 r t (tk :: rest) := by
  intro k
  induction k with
  | zero =>
    intro t hk
    cases t <;> simp [Form.size] at hk
  | succ k ih =>
    intro t hk hsz hpar fr tk rest hq hs
    by_cases hn : ∃ f, t = Form.not f
    · obtain ⟨f, rfl⟩ := hn
      have hs1 : Scans q fr.sc (⟨LType.NOT, ""⟩ :: (render 4 f ++ tk :: rest)) := by
        have : render 4 (Form.not f) = ⟨LType.NOT, ""⟩ :: render 4 f := by
          simp [render, paren]
        rw [this] at hs
        exact hs
      obtain ⟨htok, _, _, _⟩ := Scans_cons.mp hs1
      have htok1 : fr.sc.token = LType.NOT := htok
      obtain ⟨h1, h2, h3⟩ := next_token_scans hq hs1 (by simp)
      have hq1 : decide ((next_token fr).mgr.use_depqbf ≠ 0) = q := by
        rw [h3]
        exact hq
      have hfs : f.size ≤ n := by
        have : (Form.not f).size = f.size + 1 := rfl
        omega
      obtain ⟨fr1, c, hr, hp⟩ := ih f (by have : (Form.not f).size = f.size + 1 := rfl; omega)
        (by omega) (fun _ => hfs) (next_token fr) tk rest hq1 h1
      obtain ⟨hext, ⟨nd, hnd, hty, hc0, hc1⟩, hdq⟩ := op_node fr1.mgr LType.NOT (some c) none
      refine ⟨{ fr1 with mgr := (op fr1.mgr LType.NOT (some c) none).1 },
        (op fr1.mgr LType.NOT (some c) none).2, ?_, ?_⟩
      · rw [parse_not, if_pos htok1, hr]
      · have hp1 := Parses_of_next hs1 (by simp) hq hp
        obtain ⟨ext, hext⟩ := hext
        refine ⟨hp1.scans, ?_, ?_, hp1.log, hdq.trans hp1.depqbf⟩
        · obtain ⟨e1, he1⟩ := hp1.nodes
          exact ⟨e1 ++ ext, by rw [hext, he1, List.append_assoc]⟩
        · refine Den.not _ c nd f hnd hty hc0 hc1 ?_
          show Den (op fr1.mgr LType.NOT (some c) none).1.nodes c f
          rw [hext]
          exact Den_append ext hp1.den
    · have hn1 : ∀ f, t ≠ Form.not f := fun f hf => hn ⟨f, hf⟩
      have hlv : t.level ≠ 4 := by
        cases t with
        | not f => exact absurd rfl (hn1 f)
        | var name => exact (by omega : 5 ≠ 4)
        | and f g => exact (by omega : 3 ≠ 4)
        | or f g => exact (by omega : 2 ≠ 4)
        | implies f g => exact (by omega : 1 ≠ 4)
        | seilpmi f g => exact (by omega : 1 ≠ 4)
        | iff f g => exact (by omega : 0 ≠ 4)
      have hr45 : render 4 t = render 5 t := render_congr 4 5 t (by omega)
      obtain ⟨t0, r0, e0, hne⟩ := render_first_not_NOT t hn1 (tk :: rest)
      have htok : fr.sc.token ≠ LType.NOT := by
        rw [e0] at hs
        obtain ⟨h1, _, _, _⟩ := Scans_cons.mp hs
        rw [h1]
        exact hne
      rw [hr45] at hs
      obtain ⟨fr1, r, hr, hp⟩ := hb t fr tk rest hsz (fun h5 => hpar (by omega)) hq hs
        ⟨fun h => by omega, fun h => by omega, fun h => by omega, fun h => by omega⟩
      refine ⟨fr1, r, ?_, hp⟩
      rw [parse_not, if_neg htok]
      exact hr

theorem Form.size_pos (t : Form) : 0 < t.size := by
  cases t <;> simp [Form.size]

theorem Parses_depqbf {q : Bool} {fr fr1 : Front} {r : Nat} {t : Form} {rest : List Tok}
    (h : Parses q fr fr1 r t rest) (hq : decide (fr.mgr.use_depqbf ≠ 0) = q) :
    decide (fr1.mgr.use_depqbf ≠ 0) = q := by
  rw [h.depqbf]
  exact hq

/-- The state after an operator node has been made from the results of two
parsing steps. -/
theorem Parses_op {q : Bool} {fr fr1 fr2 : Front} {rf rg : Nat} {f g : Form}
    {type : LType} {mk : Form → Form → Form} {tl rest : List Tok}
    (hden : ∀ (nodes : List Node) (i j k : Nat) (n : Node) (f g : Form),
      nodes[i]? = some n → n.type = type → n.as_child0 = some j → n.as_child1 = some k →
      Den nodes j f → Den nodes k g → Den nodes i (mk f g))
    (h1 : Parses q fr fr1 rf f tl) (h2 : Parses q fr1 fr2 rg g rest) :
    Parses q fr { fr2 with mgr := (op fr2.mgr type (some rf) (some rg)).1 }
      (op fr2.mgr type (some rf) (some rg)).2 (mk f g) rest := by
  obtain ⟨⟨ext, hext⟩, ⟨nd, hnd, hty, hc0, hc1⟩, hdq⟩ :=
    op_node fr2.mgr type (some rf) (some rg)
  obtain ⟨e1, he1⟩ := h1.nodes
  obtain ⟨e2, he2⟩ := h2.nodes
  refine ⟨h2.scans, ⟨e1 ++ e2 ++ ext, ?_⟩, ?_, h2.log.trans h1.log,
    hdq.trans (h2.depqbf.trans h1.depqbf)⟩
  · show (op fr2.mgr type (some rf) (some rg)).1.nodes = _
    rw [hext, he2, he1]
    simp only [List.append_assoc]
  · refine hden _ _ rf rg nd f g hnd hty hc0 hc1 ?_ ?_
    · show Den (op fr2.mgr type (some rf) (some rg)).1.nodes rf f
      rw [hext, he2, List.append_assoc]
      exact Den_append _ h1.den
    · show Den (op fr2.mgr type (some rf) (some rg)).1.nodes rg g
      rw [hext]
      exact Den_append _ h2.den

theorem Parses_trans_next {q : Bool} {fr fr1 fr2 : Front} {rf rg : Nat} {f g : Form}
    {tk : Tok} {tl rest : List Tok} (h1 : Parses q fr fr1 rf f (tk :: tl)) (hne : tl ≠ [])
    (hq : decide (fr.mgr.use_depqbf ≠ 0) = q)
    (h2 : Parses q (next_token fr1) fr2 rg g rest) :
    Parses q fr1 fr2 rg g rest :=
  Parses_of_next h1.scans hne (Parses_depqbf h1 hq) h2

theorem associative_loop_first (type : LType) (lower : Front → Parsed) (k : Nat)
    (fr fr1 : Front) (r : Nat) (h : lower fr = some (fr1, some r)) :
    associative_loop type lower (k + 1) fr none = loop_check type lower k fr1 r := by
  rw [associative_loop, h]
  rfl

theorem associative_loop_next (type : LType) (lower : Front → Parsed) (k : Nat)
    (fr fr1 : Front) (r0 r : Nat) (h : lower fr = some (fr1, some r)) :
    associative_loop type lower (k + 1) fr (some r0)
      = loop_check type lower k { fr1 with mgr := (op fr1.mgr type (some r0) (some r)).1 }
          (op fr1.mgr type (some r0) (some r)).2 := by
  rw [associative_loop, h]
  rfl

/-- One run of the loop of `parse_associative_op` over a chain of operands
of the operator `type`: after `c` iterations the loop is at its test with
the root of the chain. -/
theorem associative_loop_chain {q : Bool} {n lvl : Nat} {type : LType}
    {mk : Form → Form → Form} {lower : Front → Parsed} (hl : LoopLevel type lvl mk)
    (hlow : LevelOk q n (lvl + 1) lower) :
    ∀ (m : Nat) (t : Form), t.size ≤ m → t.size ≤ n + 1 → (t.level < lvl → t.size ≤ n) →
      ∀ (fr : Front) (tk : Tok) (rest : List Tok), decide (fr.mgr.use_depqbf ≠ 0) = q →
      Scans q fr.sc (render lvl t ++ tk :: rest) → stop_ok (lvl + 1) tk.type →
      ∃ c fr1 r, c ≤ t.size
        ∧ (∀ k, associative_loop type lower (k + c) fr none = loop_check type lower k fr1 r)
        ∧ Parses q fr fr1 r t (tk :: rest) := by
  intro m
  induction m with
  | zero =>
    intro t hm
    have := Form.size_pos t
    omega
  | succ m ih =>
    intro t hm hsz hpar fr tk rest hq hs hstop
    by_cases hmk : ∃ f g, t = mk f g
    · obtain ⟨f, g, rfl⟩ := hmk
      have hsize := hl.size_mk f g
      rw [hl.render_mk, List.append_assoc, List.cons_append] at hs
      obtain ⟨c, fr1, rf, hc, hloop, hp1⟩ := ih f (by omega) (by omega) (fun _ => by omega)
        fr ⟨type, ""⟩ (render (lvl + 1) g ++ tk :: rest) hq hs hl.stop_type
      have hq1 := Parses_depqbf hp1 hq
      obtain ⟨htok, _, _, _⟩ := Scans_cons.mp hp1.scans
      have htok1 : fr1.sc.token = type := htok
      obtain ⟨h1, h2, h3⟩ := next_token_scans hq1 hp1.scans (by simp)
      have hq2 : decide ((next_token fr1).mgr.use_depqbf ≠ 0) = q := by
        rw [h3]
        exact hq1
      obtain ⟨fr2, rg, hr2, hp2⟩ := hlow g (next_token fr1) tk rest (by omega)
        (fun _ => by omega) hq2 h1 hstop
      refine ⟨c + 1, { fr2 with mgr := (op fr2.mgr type (some rf) (some rg)).1 },
        (op fr2.mgr type (some rf) (some rg)).2, by omega, ?_,
        Parses_op hl.den_mk hp1 (Parses_trans_next hp1 (by simp) hq hp2)⟩
      intro k
      have e : k + (c + 1) = (k + 1) + c := by omega
      rw [e, hloop (k + 1)]
      unfold loop_check
      rw [if_pos htok1, associative_loop_next type lower k _ fr2 rf rg hr2]
      rfl
    · have hmk1 : ∀ f g, t ≠ mk f g := fun f g h => hmk ⟨f, g, h⟩
      rw [hl.render_other t hmk1] at hs
      have hlv := hl.level_other t hmk1
      obtain ⟨fr1, r, hr, hp⟩ := hlow t fr tk rest hsz (fun h => hpar (by omega)) hq hs hstop
      exact ⟨1, fr1, r, Form.size_pos t,
        fun k => associative_loop_first type lower k fr fr1 r hr, hp⟩

/-- A strength with an associative operator: `parse_associative_op` parses a
chain of operands and nests it to the left. -/
theorem parse_associative_op_level {q : Bool} {n lvl : Nat} {type : LType}
    {mk : Form → Form → Form} {lower : Front → Parsed} (hl : LoopLevel type lvl mk)
    (hlow : LevelOk q n (lvl + 1) lower) :
    LevelOk q n lvl (parse_associative_op type lower (n + 1)) := by
  intro t fr tk rest hsz hpar hq hs hstop
  obtain ⟨c, fr1, r, hc, hloop, hp⟩ := associative_loop_chain hl hlow t.size t (Nat.le_refl _)
    hsz hpar fr tk rest hq hs (hl.stop_mono _ hstop)
  refine ⟨fr1, r, ?_, hp⟩
  obtain ⟨htok, _, _, _⟩ := Scans_cons.mp hp.scans
  have hne : fr1.sc.token ≠ type := by
    rw [htok]
    exact hl.stop_self _ hstop
  have e : n + 1 = (n + 1 - c) + c := by omega
  unfold parse_associative_op
  rw [e, hloop]
  unfold loop_check
  rw [if_neg hne]

theorem loop_level_and : LoopLevel LType.AND 3 Form.and where
  render_mk := fun f g => by simp [render, paren]
  render_other := fun t h => by
    apply render_congr
    cases t with
    | and f g => exact absurd rfl (h f g)
    | var name => exact (by omega : (5 < 3 ↔ 5 < 3 + 1))
    | not f => exact (by omega : (4 < 3 ↔ 4 < 3 + 1))
    | or f g => exact (by omega : (2 < 3 ↔ 2 < 3 + 1))
    | implies f g => exact (by omega : (1 < 3 ↔ 1 < 3 + 1))
    | seilpmi f g => exact (by omega : (1 < 3 ↔ 1 < 3 + 1))
    | iff f g => exact (by omega : (0 < 3 ↔ 0 < 3 + 1))
  level_other := fun t h => by
    cases t with
    | and f g => exact absurd rfl (h f g)
    | var name => exact (by omega : 5 ≠ 3)
    | not f => exact (by omega : 4 ≠ 3)
    | or f g => exact (by omega : 2 ≠ 3)
    | implies f g => exact (by omega : 1 ≠ 3)
    | seilpmi f g => exact (by omega : 1 ≠ 3)
    | iff f g => exact (by omega : 0 ≠ 3)
  den_mk := fun nodes i j k n f g => Den.and i j k n f g
  size_mk := fun _ _ => rfl
  stop_type := ⟨fun h => by omega, fun h => by omega, fun h => by omega, fun h => by omega⟩
  stop_self := fun _ h => h.1 (Nat.le_refl _)
  stop_mono := fun _ h =>
    ⟨fun h1 => by omega, fun h1 => by omega, fun h1 => by omega, fun h1 => by omega⟩

theorem loop_level_or : LoopLevel LType.OR 2 Form.or where
  render_mk := fun f g => by simp [render, paren]
  render_other := fun t h => by
    apply render_congr
    cases t with
    | or f g => exact absurd rfl (h f g)
    | var name => exact (by omega : (5 < 2 ↔ 5 < 2 + 1))
    | not f => exact (by omega : (4 < 2 ↔ 4 < 2 + 1))
    | and f g => exact (by omega : (3 < 2 ↔ 3 < 2 + 1))
    | implies f g => exact (by omega : (1 < 2 ↔ 1 < 2 + 1))
    | seilpmi f g => exact (by omega : (1 < 2 ↔ 1 < 2 + 1))
    | iff f g => exact (by omega : (0 < 2 ↔ 0 < 2 + 1))
  level_other := fun t h => by
    cases t with
    | or f g => exact absurd rfl (h f g)
    | var name => exact (by omega : 5 ≠ 2)
    | not f => exact (by omega : 4 ≠ 2)
    | and f g => exact (by omega : 3 ≠ 2)
    | implies f g => exact (by omega : 1 ≠ 2)
    | seilpmi f g => exact (by omega : 1 ≠ 2)
    | iff f g => exact (by omega : 0 ≠ 2)
  den_mk := fun nodes i j k n f g => Den.or i j k n f g
  size_mk := fun _ _ => rfl
  stop_type := ⟨fun _ => by decide, fun h => by omega, fun h => by omega, fun h => by omega⟩
  stop_self := fun _ h => h.2.1 (Nat.le_refl _)
  stop_mono := fun _ h =>
    ⟨fun _ => h.1 (by omega), fun h1 => by omega, fun h1 => by omega, fun h1 => by omega⟩

theorem loop_level_iff : LoopLevel LType.IFF 0 Form.iff where
  render_mk := fun f g => by simp [render, paren]
  render_other := fun t h => by
    apply render_congr
    cases t with
    | iff f g => exact absurd rfl (h f g)
    | var name => exact (by omega : (5 < 0 ↔ 5 < 0 + 1))
    | not f => exact (by omega : (4 < 0 ↔ 4 < 0 + 1))
    | and f g => exact (by omega : (3 < 0 ↔ 3 < 0 + 1))
    | or f g => exact (by omega : (2 < 0 ↔ 2 < 0 + 1))
    | implies f g => exact (by omega : (1 < 0 ↔ 1 < 0 + 1))
    | seilpmi f g => exact (by omega : (1 < 0 ↔ 1 < 0 + 1))
  level_other := fun t h => by
    cases t with
    | iff f g => exact absurd rfl (h f g)
    | var name => exact (by omega : 5 ≠ 0)
    | not f => exact (by omega : 4 ≠ 0)
    | and f g => exact (by omega : 3 ≠ 0)
    | or f g => exact (by omega : 2 ≠ 0)
    | implies f g => exact (by omega : 1 ≠ 0)
    | seilpmi f g => exact (by omega : 1 ≠ 0)
  den_mk := fun nodes i j k n f g => Den.iff i j k n f g
  size_mk := fun _ _ => rfl
  stop_type := ⟨fun _ => by decide, fun _ => by decide, fun _ => ⟨by decide, by decide⟩,
    fun h => by omega⟩
  stop_self := fun _ h => h.2.2.2 (Nat.le_refl _)
  stop_mono := fun _ h =>
    ⟨fun _ => h.1 (by omega), fun _ => h.2.1 (by omega), fun _ => h.2.2.1 (by omega),
      fun h1 => by omega⟩

theorem stop_ok_mono {l1 l2 : Nat} {t : LType} (h : stop_ok l1 t) (hl : l1 ≤ l2) :
    stop_ok l2 t :=
  ⟨fun h1 => h.1 (by omega), fun h1 => h.2.1 (by omega), fun h1 => h.2.2.1 (by omega),
    fun h1 => h.2.2.2 (by omega)⟩

/-- The two operands of an implication: `parse_or`, one `->` or `<-`, and
`parse_or` again. -/
theorem parse_implies_pair {q : Bool} {n f : Nat} {expr : Front → Parsed}
    (hor : LevelOk q n 2 (parse_or expr f)) (x y : Form) (type : LType)
    (mk : Form → Form → Form)
    (hty : type = LType.IMPLIES ∨ type = LType.SEILPMI)
    (hden : ∀ (nodes : List Node) (i j k : Nat) (n : Node) (f g : Form),
      nodes[i]? = some n → n.type = type → n.as_child0 = some j → n.as_child1 = some k →
      Den nodes j f → Den nodes k g → Den nodes i (mk f g))
    (hx : x.size ≤ n) (hy : y.size ≤ n) (fr : Front) (tk : Tok) (rest : List Tok)
    (hq : decide (fr.mgr.use_depqbf ≠ 0) = q)
    (hs : Scans q fr.sc (render 2 x ++ ⟨type, ""⟩ :: (render 2 y ++ tk :: rest)))
    (hstop : stop_ok 2 tk.type) :
    ∃ fr1 r, parse_implies expr f fr = some (fr1, some r)
      ∧ Parses q fr fr1 r (mk x y) (tk :: rest) := by
  have hstop2 : stop_ok 2 type := by
    rcases hty with h | h <;> rw [h] <;>
      exact ⟨fun _ => by decide, fun _ => by decide, fun h1 => by omega, fun h1 => by omega⟩
  obtain ⟨fr1, l, hr1, hp1⟩ := hor x fr ⟨type, ""⟩ (render 2 y ++ tk :: rest) (by omega)
    (fun _ => hx) hq hs hstop2
  have hq1 := Parses_depqbf hp1 hq
  obtain ⟨htok, _, _, _⟩ := Scans_cons.mp hp1.scans
  have htok1 : fr1.sc.token = type := htok
  obtain ⟨h1, h2, h3⟩ := next_token_scans hq1 hp1.scans (by simp)
  have hq2 : decide ((next_token fr1).mgr.use_depqbf ≠ 0) = q := by
    rw [h3]
    exact hq1
  obtain ⟨fr2, r, hr2, hp2⟩ := hor y (next_token fr1) tk rest (by omega) (fun _ => hy) hq2 h1
    hstop
  refine ⟨{ fr2 with mgr := (op fr2.mgr type (some l) (some r)).1 },
    (op fr2.mgr type (some l) (some r)).2, ?_,
    Parses_op hden hp1 (Parses_trans_next hp1 (by simp) hq hp2)⟩
  unfold parse_implies
  rw [hr1]
  have hnot : ¬ (fr1.sc.token ≠ LType.IMPLIES ∧ fr1.sc.token ≠ LType.SEILPMI) := by
    rw [htok1]
    rcases hty with h | h
    · exact fun hc => hc.1 h
    · exact fun hc => hc.2 h
  simp only [hr2]
  rw [if_neg hnot, htok1]

/-- The strength 1: `parse_implies` parses an implication or a single
operand. -/
theorem parse_implies_level {q : Bool} {n f : Nat} {expr : Front → Parsed}
    (hor : LevelOk q n 2 (parse_or expr f)) : LevelOk q n 1 (parse_implies expr f) := by
  intro t fr tk rest hsz hpar hq hs hstop
  have hstop2 : stop_ok 2 tk.type := stop_ok_mono hstop (by omega)
  have hother : t.level ≠ 1 →
      ∃ fr1 r, parse_implies expr f fr = some (fr1, some r)
        ∧ Parses q fr fr1 r t (tk :: rest) := by
    intro hlv
    rw [render_congr 1 2 t (by omega)] at hs
    obtain ⟨fr1, l, hr1, hp1⟩ := hor t fr tk rest hsz (fun h => hpar (by omega)) hq hs hstop2
    obtain ⟨htok, _, _, _⟩ := Scans_cons.mp hp1.scans
    refine ⟨fr1, l, ?_, hp1⟩
    unfold parse_implies
    rw [hr1]
    have hyes : fr1.sc.token ≠ LType.IMPLIES ∧ fr1.sc.token ≠ LType.SEILPMI := by
      rw [htok]
      exact hstop.2.2.1 (Nat.le_refl _)
    simp only [hyes, ne_eq, not_false_eq_true, and_self, if_true]
  cases t with
  | var name => exact hother (by omega : 5 ≠ 1)
  | not g => exact hother (by omega : 4 ≠ 1)
  | and g h => exact hother (by omega : 3 ≠ 1)
  | or g h => exact hother (by omega : 2 ≠ 1)
  | iff g h => exact hother (by omega : 0 ≠ 1)
  | implies g h =>
    have hsize : (Form.implies g h).size = g.size + h.size + 1 := rfl
    have hr : render 1 (Form.implies g h) = render 2 g ++ ⟨LType.IMPLIES, ""⟩ :: render 2 h := by
      simp [render, paren]
    rw [hr, List.append_assoc, List.cons_append] at hs
    exact parse_implies_pair hor g h LType.IMPLIES Form.implies (Or.inl rfl)
      (fun nodes i j k n f g => Den.implies i j k n f g) (by omega) (by omega) fr tk rest hq hs
      hstop2
  | seilpmi g h =>
    have hsize : (Form.seilpmi g h).size = g.size + h.size + 1 := rfl
    have hr : render 1 (Form.seilpmi g h) = render 2 g ++ ⟨LType.SEILPMI, ""⟩ :: render 2 h := by
      simp [render, paren]
    rw [hr, List.append_assoc, List.cons_append] at hs
    exact parse_implies_pair hor g h LType.SEILPMI Form.seilpmi (Or.inr rfl)
      (fun nodes i j k n f g => Den.seilpmi i j k n f g) (by omega) (by omega) fr tk rest hq hs
      hstop2

/-- Every formula of size at most `fuel`, written with the parentheses of
`render`, is parsed by `parse_expr fuel` to its own tree. -/
theorem parse_expr_ok (q : Bool) : ∀ fuel : Nat, ExprOk q fuel (parse_expr fuel) := by
  intro fuel
  induction fuel with
  | zero =>
    intro t fr tk rest hsz
    have := Form.size_pos t
    omega
  | succ n ih =>
    have h5 : LevelOk q n 5 (parse_basic (parse_expr n)) := parse_basic_level ih
    have h4 : LevelOk q n 4 (parse_not (parse_expr n) (n + 1)) := by
      intro t fr tk rest hsz hpar hq hs _
      exact parse_not_level h5 (n + 1) t hsz hsz hpar fr tk rest hq hs
    have h3 : LevelOk q n 3 (parse_and (parse_expr n) (n + 1)) :=
      parse_associative_op_level loop_level_and h4
    have h2 : LevelOk q n 2 (parse_or (parse_expr n) (n + 1)) :=
      parse_associative_op_level loop_level_or h3
    have h1 : LevelOk q n 1 (parse_implies (parse_expr n) (n + 1)) := parse_implies_level h2
    have h0 : LevelOk q n 0 (parse_iff (parse_expr n) (n + 1)) :=
      parse_associative_op_level loop_level_iff h1
    intro t fr tk rest hsz hq hs hstop
    exact h0 t fr tk rest hsz (fun h => by omega) hq hs hstop

theorem render_first (t : Form) : ∀ (lvl : Nat) (ts : List Tok),
    ∃ tk rest, render lvl t ++ ts = tk :: rest
      ∧ (tk.type = LType.VAR ∨ tk.type = LType.LP ∨ tk.type = LType.NOT) := by
  have hp : ∀ (b : Bool) (body ts : List Tok),
      (∃ tk rest, body ++ ([⟨LType.RP, ""⟩] ++ ts) = tk :: rest
        ∧ (tk.type = LType.VAR ∨ tk.type = LType.LP ∨ tk.type = LType.NOT)) →
      (∃ tk rest, body ++ ts = tk :: rest
        ∧ (tk.type = LType.VAR ∨ tk.type = LType.LP ∨ tk.type = LType.NOT)) →
      ∃ tk rest, paren b body ++ ts = tk :: rest
        ∧ (tk.type = LType.VAR ∨ tk.type = LType.LP ∨ tk.type = LType.NOT) := by
    intro b body ts _ h2
    cases b with
    | true => exact ⟨⟨LType.LP, ""⟩, _, rfl, Or.inr (Or.inl rfl)⟩
    | false => exact h2
  induction t with
  | var name => exact fun lvl ts => ⟨⟨LType.VAR, name⟩, ts, rfl, Or.inl rfl⟩
  | not f _ =>
    intro lvl ts
    exact hp _ _ ts ⟨_, _, rfl, Or.inr (Or.inr rfl)⟩ ⟨_, _, rfl, Or.inr (Or.inr rfl)⟩
  | and f g ihf _ =>
    intro lvl ts
    refine hp _ _ ts ?_ ?_
    · rw [List.append_assoc]
      exact ihf 3 _
    · rw [List.append_assoc]
      exact ihf 3 _
  | or f g ihf _ =>
    intro lvl ts
    refine hp _ _ ts ?_ ?_
    · rw [List.append_assoc]
      exact ihf 2 _
    · rw [List.append_assoc]
      exact ihf 2 _
  | implies f g ihf _ =>
    intro lvl ts
    refine hp _ _ ts ?_ ?_
    · rw [List.append_assoc]
      exact ihf 2 _
    · rw [List.append_assoc]
      exact ihf 2 _
  | seilpmi f g ihf _ =>
    intro lvl ts
    refine hp _ _ ts ?_ ?_
    · rw [List.append_assoc]
      exact ihf 2 _
    · rw [List.append_assoc]
      exact ihf 2 _
  | iff f g ihf _ =>
    intro lvl ts
    refine hp _ _ ts ?_ ?_
    · rw [List.append_assoc]
      exact ihf 0 _
    · rw [List.append_assoc]
      exact ihf 0 _

theorem first_token_ok {q : Bool} {sc : Scanner} (t : Form) (lvl : Nat) (ts : List Tok)
    (hs : Scans q sc (render lvl t ++ ts)) : sc.token ≠ LType.ERROR := by
  obtain ⟨tk, rest, e, h⟩ := render_first t lvl ts
  rw [e] at hs
  obtain ⟨h1, _, _, _⟩ := Scans_cons.mp hs
  rw [h1]
  rcases h with h | h | h <;> rw [h] <;> decide

theorem parse_of_expr (fuel : Nat) (fr fr1 : Front) (r : Nat)
    (h0 : fr.sc.token ≠ LType.ERROR) (h : parse_expr fuel fr = some (fr1, some r)) :
    parse fuel fr
      = (if fr1.sc.token = LType.DONE then
          some ({ fr1 with mgr := { fr1.mgr with root := some r } }, true)
        else if fr1.sc.token ≠ LType.ERROR then
          some (parse_error { fr1 with mgr := { fr1.mgr with root := some r } }
            "expected operator or EOF", false)
        else some ({ fr1 with mgr := { fr1.mgr with root := some r } }, false)) := by
  unfold parse
  rw [if_neg h0, h]
  rfl

/-- Claim C34: the formula `t` written as the token sequence `render 0 t`
(parentheses only where an operand binds less tightly than its place
requires: `!` tighter than `&`, `&` tighter than `|`, `|` tighter than `->`
and `<-`, these tighter than `<->`; chains of `&`, `|`, `<->` without
parentheses only when nested to the left) and followed by the end of the
input is parsed by `parse` to a root that is the tree `t`, without a
message. And two operands joined by `->` or `<-` and followed by another
`->` or `<-` are rejected by `parse` with the message
`expected operator or EOF` at the second operator. -/
theorem C34_precedence_and_associativity :
    (∀ (q : Bool) (fuel : Nat) (fr : Front) (t : Form), t.size ≤ fuel →
      decide (fr.mgr.use_depqbf ≠ 0) = q →
      Scans q fr.sc (render 0 t ++ [⟨LType.DONE, ""⟩]) →
      ∃ fr1 r, parse fuel fr = some (fr1, true) ∧ fr1.mgr.root = some r
        ∧ Den fr1.mgr.nodes r t ∧ fr1.log = fr.log)
    ∧ (∀ (q : Bool) (fuel : Nat) (fr : Front) (x y : Form) (op1 op2 : LType)
        (rest : List Tok), x.size < fuel → y.size < fuel →
      op1 = LType.IMPLIES ∨ op1 = LType.SEILPMI → op2 = LType.IMPLIES ∨ op2 = LType.SEILPMI →
      decide (fr.mgr.use_depqbf ≠ 0) = q →
      Scans q fr.sc (render 2 x ++ ⟨op1, ""⟩ :: (render 2 y ++ ⟨op2, ""⟩ :: rest)) →
      ∃ fr1, parse fuel fr = some (fr1, false)
        ∧ fr1.log = fr.log ++ [⟨op2, "expected operator or EOF"⟩]) := by
  constructor
  · intro q fuel fr t hsz hq hs
    obtain ⟨fr1, r, hr, hp⟩ := parse_expr_ok q fuel t fr ⟨LType.DONE, ""⟩ [] hsz hq hs
      ⟨fun _ => by decide, fun _ => by decide, fun _ => ⟨by decide, by decide⟩,
        fun _ => by decide⟩
    obtain ⟨htok, _, _, _⟩ := Scans_cons.mp hp.scans
    have htok1 : fr1.sc.token = LType.DONE := htok
    refine ⟨{ fr1 with mgr := { fr1.mgr with root := some r } }, r, ?_, rfl, hp.den, hp.log⟩
    rw [parse_of_expr fuel fr fr1 r (first_token_ok t 0 _ hs) hr, if_pos htok1]
  · intro q fuel fr x y op1 op2 rest hx hy h1 h2 hq hs
    obtain ⟨n, rfl⟩ : ∃ n, fuel = n + 1 := ⟨fuel - 1, by omega⟩
    have ih := parse_expr_ok q n
    have h5 : LevelOk q n 5 (parse_basic (parse_expr n)) := parse_basic_level ih
    have h4 : LevelOk q n 4 (parse_not (parse_expr n) (n + 1)) := by
      intro t fr tk rest hsz hpar hq hs _
      exact parse_not_level h5 (n + 1) t hsz hsz hpar fr tk rest hq hs
    have h3 : LevelOk q n 3 (parse_and (parse_expr n) (n + 1)) :=
      parse_associative_op_level loop_level_and h4
    have h2o : LevelOk q n 2 (parse_or (parse_expr n) (n + 1)) :=
      parse_associative_op_level loop_level_or h3
    have hstop2 : stop_ok 2 op2 := by
      rcases h2 with h | h <;> rw [h] <;>
        exact ⟨fun _ => by decide, fun _ => by decide, fun h1 => by omega, fun h1 => by omega⟩
    have hden : ∀ (nodes : List Node) (i j k : Nat) (nd : Node) (f g : Form),
        nodes[i]? = some nd → nd.type = op1 → nd.as_child0 = some j → nd.as_child1 = some k →
        Den nodes j f → Den nodes k g →
        Den nodes i ((if op1 = LType.IMPLIES then Form.implies else Form.seilpmi) f g) := by
      intro nodes i j k nd f g a1 a2 a3 a4 a5 a6
      rcases h1 with h | h
      · rw [if_pos h]
        exact Den.implies i j k nd f g a1 (a2.trans h) a3 a4 a5 a6
      · rw [if_neg (by rw [h]; decide)]
        exact Den.seilpmi i j k nd f g a1 (a2.trans h) a3 a4 a5 a6
    obtain ⟨fr1, r, hr, hp⟩ := parse_implies_pair h2o x y op1
      (if op1 = LType.IMPLIES then Form.implies else Form.seilpmi) h1 hden (by omega) (by omega)
      fr ⟨op2, ""⟩ rest hq hs hstop2
    obtain ⟨htok, _, _, _⟩ := Scans_cons.mp hp.scans
    have htok1 : fr1.sc.token = op2 := htok
    have hexpr : parse_expr (n + 1) fr = some (fr1, some r) := by
      rw [parse_expr]
      unfold parse_iff parse_associative_op
      rw [associative_loop_first LType.IFF _ n fr fr1 r hr]
      unfold loop_check
      rw [if_neg (by rw [htok1]; rcases h2 with h | h <;> rw [h] <;> decide)]
    refine ⟨parse_error { fr1 with mgr := { fr1.mgr with root := some r } }
      "expected operator or EOF", ?_, ?_⟩
    · rw [parse_of_expr (n + 1) fr fr1 r (first_token_ok x 2 _ hs) hexpr,
        if_neg (by rw [htok1]; rcases h2 with h | h <;> rw [h] <;> decide),
        if_pos (by rw [htok1]; rcases h2 with h | h <;> rw [h] <;> decide)]
    · show fr1.log ++ [⟨fr1.sc.token, "expected operator or EOF"⟩] = _
      rw [hp.log, htok1]

theorem Scans_var {q : Bool} {sc : Scanner} {name : String} {ts : List Tok}
    (h1 : sc.token = LType.VAR) (h2 : String.mk sc.buffer = name)
    (h3 : (scan_token q sc).2 = none) (h4 : Scans q (scan_token q sc).1 ts) :
    Scans q sc (⟨LType.VAR, name⟩ :: ts) :=
  ⟨h1, fun _ => h2, fun _ => h3, h4⟩

theorem Scans_op {q : Bool} {sc : Scanner} {type : LType} {ts : List Tok}
    (hne : type ≠ LType.VAR) (h1 : sc.token = type)
    (h3 : (scan_token q sc).2 = none) (h4 : Scans q (scan_token q sc).1 ts) :
    Scans q sc (⟨type, ""⟩ :: ts) :=
  ⟨h1, fun h => absurd h hne, fun _ => h3, h4⟩

theorem Scans_last {q : Bool} {sc : Scanner} {type : LType}
    (hne : type ≠ LType.VAR) (h1 : sc.token = type) : Scans q sc [⟨type, ""⟩] :=
  ⟨h1, fun h => absurd h hne, fun h => absurd rfl h, trivial⟩

set_option maxRecDepth 100000 in
/-- C34, witness: the text `!a & b & c | d` is parsed to
`((!a & b) & c) | d`, and the text `a -> b -> c` is rejected with the
message `expected operator or EOF` at the second `->`. -/
theorem C34_precedence_and_associativity_witness :
    (∃ fr r, parse_text 10 "!a & b & c | d".data = some (fr, true) ∧ fr.mgr.root = some r
      ∧ Den fr.mgr.nodes r
          (Form.or (Form.and (Form.and (Form.not (Form.var "a")) (Form.var "b"))
            (Form.var "c")) (Form.var "d"))
      ∧ fr.log = [])
    ∧ (∃ fr, parse_text 10 "a -> b -> c".data = some (fr, false)
      ∧ fr.log = [⟨LType.IMPLIES, "expected operator or EOF"⟩]) := by
  constructor
  · exact C34_precedence_and_associativity.1 false 10
      (next_token { mgr := init, sc := { input := "!a & b & c | d".data } })
      (Form.or (Form.and (Form.and (Form.not (Form.var "a")) (Form.var "b"))
        (Form.var "c")) (Form.var "d")) (by decide) rfl
      (Scans_op (by decide) rfl rfl (Scans_var rfl rfl rfl (Scans_op (by decide) rfl rfl
        (Scans_var rfl rfl rfl (Scans_op (by decide) rfl rfl (Scans_var rfl rfl rfl
          (Scans_op (by decide) rfl rfl (Scans_var rfl rfl rfl
            (Scans_last (by decide) rfl)))))))))
  · exact C34_precedence_and_associativity.2 false 10
      (next_token { mgr := init, sc := { input := "a -> b -> c".data } })
      (Form.var "a") (Form.var "b") LType.IMPLIES LType.IMPLIES
      [⟨LType.VAR, "c"⟩, ⟨LType.DONE, ""⟩] (by decide) (by decide) (Or.inl rfl) (Or.inl rfl) rfl
      (Scans_var rfl rfl rfl (Scans_op (by decide) rfl rfl (Scans_var rfl rfl rfl
        (Scans_op (by decide) rfl rfl (Scans_var rfl rfl rfl
          (Scans_last (by decide) rfl))))))

/-! ## Theorems: the manager built by the parser -/

theorem Reach_append {nodes : List Node} {r i : Nat} (ext : List Node)
    (h : Reach nodes r i) : Reach (nodes ++ ext) r i := by
  have hget : ∀ (i : Nat) (n : Node), nodes[i]? = some n → (nodes ++ ext)[i]? = some n := by
    intro i n hn
    have hi : i < nodes.length := by
      by_contra hc
      rw [List.getElem?_eq_none (by omega)] at hn
      cases hn
    rw [List.getElem?_append_left hi]
    exact hn
  induction h with
  | refl r => exact Reach.refl r
  | child0 r j i n hn hc _ ih => exact Reach.child0 r j i n (hget r n hn) hc ih
  | child1 r j i n hn hc _ ih => exact Reach.child1 r j i n (hget r n hn) hc ih

theorem Reach_le {nodes : List Node} {r i : Nat} (hwf : WF nodes) (h : Reach nodes r i) :
    i ≤ r := by
  induction h with
  | refl r => exact Nat.le_refl r
  | child0 r j i n hn hc _ ih =>
    have hs := (hwf.1 r n hn).2
    have : j < r := by
      unfold NodeShape at hs
      cases ht : n.type <;> rw [ht] at hs <;> simp only at hs
      · rw [hs.1] at hc
        cases hc
      all_goals first
        | exact absurd hs id
        | (obtain ⟨j1, h0, hj, _⟩ := hs
           rw [h0] at hc
           cases hc
           exact hj)
        | (obtain ⟨j1, k1, h0, _, hj, _⟩ := hs
           rw [h0] at hc
           cases hc
           exact hj)
    omega
  | child1 r j i n hn hc _ ih =>
    have hs := (hwf.1 r n hn).2
    have : j < r := by
      unfold NodeShape at hs
      cases ht : n.type <;> rw [ht] at hs <;> simp only at hs
      · rw [hs.2] at hc
        cases hc
      all_goals first
        | exact absurd hs id
        | (obtain ⟨j1, _, _, h1⟩ := hs
           rw [h1] at hc
           cases hc)
        | (obtain ⟨j1, k1, _, h1, _, hk⟩ := hs
           rw [h1] at hc
           cases hc
           exact hk)
    omega

theorem var_cover (m : Mgr) (str : String) (i : Nat) (h1 : m.nodes.length ≤ i)
    (h2 : i < (var m str).1.nodes.length) : i = (var m str).2 := by
  unfold var at h2 ⊢
  cases hf : find_var m.nodes str with
  | some j =>
    rw [hf] at h2
    simp only at h2
    omega
  | none =>
    rw [hf] at h2
    simp only [List.length_append, List.length_singleton] at h2
    simp only
    omega

theorem op_cover (m : Mgr) (type : LType) (c0 c1 : Option Nat) (i : Nat)
    (h1 : m.nodes.length ≤ i) (h2 : i < (op m type c0 c1).1.nodes.length) :
    i = (op m type c0 c1).2 := by
  unfold op at h2 ⊢
  cases hf : find_op m.nodes type c0 c1 with
  | some j =>
    rw [hf] at h2
    simp only at h2
    omega
  | none =>
    rw [hf] at h2
    simp only [List.length_append, List.length_singleton] at h2
    simp only
    omega

theorem getElem?_lt_length {nodes : List Node} {i : Nat} {n : Node}
    (h : nodes[i]? = some n) : i < nodes.length := by
  by_contra hc
  rw [List.getElem?_eq_none (by omega)] at h
  cases h

/-- The node made by `op` for two children covers what the children cover. -/
theorem op_bin_sound {m0 m1 m2 : Mgr} {type : LType} {l r : Nat}
    (ht : type = LType.AND ∨ type = LType.OR ∨ type = LType.IMPLIES ∨ type = LType.SEILPMI
      ∨ type = LType.IFF)
    (hm : Reachable m2) (lo : Nat)
    (he1 : ∃ ext, m1.nodes = m0.nodes ++ ext) (he2 : ∃ ext, m2.nodes = m1.nodes ++ ext)
    (hl : l < m1.nodes.length) (hcl : Cover m1.nodes l lo)
    (hr : r < m2.nodes.length) (hcr : Cover m2.nodes r m1.nodes.length) :
    Reachable (op m2 type (some l) (some r)).1
    ∧ (∃ ext, (op m2 type (some l) (some r)).1.nodes = m0.nodes ++ ext)
    ∧ (op m2 type (some l) (some r)).2 < (op m2 type (some l) (some r)).1.nodes.length
    ∧ Cover (op m2 type (some l) (some r)).1.nodes (op m2 type (some l) (some r)).2 lo := by
  obtain ⟨e1, he1⟩ := he1
  obtain ⟨e2, he2⟩ := he2
  obtain ⟨⟨ext, hext⟩, ⟨nd, hnd, hty, hc0, hc1⟩, _⟩ := op_node m2 type (some l) (some r)
  have hl2 : l < m2.nodes.length := by
    rw [he2, List.length_append]
    omega
  refine ⟨Reachable.bin m2 type l r hm ht hl2 hr, ⟨e1 ++ e2 ++ ext, ?_⟩,
    getElem?_lt_length hnd, ?_⟩
  · rw [hext, he2, he1]
    simp only [List.append_assoc]
  · intro i hi1 hi2
    by_cases h1 : i < m1.nodes.length
    · refine Reach.child0 _ l i nd hnd hc0 ?_
      rw [hext, he2, List.append_assoc]
      exact Reach_append _ (hcl i hi1 h1)
    · by_cases h2 : i < m2.nodes.length
      · refine Reach.child1 _ r i nd hnd hc1 ?_
        rw [hext]
        exact Reach_append _ (hcr i (by omega) h2)
      · have := op_cover m2 type (some l) (some r) i (by omega) hi2
        rw [this]
        exact Reach.refl _

theorem Sound_basic {expr : Front → Parsed} (he : Sound expr) : Sound (parse_basic expr) := by
  intro fr fr1 res hm h
  unfold parse_basic at h
  by_cases h1 : fr.sc.token = LType.LP
  · rw [if_pos h1] at h
    cases hx : expr (next_token fr) with
    | none =>
      rw [hx] at h
      cases h
    | some x =>
      obtain ⟨f1, child⟩ := x
      rw [hx] at h
      obtain ⟨a1, a2, a3⟩ := he (next_token fr) f1 child hm hx
      by_cases h2 : f1.sc.token ≠ LType.RP
      · simp only [h2, ne_eq, not_false_eq_true, if_true] at h
        cases h
        by_cases h3 : f1.sc.token = LType.ERROR
        · simp only [h3, not_true_eq_false, if_false]
          exact ⟨a1, a2, fun r hr => by cases hr⟩
        · simp only [h3, not_false_eq_true, if_true]
          exact ⟨a1, a2, fun r hr => by cases hr⟩
      · simp only [h2, if_false] at h
        cases h
        exact ⟨a1, a2, a3⟩
  · rw [if_neg h1] at h
    by_cases h2 : fr.sc.token = LType.VAR
    · rw [if_pos h2] at h
      cases h
      obtain ⟨hext, ⟨nd, hnd, _, _⟩, _⟩ := var_node fr.mgr (String.mk fr.sc.buffer)
      refine ⟨Reachable.var fr.mgr _ hm, hext, ?_⟩
      intro r hr
      cases hr
      refine ⟨getElem?_lt_length hnd, ?_⟩
      intro i hi1 hi2
      have := var_cover fr.mgr (String.mk fr.sc.buffer) i hi1 hi2
      rw [this]
      exact Reach.refl _
    · rw [if_neg h2] at h
      by_cases h3 : fr.sc.token ≠ LType.ERROR
      · rw [if_pos h3] at h
        cases h
        exact ⟨hm, ⟨[], by simp [parse_error]⟩, fun r hr => by cases hr⟩
      · rw [if_neg h3] at h
        cases h
        exact ⟨hm, ⟨[], by simp⟩, fun r hr => by cases hr⟩

theorem Sound_not {expr : Front → Parsed} (he : Sound expr) :
    ∀ k, Sound (parse_not expr k) := by
  intro k
  induction k with
  | zero =>
    intro fr fr1 res _ h
    cases h
  | succ k ih =>
    intro fr fr1 res hm h
    rw [parse_not] at h
    by_cases h1 : fr.sc.token = LType.NOT
    · rw [if_pos h1] at h
      cases hx : parse_not expr k (next_token fr) with
      | none =>
        rw [hx] at h
        cases h
      | some x =>
        obtain ⟨f1, child⟩ := x
        rw [hx] at h
        obtain ⟨a1, a2, a3⟩ := ih (next_token fr) f1 child hm hx
        cases child with
        | none =>
          cases h
          exact ⟨a1, a2, fun r hr => by cases hr⟩
        | some c =>
          cases h
          obtain ⟨hc, hcov⟩ := a3 c rfl
          obtain ⟨⟨ext, hext⟩, ⟨nd, hnd, hty, hc0, hc1⟩, _⟩ :=
            op_node f1.mgr LType.NOT (some c) none
          obtain ⟨e1, he1⟩ := a2
          refine ⟨Reachable.not f1.mgr c a1 hc, ⟨e1 ++ ext, ?_⟩, ?_⟩
          · show (op f1.mgr LType.NOT (some c) none).1.nodes = _
            rw [hext, he1]
            exact List.append_assoc _ _ _
          · intro r hr
            cases hr
            refine ⟨getElem?_lt_length hnd, ?_⟩
            intro i hi1 hi2
            by_cases h2 : i < f1.mgr.nodes.length
            · refine Reach.child0 _ c i nd hnd hc0 ?_
              show Reach (op f1.mgr LType.NOT (some c) none).1.nodes c i
              rw [hext]
              exact Reach_append _ (hcov i hi1 h2)
            · have := op_cover f1.mgr LType.NOT (some c) none i (by omega) hi2
              rw [this]
              exact Reach.refl _
    · rw [if_neg h1] at h
      exact Sound_basic he fr fr1 res hm h

/-- The loop of `parse_associative_op`, entered with a value `res` that
covers the nodes from `lo` on. -/
theorem associative_loop_sound {type : LType} {lower : Front → Parsed}
    (ht : type = LType.AND ∨ type = LType.OR ∨ type = LType.IMPLIES ∨ type = LType.SEILPMI
      ∨ type = LType.IFF)
    (hl : Sound lower) :
    ∀ (k : Nat) (fr fr1 : Front) (res0 res : Option Nat) (m0 : Mgr),
      Reachable fr.mgr → (∃ ext, fr.mgr.nodes = m0.nodes ++ ext) →
      (∀ r0, res0 = some r0 → r0 < fr.mgr.nodes.length ∧ Cover fr.mgr.nodes r0 m0.nodes.length) →
      (res0 = none → fr.mgr.nodes = m0.nodes) →
      associative_loop type lower k fr res0 = some (fr1, res) →
      Reachable fr1.mgr ∧ (∃ ext, fr1.mgr.nodes = m0.nodes ++ ext)
      ∧ ∀ r, res = some r → r < fr1.mgr.nodes.length ∧ Cover fr1.mgr.nodes r m0.nodes.length := by
  intro k
  induction k with
  | zero =>
    intro fr fr1 res0 res m0 _ _ _ _ h
    cases h
  | succ k ih =>
    intro fr fr1 res0 res m0 hm hext hres hnone h
    rw [associative_loop] at h
    cases hx : lower fr with
    | none =>
      rw [hx] at h
      cases h
    | some x =>
      obtain ⟨f1, child⟩ := x
      rw [hx] at h
      obtain ⟨a1, a2, a3⟩ := hl fr f1 child hm hx
      obtain ⟨e0, he0⟩ := hext
      obtain ⟨e1, he1⟩ := a2
      cases child with
      | none =>
        cases h
        exact ⟨a1, ⟨e0 ++ e1, by rw [he1, he0, List.append_assoc]⟩, fun r hr => by cases hr⟩
      | some c =>
        obtain ⟨hc, hcov⟩ := a3 c rfl
        cases res0 with
        | none =>
          have hn := hnone rfl
          have hstate : Reachable f1.mgr ∧ (∃ ext, f1.mgr.nodes = m0.nodes ++ ext)
              ∧ c < f1.mgr.nodes.length ∧ Cover f1.mgr.nodes c m0.nodes.length :=
            ⟨a1, ⟨e1, by rw [he1, hn]⟩, hc, by rw [← hn]; exact hcov⟩
          simp only at h
          by_cases htok : f1.sc.token = type
          · rw [if_pos htok] at h
            exact ih (next_token f1) fr1 (some c) res m0 hstate.1 hstate.2.1
              (fun r0 hr0 => by cases hr0; exact ⟨hstate.2.2.1, hstate.2.2.2⟩)
              (fun hc => by cases hc) h
          · rw [if_neg htok] at h
            cases h
            exact ⟨hstate.1, hstate.2.1, fun r hr => by
              cases hr
              exact ⟨hstate.2.2.1, hstate.2.2.2⟩⟩
        | some r0 =>
          obtain ⟨hr0, hcov0⟩ := hres r0 rfl
          obtain ⟨b1, b2, b3, b4⟩ := @op_bin_sound m0 fr.mgr f1.mgr type r0 c ht a1
            m0.nodes.length ⟨e0, he0⟩ ⟨e1, he1⟩ hr0 hcov0 hc hcov
          simp only at h
          by_cases htok : f1.sc.token = type
          · rw [if_pos htok] at h
            exact ih (next_token { f1 with mgr := (op f1.mgr type (some r0) (some c)).1 }) fr1
              (some (op f1.mgr type (some r0) (some c)).2) res m0 b1 b2
              (fun r1 hr1 => by cases hr1; exact ⟨b3, b4⟩) (fun hc => by cases hc) h
          · rw [if_neg htok] at h
            cases h
            exact ⟨b1, b2, fun r hr => by
              cases hr
              exact ⟨b3, b4⟩⟩

theorem Sound_associative {type : LType} {lower : Front → Parsed}
    (ht : type = LType.AND ∨ type = LType.OR ∨ type = LType.IMPLIES ∨ type = LType.SEILPMI
      ∨ type = LType.IFF)
    (hl : Sound lower) (k : Nat) : Sound (parse_associative_op type lower k) := by
  intro fr fr1 res hm h
  exact associative_loop_sound ht hl k fr fr1 none res fr.mgr hm ⟨[], by simp⟩
    (fun r0 hr0 => by cases hr0) (fun _ => rfl) h

theorem Sound_implies {expr : Front → Parsed} (he : Sound expr) (k : Nat) :
    Sound (parse_implies expr k) := by
  have hor : Sound (parse_or expr k) :=
    Sound_associative (Or.inr (Or.inl rfl))
      (Sound_associative (Or.inl rfl) (Sound_not he k) k) k
  intro fr fr1 res hm h
  unfold parse_implies at h
  cases hx : parse_or expr k fr with
  | none =>
    rw [hx] at h
    cases h
  | some x =>
    obtain ⟨f1, l⟩ := x
    rw [hx] at h
    obtain ⟨a1, a2, a3⟩ := hor fr f1 l hm hx
    cases l with
    | none =>
      cases h
      exact ⟨a1, a2, fun r hr => by cases hr⟩
    | some l =>
      obtain ⟨hl, hcl⟩ := a3 l rfl
      simp only at h
      by_cases htok : f1.sc.token ≠ LType.IMPLIES ∧ f1.sc.token ≠ LType.SEILPMI
      · rw [if_pos htok] at h
        cases h
        exact ⟨a1, a2, a3⟩
      · rw [if_neg htok] at h
        have htype : f1.sc.token = LType.AND ∨ f1.sc.token = LType.OR
            ∨ f1.sc.token = LType.IMPLIES ∨ f1.sc.token = LType.SEILPMI
            ∨ f1.sc.token = LType.IFF := by
          by_cases h1 : f1.sc.token = LType.IMPLIES
          · exact Or.inr (Or.inr (Or.inl h1))
          · by_cases h2 : f1.sc.token = LType.SEILPMI
            · exact Or.inr (Or.inr (Or.inr (Or.inl h2)))
            · exact absurd ⟨h1, h2⟩ htok
        cases hy : parse_or expr k (next_token f1) with
        | none =>
          rw [hy] at h
          cases h
        | some y =>
          obtain ⟨f2, r⟩ := y
          rw [hy] at h
          obtain ⟨b1, b2, b3⟩ := hor (next_token f1) f2 r a1 hy
          cases r with
          | none =>
            cases h
            obtain ⟨e1, he1⟩ := a2
            obtain ⟨e2, he2⟩ := b2
            exact ⟨b1, ⟨e1 ++ e2, by
              rw [he2]
              show f1.mgr.nodes ++ e2 = _
              rw [he1, List.append_assoc]⟩, fun r hr => by cases hr⟩
          | some r =>
            cases h
            obtain ⟨hr, hcr⟩ := b3 r rfl
            obtain ⟨c1, c2, c3, c4⟩ := @op_bin_sound fr.mgr f1.mgr f2.mgr f1.sc.token l r htype
              b1 fr.mgr.nodes.length a2 b2 hl hcl hr hcr
            exact ⟨c1, c2, fun r1 hr1 => by
              cases hr1
              exact ⟨c3, c4⟩⟩

theorem Sound_expr : ∀ fuel, Sound (parse_expr fuel) := by
  intro fuel
  induction fuel with
  | zero =>
    intro fr fr1 res _ h
    cases h
  | succ n ih =>
    intro fr fr1 res hm h
    rw [parse_expr] at h
    exact Sound_associative (Or.inr (Or.inr (Or.inr (Or.inr rfl))))
      (Sound_implies ih (n + 1)) (n + 1) fr fr1 res hm h

/-- After a successful `parse` on a manager without nodes, the manager is
one built by `var` and `op`, and its root is the node made last. -/
theorem parse_root_last (fuel : Nat) (fr fr1 : Front) (hm : Reachable fr.mgr)
    (h0 : fr.mgr.nodes = []) (h : parse fuel fr = some (fr1, true)) :
    Reachable fr1.mgr ∧ ∃ r, fr1.mgr.root = some r ∧ r + 1 = fr1.mgr.nodes.length := by
  unfold parse at h
  by_cases he : fr.sc.token = LType.ERROR
  · rw [if_pos he] at h
    cases h
  · rw [if_neg he] at h
    cases hx : parse_expr fuel fr with
    | none =>
      rw [hx] at h
      cases h
    | some x =>
      obtain ⟨f1, root⟩ := x
      rw [hx] at h
      obtain ⟨a1, a2, a3⟩ := Sound_expr fuel fr f1 root hm hx
      cases root with
      | none =>
        simp only [if_true] at h
        cases h
      | some r =>
        obtain ⟨hr, hcov⟩ := a3 r rfl
        have hlast : r + 1 = f1.mgr.nodes.length := by
          have := hcov (f1.mgr.nodes.length - 1) (by rw [h0]; exact Nat.zero_le _) (by omega)
          have := Reach_le (Reachable_inv a1).1 this
          omega
        have hroot : Reachable { f1.mgr with root := some r } := Reachable.set_root f1.mgr r a1 hr
        simp only [reduceCtorEq, if_false] at h
        by_cases hd : f1.sc.token = LType.DONE
        · rw [if_pos hd] at h
          cases h
          exact ⟨hroot, r, rfl, hlast⟩
        · rw [if_neg hd] at h
          by_cases h3 : f1.sc.token ≠ LType.ERROR
          · rw [if_pos h3] at h
            cases h
          · rw [if_neg h3] at h
            cases h

/-! ## Theorems: the DIMACS header written by `tseitin` (claim C36) -/

theorem tseitin_assign_count (nodes : List Node) : ∀ (k : Int) (num : Nat),
    (tseitin_assign nodes k num).2.2 = num + (nodes.map (fun n => clause_count n.type)).sum := by
  induction nodes with
  | nil =>
    intro k num
    simp [tseitin_assign]
  | cons p rest ih =>
    intro k num
    rw [tseitin_assign]
    by_cases hp : p.idx = 0
    · simp only [hp, if_true]
      cases ht : p.type <;>
        simp only [ih, clause_count, ht, List.map_cons, List.sum_cons] <;> omega
    · simp only [hp, if_false]
      cases ht : p.type <;>
        simp only [ih, clause_count, ht, List.map_cons, List.sum_cons] <;> omega

theorem tseitin_assign_types (nodes : List Node) : ∀ (k : Int) (num : Nat),
    (tseitin_assign nodes k num).1.map (fun n => n.type) = nodes.map (fun n => n.type) := by
  induction nodes with
  | nil =>
    intro k num
    simp [tseitin_assign]
  | cons p rest ih =>
    intro k num
    rw [tseitin_assign]
    by_cases hp : p.idx = 0
    · simp only [hp, if_true, List.map_cons, ih]
    · simp only [hp, if_false, List.map_cons, ih]

theorem node_clauses_length (ns : List Node) (p : Node) :
    (node_clauses ns p).length = clause_count p.type := by
  unfold node_clauses clause_count
  cases ht : p.type <;> simp only [ht] <;> rfl

theorem flatMap_clauses_length (ns : List Node) : ∀ l : List Node,
    (l.flatMap (node_clauses ns)).length = (l.map (fun n => clause_count n.type)).sum := by
  intro l
  induction l with
  | nil => rfl
  | cons p rest ih =>
    rw [List.flatMap_cons, List.length_append, ih, node_clauses_length, List.map_cons,
      List.sum_cons]

/-- The header of `tseitin` counts the clauses that are emitted, for every
manager. -/
theorem tseitin_header_clauses (m : Mgr) :
    (tseitin m).header_clauses = (tseitin m).clauses.length
    ∧ (tseitin m).clauses.length
        = ((tseitin m).mgr.nodes.map (fun n => clause_count n.type)).sum + 1 := by
  have h1 : (tseitin m).header_clauses = (tseitin_assign m.nodes m.idx 0).2.2 + 1 := rfl
  have h2 : (tseitin m).clauses.length
      = ((tseitin m).mgr.nodes.map (fun n => clause_count n.type)).sum + 1 := by
    rw [tseitin_clauses_eq, tseitin_nodes_eq, List.length_append, flatMap_clauses_length]
    rfl
  refine ⟨?_, h2⟩
  rw [h1, h2, tseitin_assign_count, tseitin_nodes_eq, Nat.zero_add]
  have e : (tseitin_assign m.nodes m.idx 0).1.map (fun n => clause_count n.type)
      = m.nodes.map (fun n => clause_count n.type) := by
    have := congrArg (List.map clause_count) (tseitin_assign_types m.nodes m.idx 0)
    simpa [List.map_map] using this
  rw [e]

theorem natAbs_bounds (len j : Nat) (hj : j < len) (l : Int)
    (hl : l = (j : Int) + 1 ∨ l = -((j : Int) + 1)) : 1 ≤ l.natAbs ∧ l.natAbs ≤ len := by
  rcases hl with h | h <;> rw [h] <;> omega

theorem node_clauses_bounds {ns : List Node} (h : Numbered ns) {i : Nat} {p : Node}
    (hp : ns[i]? = some p) :
    ∀ cl ∈ node_clauses ns p, ∀ l ∈ cl, 1 ≤ l.natAbs ∧ l.natAbs ≤ ns.length := by
  obtain ⟨hidx, hshape⟩ := h.1 i p hp
  have hi : i < ns.length := getElem?_lt_length hp
  have hself : ∀ l : Int, l = p.idx ∨ l = -p.idx → 1 ≤ l.natAbs ∧ l.natAbs ≤ ns.length := by
    intro l hl
    rw [hidx] at hl
    exact natAbs_bounds ns.length i hi l hl
  have hchild : ∀ (c : Option Nat) (j : Nat), c = some j → j < i → ∀ l : Int,
      l = child_idx ns c ∨ l = -child_idx ns c → 1 ≤ l.natAbs ∧ l.natAbs ≤ ns.length := by
    intro c j hc hj l hl
    rw [hc, child_idx_numbered h (by omega)] at hl
    exact natAbs_bounds ns.length j (by omega) l hl
  intro cl hcl l hl
  unfold NodeShape at hshape
  unfold node_clauses at hcl
  cases ht : p.type <;> rw [ht] at hshape <;> simp only [ht] at hcl <;> simp only at hshape
  case NOT =>
    obtain ⟨j, h0, hj, _⟩ := hshape
    have hc := hchild _ j h0 hj
    simp only [List.mem_cons, List.mem_singleton, List.not_mem_nil, or_false] at hcl
    casesm* _ ∨ _ <;> subst_vars <;>
      simp only [List.mem_cons, List.mem_singleton, List.not_mem_nil, or_false] at hl <;>
      casesm* _ ∨ _ <;> subst_vars <;>
      first
        | exact hself _ (Or.inl rfl)
        | exact hself _ (Or.inr rfl)
        | exact hc _ (Or.inl rfl)
        | exact hc _ (Or.inr rfl)
  case VAR => cases hcl
  all_goals
    obtain ⟨j, k, h0, h1, hj, hk⟩ := hshape
    have hc0 := hchild _ j h0 hj
    have hc1 := hchild _ k h1 hk
    simp only [List.mem_cons, List.mem_singleton, List.not_mem_nil, or_false] at hcl
    casesm* _ ∨ _ <;> subst_vars <;>
      simp only [List.mem_cons, List.mem_singleton, List.not_mem_nil, or_false] at hl <;>
      casesm* _ ∨ _ <;> subst_vars <;>
      first
        | exact hself _ (Or.inl rfl)
        | exact hself _ (Or.inr rfl)
        | exact hc0 _ (Or.inl rfl)
        | exact hc0 _ (Or.inr rfl)
        | exact hc1 _ (Or.inl rfl)
        | exact hc1 _ (Or.inr rfl)

/-- The header of `tseitin` for a manager built by `var` and `op` whose
root is the node made last. -/
theorem tseitin_header_vars (m : Mgr) (hm : Reachable m) (r : Nat) (hr : m.root = some r)
    (hlast : r + 1 = m.nodes.length) :
    (tseitin m).header_vars = (tseitin m).mgr.nodes.length
    ∧ (∀ (i : Nat) (n : Node), (tseitin m).mgr.nodes[i]? = some n → n.idx = (i : Int) + 1)
    ∧ (∀ cl ∈ (tseitin m).clauses, ∀ l ∈ cl,
        1 ≤ l.natAbs ∧ l.natAbs ≤ (tseitin m).mgr.nodes.length)
    ∧ (∃ cl ∈ (tseitin m).clauses, ∃ l ∈ cl, l.natAbs = (tseitin m).mgr.nodes.length) := by
  obtain ⟨hwf, hidx, hq, _⟩ := Reachable_inv hm
  have h0 : ∀ (i : Nat) (n : Node), m.nodes[i]? = some n → n.idx = 0 :=
    fun i n hn => (hwf.1 i n hn).1
  obtain ⟨hlen, _, hv⟩ := tseitin_assign_spec m.nodes 0 0 h0
  have hnum := tseitin_assign_numbered hwf
  have hnodes : (tseitin m).mgr.nodes = (tseitin_assign m.nodes 0 0).1 := by
    rw [tseitin_nodes_eq, hidx]
  have hroot : child_idx (tseitin_assign m.nodes 0 0).1 (some r) = (r : Int) + 1 :=
    child_idx_numbered hnum (by rw [hlen]; omega)
  have hcl : (tseitin m).clauses
      = (tseitin_assign m.nodes 0 0).1.flatMap (node_clauses (tseitin_assign m.nodes 0 0).1)
        ++ [[(if m.use_depqbf ≠ 0 then 1 else if m.check_satisfiability ≠ 0 then 1 else -1)
              * ((r : Int) + 1)]] := by
    rw [tseitin_clauses_eq, hidx, hr, hroot]
  have hsign : ∀ s : Int, s = 1 ∨ s = -1 →
      (s * ((r : Int) + 1)).natAbs = r + 1 := by
    intro s hs
    rcases hs with e | e <;> rw [e] <;> omega
  have hs : (if m.use_depqbf ≠ 0 then (1 : Int) else
      if m.check_satisfiability ≠ 0 then 1 else -1) = 1
      ∨ (if m.use_depqbf ≠ 0 then (1 : Int) else
        if m.check_satisfiability ≠ 0 then 1 else -1) = -1 := by
    by_cases h1 : m.use_depqbf ≠ 0
    · rw [if_pos h1]
      exact Or.inl rfl
    · rw [if_neg h1]
      by_cases h2 : m.check_satisfiability ≠ 0
      · rw [if_pos h2]
        exact Or.inl rfl
      · rw [if_neg h2]
        exact Or.inr rfl
  refine ⟨?_, ?_, ?_, ?_⟩
  · have e : (tseitin m).header_vars = (tseitin_assign m.nodes m.idx 0).2.1 := rfl
    rw [e, hnodes, hidx, hv, hlen]
    simp
  · intro i n hn
    rw [hnodes] at hn
    exact (hnum.1 i n hn).1
  · rw [hcl, hnodes]
    intro cl hcl1 l hl
    rcases List.mem_append.mp hcl1 with h1 | h1
    · obtain ⟨p, hp, hp2⟩ := List.mem_flatMap.mp h1
      obtain ⟨i, hi⟩ := List.mem_iff_getElem?.mp hp
      exact node_clauses_bounds hnum hi cl hp2 l hl
    · have e1 := List.mem_singleton.mp h1
      rw [e1] at hl
      have e2 := List.mem_singleton.mp hl
      rw [e2, hsign _ hs, hlen]
      omega
  · rw [hcl, hnodes, hlen]
    refine ⟨_, List.mem_append_right _ (List.mem_singleton_self _), _,
      List.mem_singleton_self _, ?_⟩
    rw [hsign _ hs]
    exact hlast

theorem run_front_cnf (fuel : Nat) (o : Options) (input : List Char) (out : Outcome)
    (c : TseitinOut) (h : run_front fuel o input = some out) (hc : out.cnf = some c) :
    ∃ fr2 b fr3, prefix_phase fuel o (initial_front o input) = some (fr2, b)
      ∧ parse fuel fr2 = some (fr3, true) ∧ c = tseitin fr3.mgr := by
  unfold run_front at h
  by_cases hed : o.error = true ∨ o.done = true
  · rw [if_pos hed] at h
    cases h
    cases hc
  rw [if_neg hed] at h
  cases h2 : prefix_phase fuel o (initial_front o input) with
  | none =>
    rw [h2] at h
    cases h
  | some r2 =>
    obtain ⟨fr2, b⟩ := r2
    rw [h2] at h
    cases h3 : parse fuel fr2 with
    | none =>
      simp only [h3] at h
      cases h
    | some r3 =>
      obtain ⟨fr3, ok⟩ := r3
      simp only [h3] at h
      cases ok with
      | false =>
        simp only [Bool.false_eq_true, not_false_eq_true, if_true] at h
        cases h
        cases hc
      | true =>
        simp only [not_true_eq_false, if_false] at h
        by_cases hp : o.pretty_print = true ∨ fr3.qdump ≠ 0
        · rw [if_pos hp] at h
          cases hpp : (if o.pretty_print = true then (pp fuel fr3).map some else some none) with
          | none =>
            rw [hpp] at h
            cases h
          | some printed =>
            rw [hpp] at h
            cases h
            cases hc
        · rw [if_neg hp] at h
          cases h
          cases hc
          exact ⟨fr2, b, fr3, rfl, h3, rfl⟩

theorem initial_front_reachable (o : Options) (input : List Char)
    (hq : o.use_depqbf = false) :
    Reachable (initial_front o input).mgr ∧ (initial_front o input).mgr.nodes = [] := by
  have e : (initial_front o input).mgr
      = { init with check_satisfiability := o.check_satisfiability } := by
    show ({ init with check_satisfiability := o.check_satisfiability
                      use_depqbf := if o.use_depqbf then 1 else 0 } : Mgr) = _
    rw [hq]
    rfl
  rw [e]
  exact ⟨Reachable.set_check init _ Reachable.init, rfl⟩

/-- Claim C36: when `limboole_extended` reaches `tseitin` (to dump or to
solve), in every mode the header states as `C` the exact number of clauses
written after it, which is 4 per `IFF` node, 3 per `AND`, `OR`, `IMPLIES` and
`SEILPMI` node, 2 per `NOT` node and 1 for the root. Without DepQBF the
header states as `V` the number of nodes; the node at position `i` has the
index `i + 1`, so the indices are distinct and fill `1..V`; every literal of
a clause has its variable in `1..V`, and the variable `V` occurs in a clause,
so `V` is the largest variable index used. -/
theorem C36_dimacs_header (fuel : Nat) (o : Options) (input : List Char) (out : Outcome)
    (c : TseitinOut) (h : run_front fuel o input = some out) (hc : out.cnf = some c) :
    c.header_clauses = c.clauses.length
    ∧ c.clauses.length = (c.mgr.nodes.map (fun n => clause_count n.type)).sum + 1
    ∧ (o.use_depqbf = false →
        c.header_vars = c.mgr.nodes.length
        ∧ (∀ (i : Nat) (n : Node), c.mgr.nodes[i]? = some n → n.idx = (i : Int) + 1)
        ∧ (∀ cl ∈ c.clauses, ∀ l ∈ cl, 1 ≤ l.natAbs ∧ l.natAbs ≤ c.mgr.nodes.length)
        ∧ (∃ cl ∈ c.clauses, ∃ l ∈ cl, l.natAbs = c.mgr.nodes.length)) := by
  obtain ⟨fr2, b, fr3, h2, h3, e⟩ := run_front_cnf fuel o input out c h hc
  obtain ⟨k1, k2⟩ := tseitin_header_clauses fr3.mgr
  rw [e]
  refine ⟨k1, k2, ?_⟩
  intro hq
  unfold prefix_phase at h2
  rw [hq] at h2
  simp only [Bool.false_eq_true, if_false, Option.some.injEq, Prod.mk.injEq] at h2
  obtain ⟨h2, _⟩ := h2
  subst h2
  obtain ⟨hm, h0⟩ := initial_front_reachable o input hq
  obtain ⟨hr, r, hroot, hlast⟩ := parse_root_last fuel _ fr3 hm h0 h3
  exact tseitin_header_vars fr3.mgr hr r hroot hlast

set_option maxRecDepth 100000 in
/-- Claim C36, instance: `-d` on `a | !b` gives the header `p cnf 4 6` and
six clauses over the variables 1..4. -/
theorem C36_dimacs_header_witness :
    (limboole_extended 10 ["-d"] 0 "a | !b".data).map
        (fun o => o.cnf.map (fun c => (c.header_vars, c.header_clauses, c.clauses)))
      = some (some (4, 6, [[3, 2], [-3, -2], [4, -1], [4, -3], [-4, 1, 3], [-4]]))
    ∧ ∃ out c, run_front 10 { dump := 1 } "a | !b".data = some out ∧ out.cnf = some c
      ∧ c.header_clauses = c.clauses.length
      ∧ c.clauses.length = (c.mgr.nodes.map (fun n => clause_count n.type)).sum + 1
      ∧ c.header_vars = c.mgr.nodes.length
      ∧ (∀ (i : Nat) (n : Node), c.mgr.nodes[i]? = some n → n.idx = (i : Int) + 1)
      ∧ (∀ cl ∈ c.clauses, ∀ l ∈ cl, 1 ≤ l.natAbs ∧ l.natAbs ≤ c.mgr.nodes.length)
      ∧ (∃ cl ∈ c.clauses, ∃ l ∈ cl, l.natAbs = c.mgr.nodes.length) := by
  have hs : (run_front 10 { dump := 1 } "a | !b".data).isSome = true := by rfl
  have hc : (((run_front 10 { dump := 1 } "a | !b".data).get hs).cnf).isSome = true := by rfl
  have h1 := (Option.some_get hs).symm
  have h2 := (Option.some_get hc).symm
  have k := C36_dimacs_header 10 { dump := 1 } "a | !b".data _ _ h1 h2
  exact ⟨by rfl, _, _, h1, h2, k.1, k.2.1, k.2.2 rfl⟩

set_option maxRecDepth 100000 in
/-- Claim C36, counterexample: with `-d --depqbf` the header is `p cnf 2 1`
on `?a ?b a`, where the only clause is `1 0` (`V` is 2 while the largest
variable index used in a clause is 1), and on `?a ?a a`, where the only
clause is `2 0` and there is one node (no node has the index 1). -/
theorem C36_unused_prefix_variable :
    (limboole_extended 10 ["-d", "--depqbf"] 0 "?a ?b a".data).map
        (fun o => (o.result, o.cnf.map (fun c =>
          (c.header_vars, c.header_clauses, c.clauses, c.mgr.nodes.length)), o.solved))
      = some (0, some (2, 1, [[1]], 2), false)
    ∧ (limboole_extended 10 ["-d", "--depqbf"] 0 "?a ?a a".data).map
        (fun o => (o.result, o.cnf.map (fun c =>
          (c.header_vars, c.header_clauses, c.clauses, c.mgr.nodes.map (fun n => n.idx))),
          o.solved))
      = some (0, some (2, 1, [[2]], [2]), false) := by
  exact ⟨by rfl, by rfl⟩

namespace Hashed

/-! ## Theorems: the hash table of `limboole.c` (claim C35) -/

theorem size_mask_eq {s : Nat} (h0 : 0 < s) (h1 : s < UINT_MOD) : size_mask s = s - 1 := by
  unfold size_mask UINT_MOD at *
  omega

theorem and_mask_lt (x : Nat) {s : Nat} (h0 : 0 < s) (h1 : s < UINT_MOD) :
    x &&& size_mask s < s := by
  rw [size_mask_eq h0 h1]
  have h := @Nat.and_le_right x (s - 1)
  omega

theorem node_hash_lt (addr : Nat → Nat) {s : Nat} (h0 : 0 < s) (h1 : s < UINT_MOD) (n : Node) :
    node_hash addr s n < s := by
  unfold node_hash hash_var hash_op
  by_cases ht : n.type = LType.VAR
  · rw [if_pos ht]
    exact and_mask_lt _ h0 h1
  · rw [if_neg ht]
    exact and_mask_lt _ h0 h1

theorem eq_var_iff (n : Node) (str : String) :
    eq_var n str = true ↔ n.type = LType.VAR ∧ n.as_name = str := by
  unfold eq_var
  simp only [Bool.and_eq_true, beq_iff_eq]

theorem eq_op_iff (n : Node) (type : LType) (c0 c1 : Option Nat) :
    eq_op n type c0 c1 = true ↔ n.type = type ∧ n.as_child0 = c0 ∧ n.as_child1 = c1 := by
  unfold eq_op
  simp only [Bool.and_eq_true, beq_iff_eq, and_assoc]

theorem eq_hash (addr : Nat → Nat) (s : Nat) (n : Node) (type : LType) (str : String)
    (c0 c1 : Option Nat) (h : eq n type str c0 c1 = true) :
    node_hash addr s n = hash addr s type str c0 c1 := by
  unfold eq at h
  unfold node_hash hash
  by_cases ht : type = LType.VAR
  · rw [if_pos ht] at h
    rw [if_pos ht]
    obtain ⟨h1, h2⟩ := (eq_var_iff n str).mp h
    rw [if_pos h1, h2]
  · rw [if_neg ht] at h
    rw [if_neg ht]
    obtain ⟨h1, h2, h3⟩ := (eq_op_iff n type c0 c1).mp h
    rw [if_neg (by rw [h1]; exact ht), h1, h2, h3]

theorem node_eq_of_eq {n m : Node} {type : LType} {str : String} {c0 c1 : Option Nat}
    (hn : eq n type str c0 c1 = true) (hm : eq m type str c0 c1 = true) :
    node_eq n m = true := by
  unfold node_eq
  unfold eq at hn hm ⊢
  by_cases ht : type = LType.VAR
  · rw [if_pos ht] at hn hm
    obtain ⟨h1, h2⟩ := (eq_var_iff m str).mp hm
    rw [if_pos h1, h2]
    exact hn
  · rw [if_neg ht] at hn hm
    obtain ⟨h1, h2, h3⟩ := (eq_op_iff m type c0 c1).mp hm
    rw [if_neg (by rw [h1]; exact ht), h1, h2, h3]
    exact hn

theorem node_eq_self (n : Node) : node_eq n n = true := by
  unfold node_eq eq
  by_cases ht : n.type = LType.VAR
  · rw [if_pos ht]
    exact (eq_var_iff n n.as_name).mpr ⟨ht, rfl⟩
  · rw [if_neg ht]
    exact (eq_op_iff n n.type n.as_child0 n.as_child1).mpr ⟨rfl, rfl, rfl⟩

/-- The search along one chain of allocated nodes: it stops at the first
node accepted by `eq`, or reaches the end when the chain has none. -/
theorem find_chain_spec (inserted : List Node) (type : LType) (str : String)
    (c0 c1 : Option Nat) :
    ∀ chain : List Nat, (∀ p ∈ chain, ∃ n, inserted[p]? = some n) →
      (∃ p n, find_chain inserted type str c0 c1 chain = some (some p) ∧ p ∈ chain
          ∧ inserted[p]? = some n ∧ eq n type str c0 c1 = true)
      ∨ (find_chain inserted type str c0 c1 chain = some none
          ∧ ∀ p ∈ chain, ∀ n, inserted[p]? = some n → eq n type str c0 c1 = false) := by
  intro chain
  induction chain with
  | nil =>
    intro _
    exact Or.inr ⟨rfl, fun p hp => absurd hp (List.not_mem_nil p)⟩
  | cons p rest ih =>
    intro hv
    obtain ⟨n, hn⟩ := hv p (List.mem_cons_self p rest)
    have hstep : find_chain inserted type str c0 c1 (p :: rest)
        = if eq n type str c0 c1 then some (some p)
          else find_chain inserted type str c0 c1 rest := by
      simp only [find_chain, hn]
    by_cases he : eq n type str c0 c1 = true
    · rw [if_pos he] at hstep
      exact Or.inl ⟨p, n, hstep, List.mem_cons_self p rest, hn, he⟩
    · rw [if_neg he] at hstep
      rcases ih (fun q hq => hv q (List.mem_cons_of_mem p hq)) with h1 | h1
      · obtain ⟨q, m, h2, h3, h4, h5⟩ := h1
        exact Or.inl ⟨q, m, hstep.trans h2, List.mem_cons_of_mem p h3, h4, h5⟩
      · obtain ⟨h2, h3⟩ := h1
        refine Or.inr ⟨hstep.trans h2, ?_⟩
        intro q hq m hm
        rcases List.mem_cons.mp hq with e | e
        · subst e
          rw [hn] at hm
          cases hm
          exact Bool.eq_false_iff.mpr he
        · exact h3 q e m hm

/-- Every allocated node is in the chain of its hash. -/
theorem Inv.mem_chain {addr : Nat → Nat} {mgr : Mgr} (hI : Inv addr mgr) {p : Nat} {n : Node}
    (hp : mgr.inserted[p]? = some n) :
    ∃ chain, mgr.nodes[node_hash addr mgr.nodes_size n]? = some chain ∧ p ∈ chain := by
  have hlt : p < mgr.inserted.length := getElem?_lt_length hp
  have hmem : p ∈ mgr.nodes.flatten := (hI.once.mem_iff).mpr (List.mem_range.mpr hlt)
  obtain ⟨chain, hc, hpc⟩ := List.mem_flatten.mp hmem
  obtain ⟨h, hh⟩ := List.mem_iff_getElem?.mp hc
  obtain ⟨n1, hn1, hh1⟩ := hI.bucket h chain hh p hpc
  rw [hp] at hn1
  cases hn1
  rw [hh1]
  exact ⟨chain, hh, hpc⟩

/-- In a consistent table `find` searches the chain of the hash and returns
the one allocated node that `eq` accepts, or the end of the chain when no
allocated node is accepted. -/
theorem find_spec {addr : Nat → Nat} {mgr : Mgr} (hI : Inv addr mgr) (type : LType)
    (str : String) (c0 c1 : Option Nat) :
    (∃ p n, find addr mgr type str c0 c1
          = some (hash addr mgr.nodes_size type str c0 c1, some p)
        ∧ mgr.inserted[p]? = some n ∧ eq n type str c0 c1 = true)
    ∨ (find addr mgr type str c0 c1 = some (hash addr mgr.nodes_size type str c0 c1, none)
        ∧ (∃ chain, mgr.nodes[hash addr mgr.nodes_size type str c0 c1]? = some chain)
        ∧ ∀ (p : Nat) (n : Node), mgr.inserted[p]? = some n → eq n type str c0 c1 = false) := by
  have hlt : hash addr mgr.nodes_size type str c0 c1 < mgr.nodes.length := by
    rw [hI.length_nodes]
    unfold hash hash_var hash_op
    by_cases ht : type = LType.VAR
    · rw [if_pos ht]
      exact and_mask_lt _ hI.size_pos hI.size_lt
    · rw [if_neg ht]
      exact and_mask_lt _ hI.size_pos hI.size_lt
  have hch : mgr.nodes[hash addr mgr.nodes_size type str c0 c1]?
      = some (mgr.nodes[hash addr mgr.nodes_size type str c0 c1]) :=
    List.getElem?_eq_getElem hlt
  have hf : find addr mgr type str c0 c1
      = (find_chain mgr.inserted type str c0 c1
          (mgr.nodes[hash addr mgr.nodes_size type str c0 c1])).map
          (fun r => (hash addr mgr.nodes_size type str c0 c1, r)) := by
    unfold find
    simp only [hch]
  have hval : ∀ p ∈ mgr.nodes[hash addr mgr.nodes_size type str c0 c1],
      ∃ n, mgr.inserted[p]? = some n := by
    intro p hp
    obtain ⟨n, hn, _⟩ := hI.bucket _ _ hch p hp
    exact ⟨n, hn⟩
  rcases find_chain_spec mgr.inserted type str c0 c1 _ hval with h1 | h1
  · obtain ⟨p, n, h2, _, h4, h5⟩ := h1
    refine Or.inl ⟨p, n, ?_, h4, h5⟩
    rw [hf, h2]
    rfl
  · obtain ⟨h2, h3⟩ := h1
    refine Or.inr ⟨?_, ⟨_, hch⟩, ?_⟩
    · rw [hf, h2]
      rfl
    · intro p n hp
      cases he : eq n type str c0 c1 with
      | false => rfl
      | true =>
        obtain ⟨chain, hc, hpc⟩ := hI.mem_chain hp
        rw [eq_hash addr mgr.nodes_size n type str c0 c1 he, hch] at hc
        cases hc
        rw [h3 p hpc n hp] at he
        cases he

theorem getElem?_lt_length_any {α : Type} {l : List α} {i : Nat} {x : α}
    (h : l[i]? = some x) : i < l.length := by
  by_contra hc
  rw [List.getElem?_eq_none (by omega)] at h
  cases h

theorem perm_flatten_set_append {α : Type} :
    ∀ (L : List (List α)) (h : Nat) (chain extra : List α), L[h]? = some chain →
      List.Perm (L.set h (chain ++ extra)).flatten (L.flatten ++ extra) := by
  intro L
  induction L with
  | nil =>
    intro h chain extra hc
    cases hc
  | cons l L ih =>
    intro h chain extra hc
    cases h with
    | zero =>
      have e : l = chain := by
        have h1 : (l :: L)[0]? = some l := List.getElem?_cons_zero
        rw [h1] at hc
        exact Option.some.inj hc
      subst e
      show List.Perm ((l ++ extra) ++ L.flatten) ((l ++ L.flatten) ++ extra)
      rw [List.append_assoc, List.append_assoc]
      exact List.Perm.append_left l List.perm_append_comm
    | succ h =>
      have hc1 : L[h]? = some chain := by
        rw [List.getElem?_cons_succ] at hc
        exact hc
      show List.Perm (l ++ (L.set h (chain ++ extra)).flatten) ((l ++ L.flatten) ++ extra)
      rw [List.append_assoc]
      exact List.Perm.append_left l (ih h chain extra hc1)

theorem perm_flatten_set_cons {α : Type} :
    ∀ (L : List (List α)) (h : Nat) (chain : List α) (p : α), L[h]? = some chain →
      List.Perm (L.set h (p :: chain)).flatten (p :: L.flatten) := by
  intro L
  induction L with
  | nil =>
    intro h chain p hc
    cases hc
  | cons l L ih =>
    intro h chain p hc
    cases h with
    | zero =>
      have e : l = chain := by
        have h1 : (l :: L)[0]? = some l := List.getElem?_cons_zero
        rw [h1] at hc
        exact Option.some.inj hc
      subst e
      exact List.Perm.refl _
    | succ h =>
      have hc1 : L[h]? = some chain := by
        rw [List.getElem?_cons_succ] at hc
        exact hc
      show List.Perm (l ++ (L.set h (p :: chain)).flatten) (p :: (l ++ L.flatten))
      exact (List.Perm.append_left l (ih h chain p hc1)).trans List.perm_middle

theorem getElem?_set_cases {α : Type} (L : List α) (h k : Nat) (x y : α)
    (hk : (L.set h x)[k]? = some y) : (k = h ∧ y = x) ∨ (k ≠ h ∧ L[k]? = some y) := by
  by_cases e : h = k
  · subst e
    have hlt : h < (L.set h x).length := getElem?_lt_length_any hk
    rw [List.length_set] at hlt
    rw [List.getElem?_set_self hlt] at hk
    exact Or.inl ⟨rfl, (Option.some.inj hk).symm⟩
  · rw [List.getElem?_set_ne e] at hk
    exact Or.inr ⟨fun e1 => e e1.symm, hk⟩

theorem getElem?_snoc_cases {α : Type} (l : List α) (x y : α) (i : Nat)
    (h : (l ++ [x])[i]? = some y) : (l[i]? = some y) ∨ (i = l.length ∧ y = x) := by
  rcases Nat.lt_or_ge i l.length with h1 | h1
  · rw [List.getElem?_append_left h1] at h
    exact Or.inl h
  · have h2 : i < (l ++ [x]).length := getElem?_lt_length_any h
    rw [List.length_append, List.length_singleton] at h2
    have h3 : i = l.length := by omega
    subst h3
    rw [List.getElem?_append_right (Nat.le_refl _), Nat.sub_self] at h
    exact Or.inr ⟨rfl, (Option.some.inj h).symm⟩

theorem getElem?_snoc_old {α : Type} (l : List α) (x y : α) (i : Nat)
    (h : l[i]? = some y) : (l ++ [x])[i]? = some y := by
  rw [List.getElem?_append_left (getElem?_lt_length_any h)]
  exact h

theorem getElem?_snoc_new {α : Type} (l : List α) (x : α) :
    (l ++ [x])[l.length]? = some x := by
  rw [List.getElem?_append_right (Nat.le_refl _), Nat.sub_self]
  rfl

/-- The assignment `*p = n` at the end of the searched chain and `insert`
keep the table consistent, when no allocated node is accepted by `eq` for
the key and the fresh node is the node of the key. -/
theorem insert_inv {addr : Nat → Nat} {mgr : Mgr} (hI : Inv addr mgr)
    (hc : mgr.nodes_count < mgr.nodes_size) (type : LType) (str : String)
    (c0 c1 : Option Nat) (fresh : Node) (chain : List Nat)
    (hch : mgr.nodes[hash addr mgr.nodes_size type str c0 c1]? = some chain)
    (hnone : ∀ (p : Nat) (n : Node), mgr.inserted[p]? = some n → eq n type str c0 c1 = false)
    (ha : eq fresh type str c0 c1 = true)
    (hb : ∀ n : Node, node_eq n fresh = true → eq n type str c0 c1 = true)
    (hcc : ∀ n : Node, node_eq fresh n = true → eq n type str c0 c1 = true) :
    Inv addr (insert { mgr with nodes := mgr.nodes.set (hash addr mgr.nodes_size type str c0 c1)
                                  (chain ++ [mgr.inserted.length]) } fresh) := by
  have hsl := hI.size_lt
  have hce := hI.count_eq
  have hmod : (mgr.nodes_count + 1) % UINT_MOD = mgr.nodes_count + 1 :=
    Nat.mod_eq_of_lt (by omega)
  constructor
  · exact hI.size_pos
  · exact hI.size_lt
  · show (mgr.nodes.set _ _).length = mgr.nodes_size
    rw [List.length_set]
    exact hI.length_nodes
  · show (mgr.nodes_count + 1) % UINT_MOD = (mgr.inserted ++ [fresh]).length
    rw [hmod, List.length_append, List.length_singleton, hce]
  · show (mgr.nodes_count + 1) % UINT_MOD ≤ mgr.nodes_size
    rw [hmod]
    omega
  · intro k ch hk p hp
    show ∃ n, (mgr.inserted ++ [fresh])[p]? = some n ∧ node_hash addr mgr.nodes_size n = k
    have hk1 : (mgr.nodes.set (hash addr mgr.nodes_size type str c0 c1)
        (chain ++ [mgr.inserted.length]))[k]? = some ch := hk
    rcases getElem?_set_cases _ _ _ _ _ hk1 with ⟨e1, e2⟩ | ⟨_, e2⟩
    · subst e2
      rcases List.mem_append.mp hp with h1 | h1
      · obtain ⟨n, hn, hh⟩ := hI.bucket _ _ hch p h1
        exact ⟨n, getElem?_snoc_old _ _ _ _ hn, hh.trans e1.symm⟩
      · have e3 := List.mem_singleton.mp h1
        subst e3
        refine ⟨fresh, getElem?_snoc_new _ _, ?_⟩
        rw [eq_hash addr mgr.nodes_size fresh type str c0 c1 ha]
        exact e1.symm
    · obtain ⟨n, hn, hh⟩ := hI.bucket _ _ e2 p hp
      exact ⟨n, getElem?_snoc_old _ _ _ _ hn, hh⟩
  · show List.Perm (mgr.nodes.set _ _).flatten (List.range (mgr.inserted ++ [fresh]).length)
    rw [List.length_append, List.length_singleton, List.range_succ]
    exact (perm_flatten_set_append _ _ _ _ hch).trans (hI.once.append_right _)
  · intro i j n m hi hj he
    have hi1 : (mgr.inserted ++ [fresh])[i]? = some n := hi
    have hj1 : (mgr.inserted ++ [fresh])[j]? = some m := hj
    rcases getElem?_snoc_cases _ _ _ _ hi1 with h1 | ⟨h1, h2⟩
    · rcases getElem?_snoc_cases _ _ _ _ hj1 with h3 | ⟨h3, h4⟩
      · exact hI.unique i j n m h1 h3 he
      · subst h4
        have h5 := hnone i n h1
        rw [hb n he] at h5
        cases h5
    · rcases getElem?_snoc_cases _ _ _ _ hj1 with h3 | ⟨h3, h4⟩
      · subst h2
        have h5 := hnone j m h3
        rw [hcc m he] at h5
        cases h5
      · rw [h1, h3]

theorem flatten_replicate_nil {α : Type} : ∀ k : Nat,
    (List.replicate k ([] : List α)).flatten = [] := by
  intro k
  induction k with
  | zero => rfl
  | succ k ih =>
    show ([] : List α) ++ (List.replicate k ([] : List α)).flatten = []
    rw [ih]
    rfl

/-- The inner loop of `enlarge_nodes`: every node of the old chain is put
into the chain of its hash in the new array. -/
theorem rehash_chain_spec (addr : Nat → Nat) (inserted : List Node) {s : Nat} (h0 : 0 < s)
    (h1 : s < UINT_MOD) :
    ∀ (chain : List Nat) (tab : List (List Nat)), tab.length = s →
      (∀ p ∈ chain, ∃ n, inserted[p]? = some n) →
      (∀ (h : Nat) (c : List Nat), tab[h]? = some c →
        ∀ p ∈ c, ∃ n, inserted[p]? = some n ∧ node_hash addr s n = h) →
      ∃ tab1, rehash_chain addr inserted s chain tab = some tab1 ∧ tab1.length = s
        ∧ (∀ (h : Nat) (c : List Nat), tab1[h]? = some c →
            ∀ p ∈ c, ∃ n, inserted[p]? = some n ∧ node_hash addr s n = h)
        ∧ List.Perm tab1.flatten (chain ++ tab.flatten) := by
  intro chain
  induction chain with
  | nil =>
    intro tab hl _ hb
    exact ⟨tab, rfl, hl, hb, List.Perm.refl _⟩
  | cons p rest ih =>
    intro tab hl hv hb
    obtain ⟨n, hn⟩ := hv p (List.mem_cons_self p rest)
    have hlt : node_hash addr s n < tab.length := by
      rw [hl]
      exact node_hash_lt addr h0 h1 n
    have hc : tab[node_hash addr s n]? = some (tab[node_hash addr s n]) :=
      List.getElem?_eq_getElem hlt
    have hstep : rehash_chain addr inserted s (p :: rest) tab
        = rehash_chain addr inserted s rest
            (tab.set (node_hash addr s n) (p :: tab[node_hash addr s n])) := by
      simp only [rehash_chain, hn, hc]
    have hb1 : ∀ (h : Nat) (c : List Nat),
        (tab.set (node_hash addr s n) (p :: tab[node_hash addr s n]))[h]? = some c →
        ∀ q ∈ c, ∃ m, inserted[q]? = some m ∧ node_hash addr s m = h := by
      intro h c hh q hq
      rcases getElem?_set_cases _ _ _ _ _ hh with ⟨e1, e2⟩ | ⟨_, e2⟩
      · subst e2
        rcases List.mem_cons.mp hq with e3 | e3
        · subst e3
          exact ⟨n, hn, e1.symm⟩
        · obtain ⟨m, hm, hh1⟩ := hb _ _ hc q e3
          exact ⟨m, hm, hh1.trans e1.symm⟩
      · exact hb h c e2 q hq
    obtain ⟨tab1, h2, h3, h4, h5⟩ := ih _ (by rw [List.length_set]; exact hl)
      (fun q hq => hv q (List.mem_cons_of_mem p hq)) hb1
    refine ⟨tab1, hstep.trans h2, h3, h4, ?_⟩
    exact h5.trans ((List.Perm.append_left rest
      (perm_flatten_set_cons tab _ _ p hc)).trans List.perm_middle)

/-- The outer loop of `enlarge_nodes`. -/
theorem rehash_all_spec (addr : Nat → Nat) (inserted : List Node) {s : Nat} (h0 : 0 < s)
    (h1 : s < UINT_MOD) :
    ∀ (chains : List (List Nat)) (tab : List (List Nat)), tab.length = s →
      (∀ chain ∈ chains, ∀ p ∈ chain, ∃ n, inserted[p]? = some n) →
      (∀ (h : Nat) (c : List Nat), tab[h]? = some c →
        ∀ p ∈ c, ∃ n, inserted[p]? = some n ∧ node_hash addr s n = h) →
      ∃ tab1, rehash_all addr inserted s chains tab = some tab1 ∧ tab1.length = s
        ∧ (∀ (h : Nat) (c : List Nat), tab1[h]? = some c →
            ∀ p ∈ c, ∃ n, inserted[p]? = some n ∧ node_hash addr s n = h)
        ∧ List.Perm tab1.flatten (chains.flatten ++ tab.flatten) := by
  intro chains
  induction chains with
  | nil =>
    intro tab hl _ hb
    exact ⟨tab, rfl, hl, hb, List.Perm.refl _⟩
  | cons chain rest ih =>
    intro tab hl hv hb
    obtain ⟨tab1, k1, k2, k3, k4⟩ := rehash_chain_spec addr inserted h0 h1 chain tab hl
      (hv chain (List.mem_cons_self chain rest)) hb
    have hstep : rehash_all addr inserted s (chain :: rest) tab
        = rehash_all addr inserted s rest tab1 := by
      simp only [rehash_all, k1]
    obtain ⟨tab2, h2, h3, h4, h5⟩ := ih tab1 k2
      (fun c hc => hv c (List.mem_cons_of_mem chain hc)) k3
    refine ⟨tab2, hstep.trans h2, h3, h4, ?_⟩
    have e1 : List.Perm (rest.flatten ++ tab1.flatten) (rest.flatten ++ (chain ++ tab.flatten)) :=
      List.Perm.append_left _ k4
    have e2 : List.Perm (rest.flatten ++ (chain ++ tab.flatten))
        ((chain ++ rest.flatten) ++ tab.flatten) := by
      rw [← List.append_assoc]
      exact List.Perm.append_right _ List.perm_append_comm
    exact h5.trans (e1.trans e2)

/-- The function `enlarge_nodes` doubles the table and keeps the allocated
nodes; the doubled table is consistent, so every node is in the chain of its
hash under the new size. -/
theorem enlarge_nodes_spec {addr : Nat → Nat} {mgr : Mgr} (hI : Inv addr mgr)
    (hs : 2 * mgr.nodes_size < UINT_MOD) :
    ∃ m1, enlarge_nodes addr mgr = some m1 ∧ m1.inserted = mgr.inserted
      ∧ m1.nodes_size = 2 * mgr.nodes_size ∧ m1.nodes_count = mgr.nodes_count
      ∧ Inv addr m1 := by
  have hp := hI.size_pos
  have hsz : (mgr.nodes_size * 2) % UINT_MOD = 2 * mgr.nodes_size := by
    rw [Nat.mod_eq_of_lt (by omega)]
    omega
  have htake : mgr.nodes.take mgr.nodes_size = mgr.nodes :=
    List.take_of_length_le (by rw [hI.length_nodes])
  obtain ⟨tab, h2, h3, h4, h5⟩ := rehash_all_spec addr mgr.inserted
    (by omega : 0 < 2 * mgr.nodes_size) hs mgr.nodes
    (List.replicate (2 * mgr.nodes_size) []) (List.length_replicate _ _)
    (fun chain hc p hp => by
      obtain ⟨h, hh⟩ := List.mem_iff_getElem?.mp hc
      obtain ⟨n, hn, _⟩ := hI.bucket h chain hh p hp
      exact ⟨n, hn⟩)
    (fun h c hc p hp => by
      have e := List.eq_of_mem_replicate (List.mem_iff_getElem?.mpr ⟨h, hc⟩)
      rw [e] at hp
      cases hp)
  have hres : enlarge_nodes addr mgr
      = some { mgr with nodes_size := 2 * mgr.nodes_size, nodes := tab } := by
    unfold enlarge_nodes
    simp only [hsz, htake, h2]
  refine ⟨_, hres, rfl, rfl, rfl, ?_⟩
  constructor
  · show 0 < 2 * mgr.nodes_size
    omega
  · exact hs
  · exact h3
  · exact hI.count_eq
  · show mgr.nodes_count ≤ 2 * mgr.nodes_size
    have := hI.count_le
    omega
  · exact h4
  · show List.Perm tab.flatten (List.range mgr.inserted.length)
    rw [flatten_replicate_nil, List.append_nil] at h5
    exact h5.trans hI.once
  · exact hI.unique

/-- The common part of `var` and `op`: the call returns; it returns the
allocated node accepted by `eq` if there is one and then leaves the nodes and
`nodes_count` alone, and otherwise allocates the node `fresh` and increments
`nodes_count`; the table stays consistent. -/
theorem find_or_insert_spec {addr : Nat → Nat} {mgr : Mgr} (hI : Inv addr mgr)
    (hbnd : 2 * mgr.inserted.length < UINT_MOD) (type : LType) (str : String)
    (c0 c1 : Option Nat) (fresh : Node)
    (ha : eq fresh type str c0 c1 = true)
    (hb : ∀ n : Node, node_eq n fresh = true → eq n type str c0 c1 = true)
    (hcc : ∀ n : Node, node_eq fresh n = true → eq n type str c0 c1 = true) :
    ∃ m1 p, find_or_insert addr mgr type str c0 c1 fresh = some (m1, p) ∧ Inv addr m1
      ∧ (((∃ n, mgr.inserted[p]? = some n ∧ eq n type str c0 c1 = true)
            ∧ m1.inserted = mgr.inserted ∧ m1.nodes_count = mgr.nodes_count)
        ∨ ((∀ (q : Nat) (n : Node), mgr.inserted[q]? = some n → eq n type str c0 c1 = false)
            ∧ p = mgr.inserted.length ∧ m1.inserted = mgr.inserted ++ [fresh]
            ∧ m1.nodes_count = mgr.nodes_count + 1)) := by
  have hstep1 : ∃ mgr1, (if mgr.nodes_size ≤ mgr.nodes_count then enlarge_nodes addr mgr
        else some mgr) = some mgr1 ∧ Inv addr mgr1 ∧ mgr1.inserted = mgr.inserted
      ∧ mgr1.nodes_count = mgr.nodes_count ∧ mgr1.nodes_count < mgr1.nodes_size := by
    by_cases hfull : mgr.nodes_size ≤ mgr.nodes_count
    · rw [if_pos hfull]
      have h1 := hI.count_le
      have h2 := hI.count_eq
      have h3 := hI.size_pos
      obtain ⟨m1, k1, k2, k3, k4, k5⟩ := enlarge_nodes_spec hI (by omega)
      exact ⟨m1, k1, k5, k2, k4, by rw [k3, k4]; omega⟩
    · rw [if_neg hfull]
      exact ⟨mgr, rfl, hI, rfl, rfl, by omega⟩
  obtain ⟨mgr1, g1, g2, g3, g4, g5⟩ := hstep1
  rcases find_spec g2 type str c0 c1 with hf | hf
  · obtain ⟨p, n, f1, f2, f3⟩ := hf
    refine ⟨mgr1, p, ?_, g2, Or.inl ⟨⟨n, by rw [← g3]; exact f2, f3⟩, g3, g4⟩⟩
    unfold find_or_insert
    rw [g1]
    simp only [f1]
  · obtain ⟨f1, ⟨chain, f2⟩, f3⟩ := hf
    refine ⟨_, mgr1.inserted.length, ?_,
      insert_inv g2 g5 type str c0 c1 fresh chain f2 f3 ha hb hcc,
      Or.inr ⟨by rw [← g3]; exact f3, by rw [g3], ?_, ?_⟩⟩
    · unfold find_or_insert
      rw [g1]
      simp only [f1, f2]
    · show mgr1.inserted ++ [fresh] = mgr.inserted ++ [fresh]
      rw [g3]
    · show (mgr1.nodes_count + 1) % UINT_MOD = mgr.nodes_count + 1
      have h1 := g2.size_lt
      rw [Nat.mod_eq_of_lt (by omega), g4]

theorem request_key (r : Request) (hr : r.proper) :
    ∃ (type : LType) (str : String) (c0 c1 : Option Nat),
      (∀ (addr : Nat → Nat) (mgr : Mgr),
        request addr mgr r = find_or_insert addr mgr type str c0 c1 r.node)
      ∧ (∀ n : Node, r.accepts n = eq n type str c0 c1)
      ∧ eq r.node type str c0 c1 = true
      ∧ (∀ n : Node, node_eq n r.node = true → eq n type str c0 c1 = true)
      ∧ (∀ n : Node, node_eq r.node n = true → eq n type str c0 c1 = true) := by
  cases r with
  | var str =>
    refine ⟨LType.VAR, str, none, none, fun _ _ => rfl, fun _ => rfl, ?_, fun n h => h, ?_⟩
    · unfold eq
      rw [if_pos rfl]
      exact (eq_var_iff _ _).mpr ⟨rfl, rfl⟩
    · intro n h
      unfold node_eq eq at h
      unfold eq
      rw [if_pos rfl]
      by_cases ht : n.type = LType.VAR
      · rw [if_pos ht] at h
        obtain ⟨_, h2⟩ := (eq_var_iff _ _).mp h
        exact (eq_var_iff _ _).mpr ⟨ht, h2.symm⟩
      · rw [if_neg ht] at h
        obtain ⟨h1, _⟩ := (eq_op_iff _ _ _ _).mp h
        exact absurd h1.symm ht
  | op type c0 c1 =>
    have ht : type ≠ LType.VAR := hr
    refine ⟨type, "", c0, c1, fun _ _ => rfl, fun _ => rfl, ?_, fun n h => h, ?_⟩
    · unfold eq
      rw [if_neg ht]
      exact (eq_op_iff _ _ _ _).mpr ⟨rfl, rfl, rfl⟩
    · intro n h
      unfold node_eq eq at h
      unfold eq
      rw [if_neg ht]
      by_cases hn : n.type = LType.VAR
      · rw [if_pos hn] at h
        obtain ⟨h1, _⟩ := (eq_var_iff _ _).mp h
        exact absurd h1 ht
      · rw [if_neg hn] at h
        obtain ⟨h1, h2, h3⟩ := (eq_op_iff _ _ _ _).mp h
        exact (eq_op_iff _ _ _ _).mpr ⟨h1.symm, h2.symm, h3.symm⟩

/-- A proper request on a consistent table returns: the allocated node that
answers the request, with the nodes and `nodes_count` unchanged, or, when no
allocated node answers it, a new node at the end of the chronological list,
with `nodes_count` incremented. -/
theorem request_spec {addr : Nat → Nat} {mgr : Mgr} (hI : Inv addr mgr)
    (hbnd : 2 * mgr.inserted.length < UINT_MOD) (r : Request) (hr : r.proper) :
    ∃ m1 p, request addr mgr r = some (m1, p) ∧ Inv addr m1
      ∧ (((∃ n, mgr.inserted[p]? = some n ∧ r.accepts n = true)
            ∧ m1.inserted = mgr.inserted ∧ m1.nodes_count = mgr.nodes_count)
        ∨ ((∀ (q : Nat) (n : Node), mgr.inserted[q]? = some n → r.accepts n = false)
            ∧ p = mgr.inserted.length ∧ m1.inserted = mgr.inserted ++ [r.node]
            ∧ m1.nodes_count = mgr.nodes_count + 1)) := by
  obtain ⟨type, str, c0, c1, k1, k2, k3, k4, k5⟩ := request_key r hr
  obtain ⟨m1, p, h1, h2, h3⟩ := find_or_insert_spec hI hbnd type str c0 c1 r.node k3 k4 k5
  refine ⟨m1, p, (k1 addr mgr).trans h1, h2, ?_⟩
  rcases h3 with ⟨⟨n, e1, e2⟩, e3, e4⟩ | ⟨e1, e2, e3, e4⟩
  · exact Or.inl ⟨⟨n, e1, (k2 n).trans e2⟩, e3, e4⟩
  · exact Or.inr ⟨fun q n hq => (k2 n).trans (e1 q n hq), e2, e3, e4⟩

theorem init_inv (addr : Nat → Nat) : Inv addr init := by
  constructor
  · show 0 < 2
    omega
  · show 2 < UINT_MOD
    unfold UINT_MOD
    omega
  · rfl
  · rfl
  · show 0 ≤ 2
    omega
  · intro h chain hh p hp
    have e : chain = [] := by
      have hm : chain ∈ ([[], []] : List (List Nat)) := List.mem_iff_getElem?.mpr ⟨h, hh⟩
      simp only [List.mem_cons, List.mem_singleton, List.not_mem_nil, or_false, or_self] at hm
      exact hm
    rw [e] at hp
    cases hp
  · exact List.Perm.refl _
  · intro i j n m hi
    cases hi

/-- Every reachable table is consistent. -/
theorem Reach_inv {addr : Nat → Nat} {mgr : Mgr} (h : Reach addr mgr) : Inv addr mgr := by
  induction h with
  | init => exact init_inv addr
  | step mgr mgr1 r n _ hr hb hreq ih =>
    obtain ⟨m1, p, h1, h2, _⟩ := request_spec ih hb r hr
    rw [hreq] at h1
    cases h1
    exact h2

theorem accepts_node (r : Request) (hr : r.proper) : r.accepts r.node = true := by
  obtain ⟨type, str, c0, c1, _, k2, k3, _, _⟩ := request_key r hr
  rw [k2]
  exact k3

theorem accepts_unique {addr : Nat → Nat} {mgr : Mgr} (hI : Inv addr mgr) (r : Request)
    (hr : r.proper) {p q : Nat} {n m : Node} (hp : mgr.inserted[p]? = some n)
    (hq : mgr.inserted[q]? = some m) (hn : r.accepts n = true) (hm : r.accepts m = true) :
    p = q := by
  obtain ⟨type, str, c0, c1, _, k2, _, _, _⟩ := request_key r hr
  rw [k2] at hn hm
  exact hI.unique p q n m hp hq (node_eq_of_eq hn hm)

theorem accepts_inj (r s : Request) (hr : r.proper) (hs : s.proper) (n : Node)
    (h1 : r.accepts n = true) (h2 : s.accepts n = true) : r = s := by
  cases r with
  | var str =>
    have a1 : eq n LType.VAR str none none = true := h1
    unfold eq at a1
    rw [if_pos rfl] at a1
    obtain ⟨a2, a3⟩ := (eq_var_iff _ _).mp a1
    cases s with
    | var str2 =>
      have b1 : eq n LType.VAR str2 none none = true := h2
      unfold eq at b1
      rw [if_pos rfl] at b1
      obtain ⟨_, b3⟩ := (eq_var_iff _ _).mp b1
      rw [← a3, ← b3]
    | op type c0 c1 =>
      have ht : type ≠ LType.VAR := hs
      have b1 : eq n type "" c0 c1 = true := h2
      unfold eq at b1
      rw [if_neg ht] at b1
      obtain ⟨b2, _⟩ := (eq_op_iff _ _ _ _).mp b1
      exact absurd (b2.symm.trans a2) ht
  | op type c0 c1 =>
    have ht : type ≠ LType.VAR := hr
    have a1 : eq n type "" c0 c1 = true := h1
    unfold eq at a1
    rw [if_neg ht] at a1
    obtain ⟨a2, a3, a4⟩ := (eq_op_iff _ _ _ _).mp a1
    cases s with
    | var str2 =>
      have b1 : eq n LType.VAR str2 none none = true := h2
      unfold eq at b1
      rw [if_pos rfl] at b1
      obtain ⟨b2, _⟩ := (eq_var_iff _ _).mp b1
      exact absurd (a2.symm.trans b2) ht
    | op type2 d0 d1 =>
      have ht2 : type2 ≠ LType.VAR := hs
      have b1 : eq n type2 "" d0 d1 = true := h2
      unfold eq at b1
      rw [if_neg ht2] at b1
      obtain ⟨b2, b3, b4⟩ := (eq_op_iff _ _ _ _).mp b1
      rw [← a2, ← a3, ← a4, ← b2, ← b3, ← b4]

/-- In a consistent table `find` with the key of an allocated node returns
this node, in the chain of its hash. -/
theorem find_stored {addr : Nat → Nat} {mgr : Mgr} (hI : Inv addr mgr) {p : Nat} {n : Node}
    (hp : mgr.inserted[p]? = some n) :
    find addr mgr n.type n.as_name n.as_child0 n.as_child1
      = some (node_hash addr mgr.nodes_size n, some p) := by
  rcases find_spec hI n.type n.as_name n.as_child0 n.as_child1 with h | h
  · obtain ⟨q, m, h1, h2, h3⟩ := h
    have e : q = p := hI.unique q p m n h2 hp h3
    rw [h1, e]
    rfl
  · obtain ⟨_, _, h3⟩ := h
    have h4 := h3 p n hp
    have h5 : eq n n.type n.as_name n.as_child0 n.as_child1 = true := node_eq_self n
    rw [h5] at h4
    cases h4

/-- A sequence of proper requests on a consistent table returns; the nodes
are only appended to, and every returned node answers its request in the
final table. -/
theorem run_spec {addr : Nat → Nat} :
    ∀ (reqs : List Request) (mgr : Mgr), Inv addr mgr → (∀ r ∈ reqs, r.proper) →
      2 * (mgr.inserted.length + reqs.length) < UINT_MOD →
      ∃ m ns, run addr mgr reqs = some (m, ns) ∧ Inv addr m
        ∧ (Reach addr mgr → Reach addr m)
        ∧ (∃ new, m.inserted = mgr.inserted ++ new ∧ new.length ≤ reqs.length)
        ∧ ns.length = reqs.length
        ∧ ∀ (r : Request) (p : Nat), (r, p) ∈ reqs.zip ns →
            ∃ n, m.inserted[p]? = some n ∧ r.accepts n = true := by
  intro reqs
  induction reqs with
  | nil =>
    intro mgr hI _ _
    refine ⟨mgr, [], rfl, hI, fun h => h, ⟨[], (List.append_nil _).symm, Nat.le_refl _⟩, rfl, ?_⟩
    intro r p h
    cases h
  | cons r rest ih =>
    intro mgr hI hpr hb
    have hlen : (r :: rest).length = rest.length + 1 := rfl
    rw [hlen] at hb
    have hr : r.proper := hpr r (List.mem_cons_self r rest)
    obtain ⟨m1, p, h1, h2, h3⟩ := request_spec hI (by omega) r hr
    have hgrow : ∃ new1, m1.inserted = mgr.inserted ++ new1 ∧ new1.length ≤ 1
        ∧ ∃ n, m1.inserted[p]? = some n ∧ r.accepts n = true := by
      rcases h3 with ⟨⟨n, e1, e2⟩, e3, _⟩ | ⟨_, e2, e3, _⟩
      · refine ⟨[], by rw [e3, List.append_nil], Nat.zero_le _, n, ?_, e2⟩
        rw [e3]
        exact e1
      · refine ⟨[r.node], e3, Nat.le_refl _, r.node, ?_, accepts_node r hr⟩
        rw [e3, e2]
        exact getElem?_snoc_new _ _
    obtain ⟨new1, g1, g2, n, g3, g4⟩ := hgrow
    have hl1 : m1.inserted.length = mgr.inserted.length + new1.length := by
      rw [g1, List.length_append]
    obtain ⟨m, ns, k1, k2, k3, ⟨new2, k4, k5⟩, k6, k7⟩ := ih m1 h2
      (fun s hs => hpr s (List.mem_cons_of_mem r hs)) (by omega)
    have hrun : run addr mgr (r :: rest) = some (m, p :: ns) := by
      simp only [run, h1, k1]
    refine ⟨m, p :: ns, hrun, k2, ?_, ⟨new1 ++ new2, ?_, ?_⟩, ?_, ?_⟩
    · intro hR
      exact k3 (Reach.step mgr m1 r p hR hr (by omega) h1)
    · rw [k4, g1, List.append_assoc]
    · rw [List.length_append, hlen]
      omega
    · show ns.length + 1 = rest.length + 1
      rw [k6]
    · intro s q hsq
      have hz : (r :: rest).zip (p :: ns) = (r, p) :: rest.zip ns := rfl
      rw [hz] at hsq
      rcases List.mem_cons.mp hsq with e | e
      · cases e
        refine ⟨n, ?_, g4⟩
        rw [k4]
        rw [List.getElem?_append_left (getElem?_lt_length_any g3)]
        exact g3
      · exact k7 s q e

/-- Claim C35: in every table reached from `init` by calls of `var` and of
`op` with an operator type (made while fewer than 2^31 nodes are allocated):
(1) `nodes_count` is the number of allocated nodes, no two distinct allocated
nodes are equal under `eq`, every allocated node is in the chains exactly
once, in the chain of its hash, and `find` with its key returns it;
(2) a request returns the allocated node that answers it and then leaves the
nodes and `nodes_count` alone, or, if no allocated node answers it, allocates
one node and increments `nodes_count`;
(3) in a sequence of requests, two requests return the same node exactly when
they are equal;
(4) `enlarge_nodes` keeps the allocated nodes and `nodes_count`, doubles
`nodes_size`, and afterwards every allocated node is exactly once in the
chains, in the chain of its hash under the doubled size, where `find` returns
it. -/
theorem C35_hash_consing (addr : Nat → Nat) (mgr : Mgr) (hr : Reach addr mgr) :
    (mgr.nodes_count = mgr.inserted.length
      ∧ (∀ (i j : Nat) (n m : Node), mgr.inserted[i]? = some n → mgr.inserted[j]? = some m →
          node_eq n m = true → i = j)
      ∧ List.Perm mgr.nodes.flatten (List.range mgr.inserted.length)
      ∧ (∀ (p : Nat) (n : Node), mgr.inserted[p]? = some n →
          (∃ chain, mgr.nodes[node_hash addr mgr.nodes_size n]? = some chain ∧ p ∈ chain)
          ∧ find addr mgr n.type n.as_name n.as_child0 n.as_child1
              = some (node_hash addr mgr.nodes_size n, some p)))
    ∧ (∀ r : Request, r.proper → 2 * mgr.inserted.length < UINT_MOD →
        ∃ m1 p, request addr mgr r = some (m1, p) ∧ Reach addr m1
          ∧ (((∃ n, mgr.inserted[p]? = some n ∧ r.accepts n = true)
                ∧ m1.inserted = mgr.inserted ∧ m1.nodes_count = mgr.nodes_count)
            ∨ ((∀ (q : Nat) (n : Node), mgr.inserted[q]? = some n → r.accepts n = false)
                ∧ p = mgr.inserted.length ∧ m1.inserted = mgr.inserted ++ [r.node]
                ∧ m1.nodes_count = mgr.nodes_count + 1)))
    ∧ (∀ reqs : List Request, (∀ r ∈ reqs, r.proper) →
        2 * (mgr.inserted.length + reqs.length) < UINT_MOD →
        ∃ m ns, run addr mgr reqs = some (m, ns) ∧ Reach addr m ∧ ns.length = reqs.length
          ∧ (∃ new, m.inserted = mgr.inserted ++ new)
          ∧ ∀ (r : Request) (p : Nat) (s : Request) (q : Nat),
              (r, p) ∈ reqs.zip ns → (s, q) ∈ reqs.zip ns → (r = s ↔ p = q))
    ∧ (2 * mgr.nodes_size < UINT_MOD →
        ∃ m2, enlarge_nodes addr mgr = some m2 ∧ m2.inserted = mgr.inserted
          ∧ m2.nodes_count = mgr.nodes_count ∧ m2.nodes_size = 2 * mgr.nodes_size
          ∧ m2.nodes.length = 2 * mgr.nodes_size
          ∧ List.Perm m2.nodes.flatten (List.range mgr.inserted.length)
          ∧ ∀ (p : Nat) (n : Node), mgr.inserted[p]? = some n →
              (∃ chain, m2.nodes[node_hash addr (2 * mgr.nodes_size) n]? = some chain
                ∧ p ∈ chain)
              ∧ find addr m2 n.type n.as_name n.as_child0 n.as_child1
                  = some (node_hash addr (2 * mgr.nodes_size) n, some p)) := by
  have hI := Reach_inv hr
  refine ⟨⟨hI.count_eq, hI.unique, hI.once, fun p n hp => ⟨hI.mem_chain hp, find_stored hI hp⟩⟩,
    ?_, ?_, ?_⟩
  · intro r hpr hb
    obtain ⟨m1, p, h1, _, h3⟩ := request_spec hI hb r hpr
    exact ⟨m1, p, h1, Reach.step mgr m1 r p hr hpr hb h1, h3⟩
  · intro reqs hpr hb
    obtain ⟨m, ns, h1, h2, h3, ⟨new, h4, _⟩, h5, h6⟩ := run_spec reqs mgr hI hpr hb
    refine ⟨m, ns, h1, h3 hr, h5, ⟨new, h4⟩, ?_⟩
    intro r p s q hrp hsq
    obtain ⟨n1, a1, a2⟩ := h6 r p hrp
    obtain ⟨n2, b1, b2⟩ := h6 s q hsq
    have hr1 : r.proper := hpr r (List.of_mem_zip hrp).1
    have hs1 : s.proper := hpr s (List.of_mem_zip hsq).1
    constructor
    · intro e
      rw [← e] at b2
      exact accepts_unique h2 r hr1 a1 b1 a2 b2
    · intro e
      rw [← e, a1] at b1
      cases b1
      exact accepts_inj r s hr1 hs1 n1 a2 b2
  · intro hs
    obtain ⟨m2, h1, h2, h3, h4, h5⟩ := enlarge_nodes_spec hI hs
    refine ⟨m2, h1, h2, h4, h3, by rw [h5.length_nodes, h3], ?_, ?_⟩
    · have h6 := h5.once
      rw [h2] at h6
      exact h6
    · intro p n hp
      have hp2 : m2.inserted[p]? = some n := by
        rw [h2]
        exact hp
      have h7 := h5.mem_chain hp2
      have h8 := find_stored h5 hp2
      rw [h3] at h7 h8
      exact ⟨h7, h8⟩

theorem sample_requests_proper : ∀ r ∈ sample_requests, r.proper := by
  intro r hr
  simp only [sample_requests, List.mem_cons, List.mem_singleton, List.not_mem_nil,
    or_false] at hr
  rcases hr with e | e | e | e | e
  · subst e
    trivial
  · subst e
    trivial
  · subst e
    show LType.AND ≠ LType.VAR
    decide
  · subst e
    trivial
  · subst e
    trivial

set_option maxRecDepth 100000 in
/-- Claim C35, instance: the requests `a`, `b`, `a & b`, `c`, `a` on the
table of `init` (node `p` at the address `1000 + 40 p`) return the nodes
0, 1, 2, 3, 0; the table is enlarged twice, to 8 chains, and counts 4 nodes. -/
theorem C35_hash_consing_witness :
    (run (fun p => 1000 + 40 * p) init sample_requests).map
        (fun r => (r.1.nodes_size, r.1.nodes_count, r.1.nodes, r.2))
      = some (8, 4, [[], [0], [1], [3], [2], [], [], []], [0, 1, 2, 3, 0])
    ∧ Reach (fun p => 1000 + 40 * p) init
    ∧ ∃ m ns, run (fun p => 1000 + 40 * p) init sample_requests = some (m, ns)
        ∧ Reach (fun p => 1000 + 40 * p) m ∧ ns.length = sample_requests.length
        ∧ (∃ new, m.inserted = init.inserted ++ new)
        ∧ ∀ (r : Request) (p : Nat) (s : Request) (q : Nat),
            (r, p) ∈ sample_requests.zip ns → (s, q) ∈ sample_requests.zip ns →
            (r = s ↔ p = q) :=
  ⟨by rfl, Reach.init,
    (C35_hash_consing (fun p => 1000 + 40 * p) init Reach.init).2.2.1 sample_requests
      sample_requests_proper (by decide)⟩

end Hashed

end Limboole
